import Mathlib

/-!
The amd64 physical map (pmap) layer: a shallow embedding

The definitions below follow `sys/arch/amd64/amd64/pmap.c` function by
function.  The kernel state that the code manipulates through pointers is
made explicit:

* physical memory holding page tables is a map `frame address → slot → word`;
  a pointer to a page-table page (through the direct map or through the
  recursive slot) is the physical address of its frame;
* a `struct vm_page *` is the physical address of the frame it describes
  (`VM_PAGE_TO_PHYS` / `PHYS_TO_VM_PAGE` are a bijection on managed frames),
  `NULL` is `none`;
* a `struct pmap *` is a number, `0` is `pmap_kernel()`;
* a function that can panic (or dereference `NULL`) returns `none`.

Locks, interrupt levels and the TLB are not part of this state: the map is
the sequential behaviour of the code on one CPU.
-/

namespace Pmap

/-! ## Constants of `<machine/pte.h>`, `<machine/pmap.h>`, `<machine/vmparam.h>` -/

/-- Modelled from the spec: the headers are not under src/; the page size of the ISA. -/
def PAGE_SIZE : Nat := 4096
/-- Modelled from the spec: `PAGE_SIZE - 1` (header not under src/). -/
def PAGE_MASK : Nat := 0xfff
/-- Modelled from the spec: ISA bit "valid" of a page-table entry (header not under src/). -/
def PG_V : Nat := 0x1
/-- Modelled from the spec: read-only is the absence of the writable bit (header not under src/). -/
def PG_RO : Nat := 0x0
/-- Modelled from the spec: ISA bit "writable" (header not under src/). -/
def PG_RW : Nat := 0x2
/-- Modelled from the spec: ISA bit "user" (header not under src/). -/
def PG_u : Nat := 0x4
/-- Modelled from the spec: ISA bit "write-through" (header not under src/). -/
def PG_WT : Nat := 0x8
/-- Modelled from the spec: ISA bit "no-cache" (header not under src/). -/
def PG_N : Nat := 0x10
/-- Modelled from the spec: ISA bit "accessed" (header not under src/). -/
def PG_U : Nat := 0x20
/-- Modelled from the spec: ISA bit "dirty" (header not under src/). -/
def PG_M : Nat := 0x40
/-- Modelled from the spec: ISA bit "large page" of an upper-level entry (header not under src/). -/
def PG_PS : Nat := 0x80
/-- Modelled from the spec: ISA bit "global" (header not under src/). -/
def PG_G : Nat := 0x100
/-- Modelled from the spec: software bit "wired", first available bit (header not under src/). -/
def PG_W : Nat := 0x200
/-- Modelled from the spec: software bit "pv-tracked", second available bit (header not under src/). -/
def PG_PVLIST : Nat := 0x400
/-- Modelled from the spec: ISA bit "no-execute" (header not under src/). -/
def PG_NX : Nat := 0x8000000000000000
/-- Modelled from the spec: frame field of a 4 KiB entry (header not under src/). -/
def PG_FRAME : Nat := 0x000ffffffffff000
/-- Modelled from the spec: frame field of a 2 MiB entry (header not under src/). -/
def PG_LGFRAME : Nat := 0x000fffffffe00000
/-- Modelled from the spec: kernel read-write is the writable bit (header not under src/). -/
def PG_KW : Nat := 0x2
/-- Modelled from the spec: write-combining through the PAT (header not under src/). -/
def PG_WC : Nat := 0x8
/-- Modelled from the spec: uncached, overridable by the mtrrs (header not under src/). -/
def PG_UCMINUS : Nat := 0x10

/-- Modelled from the spec: extended-regime read bit (header not under src/). -/
def EPT_R : Nat := 0x1
/-- Modelled from the spec: extended-regime write bit (header not under src/). -/
def EPT_W : Nat := 0x2
/-- Modelled from the spec: extended-regime execute bit (header not under src/). -/
def EPT_X : Nat := 0x4
/-- Modelled from the spec: extended-regime write-back cacheability field (header not under src/). -/
def EPT_WB : Nat := 0x30

/-- Modelled from the spec: `~PAGE_MASK` on 64 bits (header not under src/). -/
def PMAP_PA_MASK : Nat := 0xfffffffffffff000
/-- Modelled from the spec: flag `NOCACHE`, carried in the low bits of `pa` (header not under src/). -/
def PMAP_NOCACHE : Nat := 0x1
/-- Modelled from the spec: flag `WRITE_COMBINE`, carried in the low bits of `pa` (header not under src/). -/
def PMAP_WC : Nat := 0x2
/-- Modelled from the spec: flag `WIRED` (header not under src/). -/
def PMAP_WIRED : Nat := 0x10
/-- Modelled from the spec: flag `CANFAIL` (header not under src/). -/
def PMAP_CANFAIL : Nat := 0x20
/-- Modelled from the spec: the error code of a failed allocation (header not under src/). -/
def ENOMEM : Nat := 12

/-- Modelled from the spec: protection bit read (header not under src/). -/
def PROT_READ : Nat := 0x1
/-- Modelled from the spec: protection bit write (header not under src/). -/
def PROT_WRITE : Nat := 0x2
/-- Modelled from the spec: protection bit execute (header not under src/). -/
def PROT_EXEC : Nat := 0x4

/-- Modelled from the spec: type tag of a normal pmap (header not under src/). -/
def PMAP_TYPE_NORMAL : Nat := 1
/-- Modelled from the spec: type tag of an extended pmap (header not under src/). -/
def PMAP_TYPE_EPT : Nat := 2

/-- Modelled from the spec: software flag "referenced" of a frame header (header not under src/). -/
def PG_PMAP_REF : Nat := 0x02000000
/-- Modelled from the spec: software flag "modified" of a frame header (header not under src/). -/
def PG_PMAP_MOD : Nat := 0x01000000
/-- Modelled from the spec: software flag "write-combining" of a frame header (header not under src/). -/
def PG_PMAP_WC : Nat := 0x04000000
/-- Modelled from the spec: flag "busy" of a frame header (header not under src/). -/
def PG_BUSY : Nat := 0x1

/-- Modelled from the spec: number of levels of the tree (header not under src/). -/
def PTP_LEVELS : Nat := 4
/-- Modelled from the spec: top-level slot of the recursive self-map (header not under src/). -/
def PDIR_SLOT_PTE : Nat := 255
/-- Modelled from the spec: first top-level slot of the kernel half (header not under src/). -/
def PDIR_SLOT_KERN : Nat := 256
/-- Modelled from the spec: top-level slot of the direct map (header not under src/). -/
def PDIR_SLOT_DIRECT : Nat := 510
/-- Modelled from the spec: entries of a top-level page (header not under src/). -/
def NTOPLEVEL_PDES : Nat := 512
/-- Modelled from the spec: bytes mapped by a level-2 entry, 2 MiB (header not under src/). -/
def NBPD_L2 : Nat := 0x200000

/-- Modelled from the spec: index masks of the four levels (header not under src/). -/
def L1_MASK : Nat := 0x00000000001ff000
/-- Modelled from the spec: index mask of level 2 (header not under src/). -/
def L2_MASK : Nat := 0x000000003fe00000
/-- Modelled from the spec: index mask of level 3 (header not under src/). -/
def L3_MASK : Nat := 0x0000007fc0000000
/-- Modelled from the spec: index mask of level 4 (header not under src/). -/
def L4_MASK : Nat := 0x0000ff8000000000
/-- Modelled from the spec: shift of level 1 (header not under src/). -/
def L1_SHIFT : Nat := 12
/-- Modelled from the spec: shift of level 2 (header not under src/). -/
def L2_SHIFT : Nat := 21
/-- Modelled from the spec: shift of level 3 (header not under src/). -/
def L3_SHIFT : Nat := 30
/-- Modelled from the spec: shift of level 4 (header not under src/). -/
def L4_SHIFT : Nat := 39
/-- Modelled from the spec: `L4_MASK` (header not under src/). -/
def L4_FRAME : Nat := 0x0000ff8000000000
/-- Modelled from the spec: `L4_FRAME | L3_MASK` (header not under src/). -/
def L3_FRAME : Nat := 0x0000ffffc0000000
/-- Modelled from the spec: `L3_FRAME | L2_MASK` (header not under src/). -/
def L2_FRAME : Nat := 0x0000ffffffe00000
/-- Modelled from the spec: `L2_FRAME | L1_MASK` (header not under src/). -/
def L1_FRAME : Nat := 0x0000fffffffff000
/-- Modelled from the spec: offset inside a 2 MiB page (header not under src/). -/
def PAGE_MASK_L2 : Nat := 0x1fffff

/-- Modelled from the spec: end of the user part of the address space (header not under src/). -/
def VM_MAXUSER_ADDRESS : Nat := 0x00007f7fffffc000
/-- Modelled from the spec: end of the recursive PTE space (header not under src/). -/
def VM_MAX_ADDRESS : Nat := 0x00007fbfdfeff000
/-- Modelled from the spec: start of the kernel half (header not under src/). -/
def VM_MIN_KERNEL_ADDRESS : Nat := 0xffff800000000000
/-- Modelled from the spec: start of the kernel image, the last 2 GiB of the
address space; it differs from `VM_MIN_KERNEL_ADDRESS` (header not under src/). -/
def KERNBASE : Nat := 0xffffffff80000000
/-- Modelled from the spec: virtual address of the top-level page in the recursive map (header not under src/). -/
def PDP_BASE : Nat := 0x00007fbfdfeff000
/-- Modelled from the spec: start of the fixed direct-map window (header not under src/). -/
def PMAP_DIRECT_BASE : Nat := 0xffffff0000000000
/-- Modelled from the spec: end of the fixed direct-map window (header not under src/). -/
def PMAP_DIRECT_END : Nat := 0xffffff8000000000
/-- Modelled from the spec: largest guest-physical address of the extended regime (header not under src/). -/
def MAXDSIZ : Nat := 0x800000000

/-- `(paddr_t)-1`. -/
def PADDR_NONE : Nat := 0xffffffffffffffff

/-- A 64-bit result of address arithmetic. -/
def w64 (x : Nat) : Nat := x % 2 ^ 64

/-- Modelled from the spec: `PMAP_DIRECT_MAP(pa)`, the kernel address of the
physical address `pa` in the fixed direct-map window (header not under
src/).  The model reads and writes a table through its physical address;
the kernel address matters where the code tests the pointer against `NULL`. -/
def PMAP_DIRECT_MAP (pa : Nat) : Nat := w64 (PMAP_DIRECT_BASE + pa)

/-! ## State -/

/-- `struct pv_entry`: one alias of a frame. -/
structure pv_entry where
  pv_pmap : Nat
  pv_va : Nat
  pv_ptp : Option Nat
deriving DecidableEq

/-- `struct pmap`.  `pm_obj i` is the page index of `pm_obj[i]` as the list
of its (offset, page) pairs; `uo_refs` is `pm_obj[0].uo_refs`, kept as an
integer without the wrap of the C `int` at `2^31` references, as are the two
`long` counters of `pm_stats`; `pm_pdir` and
`pm_pdir_intel` are the frames of the root and of the shadow root (`0` for a
`NULL` pointer). -/
structure struct_pmap where
  pm_obj : Nat → List (Nat × Nat)
  pm_ptphint : Nat → Option Nat
  pm_pdir : Nat
  pm_pdirpa : Nat
  pm_pdir_intel : Nat
  pm_pdirpa_intel : Nat
  resident_count : Int
  wired_count : Int
  pm_cpus : Nat
  pm_type : Nat
  uo_refs : Int

/-- The kernel state the pmap layer works on. -/
structure kstate where
  /-- physical frames seen as page-table pages -/
  mem : Nat → Nat → Nat
  /-- `wire_count` of each `struct vm_page` -/
  wire_count : Nat → Nat
  /-- `pg_flags` of each `struct vm_page` -/
  pg_flags : Nat → Nat
  /-- `mdpage.pv_list` of each `struct vm_page` -/
  pv_list : Nat → List pv_entry
  /-- the pmap structures, by pointer -/
  pm : Nat → struct_pmap
  /-- the global list `pmaps` of all non-kernel pmaps -/
  pmaps : List Nat
  /-- `%cr3` of the CPU running the code -/
  cr3 : Nat
  /-- the frames the frame allocator can hand out -/
  free_pages : List Nat
  /-- the frames of `pmap_pdp_pool` -/
  pdp_pool : List Nat
  /-- the structures of `pmap_pmap_pool` -/
  pmap_pool : List Nat
  /-- number of entries `pmap_pv_pool` can hand out -/
  pv_pool : Nat
  /-- `nkptp[]` -/
  nkptp : Nat → Nat
  /-- `pmap_initialized` -/
  pmap_initialized : Bool

/-- What is fixed once the kernel is built and booted. -/
structure config where
  /-- the kernel is compiled with `DIAGNOSTIC` -/
  DIAGNOSTIC : Bool
  /-- `pg_nx` -/
  pg_nx : Nat
  /-- `pg_g_kern` -/
  pg_g_kern : Nat
  /-- `pmap_pg_wc` -/
  pmap_pg_wc : Nat
  /-- `cpu_meltdown` -/
  cpu_meltdown : Bool
  /-- `PHYS_TO_VM_PAGE(pa) != NULL` -/
  managed : Nat → Bool
  /-- `cpu_number()` -/
  cpu_number : Nat

/-- Store `v` in slot `i` of frame `t`. -/
def mem_set (m : Nat → Nat → Nat) (t i v : Nat) : Nat → Nat → Nat :=
  fun t1 i1 => if t1 = t ∧ i1 = i then v else m t1 i1

/-- Store `v` in slot `i` of the frame `t` of the state. -/
def set_mem (s : kstate) (t i v : Nat) : kstate :=
  { s with mem := mem_set s.mem t i v }

/-- Zero the frame `t`. -/
def mem_zero (m : Nat → Nat → Nat) (t : Nat) : Nat → Nat → Nat :=
  fun t1 i1 => if t1 = t then 0 else m t1 i1

/-- Update a map at one key. -/
def upd {α : Type} (f : Nat → α) (k : Nat) (v : α) : Nat → α :=
  fun k1 => if k1 = k then v else f k1

/-- `PHYS_TO_VM_PAGE`. -/
def PHYS_TO_VM_PAGE (c : config) (pa : Nat) : Option Nat :=
  if c.managed pa then some pa else none

/-! ## Address arithmetic -/

/-- `VA_SIGN_POS`: the reserved upper bits zeroed. -/
def VA_SIGN_POS (va : Nat) : Nat := va &&& 0x0000ffffffffffff

/-- `ptp_masks[]`. -/
def ptp_masks : Nat → Nat
  | 0 => L1_FRAME
  | 1 => L2_FRAME
  | 2 => L3_FRAME
  | _ => L4_FRAME

/-- `ptp_shifts[]`. -/
def ptp_shifts : Nat → Nat
  | 0 => L1_SHIFT
  | 1 => L2_SHIFT
  | 2 => L3_SHIFT
  | _ => L4_SHIFT

/-- `pl_i(va, lvl)`: index of the level-`lvl` entry of `va` in the array of
all entries of that level. -/
def pl_i (va lvl : Nat) : Nat :=
  (VA_SIGN_POS va &&& ptp_masks (lvl - 1)) >>> ptp_shifts (lvl - 1)

/-- `pl1_i`. -/
def pl1_i (va : Nat) : Nat := pl_i va 1

/-- Modelled from the spec: `pl4_pi(va)`, the index of `va` in the top-level
page (header not under src/). -/
def pl4_pi (va : Nat) : Nat := (VA_SIGN_POS va &&& L4_MASK) >>> L4_SHIFT

/-- `ptp_va2o(va, lvl)`: offset of the level-`lvl` PTP of `va` in its index. -/
def ptp_va2o (va lvl : Nat) : Nat := pl_i va (lvl + 1) * PAGE_SIZE

/-- `x86_round_pdr`: round up to a 2 MiB boundary (64-bit arithmetic). -/
def x86_round_pdr (x : Nat) : Nat :=
  w64 (x + (NBPD_L2 - 1)) &&& 0xffffffffffe00000

/-- `pmap_valid_entry`. -/
def pmap_valid_entry (e : Nat) : Bool := e &&& PG_V != 0

/-- `protection_codes[]` as `pmap_bootstrap` fills it. -/
def protection_codes (c : config) (prot : Nat) : Nat :=
  if prot = 0 then c.pg_nx
  else if prot = PROT_EXEC then PG_RO
  else if prot = PROT_READ then PG_RO ||| c.pg_nx
  else if prot = PROT_READ ||| PROT_EXEC then PG_RO
  else if prot = PROT_WRITE then PG_RW ||| c.pg_nx
  else if prot = PROT_WRITE ||| PROT_EXEC then PG_RW
  else if prot = PROT_WRITE ||| PROT_READ then PG_RW ||| c.pg_nx
  else if prot = PROT_READ ||| PROT_WRITE ||| PROT_EXEC then PG_RW
  else 0

/-! ## Inline helpers -/

/-- `pmap_is_curpmap`. -/
def pmap_is_curpmap (s : kstate) (pmap : Nat) : Bool :=
  pmap == 0 || (s.pm pmap).pm_pdirpa == s.cr3

/-- `pmap_pte2flags`. -/
def pmap_pte2flags (pte : Nat) : Nat :=
  (if pte &&& PG_U ≠ 0 then PG_PMAP_REF else 0) |||
    (if pte &&& PG_M ≠ 0 then PG_PMAP_MOD else 0)

/-- `pmap_sync_flags_pte`. -/
def pmap_sync_flags_pte (s : kstate) (pg pte : Nat) : kstate :=
  if pte &&& (PG_U ||| PG_M) ≠ 0 then
    { s with pg_flags := upd s.pg_flags pg (s.pg_flags pg ||| pmap_pte2flags pte) }
  else s

/-- `pmap_map_ptes`: returns the saved `%cr3` (`0` when nothing was loaded). -/
def pmap_map_ptes (c : config) (s : kstate) (pmap : Nat) : Option (Nat × kstate) :=
  if c.DIAGNOSTIC ∧ (s.pm pmap).pm_type = PMAP_TYPE_EPT then none
  else if pmap = 0 ∨ (s.pm pmap).pm_pdirpa = s.cr3 then some (0, s)
  else
    let p := s.pm pmap
    some (s.cr3,
      { s with
        pm := upd s.pm pmap { p with pm_cpus := p.pm_cpus ||| (1 <<< c.cpu_number) }
        cr3 := p.pm_pdirpa })

/-- `pmap_unmap_ptes`. -/
def pmap_unmap_ptes (c : config) (s : kstate) (pmap save_cr3 : Nat) : kstate :=
  if save_cr3 ≠ 0 then
    let p := s.pm pmap
    { s with
      pm := upd s.pm pmap
        { p with pm_cpus := p.pm_cpus &&& (0xffffffffffffffff ^^^ (1 <<< c.cpu_number)) }
      cr3 := save_cr3 }
  else s

/-- The loop of `pmap_find_pte_direct`; `pd` and `offs` are the out
parameters as last written. -/
def pmap_find_pte_direct_loop (s : kstate) (va : Nat) :
    Nat → Nat → Nat → Nat → Nat → Nat → Nat × Nat × Nat
  | 0, _, _, _, pd, offs => (0, pd, offs)
  | lev + 1, pdpa, shift, mask, _, _ =>
    let pd := pdpa
    let offs := (VA_SIGN_POS va &&& mask) >>> shift
    let pde := s.mem pd offs
    if pde &&& (PG_PS ||| PG_V) ≠ PG_V then (lev, pd, offs)
    else pmap_find_pte_direct_loop s va lev (pde &&& PG_FRAME) (shift - 9) (mask >>> 9) pd offs

/-- `pmap_find_pte_direct`: (level, table, offset). -/
def pmap_find_pte_direct (s : kstate) (pm va : Nat) : Nat × Nat × Nat :=
  pmap_find_pte_direct_loop s va PTP_LEVELS (s.pm pm).pm_pdirpa L4_SHIFT L4_MASK 0 0

/-- `pmap_extract`: `some pa` for `TRUE` with `*pap = pa`, `none` for `FALSE`. -/
def pmap_extract (s : kstate) (pmap va : Nat) : Option Nat :=
  if pmap = 0 ∧ va ≥ PMAP_DIRECT_BASE ∧ va < PMAP_DIRECT_END then
    some (va - PMAP_DIRECT_BASE)
  else
    match pmap_find_pte_direct s pmap va with
    | (level, ptes, offs) =>
      if level = 0 ∧ pmap_valid_entry (s.mem ptes offs) then
        some ((s.mem ptes offs &&& PG_FRAME) ||| (va &&& PAGE_MASK))
      else if level = 1 ∧ s.mem ptes offs &&& (PG_PS ||| PG_V) = (PG_PS ||| PG_V) then
        some ((s.mem ptes offs &&& PG_LGFRAME) ||| (va &&& PAGE_MASK_L2))
      else none

/-! ## Access through the recursive mapping

`normal_pdes[lvl - 2][pl_i(va, lvl)]` and `PTE_BASE[pl1_i(va)]` are memory
accesses at virtual addresses inside the recursive slot.  The MMU resolves
them, in the root loaded in `%cr3`, to the level-`lvl` entry on the path of
`va`; the access faults when an entry above it is not valid. -/

/-- One step down the tree as the MMU takes it for a table access. -/
def rec_step (s : kstate) (va lvl : Nat) (t : Option Nat) : Option Nat :=
  match t with
  | none => none
  | some t =>
    let e := s.mem t (pl_i va lvl % 512)
    if pmap_valid_entry e then some (e &&& PG_FRAME) else none

/-- Frame holding the level-`lvl` entry of `va` in the loaded tree. -/
def rec_table (s : kstate) (va lvl : Nat) : Option Nat :=
  if lvl ≥ 4 then some s.cr3
  else if lvl = 3 then rec_step s va 4 (some s.cr3)
  else if lvl = 2 then rec_step s va 3 (rec_step s va 4 (some s.cr3))
  else rec_step s va 2 (rec_step s va 3 (rec_step s va 4 (some s.cr3)))

/-- Read `normal_pdes[lvl - 2][pl_i(va, lvl)]` (`PTE_BASE[pl1_i(va)]` for level 1). -/
def pde_read (s : kstate) (va lvl : Nat) : Option Nat :=
  (rec_table s va lvl).map fun t => s.mem t (pl_i va lvl % 512)

/-- Write `normal_pdes[lvl - 2][pl_i(va, lvl)]` (`PTE_BASE[pl1_i(va)]` for level 1). -/
def pde_write (s : kstate) (va lvl v : Nat) : Option kstate :=
  (rec_table s va lvl).map fun t => set_mem s t (pl_i va lvl % 512) v

/-! ## Elementary state updates -/

/-- `pg->wire_count = w`. -/
def set_wire (s : kstate) (pg w : Nat) : kstate :=
  { s with wire_count := upd s.wire_count pg w }

/-- `pg->wire_count--` on an `u_int`. -/
def wire_dec (s : kstate) (pg : Nat) : kstate :=
  set_wire s pg ((s.wire_count pg + (2 ^ 32 - 1)) % 2 ^ 32)

/-- `pg->wire_count++` on an `u_int`. -/
def wire_inc (s : kstate) (pg : Nat) : kstate :=
  set_wire s pg ((s.wire_count pg + 1) % 2 ^ 32)

/-- `pmap->pm_stats.resident_count += d`. -/
def add_resident (s : kstate) (pmap : Nat) (d : Int) : kstate :=
  let p := s.pm pmap
  { s with pm := upd s.pm pmap { p with resident_count := p.resident_count + d } }

/-- `pmap->pm_stats.wired_count += d`. -/
def add_wired (s : kstate) (pmap : Nat) (d : Int) : kstate :=
  let p := s.pm pmap
  { s with pm := upd s.pm pmap { p with wired_count := p.wired_count + d } }

/-- `pmap->pm_ptphint[lidx] = h`. -/
def set_hint (s : kstate) (pmap lidx : Nat) (h : Option Nat) : kstate :=
  let p := s.pm pmap
  { s with pm := upd s.pm pmap { p with pm_ptphint := upd p.pm_ptphint lidx h } }

/-- `pool_put(&pmap_pv_pool, _)`, `n` times. -/
def pv_pool_put (s : kstate) (n : Nat) : kstate :=
  { s with pv_pool := s.pv_pool + n }

/-! ## The collaborators: frame allocator, page index, pools

These are not in `pmap.c`; the model keeps what the pmap layer relies on. -/

/-- Modelled from the spec: `struct vm_page.uobject` is kept as part of the
index: a page is in at most the index it was allocated into.  `obj_remove`
takes the page out of the index `lidx` of `pmap`. -/
def obj_remove (s : kstate) (pmap lidx pg : Nat) : kstate :=
  let p := s.pm pmap
  let p1 := { p with pm_obj := upd p.pm_obj lidx ((p.pm_obj lidx).filter fun e => e.2 != pg) }
  { s with pm := upd s.pm pmap p1 }

/-- Modelled from the spec: `uvm_pagealloc(obj, off, NULL, UVM_PGA_USERESERVE|UVM_PGA_ZERO)`
(frame allocator, not under src/): hands out the first free frame, zeroed,
busy, entered in the index `lidx` of `pmap` at `off`; `NULL` when no frame is free. -/
def uvm_pagealloc (s : kstate) (pmap lidx off : Nat) : Option Nat × kstate :=
  match s.free_pages with
  | [] => (none, s)
  | f :: rest =>
    let p := s.pm pmap
    (some f,
      { s with
        free_pages := rest
        mem := mem_zero s.mem f
        pg_flags := upd s.pg_flags f PG_BUSY
        wire_count := upd s.wire_count f 0
        pm := upd s.pm pmap { p with pm_obj := upd p.pm_obj lidx ((off, f) :: p.pm_obj lidx) } })

/-- Modelled from the spec: `uvm_pagelookup` (page index, not under src/). -/
def uvm_pagelookup (obj : List (Nat × Nat)) (off : Nat) : Option Nat :=
  obj.lookup off

/-- Modelled from the spec: `RBT_ROOT(uvm_objtree, &obj->memt)` (page index,
not under src/): some page of the index, `NULL` when it is empty; which one
is decided by the tree code, the model takes the first of the list. -/
def RBT_ROOT (obj : List (Nat × Nat)) : Option Nat :=
  obj.head?.map Prod.snd

/-- Modelled from the spec: `uvm_pagefree` for a page that is in no index
(frame allocator, not under src/): the frame is free again. -/
def uvm_pagefree (s : kstate) (pg : Nat) : kstate :=
  { s with free_pages := pg :: s.free_pages, wire_count := upd s.wire_count pg 0 }

/-- `atomic_clearbits_int(&pg->pg_flags, PG_BUSY)`. -/
def clear_busy (s : kstate) (pg : Nat) : kstate :=
  { s with pg_flags := upd s.pg_flags pg (s.pg_flags pg &&& (0xffffffff ^^^ PG_BUSY)) }

/-! ## pv_entry functions -/

/-- `pmap_enter_pv`: prepend to the chain of `pg`. -/
def pmap_enter_pv (s : kstate) (pg pmap va : Nat) (ptp : Option Nat) : kstate :=
  let pve : pv_entry := { pv_pmap := pmap, pv_va := va, pv_ptp := ptp }
  { s with pv_list := upd s.pv_list pg (pve :: s.pv_list pg) }

/-- The scan of `pmap_remove_pv` over a chain: the chain without the first
match, and the match. -/
def pv_remove_first (pmap va : Nat) : List pv_entry → List pv_entry × Option pv_entry
  | [] => ([], none)
  | pve :: rest =>
    if pve.pv_pmap = pmap ∧ pve.pv_va = va then (rest, some pve)
    else
      let r := pv_remove_first pmap va rest
      (pve :: r.1, r.2)

/-- `pmap_remove_pv`: returns the removed entry (`none` for `NULL`). -/
def pmap_remove_pv (s : kstate) (pg pmap va : Nat) : Option pv_entry × kstate :=
  let r := pv_remove_first pmap va (s.pv_list pg)
  (r.2, { s with pv_list := upd s.pv_list pg r.1 })

/-! ## PTP functions -/

/-- `pmap_find_ptp`. -/
def pmap_find_ptp (s : kstate) (pmap va pa level : Nat) : Option Nat :=
  let lidx := level - 1
  let p := s.pm pmap
  if pa ≠ PADDR_NONE ∧ p.pm_ptphint lidx ≠ none ∧ some pa = p.pm_ptphint lidx then
    p.pm_ptphint lidx
  else
    uvm_pagelookup (p.pm_obj lidx) (ptp_va2o va level)

/-- `pmap_freepage`: the page goes to the tail of `pagelist`. -/
def pmap_freepage (s : kstate) (pmap ptp level : Nat) (pagelist : List Nat) :
    kstate × List Nat :=
  let lidx := level - 1
  let s1 := add_resident s pmap (-1)
  let s2 :=
    if (s1.pm pmap).pm_ptphint lidx = some ptp then
      set_hint s1 pmap lidx (RBT_ROOT ((s1.pm pmap).pm_obj lidx))
    else s1
  let s3 := set_wire s2 ptp 0
  (obj_remove s3 pmap lidx ptp, pagelist ++ [ptp])

/-- The `do ... while` loop of `pmap_free_ptp`, entered at `level` with
`PTP_LEVELS - level` rounds left at most. -/
def pmap_free_ptp_loop (s : kstate) (pmap va : Nat) :
    Nat → Nat → Nat → List Nat → Option (kstate × List Nat)
  | 0, _, _, pagelist => some (s, pagelist)
  | n + 1, ptp, level, pagelist =>
    let r := pmap_freepage s pmap ptp level pagelist
    let index := pl_i va (level + 1)
    match pde_write r.1 va (level + 1) 0 with
    | none => none
    | some s1 =>
      let s2 :=
        if level = 3 ∧ (s1.pm pmap).pm_pdir_intel ≠ 0 then
          set_mem s1 (s1.pm pmap).pm_pdir_intel index 0
        else s1
      if level < PTP_LEVELS - 1 then
        match pmap_find_ptp s2 pmap va PADDR_NONE (level + 1) with
        | none => none
        | some pptp =>
          let s3 := wire_dec s2 pptp
          if s3.wire_count pptp > 1 then some (s3, r.2)
          else if level + 1 < PTP_LEVELS then
            pmap_free_ptp_loop s3 pmap va n pptp (level + 1) r.2
          else some (s3, r.2)
      else if level + 1 < PTP_LEVELS then
        pmap_free_ptp_loop s2 pmap va n ptp (level + 1) r.2
      else some (s2, r.2)

/-- `pmap_free_ptp`. -/
def pmap_free_ptp (s : kstate) (pmap ptp va : Nat) (pagelist : List Nat) :
    Option (kstate × List Nat) :=
  pmap_free_ptp_loop s pmap va PTP_LEVELS ptp 1 pagelist

/-- One round of the loop of `pmap_get_ptp` after `uvm_pagealloc` gave the
page `np`, from `atomic_clearbits_int` to `pptp->wire_count++`: the page is
linked under the level-`i` entry of `va`.  `pptp` and `ppa` are the values
saved from the previous round; `none` for a panic. -/
def pmap_get_ptp_link (s1 : kstate) (pmap va i : Nat) (pptp : Option Nat) (ppa np : Nat) :
    Option kstate :=
  let index := pl_i va i
  let s2 := set_hint (set_wire (clear_busy s1 np) np 1) pmap (i - 2) (some np)
  let pa := np
  match pde_write s2 va i (pa ||| PG_u ||| PG_RW ||| PG_V) with
  | none => none
  | some s3 =>
    match pde_read s3 va i with
    | none => none
    | some e1 =>
      let s4 :=
        if (s3.pm pmap).pm_pdir_intel ≠ 0 ∧ i = 4 ∧ va < VM_MAXUSER_ADDRESS then
          set_mem s3 (s3.pm pmap).pm_pdir_intel index e1
        else s3
      let s5 := add_resident s4 pmap 1
      if i < PTP_LEVELS then
        let pptp1 :=
          match pptp with
          | none => pmap_find_ptp s5 pmap va ppa i
          | some q => some q
        match pptp1 with
        | none => none
        | some q => some (wire_inc s5 q)
      else some s5

/-- The `for` loop of `pmap_get_ptp` with `n` rounds left (`i = n + 1`);
the result is `none` for a panic, `some (none, _)` for `return NULL`, else
the loop variables `ptp` and `ppa` at the exit. -/
def pmap_get_ptp_loop (pmap va : Nat) :
    Nat → Option Nat → Nat → Nat → kstate → Option (Option (Option Nat × Nat) × kstate)
  | 0, ptp, _, ppa, s => some (some (ptp, ppa), s)
  | n + 1, ptp, pa, _, s =>
    let i := n + 2
    let pptp := ptp
    let ppa := pa
    match pde_read s va i with
    | none => none
    | some e =>
      if pmap_valid_entry e then
        pmap_get_ptp_loop pmap va n none pa (e &&& PG_FRAME) s
      else
        match uvm_pagealloc s pmap (i - 2) (ptp_va2o va (i - 1)) with
        | (none, s1) => some (none, s1)
        | (some np, s1) =>
          match pmap_get_ptp_link s1 pmap va i pptp ppa np with
          | none => none
          | some s6 => pmap_get_ptp_loop pmap va n (some np) np ppa s6

/-- `pmap_get_ptp`: the PTP (`none` for `NULL`), or `none` for a panic. -/
def pmap_get_ptp (c : config) (s : kstate) (pmap va : Nat) : Option (Option Nat × kstate) :=
  match pmap_get_ptp_loop pmap va (PTP_LEVELS - 1) none PADDR_NONE PADDR_NONE s with
  | none => none
  | some (none, s1) => some (none, s1)
  | some (some (ptp, ppa), s1) =>
    let ptp1 :=
      match ptp with
      | none => pmap_find_ptp s1 pmap va ppa 1
      | some q => some q
    if c.DIAGNOSTIC ∧ ptp1 = none then none
    else some (ptp1, set_hint s1 pmap 0 ptp1)

/-! ## Life cycle -/

/-- `pmap_pdp_ctor`: the writes to the new root `pdir`, the later ones
overriding the earlier ones.  `PDP_BASE[]` is the loaded root seen through
the recursive slot.  The last write is under
`#if VM_MIN_KERNEL_ADDRESS != KERNBASE`. -/
def pmap_pdp_ctor (c : config) (s : kstate) (pdir : Nat) : kstate :=
  let pdirpa := pdir
  let npde := s.nkptp (PTP_LEVELS - 1)
  let kpm := s.pm 0
  { s with mem := fun t i =>
      if t = pdir ∧ i < NTOPLEVEL_PDES then
        if VM_MIN_KERNEL_ADDRESS ≠ KERNBASE ∧ i = pl4_pi KERNBASE then
          s.mem s.cr3 (pl4_pi KERNBASE)
        else if i = PDIR_SLOT_DIRECT then s.mem kpm.pm_pdir PDIR_SLOT_DIRECT
        else if i < PDIR_SLOT_PTE then 0
        else if i = PDIR_SLOT_PTE then pdirpa ||| PG_V ||| PG_KW ||| c.pg_nx
        else if i < PDIR_SLOT_KERN + npde then s.mem s.cr3 i
        else 0
      else s.mem t i }

/-- `pmap_pdp_ctor_intel`: `memcpy(pdir, kpm->pm_pdir_intel, PAGE_SIZE)`.
The kernel pmap has no shadow root until `pmap_enter_special` gives it one
(`pmap_bootstrap` sets `pm_pdir_intel` to 0): the copy from `NULL` faults
(`none`). -/
def pmap_pdp_ctor_intel (s : kstate) (pdir : Nat) : Option kstate :=
  let kpm := s.pm 0
  if kpm.pm_pdir_intel = 0 then none
  else
    some { s with mem := fun t i =>
      if t = pdir ∧ i < 512 then s.mem kpm.pm_pdir_intel i else s.mem t i }

/-- `pmap_create`: the new pmap.  The pools are asked with `PR_WAITOK`: on
an empty pool the call does not return (`none`); with `cpu_meltdown` and a
kernel pmap without shadow root `pmap_pdp_ctor_intel` faults (`none`). -/
def pmap_create (c : config) (s : kstate) : Option (Nat × kstate) :=
  match s.pmap_pool with
  | [] => none
  | pmap :: ppool =>
    match s.pdp_pool with
    | [] => none
    | pdir :: pool1 =>
      let s1 := pmap_pdp_ctor c { s with pmap_pool := ppool, pdp_pool := pool1 } pdir
      let p0 : struct_pmap :=
        { pm_obj := fun _ => []
          pm_ptphint := fun _ => none
          pm_pdir := pdir
          pm_pdirpa := s1.mem pdir PDIR_SLOT_PTE &&& PG_FRAME
          pm_pdir_intel := 0
          pm_pdirpa_intel := 0
          resident_count := 1
          wired_count := 0
          pm_cpus := 0
          pm_type := PMAP_TYPE_NORMAL
          uo_refs := 1 }
      if c.cpu_meltdown then
        match pool1 with
        | [] => none
        | pdi :: pool2 =>
          match pmap_pdp_ctor_intel { s1 with pdp_pool := pool2 } pdi with
          | none => none
          | some s2 =>
            let p1 := { p0 with
              pm_pdir_intel := pdi
              pm_pdirpa_intel := pdi
              resident_count := p0.resident_count + 1 }
            some (pmap, { s2 with pm := upd s2.pm pmap p1, pmaps := pmap :: s2.pmaps })
      else
        some (pmap, { s1 with pm := upd s1.pm pmap p0, pmaps := pmap :: s1.pmaps })

/-- The loop of `pmap_destroy` that frees the pages left in the index
`lidx`; `uvm_pagefree` takes each page out of the index. -/
def pmap_destroy_pages (pmap lidx : Nat) : Nat → kstate → kstate
  | 0, s => s
  | n + 1, s =>
    match RBT_ROOT ((s.pm pmap).pm_obj lidx) with
    | none => s
    | some pg =>
      let s1 := add_resident (set_wire s pg 0) pmap (-1)
      pmap_destroy_pages pmap lidx n (uvm_pagefree (obj_remove s1 pmap lidx pg) pg)

/-- `pmap_destroy`. -/
def pmap_destroy (c : config) (s : kstate) (pmap : Nat) : Option kstate :=
  let p := s.pm pmap
  let refs := p.uo_refs - 1
  let s0 : kstate := { s with pm := upd s.pm pmap { p with uo_refs := refs } }
  if refs > 0 then some s0
  else
    let s1 : kstate := { s0 with pmaps := s0.pmaps.erase pmap }
    if c.DIAGNOSTIC ∧
        (∃ e ∈ (s1.pm pmap).pm_obj 0 ++ (s1.pm pmap).pm_obj 1 ++ (s1.pm pmap).pm_obj 2,
          s1.pg_flags e.2 &&& PG_BUSY ≠ 0) then none
    else
      let s2 := pmap_destroy_pages pmap 0 ((s1.pm pmap).pm_obj 0).length s1
      let s3 := pmap_destroy_pages pmap 1 ((s2.pm pmap).pm_obj 1).length s2
      let s4 := pmap_destroy_pages pmap 2 ((s3.pm pmap).pm_obj 2).length s3
      let s5 : kstate := { s4 with pdp_pool := (s4.pm pmap).pm_pdir :: s4.pdp_pool }
      let s6 : kstate :=
        if (s5.pm pmap).pm_pdir_intel ≠ 0 then
          let s51 := add_resident s5 pmap (-1)
          { s51 with pdp_pool := (s51.pm pmap).pm_pdir_intel :: s51.pdp_pool }
        else s5
      some { s6 with pmap_pool := pmap :: s6.pmap_pool }

/-- `pmap_reference`. -/
def pmap_reference (s : kstate) (pmap : Nat) : kstate :=
  let p := s.pm pmap
  { s with pm := upd s.pm pmap { p with uo_refs := p.uo_refs + 1 } }

/-- `pmap_pdes_valid`: `none` for `FALSE`, else the last entry read. -/
def pmap_pdes_valid (s : kstate) (va : Nat) : Option Nat :=
  match pde_read s va 4 with
  | none => none
  | some e4 =>
    if ¬ pmap_valid_entry e4 then none
    else
      match pde_read s va 3 with
      | none => none
      | some e3 =>
        if ¬ pmap_valid_entry e3 then none
        else
          match pde_read s va 2 with
          | none => none
          | some e2 => if ¬ pmap_valid_entry e2 then none else some e2

/-! ## Removal -/

/-- `PMAP_REMOVE_SKIPWIRED`. -/
def PMAP_REMOVE_SKIPWIRED : Nat := 1
/-- `PMAP_REMOVE_ALL`. -/
def PMAP_REMOVE_ALL : Nat := 0

/-- The counter updates after a PTE is zapped: `wired_count` when the old
PTE `opte` was wired, `resident_count`, and the `wire_count` of the PTP. -/
def pmap_zap_stats (s : kstate) (pmap : Nat) (ptp : Option Nat) (opte : Nat) : kstate :=
  let s11 := if opte &&& PG_W ≠ 0 then add_wired s pmap (-1) else s
  let s2 := add_resident s11 pmap (-1)
  match ptp with
  | none => s2
  | some q => wire_dec s2 q

/-- The pv part after a PTE is zapped: when the old PTE `opte` was
pv-tracked, its R/M bits are synced and its pv entry is detached and put on
`free_pvs`. -/
def pmap_zap_pv (c : config) (s : kstate) (pmap va opte : Nat) (free_pvs : List pv_entry) :
    Option (kstate × List pv_entry) :=
  let pg := PHYS_TO_VM_PAGE c (opte &&& PG_FRAME)
  if opte &&& PG_PVLIST = 0 then
    if c.DIAGNOSTIC ∧ pg ≠ none then none else some (s, free_pvs)
  else
    match pg with
    | none => none
    | some pg =>
      let s4 := pmap_sync_flags_pte s pg opte
      let r := pmap_remove_pv s4 pg pmap va
      match r.1 with
      | none => some (r.2, free_pvs)
      | some pve => some (r.2, pve :: free_pvs)

/-- The statements that `pmap_remove_pte` and the loop body of
`pmap_remove_ptes` share, from "atomically save the old PTE and zap! it" on:
`va` is the address whose leaf `PTE_BASE[pl1_i(va)]` is zapped. -/
def pmap_zap_pte (c : config) (s : kstate) (pmap : Nat) (ptp : Option Nat) (va : Nat)
    (free_pvs : List pv_entry) : Option (kstate × List pv_entry) :=
  match pde_read s va 1 with
  | none => none
  | some opte =>
    match pde_write s va 1 0 with
    | none => none
    | some s1 => pmap_zap_pv c (pmap_zap_stats s1 pmap ptp opte) pmap va opte free_pvs

/-- The loop of `pmap_remove_ptes`; `pte` is `&PTE_BASE[pl1_i(startva)]`
throughout, `n` bounds the rounds left. -/
def pmap_remove_ptes_loop (c : config) (pmap : Nat) (ptp : Option Nat) (endva flags : Nat) :
    Nat → Nat → kstate → List pv_entry → Option (kstate × List pv_entry)
  | 0, _, s, free_pvs => some (s, free_pvs)
  | n + 1, startva, s, free_pvs =>
    if startva < endva ∧ (ptp = none ∨ ∃ q, ptp = some q ∧ s.wire_count q > 1) then
      match pde_read s startva 1 with
      | none => none
      | some pte =>
        if ¬ pmap_valid_entry pte then
          pmap_remove_ptes_loop c pmap ptp endva flags n (startva + PAGE_SIZE) s free_pvs
        else if flags &&& PMAP_REMOVE_SKIPWIRED ≠ 0 ∧ pte &&& PG_W ≠ 0 then
          pmap_remove_ptes_loop c pmap ptp endva flags n (startva + PAGE_SIZE) s free_pvs
        else
          match pmap_zap_pte c s pmap ptp startva free_pvs with
          | none => none
          | some r =>
            pmap_remove_ptes_loop c pmap ptp endva flags n (startva + PAGE_SIZE) r.1 r.2
    else some (s, free_pvs)

/-- `pmap_remove_ptes`. -/
def pmap_remove_ptes (c : config) (s : kstate) (pmap : Nat) (ptp : Option Nat)
    (startva endva flags : Nat) (free_pvs : List pv_entry) :
    Option (kstate × List pv_entry) :=
  pmap_remove_ptes_loop c pmap ptp endva flags
    ((endva - startva + (PAGE_SIZE - 1)) / PAGE_SIZE) startva s free_pvs

/-- `pmap_remove_pte`: the result tells whether a mapping was removed. -/
def pmap_remove_pte (c : config) (s : kstate) (pmap : Nat) (ptp : Option Nat)
    (va flags : Nat) (free_pvs : List pv_entry) :
    Option (Bool × kstate × List pv_entry) :=
  match pde_read s va 1 with
  | none => none
  | some pte =>
    if ¬ pmap_valid_entry pte then some (false, s, free_pvs)
    else if flags &&& PMAP_REMOVE_SKIPWIRED ≠ 0 ∧ pte &&& PG_W ≠ 0 then
      some (false, s, free_pvs)
    else
      match pmap_zap_pte c s pmap ptp va free_pvs with
      | none => none
      | some r => some (true, r.1, r.2)

/-- The `cleanup:` part of `pmap_do_remove`: the detached pv entries go
back to their pool, the deferred PTPs to the frame allocator. -/
def pmap_do_remove_cleanup (s : kstate) (free_pvs : List pv_entry) (empty_ptps : List Nat) :
    kstate :=
  empty_ptps.foldl uvm_pagefree (pv_pool_put s free_pvs.length)

/-- The PTP of `va` as `pmap_do_remove` gets it: `none` for a panic. -/
def pmap_do_remove_ptp (c : config) (s : kstate) (pmap va ptppa : Nat) :
    Option (Option Nat) :=
  if pmap = 0 then some none
  else
    match pmap_find_ptp s pmap va ptppa 1 with
    | none => if c.DIAGNOSTIC then none else some none
    | some q => some (some q)

/-- The range loop of `pmap_do_remove`, `n` bounds the rounds left. -/
def pmap_do_remove_loop (c : config) (pmap eva flags : Nat) :
    Nat → Nat → kstate → List pv_entry → List Nat →
      Option (kstate × List pv_entry × List Nat)
  | 0, _, _, _, _ => none
  | n + 1, va, s, free_pvs, empty_ptps =>
    if va < eva then
      let blkendva0 := x86_round_pdr (va + 1)
      let blkendva := if blkendva0 > eva then eva else blkendva0
      if pl_i va PTP_LEVELS = PDIR_SLOT_PTE then
        pmap_do_remove_loop c pmap eva flags n blkendva s free_pvs empty_ptps
      else
        match pmap_pdes_valid s va with
        | none => pmap_do_remove_loop c pmap eva flags n blkendva s free_pvs empty_ptps
        | some pde =>
          let ptppa := pde &&& PG_FRAME
          match pmap_do_remove_ptp c s pmap va ptppa with
          | none => none
          | some ptp =>
            match pmap_remove_ptes c s pmap ptp va blkendva flags free_pvs with
            | none => none
            | some r =>
              match ptp with
              | none => pmap_do_remove_loop c pmap eva flags n blkendva r.1 r.2 empty_ptps
              | some q =>
                if r.1.wire_count q ≤ 1 then
                  match pmap_free_ptp r.1 pmap q va empty_ptps with
                  | none => none
                  | some f => pmap_do_remove_loop c pmap eva flags n blkendva f.1 r.2 f.2
                else pmap_do_remove_loop c pmap eva flags n blkendva r.1 r.2 empty_ptps
    else some (s, free_pvs, empty_ptps)

/-- `pmap_do_remove`. -/
def pmap_do_remove (c : config) (s : kstate) (pmap sva eva flags : Nat) : Option kstate :=
  match pmap_map_ptes c s pmap with
  | none => none
  | some (scr3, s0) =>
    if w64 (sva + PAGE_SIZE) = eva then
      match pmap_pdes_valid s0 sva with
      | some pde =>
        let ptppa := pde &&& PG_FRAME
        match pmap_do_remove_ptp c s0 pmap sva ptppa with
        | none => none
        | some ptp =>
          match pmap_remove_pte c s0 pmap ptp sva flags [] with
          | none => none
          | some (result, s1, free_pvs) =>
            match ptp with
            | none =>
              some (pmap_do_remove_cleanup (pmap_unmap_ptes c s1 pmap scr3) free_pvs [])
            | some q =>
              if result ∧ s1.wire_count q ≤ 1 then
                match pmap_free_ptp s1 pmap q sva [] with
                | none => none
                | some f =>
                  some (pmap_do_remove_cleanup (pmap_unmap_ptes c f.1 pmap scr3) free_pvs f.2)
              else
                some (pmap_do_remove_cleanup (pmap_unmap_ptes c s1 pmap scr3) free_pvs [])
      | none => some (pmap_do_remove_cleanup (pmap_unmap_ptes c s0 pmap scr3) [] [])
    else
      match pmap_do_remove_loop c pmap eva flags (2 ^ 43 + 2) sva s0 [] [] with
      | none => none
      | some (s1, free_pvs, empty_ptps) =>
        some (pmap_do_remove_cleanup (pmap_unmap_ptes c s1 pmap scr3) free_pvs empty_ptps)

/-! ## The extended regime -/

/-- `(gpa & Ln_MASK) >> Ln_SHIFT`. -/
def ept_idx (gpa mask shift : Nat) : Nat := (gpa &&& mask) >>> shift

/-- `pmap_do_remove_ept`. -/
def pmap_do_remove_ept (c : config) (s : kstate) (pmap gpa : Nat) : Option kstate :=
  let l4idx := ept_idx gpa L4_MASK L4_SHIFT
  let l3idx := ept_idx gpa L3_MASK L3_SHIFT
  let l2idx := ept_idx gpa L2_MASK L2_SHIFT
  let l1idx := ept_idx gpa L1_MASK L1_SHIFT
  let pd4 := (s.pm pmap).pm_pdir
  if pd4 = 0 then some s
  else
    let npa3 := s.mem pd4 l4idx &&& PMAP_PA_MASK
    if npa3 = 0 then some s
    else
      let pg3 := PHYS_TO_VM_PAGE c npa3
      let npa2 := s.mem npa3 l3idx &&& PMAP_PA_MASK
      if npa2 = 0 then some s
      else
        let pg2 := PHYS_TO_VM_PAGE c npa2
        let npa1 := s.mem npa2 l2idx &&& PMAP_PA_MASK
        if npa1 = 0 then some s
        else
          let pg1 := PHYS_TO_VM_PAGE c npa1
          if s.mem npa1 l1idx = 0 then some s
          else
            match pg1 with
            | none => none
            | some pg1 =>
              let dec := wire_dec
              let res := fun (s : kstate) => add_resident s pmap (-1)
              let s1 := res (dec (set_mem s npa1 l1idx 0) pg1)
              if s1.wire_count pg1 > 1 then some s1
              else
                let s2 := set_wire s1 pg1 0
                let s3 := set_mem s2 npa2 l2idx 0
                let s4 := res (uvm_pagefree (obj_remove s3 pmap 0 pg1) pg1)
                match pg2 with
                | none => none
                | some pg2 =>
                  let s5 := dec s4 pg2
                  if s5.wire_count pg2 > 1 then some s5
                  else
                    let s6 := set_wire s5 pg2 0
                    let s7 := set_mem s6 npa3 l3idx 0
                    let s8 := res (uvm_pagefree (obj_remove s7 pmap 1 pg2) pg2)
                    match pg3 with
                    | none => none
                    | some pg3 =>
                      let s9 := dec s8 pg3
                      if s9.wire_count pg3 > 1 then some s9
                      else
                        let s10 := set_wire s9 pg3 0
                        let s11 := set_mem s10 pd4 l4idx 0
                        some (res (uvm_pagefree (obj_remove s11 pmap 2 pg3) pg3))

/-- The loop of `pmap_remove_ept`, `n` bounds the rounds left. -/
def pmap_remove_ept_loop (c : config) (pmap egpa : Nat) : Nat → Nat → kstate → Option kstate
  | 0, _, _ => none
  | n + 1, v, s =>
    if v < w64 (egpa + PAGE_SIZE) then
      match pmap_do_remove_ept c s pmap v with
      | none => none
      | some s1 => pmap_remove_ept_loop c pmap egpa n (w64 (v + PAGE_SIZE)) s1
    else some s

/-- `pmap_remove_ept`. -/
def pmap_remove_ept (c : config) (s : kstate) (pmap sgpa egpa : Nat) : Option kstate :=
  pmap_remove_ept_loop c pmap egpa (2 ^ 52 + 2) sgpa s

/-- `pmap_remove`. -/
def pmap_remove (c : config) (s : kstate) (pmap sva eva : Nat) : Option kstate :=
  if (s.pm pmap).pm_type = PMAP_TYPE_EPT then pmap_remove_ept c s pmap sva eva
  else pmap_do_remove c s pmap sva eva PMAP_REMOVE_ALL

/-! ## pmap_page_remove -/

/-- The `DIAGNOSTIC` test of `pmap_page_remove`: the entry records a PTP,
the upper entries of its address are valid, and the frame of the last one
is not that PTP. -/
def pv_ptp_mismatch (s : kstate) (pve : pv_entry) : Bool :=
  match pve.pv_ptp, pmap_pdes_valid s pve.pv_va with
  | some q, some pde => pde &&& PG_FRAME != q
  | _, _ => false

/-- The end of the loop body of `pmap_page_remove` for the entry `pve`:
"update the PTP reference count.  free if last reference." -/
def pmap_page_remove_ptp (s : kstate) (pve : pv_entry) (empty_ptps : List Nat) :
    Option (kstate × List Nat) :=
  match pve.pv_ptp with
  | none => some (s, empty_ptps)
  | some q =>
    let s8 := wire_dec s q
    if s8.wire_count q ≤ 1 then pmap_free_ptp s8 pve.pv_pmap q pve.pv_va empty_ptps
    else some (s8, empty_ptps)

/-- The loop body of `pmap_page_remove` for the entry `pve` taken off the
chain of `pg`, from the `DIAGNOSTIC` test to `pmap_free_ptp`. -/
def pmap_page_remove_zap (c : config) (s3 : kstate) (pg : Nat) (pve : pv_entry)
    (empty_ptps : List Nat) : Option (kstate × List Nat) :=
  if c.DIAGNOSTIC ∧ pv_ptp_mismatch s3 pve then none
  else
    match pde_read s3 pve.pv_va 1 with
    | none => none
    | some opte =>
      match pde_write s3 pve.pv_va 1 0 with
      | none => none
      | some s4 =>
        let s5 := if opte &&& PG_W ≠ 0 then add_wired s4 pve.pv_pmap (-1) else s4
        let s6 := add_resident s5 pve.pv_pmap (-1)
        let s7 := pmap_sync_flags_pte s6 pg opte
        pmap_page_remove_ptp s7 pve empty_ptps

/-- The `while` loop of `pmap_page_remove`, `n` bounds the rounds left.
The chain is read again after the pmap is locked; run alone, the second read
finds what the first one found. -/
def pmap_page_remove_loop (c : config) (pg : Nat) :
    Nat → kstate → List Nat → Option (kstate × List Nat)
  | 0, _, _ => none
  | n + 1, s, empty_ptps =>
    match s.pv_list pg with
    | [] => some (s, empty_ptps)
    | pve0 :: _ =>
      let s1 := pmap_reference s pve0.pv_pmap
      let pm := pve0.pv_pmap
      match pmap_map_ptes c s1 pm with
      | none => none
      | some (scr3, s2) =>
        match s2.pv_list pg with
        | [] =>
          match pmap_destroy c (pmap_unmap_ptes c s2 pm scr3) pm with
          | none => none
          | some s3 => pmap_page_remove_loop c pg n s3 empty_ptps
        | pve :: rest =>
          if pve.pv_pmap ≠ pm then
            match pmap_destroy c (pmap_unmap_ptes c s2 pm scr3) pm with
            | none => none
            | some s3 => pmap_page_remove_loop c pg n s3 empty_ptps
          else
            let s3 : kstate := { s2 with pv_list := upd s2.pv_list pg rest }
            match pmap_page_remove_zap c s3 pg pve empty_ptps with
            | none => none
            | some (s9, ptps) =>
              match pmap_destroy c (pmap_unmap_ptes c s9 pve.pv_pmap scr3) pve.pv_pmap with
              | none => none
              | some s10 => pmap_page_remove_loop c pg n (pv_pool_put s10 1) ptps

/-- `pmap_page_remove`. -/
def pmap_page_remove (c : config) (s : kstate) (pg : Nat) : Option kstate :=
  match pmap_page_remove_loop c pg ((s.pv_list pg).length + 1) s [] with
  | none => none
  | some (s1, empty_ptps) => some (empty_ptps.foldl uvm_pagefree s1)

/-! ## pmap_unwire, pmap_write_protect -/

/-- `pmap_pte_clearbits`. -/
def pmap_pte_clearbits (s : kstate) (t i b : Nat) : kstate :=
  set_mem s t i (s.mem t i &&& (0xffffffffffffffff ^^^ b))

/-- `pmap_pte_setbits`. -/
def pmap_pte_setbits (s : kstate) (t i b : Nat) : kstate :=
  set_mem s t i (s.mem t i ||| b)

/-- `pmap_unwire`. -/
def pmap_unwire (c : config) (s : kstate) (pmap va : Nat) : Option kstate :=
  match pmap_find_pte_direct s pmap va with
  | (level, ptes, offs) =>
    if level = 0 then
      if c.DIAGNOSTIC ∧ ¬ pmap_valid_entry (s.mem ptes offs) then none
      else if s.mem ptes offs &&& PG_W ≠ 0 then
        some (add_wired (pmap_pte_clearbits s ptes offs PG_W) pmap (-1))
      else some s
    else if c.DIAGNOSTIC then none
    else some s

/-- The inner loop of `pmap_write_protect` over the entries
`PTE_BASE[spte] .. PTE_BASE[epte - 1]`. -/
def pmap_write_protect_ptes (nx epte : Nat) : Nat → Nat → kstate → Option kstate
  | 0, _, s => some s
  | n + 1, spte, s =>
    if spte < epte then
      match rec_table s (spte * PAGE_SIZE) 1 with
      | none => none
      | some t =>
        if ¬ pmap_valid_entry (s.mem t (spte % 512)) then
          pmap_write_protect_ptes nx epte n (spte + 1) s
        else
          pmap_write_protect_ptes nx epte n (spte + 1)
            (pmap_pte_setbits (pmap_pte_clearbits s t (spte % 512) PG_RW) t (spte % 512) nx)
    else some s

/-- The block loop of `pmap_write_protect`, `n` bounds the rounds left. -/
def pmap_write_protect_loop (c : config) (eva nx : Nat) : Nat → Nat → kstate → Option kstate
  | 0, _, _ => none
  | n + 1, va, s =>
    if va < eva then
      let blockend0 := w64 ((va &&& L2_FRAME) + NBPD_L2)
      let blockend := if blockend0 > eva then eva else blockend0
      if pl_i va PTP_LEVELS = PDIR_SLOT_PTE then
        pmap_write_protect_loop c eva nx n blockend s
      else
        match pmap_pdes_valid s va with
        | none => pmap_write_protect_loop c eva nx n blockend s
        | some _ =>
          if c.DIAGNOSTIC ∧ va ≥ VM_MAXUSER_ADDRESS ∧ va < VM_MAX_ADDRESS then none
          else
            match pmap_write_protect_ptes nx (pl1_i blockend)
                (pl1_i blockend - pl1_i va) (pl1_i va) s with
            | none => none
            | some s1 => pmap_write_protect_loop c eva nx n blockend s1
    else some s

/-- `pmap_write_protect`. -/
def pmap_write_protect (c : config) (s : kstate) (pmap sva eva prot : Nat) : Option kstate :=
  match pmap_map_ptes c s pmap with
  | none => none
  | some (scr3, s0) =>
    let sva := sva &&& PG_FRAME
    let eva := eva &&& PG_FRAME
    let nx := if prot &&& PROT_EXEC = 0 then c.pg_nx else 0
    match pmap_write_protect_loop c eva nx (2 ^ 43 + 2) sva s0 with
    | none => none
    | some s1 => some (pmap_unmap_ptes c s1 pmap scr3)

/-! ## pmap_enter -/

/-- One upper level of `pmap_enter_ept`: the entry `pd[idx]` names the next
table, or a new page is allocated in the index `lidx` and installed.
`pptp` is the page whose `wire_count` is raised for a new page (no page for
the top level); `setwire` tells whether the new page gets `wire_count = 1`.
The result is `none` for a panic, `some (none, _)` for `return ENOMEM`, else
the next table and the page `pptp`/`ptp` of the code at that point. -/
def pmap_enter_ept_level (c : config) (s : kstate) (pmap gpa pd idx lidx : Nat)
    (pptp : Option (Option Nat)) (setwire : Bool) :
    Option (Option (Nat × Option Nat) × kstate) :=
  let npa := s.mem pd idx &&& PMAP_PA_MASK
  if npa = 0 then
    match uvm_pagealloc s pmap lidx (ptp_va2o gpa (lidx + 1)) with
    | (none, s1) => some (none, s1)
    | (some ptp, s1) =>
      let s2 := if setwire then set_wire s1 ptp 1 else s1
      let s3 : Option kstate :=
        match pptp with
        | none => some s2
        | some none => none
        | some (some q) => some (wire_inc s2 q)
      match s3 with
      | none => none
      | some s3 =>
        let npa := ptp
        let s4 := set_mem s3 pd idx (npa ||| EPT_R ||| EPT_W ||| EPT_X)
        some (some (npa, some ptp), add_resident s4 pmap 1)
  else some (some (npa, PHYS_TO_VM_PAGE c npa), s)

/-- `pmap_enter_ept`.  The tests `if (!pd) panic(...)` after each level are
the tests of `PMAP_DIRECT_MAP(npa)` against `0`. -/
def pmap_enter_ept (c : config) (s : kstate) (pmap gpa hpa prot : Nat) :
    Option (Nat × kstate) :=
  if gpa > MAXDSIZ then some (ENOMEM, s)
  else
    let l4idx := ept_idx gpa L4_MASK L4_SHIFT
    let l3idx := ept_idx gpa L3_MASK L3_SHIFT
    let l2idx := ept_idx gpa L2_MASK L2_SHIFT
    let l1idx := ept_idx gpa L1_MASK L1_SHIFT
    let pd := (s.pm pmap).pm_pdir
    if pd = 0 then some (ENOMEM, s)
    else
      match pmap_enter_ept_level c s pmap gpa pd l4idx 2 none true with
      | none => none
      | some (none, s1) => some (ENOMEM, s1)
      | some (some (npa3, pptp3), s1) =>
        if PMAP_DIRECT_MAP npa3 = 0 then none
        else
        match pmap_enter_ept_level c s1 pmap gpa npa3 l3idx 1 (some pptp3) true with
        | none => none
        | some (none, s2) => some (ENOMEM, s2)
        | some (some (npa2, pptp2), s2) =>
          if PMAP_DIRECT_MAP npa2 = 0 then none
          else
          match pmap_enter_ept_level c s2 pmap gpa npa2 l2idx 0 (some pptp2) false with
          | none => none
          | some (none, s3) => some (ENOMEM, s3)
          | some (some (npa1, ptp), s3) =>
            match ptp with
            | none => none
            | some ptp =>
              if PMAP_DIRECT_MAP npa1 = 0 then none
              else
              let npte0 := hpa ||| EPT_WB
              let npte1 := if prot &&& PROT_READ ≠ 0 then npte0 ||| EPT_R else npte0
              let npte2 := if prot &&& PROT_WRITE ≠ 0 then npte1 ||| EPT_W else npte1
              let npte := if prot &&& PROT_EXEC ≠ 0 then npte2 ||| EPT_X else npte2
              let s4 :=
                if s3.mem npa1 l1idx = 0 then add_resident (wire_inc s3 ptp) pmap 1 else s3
              some (0, set_mem s4 npa1 l1idx npte)

/-- `pmap_sync_flags_pte` on a page pointer that may be `NULL`: the
pointer is only used when an accessed or dirty bit is set. -/
def pmap_sync_flags_pte_opt (s : kstate) (pg : Option Nat) (pte : Nat) : Option kstate :=
  match pg with
  | some g => some (pmap_sync_flags_pte s g pte)
  | none => if pte &&& (PG_U ||| PG_M) ≠ 0 then none else some s

/-- The new PTE of `pmap_enter`: `pvlist` tells whether `pg != NULL`, `wc`
is the variable `wc` after the test of `PG_PMAP_WC`. -/
def pmap_enter_npte (c : config) (pmap va pa prot : Nat) (pvlist wired nocache wc : Bool) :
    Nat :=
  let npte0 := pa ||| protection_codes c prot ||| PG_V
  let npte1 := if pvlist then npte0 ||| PG_PVLIST else npte0
  let npte2 := if wc then npte1 ||| c.pmap_pg_wc else npte1
  let npte3 := if wired then npte2 ||| PG_W else npte2
  let npte4 := if nocache then npte3 ||| PG_N else npte3
  let npte5 :=
    if va < VM_MAXUSER_ADDRESS then npte4 ||| PG_u
    else if va < VM_MAX_ADDRESS then npte4 ||| (PG_u ||| PG_RW)
    else npte4
  if pmap = 0 then npte5 ||| c.pg_g_kern else npte5

/-- The test `pg->pg_flags & PG_PMAP_WC` of `pmap_enter`, false for `pg == NULL`. -/
def pmap_enter_pgwc (s : kstate) (pg : Option Nat) : Bool :=
  match pg with
  | none => false
  | some g => s.pg_flags g &&& PG_PMAP_WC != 0

/-- `pmap_enter` from the label `enter_now` to the end.  `pve` tells
whether the pre-allocated pv entry is still unused, `opve` whether an entry
was detached from the old frame. -/
def pmap_enter_now (c : config) (s : kstate) (pmap va pa prot scr3 : Nat)
    (ptp : Option Nat) (wired nocache wc : Bool) (resdelta wireddelta : Int) (ptpdelta : Nat)
    (pg : Option Nat) (pve opve : Bool) : Option (Nat × kstate) :=
  let s1 := add_wired (add_resident s pmap resdelta) pmap wireddelta
  let s2 :=
    match ptp with
    | none => s1
    | some q => set_wire s1 q ((s1.wire_count q + ptpdelta) % 2 ^ 32)
  if c.DIAGNOSTIC ∧ pg ≠ PHYS_TO_VM_PAGE c pa then none
  else
    let pgwc := pmap_enter_pgwc s2 pg
    if c.DIAGNOSTIC ∧ pgwc ∧ nocache then none
    else
      let npte := pmap_enter_npte c pmap va pa prot pg.isSome wired nocache (wc || pgwc)
      match pde_write s2 va 1 npte with
      | none => none
      | some s3 =>
        let s4 := pmap_unmap_ptes c s3 pmap scr3
        some (0, pv_pool_put s4 ((if pve then 1 else 0) + (if opve then 1 else 0)))

/-- `pmap_enter` from "if this entry is to be on a pvlist, enter it now"
on: the pv entry is attached when the frame is managed. -/
def pmap_enter_pvlist (c : config) (s : kstate) (pmap va pa prot scr3 : Nat)
    (ptp : Option Nat) (wired nocache wc : Bool) (resdelta wireddelta : Int) (ptpdelta : Nat)
    (pg : Option Nat) (opve : Bool) : Option (Nat × kstate) :=
  let pg := if s.pmap_initialized then PHYS_TO_VM_PAGE c pa else pg
  match pg with
  | some g =>
    pmap_enter_now c (pmap_enter_pv s g pmap va ptp) pmap va pa prot scr3 ptp wired nocache wc
      resdelta wireddelta ptpdelta pg false opve
  | none =>
    pmap_enter_now c s pmap va pa prot scr3 ptp wired nocache wc
      resdelta wireddelta ptpdelta pg true opve

/-- `pmap_enter` from "is there currently a valid mapping at our VA?" on;
`opte` is the old PTE. -/
def pmap_enter_opte (c : config) (s : kstate) (pmap va pa prot scr3 : Nat)
    (ptp : Option Nat) (wired nocache wc : Bool) (opte : Nat) : Option (Nat × kstate) :=
  if pmap_valid_entry opte then
    let wireddelta : Int :=
      if wired ∧ opte &&& PG_W = 0 then 1
      else if ¬ wired ∧ opte &&& PG_W ≠ 0 then -1
      else 0
    if opte &&& PG_FRAME = pa then
      if opte &&& PG_PVLIST ≠ 0 then
        let pg := PHYS_TO_VM_PAGE c pa
        if c.DIAGNOSTIC ∧ pg = none then none
        else
          match pmap_sync_flags_pte_opt s pg opte with
          | none => none
          | some s1 =>
            pmap_enter_now c s1 pmap va pa prot scr3 ptp wired nocache wc 0 wireddelta 0
              pg true false
      else if c.DIAGNOSTIC ∧ PHYS_TO_VM_PAGE c pa ≠ none then none
      else
        pmap_enter_now c s pmap va pa prot scr3 ptp wired nocache wc 0 wireddelta 0
          none true false
    else if opte &&& PG_PVLIST ≠ 0 then
      let pg := PHYS_TO_VM_PAGE c (opte &&& PG_FRAME)
      match pg with
      | none => none
      | some g =>
        let r := pmap_remove_pv (pmap_sync_flags_pte s g opte) g pmap va
        pmap_enter_pvlist c r.2 pmap va pa prot scr3 ptp wired nocache wc 0 wireddelta 0
          none r.1.isSome
    else
      pmap_enter_pvlist c s pmap va pa prot scr3 ptp wired nocache wc 0 wireddelta 0
        none false
  else
    pmap_enter_pvlist c s pmap va pa prot scr3 ptp wired nocache wc 1
      (if wired then 1 else 0) (if ptp ≠ none then 1 else 0) none false

/-- `pmap_enter`: the value returned and the new state, `none` for a panic. -/
def pmap_enter (c : config) (s : kstate) (pmap va pa prot flags : Nat) :
    Option (Nat × kstate) :=
  let wired : Bool := flags &&& PMAP_WIRED != 0
  let nocache : Bool := pa &&& PMAP_NOCACHE != 0
  let wc : Bool := pa &&& PMAP_WC != 0
  if (s.pm pmap).pm_type = PMAP_TYPE_EPT then pmap_enter_ept c s pmap va pa prot
  else if c.DIAGNOSTIC ∧ wc ∧ nocache then none
  else
    let pa := pa &&& PMAP_PA_MASK
    if c.DIAGNOSTIC ∧ va = PDP_BASE then none
    else if c.DIAGNOSTIC ∧ va ≥ VM_MIN_KERNEL_ADDRESS ∧
        ¬ pmap_valid_entry (s.mem (s.pm pmap).pm_pdir (pl_i va PTP_LEVELS)) then none
    else if s.pv_pool = 0 then
      if flags &&& PMAP_CANFAIL ≠ 0 then some (ENOMEM, s) else none
    else
      let s1 : kstate := { s with pv_pool := s.pv_pool - 1 }
      match pmap_map_ptes c s1 pmap with
      | none => none
      | some (scr3, s2) =>
        let r : Option (Option Nat × kstate) :=
          if pmap = 0 then some (none, s2) else pmap_get_ptp c s2 pmap va
        match r with
        | none => none
        | some (ptp, s3) =>
          if pmap ≠ 0 ∧ ptp = none then
            if flags &&& PMAP_CANFAIL ≠ 0 then
              some (ENOMEM, pv_pool_put (pmap_unmap_ptes c s3 pmap scr3) 1)
            else none
          else
            match pde_read s3 va 1 with
            | none => none
            | some opte => pmap_enter_opte c s3 pmap va pa prot scr3 ptp wired nocache wc opte

/-! ## pmap_convert -/

/-- `pmap_convert`: the value returned (always 0) and the new state. -/
def pmap_convert (s : kstate) (pmap mode : Nat) : Nat × kstate :=
  let p := s.pm pmap
  let s1 : kstate := { s with pm := upd s.pm pmap { p with pm_type := mode } }
  if mode = PMAP_TYPE_EPT then
    let s2 : kstate := { s1 with mem := mem_zero s1.mem (s1.pm pmap).pm_pdir }
    if (s2.pm pmap).pm_pdir_intel ≠ 0 then
      (0, { s2 with
        pdp_pool := (s2.pm pmap).pm_pdir_intel :: s2.pdp_pool
        pm := upd s2.pm pmap { s2.pm pmap with pm_pdir_intel := 0 } })
    else (0, s2)
  else (0, s1)

/-! ## The vocabulary of the statements -/

/-- Index of the level-`(L + 1)` entry of `va` among all entries of that
level: `va` without its reserved upper bits, divided by the bytes a
level-`(L + 1)` entry maps. -/
def pfx (va : Nat) : Nat → Nat
  | 0 => va % 2 ^ 48 / 4096
  | L + 1 => pfx va L / 512

/-- The 9-bit index of `va` in its level-`L` table. -/
def slot (va L : Nat) : Nat := pfx va (L - 1) % 512

/-- One step of the walk of `pmap_find_pte_direct`: from the level-`L`
table to the next one, when the entry is valid and not a large page. -/
def pstep (m : Nat → Nat → Nat) (va L : Nat) (t : Option Nat) : Option Nat :=
  match t with
  | none => none
  | some t =>
    if m t (slot va L) &&& (PG_PS ||| PG_V) = PG_V then some (m t (slot va L) &&& PG_FRAME)
    else none

/-- The table reached from `root` after `k` steps down the path of `va`. -/
def pdown (m : Nat → Nat → Nat) (root va : Nat) : Nat → Option Nat
  | 0 => some root
  | k + 1 => pstep m va (4 - k) (pdown m root va k)

/-- The frame of the level-`L` table on the path of `va` (level 4 is the
root, level 1 holds the leaf PTEs), when every entry above it is valid and
not a large page. -/
def ptab (m : Nat → Nat → Nat) (root va L : Nat) : Option Nat :=
  pdown m root va (4 - L)

/-- The root of a pmap. -/
def root (s : kstate) (p : Nat) : Nat := (s.pm p).pm_pdirpa

/-- The leaf PTE of `va` in `p`, when the tree has a leaf table for `va`. -/
def leaf (s : kstate) (p va : Nat) : Option Nat :=
  (ptab s.mem (root s p) va 1).map fun t => s.mem t (slot va 1)

/-- Number of valid entries in the table `t`. -/
@[irreducible] def vcount (m : Nat → Nat → Nat) (t : Nat) : Nat :=
  ((List.range 512).filter fun i => pmap_valid_entry (m t i)).length

/-- Number of valid entries with the wired bit in the table `t`. -/
@[irreducible] def wcount (m : Nat → Nat → Nat) (t : Nat) : Nat :=
  ((List.range 512).filter fun i => pmap_valid_entry (m t i) && (m t i &&& PG_W != 0)).length

/-- The pmaps in use: the kernel pmap and those of the global list. -/
def live (s : kstate) (p : Nat) : Prop := p = 0 ∨ p ∈ s.pmaps

/-- The addresses a pmap is asked to map: below the recursive slot for a
user pmap, the kernel half for the kernel pmap. -/
def dom (s : kstate) (p va : Nat) : Prop :=
  (p ∈ s.pmaps ∧ va < 0x7f8000000000) ∨ (p = 0 ∧ 0xffff800000000000 ≤ va ∧ va < 2 ^ 64)

/-- A frame address that fits the frame field of an entry. -/
def is_frame (f : Nat) : Prop := f &&& PG_FRAME = f

/-- Number of valid leaf PTEs in the tree of `p`. -/
def leaf_count (s : kstate) (p : Nat) : Nat :=
  (((s.pm p).pm_obj 0).map fun e => vcount s.mem e.2).sum

/-- Number of valid leaf PTEs with the wired bit in the tree of `p`. -/
def wired_leaf_count (s : kstate) (p : Nat) : Nat :=
  (((s.pm p).pm_obj 0).map fun e => wcount s.mem e.2).sum

/-- Number of page-table pages of `p`: the indexed PTPs, the root, and the
shadow root when there is one. -/
def ptp_count (s : kstate) (p : Nat) : Nat :=
  ((s.pm p).pm_obj 0).length + ((s.pm p).pm_obj 1).length + ((s.pm p).pm_obj 2).length + 1 +
    (if (s.pm p).pm_pdir_intel ≠ 0 then 1 else 0)

/-- The values the boot code gives the configuration variables. -/
def cfg_ok (c : config) : Prop :=
  (c.pg_nx = 0 ∨ c.pg_nx = PG_NX) ∧ (c.pg_g_kern = 0 ∨ c.pg_g_kern = PG_G) ∧
    (c.pmap_pg_wc = PG_WC ∨ c.pmap_pg_wc = PG_UCMINUS) ∧ c.cpu_number < 64 ∧
    ∀ pa, c.managed pa = true → is_frame pa

/-- The structure of the trees: they are trees, disjoint from each other,
from the free frames and from the pools, and the index of a user pmap is
its tree. -/
structure SInv (c : config) (s : kstate) : Prop where
  cfg : cfg_ok c
  init : s.pmap_initialized = true
  kern_notin : 0 ∉ s.pmaps
  pmaps_nodup : s.pmaps.Nodup
  cr3_live : ∃ p, live s p ∧ s.cr3 = root s p
  root_ne : ∀ p, live s p → root s p ≠ 0
  normal : ∀ p, live s p → (s.pm p).pm_type = PMAP_TYPE_NORMAL
  refs : ∀ p, live s p → 1 ≤ (s.pm p).uo_refs
  pdir : ∀ p, live s p → (s.pm p).pm_pdir = (s.pm p).pm_pdirpa
  /-- the kernel half of every root is the kernel's -/
  kshare : ∀ p ∈ s.pmaps, ∀ i, 256 ≤ i → i < 512 → s.mem (root s p) i = s.mem (root s 0) i
  /-- the kernel uses the top-level slots `pmap_pdp_ctor` copies -/
  kern_slots : ∀ i, 256 + s.nkptp 3 ≤ i → i < 510 → s.mem (root s 0) i = 0
  /-- a frame is the table of one pmap, one level and one place only -/
  sep : ∀ p va L p1 va1 L1 t, dom s p va → dom s p1 va1 → 1 ≤ L → L ≤ 4 → 1 ≤ L1 → L1 ≤ 4 →
    ptab s.mem (root s p) va L = some t → ptab s.mem (root s p1) va1 L1 = some t →
    L = L1 ∧ p = p1 ∧ pfx va L = pfx va1 L
  /-- the shadow roots are no tables -/
  shadow : ∀ p ∈ s.pmaps, (s.pm p).pm_pdir_intel ≠ 0 → ∀ p1 va L, dom s p1 va → 1 ≤ L → L ≤ 4 →
    ptab s.mem (root s p1) va L ≠ some (s.pm p).pm_pdir_intel
  /-- the free frames are no tables, and are handed out once -/
  free_sep : ∀ f ∈ s.free_pages, ∀ p va L, dom s p va → 1 ≤ L → L ≤ 4 →
    ptab s.mem (root s p) va L ≠ some f
  free_shadow : ∀ f ∈ s.free_pages, ∀ p ∈ s.pmaps, (s.pm p).pm_pdir_intel ≠ 0 →
    (s.pm p).pm_pdir_intel ≠ f
  free_nodup : s.free_pages.Nodup
  free_frame : ∀ f ∈ s.free_pages, is_frame f
  /-- the frames of the root pool are no tables, not free, and handed out once -/
  pdp_sep : ∀ f ∈ s.pdp_pool, ∀ p va L, dom s p va → 1 ≤ L → L ≤ 4 →
    ptab s.mem (root s p) va L ≠ some f
  pdp_shadow : ∀ f ∈ s.pdp_pool, ∀ p ∈ s.pmaps, (s.pm p).pm_pdir_intel ≠ f
  pdp_free : ∀ f ∈ s.pdp_pool, f ∉ s.free_pages
  pdp_nodup : s.pdp_pool.Nodup
  pdp_frame : ∀ f ∈ s.pdp_pool, is_frame f ∧ f ≠ 0
  /-- the structures of the pmap pool are not in use -/
  pool_fresh : ∀ p ∈ s.pmap_pool, p ≠ 0 ∧ p ∉ s.pmaps
  pool_nodup : s.pmap_pool.Nodup
  /-- the index of a user pmap is its tree -/
  idx : ∀ p ∈ s.pmaps, ∀ va L, va < 0x7f8000000000 → 1 ≤ L → L ≤ 3 →
    ptab s.mem (root s p) va L = ((s.pm p).pm_obj (L - 1)).lookup (pfx va L * 4096)
  idx_keys : ∀ p ∈ s.pmaps, ∀ L, 1 ≤ L → L ≤ 3 → ∀ e ∈ (s.pm p).pm_obj (L - 1),
    ∃ va, va < 0x7f8000000000 ∧ e.1 = pfx va L * 4096
  idx_nodup : ∀ p ∈ s.pmaps, ∀ L, 1 ≤ L → L ≤ 3 → (((s.pm p).pm_obj (L - 1)).map Prod.fst).Nodup
  /-- an upper entry of a user tree is empty or names a table -/
  shape : ∀ p ∈ s.pmaps, ∀ va L t, va < 0x7f8000000000 → 2 ≤ L → L ≤ 4 →
    ptab s.mem (root s p) va L = some t →
    s.mem t (slot va L) = 0 ∨
      s.mem t (slot va L) = (s.mem t (slot va L) &&& PG_FRAME) ||| PG_u ||| PG_RW ||| PG_V
  /-- a leaf entry of a user tree is empty or valid -/
  leaf_shape : ∀ p ∈ s.pmaps, ∀ va t, va < 0x7f8000000000 →
    ptab s.mem (root s p) va 1 = some t →
    s.mem t (slot va 1) = 0 ∨ pmap_valid_entry (s.mem t (slot va 1)) = true
  /-- the direct map is made of large pages, as `pmap_bootstrap` builds it -/
  direct : ∀ va, PMAP_DIRECT_BASE ≤ va → va < PMAP_DIRECT_END →
    ptab s.mem (root s 0) va 1 = none

/-- The PTP reference counts: `wire_count` is one more than the number of
valid entries of the page. -/
structure WInv (s : kstate) : Prop where
  wire : ∀ p ∈ s.pmaps, ∀ va L t, va < 0x7f8000000000 → 1 ≤ L → L ≤ 3 →
    ptab s.mem (root s p) va L = some t → s.wire_count t = 1 + vcount s.mem t

/-- The counters of the user pmaps. -/
structure CInv (s : kstate) : Prop where
  resident : ∀ p ∈ s.pmaps,
    (s.pm p).resident_count = (leaf_count s p : Int) + (ptp_count s p : Int)
  wired : ∀ p ∈ s.pmaps, (s.pm p).wired_count = (wired_leaf_count s p : Int)

/-- The reverse map and the leaf PTEs say the same. -/
structure PInv (c : config) (s : kstate) : Prop where
  /-- every entry of a chain has its leaf PTE -/
  pv_sound : ∀ f, ∀ e ∈ s.pv_list f, dom s e.pv_pmap e.pv_va ∧ e.pv_va % 4096 = 0 ∧
    ∃ t, ptab s.mem (root s e.pv_pmap) e.pv_va 1 = some t ∧
      pmap_valid_entry (s.mem t (slot e.pv_va 1)) = true ∧
      s.mem t (slot e.pv_va 1) &&& PG_FRAME = f ∧
      s.mem t (slot e.pv_va 1) &&& PG_PVLIST ≠ 0 ∧
      e.pv_ptp = (if e.pv_pmap = 0 then none else some t)
  /-- every pv-tracked leaf PTE has its entry -/
  pv_complete : ∀ p va t, dom s p va → va % 4096 = 0 →
    ptab s.mem (root s p) va 1 = some t →
    pmap_valid_entry (s.mem t (slot va 1)) = true → s.mem t (slot va 1) &&& PG_PVLIST ≠ 0 →
    ∃ e ∈ s.pv_list (s.mem t (slot va 1) &&& PG_FRAME), e.pv_pmap = p ∧ e.pv_va = va
  pv_nodup : ∀ f, ((s.pv_list f).map fun e => (e.pv_pmap, e.pv_va)).Nodup
  /-- a leaf PTE is pv-tracked exactly when its frame is managed -/
  pv_managed : ∀ p va t, dom s p va → ptab s.mem (root s p) va 1 = some t →
    pmap_valid_entry (s.mem t (slot va 1)) = true →
    (s.mem t (slot va 1) &&& PG_PVLIST ≠ 0 ↔ c.managed (s.mem t (slot va 1) &&& PG_FRAME) = true)

/-- The state invariant of the pmap layer once the kernel runs. -/
structure Inv (c : config) (s : kstate) : Prop where
  tree : SInv c s
  wire : WInv s
  count : CInv s
  pv : PInv c s

/-! ## Relations between two states -/

/-- The two states have the same pmaps, with the same roots and indexes,
and the same free frames and pools. -/
def same_struct (s s1 : kstate) : Prop :=
  s1.pmaps = s.pmaps ∧ s1.free_pages = s.free_pages ∧ s1.pdp_pool = s.pdp_pool ∧
    s1.pmap_pool = s.pmap_pool ∧ s1.pmap_initialized = s.pmap_initialized ∧
    s1.nkptp = s.nkptp ∧
    ∀ q, (s1.pm q).pm_obj = (s.pm q).pm_obj ∧ (s1.pm q).pm_pdirpa = (s.pm q).pm_pdirpa ∧
      (s1.pm q).pm_pdir = (s.pm q).pm_pdir ∧ (s1.pm q).pm_pdir_intel = (s.pm q).pm_pdir_intel ∧
      (s1.pm q).pm_type = (s.pm q).pm_type ∧ (s1.pm q).uo_refs = (s.pm q).uo_refs

/-- The two states differ at most in `%cr3` and in the CPU masks of the pmaps. -/
def eqv (s s1 : kstate) : Prop :=
  s1.mem = s.mem ∧ s1.wire_count = s.wire_count ∧ s1.pg_flags = s.pg_flags ∧
    s1.pv_list = s.pv_list ∧ s1.pv_pool = s.pv_pool ∧ same_struct s s1 ∧
    ∀ q, (s1.pm q).resident_count = (s.pm q).resident_count ∧
      (s1.pm q).wired_count = (s.pm q).wired_count ∧
      (s1.pm q).pm_ptphint = (s.pm q).pm_ptphint ∧
      (s1.pm q).pm_pdirpa_intel = (s.pm q).pm_pdirpa_intel

/-- The tables of `p` answer the accesses through the recursive mapping:
the root of `p` is loaded, or `p` is the kernel pmap. -/
def mapped (s : kstate) (p : Nat) : Prop := s.cr3 = root s p ∨ p = 0

/-- `1` for a valid entry, `0` otherwise. -/
def vbit (e : Nat) : Nat := if pmap_valid_entry e then 1 else 0

/-- `1` for a valid entry with the wired bit, `0` otherwise. -/
def wbit (e : Nat) : Nat := if pmap_valid_entry e && (e &&& PG_W != 0) then 1 else 0

/-- A frame is a table of some pmap in use. -/
def is_table (s : kstate) (f : Nat) : Prop :=
  ∃ p va L, dom s p va ∧ 1 ≤ L ∧ L ≤ 4 ∧ ptab s.mem (root s p) va L = some f

/-- The pages of a deferred-free list: released from their tree, not yet
given back to the frame allocator. -/
def Limbo (s : kstate) (l : List Nat) : Prop :=
  l.Nodup ∧ ∀ f ∈ l, ¬ is_table s f ∧ f ∉ s.free_pages ∧ f ∉ s.pdp_pool ∧
    (∀ p ∈ s.pmaps, (s.pm p).pm_pdir_intel ≠ 0 → (s.pm p).pm_pdir_intel ≠ f) ∧ is_frame f

/-- The two states have the same tables, pmaps and reverse map. -/
def eqv_tree (s s1 : kstate) : Prop :=
  s1.mem = s.mem ∧ s1.pm = s.pm ∧ s1.cr3 = s.cr3 ∧ s1.pv_list = s.pv_list ∧ s1.pmaps = s.pmaps

/-- The two states have the same trees, counters, chains and pools of
frames; they may differ in the reference counts of the pmaps, the hints, the
CPU masks, the page flags, the pv pool and `%cr3`. -/
def sim (s s1 : kstate) : Prop :=
  s1.mem = s.mem ∧ s1.wire_count = s.wire_count ∧ s1.pv_list = s.pv_list ∧
    s1.pmaps = s.pmaps ∧ s1.free_pages = s.free_pages ∧ s1.pdp_pool = s.pdp_pool ∧
    s1.pmap_pool = s.pmap_pool ∧ s1.pmap_initialized = s.pmap_initialized ∧
    s1.nkptp = s.nkptp ∧
    ∀ q, (s1.pm q).pm_obj = (s.pm q).pm_obj ∧ (s1.pm q).pm_pdirpa = (s.pm q).pm_pdirpa ∧
      (s1.pm q).pm_pdir = (s.pm q).pm_pdir ∧ (s1.pm q).pm_pdir_intel = (s.pm q).pm_pdir_intel ∧
      (s1.pm q).pm_type = (s.pm q).pm_type ∧
      (s1.pm q).resident_count = (s.pm q).resident_count ∧
      (s1.pm q).wired_count = (s.pm q).wired_count

/-- Entries are left as they are or cleared; pmaps and roots stay. -/
def shrink (s s1 : kstate) : Prop :=
  s1.pmaps = s.pmaps ∧ (∀ q, root s1 q = root s q) ∧
    ∀ t i, s1.mem t i = s.mem t i ∨ s1.mem t i = 0

/-- The indexes of the user pmaps lose pages at most, and a page that
stays keeps its reference count or has more than one reference. -/
def wkeep (s s1 : kstate) : Prop :=
  ∀ q ∈ s.pmaps, ∀ L, L < 3 → ∀ e ∈ (s1.pm q).pm_obj L, e ∈ (s.pm q).pm_obj L ∧
    (s1.wire_count e.2 = s.wire_count e.2 ∨ 1 < s1.wire_count e.2)

/-- As `wkeep`, and the page `q0` is in no index any more. -/
def wkeep_ex (s s1 : kstate) (q0 : Nat) : Prop :=
  ∀ q ∈ s.pmaps, ∀ L, L < 3 → ∀ e ∈ (s1.pm q).pm_obj L, e ∈ (s.pm q).pm_obj L ∧ e.2 ≠ q0 ∧
    (s1.wire_count e.2 = s.wire_count e.2 ∨ 1 < s1.wire_count e.2)

/-- The chains lose entries at most. -/
def pv_sub (s s1 : kstate) : Prop :=
  ∀ f e, e ∈ s1.pv_list f → e ∈ s.pv_list f

/-- The state `s1` is `s` after the free frame `f` became the table under
the empty level-`i` entry of `va` in the user pmap `p`, whose table `t`
holds that entry: what one round of the loop of `pmap_get_ptp` does when it
allocates. -/
structure Install (s s1 : kstate) (p va i t f : Nat) : Prop where
  hp : p ∈ s.pmaps
  hva : va < 0x7f8000000000
  hi2 : 2 ≤ i
  hi4 : i ≤ 4
  ht : ptab s.mem (root s p) va i = some t
  he : s.mem t (slot va i) = 0
  free : s.free_pages = f :: s1.free_pages
  pmaps : s1.pmaps = s.pmaps
  pdp : s1.pdp_pool = s.pdp_pool
  pool : s1.pmap_pool = s.pmap_pool
  init : s1.pmap_initialized = s.pmap_initialized
  nkptp : s1.nkptp = s.nkptp
  cr3 : s1.cr3 = s.cr3
  pv : s1.pv_list = s.pv_list
  pm : ∀ q, (s1.pm q).pm_pdirpa = (s.pm q).pm_pdirpa ∧ (s1.pm q).pm_pdir = (s.pm q).pm_pdir ∧
    (s1.pm q).pm_pdir_intel = (s.pm q).pm_pdir_intel ∧ (s1.pm q).pm_type = (s.pm q).pm_type ∧
    (s1.pm q).uo_refs = (s.pm q).uo_refs ∧ (s1.pm q).wired_count = (s.pm q).wired_count
  obj : ∀ q L, (s1.pm q).pm_obj L =
    if q = p ∧ L = i - 2 then (pfx va (i - 1) * 4096, f) :: (s.pm q).pm_obj L
    else (s.pm q).pm_obj L
  res : ∀ q, (s1.pm q).resident_count = (s.pm q).resident_count + (if q = p then 1 else 0)
  wire_f : s1.wire_count f = 1
  wire_t : i < 4 → s1.wire_count t = s.wire_count t + 1
  wire_o : ∀ t1, t1 ≠ f → ¬ (t1 = t ∧ i < 4) → s1.wire_count t1 = s.wire_count t1
  mem_t : s1.mem t (slot va i) = f ||| PG_u ||| PG_RW ||| PG_V
  mem_f : ∀ j, s1.mem f j = 0
  mem_o : ∀ t1 j, t1 ≠ f → ¬ (t1 = t ∧ j = slot va i) →
    ¬ ((s.pm p).pm_pdir_intel ≠ 0 ∧ t1 = (s.pm p).pm_pdir_intel) → s1.mem t1 j = s.mem t1 j

/-- What `pmap_enter` leaves when it returns 0, seen from the state `s3` in
which the old PTE of `va` is read in the leaf table `t`: the new PTE is in
place, the counters follow. -/
structure enter_post (c : config) (s3 s1 : kstate) (p va t pa prot scr3 : Nat)
    (wired nocache wc : Bool) : Prop where
  inv : Inv c s1
  ss : same_struct s3 s1
  cr3 : s1.cr3 = if scr3 ≠ 0 then scr3 else s3.cr3
  mem : s1.mem =
    mem_set s3.mem t (slot va 1) (pmap_enter_npte c p va pa prot (PHYS_TO_VM_PAGE c pa).isSome
      wired nocache (wc || pmap_enter_pgwc s1 (PHYS_TO_VM_PAGE c pa)))
  wired : (s1.pm p).wired_count =
    (s3.pm p).wired_count + (if wired then 1 else 0) - (wbit (s3.mem t (slot va 1)) : Int)
  res : (s1.pm p).resident_count =
    (s3.pm p).resident_count + 1 - (vbit (s3.mem t (slot va 1)) : Int)
  wire_o : ∀ t1, t1 ≠ t → s1.wire_count t1 = s3.wire_count t1
  wire_t : p ∈ s3.pmaps → s1.wire_count t + vbit (s3.mem t (slot va 1)) = s3.wire_count t + 1
  wire_k : p = 0 → s1.wire_count = s3.wire_count

/-- The number of page-table pages `pmap_get_ptp` has to allocate for `va`. -/
def need (s : kstate) (p va : Nat) : Nat :=
  if ptab s.mem (root s p) va 3 = none then 3
  else if ptab s.mem (root s p) va 2 = none then 2
  else if ptab s.mem (root s p) va 1 = none then 1
  else 0

/-- The state `s1` is `s` after the empty level-`L` table `q` on the path of
`va` in the user pmap `p` was taken out of the tree and of its index, and
the entry for it in its parent `t` cleared: what one round of the loop of
`pmap_free_ptp` does. -/
structure Unlink (s s1 : kstate) (p va L t q : Nat) : Prop where
  hp : p ∈ s.pmaps
  hva : va < 0x7f8000000000
  hL1 : 1 ≤ L
  hL3 : L ≤ 3
  hq : ptab s.mem (root s p) va L = some q
  ht : ptab s.mem (root s p) va (L + 1) = some t
  empty : vcount s.mem q = 0
  free : s1.free_pages = s.free_pages
  pmaps : s1.pmaps = s.pmaps
  pdp : s1.pdp_pool = s.pdp_pool
  pool : s1.pmap_pool = s.pmap_pool
  init : s1.pmap_initialized = s.pmap_initialized
  nkptp : s1.nkptp = s.nkptp
  cr3 : s1.cr3 = s.cr3
  pv : s1.pv_list = s.pv_list
  pm : ∀ r, (s1.pm r).pm_pdirpa = (s.pm r).pm_pdirpa ∧ (s1.pm r).pm_pdir = (s.pm r).pm_pdir ∧
    (s1.pm r).pm_pdir_intel = (s.pm r).pm_pdir_intel ∧ (s1.pm r).pm_type = (s.pm r).pm_type ∧
    (s1.pm r).uo_refs = (s.pm r).uo_refs ∧ (s1.pm r).wired_count = (s.pm r).wired_count
  obj : ∀ r k, (s1.pm r).pm_obj k =
    if r = p ∧ k = L - 1 then ((s.pm r).pm_obj k).filter fun e => e.2 != q
    else (s.pm r).pm_obj k
  res : ∀ r, (s1.pm r).resident_count = (s.pm r).resident_count - (if r = p then 1 else 0)
  wire_q : s1.wire_count q = 0
  wire_t : L < 3 → s1.wire_count t + 1 = s.wire_count t
  wire_o : ∀ t1, t1 ≠ q → ¬ (t1 = t ∧ L < 3) → s1.wire_count t1 = s.wire_count t1
  mem_t : s1.mem t (slot va (L + 1)) = 0
  mem_o : ∀ t1 j, ¬ (t1 = t ∧ j = slot va (L + 1)) →
    ¬ ((s.pm p).pm_pdir_intel ≠ 0 ∧ t1 = (s.pm p).pm_pdir_intel) → s1.mem t1 j = s.mem t1 j
  mem_s : ∀ t1 j, s1.mem t1 j = s.mem t1 j ∨ s1.mem t1 j = 0

/-- The state `s1` is `s` with the new user pmap `pmap`: its root `pdir` and
its shadow root `intel` (`0` for none) come from the pool of roots, its
tree and its indexes are empty. -/
structure Created (s s1 : kstate) (pmap pdir intel : Nat) : Prop where
  hpmap : pmap ∈ s.pmap_pool
  hpdir : pdir ∈ s.pdp_pool
  hintel : intel = 0 ∨ (intel ∈ s.pdp_pool ∧ intel ≠ pdir)
  pmaps : s1.pmaps = pmap :: s.pmaps
  free : s1.free_pages = s.free_pages
  pdp_sub : ∀ f ∈ s1.pdp_pool, f ∈ s.pdp_pool ∧ f ≠ pdir ∧ f ≠ intel
  pdp_nodup : s1.pdp_pool.Nodup
  pool_sub : ∀ q ∈ s1.pmap_pool, q ∈ s.pmap_pool ∧ q ≠ pmap
  pool_nodup : s1.pmap_pool.Nodup
  init : s1.pmap_initialized = s.pmap_initialized
  nkptp : s1.nkptp = s.nkptp
  cr3 : s1.cr3 = s.cr3
  pv : s1.pv_list = s.pv_list
  wire : s1.wire_count = s.wire_count
  pm_old : ∀ q, q ≠ pmap → s1.pm q = s.pm q
  pm_root : (s1.pm pmap).pm_pdirpa = pdir
  pm_pdir : (s1.pm pmap).pm_pdir = pdir
  pm_intel : (s1.pm pmap).pm_pdir_intel = intel
  pm_type : (s1.pm pmap).pm_type = PMAP_TYPE_NORMAL
  pm_refs : (s1.pm pmap).uo_refs = 1
  pm_wired : (s1.pm pmap).wired_count = 0
  pm_res : (s1.pm pmap).resident_count = 1 + (if intel ≠ 0 then 1 else 0)
  pm_obj : ∀ k, (s1.pm pmap).pm_obj k = []
  mem_old : ∀ t i, t ≠ pdir → ¬ (intel ≠ 0 ∧ t = intel) → s1.mem t i = s.mem t i
  mem_user : ∀ i, i < 255 → s1.mem pdir i = 0
  mem_kern : ∀ i, 256 ≤ i → i < 512 → s1.mem pdir i = s.mem (root s 0) i

/-- An allocation of `pmap_enter` fails: the pool of pv entries is empty,
or the free frames do not suffice for the page-table pages of `va`. -/
def alloc_fails (s : kstate) (p va : Nat) : Prop :=
  s.pv_pool = 0 ∨ s.free_pages.length < need s p va

/-- `1` when (`p`, `va`) has a valid leaf PTE with the wired bit, else `0`. -/
def old_wbit (s : kstate) (p va : Nat) : Nat :=
  match leaf s p va with
  | none => 0
  | some e => wbit e

/-- `1` when (`p`, `va`) has a valid leaf PTE, else `0`. -/
def old_vbit (s : kstate) (p va : Nat) : Nat :=
  match leaf s p va with
  | none => 0
  | some e => vbit e

/-- The reference count of the leaf PTP of (`p`, `va`) before a leaf PTE is
entered: the count of the page when the tree has it, else `1`, the count
`pmap_get_ptp` gives a new page. -/
def old_wire (s : kstate) (p va : Nat) : Nat :=
  match ptab s.mem (root s p) va 1 with
  | none => 1
  | some t => s.wire_count t

/-- The state `s1` is `s` with more tables: the trees and leaf entries of
`s` are kept, the leaf tables that are new are empty, and pages were taken
from the head of the list of free frames. -/
structure grow (s s1 : kstate) : Prop where
  cr3 : s1.cr3 = s.cr3
  pmaps : s1.pmaps = s.pmaps
  pv : s1.pv_list = s.pv_list
  pool : s1.pv_pool = s.pv_pool
  pm : ∀ q, (s1.pm q).pm_pdirpa = (s.pm q).pm_pdirpa ∧ (s1.pm q).pm_type = (s.pm q).pm_type ∧
    (s1.pm q).wired_count = (s.pm q).wired_count
  free : ∃ l, s.free_pages = l ++ s1.free_pages
  old : ∀ q v L x, dom s q v → 1 ≤ L → L ≤ 4 → ptab s.mem (root s q) v L = some x →
    ptab s1.mem (root s1 q) v L = some x
  leaf : ∀ q v x, dom s q v → ptab s.mem (root s q) v 1 = some x → ∀ j, s1.mem x j = s.mem x j
  fresh : ∀ q v x, dom s q v → ptab s1.mem (root s1 q) v 1 = some x →
    ptab s.mem (root s q) v 1 = none → ∀ j, s1.mem x j = 0

/-- Every valid leaf PTE of the user pmap `p` at an address below the
recursive slot for which `X` does not hold is in `s1` in the same leaf table
with the same value; and the tables of the kernel tree are as they were. -/
def keeps (s s1 : kstate) (p : Nat) (X : Nat → Prop) : Prop :=
  (∀ va t, va < 0x7f8000000000 → ¬ X va → ptab s.mem (root s p) va 1 = some t →
    pmap_valid_entry (s.mem t (slot va 1)) = true →
    ptab s1.mem (root s1 p) va 1 = some t ∧ s1.mem t (slot va 1) = s.mem t (slot va 1)) ∧
  root s1 0 = root s 0 ∧
  ∀ va L x, 0xffff800000000000 ≤ va → va < 2 ^ 64 → 1 ≤ L → L ≤ 4 →
    ptab s.mem (root s 0) va L = some x → ∀ j, s1.mem x j = s.mem x j

/-- The leaf PTE of `va` in `p` is zero, when the tree has one. -/
def cleared (s : kstate) (p va : Nat) : Prop :=
  ∀ t, ptab s.mem (root s p) va 1 = some t → s.mem t (slot va 1) = 0

/-- The state after the leaf PTE of the chain entry `pve` is zapped and
the reference count of its PTP lowered. -/
def page_zapped (s : kstate) (pg : Nat) (pve : pv_entry) (rest : List pv_entry) (t : Nat) :
    kstate :=
  pmap_sync_flags_pte
    (pmap_zap_stats
      (set_mem { s with pv_list := upd s.pv_list pg rest } t (slot pve.pv_va 1) 0)
      pve.pv_pmap pve.pv_ptp (s.mem t (slot pve.pv_va 1)))
    pg (s.mem t (slot pve.pv_va 1))

/-- The page of `va`. -/
def page_of (va : Nat) : Nat := va / 4096 * 4096

/-- The new entry of `pmap_write_protect`. -/
def wp_entry (e nx : Nat) : Nat := (e &&& (0xffffffffffffffff ^^^ PG_RW)) ||| nx

/-- The relation between the states of `pmap_write_protect`. -/
def wp_rel (s s1 : kstate) : Prop :=
  same_struct s s1 ∧ s1.cr3 = s.cr3 ∧ s1.wire_count = s.wire_count ∧ s1.pv_list = s.pv_list ∧
    (∀ p1 va1 L, dom s p1 va1 → 1 ≤ L → L ≤ 4 →
      ptab s1.mem (root s1 p1) va1 L = ptab s.mem (root s p1) va1 L) ∧
    ∀ q, (s1.pm q).resident_count = (s.pm q).resident_count ∧
      (s1.pm q).wired_count = (s.pm q).wired_count

/-- The entry `e` after `pmap_write_protect` went over it: a valid entry
loses the writable bit and gets the bits `nx`. -/
def wp_val (nx e : Nat) : Nat := if pmap_valid_entry e then wp_entry e nx else e

/-- The leaf PTEs of the pages number `lo` to `hi - 1` of `p` went through
`pmap_write_protect`, every other entry is as in `s`. -/
def wp_done (nx p : Nat) (s s1 : kstate) (lo hi : Nat) : Prop :=
  (∀ j, lo ≤ j → j < hi → ∀ t, ptab s.mem (root s p) (j * 4096) 1 = some t →
      s1.mem t (j % 512) = wp_val nx (s.mem t (j % 512))) ∧
    ∀ t i, (∀ j, lo ≤ j → j < hi → ptab s.mem (root s p) (j * 4096) 1 = some t → i ≠ j % 512) →
      s1.mem t i = s.mem t i

/-- The frame `e` has a page structure and a kernel address in the direct map. -/
def ept_page_ok (c : config) (e : Nat) : Prop :=
  c.managed e = true ∧ PMAP_DIRECT_MAP e ≠ 0

/-- The tables name pages only: every table entry with an address names a
frame with a page structure inside the direct map, and so does every free
frame. -/
def ept_ok (c : config) (s : kstate) : Prop :=
  (∀ t i, s.mem t i &&& PMAP_PA_MASK ≠ 0 → ept_page_ok c (s.mem t i &&& PMAP_PA_MASK)) ∧
    ∀ f ∈ s.free_pages, f &&& PMAP_PA_MASK = f ∧ ept_page_ok c f

/-! ## Sequences of operations -/

/-- The operations of the pmap layer on user pmaps. -/
inductive op where
  | create
  | enter (p va pa prot flags : Nat)
  | remove (p sva eva : Nat)
  | page_remove (pg : Nat)
  | write_protect (p sva eva prot : Nat)
  | unwire (p va : Nat)

/-- The state after an operation, `none` when it panics or does not return. -/
def exec (c : config) (s : kstate) : op → Option kstate
  | op.create => (pmap_create c s).map Prod.snd
  | op.enter p va pa prot flags => (pmap_enter c s p va pa prot flags).map Prod.snd
  | op.remove p sva eva => pmap_remove c s p sva eva
  | op.page_remove pg => pmap_page_remove c s pg
  | op.write_protect p sva eva prot => pmap_write_protect c s p sva eva prot
  | op.unwire p va => pmap_unwire c s p va

/-- What the callers of the pmap layer see to: the pmap is a user pmap in
use, the addresses are page-aligned user addresses below the recursive slot
(below `VM_MAXUSER_ADDRESS` for `pmap_write_protect`), the physical address
is a page-aligned address of at most 52 bits, the protection is one of the
eight `PROT_*` combinations. -/
def op_ok (s : kstate) : op → Bool
  | op.create => true
  | op.enter p va pa prot _ =>
    decide (p ∈ s.pmaps ∧ va < 0x7f8000000000 ∧ va % 4096 = 0 ∧ pa % 4096 = 0 ∧ pa < 2 ^ 52 ∧
      prot < 8)
  | op.remove p sva eva =>
    decide (p ∈ s.pmaps ∧ sva % 4096 = 0 ∧ eva % 4096 = 0 ∧ sva < eva ∧ eva ≤ 0x7f8000000000)
  | op.page_remove _ => true
  | op.write_protect p _ eva _ => decide (p ∈ s.pmaps ∧ eva ≤ 0x7f7fffffc000)
  | op.unwire p va => decide (p ∈ s.pmaps ∧ va < 0x7f8000000000)

/-- The state after a sequence of operations. -/
def run (c : config) : kstate → List op → Option kstate
  | s, [] => some s
  | s, o :: os =>
    if op_ok s o then
      match exec c s o with
      | none => none
      | some s1 => run c s1 os
    else none

/-- `pmap_remove` or `pmap_page_remove`. -/
def op_removes : op → Bool
  | op.remove _ _ _ => true
  | op.page_remove _ => true
  | _ => false

/-- `pmap_enter`, `pmap_remove` or `pmap_page_remove`. -/
def op_maps : op → Bool
  | op.enter _ _ _ _ _ => true
  | op.remove _ _ _ => true
  | op.page_remove _ => true
  | _ => false

/-! ## The statements of the reverse map and of the reference counts -/

/-- No page-table page in an index of a user pmap has `wire_count <= 1`. -/
def no_empty_ptp (s : kstate) : Prop :=
  ∀ p ∈ s.pmaps, ∀ L, L < 3 → ∀ e ∈ (s.pm p).pm_obj L, 1 < s.wire_count e.2

/-! ## Concrete states -/

/-- A configuration: `DIAGNOSTIC` kernel, NX available, no Meltdown
mitigation, the frames `0x100000 .. 0x4ff000` managed. -/
def cfg0 : config :=
  { DIAGNOSTIC := true, pg_nx := PG_NX, pg_g_kern := 0, pmap_pg_wc := PG_UCMINUS,
    cpu_meltdown := false,
    managed := fun pa => decide (0x100000 ≤ pa ∧ pa < 0x500000 ∧ pa % 4096 = 0),
    cpu_number := 0 }

/-- The configuration `cfg0` without `DIAGNOSTIC`. -/
def cfg1 : config := { cfg0 with DIAGNOSTIC := false }

/-- The kernel pmap of the concrete states. -/
def kpmap0 : struct_pmap :=
  { pm_obj := fun _ => [], pm_ptphint := fun _ => none, pm_pdir := 0x1000, pm_pdirpa := 0x1000,
    pm_pdir_intel := 0, pm_pdirpa_intel := 0, resident_count := 0, wired_count := 0,
    pm_cpus := 0, pm_type := PMAP_TYPE_NORMAL, uo_refs := 1 }

/-- A state after boot, before any user pmap exists: the kernel tree is
its root, `free` are the frames the frame allocator can hand out. -/
def boot (free : List Nat) : kstate :=
  { mem := fun _ _ => 0, wire_count := fun _ => 0, pg_flags := fun _ => 0, pv_list := fun _ => [],
    pm := fun _ => kpmap0, pmaps := [], cr3 := 0x1000,
    free_pages := free,
    pdp_pool := [0x2000, 0x3000, 0x4000, 0x5000], pmap_pool := [1, 2, 3], pv_pool := 4,
    nkptp := fun _ => 0, pmap_initialized := true }

/-- The check of a list of free frames for `boot`. -/
def boot_ok (free : List Nat) : Bool :=
  decide (free.Nodup ∧ ∀ f ∈ free, f &&& PG_FRAME = f ∧ f ≠ 0x1000 ∧
    f ∉ [0x2000, 0x3000, 0x4000, 0x5000])

/-- The boot state with eight free frames. -/
def boot0 : kstate :=
  boot [0x100000, 0x101000, 0x102000, 0x103000, 0x104000, 0x105000, 0x106000, 0x107000]

/-- The boot state with two free frames. -/
def boot2 : kstate := boot [0x100000, 0x101000]

/-- The state of a run, the start state when the run fails. -/
def after (c : config) (s : kstate) (ops : List op) : kstate := (run c s ops).getD s

/-- One user pmap, nothing mapped. -/
def st1 : kstate := after cfg0 boot0 [op.create]

/-- One user pmap with the page `0x1000` mapped to the frame `0x400000`. -/
def st2 : kstate := after cfg0 boot0 [op.create, op.enter 1 0x1000 0x400000 3 0]

/-- Two user pmaps that map the frame `0x400000`, at `0x1000` and at `0x2000`. -/
def u2 : kstate :=
  after cfg0 boot0
    [op.create, op.create, op.enter 1 0x1000 0x400000 3 0, op.enter 2 0x2000 0x400000 3 0]

/-- The state `st2` after the page `0x1000` is mapped to another frame. -/
def st4 : kstate := after cfg0 st2 [op.enter 1 0x1000 0x401000 3 0]

/-- One user pmap with the page `0x1000` mapped wired to the frame `0x400000`. -/
def w1 : kstate := after cfg0 st1 [op.enter 1 0x1000 0x400000 3 PMAP_WIRED]

/-- The state `w1` after the same page is entered again, not wired. -/
def w2 : kstate := after cfg0 w1 [op.enter 1 0x1000 0x400000 3 0]

/-- One user pmap, nothing mapped, two free frames. -/
def t1 : kstate := after cfg0 boot2 [op.create]

/-- The state `t1` after a `pmap_enter` that fails for lack of a third frame. -/
def t2 : kstate := after cfg0 t1 [op.enter 1 0x1000 0x400000 3 PMAP_CANFAIL]

/-- The pmap of `st1` converted to the extended regime: an empty EPT tree. -/
def e1 : kstate := (pmap_convert st1 1 PMAP_TYPE_EPT).2

/-- The boot state with a kernel tree that maps the first GiB of kernel
space with one 1 GiB page (a level-3 entry with `PG_PS`) and the second GiB
with 2 MiB pages (level-2 entries with `PG_PS`), the first of them at the
physical address `0x80000000`. -/
def g1 : kstate :=
  set_mem (set_mem (set_mem (set_mem boot0 0x1000 256 (0x6000 ||| PG_KW ||| PG_V))
    0x6000 0 (0x40000000 ||| PG_PS ||| PG_KW ||| PG_V))
    0x6000 1 (0x7000 ||| PG_KW ||| PG_V))
    0x7000 0 (0x80000000 ||| PG_PS ||| PG_KW ||| PG_V)

/-- The state `w1` after `pmap_unwire` of the wired page. -/
def w3 : kstate := after cfg0 w1 [op.unwire 1 0x1000]

/-- One user pmap with the page `0x1000` mapped to the frame `0x400000`,
readable, writable and executable. -/
def st7 : kstate := after cfg0 st1 [op.enter 1 0x1000 0x400000 7 0]

/-- The state `st7` after the page was write-protected for reading only. -/
def st8 : kstate := after cfg0 st7 [op.write_protect 1 0x1000 0x2000 1]

/-- One user pmap with the page `0x7f7fffffc000`, the first one above
`VM_MAXUSER_ADDRESS`, mapped to the frame `0x400000`. -/
def stg : kstate := after cfg0 st1 [op.enter 1 0x7f7fffffc000 0x400000 3 0]

/-- The state `st2` with a second page, `0x2000`, mapped to the frame `0x401000`. -/
def st9 : kstate := after cfg0 st2 [op.enter 1 0x2000 0x401000 3 0]

/-- The state `e1` with the guest-physical page `0x2000` mapped to the frame
`0x400000`, and nothing else. -/
def e2 : kstate := ((pmap_enter cfg0 e1 1 0x2000 0x400000 3 0).map Prod.snd).getD e1

/-- The state `s` with the reference count of the pmap `p` set to `n`. -/
def set_refs (s : kstate) (p : Nat) (n : Int) : kstate :=
  { s with pm := upd s.pm p { s.pm p with uo_refs := n } }

/-! ## Kernel mappings without pv tracking -/

/-- The new PTE of `pmap_kenter_pa`. -/
def pmap_kenter_npte (c : config) (va pa prot : Nat) : Nat :=
  let npte0 := (pa &&& PMAP_PA_MASK) ||| (if prot &&& PROT_WRITE ≠ 0 then PG_RW else PG_RO) |||
    (if pa &&& PMAP_NOCACHE ≠ 0 then PG_N else 0) |||
    (if pa &&& PMAP_WC ≠ 0 then c.pmap_pg_wc else 0) ||| PG_V
  let npte1 := if va ≥ NBPD_L2 then npte0 ||| c.pg_g_kern else npte0
  if prot &&& PROT_EXEC = 0 then npte1 ||| c.pg_nx else npte1

/-- `pmap_kenter_pa`.  The PTE is reached through the recursive mapping
(`kvtopte`); `pmap_pte_set` swaps the new PTE in.  `LARGEPAGES` tells
whether the kernel is compiled with that option. -/
def pmap_kenter_pa (c : config) (LARGEPAGES : Bool) (s : kstate) (va pa prot : Nat) :
    Option kstate :=
  let npte := pmap_kenter_npte c va pa prot
  match pde_read s va 1 with
  | none => none
  | some opte =>
    match pde_write s va 1 npte with
    | none => none
    | some s1 => if LARGEPAGES ∧ opte &&& PG_PS ≠ 0 then none else some s1

/-! ## The shadow tree of the kernel pmap -/

/-- `pool_get(&pmap_pdp_pool, PR_WAITOK | PR_ZERO)`: a zeroed page of the
pool of roots; on an empty pool the call does not return (`none`). -/
def pdp_pool_get_zero (s : kstate) : Option (Nat × kstate) :=
  match s.pdp_pool with
  | [] => none
  | f :: rest => some (f, { s with pdp_pool := rest, mem := mem_zero s.mem f })

/-- One upper level of `pmap_enter_special`: the entry `pd[idx]` names the
next table, or a zeroed page of the pool is installed; then the test of
`PMAP_DIRECT_MAP(npa)` against `NULL`.  The result is the next table. -/
def pmap_enter_special_level (s : kstate) (pd idx : Nat) : Option (Nat × kstate) :=
  let npa := s.mem pd idx &&& PMAP_PA_MASK
  if npa = 0 then
    match pdp_pool_get_zero s with
    | none => none
    | some (ptp, s1) =>
      let npa := ptp
      let s2 := set_mem s1 pd idx (npa ||| PG_u ||| PG_RW ||| PG_V)
      if PMAP_DIRECT_MAP npa = 0 then none else some (npa, s2)
  else if PMAP_DIRECT_MAP npa = 0 then none else some (npa, s)

/-- `pmap_enter_special` from the write of the leaf PTE `pd[l1idx]` on. -/
def pmap_enter_special_leaf (c : config) (s : kstate) (va pa prot pd l1idx : Nat) : kstate :=
  let pmap := 0
  let s4 := set_mem s pd l1idx (pa ||| protection_codes c prot ||| PG_V ||| PG_W)
  match pmap_find_pte_direct s4 pmap va with
  | (level, ptes, offs) =>
    if level = 0 ∧ pmap_valid_entry (s4.mem ptes offs) then
      if (s4.mem pd l1idx ^^^ s4.mem ptes offs) &&& PG_FRAME = 0 then
        let s5 := set_mem s4 pd l1idx (s4.mem pd l1idx ||| PG_G)
        set_mem s5 ptes offs (s5.mem ptes offs ||| PG_G)
      else s4
    else s4

/-- `pmap_enter_special` from the computation of the four indices on. -/
def pmap_enter_special_walk (c : config) (s0 : kstate) (va pa prot : Nat) : Option kstate :=
  let pmap := 0
  let l4idx := (va &&& L4_MASK) >>> L4_SHIFT
  let l3idx := (va &&& L3_MASK) >>> L3_SHIFT
  let l2idx := (va &&& L2_MASK) >>> L2_SHIFT
  let l1idx := (va &&& L1_MASK) >>> L1_SHIFT
  let pd := (s0.pm pmap).pm_pdir_intel
  if pd = 0 then none
  else
    match pmap_enter_special_level s0 pd l4idx with
    | none => none
    | some (pd3, s1) =>
      match pmap_enter_special_level s1 pd3 l3idx with
      | none => none
      | some (pd2, s2) =>
        match pmap_enter_special_level s2 pd2 l2idx with
        | none => none
        | some (pd1, s3) => some (pmap_enter_special_leaf c s3 va pa prot pd1 l1idx)

/-- `pmap_enter_special`; `none` for a panic or an empty pool. -/
def pmap_enter_special (c : config) (s : kstate) (va pa prot : Nat) : Option kstate :=
  let pmap := 0
  if ¬ c.cpu_meltdown then some s
  else if va < VM_MIN_KERNEL_ADDRESS then none
  else if (s.pm pmap).pm_pdir_intel = 0 then
    match pdp_pool_get_zero s with
    | none => none
    | some (f, s1) =>
      pmap_enter_special_walk c
        { s1 with pm := upd s1.pm pmap { s1.pm pmap with pm_pdir_intel := f } } va pa prot
  else pmap_enter_special_walk c s va pa prot

/-- The index `pmap_enter_special` uses in the level-`L` table. -/
def shadow_idx (va L : Nat) : Nat :=
  if L ≥ 4 then (va &&& L4_MASK) >>> L4_SHIFT
  else if L = 3 then (va &&& L3_MASK) >>> L3_SHIFT
  else if L = 2 then (va &&& L2_MASK) >>> L2_SHIFT
  else (va &&& L1_MASK) >>> L1_SHIFT

/-- One step down the shadow tree as `pmap_enter_special` walks it: an entry
without address bits ends the walk. -/
def shadow_step (s : kstate) (va L : Nat) (t : Option Nat) : Option Nat :=
  match t with
  | none => none
  | some t =>
    if s.mem t (shadow_idx va L) &&& PMAP_PA_MASK = 0 then none
    else some (s.mem t (shadow_idx va L) &&& PMAP_PA_MASK)

/-- The shadow root of the kernel pmap, when it has one. -/
def shadow_root (s : kstate) : Option Nat :=
  if (s.pm 0).pm_pdir_intel = 0 then none else some (s.pm 0).pm_pdir_intel

/-- The table of level `L` on the path of `va` in the shadow tree of the
kernel pmap. -/
def shadow_tab (s : kstate) (va L : Nat) : Option Nat :=
  if L ≥ 4 then shadow_root s
  else if L = 3 then shadow_step s va 4 (shadow_root s)
  else if L = 2 then shadow_step s va 3 (shadow_step s va 4 (shadow_root s))
  else shadow_step s va 2 (shadow_step s va 3 (shadow_step s va 4 (shadow_root s)))

/-- The tables of the shadow tree on the path of `va` are no tables of the
trees of the pmaps, are not in the pool of roots, have a direct-map address,
and differ from level to level. -/
def shadow_sep (s : kstate) (va : Nat) : Prop :=
  ∀ L t, 1 ≤ L → L ≤ 4 → shadow_tab s va L = some t →
    (∀ p va1 L1, dom s p va1 → 1 ≤ L1 → L1 ≤ 4 → ptab s.mem (root s p) va1 L1 ≠ some t) ∧
    t ∉ s.pdp_pool ∧ PMAP_DIRECT_MAP t ≠ 0 ∧
    ∀ L1, 1 ≤ L1 → L1 ≤ 4 → shadow_tab s va L1 = some t → L1 = L

/-- The frame `t` is a page of the pool of roots of `s` or a table of the
shadow tree of `s` on the path of `va`. -/
def shadow_page (s : kstate) (va t : Nat) : Prop :=
  t ∈ s.pdp_pool ∨ ∃ L, 1 ≤ L ∧ L ≤ 4 ∧ shadow_tab s va L = some t

/-- The state `s1` in the course of `pmap_enter_special` started in `s`,
when the walk is at the level-`L` table `pd` of the shadow tree: nothing
has changed yet, or `pd` is a zeroed page just taken from the pool; the
memory differs from that of `s` only in pages of the pool and in shadow
tables on the path of `va`. -/
structure shadow_at (s s1 : kstate) (va pd L : Nat) : Prop where
  walk : shadow_tab s1 va L = some pd
  up : ∀ L1 t, L < L1 → L1 ≤ 4 → shadow_tab s1 va L1 = some t →
    t ≠ pd ∧ t ∉ s1.pdp_pool ∧ shadow_page s va t
  pd_out : pd ∉ s1.pdp_pool
  pd_page : shadow_page s va pd
  cur : s1 = s ∨ ∀ j, s1.mem pd j = 0
  suffix : s1.pdp_pool <:+ s.pdp_pool
  len : s.pdp_pool.length ≤ s1.pdp_pool.length + (5 - L)
  mem : ∀ t j, s1.mem t j = s.mem t j ∨ shadow_page s va t
  rest : s1 = { s with mem := s1.mem, pdp_pool := s1.pdp_pool, pm := s1.pm }
  pm_o : ∀ q, q ≠ 0 → s1.pm q = s.pm q
  pm_k : s1.pm 0 = { s.pm 0 with pm_pdir_intel := (s1.pm 0).pm_pdir_intel }

/-- The test of `pmap_enter_special` before it sets `PG_G`: the tree of
the kernel pmap has a valid leaf PTE for `va` with the frame of the new
shadow PTE. -/
def special_global (c : config) (s : kstate) (va pa prot : Nat) : Bool :=
  match leaf s 0 va with
  | none => false
  | some x =>
    pmap_valid_entry x &&
      decide (((pa ||| protection_codes c prot ||| PG_V ||| PG_W) ^^^ x) &&& PG_FRAME = 0)

/-! ## Attribute functions -/

/-- The entry `ptes[offs]` that `pmap_find_pte_direct` designates for the
chain entry `pve`, as `pmap_test_attrs` and `pmap_clear_attrs` read it (the
level returned is not looked at). -/
def pv_pte (s : kstate) (pve : pv_entry) : Nat :=
  match pmap_find_pte_direct s pve.pv_pmap pve.pv_va with
  | (_, ptes, offs) => s.mem ptes offs

/-- The loop of `pmap_test_attrs` over the chain, which stops as soon as
`mybits` is not zero; the result is `mybits`. -/
def pmap_test_attrs_loop (s : kstate) (testbits : Nat) : List pv_entry → Nat → Nat
  | [], mybits => mybits
  | pve :: rest, mybits =>
    if mybits ≠ 0 then mybits
    else
      match pmap_find_pte_direct s pve.pv_pmap pve.pv_va with
      | (_, ptes, offs) =>
        pmap_test_attrs_loop s testbits rest (mybits ||| (s.mem ptes offs &&& testbits))

/-- `pmap_test_attrs`: the answer and the state; `testbits` is an
`unsigned int`. -/
def pmap_test_attrs (s : kstate) (pg testbits : Nat) : Bool × kstate :=
  let testbits := testbits % 2 ^ 32
  let testflags := pmap_pte2flags testbits
  if s.pg_flags pg &&& testflags ≠ 0 then (true, s)
  else
    let mybits := pmap_test_attrs_loop s testbits (s.pv_list pg) 0
    if mybits = 0 then (false, s)
    else
      (true, { s with pg_flags := upd s.pg_flags pg (s.pg_flags pg ||| pmap_pte2flags mybits) })

/-- The loop of `pmap_clear_attrs` over the chain; the result is `result`
and the state. -/
def pmap_clear_attrs_loop (clearbits : Nat) : List pv_entry → Nat → kstate → Nat × kstate
  | [], result, s => (result, s)
  | pve :: rest, result, s =>
    match pmap_find_pte_direct s pve.pv_pmap pve.pv_va with
    | (_, ptes, offs) =>
      let opte := s.mem ptes offs
      if opte &&& clearbits ≠ 0 then
        pmap_clear_attrs_loop clearbits rest 1
          (pmap_pte_clearbits s ptes offs (opte &&& clearbits))
      else pmap_clear_attrs_loop clearbits rest result s

/-- `pmap_clear_attrs`: the answer and the state; `clearbits` is an
`unsigned long`, `pg_flags` an `unsigned int`. -/
def pmap_clear_attrs (s : kstate) (pg clearbits : Nat) : Bool × kstate :=
  let clearbits := clearbits % 2 ^ 64
  let clearflags := pmap_pte2flags clearbits
  let result := s.pg_flags pg &&& clearflags
  let s1 :=
    if result ≠ 0 then
      { s with pg_flags := upd s.pg_flags pg (s.pg_flags pg &&& (0xffffffff ^^^ clearflags)) }
    else s
  match pmap_clear_attrs_loop clearbits (s1.pv_list pg) result s1 with
  | (result1, s2) => (decide (result1 ≠ 0), s2)

/-- The entry (`t`, `j`) is the leaf PTE of an entry of the chain of `pg`. -/
def chain_cell (s : kstate) (pg t j : Nat) : Prop :=
  ∃ e ∈ s.pv_list pg, ptab s.mem (root s e.pv_pmap) e.pv_va 1 = some t ∧ slot e.pv_va 1 = j

/-! ## The order of the shootdown wait and the frees

The functions below are `pmap_remove`, `pmap_page_remove` and what they call
once more, with a log of the calls of `pmap_tlb_shootwait` and of
`uvm_pagefree` in the order the code makes them; next to the state they
return the deferred list `empty_ptps` as it is at the end. -/

/-- A call the log records: `pmap_tlb_shootwait()` has returned, or
`uvm_pagefree(pg)` is made. -/
inductive event where
  | shootwait : event
  | pagefree (pg : Nat) : event
deriving DecidableEq

/-- The loop `while ((ptp = TAILQ_FIRST(&empty_ptps)) != NULL)` that ends
`pmap_do_remove` and `pmap_page_remove`, with the log. -/
def pmap_free_empty_ptps : List Nat → kstate → List event → kstate × List event
  | [], s, log => (s, log)
  | ptp :: rest, s, log =>
    pmap_free_empty_ptps rest (uvm_pagefree s ptp) (log ++ [event.pagefree ptp])

/-- The `cleanup:` part of `pmap_do_remove`, with the log. -/
def pmap_do_remove_cleanup_ev (s : kstate) (free_pvs : List pv_entry) (empty_ptps : List Nat)
    (log : List event) : kstate × List Nat × List event :=
  match pmap_free_empty_ptps empty_ptps (pv_pool_put s free_pvs.length) log with
  | (s1, log1) => (s1, empty_ptps, log1)

/-- `pmap_do_remove`, with the log: the state, the deferred list and the
log.  The path of a single page whose PDEs are not valid goes to `cleanup:`
without `pmap_tlb_shootwait`. -/
def pmap_do_remove_ev (c : config) (s : kstate) (pmap sva eva flags : Nat) :
    Option (kstate × List Nat × List event) :=
  match pmap_map_ptes c s pmap with
  | none => none
  | some (scr3, s0) =>
    if w64 (sva + PAGE_SIZE) = eva then
      match pmap_pdes_valid s0 sva with
      | some pde =>
        let ptppa := pde &&& PG_FRAME
        match pmap_do_remove_ptp c s0 pmap sva ptppa with
        | none => none
        | some ptp =>
          match pmap_remove_pte c s0 pmap ptp sva flags [] with
          | none => none
          | some (result, s1, free_pvs) =>
            match ptp with
            | none =>
              some (pmap_do_remove_cleanup_ev (pmap_unmap_ptes c s1 pmap scr3) free_pvs []
                [event.shootwait])
            | some q =>
              if result ∧ s1.wire_count q ≤ 1 then
                match pmap_free_ptp s1 pmap q sva [] with
                | none => none
                | some f =>
                  some (pmap_do_remove_cleanup_ev (pmap_unmap_ptes c f.1 pmap scr3) free_pvs f.2
                    [event.shootwait])
              else
                some (pmap_do_remove_cleanup_ev (pmap_unmap_ptes c s1 pmap scr3) free_pvs []
                  [event.shootwait])
      | none => some (pmap_do_remove_cleanup_ev (pmap_unmap_ptes c s0 pmap scr3) [] [] [])
    else
      match pmap_do_remove_loop c pmap eva flags (2 ^ 43 + 2) sva s0 [] [] with
      | none => none
      | some (s1, free_pvs, empty_ptps) =>
        some (pmap_do_remove_cleanup_ev (pmap_unmap_ptes c s1 pmap scr3) free_pvs empty_ptps
          [event.shootwait])

/-- `pmap_do_remove_ept`, with the log: it calls `uvm_pagefree` on the
spot and has no deferred list. -/
def pmap_do_remove_ept_ev (c : config) (s : kstate) (pmap gpa : Nat) (log : List event) :
    Option (kstate × List event) :=
  let l4idx := ept_idx gpa L4_MASK L4_SHIFT
  let l3idx := ept_idx gpa L3_MASK L3_SHIFT
  let l2idx := ept_idx gpa L2_MASK L2_SHIFT
  let l1idx := ept_idx gpa L1_MASK L1_SHIFT
  let pd4 := (s.pm pmap).pm_pdir
  if pd4 = 0 then some (s, log)
  else
    let npa3 := s.mem pd4 l4idx &&& PMAP_PA_MASK
    if npa3 = 0 then some (s, log)
    else
      let pg3 := PHYS_TO_VM_PAGE c npa3
      let npa2 := s.mem npa3 l3idx &&& PMAP_PA_MASK
      if npa2 = 0 then some (s, log)
      else
        let pg2 := PHYS_TO_VM_PAGE c npa2
        let npa1 := s.mem npa2 l2idx &&& PMAP_PA_MASK
        if npa1 = 0 then some (s, log)
        else
          let pg1 := PHYS_TO_VM_PAGE c npa1
          if s.mem npa1 l1idx = 0 then some (s, log)
          else
            match pg1 with
            | none => none
            | some pg1 =>
              let dec := wire_dec
              let res := fun (s : kstate) => add_resident s pmap (-1)
              let s1 := res (dec (set_mem s npa1 l1idx 0) pg1)
              if s1.wire_count pg1 > 1 then some (s1, log)
              else
                let s2 := set_wire s1 pg1 0
                let s3 := set_mem s2 npa2 l2idx 0
                let s4 := res (uvm_pagefree (obj_remove s3 pmap 0 pg1) pg1)
                let log1 := log ++ [event.pagefree pg1]
                match pg2 with
                | none => none
                | some pg2 =>
                  let s5 := dec s4 pg2
                  if s5.wire_count pg2 > 1 then some (s5, log1)
                  else
                    let s6 := set_wire s5 pg2 0
                    let s7 := set_mem s6 npa3 l3idx 0
                    let s8 := res (uvm_pagefree (obj_remove s7 pmap 1 pg2) pg2)
                    let log2 := log1 ++ [event.pagefree pg2]
                    match pg3 with
                    | none => none
                    | some pg3 =>
                      let s9 := dec s8 pg3
                      if s9.wire_count pg3 > 1 then some (s9, log2)
                      else
                        let s10 := set_wire s9 pg3 0
                        let s11 := set_mem s10 pd4 l4idx 0
                        some (res (uvm_pagefree (obj_remove s11 pmap 2 pg3) pg3),
                          log2 ++ [event.pagefree pg3])

/-- The loop of `pmap_remove_ept`, with the log. -/
def pmap_remove_ept_loop_ev (c : config) (pmap egpa : Nat) :
    Nat → Nat → kstate → List event → Option (kstate × List event)
  | 0, _, _, _ => none
  | n + 1, v, s, log =>
    if v < w64 (egpa + PAGE_SIZE) then
      match pmap_do_remove_ept_ev c s pmap v log with
      | none => none
      | some (s1, log1) => pmap_remove_ept_loop_ev c pmap egpa n (w64 (v + PAGE_SIZE)) s1 log1
    else some (s, log)

/-- `pmap_remove`, with the log: the state, the deferred list and the log. -/
def pmap_remove_ev (c : config) (s : kstate) (pmap sva eva : Nat) :
    Option (kstate × List Nat × List event) :=
  if (s.pm pmap).pm_type = PMAP_TYPE_EPT then
    match pmap_remove_ept_loop_ev c pmap eva (2 ^ 52 + 2) sva s [] with
    | none => none
    | some (s1, log) => some (s1, [], log)
  else pmap_do_remove_ev c s pmap sva eva PMAP_REMOVE_ALL

/-- The loop of `pmap_destroy` that frees the pages left in the index
`lidx`, with the log. -/
def pmap_destroy_pages_ev (pmap lidx : Nat) : Nat → kstate → List event → kstate × List event
  | 0, s, log => (s, log)
  | n + 1, s, log =>
    match RBT_ROOT ((s.pm pmap).pm_obj lidx) with
    | none => (s, log)
    | some pg =>
      let s1 := add_resident (set_wire s pg 0) pmap (-1)
      pmap_destroy_pages_ev pmap lidx n (uvm_pagefree (obj_remove s1 pmap lidx pg) pg)
        (log ++ [event.pagefree pg])

/-- `pmap_destroy`, with the log. -/
def pmap_destroy_ev (c : config) (s : kstate) (pmap : Nat) (log : List event) :
    Option (kstate × List event) :=
  let p := s.pm pmap
  let refs := p.uo_refs - 1
  let s0 : kstate := { s with pm := upd s.pm pmap { p with uo_refs := refs } }
  if refs > 0 then some (s0, log)
  else
    let s1 : kstate := { s0 with pmaps := s0.pmaps.erase pmap }
    if c.DIAGNOSTIC ∧
        (∃ e ∈ (s1.pm pmap).pm_obj 0 ++ (s1.pm pmap).pm_obj 1 ++ (s1.pm pmap).pm_obj 2,
          s1.pg_flags e.2 &&& PG_BUSY ≠ 0) then none
    else
      let r2 := pmap_destroy_pages_ev pmap 0 ((s1.pm pmap).pm_obj 0).length s1 log
      let r3 := pmap_destroy_pages_ev pmap 1 ((r2.1.pm pmap).pm_obj 1).length r2.1 r2.2
      let r4 := pmap_destroy_pages_ev pmap 2 ((r3.1.pm pmap).pm_obj 2).length r3.1 r3.2
      let s4 := r4.1
      let s5 : kstate := { s4 with pdp_pool := (s4.pm pmap).pm_pdir :: s4.pdp_pool }
      let s6 : kstate :=
        if (s5.pm pmap).pm_pdir_intel ≠ 0 then
          let s51 := add_resident s5 pmap (-1)
          { s51 with pdp_pool := (s51.pm pmap).pm_pdir_intel :: s51.pdp_pool }
        else s5
      some ({ s6 with pmap_pool := pmap :: s6.pmap_pool }, r4.2)

/-- The `while` loop of `pmap_page_remove`, with the log. -/
def pmap_page_remove_loop_ev (c : config) (pg : Nat) :
    Nat → kstate → List Nat → List event → Option (kstate × List Nat × List event)
  | 0, _, _, _ => none
  | n + 1, s, empty_ptps, log =>
    match s.pv_list pg with
    | [] => some (s, empty_ptps, log)
    | pve0 :: _ =>
      let s1 := pmap_reference s pve0.pv_pmap
      let pm := pve0.pv_pmap
      match pmap_map_ptes c s1 pm with
      | none => none
      | some (scr3, s2) =>
        match s2.pv_list pg with
        | [] =>
          match pmap_destroy_ev c (pmap_unmap_ptes c s2 pm scr3) pm log with
          | none => none
          | some (s3, log1) => pmap_page_remove_loop_ev c pg n s3 empty_ptps log1
        | pve :: rest =>
          if pve.pv_pmap ≠ pm then
            match pmap_destroy_ev c (pmap_unmap_ptes c s2 pm scr3) pm log with
            | none => none
            | some (s3, log1) => pmap_page_remove_loop_ev c pg n s3 empty_ptps log1
          else
            let s3 : kstate := { s2 with pv_list := upd s2.pv_list pg rest }
            match pmap_page_remove_zap c s3 pg pve empty_ptps with
            | none => none
            | some (s9, ptps) =>
              match pmap_destroy_ev c (pmap_unmap_ptes c s9 pve.pv_pmap scr3) pve.pv_pmap
                log with
              | none => none
              | some (s10, log1) =>
                pmap_page_remove_loop_ev c pg n (pv_pool_put s10 1) ptps log1

/-- `pmap_page_remove`, with the log: the state, the deferred list and the
log. -/
def pmap_page_remove_ev (c : config) (s : kstate) (pg : Nat) :
    Option (kstate × List Nat × List event) :=
  match pmap_page_remove_loop_ev c pg ((s.pv_list pg).length + 1) s [] [] with
  | none => none
  | some (s1, empty_ptps, log) =>
    match pmap_free_empty_ptps empty_ptps s1 (log ++ [event.shootwait]) with
    | (s2, log1) => some (s2, empty_ptps, log1)

/-! ## Growing the kernel range

`pmap_growkernel` uses globals that `kstate` does not have: the constant
table `nkptpmax[]`, `pmap_maxkvaddr`, and, while the frame allocator is not
up (`uvm.page_init_done == FALSE`), the segments of physical memory
`vm_physmem[]` that `pmap_steal_memory` takes pages from.  `long` values are
integers, `unsigned long` values are taken modulo `2 ^ 64`. -/

/-- Modelled from the spec: `struct vm_physseg` (of the frame allocator, not
under src/), the page numbers that `pmap_steal_memory` reads and writes. -/
structure vm_physseg where
  /-- `start` -/
  start : Nat
  /-- `end` -/
  end_ : Nat
  /-- `avail_start` -/
  avail_start : Nat
  /-- `avail_end` -/
  avail_end : Nat
deriving DecidableEq

/-- The globals of `pmap_growkernel` outside `kstate`. -/
structure grow_globals where
  /-- Modelled from the spec: `nkptpmax[]`, the largest number of kernel PTPs
  of each level (`NKPTPMAX_INITIALIZER`, header not under src/). -/
  nkptpmax : Nat → Int
  /-- `uvm.page_init_done` -/
  page_init_done : Bool
  /-- `vm_physmem[]`, `vm_nphysseg` being its length -/
  vm_physmem : List vm_physseg
  /-- `pmap_maxkvaddr` -/
  pmap_maxkvaddr : Nat

/-- Modelled from the spec: `nbpd[]`, the bytes an entry of each level maps
(`NBPD_INITIALIZER`, header not under src/). -/
def nbpd (i : Nat) : Nat := 1 <<< ptp_shifts i

/-- Modelled from the spec: `PMAP_DIRECT_UNMAP` (header not under src/). -/
def PMAP_DIRECT_UNMAP (va : Nat) : Nat := w64 (va + 2 ^ 64 - PMAP_DIRECT_BASE)

/-- Modelled from the spec: `round_page` (header not under src/). -/
def round_page (x : Nat) : Nat := w64 (x + PAGE_MASK) &&& 0xfffffffffffff000

/-- A `long` stored in an `unsigned long`. -/
def u64 (x : Int) : Nat := (x % 2 ^ 64).toNat

/-- The loop of `pmap_steal_memory` over the segments: the number of the
first segment with `npg` pages available at its start or at its end. -/
def pmap_steal_find (npg : Nat) : List vm_physseg → Nat → Option Nat
  | [], _ => none
  | seg :: rest, segno =>
    if w64 (seg.avail_end + 2 ^ 64 - seg.avail_start) < npg then
      pmap_steal_find npg rest (segno + 1)
    else if seg.avail_start = seg.start ∨ seg.avail_end = seg.end_ then some segno
    else pmap_steal_find npg rest (segno + 1)

/-- `pmap_steal_memory(size, NULL, NULL)`: the address returned; `none` for a
panic. -/
def pmap_steal_memory (g : grow_globals) (s : kstate) (size : Nat) :
    Option (Nat × grow_globals × kstate) :=
  let size := round_page size
  let npg := (size >>> 12) % 2 ^ 32
  match pmap_steal_find npg g.vm_physmem 0 with
  | none => none
  | some segno =>
    match g.vm_physmem.get? segno with
    | none => none
    | some seg =>
      let pa := if seg.avail_start = seg.start then w64 (seg.avail_start <<< 12)
        else w64 (w64 (seg.avail_end <<< 12) + 2 ^ 64 - size)
      let seg1 : vm_physseg :=
        if seg.avail_start = seg.start then
          { seg with avail_start := w64 (seg.avail_start + npg), start := w64 (seg.start + npg) }
        else
          { seg with avail_end := w64 (seg.avail_end + 2 ^ 64 - npg),
                     end_ := w64 (seg.end_ + 2 ^ 64 - npg) }
      let va := PMAP_DIRECT_MAP pa
      let s1 : kstate :=
        (List.range npg).foldl
          (fun s k => { s with mem := mem_zero s.mem (PMAP_DIRECT_UNMAP va + k * PAGE_SIZE) }) s
      if seg1.start = seg1.end_ then
        if g.vm_physmem.length = 1 then none
        else some (va, { g with vm_physmem := g.vm_physmem.eraseIdx segno }, s1)
      else some (va, { g with vm_physmem := g.vm_physmem.set segno seg1 }, s1)

/-- `pmap_get_physpage`: the physical address stored in `*paddrp`; `none` for
a panic. -/
def pmap_get_physpage (g : grow_globals) (s : kstate) (va level : Nat) :
    Option (Nat × grow_globals × kstate) :=
  if g.page_init_done = false then
    match pmap_steal_memory g s PAGE_SIZE with
    | none => none
    | some (va1, g1, s1) => some (PMAP_DIRECT_UNMAP va1, g1, add_resident s1 0 1)
  else
    match uvm_pagealloc s 0 (level - 1) (ptp_va2o va level) with
    | (none, _) => none
    | (some ptp, s1) => some (ptp, g, add_resident (set_wire (clear_busy s1 ptp) ptp 1) 0 1)

/-- The store `pdep[i] = v` of `pmap_alloc_level`: for `level == PTP_LEVELS`
`pdep` is the root of the kernel pmap at its kernel address; below, it is
`normal_pdes[level - 2]`, the array of all entries of level `level` in the
recursive mapping of the loaded root, where the entry of index `i` is the
one `pde_write` reaches for an address `va` with `pl_i(va, level) == i`, and
the store faults when an entry above it is not valid.  `none` also for an
index outside the page or the array. -/
def pdep_write (s : kstate) (level i v : Nat) : Option kstate :=
  if level = PTP_LEVELS then
    if i < 512 then some (set_mem s (s.pm 0).pm_pdir i v) else none
  else if i < 2 ^ (9 * (5 - level)) then pde_write s (i <<< ptp_shifts (level - 1)) level v
  else none

/-- The loop `for (i = index; i <= endindex; i++)` of `pmap_alloc_level`,
`n` bounds the rounds left. -/
def pmap_alloc_level_loop (c : config) (level endindex : Nat) :
    Nat → Nat → Nat → grow_globals → kstate → Option (grow_globals × kstate)
  | 0, _, _, _, _ => none
  | n + 1, i, va, g, s =>
    if i ≤ endindex then
      match pmap_get_physpage g s va (level - 1) with
      | none => none
      | some (pa, g1, s1) =>
        match pdep_write s1 level i (pa ||| PG_RW ||| PG_V ||| c.pg_nx) with
        | none => none
        | some s2 =>
          let s3 : kstate := { s2 with nkptp := upd s2.nkptp (level - 1) (s2.nkptp (level - 1) + 1) }
          pmap_alloc_level_loop c level endindex n (w64 (i + 1)) (w64 (va + nbpd (level - 1))) g1 s3
    else some (g, s)

/-- One round of the loop over the levels of `pmap_alloc_level`. -/
def pmap_alloc_level_at (c : config) (kva level : Nat) (needed_ptps : Nat → Int)
    (g : grow_globals) (s : kstate) : Option (grow_globals × kstate) :=
  let index := pl_i kva level
  let endindex := u64 (index + needed_ptps (level - 1))
  if s.nkptp (level - 1) ≠ 0 then
    pmap_alloc_level_loop c level endindex (2 ^ 64 + 1) (w64 (index + 1)) kva g s
  else
    pmap_alloc_level_loop c level (u64 (endindex - 1)) (2 ^ 64 + 1) index kva g s

/-- `pmap_alloc_level(kva, lvl, needed_ptps)`: the levels `lvl` down to 2. -/
def pmap_alloc_level (c : config) (kva : Nat) (needed_ptps : Nat → Int) :
    Nat → grow_globals → kstate → Option (grow_globals × kstate)
  | 0, g, s => some (g, s)
  | 1, g, s => some (g, s)
  | lvl + 2, g, s =>
    match pmap_alloc_level_at c kva (lvl + 2) needed_ptps g s with
    | none => none
    | some (g1, s1) => pmap_alloc_level c kva needed_ptps (lvl + 1) g1 s1

/-- `target_nptp` of `pmap_growkernel` for the index `i`. -/
def target_nptp (maxkvaddr i : Nat) : Int :=
  (pl_i maxkvaddr (i + 1) : Int) - (pl_i VM_MIN_KERNEL_ADDRESS (i + 1) : Int)

/-- `memcpy(&dst[start], &src[start], n * sizeof (pd_entry_t))`. -/
def memcpy_pdes (s : kstate) (dst src start n : Nat) : kstate :=
  (List.range n).foldl (fun s k => set_mem s dst (start + k) (s.mem src (start + k))) s

/-- `pmap_growkernel`: the value returned, with the globals and the state
afterwards; `none` for a panic, for a fault, and for a copy that leaves the
page of a root. -/
def pmap_growkernel (c : config) (g : grow_globals) (s : kstate) (maxkvaddr : Nat) :
    Option (Nat × grow_globals × kstate) :=
  if maxkvaddr ≤ g.pmap_maxkvaddr then some (g.pmap_maxkvaddr, g, s)
  else
    let maxkvaddr := x86_round_pdr maxkvaddr
    let old := s.nkptp (PTP_LEVELS - 1)
    if ∃ i ∈ [3, 2, 1], target_nptp maxkvaddr i > g.nkptpmax i then none
    else
      let needed_kptp : Nat → Int := fun i => target_nptp maxkvaddr i - (s.nkptp i : Int) + 1
      match pmap_alloc_level c g.pmap_maxkvaddr needed_kptp PTP_LEVELS g s with
      | none => none
      | some (g1, s1) =>
        let newpdes := (((s1.nkptp (PTP_LEVELS - 1) : Int) - (old : Int)) % 2 ^ 32).toNat
        if needed_kptp (PTP_LEVELS - 1) ≠ 0 then
          if PDIR_SLOT_KERN + old + newpdes ≤ 512 then
            some (maxkvaddr, { g1 with pmap_maxkvaddr := maxkvaddr },
              s1.pmaps.foldl (fun s pm =>
                memcpy_pdes s (s.pm pm).pm_pdir (s.pm 0).pm_pdir (PDIR_SLOT_KERN + old) newpdes) s1)
          else none
        else some (maxkvaddr, { g1 with pmap_maxkvaddr := maxkvaddr }, s1)

/-- The roots in use in the state `s`: the root of the kernel pmap, the
loaded root, and the roots of the pmaps of the global list. -/
def groots (s : kstate) (r : Nat) : Prop :=
  r = (s.pm 0).pm_pdir ∨ r = s.cr3 ∨ ∃ p ∈ s.pmaps, r = (s.pm p).pm_pdir

/-- What holds between the state `s0` at the call of `pmap_alloc_level` and a
state `s` inside it: the roots are as they were, but for the slots `W` of the
root of the kernel pmap; the free frames are no roots; the top-level slots
`E4` of the loaded root are valid and name frames that are neither roots nor
free, and so do the level-3 entries of index `E3` reached through it. -/
structure grow_inv (s0 s : kstate) (W E4 E3 : Nat → Prop) : Prop where
  cr3 : s.cr3 = s0.cr3
  pmaps : s.pmaps = s0.pmaps
  pdir : ∀ p, (s.pm p).pm_pdir = (s0.pm p).pm_pdir
  nodup : s.free_pages.Nodup
  frames : ∀ f ∈ s.free_pages, is_frame f
  free_root : ∀ f ∈ s.free_pages, ¬ groots s0 f
  roots : ∀ r j, groots s0 r → ¬ (r = (s0.pm 0).pm_pdir ∧ W j) → s.mem r j = s0.mem r j
  e34 : ∀ e, E3 e → E4 (e / 512 % 512)
  p4 : ∀ j, E4 j → pmap_valid_entry (s.mem s0.cr3 j) = true ∧
    ¬ groots s0 (s.mem s0.cr3 j &&& PG_FRAME) ∧ (s.mem s0.cr3 j &&& PG_FRAME) ∉ s.free_pages
  p3 : ∀ e, E3 e →
    pmap_valid_entry (s.mem (s.mem s0.cr3 (e / 512 % 512) &&& PG_FRAME) (e % 512)) = true ∧
    ¬ groots s0 (s.mem (s.mem s0.cr3 (e / 512 % 512) &&& PG_FRAME) (e % 512) &&& PG_FRAME) ∧
    (s.mem (s.mem s0.cr3 (e / 512 % 512) &&& PG_FRAME) (e % 512) &&& PG_FRAME) ∉ s.free_pages

/-- The counters `nkptp[]` fit `pmap_maxkvaddr`: either nothing was
allocated yet (the first call, `pmap_maxkvaddr` has its initial value), or
each counter is the number of entries of its level from the one of
`VM_MIN_KERNEL_ADDRESS` to the one of `pmap_maxkvaddr`, and the kernel tree
has its tables on the path of `pmap_maxkvaddr` down to level 2. -/
def kva_ok (g : grow_globals) (s : kstate) : Prop :=
  (g.pmap_maxkvaddr = VM_MIN_KERNEL_ADDRESS ∧ s.nkptp 1 = 0 ∧ s.nkptp 2 = 0 ∧ s.nkptp 3 = 0) ∨
  (VM_MIN_KERNEL_ADDRESS ≤ g.pmap_maxkvaddr ∧ g.pmap_maxkvaddr < 2 ^ 64 ∧
    (∀ i, 1 ≤ i → i ≤ 3 →
      s.nkptp i + pl_i VM_MIN_KERNEL_ADDRESS (i + 1) = pl_i g.pmap_maxkvaddr (i + 1) + 1) ∧
    (ptab s.mem (root s 0) g.pmap_maxkvaddr 2).isSome = true)

/-- Number of pages `pmap_growkernel` allocates to reach `maxkvaddr`. -/
def grow_pages (s : kstate) (maxkvaddr : Nat) : Nat :=
  (pl_i maxkvaddr 4 + 1 - pl_i VM_MIN_KERNEL_ADDRESS 4 - s.nkptp 3) +
  (pl_i maxkvaddr 3 + 1 - pl_i VM_MIN_KERNEL_ADDRESS 3 - s.nkptp 2) +
  (pl_i maxkvaddr 2 + 1 - pl_i VM_MIN_KERNEL_ADDRESS 2 - s.nkptp 1)

/-! ## Concrete states with a kernel tree -/

/-- The configuration `cfg0` on a processor that needs the Meltdown
mitigation: `cpu_meltdown` is set and `pg_g_kern` is `0`. -/
def cfgm : config := { cfg0 with cpu_meltdown := true }

/-- The boot state with the first page of the kernel image mapped: the
kernel tree has the path of `KERNBASE` (top-level slot 511), whose leaf PTE
maps the frame `0x800000`. -/
def kimg : kstate :=
  set_mem (set_mem (set_mem (set_mem boot0 0x1000 511 (0x6000 ||| PG_KW ||| PG_V))
    0x6000 510 (0x7000 ||| PG_KW ||| PG_V))
    0x7000 0 (0x8000 ||| PG_KW ||| PG_V))
    0x8000 0 (0x800000 ||| PG_KW ||| PG_V)

/-- The state `kimg` after `pmap_create`: one user pmap. -/
def kimg1 : kstate := ((pmap_create cfg0 kimg).map Prod.snd).getD kimg

/-- One user pmap with the page `0x200000` mapped to the frame `0x400000`. -/
def st10 : kstate := after cfg0 st1 [op.enter 1 0x200000 0x400000 3 0]

/-- Two user pmaps, nothing mapped. -/
def st20 : kstate := after cfg0 boot0 [op.create, op.create]

/-- The globals of `pmap_growkernel` before its first call, with the frame
allocator up and room for two top-level slots. -/
def grow0 : grow_globals :=
  { nkptpmax := fun i => if i = 3 then 1 else if i = 2 then 512 else 262144,
    page_init_done := true, vm_physmem := [], pmap_maxkvaddr := VM_MIN_KERNEL_ADDRESS }

/-- The boot state with the kernel tree of the first 2 MiB of the kernel
range, `nkptp[]` counting one table of each level. -/
def kgr0 : kstate :=
  { set_mem (set_mem (set_mem boot0 0x1000 256 (0x6000 ||| PG_KW ||| PG_V))
      0x6000 0 (0x7000 ||| PG_KW ||| PG_V))
      0x7000 0 (0x8000 ||| PG_KW ||| PG_V) with nkptp := fun i => if i = 0 then 0 else 1 }

/-- The state `kgr0` with two user pmaps. -/
def kgr1 : kstate := after cfg0 kgr0 [op.create, op.create]

/-- The state `kgr1` with the root of the pmap 1 loaded. -/
def kgr2 : kstate := { kgr1 with cr3 := 0x2000 }

/-! ## More concrete states -/

/-- The state `e2` with a second guest-physical page of the same 2 MiB
region, `0x3000`, mapped to the frame `0x401000`. -/
def e3 : kstate := ((pmap_enter cfg0 e2 1 0x3000 0x401000 3 0).map Prod.snd).getD e2

/-! ## The blocks of the range loop of `pmap_do_remove` -/

/-- The end `blkendva` of the block that the range loop of `pmap_do_remove`
starts at `va`: `x86_round_pdr(va + 1)`, cut at `eva`. -/
def blkendva (va eva : Nat) : Nat :=
  let b := x86_round_pdr (va + 1)
  if b > eva then eva else b

/-- The successive blocks `(va, blkendva)` of the loop
`for (va = sva; va < eva; va = blkendva)`, at most `n` of them. -/
def do_remove_blocks (eva : Nat) : Nat → Nat → List (Nat × Nat)
  | 0, _ => []
  | n + 1, va =>
    if va < eva then (va, blkendva va eva) :: do_remove_blocks eva n (blkendva va eva) else []

/-- The body of the range loop of `pmap_do_remove` for one block. -/
def pmap_do_remove_block (c : config) (pmap flags : Nat) (b : Nat × Nat)
    (s : kstate) (free_pvs : List pv_entry) (empty_ptps : List Nat) :
    Option (kstate × List pv_entry × List Nat) :=
  if pl_i b.1 PTP_LEVELS = PDIR_SLOT_PTE then some (s, free_pvs, empty_ptps)
  else
    match pmap_pdes_valid s b.1 with
    | none => some (s, free_pvs, empty_ptps)
    | some pde =>
      let ptppa := pde &&& PG_FRAME
      match pmap_do_remove_ptp c s pmap b.1 ptppa with
      | none => none
      | some ptp =>
        match pmap_remove_ptes c s pmap ptp b.1 b.2 flags free_pvs with
        | none => none
        | some r =>
          match ptp with
          | none => some (r.1, r.2, empty_ptps)
          | some q =>
            if r.1.wire_count q ≤ 1 then
              match pmap_free_ptp r.1 pmap q b.1 empty_ptps with
              | none => none
              | some f => some (f.1, r.2, f.2)
            else some (r.1, r.2, empty_ptps)

/-- The body of the range loop run over a list of blocks, in order. -/
def do_remove_run (c : config) (pmap flags : Nat) :
    List (Nat × Nat) → kstate → List pv_entry → List Nat →
      Option (kstate × List pv_entry × List Nat)
  | [], s, free_pvs, empty_ptps => some (s, free_pvs, empty_ptps)
  | b :: bs, s, free_pvs, empty_ptps =>
    match pmap_do_remove_block c pmap flags b s free_pvs empty_ptps with
    | none => none
    | some r => do_remove_run c pmap flags bs r.1 r.2.1 r.2.2

/-! ## The full scan of a slice of a leaf PTP -/

/-- The loop of `pmap_remove_ptes` as a scan that visits every entry of the
slice: the body of `pmap_remove_ptes_loop`, run while `startva < endva` with
no test of the `wire_count` of the PTP. -/
def remove_ptes_scan_loop (c : config) (pmap : Nat) (ptp : Option Nat) (endva flags : Nat) :
    Nat → Nat → kstate → List pv_entry → Option (kstate × List pv_entry)
  | 0, _, s, free_pvs => some (s, free_pvs)
  | n + 1, startva, s, free_pvs =>
    if startva < endva then
      match pde_read s startva 1 with
      | none => none
      | some pte =>
        if ¬ pmap_valid_entry pte then
          remove_ptes_scan_loop c pmap ptp endva flags n (startva + PAGE_SIZE) s free_pvs
        else if flags &&& PMAP_REMOVE_SKIPWIRED ≠ 0 ∧ pte &&& PG_W ≠ 0 then
          remove_ptes_scan_loop c pmap ptp endva flags n (startva + PAGE_SIZE) s free_pvs
        else
          match pmap_zap_pte c s pmap ptp startva free_pvs with
          | none => none
          | some r =>
            remove_ptes_scan_loop c pmap ptp endva flags n (startva + PAGE_SIZE) r.1 r.2
    else some (s, free_pvs)

/-- The scan of every entry of the slice `[startva, endva)`. -/
def remove_ptes_scan (c : config) (s : kstate) (pmap : Nat) (ptp : Option Nat)
    (startva endva flags : Nat) (free_pvs : List pv_entry) :
    Option (kstate × List pv_entry) :=
  remove_ptes_scan_loop c pmap ptp endva flags
    ((endva - startva + (PAGE_SIZE - 1)) / PAGE_SIZE) startva s free_pvs

/-- The leaf `old` after a scan with `flags` went over it: zero when it was
valid and not skipped as wired, the same otherwise. -/
def scanned (flags old : Nat) : Nat :=
  if pmap_valid_entry old ∧ ¬ (flags &&& PMAP_REMOVE_SKIPWIRED ≠ 0 ∧ old &&& PG_W ≠ 0) then 0
  else old

/-- The state `w1` with the root of the pmap 1 loaded. -/
def w4 : kstate := { w1 with cr3 := 0x2000 }

/-- The state `st9` with the root of the pmap 1 loaded. -/
def st11 : kstate := { st9 with cr3 := 0x2000 }

/-! ## The extended regime: the tables on the path of a guest address -/

/-- The address in the entry `i` of the table `t`, as `pmap_enter_ept` and
`pmap_do_remove_ept` read it: `pd[i] & PMAP_PA_MASK`. -/
def ept_next (m : Nat → Nat → Nat) (t i : Nat) : Nat := m t i &&& PMAP_PA_MASK

/-- The tables from `t` down along the indices, up to the first entry
without an address. -/
def ept_path (m : Nat → Nat → Nat) : Nat → List Nat → List Nat
  | t, [] => [t]
  | t, i :: is => if ept_next m t i = 0 then [t] else t :: ept_path m (ept_next m t i) is

/-- The tables of the pmap on the path of the guest address `gpa`: the root,
then the PDPT, PD and PT pages as far as they are there. -/
def ept_tables (s : kstate) (pmap gpa : Nat) : List Nat :=
  ept_path s.mem (s.pm pmap).pm_pdir
    [ept_idx gpa L4_MASK L4_SHIFT, ept_idx gpa L3_MASK L3_SHIFT, ept_idx gpa L2_MASK L2_SHIFT]

/-- The leaf entry of the extended regime for `hpa` and `prot`, bit by bit:
the address, write-back cacheability, and one permission bit for each
protection bit. -/
def ept_leaf (hpa prot : Nat) : Nat :=
  hpa ||| EPT_WB ||| (if prot &&& PROT_READ ≠ 0 then EPT_R else 0) |||
    (if prot &&& PROT_WRITE ≠ 0 then EPT_W else 0) |||
    (if prot &&& PROT_EXEC ≠ 0 then EPT_X else 0)

/-! ## The reference counts after `pmap_get_ptp` -/

/-- The reference counts of the state `s1` against those of `s`, when `s1`
has the tables of the levels `1..n` on the path of `va` below the level-`n+1`
table `t`, which `s` has as well: a frame that is neither `t` nor one of those
tables has its count; `t` has one more when it is a PTP and its child is new;
a table of the path that `s` had has one more when its child is new; a new
table of the path was a free frame and has the count 1, or 2 when it has a
child. -/
def ptp_wires (s s1 : kstate) (p va n t : Nat) : Prop :=
  (∀ x, x ≠ t → (∀ L, 1 ≤ L → L ≤ n → ptab s1.mem (root s1 p) va L ≠ some x) →
    s1.wire_count x = s.wire_count x) ∧
  s1.wire_count t = s.wire_count t +
    (if 1 ≤ n ∧ n + 1 < 4 ∧ ptab s.mem (root s p) va n = none then 1 else 0) ∧
  ∀ L y, 1 ≤ L → L ≤ n → ptab s1.mem (root s1 p) va L = some y →
    (ptab s.mem (root s p) va L = some y ∧
      s1.wire_count y = s.wire_count y +
        (if 2 ≤ L ∧ ptab s.mem (root s p) va (L - 1) = none then 1 else 0)) ∨
    (ptab s.mem (root s p) va L = none ∧ y ∈ s.free_pages ∧
      s1.wire_count y = if 2 ≤ L then 2 else 1)

/-- The state `st11` after `pmap_get_ptp` for `0x200000`: the pmap 1 has a
second leaf table, still empty. -/
def st13 : kstate := ((pmap_get_ptp cfg0 st11 1 0x200000).map Prod.snd).getD st11

/-! ## The page-table pages `pmap_free_ptp` releases -/

/-- The state `s1` and the deferred list `l1` are `s` and `l` after the
tables of the levels `L .. L + k - 1` on the path of `va` in the user pmap
`p` were released, from the bottom up: each is appended to the list, has the
entry for it in its parent zeroed, a `wire_count` of 0 and is out of the
index of its level; every released table above the first had a `wire_count` of
at most 2 before.  The table of the level `L + k`, when it is a PTP, stays
in the tree with a `wire_count` lowered by 1 and still above 1.  The other
reference counts, entries and indexes, the free frames and the list of pmaps
are as they were; `resident_count` is lowered by `k`. -/
structure ptp_released (s s1 : kstate) (p va L k : Nat) (l l1 : List Nat) : Prop where
  k1 : 1 ≤ k
  k4 : L + k ≤ 4
  list : l1 = l ++ (List.range k).filterMap (fun i => ptab s.mem (root s p) va (L + i))
  path : ∀ j, L ≤ j → j < L + k → ∃ T T', ptab s.mem (root s p) va j = some T ∧
    ptab s.mem (root s p) va (j + 1) = some T' ∧ s1.mem T' (slot va (j + 1)) = 0 ∧
    s1.wire_count T = 0 ∧ (∀ e ∈ (s1.pm p).pm_obj (j - 1), e.2 ≠ T) ∧
    (L < j → s.wire_count T ≤ 2)
  stop : L + k ≤ 3 → ∃ A, ptab s.mem (root s p) va (L + k) = some A ∧
    ptab s1.mem (root s1 p) va (L + k) = some A ∧ s1.wire_count A + 1 = s.wire_count A ∧
    1 < s1.wire_count A
  wire_o : ∀ x, (∀ j, L ≤ j → j ≤ L + k → j ≤ 3 → ptab s.mem (root s p) va j ≠ some x) →
    s1.wire_count x = s.wire_count x
  mem_o : ∀ x i, (∀ j, L < j → j ≤ L + k → ptab s.mem (root s p) va j ≠ some x) →
    ¬ ((s.pm p).pm_pdir_intel ≠ 0 ∧ x = (s.pm p).pm_pdir_intel) → s1.mem x i = s.mem x i
  obj_o : ∀ r i, ¬ (r = p ∧ L ≤ i + 1 ∧ i + 1 < L + k) → (s1.pm r).pm_obj i = (s.pm r).pm_obj i
  free : s1.free_pages = s.free_pages
  res : (s1.pm p).resident_count = (s.pm p).resident_count - k
  pmaps : s1.pmaps = s.pmaps

/-! ## Concrete states with a shadow root of the kernel pmap -/

/-- The boot state with eight frames in the pool of roots. -/
def bootp : kstate :=
  { boot0 with pdp_pool := [0x9000, 0xa000, 0xb000, 0xc000, 0x2000, 0x3000, 0x4000, 0x5000] }

/-- The state `bootp` after `pmap_enter_special` of the page at `KERNBASE`
on a processor that needs the Meltdown mitigation: the kernel pmap has the
shadow root `0x9000`, with the path of `KERNBASE` in the frames `0xa000`,
`0xb000` and `0xc000`. -/
def bootm : kstate := (pmap_enter_special cfgm bootp KERNBASE 0x800000 PROT_READ).getD bootp

/-- The state `bootm` after `pmap_create`, with the root of the new pmap
loaded: the pmap 1 has the root `0x2000` and the shadow root `0x3000`. -/
def m1 : kstate := { after cfgm bootm [op.create] with cr3 := 0x2000 }

/-- The state `m1` after `pmap_get_ptp` for the user address
`0x7f7fffffb000`: the pmap 1 has the path of that address, with an empty
leaf PTP. -/
def m2 : kstate := ((pmap_get_ptp cfgm m1 1 0x7f7fffffb000).map Prod.snd).getD m1

/-! ## States with accessed and dirty bits set by the processor -/

/-- The separation of the trees, as in the state invariant: a frame is the
table of one pmap, one level and one place only. -/
def tree_sep (s : kstate) : Prop :=
  ∀ p va L p1 va1 L1 t, dom s p va → dom s p1 va1 → 1 ≤ L → L ≤ 4 → 1 ≤ L1 → L1 ≤ 4 →
    ptab s.mem (root s p) va L = some t → ptab s.mem (root s p1) va1 L1 = some t →
    L = L1 ∧ p = p1 ∧ pfx va L = pfx va1 L

/-- The state `s1` is the state `s` up to the accessed and dirty bits of the
page-table entries, which the processor sets on its own. -/
def attr_eq (s s1 : kstate) : Prop :=
  s1 = { s with mem := s1.mem } ∧
    ∀ t i, s1.mem t i &&& (0xffffffffffffffff ^^^ (PG_U ||| PG_M)) =
      s.mem t i &&& (0xffffffffffffffff ^^^ (PG_U ||| PG_M))

/-- The state `st2` after the processor has written to the page `0x1000` of
the pmap 1: the accessed bit is set in the three upper entries of the path
(in the root `0x2000` and in the tables `0x100000` and `0x101000`), the
accessed and the dirty bit in the leaf PTE (entry 1 of the table
`0x102000`). -/
def st2a : kstate :=
  pmap_pte_setbits (pmap_pte_setbits (pmap_pte_setbits (pmap_pte_setbits st2
    0x2000 0 PG_U) 0x100000 0 PG_U) 0x101000 0 PG_U) 0x102000 1 (PG_U ||| PG_M)

/-- The state `st20` with the root of the pmap 1 loaded. -/
def st21 : kstate := { st20 with cr3 := 0x2000 }

/-- The state `st1` with the flag `PG_PMAP_WC` in the header of the frame
`0x400000`: the frame is mapped write-combining wherever it is mapped. -/
def stw : kstate := { st1 with pg_flags := upd st1.pg_flags 0x400000 PG_PMAP_WC }

/-- The state `kimg` after `pmap_enter` on the kernel pmap: the page at
`KERNBASE` is mapped wired and uncached to the frame `0x900000`. -/
def kw1 : kstate :=
  ((pmap_enter cfg0 kimg 0 KERNBASE (0x900000 ||| PMAP_NOCACHE) 3 PMAP_WIRED).map Prod.snd).getD kimg

/-- The arguments of `pmap_enter`, `pmap_remove` and the other operations on
a pmap of the normal regime.  `pmap_enter`: a page address `va` and a
physical address of at most 52 bits with any flags in its low bits, for a
user pmap below the recursive slot, for the kernel pmap in the kernel half
with the leaf table of `va` in place (`pmap_growkernel` has been there).
`pmap_remove`: a range of page addresses, for a user pmap below the
recursive slot, for the kernel pmap in the kernel half, short of the last
2 MiB block of the address space, and with no large page on the paths of the
range (the direct map is made of large pages and is never removed).  The
other operations: as `op_ok` has them. -/
def op_dom (s : kstate) : op → Prop
  | op.enter p va pa _ _ =>
    va % 4096 = 0 ∧ pa < 2 ^ 52 ∧
      ((p ∈ s.pmaps ∧ va < 0x7f8000000000) ∨
        (p = 0 ∧ 0xffff800000000000 ≤ va ∧ va < 2 ^ 64 ∧ ptab s.mem (root s 0) va 1 ≠ none))
  | op.remove p sva eva =>
    sva % 4096 = 0 ∧ eva % 4096 = 0 ∧ sva < eva ∧
      ((p ∈ s.pmaps ∧ eva ≤ 0x7f8000000000) ∨
        (p = 0 ∧ 0xffff800000000000 ≤ sva ∧ eva ≤ 0xffffffffffe00000 ∧
          ∀ v L t, sva ≤ v → v < eva → 2 ≤ L → L ≤ 4 →
            ptab s.mem (root s 0) v L = some t → s.mem t (slot v L) &&& PG_PS = 0))
  | o => op_ok s o = true

/-! ## Masks and shifts as arithmetic -/

theorem testBit_mask (a b i : Nat) (h : a ≤ b) :
    (2 ^ b - 2 ^ a).testBit i = decide (a ≤ i ∧ i < b) := by
  have e : 2 ^ b - 2 ^ a = (2 ^ (b - a) - 1) <<< a := by
    rw [Nat.shiftLeft_eq, Nat.sub_mul, ← pow_add, Nat.sub_add_cancel h, one_mul]
  rw [e, Nat.testBit_shiftLeft, Nat.testBit_two_pow_sub_one]
  by_cases h1 : a ≤ i <;> by_cases h2 : i < b <;> simp [h1, h2] <;> omega

theorem and_mask (x a b : Nat) (h : a ≤ b) :
    x &&& (2 ^ b - 2 ^ a) = x % 2 ^ b / 2 ^ a * 2 ^ a := by
  apply Nat.eq_of_testBit_eq
  intro i
  rw [Nat.testBit_and, testBit_mask a b i h, ← Nat.shiftRight_eq_div_pow, ← Nat.shiftLeft_eq,
    Nat.testBit_shiftLeft, Nat.testBit_shiftRight, Nat.testBit_mod_two_pow]
  by_cases h1 : a ≤ i <;> by_cases h2 : i < b <;> simp [h1, h2]

theorem and_bit (x a : Nat) : x &&& 2 ^ a = x / 2 ^ a % 2 * 2 ^ a := by
  have h := and_mask x a (a + 1) (Nat.le_succ a)
  have e : 2 ^ (a + 1) - 2 ^ a = 2 ^ a := by rw [pow_succ]; omega
  rw [e] at h
  rw [h, Nat.mod_pow_succ]
  have hp : 0 < 2 ^ a := Nat.two_pow_pos a
  rw [Nat.add_mul_div_left _ _ hp, Nat.div_eq_of_lt (Nat.mod_lt _ hp), zero_add]

theorem or_low (hi lo a : Nat) (h : lo < 2 ^ a) : hi * 2 ^ a ||| lo = hi * 2 ^ a + lo := by
  rw [Nat.mul_comm, Nat.mul_add_lt_is_or h]

theorem pl_i_1 (va : Nat) : pl_i va 1 = pfx va 0 := by
  have h1 := and_mask va 0 48 (by decide)
  have h2 := and_mask (VA_SIGN_POS va) 12 48 (by decide)
  simp only [pl_i, ptp_masks, ptp_shifts, L1_FRAME, L1_SHIFT, pfx, Nat.shiftRight_eq_div_pow]
  norm_num at h1 h2 ⊢
  rw [h2]
  simp only [VA_SIGN_POS]
  rw [h1]
  omega

theorem pl_i_2 (va : Nat) : pl_i va 2 = pfx va 1 := by
  have h1 := and_mask va 0 48 (by decide)
  have h2 := and_mask (VA_SIGN_POS va) 21 48 (by decide)
  simp only [pl_i, ptp_masks, ptp_shifts, L2_FRAME, L2_SHIFT, pfx, Nat.shiftRight_eq_div_pow]
  norm_num at h1 h2 ⊢
  rw [h2]
  simp only [VA_SIGN_POS]
  rw [h1]
  omega

theorem pl_i_3 (va : Nat) : pl_i va 3 = pfx va 2 := by
  have h1 := and_mask va 0 48 (by decide)
  have h2 := and_mask (VA_SIGN_POS va) 30 48 (by decide)
  simp only [pl_i, ptp_masks, ptp_shifts, L3_FRAME, L3_SHIFT, pfx, Nat.shiftRight_eq_div_pow]
  norm_num at h1 h2 ⊢
  rw [h2]
  simp only [VA_SIGN_POS]
  rw [h1]
  omega

theorem pl_i_4 (va : Nat) : pl_i va 4 = pfx va 3 := by
  have h1 := and_mask va 0 48 (by decide)
  have h2 := and_mask (VA_SIGN_POS va) 39 48 (by decide)
  simp only [pl_i, ptp_masks, ptp_shifts, L4_FRAME, L4_SHIFT, pfx, Nat.shiftRight_eq_div_pow]
  norm_num at h1 h2 ⊢
  rw [h2]
  simp only [VA_SIGN_POS]
  rw [h1]
  omega

theorem pl_i_eq (va L : Nat) (h1 : 1 ≤ L) (h4 : L ≤ 4) : pl_i va L = pfx va (L - 1) := by
  have : L = 1 ∨ L = 2 ∨ L = 3 ∨ L = 4 := by omega
  rcases this with h | h | h | h <;> subst h
  · exact pl_i_1 va
  · exact pl_i_2 va
  · exact pl_i_3 va
  · exact pl_i_4 va

theorem pl_i_slot (va L : Nat) (h1 : 1 ≤ L) (h4 : L ≤ 4) : pl_i va L % 512 = slot va L := by
  rw [pl_i_eq va L h1 h4, slot]

theorem slot_lt (va L : Nat) : slot va L < 512 := Nat.mod_lt _ (by decide)

theorem ptp_va2o_eq (va L : Nat) (h1 : 1 ≤ L) (h3 : L ≤ 3) : ptp_va2o va L = pfx va L * 4096 := by
  rw [ptp_va2o, pl_i_eq va (L + 1) (by omega) (by omega), PAGE_SIZE]
  rfl

/-! ## Entries as numbers -/

theorem valid_iff (e : Nat) : pmap_valid_entry e = true ↔ e % 2 = 1 := by
  simp only [pmap_valid_entry, PG_V, Nat.and_one_is_mod, bne_iff_ne, ne_eq]
  omega

theorem not_valid_iff (e : Nat) : pmap_valid_entry e = false ↔ e % 2 = 0 := by
  rw [← Bool.not_eq_true, valid_iff]
  omega

theorem valid_zero : pmap_valid_entry 0 = false := by decide

theorem and_frame (e : Nat) : e &&& PG_FRAME = e % 2 ^ 52 / 4096 * 4096 := by
  have h := and_mask e 12 52 (by decide)
  norm_num at h
  simpa [PG_FRAME] using h

theorem and_pa_mask (e : Nat) : e &&& PMAP_PA_MASK = e % 2 ^ 64 / 4096 * 4096 := by
  have h := and_mask e 12 64 (by decide)
  norm_num at h
  simpa [PMAP_PA_MASK] using h

theorem and_page_mask (e : Nat) : e &&& PAGE_MASK = e % 4096 := by
  have h := and_mask e 0 12 (by decide)
  norm_num at h
  simpa [PAGE_MASK] using h

theorem is_frame_iff (f : Nat) : is_frame f ↔ f % 4096 = 0 ∧ f < 2 ^ 52 := by
  rw [is_frame, and_frame]
  omega

theorem and_frame_frame (e : Nat) : is_frame (e &&& PG_FRAME) := by
  rw [is_frame_iff, and_frame]
  omega

theorem and_psv (e : Nat) : e &&& (PG_PS ||| PG_V) = e / 128 % 2 * 128 + e % 2 := by
  have h1 := and_bit e 7
  have h2 := and_bit e 0
  norm_num at h1 h2
  rw [Nat.and_or_distrib_left]
  simp only [PG_PS, PG_V]
  norm_num
  rw [h1]
  have := or_low (e / 128 % 2) (e % 2) 7 (by omega)
  norm_num at this
  exact this

theorem psv_iff (e : Nat) : e &&& (PG_PS ||| PG_V) = PG_V ↔ e % 2 = 1 ∧ e / 128 % 2 = 0 := by
  rw [and_psv, PG_V]
  omega

theorem and_w (e : Nat) : e &&& PG_W = e / 512 % 2 * 512 := by
  have h1 := and_bit e 9
  norm_num at h1
  simpa [PG_W] using h1

theorem and_pvlist (e : Nat) : e &&& PG_PVLIST = e / 1024 % 2 * 1024 := by
  have h1 := and_bit e 10
  norm_num at h1
  simpa [PG_PVLIST] using h1

/-- The entry `pmap_get_ptp` installs for the table `f`. -/
theorem pde_val (f : Nat) (h : is_frame f) : f ||| PG_u ||| PG_RW ||| PG_V = f + 7 := by
  rw [is_frame_iff] at h
  have e : f ||| PG_u ||| PG_RW ||| PG_V = f ||| 7 := by
    rw [Nat.or_assoc, Nat.or_assoc]
    rfl
  rw [e]
  have := or_low (f / 4096) 7 12 (by norm_num)
  norm_num at this
  have e2 : f / 4096 * 4096 = f := by omega
  rw [e2] at this
  exact this

theorem pde_frame (f : Nat) (h : is_frame f) : (f ||| PG_u ||| PG_RW ||| PG_V) &&& PG_FRAME = f := by
  rw [pde_val f h, and_frame]
  rw [is_frame_iff] at h
  omega

theorem pde_valid (f : Nat) (h : is_frame f) :
    pmap_valid_entry (f ||| PG_u ||| PG_RW ||| PG_V) = true := by
  rw [pde_val f h, valid_iff]
  rw [is_frame_iff] at h
  omega

theorem pde_psv (f : Nat) (h : is_frame f) :
    (f ||| PG_u ||| PG_RW ||| PG_V) &&& (PG_PS ||| PG_V) = PG_V := by
  rw [pde_val f h, psv_iff]
  rw [is_frame_iff] at h
  omega

theorem pde_ne_zero (f : Nat) (h : is_frame f) : f ||| PG_u ||| PG_RW ||| PG_V ≠ 0 := by
  rw [pde_val f h]
  omega

/-- An upper entry of the shape the invariant asks for, when it is valid. -/
theorem shape_psv (e : Nat) (h : e = 0 ∨ e = (e &&& PG_FRAME) ||| PG_u ||| PG_RW ||| PG_V)
    (hv : pmap_valid_entry e = true) : e &&& (PG_PS ||| PG_V) = PG_V := by
  rcases h with h | h
  · rw [h] at hv
    exact absurd hv (by decide)
  · rw [h]
    exact pde_psv _ (and_frame_frame e)

theorem shape_valid (e : Nat) (h : e = 0 ∨ e = (e &&& PG_FRAME) ||| PG_u ||| PG_RW ||| PG_V) :
    pmap_valid_entry e = true ↔ e ≠ 0 := by
  rcases h with h | h
  · rw [h]
    decide
  · constructor
    · intro _ h0
      rw [h0] at h
      revert h
      decide
    · intro _
      rw [h]
      exact pde_valid _ (and_frame_frame e)

theorem psv_valid (e : Nat) (h : e &&& (PG_PS ||| PG_V) = PG_V) : pmap_valid_entry e = true := by
  rw [psv_iff] at h
  rw [valid_iff]
  exact h.1

/-! ## The walk -/

theorem ptab_4 (m : Nat → Nat → Nat) (r va : Nat) : ptab m r va 4 = some r := rfl

theorem ptab_3 (m : Nat → Nat → Nat) (r va : Nat) :
    ptab m r va 3 = pstep m va 4 (some r) := rfl

theorem ptab_2 (m : Nat → Nat → Nat) (r va : Nat) :
    ptab m r va 2 = pstep m va 3 (ptab m r va 3) := rfl

theorem ptab_1 (m : Nat → Nat → Nat) (r va : Nat) :
    ptab m r va 1 = pstep m va 2 (ptab m r va 2) := rfl

theorem ptab_succ (m : Nat → Nat → Nat) (r va L : Nat) (h1 : 1 ≤ L) (h3 : L ≤ 3) :
    ptab m r va L = pstep m va (L + 1) (ptab m r va (L + 1)) := by
  have : L = 1 ∨ L = 2 ∨ L = 3 := by omega
  rcases this with h | h | h <;> subst h <;> rfl

theorem pstep_some (m : Nat → Nat → Nat) (va L : Nat) (t : Option Nat) (t1 : Nat) :
    pstep m va L t = some t1 ↔
      ∃ t0, t = some t0 ∧ m t0 (slot va L) &&& (PG_PS ||| PG_V) = PG_V ∧
        m t0 (slot va L) &&& PG_FRAME = t1 := by
  cases t with
  | none => simp [pstep]
  | some t0 =>
    simp only [pstep, Option.some.injEq, exists_eq_left']
    split
    · rename_i h
      simp [h]
    · rename_i h
      simp [h]

/-- A table below the root has a parent and an entry naming it. -/
theorem ptab_parent (m : Nat → Nat → Nat) (r va L t : Nat) (h1 : 1 ≤ L) (h3 : L ≤ 3)
    (h : ptab m r va L = some t) :
    ∃ t0, ptab m r va (L + 1) = some t0 ∧
      m t0 (slot va (L + 1)) &&& (PG_PS ||| PG_V) = PG_V ∧
      m t0 (slot va (L + 1)) &&& PG_FRAME = t := by
  rw [ptab_succ m r va L h1 h3, pstep_some] at h
  exact h

theorem ptab_child (m : Nat → Nat → Nat) (r va L t0 : Nat) (h1 : 1 ≤ L) (h3 : L ≤ 3)
    (h : ptab m r va (L + 1) = some t0)
    (hv : m t0 (slot va (L + 1)) &&& (PG_PS ||| PG_V) = PG_V) :
    ptab m r va L = some (m t0 (slot va (L + 1)) &&& PG_FRAME) := by
  rw [ptab_succ m r va L h1 h3, pstep_some]
  exact ⟨t0, h, hv, rfl⟩

theorem ptab_child_none (m : Nat → Nat → Nat) (r va L t0 : Nat) (h1 : 1 ≤ L) (h3 : L ≤ 3)
    (h : ptab m r va (L + 1) = some t0)
    (hv : m t0 (slot va (L + 1)) &&& (PG_PS ||| PG_V) ≠ PG_V) :
    ptab m r va L = none := by
  rw [ptab_succ m r va L h1 h3, h]
  simp [pstep, hv]

theorem ptab_none_below (m : Nat → Nat → Nat) (r va L : Nat) (h1 : 1 ≤ L) (h3 : L ≤ 3)
    (h : ptab m r va (L + 1) = none) : ptab m r va L = none := by
  rw [ptab_succ m r va L h1 h3, h]
  rfl

/-- The walk only depends on the entries it reads. -/
theorem ptab_congr (m m1 : Nat → Nat → Nat) (r va L : Nat) (h1 : 1 ≤ L) (h4 : L ≤ 4)
    (h : ∀ j t, L < j → j ≤ 4 → ptab m r va j = some t → m1 t (slot va j) = m t (slot va j)) :
    ptab m1 r va L = ptab m r va L := by
  have e4 : ptab m1 r va 4 = ptab m r va 4 := rfl
  have st : ∀ j, 1 ≤ j → j ≤ 3 → L ≤ j → ptab m1 r va (j + 1) = ptab m r va (j + 1) →
      ptab m1 r va j = ptab m r va j := by
    intro j hj1 hj3 hLj ih
    rw [ptab_succ m1 r va j hj1 hj3, ptab_succ m r va j hj1 hj3, ih]
    cases ht : ptab m r va (j + 1) with
    | none => rfl
    | some t =>
      have := h (j + 1) t (by omega) (by omega) ht
      simp only [pstep, this]
  have : L = 1 ∨ L = 2 ∨ L = 3 ∨ L = 4 := by omega
  rcases this with hL | hL | hL | hL <;> subst hL
  · exact st 1 (by omega) (by omega) (by omega)
      (st 2 (by omega) (by omega) (by omega) (st 3 (by omega) (by omega) (by omega) e4))
  · exact st 2 (by omega) (by omega) (by omega) (st 3 (by omega) (by omega) (by omega) e4)
  · exact st 3 (by omega) (by omega) (by omega) e4
  · exact e4

/-- The walk only depends on the indices of the address. -/
theorem ptab_pfx (m : Nat → Nat → Nat) (r va va1 L : Nat) (h1 : 1 ≤ L) (h4 : L ≤ 4)
    (h : pfx va L = pfx va1 L) : ptab m r va1 L = ptab m r va L := by
  have sl : ∀ j, L < j → j ≤ 4 → slot va1 j = slot va j := by
    intro j hj hj4
    have hp : ∀ k, L ≤ k → pfx va k = pfx va1 k := by
      intro k hk
      induction k with
      | zero =>
        have : L = 0 := by omega
        omega
      | succ k ih =>
        by_cases hk1 : L = k + 1
        · rw [← hk1]
          exact h
        · simp only [pfx]
          rw [ih (by omega)]
    simp only [slot]
    rw [hp (j - 1) (by omega)]
  have e4 : ptab m r va1 4 = ptab m r va 4 := rfl
  have st : ∀ j, 1 ≤ j → j ≤ 3 → L ≤ j → ptab m r va1 (j + 1) = ptab m r va (j + 1) →
      ptab m r va1 j = ptab m r va j := by
    intro j hj1 hj3 hLj ih
    rw [ptab_succ m r va1 j hj1 hj3, ptab_succ m r va j hj1 hj3, ih,
      show pstep m va1 (j + 1) = pstep m va (j + 1) from by
        funext t
        simp only [pstep, sl (j + 1) (by omega) (by omega)]]
  have : L = 1 ∨ L = 2 ∨ L = 3 ∨ L = 4 := by omega
  rcases this with hL | hL | hL | hL <;> subst hL
  · exact st 1 (by omega) (by omega) (by omega)
      (st 2 (by omega) (by omega) (by omega) (st 3 (by omega) (by omega) (by omega) e4))
  · exact st 2 (by omega) (by omega) (by omega) (st 3 (by omega) (by omega) (by omega) e4)
  · exact st 3 (by omega) (by omega) (by omega) e4
  · exact e4

/-! ## The recursive mapping and the walk -/

theorem rec_step_of_pstep (s : kstate) (va L : Nat) (t : Option Nat) (t1 : Nat) (h1 : 1 ≤ L)
    (h4 : L ≤ 4) (h : pstep s.mem va L t = some t1) : rec_step s va L t = some t1 := by
  rw [pstep_some] at h
  obtain ⟨t0, rfl, hv, hf⟩ := h
  simp only [rec_step, pl_i_slot va L h1 h4, psv_valid _ hv, if_true, hf]

theorem rec_table_of_ptab (s : kstate) (va L t : Nat) (h1 : 1 ≤ L) (h4 : L ≤ 4)
    (h : ptab s.mem s.cr3 va L = some t) : rec_table s va L = some t := by
  have : L = 1 ∨ L = 2 ∨ L = 3 ∨ L = 4 := by omega
  rcases this with hL | hL | hL | hL <;> subst hL
  · obtain ⟨t2, h2, _, _⟩ := ptab_parent _ _ _ 1 t (by omega) (by omega) h
    obtain ⟨t3, h3, _, _⟩ := ptab_parent _ _ _ 2 t2 (by omega) (by omega) h2
    rw [ptab_1, h2] at h
    rw [ptab_2, h3] at h2
    rw [ptab_3] at h3
    simp only [rec_table]
    norm_num
    rw [rec_step_of_pstep s va 4 _ t3 (by omega) (by omega) h3,
      rec_step_of_pstep s va 3 _ t2 (by omega) (by omega) h2,
      rec_step_of_pstep s va 2 _ t (by omega) (by omega) h]
  · obtain ⟨t3, h3, _, _⟩ := ptab_parent _ _ _ 2 t (by omega) (by omega) h
    rw [ptab_2, h3] at h
    rw [ptab_3] at h3
    simp only [rec_table]
    norm_num
    rw [rec_step_of_pstep s va 4 _ t3 (by omega) (by omega) h3,
      rec_step_of_pstep s va 3 _ t (by omega) (by omega) h]
  · rw [ptab_3] at h
    simp only [rec_table]
    norm_num
    rw [rec_step_of_pstep s va 4 _ t (by omega) (by omega) h]
  · rw [ptab_4] at h
    simp only [rec_table]
    norm_num
    exact Option.some.inj h

theorem pde_read_of_ptab (s : kstate) (va L t : Nat) (h1 : 1 ≤ L) (h4 : L ≤ 4)
    (h : ptab s.mem s.cr3 va L = some t) : pde_read s va L = some (s.mem t (slot va L)) := by
  simp only [pde_read, rec_table_of_ptab s va L t h1 h4 h, Option.map_some',
    pl_i_slot va L h1 h4]

theorem pde_write_of_ptab (s : kstate) (va L t v : Nat) (h1 : 1 ≤ L) (h4 : L ≤ 4)
    (h : ptab s.mem s.cr3 va L = some t) :
    pde_write s va L v = some (set_mem s t (slot va L) v) := by
  simp only [pde_write, rec_table_of_ptab s va L t h1 h4 h, Option.map_some',
    pl_i_slot va L h1 h4]

/-! ## pmap_find_pte_direct and pmap_extract in terms of the walk -/

theorem fpd_slot4 (va : Nat) : (VA_SIGN_POS va &&& L4_MASK) >>> L4_SHIFT = slot va 4 := by
  have h1 := and_mask va 0 48 (by decide)
  have h2 := and_mask (VA_SIGN_POS va) 39 48 (by decide)
  simp only [L4_MASK, L4_SHIFT, slot, pfx, Nat.shiftRight_eq_div_pow]
  norm_num at h1 h2 ⊢
  rw [h2]
  simp only [VA_SIGN_POS]
  rw [h1]
  omega

theorem fpd_slot3 (va : Nat) :
    (VA_SIGN_POS va &&& L4_MASK >>> 9) >>> (L4_SHIFT - 9) = slot va 3 := by
  have h1 := and_mask va 0 48 (by decide)
  have h2 := and_mask (VA_SIGN_POS va) 30 39 (by decide)
  simp only [L4_MASK, L4_SHIFT, slot, pfx, Nat.shiftRight_eq_div_pow]
  norm_num at h1 h2 ⊢
  rw [h2]
  simp only [VA_SIGN_POS]
  rw [h1]
  omega

theorem fpd_slot2 (va : Nat) :
    (VA_SIGN_POS va &&& L4_MASK >>> 9 >>> 9) >>> (L4_SHIFT - 9 - 9) = slot va 2 := by
  have h1 := and_mask va 0 48 (by decide)
  have h2 := and_mask (VA_SIGN_POS va) 21 30 (by decide)
  simp only [L4_MASK, L4_SHIFT, slot, pfx, Nat.shiftRight_eq_div_pow]
  norm_num at h1 h2 ⊢
  rw [h2]
  simp only [VA_SIGN_POS]
  rw [h1]
  omega

theorem fpd_slot1 (va : Nat) :
    (VA_SIGN_POS va &&& L4_MASK >>> 9 >>> 9 >>> 9) >>> (L4_SHIFT - 9 - 9 - 9) = slot va 1 := by
  have h1 := and_mask va 0 48 (by decide)
  have h2 := and_mask (VA_SIGN_POS va) 12 21 (by decide)
  simp only [L4_MASK, L4_SHIFT, slot, pfx, Nat.shiftRight_eq_div_pow]
  norm_num at h1 h2 ⊢
  rw [h2]
  simp only [VA_SIGN_POS]
  rw [h1]
  omega

theorem find_pte_direct_spec (s : kstate) (pm va : Nat) :
    pmap_find_pte_direct s pm va =
      match ptab s.mem (root s pm) va 3 with
      | none => (3, root s pm, slot va 4)
      | some t3 =>
        match ptab s.mem (root s pm) va 2 with
        | none => (2, t3, slot va 3)
        | some t2 =>
          match ptab s.mem (root s pm) va 1 with
          | none => (1, t2, slot va 2)
          | some t1 => (0, t1, slot va 1) := by
  simp only [pmap_find_pte_direct, PTP_LEVELS, pmap_find_pte_direct_loop, fpd_slot4, fpd_slot3,
    fpd_slot2, fpd_slot1, ptab_1, ptab_2, ptab_3, pstep, root]
  by_cases h4 : s.mem (s.pm pm).pm_pdirpa (slot va 4) &&& (PG_PS ||| PG_V) = PG_V
  · simp only [h4, if_true, ne_eq, not_true_eq_false, if_false]
    by_cases h3 : s.mem (s.mem (s.pm pm).pm_pdirpa (slot va 4) &&& PG_FRAME) (slot va 3) &&&
        (PG_PS ||| PG_V) = PG_V
    · simp only [h3, if_true, ne_eq, not_true_eq_false, if_false]
      by_cases h2 : s.mem (s.mem (s.mem (s.pm pm).pm_pdirpa (slot va 4) &&& PG_FRAME)
          (slot va 3) &&& PG_FRAME) (slot va 2) &&& (PG_PS ||| PG_V) = PG_V
      · simp only [h2, if_true, ne_eq, not_true_eq_false, if_false]
        split <;> rfl
      · simp [h2]
    · simp [h3]
  · simp [h4]

theorem find_pte_direct_leaf (s : kstate) (pm va t : Nat)
    (h : ptab s.mem (root s pm) va 1 = some t) :
    pmap_find_pte_direct s pm va = (0, t, slot va 1) := by
  obtain ⟨t2, h2, _, _⟩ := ptab_parent _ _ _ 1 t (by omega) (by omega) h
  obtain ⟨t3, h3, _, _⟩ := ptab_parent _ _ _ 2 t2 (by omega) (by omega) h2
  rw [find_pte_direct_spec]
  simp only [h, h2, h3]

/-- `pmap_extract` outside the direct-map window, when the tree has a leaf
table for the address. -/
theorem extract_leaf (s : kstate) (pm va t : Nat)
    (hd : ¬ (pm = 0 ∧ va ≥ PMAP_DIRECT_BASE ∧ va < PMAP_DIRECT_END))
    (h : ptab s.mem (root s pm) va 1 = some t) :
    pmap_extract s pm va =
      if pmap_valid_entry (s.mem t (slot va 1)) then
        some ((s.mem t (slot va 1) &&& PG_FRAME) ||| (va &&& PAGE_MASK))
      else none := by
  simp only [pmap_extract, hd, if_false, find_pte_direct_leaf s pm va t h, true_and]
  split
  · rfl
  · simp

/-- `pmap_extract` when the walk stops above the leaf level at an entry that
is not valid. -/
theorem extract_none (s : kstate) (pm va L t : Nat)
    (hd : ¬ (pm = 0 ∧ va ≥ PMAP_DIRECT_BASE ∧ va < PMAP_DIRECT_END))
    (h2 : 2 ≤ L) (h4 : L ≤ 4) (h : ptab s.mem (root s pm) va L = some t)
    (hv : pmap_valid_entry (s.mem t (slot va L)) = false) :
    pmap_extract s pm va = none := by
  have hn : s.mem t (slot va L) &&& (PG_PS ||| PG_V) ≠ PG_V := by
    intro hh
    rw [psv_valid _ hh] at hv
    exact absurd hv (by decide)
  have hn2 : s.mem t (slot va L) &&& (PG_PS ||| PG_V) ≠ PG_PS ||| PG_V := by
    intro hh
    rw [not_valid_iff] at hv
    rw [and_psv, show PG_PS ||| PG_V = 129 from by decide] at hh
    omega
  have hc := ptab_child_none s.mem (root s pm) va (L - 1) t (by omega) (by omega)
    (by rw [Nat.sub_add_cancel (by omega)]; exact h)
    (by rw [Nat.sub_add_cancel (by omega)]; exact hn)
  simp only [pmap_extract, hd, if_false, find_pte_direct_spec]
  have : L = 2 ∨ L = 3 ∨ L = 4 := by omega
  rcases this with hL | hL | hL <;> subst hL
  · obtain ⟨t3, h3, _, _⟩ := ptab_parent _ _ _ 2 t (by omega) (by omega) h
    simp only [h3, h, hc]
    simp [hn2]
  · have h1 := ptab_none_below s.mem (root s pm) va 1 (by omega) (by omega) hc
    simp only [h, hc, h1]
    simp
  · simp only [hc]
    simp

/-! ## Writes that leave the walks alone -/

theorem mem_set_same (m : Nat → Nat → Nat) (t i v : Nat) : mem_set m t i v t i = v := by
  simp [mem_set]

theorem mem_set_other (m : Nat → Nat → Nat) (t i v t1 i1 : Nat) (h : ¬ (t1 = t ∧ i1 = i)) :
    mem_set m t i v t1 i1 = m t1 i1 := by
  simp [mem_set, h]

theorem ptab_mem_set_ne (m : Nat → Nat → Nat) (r va L t i v : Nat) (h1 : 1 ≤ L) (h4 : L ≤ 4)
    (h : ∀ j tj, L < j → j ≤ 4 → ptab m r va j = some tj → ¬ (tj = t ∧ slot va j = i)) :
    ptab (mem_set m t i v) r va L = ptab m r va L := by
  apply ptab_congr _ _ _ _ _ h1 h4
  intro j tj hj hj4 ht
  exact mem_set_other _ _ _ _ _ _ (h j tj hj hj4 ht)

theorem pfx_user (va : Nat) (h : va < 0x7f8000000000) : pfx va 3 < 255 := by
  simp only [pfx]
  omega

theorem pfx_kern (va : Nat) (h : 0xffff800000000000 ≤ va) (h2 : va < 2 ^ 64) :
    256 ≤ pfx va 3 ∧ pfx va 3 < 512 := by
  simp only [pfx]
  omega

theorem pfx3_lt (va : Nat) : pfx va 3 < 512 := by
  simp only [pfx]
  omega

theorem slot4 (va : Nat) : slot va 4 = pfx va 3 := by
  simp only [slot]
  exact Nat.mod_eq_of_lt (pfx3_lt va)

theorem dom_user (s : kstate) (p va : Nat) (hp : p ∈ s.pmaps) (h : va < 0x7f8000000000) :
    dom s p va := Or.inl ⟨hp, h⟩

theorem dom_direct (s : kstate) (va : Nat) (h1 : PMAP_DIRECT_BASE ≤ va)
    (h2 : va < PMAP_DIRECT_END) : dom s 0 va := by
  simp only [PMAP_DIRECT_BASE, PMAP_DIRECT_END] at h1 h2
  exact Or.inr ⟨rfl, by omega, by norm_num; omega⟩

theorem dom_live (s : kstate) (p va : Nat) (h : dom s p va) : live s p := by
  rcases h with h | h
  · exact Or.inr h.1
  · exact Or.inl h.1

theorem live_dom (s : kstate) (p : Nat) (h : live s p) : ∃ va, dom s p va := by
  rcases h with h | h
  · exact ⟨0xffff800000000000, Or.inr ⟨h, by norm_num, by norm_num⟩⟩
  · exact ⟨0, Or.inl ⟨h, by norm_num⟩⟩

theorem same_struct_refl (s : kstate) : same_struct s s :=
  ⟨rfl, rfl, rfl, rfl, rfl, rfl, fun _ => ⟨rfl, rfl, rfl, rfl, rfl, rfl⟩⟩

theorem same_struct_trans (s s1 s2 : kstate) (h1 : same_struct s s1) (h2 : same_struct s1 s2) :
    same_struct s s2 := by
  obtain ⟨a1, a2, a3, a4, a5, a6, a7⟩ := h1
  obtain ⟨b1, b2, b3, b4, b5, b6, b7⟩ := h2
  refine ⟨b1.trans a1, b2.trans a2, b3.trans a3, b4.trans a4, b5.trans a5, b6.trans a6, ?_⟩
  intro q
  obtain ⟨c1, c2, c3, c4, c5, c6⟩ := a7 q
  obtain ⟨d1, d2, d3, d4, d5, d6⟩ := b7 q
  exact ⟨d1.trans c1, d2.trans c2, d3.trans c3, d4.trans c4, d5.trans c5, d6.trans c6⟩

theorem same_struct_root (s s1 : kstate) (h : same_struct s s1) (p : Nat) :
    root s1 p = root s p := (h.2.2.2.2.2.2 p).2.1

theorem same_struct_dom (s s1 : kstate) (h : same_struct s s1) (p va : Nat) :
    dom s1 p va ↔ dom s p va := by
  simp only [dom, h.1]

theorem same_struct_live (s s1 : kstate) (h : same_struct s s1) (p : Nat) :
    live s1 p ↔ live s p := by
  simp only [live, h.1]

/-- When the entries above the leaves on the paths of the pmaps are left as
they are, the walks are left as they are. -/
theorem ptab_of_upper (s s1 : kstate) (hs : same_struct s s1)
    (hup : ∀ p va L t, dom s p va → 2 ≤ L → L ≤ 4 → ptab s.mem (root s p) va L = some t →
      s1.mem t (slot va L) = s.mem t (slot va L))
    (p va L : Nat) (hd : dom s p va) (h1 : 1 ≤ L) (h4 : L ≤ 4) :
    ptab s1.mem (root s1 p) va L = ptab s.mem (root s p) va L := by
  rw [same_struct_root s s1 hs]
  apply ptab_congr _ _ _ _ _ h1 h4
  intro j t hj hj4 ht
  exact hup p va j t hd (by omega) hj4 ht

/-- The structural invariant survives any change of the state that leaves
the upper entries of the trees and the kernel half of the roots as they
are, and keeps the leaf entries of the user trees empty or valid. -/
theorem SInv_mem (c : config) (s s1 : kstate) (h : SInv c s) (hs : same_struct s s1)
    (hcr3 : ∃ p, live s p ∧ s1.cr3 = root s p)
    (hup : ∀ p va L t, dom s p va → 2 ≤ L → L ≤ 4 → ptab s.mem (root s p) va L = some t →
      s1.mem t (slot va L) = s.mem t (slot va L))
    (hk : ∀ p, live s p → ∀ i, 256 ≤ i → i < 512 → s1.mem (root s p) i = s.mem (root s p) i)
    (hleaf : ∀ p ∈ s.pmaps, ∀ va t, va < 0x7f8000000000 → ptab s.mem (root s p) va 1 = some t →
      s1.mem t (slot va 1) = 0 ∨ pmap_valid_entry (s1.mem t (slot va 1)) = true) :
    SInv c s1 := by
  have hpt := ptab_of_upper s s1 hs hup
  have hr := same_struct_root s s1 hs
  have hd := same_struct_dom s s1 hs
  have hl := same_struct_live s s1 hs
  obtain ⟨e1, e2, e3, e4, e5, e6, e7⟩ := hs
  constructor
  · exact h.cfg
  · rw [e5]; exact h.init
  · rw [e1]; exact h.kern_notin
  · rw [e1]; exact h.pmaps_nodup
  · obtain ⟨p, hp, hc⟩ := hcr3
    exact ⟨p, (hl p).2 hp, by rw [hr]; exact hc⟩
  · intro p hp
    rw [hr]
    exact h.root_ne p ((hl p).1 hp)
  · intro p hp
    rw [(e7 p).2.2.2.2.1]
    exact h.normal p ((hl p).1 hp)
  · intro p hp
    rw [(e7 p).2.2.2.2.2]
    exact h.refs p ((hl p).1 hp)
  · intro p hp
    rw [(e7 p).2.2.1, (e7 p).2.1]
    exact h.pdir p ((hl p).1 hp)
  · intro p hp i hi hi2
    rw [e1] at hp
    rw [hr, hr, hk p (Or.inr hp) i hi hi2, hk 0 (Or.inl rfl) i hi hi2]
    exact h.kshare p hp i hi hi2
  · intro i hi hi2
    rw [e6] at hi
    rw [hr, hk 0 (Or.inl rfl) i (by omega) (by omega)]
    exact h.kern_slots i hi hi2
  · intro p va L p1 va1 L1 t d1 d2 a1 a2 a3 a4 b1 b2
    rw [hd] at d1 d2
    rw [hpt p va L d1 a1 a2] at b1
    rw [hpt p1 va1 L1 d2 a3 a4] at b2
    exact h.sep p va L p1 va1 L1 t d1 d2 a1 a2 a3 a4 b1 b2
  · intro p hp hne p1 va L d1 a1 a2
    rw [hd] at d1
    rw [e1] at hp
    rw [(e7 p).2.2.2.1] at hne
    rw [hpt p1 va L d1 a1 a2, (e7 p).2.2.2.1]
    exact h.shadow p hp hne p1 va L d1 a1 a2
  · intro f hf p va L d1 a1 a2
    rw [hd] at d1
    rw [e2] at hf
    rw [hpt p va L d1 a1 a2]
    exact h.free_sep f hf p va L d1 a1 a2
  · intro f hf p hp hne
    rw [e2] at hf
    rw [e1] at hp
    rw [(e7 p).2.2.2.1] at hne ⊢
    exact h.free_shadow f hf p hp hne
  · rw [e2]; exact h.free_nodup
  · intro f hf
    rw [e2] at hf
    exact h.free_frame f hf
  · intro f hf p va L d1 a1 a2
    rw [hd] at d1
    rw [e3] at hf
    rw [hpt p va L d1 a1 a2]
    exact h.pdp_sep f hf p va L d1 a1 a2
  · intro f hf p hp
    rw [e3] at hf
    rw [e1] at hp
    rw [(e7 p).2.2.2.1]
    exact h.pdp_shadow f hf p hp
  · intro f hf
    rw [e3] at hf
    rw [e2]
    exact h.pdp_free f hf
  · rw [e3]; exact h.pdp_nodup
  · intro f hf
    rw [e3] at hf
    exact h.pdp_frame f hf
  · intro p hp
    rw [e4] at hp
    rw [e1]
    exact h.pool_fresh p hp
  · rw [e4]; exact h.pool_nodup
  · intro p hp va L hva a1 a2
    rw [e1] at hp
    rw [hpt p va L (dom_user s p va hp hva) a1 (by omega), (e7 p).1]
    exact h.idx p hp va L hva a1 a2
  · intro p hp L a1 a2 e he
    rw [e1] at hp
    rw [(e7 p).1] at he
    exact h.idx_keys p hp L a1 a2 e he
  · intro p hp L a1 a2
    rw [e1] at hp
    rw [(e7 p).1]
    exact h.idx_nodup p hp L a1 a2
  · intro p hp va L t hva a1 a2 ht
    rw [e1] at hp
    rw [hpt p va L (dom_user s p va hp hva) (by omega) a2] at ht
    rw [hup p va L t (dom_user s p va hp hva) a1 a2 ht]
    exact h.shape p hp va L t hva a1 a2 ht
  · intro p hp va t hva ht
    rw [e1] at hp
    rw [hpt p va 1 (dom_user s p va hp hva) (by omega) (by omega)] at ht
    exact hleaf p hp va t hva ht
  · intro va a1 a2
    rw [hpt 0 va 1 (dom_direct s va a1 a2) (by omega) (by omega)]
    exact h.direct va a1 a2

/-! ## Counting entries -/

theorem filter_range_update (n i : Nat) (P Q : Nat → Bool) (hi : i < n)
    (h : ∀ j, j ≠ i → Q j = P j) :
    ((List.range n).filter Q).length + (if P i then 1 else 0) =
      ((List.range n).filter P).length + (if Q i then 1 else 0) := by
  induction n with
  | zero => omega
  | succ n ih =>
    rw [List.range_succ, List.filter_append, List.filter_append, List.length_append,
      List.length_append]
    by_cases hin : i = n
    · subst hin
      have e : (List.range i).filter Q = (List.range i).filter P := by
        apply List.filter_congr
        intro j hj
        rw [List.mem_range] at hj
        exact h j (by omega)
      rw [e]
      simp only [List.filter_cons, List.filter_nil]
      cases hP : P i <;> cases hQ : Q i <;> simp
    · have := ih (by omega)
      have e : Q n = P n := h n (by omega)
      simp only [List.filter_cons, List.filter_nil, e]
      omega

theorem filter_range_congr (n : Nat) (P Q : Nat → Bool) (h : ∀ j, j < n → Q j = P j) :
    ((List.range n).filter Q).length = ((List.range n).filter P).length := by
  congr 1
  apply List.filter_congr
  intro j hj
  rw [List.mem_range] at hj
  exact h j hj

theorem vcount_set (m : Nat → Nat → Nat) (t i v : Nat) (hi : i < 512) :
    vcount (mem_set m t i v) t + vbit (m t i) = vcount m t + vbit v := by
  have := filter_range_update 512 i (fun j => pmap_valid_entry (m t j))
    (fun j => pmap_valid_entry (mem_set m t i v t j)) hi (by
      intro j hj
      simp [mem_set, hj])
  simp only [mem_set_same] at this
  simpa [vcount, vbit] using this

theorem wcount_set (m : Nat → Nat → Nat) (t i v : Nat) (hi : i < 512) :
    wcount (mem_set m t i v) t + wbit (m t i) = wcount m t + wbit v := by
  have := filter_range_update 512 i
    (fun j => pmap_valid_entry (m t j) && (m t j &&& PG_W != 0))
    (fun j => pmap_valid_entry (mem_set m t i v t j) && (mem_set m t i v t j &&& PG_W != 0)) hi (by
      intro j hj
      simp [mem_set, hj])
  simp only [mem_set_same] at this
  simpa [wcount, wbit] using this

theorem vcount_congr (m m1 : Nat → Nat → Nat) (t : Nat) (h : ∀ i, i < 512 → m1 t i = m t i) :
    vcount m1 t = vcount m t := by
  unfold vcount
  exact filter_range_congr 512 _ _ (fun j hj => by simp only [h j hj])

theorem wcount_congr (m m1 : Nat → Nat → Nat) (t : Nat) (h : ∀ i, i < 512 → m1 t i = m t i) :
    wcount m1 t = wcount m t := by
  unfold wcount
  exact filter_range_congr 512 _ _ (fun j hj => by simp only [h j hj])

theorem vcount_zero (m : Nat → Nat → Nat) (t : Nat) (h : ∀ i, i < 512 → m t i = 0) :
    vcount m t = 0 := by
  simp only [vcount, List.length_eq_zero, List.filter_eq_nil_iff, List.mem_range]
  intro i hi
  rw [h i hi]
  decide

theorem vcount_pos (m : Nat → Nat → Nat) (t i : Nat) (hi : i < 512)
    (h : pmap_valid_entry (m t i) = true) : 0 < vcount m t := by
  simp only [vcount]
  apply List.length_pos_of_mem (a := i)
  simp [List.mem_filter, hi, h]

theorem vcount_zero_entry (m : Nat → Nat → Nat) (t i : Nat) (hi : i < 512)
    (h : vcount m t = 0) : pmap_valid_entry (m t i) = false := by
  by_contra hc
  have := vcount_pos m t i hi (by simpa using hc)
  omega

theorem vcount_le (m : Nat → Nat → Nat) (t : Nat) : vcount m t ≤ 512 := by
  simp only [vcount]
  calc ((List.range 512).filter _).length ≤ (List.range 512).length := List.length_filter_le _ _
    _ = 512 := List.length_range 512

/-! ## Lists of (offset, page) pairs -/

theorem lookup_of_mem (l : List (Nat × Nat)) (k q : Nat) (hn : (l.map Prod.fst).Nodup)
    (h : (k, q) ∈ l) : l.lookup k = some q := by
  induction l with
  | nil => simp at h
  | cons a l ih =>
    obtain ⟨k1, q1⟩ := a
    simp only [List.map_cons, List.nodup_cons] at hn
    simp only [List.mem_cons, Prod.mk.injEq] at h
    by_cases hk : k = k1
    · subst hk
      rcases h with h | h
      · simp [List.lookup, h.2]
      · exact absurd (List.mem_map_of_mem Prod.fst h) hn.1
    · rcases h with h | h
      · exact absurd h.1 hk
      · rw [List.lookup_cons]
        have : (k == k1) = false := by simpa using hk
        rw [this]
        exact ih hn.2 h

theorem mem_of_lookup (l : List (Nat × Nat)) (k q : Nat) (h : l.lookup k = some q) :
    (k, q) ∈ l := by
  induction l with
  | nil => simp at h
  | cons a l ih =>
    obtain ⟨k1, q1⟩ := a
    rw [List.lookup_cons] at h
    by_cases hk : k = k1
    · subst hk
      simp at h
      simp [h]
    · have : (k == k1) = false := by simpa using hk
      rw [this] at h
      exact List.mem_cons_of_mem _ (ih h)

theorem lookup_none_of_not_mem (l : List (Nat × Nat)) (k : Nat)
    (h : k ∉ l.map Prod.fst) : l.lookup k = none := by
  cases hl : l.lookup k with
  | none => rfl
  | some q => exact absurd (List.mem_map_of_mem Prod.fst (mem_of_lookup l k q hl)) h

/-- A sum over the pages of an index when the summand changes at one page. -/
theorem sum_update (l : List (Nat × Nat)) (g g1 : Nat → Nat) (t : Nat)
    (hn : (l.map Prod.snd).Nodup) (ht : t ∈ l.map Prod.snd)
    (h : ∀ q, q ≠ t → g1 q = g q) :
    (l.map fun e => g1 e.2).sum + g t = (l.map fun e => g e.2).sum + g1 t := by
  induction l with
  | nil => simp at ht
  | cons a l ih =>
    simp only [List.map_cons, List.nodup_cons, List.mem_cons, List.sum_cons] at hn ht ⊢
    by_cases ha : a.2 = t
    · have e : (l.map fun e => g1 e.2) = (l.map fun e => g e.2) := by
        apply List.map_congr_left
        intro b hb
        apply h
        intro hbt
        apply hn.1
        rw [ha, ← hbt]
        exact List.mem_map_of_mem Prod.snd hb
      rw [e, ha]
      omega
    · rcases ht with ht | ht
      · exact absurd ht.symm ha
      · have := ih hn.2 ht
        rw [h a.2 ha]
        omega

theorem sum_congr_pages (l : List (Nat × Nat)) (g g1 : Nat → Nat)
    (h : ∀ e ∈ l, g1 e.2 = g e.2) :
    (l.map fun e => g1 e.2).sum = (l.map fun e => g e.2).sum := by
  congr 1
  apply List.map_congr_left
  intro b hb
  exact h b hb

/-! ## Consequences of the separation of the trees -/

theorem upper_ne_leaf (c : config) (s : kstate) (h : SInv c s) (p va t p1 va1 L t1 : Nat)
    (hd : dom s p va) (ht : ptab s.mem (root s p) va 1 = some t)
    (hd1 : dom s p1 va1) (h2 : 2 ≤ L) (h4 : L ≤ 4)
    (ht1 : ptab s.mem (root s p1) va1 L = some t1) : t1 ≠ t := by
  intro e
  subst e
  have := h.sep p va 1 p1 va1 L t1 hd hd1 (by omega) (by omega) (by omega) h4 ht ht1
  omega

theorem leaf_same (c : config) (s : kstate) (h : SInv c s) (p va t p1 va1 : Nat)
    (hd : dom s p va) (ht : ptab s.mem (root s p) va 1 = some t)
    (hd1 : dom s p1 va1) (ht1 : ptab s.mem (root s p1) va1 1 = some t) :
    p = p1 ∧ pfx va 1 = pfx va1 1 :=
  (h.sep p va 1 p1 va1 1 t hd hd1 (by omega) (by omega) (by omega) (by omega) ht ht1).2

theorem pfx0_of (va va1 : Nat) (h1 : pfx va 1 = pfx va1 1) (h2 : slot va 1 = slot va1 1) :
    pfx va 0 = pfx va1 0 := by
  simp only [pfx, slot] at *
  omega

theorem va_eq_of_pfx0 (s : kstate) (p va va1 : Nat) (hd : dom s p va) (hd1 : dom s p va1)
    (ha : va % 4096 = 0) (ha1 : va1 % 4096 = 0) (h : pfx va 0 = pfx va1 0)
    (hk : 0 ∉ s.pmaps) : va = va1 := by
  simp only [pfx] at h
  rcases hd with ⟨hp, hv⟩ | ⟨hp, hv, hv2⟩ <;> rcases hd1 with ⟨hp1, hv1⟩ | ⟨hp1, hv1, hv12⟩
  · omega
  · subst hp1
    exact absurd hp hk
  · subst hp
    exact absurd hp1 hk
  · norm_num at hv2 hv12
    omega

/-- Two addresses of a pmap with the same leaf entry are the same page. -/
theorem leaf_slot_inj (c : config) (s : kstate) (h : SInv c s) (p va t p1 va1 : Nat)
    (hd : dom s p va) (ht : ptab s.mem (root s p) va 1 = some t)
    (hd1 : dom s p1 va1) (ht1 : ptab s.mem (root s p1) va1 1 = some t)
    (ha : va % 4096 = 0) (ha1 : va1 % 4096 = 0) (hsl : slot va1 1 = slot va 1) :
    p1 = p ∧ va1 = va := by
  obtain ⟨e1, e2⟩ := leaf_same c s h p va t p1 va1 hd ht hd1 ht1
  subst e1
  exact ⟨rfl, (va_eq_of_pfx0 s p va va1 hd hd1 ha ha1 (pfx0_of va va1 e2 hsl.symm)
    h.kern_notin).symm⟩

theorem table_mem_idx (c : config) (s : kstate) (h : SInv c s) (p va L t : Nat)
    (hp : p ∈ s.pmaps) (hva : va < 0x7f8000000000) (h1 : 1 ≤ L) (h3 : L ≤ 3)
    (ht : ptab s.mem (root s p) va L = some t) :
    (pfx va L * 4096, t) ∈ (s.pm p).pm_obj (L - 1) := by
  rw [h.idx p hp va L hva h1 h3] at ht
  exact mem_of_lookup _ _ _ ht

theorem idx_mem_table (c : config) (s : kstate) (h : SInv c s) (p L : Nat) (e : Nat × Nat)
    (hp : p ∈ s.pmaps) (h1 : 1 ≤ L) (h3 : L ≤ 3) (he : e ∈ (s.pm p).pm_obj (L - 1)) :
    ∃ va, va < 0x7f8000000000 ∧ e.1 = pfx va L * 4096 ∧
      ptab s.mem (root s p) va L = some e.2 := by
  obtain ⟨va, hva, hk⟩ := h.idx_keys p hp L h1 h3 e he
  refine ⟨va, hva, hk, ?_⟩
  rw [h.idx p hp va L hva h1 h3, ← hk]
  exact lookup_of_mem _ _ _ (h.idx_nodup p hp L h1 h3) he

theorem idx_pages_nodup (c : config) (s : kstate) (h : SInv c s) (p L : Nat)
    (hp : p ∈ s.pmaps) (h1 : 1 ≤ L) (h3 : L ≤ 3) :
    (((s.pm p).pm_obj (L - 1)).map Prod.snd).Nodup := by
  have hinj : ∀ a ∈ (s.pm p).pm_obj (L - 1), ∀ b ∈ (s.pm p).pm_obj (L - 1),
      a.2 = b.2 → a.1 = b.1 := by
    intro a ha b hb hab
    obtain ⟨va, hva, hka, hta⟩ := idx_mem_table c s h p L a hp h1 h3 ha
    obtain ⟨vb, hvb, hkb, htb⟩ := idx_mem_table c s h p L b hp h1 h3 hb
    rw [hab] at hta
    have := h.sep p va L p vb L b.2 (dom_user s p va hp hva) (dom_user s p vb hp hvb)
      h1 (by omega) h1 (by omega) hta htb
    rw [hka, hkb, this.2.2]
  have hk := h.idx_nodup p hp L h1 h3
  generalize (s.pm p).pm_obj (L - 1) = l at hinj hk
  induction l with
  | nil => simp
  | cons a l ih =>
    simp only [List.map_cons, List.nodup_cons] at hk ⊢
    refine ⟨?_, ih (fun x hx y hy => hinj x (List.mem_cons_of_mem _ hx) y
      (List.mem_cons_of_mem _ hy)) hk.2⟩
    intro hm
    rw [List.mem_map] at hm
    obtain ⟨b, hb, hb2⟩ := hm
    apply hk.1
    rw [hinj a (List.mem_cons_self _ _) b (List.mem_cons_of_mem _ hb) hb2.symm]
    exact List.mem_map_of_mem Prod.fst hb

/-! ## A change of one leaf entry -/

/-- The walks do not read the leaf entries. -/
theorem leaf_upper (c : config) (s s1 : kstate) (h : SInv c s) (p va t v : Nat)
    (hd : dom s p va) (ht : ptab s.mem (root s p) va 1 = some t)
    (hm : s1.mem = mem_set s.mem t (slot va 1) v) :
    ∀ p1 va1 L t1, dom s p1 va1 → 2 ≤ L → L ≤ 4 → ptab s.mem (root s p1) va1 L = some t1 →
      s1.mem t1 (slot va1 L) = s.mem t1 (slot va1 L) := by
  intro p1 va1 L t1 hd1 h2 h4 ht1
  rw [hm]
  apply mem_set_other
  intro e
  exact upper_ne_leaf c s h p va t p1 va1 L t1 hd ht hd1 h2 h4 ht1 e.1

theorem leaf_ptab (c : config) (s s1 : kstate) (h : SInv c s) (hs : same_struct s s1)
    (p va t v : Nat) (hd : dom s p va) (ht : ptab s.mem (root s p) va 1 = some t)
    (hm : s1.mem = mem_set s.mem t (slot va 1) v)
    (p1 va1 L : Nat) (hd1 : dom s p1 va1) (h1 : 1 ≤ L) (h4 : L ≤ 4) :
    ptab s1.mem (root s1 p1) va1 L = ptab s.mem (root s p1) va1 L :=
  ptab_of_upper s s1 hs (leaf_upper c s s1 h p va t v hd ht hm) p1 va1 L hd1 h1 h4

theorem SInv_leaf (c : config) (s s1 : kstate) (h : SInv c s) (hs : same_struct s s1)
    (hcr3 : ∃ p, live s p ∧ s1.cr3 = root s p) (p va t v : Nat)
    (hd : dom s p va) (ht : ptab s.mem (root s p) va 1 = some t)
    (hm : s1.mem = mem_set s.mem t (slot va 1) v)
    (hv : p ∈ s.pmaps → v = 0 ∨ pmap_valid_entry v = true) : SInv c s1 := by
  apply SInv_mem c s s1 h hs hcr3 (leaf_upper c s s1 h p va t v hd ht hm)
  · intro p1 hp1 i hi hi2
    rw [hm]
    apply mem_set_other
    intro e
    obtain ⟨va1, hd1⟩ := live_dom s p1 hp1
    exact upper_ne_leaf c s h p va t p1 va1 4 (root s p1) hd ht hd1 (by omega) (by omega)
      (ptab_4 _ _ _) e.1
  · intro p1 hp1 va1 t1 hva1 ht1
    rw [hm]
    by_cases e : t1 = t ∧ slot va1 1 = slot va 1
    · rw [e.1, e.2, mem_set_same]
      have := leaf_same c s h p va t p1 va1 hd ht (dom_user s p1 va1 hp1 hva1) (e.1 ▸ ht1)
      rw [this.1] at hv
      exact hv hp1
    · rw [mem_set_other _ _ _ _ _ _ e]
      exact h.leaf_shape p1 hp1 va1 t1 hva1 ht1

theorem WInv_leaf (c : config) (s s1 : kstate) (h : SInv c s) (hW : WInv s)
    (hs : same_struct s s1) (p va t v : Nat)
    (hd : dom s p va) (ht : ptab s.mem (root s p) va 1 = some t)
    (hm : s1.mem = mem_set s.mem t (slot va 1) v)
    (hw : ∀ t1, t1 ≠ t → s1.wire_count t1 = s.wire_count t1)
    (hwt : p ∈ s.pmaps →
      s1.wire_count t + vbit (s.mem t (slot va 1)) = s.wire_count t + vbit v) : WInv s1 := by
  constructor
  intro p1 hp1 va1 L t1 hva1 h1 h3 ht1
  rw [hs.1] at hp1
  have hd1 := dom_user s p1 va1 hp1 hva1
  rw [leaf_ptab c s s1 h hs p va t v hd ht hm p1 va1 L hd1 h1 (by omega)] at ht1
  have hold := hW.wire p1 hp1 va1 L t1 hva1 h1 h3 ht1
  by_cases e : t1 = t
  · subst e
    have hsep := h.sep p va 1 p1 va1 L t1 hd hd1 (by omega) (by omega) h1 (by omega) ht ht1
    have hp : p ∈ s.pmaps := hsep.2.1 ▸ hp1
    have := hwt hp
    have hc := vcount_set s.mem t1 (slot va 1) v (slot_lt va 1)
    rw [hm]
    omega
  · rw [hw t1 e, hold, hm]
    congr 1
    symm
    apply vcount_congr
    intro i _
    exact mem_set_other _ _ _ _ _ _ (fun e1 => e e1.1)

theorem CInv_leaf (c : config) (s s1 : kstate) (h : SInv c s) (hC : CInv s)
    (hs : same_struct s s1) (p va t v : Nat)
    (hd : dom s p va) (ht : ptab s.mem (root s p) va 1 = some t)
    (hm : s1.mem = mem_set s.mem t (slot va 1) v)
    (hc : ∀ q, q ≠ p → (s1.pm q).resident_count = (s.pm q).resident_count ∧
      (s1.pm q).wired_count = (s.pm q).wired_count)
    (hres : p ∈ s.pmaps → (s1.pm p).resident_count + (vbit (s.mem t (slot va 1)) : Int) =
      (s.pm p).resident_count + (vbit v : Int))
    (hwir : p ∈ s.pmaps → (s1.pm p).wired_count + (wbit (s.mem t (slot va 1)) : Int) =
      (s.pm p).wired_count + (wbit v : Int)) : CInv s1 := by
  have hobj : ∀ q, (s1.pm q).pm_obj = (s.pm q).pm_obj := fun q => (hs.2.2.2.2.2.2 q).1
  have hptp : ∀ q, ptp_count s1 q = ptp_count s q := by
    intro q
    simp only [ptp_count, hobj q, (hs.2.2.2.2.2.2 q).2.2.2.1]
  have hother : ∀ q ∈ s.pmaps, q ≠ p → ∀ e ∈ (s.pm q).pm_obj 0, e.2 ≠ t := by
    intro q hq hqp e he e2
    obtain ⟨va1, hva1, _, ht1⟩ := idx_mem_table c s h q 1 e hq (by omega) (by omega) he
    rw [e2] at ht1
    exact hqp (leaf_same c s h p va t q va1 hd ht (dom_user s q va1 hq hva1) ht1).1.symm
  have hvc : ∀ q, q ≠ t → vcount s1.mem q = vcount s.mem q := by
    intro q hq
    rw [hm]
    apply vcount_congr
    intro i _
    exact mem_set_other _ _ _ _ _ _ (fun e1 => hq e1.1)
  have hwc : ∀ q, q ≠ t → wcount s1.mem q = wcount s.mem q := by
    intro q hq
    rw [hm]
    apply wcount_congr
    intro i _
    exact mem_set_other _ _ _ _ _ _ (fun e1 => hq e1.1)
  constructor
  · intro q hq
    rw [hs.1] at hq
    rw [hptp q]
    by_cases hqp : q = p
    · subst hqp
      have hu : va < 0x7f8000000000 := by
        rcases hd with hd | hd
        · exact hd.2
        · exact absurd (hd.1 ▸ hq) h.kern_notin
      have hmem := table_mem_idx c s h q va 1 t hq hu (by omega) (by omega) ht
      have hsum := sum_update ((s.pm q).pm_obj 0) (vcount s.mem) (vcount s1.mem) t
        (idx_pages_nodup c s h q 1 hq (by omega) (by omega))
        (List.mem_map_of_mem Prod.snd hmem) hvc
      have hset := vcount_set s.mem t (slot va 1) v (slot_lt va 1)
      rw [← hm] at hset
      have := hres hq
      have := hC.resident q hq
      simp only [leaf_count, hobj q] at *
      omega
    · rw [(hc q hqp).1, hC.resident q hq]
      congr 1
      simp only [leaf_count, hobj q]
      congr 1
      exact (sum_congr_pages _ _ _ (fun e he => hvc e.2 (hother q hq hqp e he))).symm
  · intro q hq
    rw [hs.1] at hq
    by_cases hqp : q = p
    · subst hqp
      have hu : va < 0x7f8000000000 := by
        rcases hd with hd | hd
        · exact hd.2
        · exact absurd (hd.1 ▸ hq) h.kern_notin
      have hmem := table_mem_idx c s h q va 1 t hq hu (by omega) (by omega) ht
      have hsum := sum_update ((s.pm q).pm_obj 0) (wcount s.mem) (wcount s1.mem) t
        (idx_pages_nodup c s h q 1 hq (by omega) (by omega))
        (List.mem_map_of_mem Prod.snd hmem) hwc
      have hset := wcount_set s.mem t (slot va 1) v (slot_lt va 1)
      rw [← hm] at hset
      have := hwir hq
      have := hC.wired q hq
      simp only [wired_leaf_count, hobj q] at *
      omega
    · rw [(hc q hqp).2, hC.wired q hq]
      simp only [wired_leaf_count, hobj q]
      congr 1
      exact (sum_congr_pages _ _ _ (fun e he => hwc e.2 (hother q hq hqp e he))).symm

/-- The reverse map after a change of the leaf entry of (`p`, `va`), when
the chains lose the entries of (`p`, `va`) and gain the entry of the new
PTE, if it is pv-tracked. -/
theorem PInv_leaf (c : config) (s s1 : kstate) (h : SInv c s) (hP : PInv c s)
    (hs : same_struct s s1) (p va t v : Nat)
    (hd : dom s p va) (ha : va % 4096 = 0) (ht : ptab s.mem (root s p) va 1 = some t)
    (hm : s1.mem = mem_set s.mem t (slot va 1) v)
    (hchain : ∀ f e, e ∈ s1.pv_list f ↔
      (e ∈ s.pv_list f ∧ ¬ (e.pv_pmap = p ∧ e.pv_va = va)) ∨
      (pmap_valid_entry v = true ∧ v &&& PG_PVLIST ≠ 0 ∧ f = v &&& PG_FRAME ∧
        e = { pv_pmap := p, pv_va := va, pv_ptp := if p = 0 then none else some t }))
    (hnodup : ∀ f, ((s1.pv_list f).map fun e => (e.pv_pmap, e.pv_va)).Nodup)
    (hman : pmap_valid_entry v = true →
      (v &&& PG_PVLIST ≠ 0 ↔ c.managed (v &&& PG_FRAME) = true)) : PInv c s1 := by
  have hpt := leaf_ptab c s s1 h hs p va t v hd ht hm
  have hdm := same_struct_dom s s1 hs
  -- the leaf entry of another page is left as it is
  have hleaf : ∀ p1 va1 t1, dom s p1 va1 → va1 % 4096 = 0 →
      ptab s.mem (root s p1) va1 1 = some t1 → ¬ (p1 = p ∧ va1 = va) →
      s1.mem t1 (slot va1 1) = s.mem t1 (slot va1 1) := by
    intro p1 va1 t1 hd1 ha1 ht1 hne
    rw [hm]
    apply mem_set_other
    intro e
    exact hne (leaf_slot_inj c s h p va t p1 va1 hd ht hd1 (e.1 ▸ ht1) ha ha1 e.2)
  have hself : s1.mem t (slot va 1) = v := by rw [hm, mem_set_same]
  constructor
  · intro f e he
    rw [hchain] at he
    rcases he with ⟨he, hne⟩ | ⟨hv, hpv, hf, he⟩
    · obtain ⟨hd1, ha1, t1, ht1, hv1, hf1, hp1, hptp⟩ := hP.pv_sound f e he
      refine ⟨(hdm _ _).2 hd1, ha1, t1, ?_, ?_⟩
      · rw [hpt _ _ 1 hd1 (by omega) (by omega)]
        exact ht1
      · rw [hleaf _ _ t1 hd1 ha1 ht1 hne]
        exact ⟨hv1, hf1, hp1, hptp⟩
    · subst he
      refine ⟨(hdm _ _).2 hd, ha, t, ?_, ?_⟩
      · rw [hpt _ _ 1 hd (by omega) (by omega)]
        exact ht
      · rw [hself]
        exact ⟨hv, hf.symm, hpv, rfl⟩
  · intro p1 va1 t1 hd1 ha1 ht1 hv1 hpv1
    rw [hdm] at hd1
    rw [hpt _ _ 1 hd1 (by omega) (by omega)] at ht1
    by_cases e : p1 = p ∧ va1 = va
    · obtain ⟨e1, e2⟩ := e
      subst e1 e2
      rw [ht] at ht1
      cases ht1
      rw [hself] at hv1 hpv1 ⊢
      exact ⟨_, (hchain _ _).2 (Or.inr ⟨hv1, hpv1, rfl, rfl⟩), rfl, rfl⟩
    · rw [hleaf _ _ t1 hd1 ha1 ht1 e] at hv1 hpv1 ⊢
      obtain ⟨e1, he1, hp1, hva1⟩ := hP.pv_complete p1 va1 t1 hd1 ha1 ht1 hv1 hpv1
      refine ⟨e1, (hchain _ _).2 (Or.inl ⟨he1, ?_⟩), hp1, hva1⟩
      rw [hp1, hva1]
      exact e
  · exact hnodup
  · intro p1 va1 t1 hd1 ht1 hv1
    rw [hdm] at hd1
    rw [hpt _ _ 1 hd1 (by omega) (by omega)] at ht1
    by_cases e : t1 = t ∧ slot va1 1 = slot va 1
    · rw [e.1, e.2, hself] at hv1 ⊢
      exact hman hv1
    · have : s1.mem t1 (slot va1 1) = s.mem t1 (slot va1 1) := by
        rw [hm]
        exact mem_set_other _ _ _ _ _ _ e
      rw [this] at hv1 ⊢
      exact hP.pv_managed p1 va1 t1 hd1 ht1 hv1

/-- The entries of (`p`, `va`) in the chains, from the invariant: there is
one, in the chain of the frame of the PTE, when the PTE is pv-tracked. -/
theorem chain_entry (c : config) (s : kstate) (hP : PInv c s) (p va t f : Nat)
    (e : pv_entry) (ht : ptab s.mem (root s p) va 1 = some t)
    (he : e ∈ s.pv_list f) (hk : e.pv_pmap = p ∧ e.pv_va = va) :
    pmap_valid_entry (s.mem t (slot va 1)) = true ∧ s.mem t (slot va 1) &&& PG_PVLIST ≠ 0 ∧
      f = s.mem t (slot va 1) &&& PG_FRAME ∧
      e = { pv_pmap := p, pv_va := va, pv_ptp := if p = 0 then none else some t } := by
  obtain ⟨_, _, t1, ht1, hv1, hf1, hp1, hptp⟩ := hP.pv_sound f e he
  rw [hk.1, hk.2, ht] at ht1
  cases ht1
  rw [hk.2] at hv1 hf1 hp1
  refine ⟨hv1, hp1, hf1.symm, ?_⟩
  cases e with
  | mk a b d =>
    simp only at hk hptp
    simp only [pv_entry.mk.injEq]
    exact ⟨hk.1, hk.2, by rw [hptp, hk.1]⟩

/-! ## States that differ in `%cr3` only -/

theorem WInv_congr (s s1 : kstate) (hW : WInv s) (hs : same_struct s s1)
    (hm : s1.mem = s.mem) (hw : s1.wire_count = s.wire_count) : WInv s1 := by
  constructor
  intro p hp va L t hva h1 h3 ht
  rw [hs.1] at hp
  rw [same_struct_root s s1 hs, hm] at ht
  rw [hw, hm]
  exact hW.wire p hp va L t hva h1 h3 ht

theorem CInv_congr (s s1 : kstate) (hC : CInv s) (hs : same_struct s s1)
    (hm : s1.mem = s.mem)
    (hc : ∀ q, (s1.pm q).resident_count = (s.pm q).resident_count ∧
      (s1.pm q).wired_count = (s.pm q).wired_count) : CInv s1 := by
  have hobj : ∀ q, (s1.pm q).pm_obj = (s.pm q).pm_obj := fun q => (hs.2.2.2.2.2.2 q).1
  constructor
  · intro p hp
    rw [hs.1] at hp
    rw [(hc p).1, hC.resident p hp]
    simp only [leaf_count, ptp_count, hobj p, hm, (hs.2.2.2.2.2.2 p).2.2.2.1]
  · intro p hp
    rw [hs.1] at hp
    rw [(hc p).2, hC.wired p hp]
    simp only [wired_leaf_count, hobj p, hm]

theorem PInv_congr (c : config) (s s1 : kstate) (hP : PInv c s) (hs : same_struct s s1)
    (hm : s1.mem = s.mem) (hv : s1.pv_list = s.pv_list) : PInv c s1 := by
  have hr := same_struct_root s s1 hs
  have hd := same_struct_dom s s1 hs
  constructor
  · intro f e he
    rw [hv] at he
    rw [hd, hr, hm]
    exact hP.pv_sound f e he
  · intro p va t hdm ha ht hval hpv
    rw [hd] at hdm
    rw [hr, hm] at ht
    rw [hm] at hval hpv ⊢
    rw [hv]
    exact hP.pv_complete p va t hdm ha ht hval hpv
  · intro f
    rw [hv]
    exact hP.pv_nodup f
  · intro p va t hdm ht hval
    rw [hd] at hdm
    rw [hr, hm] at ht
    rw [hm] at hval ⊢
    exact hP.pv_managed p va t hdm ht hval

theorem SInv_congr (c : config) (s s1 : kstate) (h : SInv c s) (hs : same_struct s s1)
    (hm : s1.mem = s.mem) (hcr3 : ∃ p, live s p ∧ s1.cr3 = root s p) : SInv c s1 := by
  apply SInv_mem c s s1 h hs hcr3
  · intro p va L t _ _ _ _
    rw [hm]
  · intro p _ i _ _
    rw [hm]
  · intro p hp va t hva ht
    rw [hm]
    exact h.leaf_shape p hp va t hva ht

theorem eqv_refl (s : kstate) : eqv s s :=
  ⟨rfl, rfl, rfl, rfl, rfl, same_struct_refl s, fun _ => ⟨rfl, rfl, rfl, rfl⟩⟩

theorem eqv_trans (s s1 s2 : kstate) (h1 : eqv s s1) (h2 : eqv s1 s2) : eqv s s2 := by
  obtain ⟨a1, a2, a3, a4, a5, a6, a7⟩ := h1
  obtain ⟨b1, b2, b3, b4, b5, b6, b7⟩ := h2
  refine ⟨b1.trans a1, b2.trans a2, b3.trans a3, b4.trans a4, b5.trans a5,
    same_struct_trans s s1 s2 a6 b6, ?_⟩
  intro q
  obtain ⟨c1, c2, c3, c4⟩ := a7 q
  obtain ⟨d1, d2, d3, d4⟩ := b7 q
  exact ⟨d1.trans c1, d2.trans c2, d3.trans c3, d4.trans c4⟩

theorem Inv_eqv (c : config) (s s1 : kstate) (h : Inv c s) (he : eqv s s1)
    (hcr3 : ∃ p, live s p ∧ s1.cr3 = root s p) : Inv c s1 := by
  obtain ⟨a1, a2, a3, a4, a5, a6, a7⟩ := he
  exact ⟨SInv_congr c s s1 h.tree a6 a1 hcr3, WInv_congr s s1 h.wire a6 a1 a2,
    CInv_congr s s1 h.count a6 a1 (fun q => ⟨(a7 q).1, (a7 q).2.1⟩),
    PInv_congr c s s1 h.pv a6 a1 a4⟩

/-! ## pmap_map_ptes, pmap_unmap_ptes -/

theorem map_ptes_spec (c : config) (s : kstate) (h : SInv c s) (p : Nat) (hp : live s p) :
    ∃ scr3 s0, pmap_map_ptes c s p = some (scr3, s0) ∧ eqv s s0 ∧ mapped s0 p ∧
      (∃ q, live s q ∧ s0.cr3 = root s q) ∧
      ((scr3 = 0 ∧ s0.cr3 = s.cr3) ∨ (scr3 = s.cr3 ∧ scr3 ≠ 0)) := by
  have hn := h.normal p hp
  have hne : ¬ (c.DIAGNOSTIC = true ∧ (s.pm p).pm_type = PMAP_TYPE_EPT) := by
    rw [hn]
    intro e
    exact absurd e.2 (by decide)
  simp only [pmap_map_ptes, hne, if_false]
  by_cases hc : p = 0 ∨ (s.pm p).pm_pdirpa = s.cr3
  · simp only [hc, if_true]
    refine ⟨0, s, rfl, eqv_refl s, ?_, h.cr3_live, Or.inl ⟨rfl, rfl⟩⟩
    rcases hc with hc | hc
    · exact Or.inr hc
    · exact Or.inl hc.symm
  · simp only [hc, if_false]
    refine ⟨_, _, rfl, ?_, ?_, ⟨p, hp, rfl⟩, Or.inr ⟨rfl, ?_⟩⟩
    · refine ⟨rfl, rfl, rfl, rfl, rfl, ⟨rfl, rfl, rfl, rfl, rfl, rfl, ?_⟩, ?_⟩
      · intro q
        by_cases hq : q = p
        · subst hq
          simp [upd]
        · simp [upd, hq]
      · intro q
        by_cases hq : q = p
        · subst hq
          simp [upd]
        · simp [upd, hq]
    · left
      simp [root, upd]
    · obtain ⟨q, hq, hcq⟩ := h.cr3_live
      rw [hcq]
      exact h.root_ne q hq

theorem unmap_ptes_eqv (c : config) (s : kstate) (p scr3 : Nat) :
    eqv s (pmap_unmap_ptes c s p scr3) := by
  simp only [pmap_unmap_ptes]
  split
  · refine ⟨rfl, rfl, rfl, rfl, rfl, ⟨rfl, rfl, rfl, rfl, rfl, rfl, ?_⟩, ?_⟩
    · intro q
      by_cases hq : q = p
      · subst hq
        simp [upd]
      · simp [upd, hq]
    · intro q
      by_cases hq : q = p
      · subst hq
        simp [upd]
      · simp [upd, hq]
  · exact eqv_refl s

theorem unmap_ptes_cr3 (c : config) (s : kstate) (p scr3 : Nat) :
    (pmap_unmap_ptes c s p scr3).cr3 = if scr3 ≠ 0 then scr3 else s.cr3 := by
  simp only [pmap_unmap_ptes]
  split <;> rfl

/-! ## The tables behind the recursive mapping -/

theorem ptab_cr3 (c : config) (s : kstate) (h : SInv c s) (p va L : Nat)
    (hd : dom s p va) (hm : mapped s p) (h1 : 1 ≤ L) (h3 : L ≤ 3) :
    ptab s.mem s.cr3 va L = ptab s.mem (root s p) va L := by
  rcases hm with hm | hm
  · rw [hm]
  · subst hm
    obtain ⟨q, hq, hcq⟩ := h.cr3_live
    rcases hq with hq | hq
    · rw [hcq, hq]
    · have hva : 256 ≤ pfx va 3 ∧ pfx va 3 < 512 := by
        rcases hd with hd | hd
        · exact absurd hd.1 h.kern_notin
        · exact pfx_kern va hd.2.1 hd.2.2
      have e3 : ptab s.mem s.cr3 va 3 = ptab s.mem (root s 0) va 3 := by
        rw [ptab_3, ptab_3, hcq]
        simp only [pstep, slot4]
        rw [h.kshare q hq _ hva.1 hva.2]
      have e2 : ptab s.mem s.cr3 va 2 = ptab s.mem (root s 0) va 2 := by
        rw [ptab_2, ptab_2, e3]
      have e1 : ptab s.mem s.cr3 va 1 = ptab s.mem (root s 0) va 1 := by
        rw [ptab_1, ptab_1, e2]
      have : L = 1 ∨ L = 2 ∨ L = 3 := by omega
      rcases this with hL | hL | hL <;> subst hL
      · exact e1
      · exact e2
      · exact e3

/-- The top-level entry of `va` as the recursive mapping shows it. -/
theorem top_entry_cr3 (c : config) (s : kstate) (h : SInv c s) (p va : Nat)
    (hd : dom s p va) (hm : mapped s p) :
    s.mem s.cr3 (slot va 4) = s.mem (root s p) (slot va 4) := by
  rcases hm with hm | hm
  · rw [hm]
  · subst hm
    obtain ⟨q, hq, hcq⟩ := h.cr3_live
    rcases hq with hq | hq
    · rw [hcq, hq]
    · have hva : 256 ≤ pfx va 3 ∧ pfx va 3 < 512 := by
        rcases hd with hd | hd
        · exact absurd hd.1 h.kern_notin
        · exact pfx_kern va hd.2.1 hd.2.2
      rw [hcq, slot4, h.kshare q hq _ hva.1 hva.2]

theorem pde_read_leaf (c : config) (s : kstate) (h : SInv c s) (p va t L : Nat)
    (hd : dom s p va) (hm : mapped s p) (h1 : 1 ≤ L) (h3 : L ≤ 3)
    (ht : ptab s.mem (root s p) va L = some t) :
    pde_read s va L = some (s.mem t (slot va L)) :=
  pde_read_of_ptab s va L t h1 (by omega) (by rw [ptab_cr3 c s h p va L hd hm h1 h3]; exact ht)

theorem pde_write_leaf (c : config) (s : kstate) (h : SInv c s) (p va t L v : Nat)
    (hd : dom s p va) (hm : mapped s p) (h1 : 1 ≤ L) (h3 : L ≤ 3)
    (ht : ptab s.mem (root s p) va L = some t) :
    pde_write s va L v = some (set_mem s t (slot va L) v) :=
  pde_write_of_ptab s va L t v h1 (by omega)
    (by rw [ptab_cr3 c s h p va L hd hm h1 h3]; exact ht)

/-! ## pmap_remove_pv on a chain without duplicates -/

theorem pv_remove_first_mem (p va : Nat) (l : List pv_entry) (e : pv_entry)
    (hn : (l.map fun e => (e.pv_pmap, e.pv_va)).Nodup) :
    e ∈ (pv_remove_first p va l).1 ↔ e ∈ l ∧ ¬ (e.pv_pmap = p ∧ e.pv_va = va) := by
  induction l with
  | nil => simp [pv_remove_first]
  | cons a l ih =>
    simp only [List.map_cons, List.nodup_cons] at hn
    simp only [pv_remove_first]
    by_cases ha : a.pv_pmap = p ∧ a.pv_va = va
    · simp only [ha, and_self, if_true, List.mem_cons]
      constructor
      · intro he
        refine ⟨Or.inr he, ?_⟩
        intro hk
        apply hn.1
        rw [List.mem_map]
        exact ⟨e, he, by rw [hk.1, hk.2, ha.1, ha.2]⟩
      · rintro ⟨he | he, hk⟩
        · rw [he] at hk
          exact absurd ha hk
        · exact he
    · simp only [ha, if_false, List.mem_cons]
      rw [ih hn.2]
      constructor
      · rintro (he | he)
        · rw [he]
          exact ⟨Or.inl rfl, ha⟩
        · exact ⟨Or.inr he.1, he.2⟩
      · rintro ⟨he | he, hk⟩
        · exact Or.inl he
        · exact Or.inr ⟨he, hk⟩

theorem pv_remove_first_sublist (p va : Nat) (l : List pv_entry) :
    (pv_remove_first p va l).1.Sublist l := by
  induction l with
  | nil => simp [pv_remove_first]
  | cons a l ih =>
    simp only [pv_remove_first]
    split
    · exact List.sublist_cons_self a l
    · exact List.Sublist.cons₂ a ih

theorem pv_remove_first_nodup (p va : Nat) (l : List pv_entry)
    (hn : (l.map fun e => (e.pv_pmap, e.pv_va)).Nodup) :
    ((pv_remove_first p va l).1.map fun e => (e.pv_pmap, e.pv_va)).Nodup :=
  List.Nodup.sublist (List.Sublist.map _ (pv_remove_first_sublist p va l)) hn

theorem pv_remove_first_some (p va : Nat) (l : List pv_entry) (e : pv_entry)
    (he : e ∈ l) (hk : e.pv_pmap = p ∧ e.pv_va = va) :
    ∃ e1, (pv_remove_first p va l).2 = some e1 := by
  induction l with
  | nil => simp at he
  | cons a l ih =>
    simp only [pv_remove_first]
    split
    · exact ⟨a, rfl⟩
    · rename_i ha
      simp only [List.mem_cons] at he
      rcases he with he | he
      · rw [he] at hk
        exact absurd hk ha
      · exact ih he

/-! ## The elementary updates keep the structure -/

theorem ss_set_mem (s0 s : kstate) (t i v : Nat) (h : same_struct s0 s) :
    same_struct s0 (set_mem s t i v) := h

theorem ss_set_wire (s0 s : kstate) (g w : Nat) (h : same_struct s0 s) :
    same_struct s0 (set_wire s g w) := h

theorem ss_wire_dec (s0 s : kstate) (g : Nat) (h : same_struct s0 s) :
    same_struct s0 (wire_dec s g) := h

theorem ss_wire_inc (s0 s : kstate) (g : Nat) (h : same_struct s0 s) :
    same_struct s0 (wire_inc s g) := h

theorem ss_pv_pool_put (s0 s : kstate) (n : Nat) (h : same_struct s0 s) :
    same_struct s0 (pv_pool_put s n) := h

theorem ss_sync (s0 s : kstate) (g pte : Nat) (h : same_struct s0 s) :
    same_struct s0 (pmap_sync_flags_pte s g pte) := by
  simp only [pmap_sync_flags_pte]
  split
  · exact h
  · exact h

theorem ss_enter_pv (s0 s : kstate) (g p va : Nat) (ptp : Option Nat) (h : same_struct s0 s) :
    same_struct s0 (pmap_enter_pv s g p va ptp) := h

theorem ss_remove_pv (s0 s : kstate) (g p va : Nat) (h : same_struct s0 s) :
    same_struct s0 (pmap_remove_pv s g p va).2 := h

theorem ss_pm (s0 s : kstate) (p : Nat) (x : struct_pmap) (h : same_struct s0 s)
    (h1 : x.pm_obj = (s.pm p).pm_obj) (h2 : x.pm_pdirpa = (s.pm p).pm_pdirpa)
    (h3 : x.pm_pdir = (s.pm p).pm_pdir) (h4 : x.pm_pdir_intel = (s.pm p).pm_pdir_intel)
    (h5 : x.pm_type = (s.pm p).pm_type) (h6 : x.uo_refs = (s.pm p).uo_refs) :
    same_struct s0 { s with pm := upd s.pm p x } := by
  obtain ⟨a1, a2, a3, a4, a5, a6, a7⟩ := h
  refine ⟨a1, a2, a3, a4, a5, a6, ?_⟩
  intro q
  by_cases hq : q = p
  · subst hq
    simp only [upd, if_true, h1, h2, h3, h4, h5, h6]
    exact a7 q
  · simp only [upd, hq, if_false]
    exact a7 q

theorem ss_add_resident (s0 s : kstate) (p : Nat) (d : Int) (h : same_struct s0 s) :
    same_struct s0 (add_resident s p d) :=
  ss_pm s0 s p _ h rfl rfl rfl rfl rfl rfl

theorem ss_add_wired (s0 s : kstate) (p : Nat) (d : Int) (h : same_struct s0 s) :
    same_struct s0 (add_wired s p d) :=
  ss_pm s0 s p _ h rfl rfl rfl rfl rfl rfl

theorem ss_set_hint (s0 s : kstate) (p l : Nat) (x : Option Nat) (h : same_struct s0 s) :
    same_struct s0 (set_hint s p l x) :=
  ss_pm s0 s p _ h rfl rfl rfl rfl rfl rfl

theorem ss_of_eqv (s s1 : kstate) (h : eqv s s1) : same_struct s s1 := h.2.2.2.2.2.1

/-- `wire_count--` on a count that is not zero. -/
theorem dec32 (w : Nat) (h1 : 1 ≤ w) (h2 : w < 2 ^ 32) : (w + (2 ^ 32 - 1)) % 2 ^ 32 = w - 1 := by
  omega

theorem inc32 (w : Nat) (h2 : w + 1 < 2 ^ 32) : (w + 1) % 2 ^ 32 = w + 1 := by
  omega

theorem vbit_valid (e : Nat) (h : pmap_valid_entry e = true) : vbit e = 1 := by
  simp [vbit, h]

theorem vbit_zero : vbit 0 = 0 := by decide

theorem wbit_zero : wbit 0 = 0 := by decide

theorem wbit_eq (e : Nat) (h : pmap_valid_entry e = true) :
    wbit e = if e &&& PG_W ≠ 0 then 1 else 0 := by
  simp only [wbit, h, Bool.true_and]
  by_cases hw : e &&& PG_W = 0 <;> simp [hw]

theorem wire_bound (c : config) (s : kstate) (_h : SInv c s) (hW : WInv s) (p va t L : Nat)
    (hp : p ∈ s.pmaps) (hva : va < 0x7f8000000000) (h1 : 1 ≤ L) (h3 : L ≤ 3)
    (ht : ptab s.mem (root s p) va L = some t) :
    s.wire_count t = 1 + vcount s.mem t ∧ s.wire_count t ≤ 513 := by
  have := hW.wire p hp va L t hva h1 h3 ht
  have := vcount_le s.mem t
  omega

theorem dom_cases (c : config) (s : kstate) (h : SInv c s) (p va : Nat) (hd : dom s p va) :
    (p ∈ s.pmaps ∧ p ≠ 0 ∧ va < 0x7f8000000000) ∨
      (p = 0 ∧ p ∉ s.pmaps ∧ 0xffff800000000000 ≤ va ∧ va < 2 ^ 64) := by
  rcases hd with hd | hd
  · left
    refine ⟨hd.1, ?_, hd.2⟩
    intro e
    rw [e] at hd
    exact h.kern_notin hd.1
  · right
    refine ⟨hd.1, ?_, hd.2⟩
    rw [hd.1]
    exact h.kern_notin

/-! ## Zapping a leaf PTE -/

/-- The invariant after the leaf entry of (`p`, `va`) changed from a valid
`old` to `0`, with the counters, the reference count of the leaf PTP and the
chains changed accordingly. -/
theorem Inv_zap (c : config) (s s1 : kstate) (hI : Inv c s) (hs : same_struct s s1)
    (hcr3 : s1.cr3 = s.cr3) (p va t : Nat)
    (hd : dom s p va) (ha : va % 4096 = 0) (ht : ptab s.mem (root s p) va 1 = some t)
    (hv : pmap_valid_entry (s.mem t (slot va 1)) = true)
    (hm : s1.mem = mem_set s.mem t (slot va 1) 0)
    (hw : ∀ t1, t1 ≠ t → s1.wire_count t1 = s.wire_count t1)
    (hwt : p ∈ s.pmaps → s1.wire_count t + 1 = s.wire_count t)
    (hc : ∀ q, q ≠ p → (s1.pm q).resident_count = (s.pm q).resident_count ∧
      (s1.pm q).wired_count = (s.pm q).wired_count)
    (hres : (s1.pm p).resident_count = (s.pm p).resident_count - 1)
    (hwir : (s1.pm p).wired_count =
      (s.pm p).wired_count - (if s.mem t (slot va 1) &&& PG_W ≠ 0 then 1 else 0))
    (hchain : ∀ f e, e ∈ s1.pv_list f ↔ e ∈ s.pv_list f ∧ ¬ (e.pv_pmap = p ∧ e.pv_va = va))
    (hnodup : ∀ f, ((s1.pv_list f).map fun e => (e.pv_pmap, e.pv_va)).Nodup) : Inv c s1 := by
  refine ⟨?_, ?_, ?_, ?_⟩
  · apply SInv_leaf c s s1 hI.tree hs _ p va t 0 hd ht hm (fun _ => Or.inl rfl)
    rw [hcr3]
    exact hI.tree.cr3_live
  · apply WInv_leaf c s s1 hI.tree hI.wire hs p va t 0 hd ht hm hw
    intro hp
    rw [vbit_valid _ hv, vbit_zero]
    have := hwt hp
    omega
  · apply CInv_leaf c s s1 hI.tree hI.count hs p va t 0 hd ht hm hc
    · intro _
      rw [vbit_valid _ hv, vbit_zero, hres]
      push_cast
      omega
    · intro _
      rw [wbit_eq _ hv, wbit_zero, hwir]
      split <;> push_cast <;> omega
  · apply PInv_leaf c s s1 hI.tree hI.pv hs p va t 0 hd ha ht hm _ hnodup
    · intro h0
      exact absurd h0 (by decide)
    · intro f e
      rw [hchain]
      constructor
      · intro h1
        exact Or.inl h1
      · rintro (h1 | h1)
        · exact h1
        · exact absurd h1.1 (by decide)

theorem zap_stats_spec (s : kstate) (p t i opte : Nat) (ptp : Option Nat) :
    (pmap_zap_stats (set_mem s t i 0) p ptp opte).mem = mem_set s.mem t i 0 ∧
      same_struct s (pmap_zap_stats (set_mem s t i 0) p ptp opte) ∧
      (pmap_zap_stats (set_mem s t i 0) p ptp opte).cr3 = s.cr3 ∧
      (pmap_zap_stats (set_mem s t i 0) p ptp opte).pv_list = s.pv_list ∧
      (pmap_zap_stats (set_mem s t i 0) p ptp opte).pv_pool = s.pv_pool ∧
      (∀ q, q ≠ p →
        ((pmap_zap_stats (set_mem s t i 0) p ptp opte).pm q).resident_count =
          (s.pm q).resident_count ∧
        ((pmap_zap_stats (set_mem s t i 0) p ptp opte).pm q).wired_count =
          (s.pm q).wired_count) ∧
      ((pmap_zap_stats (set_mem s t i 0) p ptp opte).pm p).resident_count =
        (s.pm p).resident_count - 1 ∧
      ((pmap_zap_stats (set_mem s t i 0) p ptp opte).pm p).wired_count =
        (s.pm p).wired_count - (if opte &&& PG_W ≠ 0 then 1 else 0) ∧
      (∀ t1, (∀ q, ptp = some q → t1 ≠ q) →
        (pmap_zap_stats (set_mem s t i 0) p ptp opte).wire_count t1 = s.wire_count t1) ∧
      (∀ q, ptp = some q → (pmap_zap_stats (set_mem s t i 0) p ptp opte).wire_count q =
        (s.wire_count q + (2 ^ 32 - 1)) % 2 ^ 32) := by
  cases ptp with
  | none =>
    by_cases hw : opte &&& PG_W = 0
    · simp only [pmap_zap_stats, hw, ne_eq, not_true_eq_false, if_false]
      refine ⟨rfl, ss_add_resident _ _ _ _ (ss_set_mem _ _ _ _ _ (same_struct_refl s)), rfl, rfl,
        rfl, ?_, ?_, ?_, fun _ _ => rfl, fun q hq => by cases hq⟩
      · intro q hq
        simp [add_resident, set_mem, upd, hq]
      · simp [add_resident, set_mem, upd]
        omega
      · simp [add_resident, set_mem, upd]
    · simp only [pmap_zap_stats, hw, ne_eq, not_false_eq_true, if_true]
      refine ⟨rfl, ss_add_resident _ _ _ _ (ss_add_wired _ _ _ _ (ss_set_mem _ _ _ _ _
        (same_struct_refl s))), rfl, rfl, rfl, ?_, ?_, ?_, fun _ _ => rfl,
        fun q hq => by cases hq⟩
      · intro q hq
        simp [add_resident, add_wired, set_mem, upd, hq]
      · simp [add_resident, add_wired, set_mem, upd]
        omega
      · simp [add_resident, add_wired, set_mem, upd]
        omega
  | some q0 =>
    by_cases hw : opte &&& PG_W = 0
    · simp only [pmap_zap_stats, hw, ne_eq, not_true_eq_false, if_false]
      refine ⟨rfl, ss_wire_dec _ _ _ (ss_add_resident _ _ _ _ (ss_set_mem _ _ _ _ _
        (same_struct_refl s))), rfl, rfl, rfl, ?_, ?_, ?_, ?_, ?_⟩
      · intro q hq
        simp [wire_dec, set_wire, add_resident, set_mem, upd, hq]
      · simp [wire_dec, set_wire, add_resident, set_mem, upd]
        omega
      · simp [wire_dec, set_wire, add_resident, set_mem, upd]
      · intro t1 h1
        simp [wire_dec, set_wire, add_resident, set_mem, upd, h1 q0 rfl]
      · intro q hq
        cases hq
        simp [wire_dec, set_wire, add_resident, set_mem, upd]
    · simp only [pmap_zap_stats, hw, ne_eq, not_false_eq_true, if_true]
      refine ⟨rfl, ss_wire_dec _ _ _ (ss_add_resident _ _ _ _ (ss_add_wired _ _ _ _
        (ss_set_mem _ _ _ _ _ (same_struct_refl s)))), rfl, rfl, rfl, ?_, ?_, ?_, ?_, ?_⟩
      · intro q hq
        simp [wire_dec, set_wire, add_resident, add_wired, set_mem, upd, hq]
      · simp [wire_dec, set_wire, add_resident, add_wired, set_mem, upd]
        omega
      · simp [wire_dec, set_wire, add_resident, add_wired, set_mem, upd]
        omega
      · intro t1 h1
        simp [wire_dec, set_wire, add_resident, add_wired, set_mem, upd, h1 q0 rfl]
      · intro q hq
        cases hq
        simp [wire_dec, set_wire, add_resident, add_wired, set_mem, upd]

theorem zap_spec (c : config) (s : kstate) (hI : Inv c s) (p va t : Nat)
    (fp : List pv_entry)
    (hd : dom s p va) (ha : va % 4096 = 0) (hmp : mapped s p)
    (ht : ptab s.mem (root s p) va 1 = some t)
    (hv : pmap_valid_entry (s.mem t (slot va 1)) = true) :
    ∃ s1 fp1, pmap_zap_pte c s p (if p = 0 then none else some t) va fp = some (s1, fp1) ∧
      Inv c s1 ∧ same_struct s s1 ∧ s1.cr3 = s.cr3 ∧
      s1.mem = mem_set s.mem t (slot va 1) 0 ∧
      (∀ t1, t1 ≠ t → s1.wire_count t1 = s.wire_count t1) ∧
      (p ∈ s.pmaps → s1.wire_count t + 1 = s.wire_count t) ∧
      (∀ f e, e ∈ s1.pv_list f ↔ e ∈ s.pv_list f ∧ ¬ (e.pv_pmap = p ∧ e.pv_va = va)) ∧
      s1.pv_pool = s.pv_pool := by
  have hS := hI.tree
  simp only [pmap_zap_pte, pde_read_leaf c s hS p va t 1 hd hmp (by omega) (by omega) ht,
    pde_write_leaf c s hS p va t 1 0 hd hmp (by omega) (by omega) ht]
  obtain ⟨e1, e2, e3, e4, e5, e6, e7, e8, e9, e10⟩ :=
    zap_stats_spec s p t (slot va 1) (s.mem t (slot va 1)) (if p = 0 then none else some t)
  generalize pmap_zap_stats (set_mem s t (slot va 1) 0) p (if p = 0 then none else some t)
    (s.mem t (slot va 1)) = s3 at *
  -- the reference count of the leaf PTP
  have hw : ∀ t1, t1 ≠ t → s3.wire_count t1 = s.wire_count t1 := by
    intro t1 h1
    apply e9
    intro q hq
    split at hq
    · cases hq
    · cases hq
      exact h1
  have hwt : p ∈ s.pmaps → s3.wire_count t + 1 = s.wire_count t := by
    intro hp
    have hp0 : p ≠ 0 := fun e => hI.tree.kern_notin (e ▸ hp)
    have hva : va < 0x7f8000000000 := by
      rcases hd with hd | hd
      · exact hd.2
      · exact absurd hd.1 hp0
    rw [e10 t (by simp [hp0])]
    have hb := wire_bound c s hS hI.wire p va t 1 hp hva (by omega) (by omega) ht
    have hpos := vcount_pos s.mem t (slot va 1) (slot_lt va 1) hv
    rw [dec32 _ (by omega) (by omega)]
    omega
  have hman := hI.pv.pv_managed p va t hd ht hv
  by_cases hpv : s.mem t (slot va 1) &&& PG_PVLIST = 0
  · have hnm : PHYS_TO_VM_PAGE c (s.mem t (slot va 1) &&& PG_FRAME) = none := by
      simp only [PHYS_TO_VM_PAGE]
      split
      · rename_i hmg
        exact absurd (hman.2 hmg) (by simp [hpv])
      · rfl
    have hchain : ∀ f e, e ∈ s3.pv_list f ↔
        e ∈ s.pv_list f ∧ ¬ (e.pv_pmap = p ∧ e.pv_va = va) := by
      intro f e
      rw [e4]
      constructor
      · intro he
        refine ⟨he, ?_⟩
        intro hk
        exact (chain_entry c s hI.pv p va t f e ht he hk).2.1 hpv
      · exact fun he => he.1
    simp only [pmap_zap_pv, hpv, if_true, hnm, ne_eq, not_true_eq_false, and_false, if_false]
    refine ⟨s3, fp, rfl, ?_, e2, e3, e1, hw, hwt, hchain, e5⟩
    apply Inv_zap c s s3 hI e2 e3 p va t hd ha ht hv e1 hw hwt e6 e7 e8 hchain
    intro f
    rw [e4]
    exact hI.pv.pv_nodup f
  · have hmg : PHYS_TO_VM_PAGE c (s.mem t (slot va 1) &&& PG_FRAME) =
        some (s.mem t (slot va 1) &&& PG_FRAME) := by
      simp only [PHYS_TO_VM_PAGE]
      rw [hman.1 hpv]
      rfl
    simp only [pmap_zap_pv, hpv, if_false, hmg]
    generalize hs4 : pmap_sync_flags_pte s3 (s.mem t (slot va 1) &&& PG_FRAME)
      (s.mem t (slot va 1)) = s4
    have f1 : s4.mem = s3.mem ∧ s4.cr3 = s3.cr3 ∧ s4.pv_list = s3.pv_list ∧
        s4.pv_pool = s3.pv_pool ∧ s4.wire_count = s3.wire_count ∧ s4.pm = s3.pm := by
      rw [← hs4]
      simp only [pmap_sync_flags_pte]
      split <;> exact ⟨rfl, rfl, rfl, rfl, rfl, rfl⟩
    obtain ⟨f1, f2, f3, f4, f5, f6⟩ := f1
    have hss : same_struct s (pmap_remove_pv s4 (s.mem t (slot va 1) &&& PG_FRAME) p va).2 := by
      apply ss_remove_pv
      rw [← hs4]
      exact ss_sync _ _ _ _ e2
    have hchain : ∀ f e,
        e ∈ (pmap_remove_pv s4 (s.mem t (slot va 1) &&& PG_FRAME) p va).2.pv_list f ↔
        e ∈ s.pv_list f ∧ ¬ (e.pv_pmap = p ∧ e.pv_va = va) := by
      intro f e
      simp only [pmap_remove_pv, f3, e4, upd]
      by_cases hf : f = s.mem t (slot va 1) &&& PG_FRAME
      · simp only [hf, if_true]
        exact pv_remove_first_mem p va _ e (hI.pv.pv_nodup _)
      · simp only [hf, if_false]
        constructor
        · intro he
          refine ⟨he, ?_⟩
          intro hk
          exact hf (chain_entry c s hI.pv p va t f e ht he hk).2.2.1
        · exact fun he => he.1
    have hnd : ∀ f, (((pmap_remove_pv s4 (s.mem t (slot va 1) &&& PG_FRAME) p va).2.pv_list
        f).map fun e => (e.pv_pmap, e.pv_va)).Nodup := by
      intro f
      simp only [pmap_remove_pv, f3, e4, upd]
      split
      · exact pv_remove_first_nodup p va _ (hI.pv.pv_nodup _)
      · exact hI.pv.pv_nodup f
    have g1 : (pmap_remove_pv s4 (s.mem t (slot va 1) &&& PG_FRAME) p va).2.cr3 = s.cr3 := by
      simp only [pmap_remove_pv, f2, e3]
    have g2 : (pmap_remove_pv s4 (s.mem t (slot va 1) &&& PG_FRAME) p va).2.mem =
        mem_set s.mem t (slot va 1) 0 := by
      simp only [pmap_remove_pv, f1, e1]
    have g3 : ∀ t1, t1 ≠ t →
        (pmap_remove_pv s4 (s.mem t (slot va 1) &&& PG_FRAME) p va).2.wire_count t1 =
          s.wire_count t1 := by
      intro t1 h1
      simp only [pmap_remove_pv, f5]
      exact hw t1 h1
    have g4 : p ∈ s.pmaps →
        (pmap_remove_pv s4 (s.mem t (slot va 1) &&& PG_FRAME) p va).2.wire_count t + 1 =
          s.wire_count t := by
      intro hp
      simp only [pmap_remove_pv, f5]
      exact hwt hp
    have g5 : (pmap_remove_pv s4 (s.mem t (slot va 1) &&& PG_FRAME) p va).2.pv_pool =
        s.pv_pool := by
      simp only [pmap_remove_pv, f4, e5]
    have hI1 : Inv c (pmap_remove_pv s4 (s.mem t (slot va 1) &&& PG_FRAME) p va).2 := by
      apply Inv_zap c s _ hI hss g1 p va t hd ha ht hv g2 g3 g4 _ _ _ hchain hnd
      · intro q hq
        simp only [pmap_remove_pv, f6]
        exact e6 q hq
      · simp only [pmap_remove_pv, f6]
        exact e7
      · simp only [pmap_remove_pv, f6]
        exact e8
    cases hr : (pmap_remove_pv s4 (s.mem t (slot va 1) &&& PG_FRAME) p va).1 with
    | none => exact ⟨_, fp, rfl, hI1, hss, g1, g2, g3, g4, hchain, g5⟩
    | some pve => exact ⟨_, pve :: fp, rfl, hI1, hss, g1, g2, g3, g4, hchain, g5⟩

/-! ## Relations between the states of a removal -/

theorem shrink_refl (s : kstate) : shrink s s :=
  ⟨rfl, fun _ => rfl, fun _ _ => Or.inl rfl⟩

theorem shrink_trans (s s1 s2 : kstate) (h1 : shrink s s1) (h2 : shrink s1 s2) :
    shrink s s2 := by
  refine ⟨h2.1.trans h1.1, fun q => (h2.2.1 q).trans (h1.2.1 q), ?_⟩
  intro t i
  rcases h2.2.2 t i with e | e
  · rw [e]
    exact h1.2.2 t i
  · exact Or.inr e

theorem shrink_invalid (s s1 : kstate) (h : shrink s s1) (t i : Nat)
    (hv : pmap_valid_entry (s.mem t i) = false) : pmap_valid_entry (s1.mem t i) = false := by
  rcases h.2.2 t i with e | e
  · rw [e]
    exact hv
  · rw [e]
    rfl

theorem wkeep_refl (s : kstate) : wkeep s s :=
  fun _ _ _ _ _ he => ⟨he, Or.inl rfl⟩

theorem wkeep_trans (s s1 s2 : kstate) (hp : s1.pmaps = s.pmaps) (h1 : wkeep s s1)
    (h2 : wkeep s1 s2) : wkeep s s2 := by
  intro q hq L hL e he
  obtain ⟨a1, a2⟩ := h2 q (hp ▸ hq) L hL e he
  obtain ⟨b1, b2⟩ := h1 q hq L hL e a1
  refine ⟨b1, ?_⟩
  rcases a2 with a2 | a2
  · rcases b2 with b2 | b2
    · exact Or.inl (a2.trans b2)
    · right
      rw [a2]
      exact b2
  · exact Or.inr a2

theorem pv_sub_refl (s : kstate) : pv_sub s s := fun _ _ he => he

theorem pv_sub_trans (s s1 s2 : kstate) (h1 : pv_sub s s1) (h2 : pv_sub s1 s2) : pv_sub s s2 :=
  fun f e he => h1 f e (h2 f e he)

theorem shrink_of_eqv (s s1 : kstate) (h : eqv s s1) : shrink s s1 :=
  ⟨h.2.2.2.2.2.1.1, fun q => same_struct_root s s1 h.2.2.2.2.2.1 q, fun t i => Or.inl (by rw [h.1])⟩

theorem keeps_refl (s : kstate) (p : Nat) (X : Nat → Prop) : keeps s s p X :=
  ⟨fun _ _ _ _ ht _ => ⟨ht, rfl⟩, rfl, fun _ _ _ _ _ _ _ _ _ => rfl⟩

theorem keeps_trans (s s1 s2 : kstate) (p : Nat) (X : Nat → Prop) (h1 : keeps s s1 p X)
    (h2 : keeps s1 s2 p X) : keeps s s2 p X := by
  refine ⟨?_, h2.2.1.trans h1.2.1, ?_⟩
  · intro va t hva hx ht hv
    obtain ⟨a1, a2⟩ := h1.1 va t hva hx ht hv
    obtain ⟨b1, b2⟩ := h2.1 va t hva hx a1 (by rw [a2]; exact hv)
    exact ⟨b1, b2.trans a2⟩
  · intro va L x hv1 hv2 hL1 hL4 hx j
    have e : ptab s1.mem (root s1 0) va L = ptab s.mem (root s 0) va L := by
      rw [h1.2.1]
      exact ptab_congr s.mem s1.mem (root s 0) va L hL1 hL4
        (fun k t hk1 hk2 ht => h1.2.2 va k t hv1 hv2 (by omega) hk2 ht _)
    rw [h2.2.2 va L x hv1 hv2 hL1 hL4 (e.trans hx) j]
    exact h1.2.2 va L x hv1 hv2 hL1 hL4 hx j

theorem keeps_mono (s s1 : kstate) (p : Nat) (X Y : Nat → Prop) (h : keeps s s1 p X)
    (hxy : ∀ va, X va → Y va) : keeps s s1 p Y :=
  ⟨fun va t hva hy ht hv => h.1 va t hva (fun hx => hy (hxy va hx)) ht hv, h.2⟩

theorem keeps_of_mem (s s1 : kstate) (p : Nat) (X : Nat → Prop) (hm : s1.mem = s.mem)
    (hr : ∀ q, root s1 q = root s q) : keeps s s1 p X := by
  refine ⟨?_, hr 0, ?_⟩
  · intro va t _ _ ht _
    rw [hm, hr p]
    exact ⟨ht, rfl⟩
  · intro va L x _ _ _ _ _ j
    rw [hm]

theorem slot_page (a va : Nat) (ha : a % 4096 = 0) (h1 : a ≤ va) (h2 : va < a + 4096) :
    slot va 1 = slot a 1 := by
  simp only [slot, pfx]
  omega

/-! ## pmap_remove_pte, pmap_remove_ptes -/

/-- The consequences of `zap_spec` the loops use. -/
theorem zap_user (c : config) (s : kstate) (hI : Inv c s) (p va t : Nat) (fp : List pv_entry)
    (hp : p ∈ s.pmaps) (hva : va < 0x7f8000000000) (ha : va % 4096 = 0) (hmp : mapped s p)
    (ht : ptab s.mem (root s p) va 1 = some t)
    (hv : pmap_valid_entry (s.mem t (slot va 1)) = true) :
    ∃ s1 fp1, pmap_zap_pte c s p (some t) va fp = some (s1, fp1) ∧
      Inv c s1 ∧ same_struct s s1 ∧ s1.cr3 = s.cr3 ∧ shrink s s1 ∧ pv_sub s s1 ∧
      (∀ t1, t1 ≠ t → s1.wire_count t1 = s.wire_count t1) ∧
      (∀ t1 i, t1 ≠ t → s1.mem t1 i = s.mem t1 i) ∧
      s1.mem t (slot va 1) = 0 ∧ s1.wire_count t + 1 = s.wire_count t ∧
      (∀ p1 va1 L, dom s p1 va1 → 1 ≤ L → L ≤ 4 →
        ptab s1.mem (root s1 p1) va1 L = ptab s.mem (root s p1) va1 L) ∧
      (∀ i, i ≠ slot va 1 → s1.mem t i = s.mem t i) := by
  have hp0 : p ≠ 0 := fun e => hI.tree.kern_notin (e ▸ hp)
  have hd := dom_user s p va hp hva
  obtain ⟨s1, fp1, e, hI1, hss, hcr, hm, hw, hwt, hch, _⟩ :=
    zap_spec c s hI p va t fp hd ha hmp ht hv
  rw [if_neg hp0] at e
  refine ⟨s1, fp1, e, hI1, hss, hcr, ⟨hss.1, same_struct_root s s1 hss, ?_⟩, ?_, hw, ?_, ?_,
    hwt hp, ?_, ?_⟩
  · intro t1 i
    rw [hm]
    by_cases h : t1 = t ∧ i = slot va 1
    · right
      rw [h.1, h.2, mem_set_same]
    · left
      exact mem_set_other _ _ _ _ _ _ h
  · intro f e he
    exact ((hch f e).1 he).1
  · intro t1 i h1
    rw [hm]
    exact mem_set_other _ _ _ _ _ _ (fun h => h1 h.1)
  · rw [hm, mem_set_same]
  · intro p1 va1 L hd1 h1 h4
    exact leaf_ptab c s s1 hI.tree hss p va t 0 hd ht hm p1 va1 L hd1 h1 h4
  · intro i hi
    rw [hm]
    exact mem_set_other _ _ _ _ _ _ (fun h => hi h.2)

theorem remove_pte_spec (c : config) (s : kstate) (hI : Inv c s) (p va t flags : Nat)
    (fp : List pv_entry) (hfl : flags &&& PMAP_REMOVE_SKIPWIRED = 0)
    (hp : p ∈ s.pmaps) (hva : va < 0x7f8000000000) (ha : va % 4096 = 0) (hmp : mapped s p)
    (ht : ptab s.mem (root s p) va 1 = some t) :
    ∃ b s1 fp1, pmap_remove_pte c s p (some t) va flags fp = some (b, s1, fp1) ∧
      Inv c s1 ∧ same_struct s s1 ∧ s1.cr3 = s.cr3 ∧ shrink s s1 ∧ pv_sub s s1 ∧
      (∀ t1, t1 ≠ t → s1.wire_count t1 = s.wire_count t1) ∧
      (∀ t1 i, t1 ≠ t → s1.mem t1 i = s.mem t1 i) ∧
      pmap_valid_entry (s1.mem t (slot va 1)) = false ∧
      (b = false → s1.wire_count t = s.wire_count t) ∧
      (∀ p1 va1 L, dom s p1 va1 → 1 ≤ L → L ≤ 4 →
        ptab s1.mem (root s1 p1) va1 L = ptab s.mem (root s p1) va1 L) ∧
      (∀ i, i ≠ slot va 1 → s1.mem t i = s.mem t i) := by
  have hd := dom_user s p va hp hva
  simp only [pmap_remove_pte, pde_read_leaf c s hI.tree p va t 1 hd hmp (by omega) (by omega) ht]
  by_cases hv : pmap_valid_entry (s.mem t (slot va 1)) = true
  · have hsk : ¬ (flags &&& PMAP_REMOVE_SKIPWIRED ≠ 0 ∧ s.mem t (slot va 1) &&& PG_W ≠ 0) :=
      fun h => h.1 hfl
    obtain ⟨s1, fp1, e, hI1, hss, hcr, hsh, hpv, hw, hm, hz, _, hpt, hot⟩ :=
      zap_user c s hI p va t fp hp hva ha hmp ht hv
    simp only [hv, not_true_eq_false, if_false, hsk, e]
    refine ⟨true, s1, fp1, rfl, hI1, hss, hcr, hsh, hpv, hw, hm, ?_, ?_, hpt, hot⟩
    · rw [hz]
      rfl
    · intro h
      cases h
  · simp only [hv, not_false_eq_true, if_true]
    refine ⟨false, s, fp, rfl, hI, same_struct_refl s, rfl, shrink_refl s, pv_sub_refl s,
      fun _ _ => rfl, fun _ _ _ => rfl, ?_, fun _ => rfl, fun _ _ _ _ _ _ => rfl,
      fun _ _ => rfl⟩
    simpa using hv

theorem remove_ptes_loop_spec (c : config) (p t endva flags : Nat)
    (hfl : flags &&& PMAP_REMOVE_SKIPWIRED = 0) (he : endva ≤ 0x7f8000000000) :
    ∀ n s fp startva, Inv c s → p ∈ s.pmaps → startva % 4096 = 0 → mapped s p →
      (∀ va, startva ≤ va → va < endva → ptab s.mem (root s p) va 1 = some t) →
      endva ≤ startva + n * 4096 →
      ∃ s1 fp1,
        pmap_remove_ptes_loop c p (some t) endva flags n startva s fp = some (s1, fp1) ∧
        Inv c s1 ∧ same_struct s s1 ∧ s1.cr3 = s.cr3 ∧ shrink s s1 ∧ pv_sub s s1 ∧
        (∀ t1, t1 ≠ t → s1.wire_count t1 = s.wire_count t1) ∧
        (∀ t1 i, t1 ≠ t → s1.mem t1 i = s.mem t1 i) ∧
        (∀ va, startva ≤ va → va < endva → pmap_valid_entry (s1.mem t (slot va 1)) = false) ∧
        (∀ p1 va1 L, dom s p1 va1 → 1 ≤ L → L ≤ 4 →
          ptab s1.mem (root s1 p1) va1 L = ptab s.mem (root s p1) va1 L) ∧
        (∀ i, (∀ va, startva ≤ va → va < endva → i ≠ slot va 1) →
          s1.mem t i = s.mem t i) := by
  intro n
  induction n with
  | zero =>
    intro s fp startva hI hp ha hmp hb hn
    refine ⟨s, fp, rfl, hI, same_struct_refl s, rfl, shrink_refl s, pv_sub_refl s,
      fun _ _ => rfl, fun _ _ _ => rfl, ?_, fun _ _ _ _ _ _ => rfl, fun _ _ => rfl⟩
    intro va h1 h2
    omega
  | succ n ih =>
    intro s fp startva hI hp ha hmp hb hn
    simp only [pmap_remove_ptes_loop]
    by_cases hc : startva < endva ∧
        (some t = none ∨ ∃ q, some t = some q ∧ s.wire_count q > 1)
    · rw [if_pos hc]
      have hlt := hc.1
      have hva : startva < 0x7f8000000000 := by omega
      have hd := dom_user s p startva hp hva
      have ht := hb startva (Nat.le_refl _) hlt
      rw [pde_read_leaf c s hI.tree p startva t 1 hd hmp (by omega) (by omega) ht]
      have hstep : ∀ s0 fp0, Inv c s0 → same_struct s s0 → s0.cr3 = s.cr3 → shrink s s0 →
          pv_sub s s0 → (∀ t1, t1 ≠ t → s0.wire_count t1 = s.wire_count t1) →
          (∀ t1 i, t1 ≠ t → s0.mem t1 i = s.mem t1 i) →
          pmap_valid_entry (s0.mem t (slot startva 1)) = false →
          (∀ p1 va1 L, dom s p1 va1 → 1 ≤ L → L ≤ 4 →
            ptab s0.mem (root s0 p1) va1 L = ptab s.mem (root s p1) va1 L) →
          (∀ i, i ≠ slot startva 1 → s0.mem t i = s.mem t i) →
          ∃ s1 fp1, pmap_remove_ptes_loop c p (some t) endva flags n (startva + PAGE_SIZE)
              s0 fp0 = some (s1, fp1) ∧
            Inv c s1 ∧ same_struct s s1 ∧ s1.cr3 = s.cr3 ∧ shrink s s1 ∧ pv_sub s s1 ∧
            (∀ t1, t1 ≠ t → s1.wire_count t1 = s.wire_count t1) ∧
            (∀ t1 i, t1 ≠ t → s1.mem t1 i = s.mem t1 i) ∧
            (∀ va, startva ≤ va → va < endva →
              pmap_valid_entry (s1.mem t (slot va 1)) = false) ∧
            (∀ p1 va1 L, dom s p1 va1 → 1 ≤ L → L ≤ 4 →
              ptab s1.mem (root s1 p1) va1 L = ptab s.mem (root s p1) va1 L) ∧
            (∀ i, (∀ va, startva ≤ va → va < endva → i ≠ slot va 1) →
              s1.mem t i = s.mem t i) := by
        intro s0 fp0 hI0 hss0 hcr0 hsh0 hpv0 hw0 hm0 hz0 hpt0 hot0
        have hmp0 : mapped s0 p := by
          rcases hmp with h | h
          · left
            rw [hcr0, same_struct_root s s0 hss0]
            exact h
          · exact Or.inr h
        obtain ⟨s1, fp1, e, hI1, hss1, hcr1, hsh1, hpv1, hw1, hm1, hz1, hpt1, hot1⟩ :=
          ih s0 fp0 (startva + PAGE_SIZE) hI0 (hss0.1 ▸ hp)
            (by simp only [PAGE_SIZE]; omega) hmp0
            (by
              intro va h1 h2
              simp only [PAGE_SIZE] at h1
              rw [hpt0 p va 1 (dom_user s p va hp (by omega)) (by omega) (by omega)]
              exact hb va (by omega) h2)
            (by simp only [PAGE_SIZE]; omega)
        refine ⟨s1, fp1, e, hI1, same_struct_trans s s0 s1 hss0 hss1, hcr1.trans hcr0,
          shrink_trans s s0 s1 hsh0 hsh1, pv_sub_trans s s0 s1 hpv0 hpv1, ?_, ?_, ?_, ?_, ?_⟩
        · intro t1 h1
          rw [hw1 t1 h1, hw0 t1 h1]
        · intro t1 i h1
          rw [hm1 t1 i h1, hm0 t1 i h1]
        · intro va h1 h2
          by_cases h3 : va < startva + 4096
          · rw [slot_page startva va ha h1 h3]
            exact shrink_invalid s0 s1 hsh1 _ _ hz0
          · exact hz1 va (by simp only [PAGE_SIZE]; omega) h2
        · intro p1 va1 L hd1 h1 h4
          rw [hpt1 p1 va1 L ((same_struct_dom s s0 hss0 p1 va1).2 hd1) h1 h4]
          exact hpt0 p1 va1 L hd1 h1 h4
        · intro i hi
          rw [hot1 i (fun va h1 h2 => hi va (by simp only [PAGE_SIZE] at h1; omega) h2)]
          exact hot0 i (hi startva (Nat.le_refl _) hlt)
      by_cases hv : pmap_valid_entry (s.mem t (slot startva 1)) = true
      · have hsk : ¬ (flags &&& PMAP_REMOVE_SKIPWIRED ≠ 0 ∧
            s.mem t (slot startva 1) &&& PG_W ≠ 0) := fun h => h.1 hfl
        obtain ⟨s0, fp0, e, hI0, hss0, hcr0, hsh0, hpv0, hw0, hm0, hz0, _, hpt0, hot0⟩ :=
          zap_user c s hI p startva t fp hp hva ha hmp ht hv
        simp only [hv, not_true_eq_false, if_false, hsk, e]
        exact hstep s0 fp0 hI0 hss0 hcr0 hsh0 hpv0 hw0 hm0 (by rw [hz0]; rfl) hpt0 hot0
      · simp only [hv, not_false_eq_true, if_true]
        exact hstep s fp hI (same_struct_refl s) rfl (shrink_refl s) (pv_sub_refl s)
          (fun _ _ => rfl) (fun _ _ _ => rfl) (by simpa using hv) (fun _ _ _ _ _ _ => rfl)
          (fun _ _ => rfl)
    · rw [if_neg hc]
      refine ⟨s, fp, rfl, hI, same_struct_refl s, rfl, shrink_refl s, pv_sub_refl s,
        fun _ _ => rfl, fun _ _ _ => rfl, ?_, fun _ _ _ _ _ _ => rfl, fun _ _ => rfl⟩
      intro va h1 h2
      have hlt : startva < endva := by omega
      have ht := hb startva (Nat.le_refl _) hlt
      have hwb := wire_bound c s hI.tree hI.wire p startva t 1 hp (by omega) (by omega)
        (by omega) ht
      have h0 : vcount s.mem t = 0 := by
        by_contra hne
        apply hc
        refine ⟨hlt, Or.inr ⟨t, rfl, ?_⟩⟩
        omega
      exact vcount_zero_entry s.mem t _ (slot_lt va 1) h0

/-- A state that differs from `s` in entries of the leaf table `t` of the
pages `[a, b)` only keeps the other leaves. -/
theorem keeps_ptes (c : config) (s s1 : kstate) (hS : SInv c s) (p t a b : Nat)
    (hp : p ∈ s.pmaps) (ha : a % 4096 = 0) (hb : b % 4096 = 0) (hab : a < b)
    (hb2 : b ≤ 0x7f8000000000) (hr0 : root s1 0 = root s 0)
    (ht : ∀ va, a ≤ va → va < b → ptab s.mem (root s p) va 1 = some t)
    (hm : ∀ t1 i, t1 ≠ t → s1.mem t1 i = s.mem t1 i)
    (hpt : ∀ p1 va1 L, dom s p1 va1 → 1 ≤ L → L ≤ 4 →
      ptab s1.mem (root s1 p1) va1 L = ptab s.mem (root s p1) va1 L)
    (hot : ∀ i, (∀ va, a ≤ va → va < b → i ≠ slot va 1) → s1.mem t i = s.mem t i) :
    keeps s s1 p (fun v => a ≤ v ∧ v < b) := by
  refine ⟨?_, hr0, ?_⟩
  · intro va t1 hva hx ht1 _
    have hd := dom_user s p va hp hva
    refine ⟨(hpt p va 1 hd (by omega) (by omega)).trans ht1, ?_⟩
    by_cases e : t1 = t
    · subst e
      apply hot
      intro v h2 h3 hsl
      have hsep := hS.sep p va 1 p v 1 t1 hd (dom_user s p v hp (by omega)) (by omega)
        (by omega) (by omega) (by omega) ht1 (ht v h2 h3)
      have h4 := hsep.2.2
      simp only [slot, pfx] at hsl h4
      apply hx
      constructor <;> omega
    · exact hm t1 _ e
  · intro va L x hv1 hv2 hL1 hL4 hx j
    apply hm
    intro e
    subst e
    have hsep := hS.sep 0 va L p a 1 x (Or.inr ⟨rfl, hv1, hv2⟩) (dom_user s p a hp (by omega))
      hL1 hL4 (by omega) (by omega) hx (ht a (Nat.le_refl _) hab)
    exact hS.kern_notin (hsep.2.1 ▸ hp)

/-! ## A table is linked into the tree, or unlinked -/

theorem pfx_split (va va1 i : Nat) (hi : 1 ≤ i) :
    pfx va1 (i - 1) = pfx va (i - 1) ↔ pfx va1 i = pfx va i ∧ slot va1 i = slot va i := by
  obtain ⟨k, rfl⟩ : ∃ k, i = k + 1 := ⟨i - 1, by omega⟩
  simp only [Nat.add_sub_cancel, slot, pfx]
  omega

/-- The walks in a memory `m1` that differs from `m` by one table `f`
linked at the level-`i` entry of `va`, empty in `m`. -/
theorem ptab_graft (m m1 : Nat → Nat → Nat) (r va i t f : Nat) (hi2 : 2 ≤ i) (hi4 : i ≤ 4)
    (ht : ptab m r va i = some t)
    (hm1 : m1 t (slot va i) &&& (PG_PS ||| PG_V) = PG_V ∧ m1 t (slot va i) &&& PG_FRAME = f)
    (hf0 : ∀ j, j < 512 → m1 f j &&& (PG_PS ||| PG_V) ≠ PG_V)
    (va1 : Nat)
    (hsame : ∀ L t1, 2 ≤ L → L ≤ 4 → ptab m r va1 L = some t1 →
      ptab m1 r va1 L = some t1 → ¬ (t1 = t ∧ slot va1 L = slot va i) →
      m1 t1 (slot va1 L) = m t1 (slot va1 L))
    (hsep : ∀ L, 2 ≤ L → L ≤ 4 → ptab m r va1 L = some t → ptab m1 r va1 L = some t →
      L = i ∧ pfx va1 i = pfx va i)
    (L : Nat) (h1 : 1 ≤ L) (h4 : L ≤ 4) :
    ptab m1 r va1 L =
      if pfx va1 (i - 1) = pfx va (i - 1) ∧ L < i then (if L = i - 1 then some f else none)
      else ptab m r va1 L := by
  have P4 : ptab m1 r va1 4 =
      if pfx va1 (i - 1) = pfx va (i - 1) ∧ 4 < i then (if 4 = i - 1 then some f else none)
      else ptab m r va1 4 := by
    rw [if_neg (by omega)]
    rfl
  have step : ∀ L, 1 ≤ L → L ≤ 3 →
      (ptab m1 r va1 (L + 1) =
        if pfx va1 (i - 1) = pfx va (i - 1) ∧ L + 1 < i then
          (if L + 1 = i - 1 then some f else none)
        else ptab m r va1 (L + 1)) →
      ptab m1 r va1 L =
        if pfx va1 (i - 1) = pfx va (i - 1) ∧ L < i then (if L = i - 1 then some f else none)
        else ptab m r va1 L := by
    intro L h1 h3 hP
    rw [ptab_succ m1 r va1 L h1 h3]
    by_cases hc1 : pfx va1 (i - 1) = pfx va (i - 1) ∧ L + 1 < i
    · rw [if_pos hc1] at hP
      have hc : pfx va1 (i - 1) = pfx va (i - 1) ∧ L < i := ⟨hc1.1, by omega⟩
      rw [hP, if_pos hc, if_neg (by omega : ¬ L = i - 1)]
      by_cases hL : L + 1 = i - 1
      · rw [if_pos hL]
        simp only [pstep]
        rw [if_neg (hf0 _ (slot_lt _ _))]
      · rw [if_neg hL]
        rfl
    · rw [if_neg hc1] at hP
      -- at level `L + 1` the walks agree
      have hup : ∀ hc : pfx va1 (i - 1) = pfx va (i - 1) ∧ L < i,
          L + 1 = i ∧ ptab m r va1 (L + 1) = some t ∧ slot va1 (L + 1) = slot va i := by
        intro hc
        have hL : L + 1 = i := by
          by_contra hne
          exact hc1 ⟨hc.1, by omega⟩
        have hs := (pfx_split va va1 i (by omega)).1 hc.1
        refine ⟨hL, ?_, ?_⟩
        · rw [hL, ptab_pfx m r va va1 i (by omega) hi4 hs.1.symm]
          exact ht
        · rw [hL]
          exact hs.2
      rw [hP]
      cases ho : ptab m r va1 (L + 1) with
      | none =>
        have hn : ¬ (pfx va1 (i - 1) = pfx va (i - 1) ∧ L < i) := by
          intro hc
          rw [(hup hc).2.1] at ho
          cases ho
        rw [if_neg hn, ptab_succ m r va1 L h1 h3, ho]
        rfl
      | some t1 =>
        rw [ho] at hP
        by_cases hx : t1 = t ∧ slot va1 (L + 1) = slot va i
        · obtain ⟨hLi, hpf⟩ := hsep (L + 1) (by omega) (by omega) (hx.1 ▸ ho) (hx.1 ▸ hP)
          have hc : pfx va1 (i - 1) = pfx va (i - 1) ∧ L < i :=
            ⟨(pfx_split va va1 i (by omega)).2 ⟨hpf, hLi ▸ hx.2⟩, by omega⟩
          rw [if_pos hc, if_pos (by omega)]
          simp only [pstep]
          rw [hx.1, hx.2, if_pos hm1.1, hm1.2]
        · have hn : ¬ (pfx va1 (i - 1) = pfx va (i - 1) ∧ L < i) := by
            intro hc
            obtain ⟨_, h2, h3⟩ := hup hc
            rw [h2] at ho
            exact hx ⟨(Option.some.inj ho).symm, h3⟩
          rw [if_neg hn, ptab_succ m r va1 L h1 h3, ho]
          simp only [pstep]
          rw [hsame (L + 1) t1 (by omega) (by omega) ho hP hx]
  have P3 := step 3 (by omega) (by omega) P4
  have P2 := step 2 (by omega) (by omega) P3
  have P1 := step 1 (by omega) (by omega) P2
  have : L = 1 ∨ L = 2 ∨ L = 3 ∨ L = 4 := by omega
  rcases this with h | h | h | h <;> subst h
  · exact P1
  · exact P2
  · exact P3
  · exact P4

/-! ### Linking a table -/

theorem install_fresh (c : config) (s s1 : kstate) (p va i t f : Nat) (hI : SInv c s)
    (h : Install s s1 p va i t f) :
    f ∈ s.free_pages ∧ f ∉ s1.free_pages ∧ s1.free_pages.Nodup ∧
      (∀ x ∈ s1.free_pages, x ∈ s.free_pages) ∧ is_frame f := by
  have hf : f ∈ s.free_pages := by
    rw [h.free]
    exact List.mem_cons_self _ _
  have hnd := hI.free_nodup
  rw [h.free, List.nodup_cons] at hnd
  refine ⟨hf, hnd.1, hnd.2, ?_, hI.free_frame f hf⟩
  intro x hx
  rw [h.free]
  exact List.mem_cons_of_mem _ hx

theorem install_entry (c : config) (s s1 : kstate) (p va i t f : Nat) (hI : SInv c s)
    (h : Install s s1 p va i t f) (p1 va1 L x j : Nat) (hd : dom s p1 va1) (h1 : 1 ≤ L)
    (h4 : L ≤ 4) (hx : ptab s.mem (root s p1) va1 L = some x)
    (hne : ¬ (x = t ∧ j = slot va i)) : s1.mem x j = s.mem x j := by
  have hf := (install_fresh c s s1 p va i t f hI h).1
  apply h.mem_o x j _ hne
  · intro e
    exact hI.shadow p h.hp e.1 p1 va1 L hd h1 h4 (e.2 ▸ hx)
  · intro e
    exact hI.free_sep f hf p1 va1 L hd h1 h4 (e ▸ hx)

theorem install_below (s s1 : kstate) (p va i t f : Nat)
    (h : Install s s1 p va i t f) (va1 L : Nat) (hpf : pfx va1 (i - 1) = pfx va (i - 1))
    (h1 : 1 ≤ L) (hL : L < i) : ptab s.mem (root s p) va1 L = none := by
  have hi2 := h.hi2
  have hi4 := h.hi4
  have hs := (pfx_split va va1 i (by omega)).1 hpf
  have ht1 : ptab s.mem (root s p) va1 (i - 1 + 1) = some t := by
    rw [Nat.sub_add_cancel (by omega), ptab_pfx s.mem (root s p) va va1 i (by omega) hi4 hs.1.symm]
    exact h.ht
  have h0 : ptab s.mem (root s p) va1 (i - 1) = none := by
    apply ptab_child_none s.mem (root s p) va1 (i - 1) t (by omega) (by omega) ht1
    rw [Nat.sub_add_cancel (by omega), hs.2, h.he]
    decide
  have dn : ∀ k, 1 ≤ k → k ≤ 3 → ptab s.mem (root s p) va1 (k + 1) = none →
      ptab s.mem (root s p) va1 k = none :=
    fun k hk1 hk3 hn => ptab_none_below s.mem (root s p) va1 k hk1 hk3 hn
  have hi : i = 2 ∨ i = 3 ∨ i = 4 := by omega
  have hLc : L = 1 ∨ L = 2 ∨ L = 3 := by omega
  rcases hi with e | e | e <;> subst e <;> rcases hLc with e | e | e <;> subst e <;>
    first
    | omega
    | exact h0
    | exact dn _ (by omega) (by omega) h0
    | exact dn _ (by omega) (by omega) (dn _ (by omega) (by omega) h0)

theorem install_ptab (c : config) (s s1 : kstate) (p va i t f : Nat) (hI : SInv c s)
    (h : Install s s1 p va i t f) (p1 va1 L : Nat) (hd : dom s p1 va1) (h1 : 1 ≤ L)
    (h4 : L ≤ 4) :
    ptab s1.mem (root s1 p1) va1 L =
      if p1 = p ∧ pfx va1 (i - 1) = pfx va (i - 1) ∧ L < i then
        (if L = i - 1 then some f else none)
      else ptab s.mem (root s p1) va1 L := by
  have hfr := install_fresh c s s1 p va i t f hI h
  have hi2 := h.hi2
  have hr : root s1 p1 = root s p1 := (h.pm p1).1
  have hdp := dom_user s p va h.hp h.hva
  rw [hr]
  by_cases hp1 : p1 = p
  · subst hp1
    rw [ptab_graft s.mem s1.mem (root s p1) va i t f h.hi2 h.hi4 h.ht
      ⟨by rw [h.mem_t]; exact pde_psv f hfr.2.2.2.2,
        by rw [h.mem_t]; exact pde_frame f hfr.2.2.2.2⟩
      (by
        intro j _
        rw [h.mem_f]
        decide)
      va1
      (by
        intro L2 t1 a2 a4 b1 b2 hne
        exact install_entry c s s1 p1 va i t f hI h p1 va1 L2 t1 _ hd (by omega) a4 b1 hne)
      (by
        intro L2 a2 a4 b1 _
        have := hI.sep p1 va1 L2 p1 va i t hd hdp (by omega) a4 (by omega) h.hi4 b1 h.ht
        exact ⟨this.1, this.1 ▸ this.2.2⟩) L h1 h4]
    simp only [true_and]
  · have hn : ¬ (p1 = p ∧ pfx va1 (i - 1) = pfx va (i - 1) ∧ L < i) := fun e => hp1 e.1
    rw [if_neg hn]
    apply ptab_congr _ _ _ _ _ h1 h4
    intro j x hj hj4 hx
    apply install_entry c s s1 p va i t f hI h p1 va1 j x _ hd (by omega) hj4 hx
    intro e
    have := hI.sep p1 va1 j p va i x hd hdp (by omega) hj4 (by omega) h.hi4 hx (e.1 ▸ h.ht)
    exact hp1 this.2.1

/-- A table of the new state is the new table at its place, or a table of
the old state. -/
theorem install_cases (c : config) (s s1 : kstate) (p va i t f : Nat) (hI : SInv c s)
    (h : Install s s1 p va i t f) (p1 va1 L x : Nat) (hd : dom s p1 va1) (h1 : 1 ≤ L)
    (h4 : L ≤ 4) (hx : ptab s1.mem (root s1 p1) va1 L = some x) :
    (x = f ∧ p1 = p ∧ pfx va1 (i - 1) = pfx va (i - 1) ∧ L = i - 1) ∨
      (x ≠ f ∧ ptab s.mem (root s p1) va1 L = some x ∧
        ¬ (p1 = p ∧ pfx va1 (i - 1) = pfx va (i - 1) ∧ L < i)) := by
  rw [install_ptab c s s1 p va i t f hI h p1 va1 L hd h1 h4] at hx
  by_cases hc : p1 = p ∧ pfx va1 (i - 1) = pfx va (i - 1) ∧ L < i
  · rw [if_pos hc] at hx
    by_cases hL : L = i - 1
    · rw [if_pos hL] at hx
      exact Or.inl ⟨(Option.some.inj hx).symm, hc.1, hc.2.1, hL⟩
    · rw [if_neg hL] at hx
      cases hx
  · rw [if_neg hc] at hx
    refine Or.inr ⟨?_, hx, hc⟩
    intro e
    exact hI.free_sep f (install_fresh c s s1 p va i t f hI h).1 p1 va1 L hd h1 h4 (e ▸ hx)

/-- A table of the old state is a table of the new state. -/
theorem install_old (c : config) (s s1 : kstate) (p va i t f : Nat) (hI : SInv c s)
    (h : Install s s1 p va i t f) (p1 va1 L x : Nat) (hd : dom s p1 va1) (h1 : 1 ≤ L)
    (h4 : L ≤ 4) (hx : ptab s.mem (root s p1) va1 L = some x) :
    ptab s1.mem (root s1 p1) va1 L = some x := by
  rw [install_ptab c s s1 p va i t f hI h p1 va1 L hd h1 h4]
  by_cases hc : p1 = p ∧ pfx va1 (i - 1) = pfx va (i - 1) ∧ L < i
  · rw [hc.1, install_below s s1 p va i t f h va1 L hc.2.1 h1 hc.2.2] at hx
    cases hx
  · rw [if_neg hc]
    exact hx

theorem install_SInv (c : config) (s s1 : kstate) (p va i t f : Nat) (hI : SInv c s)
    (h : Install s s1 p va i t f) : SInv c s1 := by
  obtain ⟨hf, hf1, hnd, hsub, hfr⟩ := install_fresh c s s1 p va i t f hI h
  have hi2 := h.hi2
  have hi4 := h.hi4
  have hr : ∀ q, root s1 q = root s q := fun q => (h.pm q).1
  have hdom : ∀ q v, dom s1 q v ↔ dom s q v := by
    intro q v
    simp only [dom, h.pmaps]
  have hlive : ∀ q, live s1 q ↔ live s q := by
    intro q
    simp only [live, h.pmaps]
  have hdp := dom_user s p va h.hp h.hva
  have hcases := install_cases c s s1 p va i t f hI h
  have hent := install_entry c s s1 p va i t f hI h
  have hroot : ∀ q, live s q → ∀ j, 256 ≤ j → j < 512 →
      s1.mem (root s q) j = s.mem (root s q) j := by
    intro q hq j hj hj2
    obtain ⟨v, hv⟩ := live_dom s q hq
    apply hent q v 4 (root s q) j hv (by omega) (by omega) (ptab_4 _ _ _)
    intro e
    have := hI.sep q v 4 p va i (root s q) hv hdp (by omega) (by omega) (by omega) hi4
      (ptab_4 _ _ _) (e.1 ▸ h.ht)
    have h4 : i = 4 := this.1.symm
    have := pfx_user va h.hva
    rw [e.2, h4, slot4] at hj
    omega
  constructor
  · exact hI.cfg
  · rw [h.init]
    exact hI.init
  · rw [h.pmaps]
    exact hI.kern_notin
  · rw [h.pmaps]
    exact hI.pmaps_nodup
  · obtain ⟨q, hq, hc⟩ := hI.cr3_live
    exact ⟨q, (hlive q).2 hq, by rw [hr, h.cr3]; exact hc⟩
  · intro q hq
    rw [hr]
    exact hI.root_ne q ((hlive q).1 hq)
  · intro q hq
    rw [(h.pm q).2.2.2.1]
    exact hI.normal q ((hlive q).1 hq)
  · intro q hq
    rw [(h.pm q).2.2.2.2.1]
    exact hI.refs q ((hlive q).1 hq)
  · intro q hq
    rw [(h.pm q).2.1, (h.pm q).1]
    exact hI.pdir q ((hlive q).1 hq)
  · intro q hq j hj hj2
    rw [h.pmaps] at hq
    rw [hr, hr, hroot q (Or.inr hq) j hj hj2, hroot 0 (Or.inl rfl) j hj hj2]
    exact hI.kshare q hq j hj hj2
  · intro j hj hj2
    rw [h.nkptp] at hj
    rw [hr, hroot 0 (Or.inl rfl) j (by omega) (by omega)]
    exact hI.kern_slots j hj hj2
  · intro q v L q1 v1 L1 x d1 d2 a1 a2 a3 a4 b1 b2
    rw [hdom] at d1 d2
    rcases hcases q v L x d1 a1 a2 b1 with ⟨e1, e2, e3, e4⟩ | ⟨e1, e2, _⟩
    · rcases hcases q1 v1 L1 x d2 a3 a4 b2 with ⟨g1, g2, g3, g4⟩ | ⟨g1, _, _⟩
      · refine ⟨by omega, by rw [e2, g2], ?_⟩
        rw [e4, e3, g3]
      · exact absurd e1 g1
    · rcases hcases q1 v1 L1 x d2 a3 a4 b2 with ⟨g1, g2, g3, g4⟩ | ⟨g1, g2, _⟩
      · exact absurd g1 e1
      · exact hI.sep q v L q1 v1 L1 x d1 d2 a1 a2 a3 a4 e2 g2
  · intro q hq hne q1 v L d1 a1 a2 b
    rw [hdom] at d1
    rw [h.pmaps] at hq
    rw [(h.pm q).2.2.1] at hne b
    rcases hcases q1 v L _ d1 a1 a2 b with ⟨e1, _⟩ | ⟨_, e2, _⟩
    · exact hI.free_shadow f hf q hq hne e1
    · exact hI.shadow q hq hne q1 v L d1 a1 a2 e2
  · intro x hx q v L d1 a1 a2 b
    rw [hdom] at d1
    rcases hcases q v L _ d1 a1 a2 b with ⟨e1, _⟩ | ⟨_, e2, _⟩
    · exact hf1 (e1 ▸ hx)
    · exact hI.free_sep x (hsub x hx) q v L d1 a1 a2 e2
  · intro x hx q hq hne
    rw [h.pmaps] at hq
    rw [(h.pm q).2.2.1] at hne ⊢
    exact hI.free_shadow x (hsub x hx) q hq hne
  · exact hnd
  · intro x hx
    exact hI.free_frame x (hsub x hx)
  · intro x hx q v L d1 a1 a2 b
    rw [hdom] at d1
    rw [h.pdp] at hx
    rcases hcases q v L _ d1 a1 a2 b with ⟨e1, _⟩ | ⟨_, e2, _⟩
    · exact hI.pdp_free x hx (e1 ▸ hf)
    · exact hI.pdp_sep x hx q v L d1 a1 a2 e2
  · intro x hx q hq
    rw [h.pdp] at hx
    rw [h.pmaps] at hq
    rw [(h.pm q).2.2.1]
    exact hI.pdp_shadow x hx q hq
  · intro x hx
    rw [h.pdp] at hx
    exact fun e => hI.pdp_free x hx (hsub x e)
  · rw [h.pdp]
    exact hI.pdp_nodup
  · intro x hx
    rw [h.pdp] at hx
    exact hI.pdp_frame x hx
  · intro q hq
    rw [h.pool] at hq
    rw [h.pmaps]
    exact hI.pool_fresh q hq
  · rw [h.pool]
    exact hI.pool_nodup
  · -- idx
    intro q hq v L hv a1 a3
    rw [h.pmaps] at hq
    have hd := dom_user s q v hq hv
    rw [install_ptab c s s1 p va i t f hI h q v L hd a1 (by omega), h.obj]
    by_cases hc : q = p ∧ L - 1 = i - 2
    · have hL : L = i - 1 := by omega
      rw [if_pos hc, List.lookup_cons]
      by_cases hk : pfx v (i - 1) = pfx va (i - 1)
      · rw [if_pos ⟨hc.1, hk, by omega⟩, if_pos hL, hL, hk]
        simp
      · have hn : ¬ (q = p ∧ pfx v (i - 1) = pfx va (i - 1) ∧ L < i) := fun e => hk e.2.1
        have hk2 : (pfx v L * 4096 == pfx va (i - 1) * 4096) = false := by
          rw [hL]
          simp only [beq_eq_false_iff_ne, ne_eq]
          omega
        rw [if_neg hn, hk2]
        exact hI.idx q hq v L hv a1 a3
    · rw [if_neg hc]
      by_cases hn : q = p ∧ pfx v (i - 1) = pfx va (i - 1) ∧ L < i
      · rw [if_pos hn, if_neg (by omega : ¬ L = i - 1), ← hI.idx q hq v L hv a1 a3, hn.1]
        exact (install_below s s1 p va i t f h v L hn.2.1 a1 hn.2.2).symm
      · rw [if_neg hn]
        exact hI.idx q hq v L hv a1 a3
  · -- idx_keys
    intro q hq L a1 a3 e he
    rw [h.pmaps] at hq
    rw [h.obj] at he
    by_cases hc : q = p ∧ L - 1 = i - 2
    · rw [if_pos hc, List.mem_cons] at he
      rcases he with he | he
      · refine ⟨va, h.hva, ?_⟩
        rw [he]
        have hL : L = i - 1 := by omega
        rw [hL]
      · exact hI.idx_keys q hq L a1 a3 e he
    · rw [if_neg hc] at he
      exact hI.idx_keys q hq L a1 a3 e he
  · -- idx_nodup
    intro q hq L a1 a3
    rw [h.pmaps] at hq
    rw [h.obj]
    by_cases hc : q = p ∧ L - 1 = i - 2
    · rw [if_pos hc, List.map_cons, List.nodup_cons]
      refine ⟨?_, hI.idx_nodup q hq L a1 a3⟩
      intro hm
      have hL : L = i - 1 := by omega
      obtain ⟨e, he, hk⟩ := List.mem_map.1 hm
      have hlk := lookup_of_mem _ e.1 e.2 (hI.idx_nodup q hq L a1 a3) he
      rw [hk, ← hL, ← hI.idx q hq va L h.hva a1 a3, hc.1,
        install_below s s1 p va i t f h va L rfl a1 (by omega)] at hlk
      cases hlk
    · rw [if_neg hc]
      exact hI.idx_nodup q hq L a1 a3
  · -- shape
    intro q hq v L x hv a2 a4 b
    rw [h.pmaps] at hq
    have hd := dom_user s q v hq hv
    rcases hcases q v L x hd (by omega) a4 b with ⟨e1, _⟩ | ⟨_, e2, _⟩
    · left
      rw [e1, h.mem_f]
    · by_cases hx : x = t ∧ slot v L = slot va i
      · right
        rw [hx.1, hx.2, h.mem_t, pde_frame f hfr]
      · rw [hent q v L x _ hd (by omega) a4 e2 hx]
        exact hI.shape q hq v L x hv a2 a4 e2
  · -- leaf_shape
    intro q hq v x hv b
    rw [h.pmaps] at hq
    have hd := dom_user s q v hq hv
    rcases hcases q v 1 x hd (by omega) (by omega) b with ⟨e1, _⟩ | ⟨_, e2, _⟩
    · left
      rw [e1, h.mem_f]
    · have hx : ¬ (x = t ∧ slot v 1 = slot va i) := by
        intro e
        have := hI.sep q v 1 p va i x hd hdp (by omega) (by omega) (by omega) hi4 e2
          (e.1 ▸ h.ht)
        omega
      rw [hent q v 1 x _ hd (by omega) (by omega) e2 hx]
      exact hI.leaf_shape q hq v x hv e2
  · -- direct
    intro v a1 a2
    have hne : ¬ (0 = p ∧ pfx v (i - 1) = pfx va (i - 1) ∧ 1 < i) :=
      fun e => hI.kern_notin (e.1 ▸ h.hp)
    rw [install_ptab c s s1 p va i t f hI h 0 v 1 (dom_direct s v a1 a2) (by omega) (by omega),
      if_neg hne]
    exact hI.direct v a1 a2

theorem wcount_zero (m : Nat → Nat → Nat) (t : Nat) (h : ∀ i, i < 512 → m t i = 0) :
    wcount m t = 0 := by
  simp only [wcount, List.length_eq_zero, List.filter_eq_nil_iff, List.mem_range]
  intro i hi
  rw [h i hi]
  decide

/-- The leaf tables of the old state keep their entries. -/
theorem install_leaf (c : config) (s s1 : kstate) (p va i t f : Nat) (hI : SInv c s)
    (h : Install s s1 p va i t f) (q v x : Nat) (hd : dom s q v)
    (hx : ptab s.mem (root s q) v 1 = some x) (j : Nat) : s1.mem x j = s.mem x j := by
  apply install_entry c s s1 p va i t f hI h q v 1 x j hd (by omega) (by omega) hx
  intro e
  have := hI.sep q v 1 p va i x hd (dom_user s p va h.hp h.hva) (by omega) (by omega)
    (by have := h.hi2; omega) h.hi4 hx (e.1 ▸ h.ht)
  have := h.hi2
  omega

theorem install_WInv (c : config) (s s1 : kstate) (p va i t f : Nat) (hI : SInv c s)
    (hW : WInv s) (h : Install s s1 p va i t f) : WInv s1 := by
  obtain ⟨hf, hf1, hnd, hsub, hfr⟩ := install_fresh c s s1 p va i t f hI h
  have hi2 := h.hi2
  have hdp := dom_user s p va h.hp h.hva
  constructor
  intro q hq v L x hv a1 a3 b
  rw [h.pmaps] at hq
  have hd := dom_user s q v hq hv
  rcases install_cases c s s1 p va i t f hI h q v L x hd a1 (by omega) b with
    ⟨e1, _⟩ | ⟨e1, e2, _⟩
  · rw [e1, h.wire_f, vcount_zero s1.mem f (fun j _ => h.mem_f j)]
  · have hold := hW.wire q hq v L x hv a1 a3 e2
    by_cases hx : x = t
    · subst hx
      have hs := hI.sep q v L p va i x hd hdp a1 (by omega) (by omega) h.hi4 e2 h.ht
      have hc : vcount s1.mem x = vcount (mem_set s.mem x (slot va i) (f ||| PG_u ||| PG_RW ||| PG_V)) x := by
        apply vcount_congr
        intro j _
        by_cases hj : j = slot va i
        · rw [hj, mem_set_same, h.mem_t]
        · rw [mem_set_other _ _ _ _ _ _ (fun e => hj e.2)]
          exact install_entry c s s1 p va i x f hI h q v L x j hd a1 (by omega) e2
            (fun e => hj e.2)
      have hset := vcount_set s.mem x (slot va i) (f ||| PG_u ||| PG_RW ||| PG_V) (slot_lt va i)
      rw [h.he, vbit_zero, vbit_valid _ (pde_valid f hfr)] at hset
      rw [h.wire_t (by omega), hc, hold]
      omega
    · rw [h.wire_o x e1 (fun e => hx e.1), hold]
      congr 1
      symm
      apply vcount_congr
      intro j _
      exact install_entry c s s1 p va i t f hI h q v L x j hd a1 (by omega) e2
        (fun e => hx e.1)

theorem install_CInv (c : config) (s s1 : kstate) (p va i t f : Nat) (hI : SInv c s)
    (hC : CInv s) (h : Install s s1 p va i t f) : CInv s1 := by
  have hi2 := h.hi2
  have hi4 := h.hi4
  have hvc : ∀ q ∈ s.pmaps, ∀ e ∈ (s.pm q).pm_obj 0, vcount s1.mem e.2 = vcount s.mem e.2 := by
    intro q hq e he
    obtain ⟨v, hv, _, hx⟩ := idx_mem_table c s hI q 1 e hq (by omega) (by omega) he
    apply vcount_congr
    intro j _
    exact install_leaf c s s1 p va i t f hI h q v e.2 (dom_user s q v hq hv) hx j
  have hwc : ∀ q ∈ s.pmaps, ∀ e ∈ (s.pm q).pm_obj 0, wcount s1.mem e.2 = wcount s.mem e.2 := by
    intro q hq e he
    obtain ⟨v, hv, _, hx⟩ := idx_mem_table c s hI q 1 e hq (by omega) (by omega) he
    apply wcount_congr
    intro j _
    exact install_leaf c s s1 p va i t f hI h q v e.2 (dom_user s q v hq hv) hx j
  have hlc : ∀ q ∈ s.pmaps, leaf_count s1 q = leaf_count s q := by
    intro q hq
    simp only [leaf_count, h.obj]
    by_cases hc : q = p ∧ 0 = i - 2
    · rw [if_pos hc, List.map_cons, List.sum_cons, vcount_zero s1.mem f (fun j _ => h.mem_f j),
        Nat.zero_add]
      exact sum_congr_pages _ _ _ (hvc q hq)
    · rw [if_neg hc]
      exact sum_congr_pages _ _ _ (hvc q hq)
  have hwl : ∀ q ∈ s.pmaps, wired_leaf_count s1 q = wired_leaf_count s q := by
    intro q hq
    simp only [wired_leaf_count, h.obj]
    by_cases hc : q = p ∧ 0 = i - 2
    · rw [if_pos hc, List.map_cons, List.sum_cons, wcount_zero s1.mem f (fun j _ => h.mem_f j),
        Nat.zero_add]
      exact sum_congr_pages _ _ _ (hwc q hq)
    · rw [if_neg hc]
      exact sum_congr_pages _ _ _ (hwc q hq)
  have hpc : ∀ q, ptp_count s1 q = ptp_count s q + (if q = p then 1 else 0) := by
    intro q
    simp only [ptp_count, h.obj, (h.pm q).2.2.1]
    by_cases hq : q = p
    · have hi : i = 2 ∨ i = 3 ∨ i = 4 := by omega
      rcases hi with e | e | e <;> subst e <;> simp [hq] <;> omega
    · simp [hq]
  constructor
  · intro q hq
    rw [h.pmaps] at hq
    rw [h.res q, hlc q hq, hpc q, hC.resident q hq]
    split <;> push_cast <;> omega
  · intro q hq
    rw [h.pmaps] at hq
    rw [(h.pm q).2.2.2.2.2, hwl q hq]
    exact hC.wired q hq

theorem install_PInv (c : config) (s s1 : kstate) (p va i t f : Nat) (hI : SInv c s)
    (hP : PInv c s) (h : Install s s1 p va i t f) : PInv c s1 := by
  have hdom : ∀ q v, dom s1 q v ↔ dom s q v := by
    intro q v
    simp only [dom, h.pmaps]
  have hleaf := install_leaf c s s1 p va i t f hI h
  have hold := install_old c s s1 p va i t f hI h
  have hcases := install_cases c s s1 p va i t f hI h
  constructor
  · intro g e he
    rw [h.pv] at he
    obtain ⟨hd, ha, x, hx, hv, hfm, hpl, hpt⟩ := hP.pv_sound g e he
    refine ⟨(hdom _ _).2 hd, ha, x, hold _ _ 1 x hd (by omega) (by omega) hx, ?_⟩
    rw [hleaf _ _ x hd hx]
    exact ⟨hv, hfm, hpl, hpt⟩
  · intro q v x hd ha hx hv hpl
    rw [hdom] at hd
    rcases hcases q v 1 x hd (by omega) (by omega) hx with ⟨e1, _⟩ | ⟨_, e2, _⟩
    · rw [e1, h.mem_f] at hv
      exact absurd hv (by decide)
    · rw [hleaf q v x hd e2] at hv hpl ⊢
      rw [h.pv]
      exact hP.pv_complete q v x hd ha e2 hv hpl
  · intro g
    rw [h.pv]
    exact hP.pv_nodup g
  · intro q v x hd hx hv
    rw [hdom] at hd
    rcases hcases q v 1 x hd (by omega) (by omega) hx with ⟨e1, _⟩ | ⟨_, e2, _⟩
    · rw [e1, h.mem_f] at hv
      exact absurd hv (by decide)
    · rw [hleaf q v x hd e2] at hv ⊢
      exact hP.pv_managed q v x hd e2 hv

theorem install_Inv (c : config) (s s1 : kstate) (p va i t f : Nat) (hI : Inv c s)
    (h : Install s s1 p va i t f) : Inv c s1 :=
  ⟨install_SInv c s s1 p va i t f hI.tree h, install_WInv c s s1 p va i t f hI.tree hI.wire h,
    install_CInv c s s1 p va i t f hI.tree hI.count h,
    install_PInv c s s1 p va i t f hI.tree hI.pv h⟩

/-! ## pmap_get_ptp -/

theorem upd_upd {α : Type} (g : Nat → α) (k : Nat) (a b : α) :
    upd (upd g k a) k b = upd g k b := by
  funext x
  simp only [upd]
  split <;> rfl

theorem ptab_mem_zero (c : config) (s : kstate) (hI : SInv c s) (f p va L : Nat)
    (hf : f ∈ s.free_pages) (hd : dom s p va) (h1 : 1 ≤ L) (h4 : L ≤ 4) :
    ptab (mem_zero s.mem f) (root s p) va L = ptab s.mem (root s p) va L := by
  apply ptab_congr _ _ _ _ _ h1 h4
  intro j tj hj hj4 htj
  have : tj ≠ f := fun e => hI.free_sep f hf p va j hd (by omega) hj4 (e ▸ htj)
  simp [mem_zero, this]

theorem link_spec (c : config) (s : kstate) (hI : Inv c s) (p va i t f : Nat) (rest : List Nat)
    (pptp : Option Nat) (ppa : Nat)
    (hp : p ∈ s.pmaps) (hva : va < 0x7f8000000000) (hmp : mapped s p)
    (hi2 : 2 ≤ i) (hi4 : i ≤ 4) (ht : ptab s.mem (root s p) va i = some t)
    (he : s.mem t (slot va i) = 0) (hfree : s.free_pages = f :: rest)
    (hpp : ∀ q, pptp = some q → q = t) (hpa : pptp = none → ppa = PADDR_NONE) :
    ∃ s6, pmap_get_ptp_link (uvm_pagealloc s p (i - 2) (ptp_va2o va (i - 1))).2 p va i pptp ppa f
        = some s6 ∧ (uvm_pagealloc s p (i - 2) (ptp_va2o va (i - 1))).1 = some f ∧
      Install s s6 p va i t f ∧ s6.pv_pool = s.pv_pool := by
  have hS := hI.tree
  have hp0 : p ≠ 0 := fun e => hS.kern_notin (e ▸ hp)
  have hcr : s.cr3 = root s p := hmp.resolve_right hp0
  have hd := dom_user s p va hp hva
  have hf : f ∈ s.free_pages := by
    rw [hfree]
    exact List.mem_cons_self _ _
  have hfr := hS.free_frame f hf
  have htf : t ≠ f := fun e => hS.free_sep f hf p va i hd (by omega) hi4 (e ▸ ht)
  have hA1 : (uvm_pagealloc s p (i - 2) (ptp_va2o va (i - 1))).1 = some f := by
    simp only [uvm_pagealloc, hfree]
  have hkey : ptp_va2o va (i - 1) = pfx va (i - 1) * 4096 :=
    ptp_va2o_eq va (i - 1) (by omega) (by omega)
  generalize hsA : (uvm_pagealloc s p (i - 2) (ptp_va2o va (i - 1))).2 = sA
  have a1 : sA.mem = mem_zero s.mem f := by
    rw [← hsA]
    simp only [uvm_pagealloc, hfree]
  have a2 : sA.cr3 = s.cr3 := by
    rw [← hsA]
    simp only [uvm_pagealloc, hfree]
  have a3 : sA.free_pages = rest := by
    rw [← hsA]
    simp only [uvm_pagealloc, hfree]
  have a4 : sA.wire_count = upd s.wire_count f 0 := by
    rw [← hsA]
    simp only [uvm_pagealloc, hfree]
  have a5 : sA.pv_list = s.pv_list ∧ sA.pv_pool = s.pv_pool ∧ sA.pmaps = s.pmaps ∧
      sA.pdp_pool = s.pdp_pool ∧ sA.pmap_pool = s.pmap_pool ∧
      sA.pmap_initialized = s.pmap_initialized ∧ sA.nkptp = s.nkptp := by
    rw [← hsA]
    simp only [uvm_pagealloc, hfree, and_self]
  have a6 : sA.pm = upd s.pm p { s.pm p with
      pm_obj := upd (s.pm p).pm_obj (i - 2) ((pfx va (i - 1) * 4096, f) :: (s.pm p).pm_obj (i - 2)) } := by
    rw [← hsA, ← hkey]
    simp only [uvm_pagealloc, hfree]
  clear hsA
  obtain ⟨a51, a52, a53, a54, a55, a56, a57⟩ := a5
  have hs2 : ∃ s2, s2 = set_hint (set_wire (clear_busy sA f) f 1) p (i - 2) (some f) :=
    ⟨_, rfl⟩
  obtain ⟨s2, hs2⟩ := hs2
  have b1 : s2.mem = mem_zero s.mem f := by
    rw [hs2, ← a1]
    rfl
  have b2 : s2.cr3 = s.cr3 := by
    rw [hs2, ← a2]
    rfl
  have hw : pmap_get_ptp_link sA p va i pptp ppa f =
      match pde_write s2 va i (f ||| PG_u ||| PG_RW ||| PG_V) with
      | none => none
      | some s3 =>
        match pde_read s3 va i with
        | none => none
        | some e1 =>
          if i < PTP_LEVELS then
            match (match pptp with
              | none => pmap_find_ptp (add_resident (if (s3.pm p).pm_pdir_intel ≠ 0 ∧ i = 4 ∧
                  va < VM_MAXUSER_ADDRESS then set_mem s3 (s3.pm p).pm_pdir_intel (pl_i va i) e1
                  else s3) p 1) p va ppa i
              | some q => some q) with
            | none => none
            | some q => some (wire_inc (add_resident (if (s3.pm p).pm_pdir_intel ≠ 0 ∧ i = 4 ∧
                  va < VM_MAXUSER_ADDRESS then set_mem s3 (s3.pm p).pm_pdir_intel (pl_i va i) e1
                  else s3) p 1) q)
          else some (add_resident (if (s3.pm p).pm_pdir_intel ≠ 0 ∧ i = 4 ∧
                  va < VM_MAXUSER_ADDRESS then set_mem s3 (s3.pm p).pm_pdir_intel (pl_i va i) e1
                  else s3) p 1) := by
    rw [hs2]
    rfl
  have pw : pde_write s2 va i (f ||| PG_u ||| PG_RW ||| PG_V) =
      some (set_mem s2 t (slot va i) (f ||| PG_u ||| PG_RW ||| PG_V)) := by
    apply pde_write_of_ptab s2 va i t _ (by omega) hi4
    rw [b1, b2, hcr, ptab_mem_zero c s hS f p va i hf hd (by omega) hi4]
    exact ht
  have pr : pde_read (set_mem s2 t (slot va i) (f ||| PG_u ||| PG_RW ||| PG_V)) va i =
      some (f ||| PG_u ||| PG_RW ||| PG_V) := by
    rw [pde_read_of_ptab _ va i t (by omega) hi4]
    · simp only [set_mem, mem_set_same]
    · simp only [set_mem]
      rw [b1, b2, hcr, ptab_mem_set_ne _ _ _ _ _ _ _ (by omega) hi4,
        ptab_mem_zero c s hS f p va i hf hd (by omega) hi4]
      · exact ht
      · intro j tj hj hj4 htj e
        rw [ptab_mem_zero c s hS f p va j hf hd (by omega) hj4] at htj
        have := hS.sep p va j p va i tj hd hd (by omega) hj4 (by omega) hi4 htj (e.1 ▸ ht)
        omega
  rw [hw, pw]
  simp only [pr]
  have hsh : ((set_mem s2 t (slot va i) (f ||| PG_u ||| PG_RW ||| PG_V)).pm p).pm_pdir_intel =
      (s.pm p).pm_pdir_intel := by
    rw [hs2]
    simp [set_mem, set_hint, set_wire, clear_busy, a6, upd]
  rw [hsh]
  -- the fields of the three possible final states
  have fin : ∀ s6 : kstate,
      (s6 = add_resident (set_mem s2 t (slot va i) (f ||| PG_u ||| PG_RW ||| PG_V)) p 1 ∧ i = 4 ∨
       s6 = add_resident (set_mem (set_mem s2 t (slot va i) (f ||| PG_u ||| PG_RW ||| PG_V))
          (s.pm p).pm_pdir_intel (pl_i va i) (f ||| PG_u ||| PG_RW ||| PG_V)) p 1 ∧ i = 4 ∧
          (s.pm p).pm_pdir_intel ≠ 0 ∨
       s6 = wire_inc (add_resident (set_mem s2 t (slot va i) (f ||| PG_u ||| PG_RW ||| PG_V))
          p 1) t ∧ i < 4) →
      Install s s6 p va i t f ∧ s6.pv_pool = s.pv_pool := by
    intro s6 h6
    have hmemo : ∀ t1 j, t1 ≠ f → ¬ (t1 = t ∧ j = slot va i) →
        ¬ ((s.pm p).pm_pdir_intel ≠ 0 ∧ t1 = (s.pm p).pm_pdir_intel) →
        s6.mem t1 j = s.mem t1 j := by
      intro t1 j h1 h2 h3
      rcases h6 with ⟨e, _⟩ | ⟨e, _, hne⟩ | ⟨e, _⟩ <;> rw [e]
      · simp only [add_resident, set_mem, mem_set, b1, mem_zero, h1, h2, if_false]
      · have h4 : t1 ≠ (s.pm p).pm_pdir_intel := fun e1 => h3 ⟨hne, e1⟩
        simp only [add_resident, set_mem, mem_set, b1, mem_zero, h1, h2, h4, if_false,
          false_and]
      · simp only [wire_inc, add_resident, set_wire, set_mem, mem_set, b1, mem_zero, h1, h2,
          if_false]
    have hshn : (s.pm p).pm_pdir_intel ≠ 0 → (s.pm p).pm_pdir_intel ≠ t ∧
        (s.pm p).pm_pdir_intel ≠ f := by
      intro hne
      exact ⟨fun e => hS.shadow p hp hne p va i hd (by omega) hi4 (e ▸ ht),
        fun e => hS.free_shadow f hf p hp hne e⟩
    have hmemt : s6.mem t (slot va i) = f ||| PG_u ||| PG_RW ||| PG_V := by
      rcases h6 with ⟨e, _⟩ | ⟨e, _, hne⟩ | ⟨e, _⟩ <;> rw [e]
      · simp only [add_resident, set_mem, mem_set_same]
      · simp only [add_resident, set_mem]
        rw [mem_set_other _ _ _ _ _ _ (fun e1 => (hshn hne).1 e1.1.symm), mem_set_same]
      · simp only [wire_inc, add_resident, set_wire, set_mem, mem_set_same]
    have hmemf : ∀ j, s6.mem f j = 0 := by
      intro j
      rcases h6 with ⟨e, _⟩ | ⟨e, _, hne⟩ | ⟨e, _⟩ <;> rw [e]
      · simp only [add_resident, set_mem]
        rw [mem_set_other _ _ _ _ _ _ (fun e1 => htf e1.1.symm), b1]
        simp [mem_zero]
      · simp only [add_resident, set_mem]
        rw [mem_set_other _ _ _ _ _ _ (fun e1 => (hshn hne).2 e1.1.symm),
          mem_set_other _ _ _ _ _ _ (fun e1 => htf e1.1.symm), b1]
        simp [mem_zero]
      · simp only [wire_inc, add_resident, set_wire, set_mem]
        rw [mem_set_other _ _ _ _ _ _ (fun e1 => htf e1.1.symm), b1]
        simp [mem_zero]
    have hpm : s6.pm = upd s.pm p { s.pm p with
        pm_obj := upd (s.pm p).pm_obj (i - 2)
          ((pfx va (i - 1) * 4096, f) :: (s.pm p).pm_obj (i - 2))
        pm_ptphint := upd (s.pm p).pm_ptphint (i - 2) (some f)
        resident_count := (s.pm p).resident_count + 1 } := by
      rcases h6 with ⟨e, _⟩ | ⟨e, _, hne⟩ | ⟨e, _⟩ <;> rw [e, hs2] <;>
        simp [wire_inc, add_resident, set_wire, set_mem, set_hint, clear_busy, a6, upd, upd_upd]
    have hwire : s6.wire_count = if i < 4 then
        upd (upd (upd s.wire_count f 0) f 1) t ((upd (upd s.wire_count f 0) f 1 t + 1) % 2 ^ 32)
        else upd (upd s.wire_count f 0) f 1 := by
      rcases h6 with ⟨e, h4⟩ | ⟨e, h4, hne⟩ | ⟨e, h4⟩ <;> rw [e, hs2]
      · rw [if_neg (by omega)]
        simp [add_resident, set_wire, set_mem, set_hint, clear_busy, a4]
      · rw [if_neg (by omega)]
        simp [add_resident, set_wire, set_mem, set_hint, clear_busy, a4]
      · rw [if_pos h4]
        simp [wire_inc, add_resident, set_wire, set_mem, set_hint, clear_busy, a4]
    have hoth : s6.free_pages = rest ∧ s6.pmaps = s.pmaps ∧ s6.pdp_pool = s.pdp_pool ∧
        s6.pmap_pool = s.pmap_pool ∧ s6.pmap_initialized = s.pmap_initialized ∧
        s6.nkptp = s.nkptp ∧ s6.cr3 = s.cr3 ∧ s6.pv_list = s.pv_list ∧
        s6.pv_pool = s.pv_pool := by
      rcases h6 with ⟨e, _⟩ | ⟨e, _, hne⟩ | ⟨e, _⟩ <;> rw [e, hs2] <;>
        simp [wire_inc, add_resident, set_wire, set_mem, set_hint, clear_busy, a2, a3, a51,
          a52, a53, a54, a55, a56, a57]
    obtain ⟨o1, o2, o3, o4, o5, o6, o7, o8, o9⟩ := hoth
    refine ⟨?_, o9⟩
    have hwb := wire_bound c s hS hI.wire p va t i hp hva (by omega)
    constructor
    · exact hp
    · exact hva
    · exact hi2
    · exact hi4
    · exact ht
    · exact he
    · rw [o1]
      exact hfree
    · exact o2
    · exact o3
    · exact o4
    · exact o5
    · exact o6
    · exact o7
    · exact o8
    · intro q
      rw [hpm]
      by_cases hq : q = p
      · subst hq
        simp [upd]
      · simp [upd, hq]
    · intro q L
      rw [hpm]
      by_cases hq : q = p
      · subst hq
        by_cases hL : L = i - 2
        · simp [upd, hL]
        · simp [upd, hL]
      · simp [upd, hq]
    · intro q
      rw [hpm]
      by_cases hq : q = p
      · subst hq
        simp [upd]
      · simp [upd, hq]
    · rw [hwire]
      split
      · simp [upd, htf.symm]
      · simp [upd]
    · intro h4
      rw [hwire, if_pos h4]
      have := hwb (by omega) ht
      simp only [upd, if_true, htf, if_false]
      rw [inc32 _ (by omega)]
    · intro t1 h1 h2
      rw [hwire]
      split
      · rename_i h4
        have : t1 ≠ t := fun e => h2 ⟨e, h4⟩
        simp [upd, this, h1]
      · simp [upd, h1]
    · exact hmemt
    · exact hmemf
    · exact hmemo
  by_cases h4 : i < 4
  · have hc : ¬ ((s.pm p).pm_pdir_intel ≠ 0 ∧ i = 4 ∧ va < VM_MAXUSER_ADDRESS) := by
      intro e
      omega
    have hlt : i < PTP_LEVELS := h4
    simp only [hc, if_false, hlt, if_true]
    clear hw
    cases pptp with
    | some q =>
      simp only []
      rw [hpp q rfl]
      exact ⟨_, rfl, hA1, fin _ (Or.inr (Or.inr ⟨rfl, h4⟩))⟩
    | none =>
      have hobj : ((add_resident (set_mem s2 t (slot va i)
          (f ||| PG_u ||| PG_RW ||| PG_V)) p 1).pm p).pm_obj (i - 1) =
          (s.pm p).pm_obj (i - 1) := by
        rw [hs2]
        have : i - 1 ≠ i - 2 := by omega
        simp [add_resident, set_mem, set_hint, set_wire, clear_busy, a6, upd, this]
      have hfind : pmap_find_ptp (add_resident (set_mem s2 t (slot va i)
          (f ||| PG_u ||| PG_RW ||| PG_V)) p 1) p va ppa i = some t := by
        simp only [pmap_find_ptp, hpa rfl, ne_eq, not_true_eq_false, false_and, if_false,
          uvm_pagelookup]
        rw [hobj, ptp_va2o_eq va i (by omega) (by omega),
          ← hS.idx p hp va i hva (by omega) (by omega)]
        exact ht
      simp only [hfind]
      exact ⟨_, rfl, hA1, fin _ (Or.inr (Or.inr ⟨rfl, h4⟩))⟩
  · have hi : i = 4 := by omega
    have hlt : ¬ i < PTP_LEVELS := h4
    simp only [hlt, if_false]
    by_cases hc : (s.pm p).pm_pdir_intel ≠ 0 ∧ i = 4 ∧ va < VM_MAXUSER_ADDRESS
    · rw [if_pos hc]
      exact ⟨_, rfl, hA1, fin _ (Or.inr (Or.inl ⟨rfl, hi, hc.1⟩))⟩
    · rw [if_neg hc]
      exact ⟨_, rfl, hA1, fin _ (Or.inl ⟨rfl, hi⟩)⟩

/-- The invariant does not look at the hints, the page flags and the pv pool. -/
theorem Inv_same (c : config) (s s1 : kstate) (h : Inv c s) (hs : same_struct s s1)
    (hm : s1.mem = s.mem) (hw : s1.wire_count = s.wire_count) (hv : s1.pv_list = s.pv_list)
    (hc : ∀ q, (s1.pm q).resident_count = (s.pm q).resident_count ∧
      (s1.pm q).wired_count = (s.pm q).wired_count)
    (hcr3 : s1.cr3 = s.cr3) : Inv c s1 := by
  have hl : ∃ p, live s p ∧ s1.cr3 = root s p := by
    rw [hcr3]
    exact h.tree.cr3_live
  exact ⟨SInv_congr c s s1 h.tree hs hm hl, WInv_congr s s1 h.wire hs hm hw,
    CInv_congr s s1 h.count hs hm hc, PInv_congr c s s1 h.pv hs hm hv⟩

/-! ## The relation `grow` -/

theorem grow_refl (s : kstate) : grow s s :=
  ⟨rfl, rfl, rfl, rfl, fun _ => ⟨rfl, rfl, rfl⟩, ⟨[], rfl⟩, fun _ _ _ _ _ _ _ h => h,
    fun _ _ _ _ _ _ => rfl, fun _ _ _ _ h1 h2 => by rw [h1] at h2; cases h2⟩

theorem grow_dom (s s1 : kstate) (h : grow s s1) (q v : Nat) : dom s1 q v ↔ dom s q v := by
  simp only [dom, h.pmaps]

theorem grow_trans (s s1 s2 : kstate) (h1 : grow s s1) (h2 : grow s1 s2) : grow s s2 := by
  have hd := grow_dom s s1 h1
  constructor
  · exact h2.cr3.trans h1.cr3
  · exact h2.pmaps.trans h1.pmaps
  · exact h2.pv.trans h1.pv
  · exact h2.pool.trans h1.pool
  · intro q
    exact ⟨(h2.pm q).1.trans (h1.pm q).1, (h2.pm q).2.1.trans (h1.pm q).2.1,
      (h2.pm q).2.2.trans (h1.pm q).2.2⟩
  · obtain ⟨l1, e1⟩ := h1.free
    obtain ⟨l2, e2⟩ := h2.free
    exact ⟨l1 ++ l2, by rw [e1, e2, List.append_assoc]⟩
  · intro q v L x d a1 a4 hx
    exact h2.old q v L x ((hd q v).2 d) a1 a4 (h1.old q v L x d a1 a4 hx)
  · intro q v x d hx j
    rw [h2.leaf q v x ((hd q v).2 d) (h1.old q v 1 x d (by omega) (by omega) hx) j]
    exact h1.leaf q v x d hx j
  · intro q v x d hx hn j
    cases hy : ptab s1.mem (root s1 q) v 1 with
    | none => exact h2.fresh q v x ((hd q v).2 d) hx hy j
    | some y =>
      have := h2.old q v 1 y ((hd q v).2 d) (by omega) (by omega) hy
      rw [hx] at this
      cases this
      rw [h2.leaf q v x ((hd q v).2 d) hy j]
      exact h1.fresh q v x d hy hn j

theorem install_grow (c : config) (s s1 : kstate) (p va i t f : Nat) (hI : SInv c s)
    (h : Install s s1 p va i t f) (hpool : s1.pv_pool = s.pv_pool) : grow s s1 := by
  constructor
  · exact h.cr3
  · exact h.pmaps
  · exact h.pv
  · exact hpool
  · intro q
    exact ⟨(h.pm q).1, (h.pm q).2.2.2.1, (h.pm q).2.2.2.2.2⟩
  · exact ⟨[f], by rw [h.free]; rfl⟩
  · exact install_old c s s1 p va i t f hI h
  · exact install_leaf c s s1 p va i t f hI h
  · intro q v x d hx hn j
    rcases install_cases c s s1 p va i t f hI h q v 1 x d (by omega) (by omega) hx with
      ⟨e, _⟩ | ⟨_, e, _⟩
    · rw [e]
      exact h.mem_f j
    · rw [e] at hn
      cases hn

/-! ## The number of pages to allocate -/

theorem need_at (s : kstate) (p va i t : Nat) (hi2 : 2 ≤ i) (hi4 : i ≤ 4)
    (ht : ptab s.mem (root s p) va i = some t)
    (hn : ptab s.mem (root s p) va (i - 1) = none) : need s p va = i - 1 := by
  have hi : i = 2 ∨ i = 3 ∨ i = 4 := by omega
  rcases hi with e | e | e <;> subst e
  · obtain ⟨t3, h3, _, _⟩ := ptab_parent _ _ _ 2 t (by omega) (by omega) ht
    simp only [need, h3, ht]
    simp [hn]
  · simp only [need, ht]
    simp [hn]
  · simp only [need]
    simp [hn]

theorem need_leaf (s : kstate) (p va t : Nat) (ht : ptab s.mem (root s p) va 1 = some t) :
    need s p va = 0 := by
  obtain ⟨t2, h2, _, _⟩ := ptab_parent _ _ _ 1 t (by omega) (by omega) ht
  obtain ⟨t3, h3, _, _⟩ := ptab_parent _ _ _ 2 t2 (by omega) (by omega) h2
  simp [need, h3, h2, ht]

theorem need_pos (s : kstate) (p va : Nat) (hn : ptab s.mem (root s p) va 1 = none) :
    0 < need s p va := by
  simp only [need, hn]
  split
  · omega
  · split <;> simp

theorem ptab_none_down (m : Nat → Nat → Nat) (r va L L1 : Nat) (h1 : 1 ≤ L) (hL : L ≤ L1)
    (h4 : L1 ≤ 4) (h : ptab m r va L1 = none) : ptab m r va L = none := by
  have dn : ∀ k, 1 ≤ k → k ≤ 3 → ptab m r va (k + 1) = none → ptab m r va k = none :=
    fun k hk1 hk3 hn => ptab_none_below m r va k hk1 hk3 hn
  have a : L1 = 1 ∨ L1 = 2 ∨ L1 = 3 ∨ L1 = 4 := by omega
  have b : L = 1 ∨ L = 2 ∨ L = 3 ∨ L = 4 := by omega
  rcases a with e | e | e | e <;> subst e <;> rcases b with e | e | e | e <;> subst e <;>
    first
    | omega
    | exact h
    | exact dn _ (by omega) (by omega) h
    | exact dn _ (by omega) (by omega) (dn _ (by omega) (by omega) h)
    | exact dn _ (by omega) (by omega) (dn _ (by omega) (by omega)
        (dn _ (by omega) (by omega) h))

/-! ## The loop of pmap_get_ptp -/

theorem get_ptp_loop_spec (c : config) (p va : Nat) (hva : va < 0x7f8000000000) :
    ∀ n, n ≤ 3 → ∀ s ptp pa ppa t, Inv c s → p ∈ s.pmaps → mapped s p →
      ptab s.mem (root s p) va (n + 1) = some t →
      (∀ q, ptp = some q → q = t ∧ ∀ j, s.mem t j = 0) →
      (ptp = none → pa = PADDR_NONE) →
      (ptp = none → n + 1 < 4 → ppa = t) →
      ∃ r s1, pmap_get_ptp_loop p va n ptp pa ppa s = some (r, s1) ∧ Inv c s1 ∧ grow s s1 ∧
        (r ≠ none → (s1.pm p).resident_count = (s.pm p).resident_count + (need s p va : Int) ∧
          ptp_count s1 p = ptp_count s p + need s p va) ∧
        (r = none ↔ s.free_pages.length < need s p va) ∧
        (r = none → ptab s1.mem (root s1 p) va 1 = none) ∧
        (∀ ptp1 ppa1, r = some (ptp1, ppa1) → ∃ t1, ptab s1.mem (root s1 p) va 1 = some t1 ∧
          (∀ q, ptp1 = some q → q = t1) ∧ (ptp1 = none → ppa1 = t1)) := by
  intro n
  induction n with
  | zero =>
    intro _ s ptp pa ppa t hI hp hmp ht hpp hpa hppa
    refine ⟨some (ptp, ppa), s, rfl, hI, grow_refl s, ?_, ?_, ?_, ?_⟩
    · intro _
      rw [need_leaf s p va t ht]
      simp
    · rw [need_leaf s p va t ht]
      simp
    · intro e
      cases e
    · intro ptp1 ppa1 e
      cases e
      exact ⟨t, ht, fun q hq => (hpp q hq).1, fun e => hppa e (by omega)⟩
  | succ n ih =>
    intro hn s ptp pa ppa t hI hp hmp ht hpp hpa hppa
    have hS := hI.tree
    have hp0 : p ≠ 0 := fun e => hS.kern_notin (e ▸ hp)
    have hcr : s.cr3 = root s p := hmp.resolve_right hp0
    have ht2 : ptab s.mem (root s p) va (n + 2) = some t := ht
    have hsh := hS.shape p hp va (n + 2) t hva (by omega) (by omega) ht2
    simp only [pmap_get_ptp_loop]
    rw [pde_read_of_ptab s va (n + 2) t (by omega) (by omega) (hcr ▸ ht2)]
    simp only []
    by_cases hv : pmap_valid_entry (s.mem t (slot va (n + 2))) = true
    · rw [if_pos hv]
      have hch := ptab_child s.mem (root s p) va (n + 1) t (by omega) (by omega) ht
        (shape_psv _ hsh hv)
      apply ih (by omega) s none pa _ _ hI hp hmp hch
      · intro q hq
        cases hq
      · intro _
        cases hptp : ptp with
        | none => exact hpa hptp
        | some q =>
          have := (hpp q hptp).2 (slot va (n + 2))
          rw [this] at hv
          exact absurd hv (by decide)
      · intro _ _
        rfl
    · rw [if_neg hv]
      have he : s.mem t (slot va (n + 2)) = 0 := by
        rcases hsh with h | h
        · exact h
        · rw [h] at hv
          exact absurd (pde_valid _ (and_frame_frame _)) hv
      have hnone : ptab s.mem (root s p) va (n + 1) = none := by
        apply ptab_child_none s.mem (root s p) va (n + 1) t (by omega) (by omega) ht
        rw [he]
        decide
      have hneed : need s p va = n + 1 :=
        need_at s p va (n + 2) t (by omega) (by omega) ht2 hnone
      cases hfree : s.free_pages with
      | nil =>
        have hA : uvm_pagealloc s p (n + 2 - 2) (ptp_va2o va (n + 2 - 1)) = (none, s) := by
          simp only [uvm_pagealloc, hfree]
        rw [hA]
        refine ⟨none, s, rfl, hI, grow_refl s, fun h => absurd rfl h, ?_, ?_, ?_⟩
        · rw [hneed]
          simp
        · intro _
          exact ptab_none_down s.mem (root s p) va 1 (n + 1) (by omega) (by omega) (by omega)
            hnone
        · intro ptp1 ppa1 e
          cases e
      | cons f rest =>
        obtain ⟨s6, e6, eA, hIn, hpool⟩ := link_spec c s hI p va (n + 2) t f rest ptp pa hp hva
          hmp (by omega) (by omega) ht2 he hfree (fun q hq => (hpp q hq).1) hpa
        have hA : uvm_pagealloc s p (n + 2 - 2) (ptp_va2o va (n + 2 - 1)) =
            (some f, (uvm_pagealloc s p (n + 2 - 2) (ptp_va2o va (n + 2 - 1))).2) := by
          rw [← eA]
        rw [hA]
        simp only [e6]
        have hI6 := install_Inv c s s6 p va (n + 2) t f hI hIn
        have hg6 := install_grow c s s6 p va (n + 2) t f hS hIn hpool
        have hd := dom_user s p va hp hva
        have ht6 : ptab s6.mem (root s6 p) va (n + 1) = some f := by
          rw [install_ptab c s s6 p va (n + 2) t f hS hIn p va (n + 1) hd (by omega) (by omega),
            if_pos ⟨rfl, rfl, by omega⟩, if_pos (by omega)]
        have hmp6 : mapped s6 p := by
          left
          rw [hIn.cr3, hcr]
          exact ((hIn.pm p).1).symm
        obtain ⟨r, s1, e1, hI1, hg1, hrs, hr1, hr2, hr3⟩ := ih (by omega) s6 (some f) f pa f hI6
          (hIn.pmaps ▸ hp) hmp6 ht6
          (by
            intro q hq
            cases hq
            exact ⟨rfl, hIn.mem_f⟩)
          (by
            intro e
            cases e)
          (by
            intro e
            cases e)
        have hn6 : need s6 p va = n := by
          by_cases h0 : n = 0
          · subst h0
            exact need_leaf s6 p va f ht6
          · have := need_at s6 p va (n + 1) f (by omega) (by omega) ht6 (by
              apply ptab_child_none s6.mem (root s6 p) va (n + 1 - 1) f (by omega) (by omega)
              · rw [Nat.sub_add_cancel (by omega)]
                exact ht6
              · rw [hIn.mem_f]
                decide)
            rw [this]
            omega
        refine ⟨r, s1, e1, hI1, grow_trans s s6 s1 hg6 hg1, ?_, ?_, ?_, ?_⟩
        · intro hr
          rw [(hrs hr).1, (hrs hr).2, hIn.res p, if_pos rfl, hneed, hn6]
          refine ⟨by push_cast; omega, ?_⟩
          have hi : n + 2 - 2 = 0 ∨ n + 2 - 2 = 1 ∨ n + 2 - 2 = 2 := by omega
          simp only [ptp_count, hIn.obj p, (hIn.pm p).2.2.1]
          rcases hi with e | e | e <;> rw [e] <;> simp <;> omega
        · have hrest : rest = s6.free_pages := by
            have := hIn.free
            rw [hfree] at this
            exact (List.cons.inj this).2
          rw [hr1, hneed, hrest, List.length_cons, hn6]
          omega
        · exact hr2
        · intro ptp1 ppa1 e
          exact hr3 ptp1 ppa1 e

/-! ## pmap_get_ptp -/

theorem Inv_set_hint (c : config) (s : kstate) (hI : Inv c s) (p l : Nat) (x : Option Nat) :
    Inv c (set_hint s p l x) := by
  apply Inv_same c s _ hI (ss_set_hint s s p l x (same_struct_refl s)) rfl rfl rfl _ rfl
  intro q
  by_cases hq : q = p
  · subst hq
    simp [set_hint, upd]
  · simp [set_hint, upd, hq]

theorem grow_set_hint (s : kstate) (p l : Nat) (x : Option Nat) : grow s (set_hint s p l x) := by
  have hpm : ∀ q, ((set_hint s p l x).pm q).pm_pdirpa = (s.pm q).pm_pdirpa ∧
      ((set_hint s p l x).pm q).pm_type = (s.pm q).pm_type ∧
      ((set_hint s p l x).pm q).wired_count = (s.pm q).wired_count := by
    intro q
    by_cases hq : q = p
    · subst hq
      simp [set_hint, upd]
    · simp [set_hint, upd, hq]
  have hr : ∀ q, root (set_hint s p l x) q = root s q := fun q => (hpm q).1
  refine ⟨rfl, rfl, rfl, rfl, hpm, ⟨[], rfl⟩, ?_, fun _ _ _ _ _ _ => rfl, ?_⟩
  · intro q v L y _ _ _ hy
    rw [hr]
    exact hy
  · intro q v y _ hy hn j
    rw [hr] at hy
    rw [show (set_hint s p l x).mem = s.mem from rfl, hn] at hy
    cases hy

theorem get_ptp_spec (c : config) (s : kstate) (hI : Inv c s) (p va : Nat)
    (hp : p ∈ s.pmaps) (hva : va < 0x7f8000000000) (hmp : mapped s p) :
    ∃ r s1, pmap_get_ptp c s p va = some (r, s1) ∧ Inv c s1 ∧ grow s s1 ∧
      (r ≠ none → (s1.pm p).resident_count = (s.pm p).resident_count + (need s p va : Int) ∧
        ptp_count s1 p = ptp_count s p + need s p va) ∧
      (r = none ↔ s.free_pages.length < need s p va) ∧
      (r = none → ptab s1.mem (root s1 p) va 1 = none) ∧
      (∀ t1, r = some t1 → ptab s1.mem (root s1 p) va 1 = some t1) := by
  obtain ⟨r, s1, e, hI1, hg, hrs, hr1, hr2, hr3⟩ := get_ptp_loop_spec c p va hva 3 (by omega) s none
    PADDR_NONE PADDR_NONE (root s p) hI hp hmp (ptab_4 _ _ _)
    (by
      intro q hq
      cases hq)
    (fun _ => rfl)
    (by
      intro _ h
      omega)
  have e1 : pmap_get_ptp_loop p va (PTP_LEVELS - 1) none PADDR_NONE PADDR_NONE s =
      some (r, s1) := e
  simp only [pmap_get_ptp, e1]
  cases r with
  | none =>
    refine ⟨none, s1, rfl, hI1, hg, fun h => absurd rfl h, ?_, fun _ => hr2 rfl,
      fun t1 h => by cases h⟩
    simpa using hr1
  | some x =>
    obtain ⟨ptp1, ppa1⟩ := x
    obtain ⟨t1, ht1, hq1, hq2⟩ := hr3 ptp1 ppa1 rfl
    have hp1 : p ∈ s1.pmaps := hg.pmaps ▸ hp
    have hfind : pmap_find_ptp s1 p va t1 1 = some t1 := by
      simp only [pmap_find_ptp, uvm_pagelookup]
      split
      · rename_i hc
        rw [← hc.2.2]
      · rw [ptp_va2o_eq va 1 (by omega) (by omega),
          ← hI1.tree.idx p hp1 va 1 hva (by omega) (by omega)]
        exact ht1
    have hne : ¬ (c.DIAGNOSTIC = true ∧ some t1 = none) := fun h => by cases h.2
    have hfin : ∃ r s2, (if c.DIAGNOSTIC = true ∧ some t1 = none then none
          else some (some t1, set_hint s1 p 0 (some t1))) = some (r, s2) ∧ Inv c s2 ∧
        grow s s2 ∧
        (r ≠ none → (s2.pm p).resident_count = (s.pm p).resident_count + (need s p va : Int) ∧
          ptp_count s2 p = ptp_count s p + need s p va) ∧
        (r = none ↔ s.free_pages.length < need s p va) ∧
        (r = none → ptab s2.mem (root s2 p) va 1 = none) ∧
        (∀ t2, r = some t2 → ptab s2.mem (root s2 p) va 1 = some t2) := by
      rw [if_neg hne]
      refine ⟨some t1, _, rfl, Inv_set_hint c s1 hI1 p 0 (some t1),
        grow_trans s s1 _ hg (grow_set_hint s1 p 0 (some t1)), ?_, ?_, ?_, ?_⟩
      · intro _
        rw [← (hrs (by simp)).1, ← (hrs (by simp)).2]
        simp [set_hint, upd, ptp_count]
      · rw [← hr1]
        simp
      · intro h
        cases h
      · intro t2 h
        cases h
        exact (grow_set_hint s1 p 0 (some t1)).old p va 1 t1 (dom_user s1 p va hp1 hva)
          (by omega) (by omega) ht1
    clear e e1 hr1 hr2 hr3 hrs
    cases ptp1 with
    | some q =>
      have := hq1 q rfl
      subst this
      exact hfin
    | none =>
      have := hq2 rfl
      subst this
      simp only [hfind]
      exact hfin

/-! ## The new PTE of pmap_enter -/

theorem prot_and (c : config) (hc : cfg_ok c) (prot M : Nat)
    (h1 : PG_NX &&& M = 0) (h2 : PG_RW &&& M = 0) : protection_codes c prot &&& M = 0 := by
  have h0 : 0 &&& M = 0 := Nat.zero_and M
  simp only [protection_codes, PG_RO]
  rcases hc.1 with e | e <;> rw [e] <;> split_ifs <;>
    simp only [Nat.and_distrib_right, h0, h1, h2, Nat.or_zero, Nat.zero_or]

theorem wc_and (c : config) (hc : cfg_ok c) (M : Nat)
    (h1 : PG_WC &&& M = 0) (h2 : PG_UCMINUS &&& M = 0) : c.pmap_pg_wc &&& M = 0 := by
  rcases hc.2.2.1 with e | e <;> rw [e] <;> assumption

theorem g_and (c : config) (hc : cfg_ok c) (M : Nat) (h1 : PG_G &&& M = 0) :
    c.pg_g_kern &&& M = 0 := by
  rcases hc.2.1 with e | e <;> rw [e]
  · exact Nat.zero_and M
  · exact h1

theorem or_keep (x f M : Nat) (hf : f &&& M = 0) : (x ||| f) &&& M = x &&& M := by
  rw [Nat.and_distrib_right, hf, Nat.or_zero]

theorem ite_keep (P : Prop) [Decidable P] (x f M : Nat) (hf : P → f &&& M = 0) :
    (if P then x ||| f else x) &&& M = x &&& M := by
  split
  · rename_i h
    exact or_keep x f M (hf h)
  · rfl

theorem or_tb (x f k : Nat) (h : x.testBit k = true) : (x ||| f).testBit k = true := by
  rw [Nat.testBit_or, h]
  rfl

theorem ite_tb (P : Prop) [Decidable P] (x f k : Nat) (h : x.testBit k = true) :
    (if P then x ||| f else x).testBit k = true := by
  split
  · exact or_tb x f k h
  · exact h

/-- The bits of the new PTE under a mask that none of the flags touches. -/
theorem npte_and (c : config) (hc : cfg_ok c) (p va pa prot : Nat)
    (pvlist wired nocache wc : Bool) (M : Nat)
    (hnx : PG_NX &&& M = 0) (hrw : PG_RW &&& M = 0) (hv : PG_V &&& M = 0)
    (hwc1 : PG_WC &&& M = 0) (hwc2 : PG_UCMINUS &&& M = 0) (hn : PG_N &&& M = 0)
    (hu : PG_u &&& M = 0) (hg : PG_G &&& M = 0)
    (hpv : pvlist = true → PG_PVLIST &&& M = 0) (hw : wired = true → PG_W &&& M = 0) :
    pmap_enter_npte c p va pa prot pvlist wired nocache wc &&& M = pa &&& M := by
  have a1 := prot_and c hc prot M hnx hrw
  have a2 := wc_and c hc M hwc1 hwc2
  have a3 := g_and c hc M hg
  have a4 : (PG_u ||| PG_RW) &&& M = 0 := by
    rw [Nat.and_distrib_right, hu, hrw]
    rfl
  have h5 : ∀ x, (if va < VM_MAXUSER_ADDRESS then x ||| PG_u
      else if va < VM_MAX_ADDRESS then x ||| (PG_u ||| PG_RW) else x) &&& M = x &&& M := by
    intro x
    split
    · exact or_keep x _ M hu
    · exact ite_keep _ x _ M (fun _ => a4)
  simp only [pmap_enter_npte]
  rw [ite_keep _ _ _ M (fun _ => a3), h5, ite_keep _ _ _ M (fun _ => hn), ite_keep _ _ _ M hw,
    ite_keep _ _ _ M (fun _ => a2), ite_keep _ _ _ M hpv, or_keep _ _ M hv, or_keep _ _ M a1]

theorem npte_tb (c : config) (p va pa prot : Nat) (pvlist wired nocache wc : Bool) (k : Nat)
    (h : PG_V.testBit k = true ∨ (pvlist = true ∧ PG_PVLIST.testBit k = true) ∨
      (wired = true ∧ PG_W.testBit k = true)) :
    (pmap_enter_npte c p va pa prot pvlist wired nocache wc).testBit k = true := by
  have h5 : ∀ x, x.testBit k = true → (if va < VM_MAXUSER_ADDRESS then x ||| PG_u
      else if va < VM_MAX_ADDRESS then x ||| (PG_u ||| PG_RW) else x).testBit k = true := by
    intro x hx
    split
    · exact or_tb x _ k hx
    · exact ite_tb _ x _ k hx
  simp only [pmap_enter_npte]
  apply ite_tb
  apply h5
  apply ite_tb
  rcases h with h | h | h
  · apply ite_tb
    apply ite_tb
    apply ite_tb
    rw [Nat.testBit_or, h]
    simp
  · apply ite_tb
    apply ite_tb
    rw [if_pos h.1, Nat.testBit_or, h.2]
    simp
  · rw [if_pos h.1, Nat.testBit_or, h.2]
    simp

theorem npte_frame (c : config) (hc : cfg_ok c) (p va pa prot : Nat)
    (pvlist wired nocache wc : Bool) (hpa : is_frame pa) :
    pmap_enter_npte c p va pa prot pvlist wired nocache wc &&& PG_FRAME = pa := by
  rw [npte_and c hc p va pa prot pvlist wired nocache wc PG_FRAME (by decide) (by decide)
    (by decide) (by decide) (by decide) (by decide) (by decide) (by decide)
    (fun _ => by decide) (fun _ => by decide)]
  exact hpa

theorem frame_and_low (pa M : Nat) (hpa : is_frame pa) (hM : PG_FRAME &&& M = 0) :
    pa &&& M = 0 := by
  rw [← hpa, Nat.and_assoc, hM, Nat.and_zero]

theorem npte_valid (c : config) (p va pa prot : Nat) (pvlist wired nocache wc : Bool) :
    pmap_valid_entry (pmap_enter_npte c p va pa prot pvlist wired nocache wc) = true := by
  have h := npte_tb c p va pa prot pvlist wired nocache wc 0 (Or.inl (by decide))
  rw [valid_iff]
  rw [Nat.testBit_zero] at h
  simpa using h

theorem npte_w (c : config) (hc : cfg_ok c) (p va pa prot : Nat)
    (pvlist wired nocache wc : Bool) (hpa : is_frame pa) :
    pmap_enter_npte c p va pa prot pvlist wired nocache wc &&& PG_W =
      if wired then PG_W else 0 := by
  cases wired with
  | false =>
    rw [npte_and c hc p va pa prot pvlist false nocache wc PG_W (by decide) (by decide)
      (by decide) (by decide) (by decide) (by decide) (by decide) (by decide)
      (fun _ => by decide) (fun h => by cases h)]
    exact frame_and_low pa PG_W hpa (by decide)
  | true =>
    have h := npte_tb c p va pa prot pvlist true nocache wc 9 (Or.inr (Or.inr ⟨rfl, by decide⟩))
    have e : PG_W = 2 ^ 9 := by decide
    rw [e, Nat.and_two_pow, h]
    rfl

theorem npte_pvlist (c : config) (hc : cfg_ok c) (p va pa prot : Nat)
    (pvlist wired nocache wc : Bool) (hpa : is_frame pa) :
    pmap_enter_npte c p va pa prot pvlist wired nocache wc &&& PG_PVLIST =
      if pvlist then PG_PVLIST else 0 := by
  cases pvlist with
  | false =>
    rw [npte_and c hc p va pa prot false wired nocache wc PG_PVLIST (by decide) (by decide)
      (by decide) (by decide) (by decide) (by decide) (by decide) (by decide)
      (fun h => by cases h) (fun _ => by decide)]
    exact frame_and_low pa PG_PVLIST hpa (by decide)
  | true =>
    have h := npte_tb c p va pa prot true wired nocache wc 10 (Or.inr (Or.inl ⟨rfl, by decide⟩))
    have e : PG_PVLIST = 2 ^ 10 := by decide
    rw [e, Nat.and_two_pow, h]
    rfl

/-! ## The leaf update of pmap_enter -/

/-- The invariant after the leaf entry of (`p`, `va`) became the valid
entry `v`, with the counters, the reference count of the leaf PTP and the
chains changed accordingly. -/
theorem Inv_enter (c : config) (s s1 : kstate) (hI : Inv c s) (hs : same_struct s s1)
    (hcr3 : s1.cr3 = s.cr3) (p va t v : Nat)
    (hd : dom s p va) (ha : va % 4096 = 0) (ht : ptab s.mem (root s p) va 1 = some t)
    (hm : s1.mem = mem_set s.mem t (slot va 1) v) (hv : pmap_valid_entry v = true)
    (hw : ∀ t1, t1 ≠ t → s1.wire_count t1 = s.wire_count t1)
    (hwt : p ∈ s.pmaps → s1.wire_count t + vbit (s.mem t (slot va 1)) = s.wire_count t + 1)
    (hc : ∀ q, q ≠ p → (s1.pm q).resident_count = (s.pm q).resident_count ∧
      (s1.pm q).wired_count = (s.pm q).wired_count)
    (hres : (s1.pm p).resident_count + (vbit (s.mem t (slot va 1)) : Int) =
      (s.pm p).resident_count + 1)
    (hwir : (s1.pm p).wired_count + (wbit (s.mem t (slot va 1)) : Int) =
      (s.pm p).wired_count + (wbit v : Int))
    (hchain : ∀ f e, e ∈ s1.pv_list f ↔
      (e ∈ s.pv_list f ∧ ¬ (e.pv_pmap = p ∧ e.pv_va = va)) ∨
      (v &&& PG_PVLIST ≠ 0 ∧ f = v &&& PG_FRAME ∧
        e = { pv_pmap := p, pv_va := va, pv_ptp := if p = 0 then none else some t }))
    (hnodup : ∀ f, ((s1.pv_list f).map fun e => (e.pv_pmap, e.pv_va)).Nodup)
    (hman : v &&& PG_PVLIST ≠ 0 ↔ c.managed (v &&& PG_FRAME) = true) : Inv c s1 := by
  refine ⟨?_, ?_, ?_, ?_⟩
  · apply SInv_leaf c s s1 hI.tree hs _ p va t v hd ht hm (fun _ => Or.inr hv)
    rw [hcr3]
    exact hI.tree.cr3_live
  · apply WInv_leaf c s s1 hI.tree hI.wire hs p va t v hd ht hm hw
    intro hp
    rw [vbit_valid v hv]
    exact hwt hp
  · apply CInv_leaf c s s1 hI.tree hI.count hs p va t v hd ht hm hc
    · intro _
      rw [vbit_valid v hv]
      exact hres
    · intro _
      exact hwir
  · apply PInv_leaf c s s1 hI.tree hI.pv hs p va t v hd ha ht hm _ hnodup (fun _ => hman)
    intro f e
    rw [hchain]
    constructor
    · rintro (h | h)
      · exact Or.inl h
      · exact Or.inr ⟨hv, h⟩
    · rintro (h | h)
      · exact Or.inl h
      · exact Or.inr h.2

theorem pgwc_congr (s s1 : kstate) (pg : Option Nat) (h : s1.pg_flags = s.pg_flags) :
    pmap_enter_pgwc s1 pg = pmap_enter_pgwc s pg := by
  simp only [pmap_enter_pgwc, h]

theorem enter_now_spec (c : config) (s3 sX : kstate) (hI : Inv c s3)
    (p va t pa prot scr3 : Nat) (wired nocache wc : Bool) (resdelta wireddelta : Int)
    (ptpdelta : Nat) (pg : Option Nat) (pve opve : Bool)
    (hd : dom s3 p va) (ha : va % 4096 = 0) (hmp : mapped s3 p)
    (ht : ptab s3.mem (root s3 p) va 1 = some t) (hpa : is_frame pa)
    (hscr : scr3 ≠ 0 → ∃ q, live s3 q ∧ scr3 = root s3 q)
    (hs : same_struct s3 sX) (hm : sX.mem = s3.mem) (hcr : sX.cr3 = s3.cr3)
    (hwc : sX.wire_count = s3.wire_count)
    (hcnt : ∀ q, (sX.pm q).resident_count = (s3.pm q).resident_count ∧
      (sX.pm q).wired_count = (s3.pm q).wired_count)
    (hpg : pg = PHYS_TO_VM_PAGE c pa)
    (hres : resdelta = 1 - (vbit (s3.mem t (slot va 1)) : Int))
    (hwd : wireddelta = (if wired then 1 else 0) - (wbit (s3.mem t (slot va 1)) : Int))
    (hpd : p ≠ 0 → ptpdelta + vbit (s3.mem t (slot va 1)) = 1)
    (hchain : ∀ f e, e ∈ sX.pv_list f ↔
      (e ∈ s3.pv_list f ∧ ¬ (e.pv_pmap = p ∧ e.pv_va = va)) ∨
      (pg ≠ none ∧ f = pa ∧
        e = { pv_pmap := p, pv_va := va, pv_ptp := if p = 0 then none else some t }))
    (hnodup : ∀ f, ((sX.pv_list f).map fun e => (e.pv_pmap, e.pv_va)).Nodup) :
    (pmap_enter_now c sX p va pa prot scr3 (if p = 0 then none else some t) wired nocache wc
        resdelta wireddelta ptpdelta pg pve opve = none ∧
      c.DIAGNOSTIC = true ∧ nocache = true ∧ pmap_enter_pgwc sX pg = true) ∨
    ∃ s1, pmap_enter_now c sX p va pa prot scr3 (if p = 0 then none else some t) wired nocache
        wc resdelta wireddelta ptpdelta pg pve opve = some (0, s1) ∧
      enter_post c s3 s1 p va t pa prot scr3 wired nocache wc ∧
      s1.pv_pool = sX.pv_pool + ((if pve then 1 else 0) + (if opve then 1 else 0)) := by
  have hS := hI.tree
  -- the state after the counters are updated
  obtain ⟨s2, hs2⟩ : ∃ s2, s2 = (match (if p = 0 then none else some t : Option Nat) with
      | none => add_wired (add_resident sX p resdelta) p wireddelta
      | some q => set_wire (add_wired (add_resident sX p resdelta) p wireddelta) q
          (((add_wired (add_resident sX p resdelta) p wireddelta).wire_count q + ptpdelta)
            % 2 ^ 32)) := ⟨_, rfl⟩
  have e_now : pmap_enter_now c sX p va pa prot scr3 (if p = 0 then none else some t) wired
      nocache wc resdelta wireddelta ptpdelta pg pve opve =
      if c.DIAGNOSTIC ∧ pg ≠ PHYS_TO_VM_PAGE c pa then none
      else if c.DIAGNOSTIC ∧ pmap_enter_pgwc s2 pg ∧ nocache then none
      else
        match pde_write s2 va 1 (pmap_enter_npte c p va pa prot pg.isSome wired nocache
            (wc || pmap_enter_pgwc s2 pg)) with
        | none => none
        | some s3 => some (0, pv_pool_put (pmap_unmap_ptes c s3 p scr3)
            ((if pve then 1 else 0) + (if opve then 1 else 0))) := by
    rw [hs2]
    rfl
  have f1 : same_struct s3 s2 := by
    rw [hs2]
    split
    · exact ss_add_wired _ _ _ _ (ss_add_resident _ _ _ _ hs)
    · exact ss_set_wire _ _ _ _ (ss_add_wired _ _ _ _ (ss_add_resident _ _ _ _ hs))
  have f2 : s2.mem = s3.mem ∧ s2.cr3 = s3.cr3 ∧ s2.pv_list = sX.pv_list ∧
      s2.pv_pool = sX.pv_pool := by
    rw [hs2]
    split <;> exact ⟨hm, hcr, rfl, rfl⟩
  obtain ⟨f21, f22, f23, f24⟩ := f2
  have f25 : s2.pg_flags = sX.pg_flags := by
    rw [hs2]
    split <;> rfl
  have f3 : ∀ q, q ≠ p → (s2.pm q).resident_count = (s3.pm q).resident_count ∧
      (s2.pm q).wired_count = (s3.pm q).wired_count := by
    intro q hq
    rw [← (hcnt q).1, ← (hcnt q).2, hs2]
    split <;> simp [add_wired, add_resident, set_wire, upd, hq]
  have f4 : (s2.pm p).resident_count = (s3.pm p).resident_count + resdelta ∧
      (s2.pm p).wired_count = (s3.pm p).wired_count + wireddelta := by
    rw [← (hcnt p).1, ← (hcnt p).2, hs2]
    split <;> simp [add_wired, add_resident, set_wire, upd]
  have f5 : ∀ t1, t1 ≠ t → s2.wire_count t1 = s3.wire_count t1 := by
    intro t1 h1
    rw [← hwc, hs2]
    split
    · rfl
    · rename_i q hq
      split at hq
      · cases hq
      · cases hq
        simp [add_wired, add_resident, set_wire, upd, h1]
  have f6 : p ∈ s3.pmaps →
      s2.wire_count t + vbit (s3.mem t (slot va 1)) = s3.wire_count t + 1 := by
    intro hp
    have hp0 : p ≠ 0 := fun e => hS.kern_notin (e ▸ hp)
    have hva : va < 0x7f8000000000 := by
      rcases hd with h | h
      · exact h.2
      · exact absurd h.1 hp0
    have hb := wire_bound c s3 hS hI.wire p va t 1 hp hva (by omega) (by omega) ht
    have := hpd hp0
    rw [hs2, if_neg hp0]
    simp only [add_wired, add_resident, set_wire, upd, if_true, hwc]
    rw [Nat.mod_eq_of_lt (by omega)]
    omega
  have hS2 : SInv c s2 := SInv_congr c s3 s2 hS f1 f21 (by rw [f22]; exact hS.cr3_live)
  have hmp2 : mapped s2 p := by
    rcases hmp with h | h
    · left
      rw [f22, same_struct_root s3 s2 f1]
      exact h
    · exact Or.inr h
  have hd2 : dom s2 p va := (same_struct_dom s3 s2 f1 p va).2 hd
  have ht2 : ptab s2.mem (root s2 p) va 1 = some t := by
    rw [f21, same_struct_root s3 s2 f1]
    exact ht
  rw [e_now, if_neg (fun h => h.2 hpg),
    pde_write_leaf c s2 hS2 p va t 1 _ hd2 hmp2 (by omega) (by omega) ht2]
  by_cases hK : c.DIAGNOSTIC = true ∧ pmap_enter_pgwc s2 pg = true ∧ nocache = true
  · rw [if_pos hK]
    exact Or.inl ⟨rfl, hK.1, hK.2.2, by rw [← pgwc_congr sX s2 pg f25]; exact hK.2.1⟩
  · rw [if_neg hK]
    right
    refine ⟨_, rfl, ?_, ?_⟩
    swap
    · simp only [pv_pool_put, pmap_unmap_ptes]
      split <;> simp [set_mem, f24]
    generalize hnp : pmap_enter_npte c p va pa prot pg.isSome wired nocache
      (wc || pmap_enter_pgwc s2 pg) = npte
    have n1 : npte &&& PG_FRAME = pa := by
      rw [← hnp]
      exact npte_frame c hS.cfg p va pa prot _ _ _ _ hpa
    have n2 : pmap_valid_entry npte = true := by
      rw [← hnp]
      exact npte_valid c p va pa prot _ _ _ _
    have n3 : npte &&& PG_W = if wired then PG_W else 0 := by
      rw [← hnp]
      exact npte_w c hS.cfg p va pa prot _ _ _ _ hpa
    have n4 : npte &&& PG_PVLIST ≠ 0 ↔ pg ≠ none := by
      rw [← hnp, npte_pvlist c hS.cfg p va pa prot _ _ _ _ hpa]
      cases pg <;> simp [PG_PVLIST]
    have n5 : (wbit npte : Int) = if wired then 1 else 0 := by
      rw [wbit_eq npte n2, n3]
      cases wired <;> simp [PG_W]
    -- the invariant after the store
    have hIA : Inv c (set_mem s2 t (slot va 1) npte) := by
      apply Inv_enter c s3 _ hI (ss_set_mem _ _ _ _ _ f1) f22 p va t npte hd ha ht
        (by simp only [set_mem, f21]) n2 f5 f6 f3
      · rw [show ((set_mem s2 t (slot va 1) npte).pm p).resident_count =
          (s2.pm p).resident_count from rfl, f4.1, hres]
        omega
      · rw [show ((set_mem s2 t (slot va 1) npte).pm p).wired_count =
          (s2.pm p).wired_count from rfl, f4.2, hwd, n5]
        omega
      · intro f e
        rw [show (set_mem s2 t (slot va 1) npte).pv_list = s2.pv_list from rfl, f23, hchain,
          n4, n1]
      · intro f
        rw [show (set_mem s2 t (slot va 1) npte).pv_list = s2.pv_list from rfl, f23]
        exact hnodup f
      · rw [n4, n1, hpg]
        simp only [PHYS_TO_VM_PAGE]
        split <;> simp_all
    have hss : same_struct s3 (pv_pool_put (pmap_unmap_ptes c (set_mem s2 t (slot va 1) npte)
        p scr3) ((if pve then 1 else 0) + (if opve then 1 else 0))) :=
      ss_pv_pool_put _ _ _ (same_struct_trans _ _ _ (ss_set_mem _ _ _ _ _ f1)
        (ss_of_eqv _ _ (unmap_ptes_eqv c _ p scr3)))
    have hcr3 : (pv_pool_put (pmap_unmap_ptes c (set_mem s2 t (slot va 1) npte) p scr3)
        ((if pve then 1 else 0) + (if opve then 1 else 0))).cr3 =
        if scr3 ≠ 0 then scr3 else s3.cr3 := by
      rw [show (pv_pool_put (pmap_unmap_ptes c (set_mem s2 t (slot va 1) npte) p scr3)
        ((if pve then 1 else 0) + (if opve then 1 else 0))).cr3 =
        (pmap_unmap_ptes c (set_mem s2 t (slot va 1) npte) p scr3).cr3 from rfl,
        unmap_ptes_cr3]
      split
      · rfl
      · exact f22
    have hue := unmap_ptes_eqv c (set_mem s2 t (slot va 1) npte) p scr3
    constructor
    · have hIU : Inv c (pmap_unmap_ptes c (set_mem s2 t (slot va 1) npte) p scr3) := by
        apply Inv_eqv c _ _ hIA hue
        rw [unmap_ptes_cr3]
        split
        · rename_i h
          obtain ⟨q, hq, e⟩ := hscr h
          refine ⟨q, (same_struct_live s3 _ (ss_set_mem _ _ _ _ _ f1) q).2 hq, ?_⟩
          rw [same_struct_root s3 _ (ss_set_mem _ _ _ _ _ f1)]
          exact e
        · exact hIA.tree.cr3_live
      exact Inv_same c _ _ hIU (ss_pv_pool_put _ _ _ (same_struct_refl _)) rfl rfl rfl
        (fun _ => ⟨rfl, rfl⟩) rfl
    · exact hss
    · exact hcr3
    · rw [show (pv_pool_put (pmap_unmap_ptes c (set_mem s2 t (slot va 1) npte) p scr3)
        ((if pve then 1 else 0) + (if opve then 1 else 0))).mem =
        (pmap_unmap_ptes c (set_mem s2 t (slot va 1) npte) p scr3).mem from rfl, hue.1,
        ← hpg]
      have hfl : pmap_enter_pgwc (pv_pool_put (pmap_unmap_ptes c (set_mem s2 t (slot va 1) npte)
          p scr3) ((if pve then 1 else 0) + (if opve then 1 else 0))) pg =
          pmap_enter_pgwc s2 pg := by
        apply pgwc_congr
        rw [show (pv_pool_put (pmap_unmap_ptes c (set_mem s2 t (slot va 1) npte) p scr3)
          ((if pve then 1 else 0) + (if opve then 1 else 0))).pg_flags =
          (pmap_unmap_ptes c (set_mem s2 t (slot va 1) npte) p scr3).pg_flags from rfl,
          hue.2.2.1]
        rfl
      rw [hfl, hnp]
      simp only [set_mem, f21]
    · rw [show ((pv_pool_put (pmap_unmap_ptes c (set_mem s2 t (slot va 1) npte) p scr3)
        ((if pve then 1 else 0) + (if opve then 1 else 0))).pm p).wired_count =
        ((pmap_unmap_ptes c (set_mem s2 t (slot va 1) npte) p scr3).pm p).wired_count from rfl,
        (hue.2.2.2.2.2.2 p).2.1]
      rw [show ((set_mem s2 t (slot va 1) npte).pm p).wired_count = (s2.pm p).wired_count
        from rfl, f4.2, hwd]
      omega
    · rw [show ((pv_pool_put (pmap_unmap_ptes c (set_mem s2 t (slot va 1) npte) p scr3)
        ((if pve then 1 else 0) + (if opve then 1 else 0))).pm p).resident_count =
        ((pmap_unmap_ptes c (set_mem s2 t (slot va 1) npte) p scr3).pm p).resident_count
        from rfl, (hue.2.2.2.2.2.2 p).1]
      rw [show ((set_mem s2 t (slot va 1) npte).pm p).resident_count = (s2.pm p).resident_count
        from rfl, f4.1, hres]
      omega
    · intro t1 h1
      rw [show (pv_pool_put (pmap_unmap_ptes c (set_mem s2 t (slot va 1) npte) p scr3)
        ((if pve then 1 else 0) + (if opve then 1 else 0))).wire_count =
        (pmap_unmap_ptes c (set_mem s2 t (slot va 1) npte) p scr3).wire_count from rfl, hue.2.1]
      exact f5 t1 h1
    · intro hp
      rw [show (pv_pool_put (pmap_unmap_ptes c (set_mem s2 t (slot va 1) npte) p scr3)
        ((if pve then 1 else 0) + (if opve then 1 else 0))).wire_count =
        (pmap_unmap_ptes c (set_mem s2 t (slot va 1) npte) p scr3).wire_count from rfl, hue.2.1]
      exact f6 hp
    · intro hp
      rw [show (pv_pool_put (pmap_unmap_ptes c (set_mem s2 t (slot va 1) npte) p scr3)
        ((if pve then 1 else 0) + (if opve then 1 else 0))).wire_count =
        (pmap_unmap_ptes c (set_mem s2 t (slot va 1) npte) p scr3).wire_count from rfl, hue.2.1]
      show s2.wire_count = s3.wire_count
      rw [← hwc, hs2, if_pos hp]
      rfl

theorem sync_fields (s : kstate) (g pte : Nat) :
    (pmap_sync_flags_pte s g pte).mem = s.mem ∧ (pmap_sync_flags_pte s g pte).cr3 = s.cr3 ∧
      (pmap_sync_flags_pte s g pte).pv_list = s.pv_list ∧
      (pmap_sync_flags_pte s g pte).pv_pool = s.pv_pool ∧
      (pmap_sync_flags_pte s g pte).wire_count = s.wire_count ∧
      (pmap_sync_flags_pte s g pte).pm = s.pm := by
  simp only [pmap_sync_flags_pte]
  split <;> exact ⟨rfl, rfl, rfl, rfl, rfl, rfl⟩

theorem pgwc_sync (s : kstate) (g pte : Nat) (pg : Option Nat) :
    pmap_enter_pgwc (pmap_sync_flags_pte s g pte) pg = pmap_enter_pgwc s pg := by
  cases pg with
  | none => rfl
  | some f =>
    simp only [pmap_enter_pgwc, pmap_sync_flags_pte]
    split
    · simp only [upd]
      split
      · rename_i hf
        subst hf
        have h0 : pmap_pte2flags pte &&& PG_PMAP_WC = 0 := by
          simp only [pmap_pte2flags]
          split <;> split <;> decide
        rw [Nat.and_distrib_right, h0, Nat.or_zero]
      · rfl
    · rfl

theorem enter_pvlist_spec (c : config) (s3 sY : kstate) (hI : Inv c s3)
    (p va t pa prot scr3 : Nat) (wired nocache wc : Bool) (resdelta wireddelta : Int)
    (ptpdelta : Nat) (pg0 : Option Nat) (opve : Bool)
    (hd : dom s3 p va) (ha : va % 4096 = 0) (hmp : mapped s3 p)
    (ht : ptab s3.mem (root s3 p) va 1 = some t) (hpa : is_frame pa)
    (hscr : scr3 ≠ 0 → ∃ q, live s3 q ∧ scr3 = root s3 q)
    (hs : same_struct s3 sY) (hm : sY.mem = s3.mem) (hcr : sY.cr3 = s3.cr3)
    (hwc : sY.wire_count = s3.wire_count)
    (hcnt : ∀ q, (sY.pm q).resident_count = (s3.pm q).resident_count ∧
      (sY.pm q).wired_count = (s3.pm q).wired_count)
    (hres : resdelta = 1 - (vbit (s3.mem t (slot va 1)) : Int))
    (hwd : wireddelta = (if wired then 1 else 0) - (wbit (s3.mem t (slot va 1)) : Int))
    (hpd : p ≠ 0 → ptpdelta + vbit (s3.mem t (slot va 1)) = 1)
    (hchain : ∀ f e, e ∈ sY.pv_list f ↔
      e ∈ s3.pv_list f ∧ ¬ (e.pv_pmap = p ∧ e.pv_va = va))
    (hnodup : ∀ f, ((sY.pv_list f).map fun e => (e.pv_pmap, e.pv_va)).Nodup) :
    (pmap_enter_pvlist c sY p va pa prot scr3 (if p = 0 then none else some t) wired nocache wc
        resdelta wireddelta ptpdelta pg0 opve = none ∧
      c.DIAGNOSTIC = true ∧ nocache = true ∧
      pmap_enter_pgwc sY (PHYS_TO_VM_PAGE c pa) = true) ∨
    ∃ s1, pmap_enter_pvlist c sY p va pa prot scr3 (if p = 0 then none else some t) wired
        nocache wc resdelta wireddelta ptpdelta pg0 opve = some (0, s1) ∧
      enter_post c s3 s1 p va t pa prot scr3 wired nocache wc := by
  have hinit : sY.pmap_initialized = true := by
    rw [hs.2.2.2.2.1]
    exact hI.tree.init
  simp only [pmap_enter_pvlist, hinit, if_true]
  cases hpg : PHYS_TO_VM_PAGE c pa with
  | none =>
    simp only []
    rcases enter_now_spec c s3 sY hI p va t pa prot scr3 wired nocache wc resdelta wireddelta
      ptpdelta none true opve hd ha hmp ht hpa hscr hs hm hcr hwc hcnt hpg.symm hres hwd hpd
      (by
        intro f e
        rw [hchain]
        constructor
        · exact fun h => Or.inl h
        · rintro (h | h)
          · exact h
          · exact absurd rfl h.1) hnodup with h | ⟨s1, h1, h2, _⟩
    · exact Or.inl h
    · exact Or.inr ⟨s1, h1, h2⟩
  | some g =>
    simp only []
    have hg : g = pa := by
      simp only [PHYS_TO_VM_PAGE] at hpg
      split at hpg
      · exact (Option.some.inj hpg).symm
      · cases hpg
    subst hg
    rcases enter_now_spec c s3 (pmap_enter_pv sY g p va (if p = 0 then none else some t)) hI
      p va t g prot scr3 wired nocache wc resdelta wireddelta ptpdelta (some g) false opve
      hd ha hmp ht hpa hscr (ss_enter_pv _ _ _ _ _ _ hs) hm hcr hwc hcnt hpg.symm hres hwd hpd
      (by
        intro f e
        simp only [pmap_enter_pv, upd]
        by_cases hf : f = g
        · subst hf
          simp only [if_true, List.mem_cons, hchain]
          have : (some f : Option Nat) ≠ none := by simp
          tauto
        · simp only [hf, if_false, hchain]
          tauto)
      (by
        intro f
        simp only [pmap_enter_pv, upd]
        by_cases hf : f = g
        · subst hf
          simp only [if_true, List.map_cons, List.nodup_cons]
          refine ⟨?_, hnodup f⟩
          intro hmem
          obtain ⟨e, he, hk⟩ := List.mem_map.1 hmem
          have := ((hchain f e).1 he).2
          simp only [Prod.mk.injEq] at hk
          exact this hk
        · simp only [hf, if_false]
          exact hnodup f) with h | ⟨s1, h1, h2, _⟩
    · exact Or.inl h
    · exact Or.inr ⟨s1, h1, h2⟩

theorem wireddelta_eq (wired : Bool) (opte : Nat) (hv : pmap_valid_entry opte = true) :
    (if wired = true ∧ opte &&& PG_W = 0 then (1 : Int)
      else if ¬ wired = true ∧ opte &&& PG_W ≠ 0 then -1 else 0) =
      (if wired = true then 1 else 0) - (wbit opte : Int) := by
  rw [wbit_eq opte hv]
  by_cases hw : opte &&& PG_W = 0 <;> cases wired <;> simp [hw]

/-- No chain has an entry of (`p`, `va`) when its leaf PTE is not pv-tracked. -/
theorem no_entry (c : config) (s : kstate) (hP : PInv c s) (p va t : Nat)
    (ht : ptab s.mem (root s p) va 1 = some t)
    (h : pmap_valid_entry (s.mem t (slot va 1)) = false ∨ s.mem t (slot va 1) &&& PG_PVLIST = 0)
    (f : Nat) (e : pv_entry) :
    e ∈ s.pv_list f ↔ e ∈ s.pv_list f ∧ ¬ (e.pv_pmap = p ∧ e.pv_va = va) := by
  constructor
  · intro he
    refine ⟨he, ?_⟩
    intro hk
    obtain ⟨h1, h2, _⟩ := chain_entry c s hP p va t f e ht he hk
    rcases h with h | h
    · rw [h] at h1
      cases h1
    · exact h2 h
  · exact fun he => he.1

theorem enter_opte_spec (c : config) (s3 : kstate) (hI : Inv c s3)
    (p va t pa prot scr3 : Nat) (wired nocache wc : Bool)
    (hd : dom s3 p va) (ha : va % 4096 = 0) (hmp : mapped s3 p)
    (ht : ptab s3.mem (root s3 p) va 1 = some t) (hpa : is_frame pa)
    (hscr : scr3 ≠ 0 → ∃ q, live s3 q ∧ scr3 = root s3 q) :
    (pmap_enter_opte c s3 p va pa prot scr3 (if p = 0 then none else some t) wired nocache wc
        (s3.mem t (slot va 1)) = none ∧ c.DIAGNOSTIC = true ∧ nocache = true ∧
      pmap_enter_pgwc s3 (PHYS_TO_VM_PAGE c pa) = true) ∨
    ∃ s1, pmap_enter_opte c s3 p va pa prot scr3 (if p = 0 then none else some t) wired
        nocache wc (s3.mem t (slot va 1)) = some (0, s1) ∧
      enter_post c s3 s1 p va t pa prot scr3 wired nocache wc := by
  have hS := hI.tree
  have hsame : ∀ q, (s3.pm q).resident_count = (s3.pm q).resident_count ∧
      (s3.pm q).wired_count = (s3.pm q).wired_count := fun _ => ⟨rfl, rfl⟩
  simp only [pmap_enter_opte]
  by_cases hv : pmap_valid_entry (s3.mem t (slot va 1)) = true
  · rw [if_pos hv]
    have hman := hI.pv.pv_managed p va t hd ht hv
    have hvb : (0 : Int) = 1 - (vbit (s3.mem t (slot va 1)) : Int) := by
      rw [vbit_valid _ hv]
      rfl
    have hpd : p ≠ 0 → 0 + vbit (s3.mem t (slot va 1)) = 1 := by
      intro _
      rw [vbit_valid _ hv]
    by_cases hf : s3.mem t (slot va 1) &&& PG_FRAME = pa
    · rw [if_pos hf]
      by_cases hpv : s3.mem t (slot va 1) &&& PG_PVLIST ≠ 0
      · rw [if_pos hpv]
        have hpg : PHYS_TO_VM_PAGE c pa = some pa := by
          have := hman.1 hpv
          rw [hf] at this
          simp [PHYS_TO_VM_PAGE, this]
        have hnd : ¬ (c.DIAGNOSTIC = true ∧ PHYS_TO_VM_PAGE c pa = none) := by
          rw [hpg]
          exact fun h => by cases h.2
        rw [if_neg hnd, hpg]
        simp only [pmap_sync_flags_pte_opt]
        obtain ⟨g1, g2, g3, g4, g5, g6⟩ := sync_fields s3 pa (s3.mem t (slot va 1))
        have key := fun wd hwd => enter_now_spec c s3
          (pmap_sync_flags_pte s3 pa (s3.mem t (slot va 1))) hI p va t pa prot scr3 wired
          nocache wc 0 wd 0 (some pa) true false hd ha hmp ht hpa hscr
          (ss_sync _ _ _ _ (same_struct_refl s3)) g1 g2 g5 (fun q => by rw [g6]; exact hsame q)
          hpg.symm hvb hwd hpd
          (by
            intro f e
            rw [g3]
            constructor
            · intro he
              by_cases hk : e.pv_pmap = p ∧ e.pv_va = va
              · obtain ⟨_, _, h3, h4⟩ := chain_entry c s3 hI.pv p va t f e ht he hk
                exact Or.inr ⟨by simp, by rw [h3, hf], h4⟩
              · exact Or.inl ⟨he, hk⟩
            · rintro (h | h)
              · exact h.1
              · obtain ⟨e1, he1, hk1⟩ := hI.pv.pv_complete p va t hd ha ht hv hpv
                obtain ⟨_, _, _, h4⟩ := chain_entry c s3 hI.pv p va t _ e1 ht he1 hk1
                rw [h.2.1, h.2.2, ← h4, ← hf]
                exact he1)
          (by
            intro f
            rw [g3]
            exact hI.pv.pv_nodup f)
        rcases key _ (wireddelta_eq wired _ hv) with h | ⟨s1, h1, h2, _⟩
        · exact Or.inl ⟨h.1, h.2.1, h.2.2.1, by
            rw [← pgwc_sync s3 pa (s3.mem t (slot va 1))]
            exact h.2.2.2⟩
        · exact Or.inr ⟨s1, h1, h2⟩
      · rw [if_neg hpv]
        have hpv0 : s3.mem t (slot va 1) &&& PG_PVLIST = 0 := by
          by_contra h
          exact hpv h
        have hpg : PHYS_TO_VM_PAGE c pa = none := by
          have : ¬ c.managed pa = true := by
            rw [← hf]
            exact fun h => hpv (hman.2 h)
          simp [PHYS_TO_VM_PAGE, this]
        have hnd : ¬ (c.DIAGNOSTIC = true ∧ PHYS_TO_VM_PAGE c pa ≠ none) := by
          rw [hpg]
          exact fun h => h.2 rfl
        rw [if_neg hnd]
        have key := fun wd hwd => enter_now_spec c s3 s3 hI p va t pa prot scr3 wired
          nocache wc 0 wd 0 none true false hd ha hmp ht hpa hscr
          (same_struct_refl s3) rfl rfl rfl hsame hpg.symm hvb hwd hpd
          (by
            intro f e
            rw [no_entry c s3 hI.pv p va t ht (Or.inr hpv0) f e]
            constructor
            · exact fun h => Or.inl ⟨h, h.2⟩
            · rintro (h | h)
              · exact h.1
              · exact absurd rfl h.1)
          hI.pv.pv_nodup
        rcases key _ (wireddelta_eq wired _ hv) with h | ⟨s1, h1, h2, _⟩
        · exact Or.inl ⟨h.1, h.2.1, h.2.2.1, by
            rw [hpg]
            exact h.2.2.2⟩
        · exact Or.inr ⟨s1, h1, h2⟩
    · rw [if_neg hf]
      by_cases hpv : s3.mem t (slot va 1) &&& PG_PVLIST ≠ 0
      · rw [if_pos hpv]
        have hpg : PHYS_TO_VM_PAGE c (s3.mem t (slot va 1) &&& PG_FRAME) =
            some (s3.mem t (slot va 1) &&& PG_FRAME) := by
          simp [PHYS_TO_VM_PAGE, hman.1 hpv]
        rw [hpg]
        simp only []
        obtain ⟨g1, g2, g3, g4, g5, g6⟩ := sync_fields s3 (s3.mem t (slot va 1) &&& PG_FRAME)
          (s3.mem t (slot va 1))
        have key := fun wd hwd => enter_pvlist_spec c s3
          (pmap_remove_pv (pmap_sync_flags_pte s3 (s3.mem t (slot va 1) &&& PG_FRAME)
            (s3.mem t (slot va 1))) (s3.mem t (slot va 1) &&& PG_FRAME) p va).2 hI p va t pa
          prot scr3 wired nocache wc 0 wd 0 none
          (pmap_remove_pv (pmap_sync_flags_pte s3 (s3.mem t (slot va 1) &&& PG_FRAME)
            (s3.mem t (slot va 1))) (s3.mem t (slot va 1) &&& PG_FRAME) p va).1.isSome
          hd ha hmp ht hpa hscr
          (ss_remove_pv _ _ _ _ _ (ss_sync _ _ _ _ (same_struct_refl s3)))
          (by simp only [pmap_remove_pv, g1]) (by simp only [pmap_remove_pv, g2])
          (by simp only [pmap_remove_pv, g5])
          (fun q => by simp only [pmap_remove_pv, g6, and_self]) hvb hwd hpd
          (by
            intro f e
            simp only [pmap_remove_pv, g3, upd]
            by_cases hfe : f = s3.mem t (slot va 1) &&& PG_FRAME
            · simp only [hfe, if_true]
              exact pv_remove_first_mem p va _ e (hI.pv.pv_nodup _)
            · simp only [hfe, if_false]
              constructor
              · intro he
                refine ⟨he, ?_⟩
                intro hk
                exact hfe (chain_entry c s3 hI.pv p va t f e ht he hk).2.2.1
              · exact fun he => he.1)
          (by
            intro f
            simp only [pmap_remove_pv, g3, upd]
            split
            · exact pv_remove_first_nodup p va _ (hI.pv.pv_nodup _)
            · exact hI.pv.pv_nodup f)
        rcases key _ (wireddelta_eq wired _ hv) with h | h
        · exact Or.inl ⟨h.1, h.2.1, h.2.2.1, by
            rw [← pgwc_sync s3 (s3.mem t (slot va 1) &&& PG_FRAME) (s3.mem t (slot va 1))]
            exact h.2.2.2⟩
        · exact Or.inr h
      · rw [if_neg hpv]
        have hpv0 : s3.mem t (slot va 1) &&& PG_PVLIST = 0 := by
          by_contra h
          exact hpv h
        have key := fun wd hwd => enter_pvlist_spec c s3 s3 hI p va t pa prot scr3 wired
          nocache wc 0 wd 0 none false hd ha hmp ht hpa hscr (same_struct_refl s3) rfl rfl rfl
          hsame hvb hwd hpd (no_entry c s3 hI.pv p va t ht (Or.inr hpv0)) hI.pv.pv_nodup
        exact key _ (wireddelta_eq wired _ hv)
  · rw [if_neg hv]
    have hv0 : pmap_valid_entry (s3.mem t (slot va 1)) = false := by simpa using hv
    have hvb : (1 : Int) = 1 - (vbit (s3.mem t (slot va 1)) : Int) := by
      simp [vbit, hv0]
    have hwb : ((if wired = true then 1 else 0 : Int)) =
        (if wired = true then 1 else 0) - (wbit (s3.mem t (slot va 1)) : Int) := by
      simp [wbit, hv0]
    exact enter_pvlist_spec c s3 s3 hI p va t pa prot scr3 wired nocache wc 1 _ _ none false
      hd ha hmp ht hpa hscr (same_struct_refl s3) rfl rfl rfl hsame hvb hwb
      (by
        intro hp0
        simp [vbit, hv0, hp0])
      (no_entry c s3 hI.pv p va t ht (Or.inl hv0)) hI.pv.pv_nodup

/-! ## pmap_enter on a user pmap -/

theorem Inv_pool (c : config) (s : kstate) (hI : Inv c s) (n : Nat) :
    Inv c { s with pv_pool := n } :=
  Inv_same c s _ hI ⟨rfl, rfl, rfl, rfl, rfl, rfl, fun _ => ⟨rfl, rfl, rfl, rfl, rfl, rfl⟩⟩
    rfl rfl rfl (fun _ => ⟨rfl, rfl⟩) rfl

theorem pde_write_flags (s s1 : kstate) (va i v : Nat) (h : pde_write s va i v = some s1) :
    s1.pg_flags = s.pg_flags := by
  simp only [pde_write, Option.map_eq_some'] at h
  obtain ⟨t, _, h2⟩ := h
  rw [← h2]
  rfl

theorem get_ptp_link_flags (s1 s6 : kstate) (pmap va i : Nat) (pptp : Option Nat) (ppa np : Nat)
    (h : pmap_get_ptp_link s1 pmap va i pptp ppa np = some s6) :
    s6.pg_flags = (clear_busy s1 np).pg_flags := by
  simp only [pmap_get_ptp_link] at h
  split at h
  · cases h
  · rename_i s3 h3
    have e3 := pde_write_flags _ _ _ _ _ h3
    split at h
    · cases h
    · rename_i e1 _
      have e4 : (if (s3.pm pmap).pm_pdir_intel ≠ 0 ∧ i = 4 ∧ va < VM_MAXUSER_ADDRESS then
          set_mem s3 (s3.pm pmap).pm_pdir_intel (pl_i va i) e1 else s3).pg_flags = s3.pg_flags := by
        split <;> rfl
      split at h
      · split at h
        · cases h
        · cases h
          exact e4.trans e3
      · cases h
        exact e4.trans e3

theorem and_ne_of_and (x m k : Nat) (h : (x &&& m) &&& k ≠ 0) : x &&& k ≠ 0 := by
  intro e
  apply h
  rw [Nat.and_assoc, Nat.and_comm m k, ← Nat.and_assoc, e, Nat.zero_and]

theorem get_ptp_loop_wc (pmap va : Nat) :
    ∀ n ptp pa ppa s r s1, pmap_get_ptp_loop pmap va n ptp pa ppa s = some (r, s1) →
      ∀ f, s1.pg_flags f &&& PG_PMAP_WC ≠ 0 → s.pg_flags f &&& PG_PMAP_WC ≠ 0 := by
  intro n
  induction n with
  | zero =>
    intro ptp pa ppa s r s1 h f hf
    simp only [pmap_get_ptp_loop] at h
    cases h
    exact hf
  | succ n ih =>
    intro ptp pa ppa s r s1 h f hf
    simp only [pmap_get_ptp_loop] at h
    split at h
    · cases h
    · rename_i e _
      split at h
      · exact ih _ _ _ _ _ _ h f hf
      · simp only [uvm_pagealloc] at h
        split at h
        · rename_i hfr
          split at hfr
          · cases hfr
            cases h
            exact hf
          · cases hfr
        · rename_i np sa hfr
          split at hfr
          · cases hfr
          · rename_i f0 rest hfree
            cases hfr
            split at h
            · cases h
            · rename_i s6 h6
              have e6 := get_ptp_link_flags _ _ _ _ _ _ _ _ h6
              have k := ih _ _ _ _ _ _ h f hf
              rw [e6] at k
              simp only [clear_busy, upd] at k
              by_cases hff : f = np
              · subst hff
                simp only [if_true] at k
                exact absurd (and_ne_of_and _ _ _ k) (by decide)
              · simp only [hff, if_false] at k
                exact k

theorem get_ptp_wc (c : config) (s s1 : kstate) (pmap va : Nat) (r : Option Nat)
    (h : pmap_get_ptp c s pmap va = some (r, s1)) :
    ∀ f, s1.pg_flags f &&& PG_PMAP_WC ≠ 0 → s.pg_flags f &&& PG_PMAP_WC ≠ 0 := by
  simp only [pmap_get_ptp] at h
  split at h
  · cases h
  · rename_i s2 h2
    cases h
    exact get_ptp_loop_wc pmap va _ _ _ _ _ _ _ h2
  · rename_i ptp ppa s2 h2
    split at h
    · cases h
    · cases h
      intro f hf
      exact get_ptp_loop_wc pmap va _ _ _ _ _ _ _ h2 f hf

theorem pgwc_mono (s s1 : kstate) (pg : Option Nat)
    (h : ∀ f, s1.pg_flags f &&& PG_PMAP_WC ≠ 0 → s.pg_flags f &&& PG_PMAP_WC ≠ 0)
    (h1 : pmap_enter_pgwc s1 pg = true) : pmap_enter_pgwc s pg = true := by
  cases pg with
  | none => exact h1
  | some g =>
    simp only [pmap_enter_pgwc, bne_iff_ne, ne_eq] at h1 ⊢
    exact h g h1

theorem enter_spec (c : config) (s : kstate) (hI : Inv c s) (p va pa0 prot flags : Nat)
    (hp : p ∈ s.pmaps) (hva : va < 0x7f8000000000) (ha : va % 4096 = 0)
    (hpa : pa0 < 2 ^ 52) :
    (pmap_enter c s p va pa0 prot flags = none ∧
      ((c.DIAGNOSTIC = true ∧ pa0 &&& PMAP_NOCACHE ≠ 0 ∧
          (pa0 &&& PMAP_WC ≠ 0 ∨ (¬ alloc_fails s p va ∧
            pmap_enter_pgwc s (PHYS_TO_VM_PAGE c (pa0 &&& PMAP_PA_MASK)) = true))) ∨
        (flags &&& PMAP_CANFAIL = 0 ∧ alloc_fails s p va))) ∨
    ∃ r s1, pmap_enter c s p va pa0 prot flags = some (r, s1) ∧ Inv c s1 ∧
      s1.cr3 = s.cr3 ∧ s1.pmaps = s.pmaps ∧
      ((r = ENOMEM ∧ flags &&& PMAP_CANFAIL ≠ 0 ∧ alloc_fails s p va ∧
          leaf s1 p va = leaf s p va ∧
          (∀ q, (s1.pm q).wired_count = (s.pm q).wired_count) ∧
          s1.pv_list = s.pv_list ∧ s1.pv_pool = s.pv_pool) ∨
        (r = 0 ∧ ¬ alloc_fails s p va ∧
          ∃ t pvl wcb, ptab s1.mem (root s1 p) va 1 = some t ∧
            s1.mem t (slot va 1) = pmap_enter_npte c p va (pa0 &&& PMAP_PA_MASK) prot pvl
              (flags &&& PMAP_WIRED != 0) (pa0 &&& PMAP_NOCACHE != 0) wcb ∧
            (s1.pm p).wired_count = (s.pm p).wired_count +
              (if (flags &&& PMAP_WIRED != 0) = true then 1 else 0) - (old_wbit s p va : Int) ∧
            pvl = (PHYS_TO_VM_PAGE c (pa0 &&& PMAP_PA_MASK)).isSome ∧
            wcb = ((pa0 &&& PMAP_WC != 0) ||
              pmap_enter_pgwc s1 (PHYS_TO_VM_PAGE c (pa0 &&& PMAP_PA_MASK))) ∧
            (s1.pm p).resident_count = (s.pm p).resident_count + (need s p va : Int) + 1 -
              (old_vbit s p va : Int) ∧
            s1.wire_count t + old_vbit s p va = old_wire s p va + 1 ∧
            ptp_count s1 p = ptp_count s p + need s p va ∧
            ∀ t0, ptab s.mem (root s p) va 1 = some t0 → t0 = t)) := by
  have hS := hI.tree
  have hp0 : p ≠ 0 := fun e => hS.kern_notin (e ▸ hp)
  have hlive : live s p := Or.inr hp
  have hty : ¬ (s.pm p).pm_type = PMAP_TYPE_EPT := by
    rw [hS.normal p hlive]
    decide
  have hpaf : is_frame (pa0 &&& PMAP_PA_MASK) := by
    rw [is_frame_iff, and_pa_mask]
    omega
  have hpdp : ¬ (c.DIAGNOSTIC = true ∧ va = PDP_BASE) := by
    intro h
    rw [h.2] at hva
    exact absurd hva (by decide)
  have hkv : ¬ (c.DIAGNOSTIC = true ∧ va ≥ VM_MIN_KERNEL_ADDRESS ∧
      ¬ pmap_valid_entry (s.mem (s.pm p).pm_pdir (pl_i va PTP_LEVELS)) = true) := by
    intro h
    have := h.2.1
    simp only [VM_MIN_KERNEL_ADDRESS] at this
    omega
  simp only [pmap_enter, if_neg hty, if_neg hpdp, if_neg hkv]
  by_cases hwn : c.DIAGNOSTIC = true ∧ (pa0 &&& PMAP_WC != 0) = true ∧
      (pa0 &&& PMAP_NOCACHE != 0) = true
  · rw [if_pos hwn]
    left
    refine ⟨rfl, Or.inl ⟨hwn.1, ?_, Or.inl ?_⟩⟩
    · simpa using hwn.2.2
    · simpa using hwn.2.1
  rw [if_neg hwn]
  by_cases hpool : s.pv_pool = 0
  · rw [if_pos hpool]
    by_cases hcf : flags &&& PMAP_CANFAIL ≠ 0
    · rw [if_pos hcf]
      right
      exact ⟨ENOMEM, s, rfl, hI, rfl, rfl, Or.inl ⟨rfl, hcf, Or.inl hpool, rfl, fun _ => rfl,
        rfl, rfl⟩⟩
    · rw [if_neg hcf]
      left
      refine ⟨rfl, Or.inr ⟨?_, Or.inl hpool⟩⟩
      by_contra h
      exact hcf h
  rw [if_neg hpool]
  have hI1 := Inv_pool c s hI (s.pv_pool - 1)
  obtain ⟨scr3, s2, e2, hq2, hmp2, hcl2, hsc2⟩ :=
    map_ptes_spec c { s with pv_pool := s.pv_pool - 1 } hI1.tree p hlive
  rw [e2]
  simp only [if_neg hp0]
  have hI2 : Inv c s2 := Inv_eqv c _ s2 hI1 hq2 hcl2
  have hss2 := ss_of_eqv _ _ hq2
  have hp2 : p ∈ s2.pmaps := by
    rw [hss2.1]
    exact hp
  obtain ⟨r, s3, e3, hI3, hg, hrs, hr1, hr2, hr3⟩ := get_ptp_spec c s2 hI2 p va hp2 hva hmp2
  rw [e3]
  simp only []
  have hr2s : root s2 p = root s p := same_struct_root _ _ hss2 p
  have hneed : need s2 p va = need s p va := by
    simp only [need, hr2s, hq2.1]
  have hfree : s2.free_pages = s.free_pages := hss2.2.1
  have hcr3 : (if scr3 ≠ 0 then scr3 else s3.cr3) = s.cr3 := by
    rcases hsc2 with ⟨h1, h2⟩ | ⟨h1, h2⟩
    · rw [h1, if_neg (by simp), hg.cr3, h2]
    · rw [if_pos h2, h1]
  have hscr : scr3 ≠ 0 → ∃ q, live s3 q ∧ scr3 = root s3 q := by
    intro h
    rcases hsc2 with ⟨h1, _⟩ | ⟨h1, _⟩
    · exact absurd h1 h
    · obtain ⟨q, hq, hc⟩ := hS.cr3_live
      refine ⟨q, ?_, ?_⟩
      · simp only [live, hg.pmaps, hss2.1]
        exact hq
      · rw [h1, show root s3 q = root s2 q from (hg.pm q).1, same_struct_root _ _ hss2 q]
        exact hc
  cases r with
  | none =>
    have hfail : s.free_pages.length < need s p va := by
      rw [← hneed, ← hfree]
      exact hr1.1 rfl
    simp only [ne_eq, hp0, not_false_eq_true, and_self, if_true]
    by_cases hcf : flags &&& PMAP_CANFAIL ≠ 0
    · rw [if_pos hcf]
      right
      have hue := unmap_ptes_eqv c s3 p scr3
      have hIU : Inv c (pmap_unmap_ptes c s3 p scr3) := by
        apply Inv_eqv c _ _ hI3 hue
        rw [unmap_ptes_cr3]
        split
        · rename_i h
          exact hscr h
        · exact hI3.tree.cr3_live
      have hru : ∀ q, root (pmap_unmap_ptes c s3 p scr3) q = root s q := by
        intro q
        rw [same_struct_root _ _ (ss_of_eqv _ _ hue) q, show root s3 q = root s2 q from
          (hg.pm q).1, same_struct_root _ _ hss2 q]
        rfl
      refine ⟨ENOMEM, _, rfl, Inv_same c _ _ hIU (ss_pv_pool_put _ _ _ (same_struct_refl _))
        rfl rfl rfl (fun _ => ⟨rfl, rfl⟩) rfl, ?_, ?_, Or.inl ⟨rfl, hcf, Or.inr hfail, ?_, ?_,
        ?_, ?_⟩⟩
      · rw [show (pv_pool_put (pmap_unmap_ptes c s3 p scr3) 1).cr3 =
          (pmap_unmap_ptes c s3 p scr3).cr3 from rfl, unmap_ptes_cr3]
        exact hcr3
      · rw [show (pv_pool_put (pmap_unmap_ptes c s3 p scr3) 1).pmaps =
          (pmap_unmap_ptes c s3 p scr3).pmaps from rfl, (ss_of_eqv _ _ hue).1, hg.pmaps, hss2.1]
      · have h3 := hr2 rfl
        have h0 : ptab s.mem (root s p) va 1 = none := by
          cases h : ptab s.mem (root s p) va 1 with
          | none => rfl
          | some t0 =>
            have := need_leaf s p va t0 h
            omega
        simp only [leaf]
        rw [h0, show root (pv_pool_put (pmap_unmap_ptes c s3 p scr3) 1) p =
          root (pmap_unmap_ptes c s3 p scr3) p from rfl, hru p,
          show (pv_pool_put (pmap_unmap_ptes c s3 p scr3) 1).mem =
          (pmap_unmap_ptes c s3 p scr3).mem from rfl, hue.1]
        rw [show root s3 p = root s p from by rw [← hru p, same_struct_root _ _
          (ss_of_eqv _ _ hue) p]] at h3
        rw [h3]
        rfl
      · intro q
        rw [show ((pv_pool_put (pmap_unmap_ptes c s3 p scr3) 1).pm q).wired_count =
          ((pmap_unmap_ptes c s3 p scr3).pm q).wired_count from rfl, (hue.2.2.2.2.2.2 q).2.1,
          (hg.pm q).2.2, (hq2.2.2.2.2.2.2 q).2.1]
      · rw [show (pv_pool_put (pmap_unmap_ptes c s3 p scr3) 1).pv_list =
          (pmap_unmap_ptes c s3 p scr3).pv_list from rfl, hue.2.2.2.1, hg.pv, hq2.2.2.2.1]
      · rw [show (pv_pool_put (pmap_unmap_ptes c s3 p scr3) 1).pv_pool =
          (pmap_unmap_ptes c s3 p scr3).pv_pool + 1 from rfl, hue.2.2.2.2.1, hg.pool,
          hq2.2.2.2.2.1]
        exact Nat.sub_add_cancel (Nat.pos_of_ne_zero hpool)
    · rw [if_neg hcf]
      left
      refine ⟨rfl, Or.inr ⟨?_, Or.inr hfail⟩⟩
      by_contra h
      exact hcf h
  | some t =>
    have hnf : ¬ alloc_fails s p va := by
      intro h
      rcases h with h | h
      · exact hpool h
      · rw [← hneed, ← hfree] at h
        have := hr1.2 h
        cases this
    have ht3 := hr3 t rfl
    have hp3 : p ∈ s3.pmaps := hg.pmaps ▸ hp2
    have hd3 := dom_user s3 p va hp3 hva
    have hmp3 : mapped s3 p := by
      rcases hmp2 with h | h
      · left
        rw [hg.cr3, h]
        exact ((hg.pm p).1).symm
      · exact Or.inr h
    have hne : ¬ (p ≠ 0 ∧ (some t : Option Nat) = none) := fun h => by cases h.2
    rw [if_neg hne, pde_read_leaf c s3 hI3.tree p va t 1 hd3 hmp3 (by omega) (by omega) ht3]
    simp only []
    have hopte := enter_opte_spec c s3 hI3 p va t (pa0 &&& PMAP_PA_MASK) prot scr3
      (flags &&& PMAP_WIRED != 0) (pa0 &&& PMAP_NOCACHE != 0) (pa0 &&& PMAP_WC != 0)
      hd3 ha hmp3 ht3 hpaf hscr
    rw [if_neg hp0] at hopte
    rcases hopte with ⟨h1, h2, h3, h4⟩ | ⟨s4, h1, h2⟩
    · left
      refine ⟨h1, Or.inl ⟨h2, ?_, Or.inr ⟨hnf, ?_⟩⟩⟩
      · simpa using h3
      · apply pgwc_mono s s3 _ _ h4
        intro f hf
        have := get_ptp_wc c s2 s3 p va _ e3 f hf
        rw [hq2.2.2.1] at this
        exact this
    · right
      have hmem := h2.mem
      have hd2 := dom_user s2 p va hp2 hva
      have hold : (ptab s.mem (root s p) va 1 = none ∧ s3.mem t (slot va 1) = 0 ∧
            s3.wire_count t = 1) ∨
          (ptab s.mem (root s p) va 1 = some t ∧ s3.mem t (slot va 1) = s.mem t (slot va 1) ∧
            s3.wire_count t = s.wire_count t) := by
        have hw3 := hI3.wire.wire p hp3 va 1 t hva (by omega) (by omega) ht3
        cases h0 : ptab s.mem (root s p) va 1 with
        | none =>
          left
          have hz := hg.fresh p va t hd2 ht3 (by rw [hr2s, hq2.1]; exact h0)
          refine ⟨rfl, hz _, ?_⟩
          rw [hw3, vcount_zero s3.mem t (fun i _ => hz i)]
        | some t0 =>
          right
          have h20 : ptab s2.mem (root s2 p) va 1 = some t0 := by
            rw [hr2s, hq2.1]
            exact h0
          have := hg.old p va 1 t0 hd2 (by omega) (by omega) h20
          rw [ht3] at this
          cases this
          refine ⟨rfl, ?_, ?_⟩
          · rw [hg.leaf p va t hd2 h20, hq2.1]
          · rw [hw3, hI.wire.wire p hp va 1 t hva (by omega) (by omega) h0]
            congr 1
            apply vcount_congr
            intro i _
            rw [hg.leaf p va t hd2 h20, hq2.1]
      have hwb : wbit (s3.mem t (slot va 1)) = old_wbit s p va := by
        simp only [old_wbit, leaf]
        rcases hold with ⟨h0, h1, _⟩ | ⟨h0, h1, _⟩
        · rw [h0, h1]
          rfl
        · rw [h0, h1]
          rfl
      have hvb : vbit (s3.mem t (slot va 1)) = old_vbit s p va := by
        simp only [old_vbit, leaf]
        rcases hold with ⟨h0, h1, _⟩ | ⟨h0, h1, _⟩
        · rw [h0, h1]
          rfl
        · rw [h0, h1]
          rfl
      have hwr : s3.wire_count t = old_wire s p va := by
        simp only [old_wire]
        rcases hold with ⟨h0, _, h1⟩ | ⟨h0, _, h1⟩
        · rw [h0, h1]
        · rw [h0, h1]
      refine ⟨0, s4, h1, h2.inv, ?_, ?_, Or.inr ⟨rfl, hnf, t, _, _, ?_, ?_, ?_, rfl, rfl, ?_, ?_,
        ?_, ?_⟩⟩
      · rw [h2.cr3]
        exact hcr3
      · rw [h2.ss.1, hg.pmaps, hss2.1]
      · rw [leaf_ptab c s3 s4 hI3.tree h2.ss p va t _ hd3 ht3 hmem p va 1 hd3 (by omega)
          (by omega)]
        exact ht3
      · rw [hmem, mem_set_same]
      · rw [h2.wired, (hg.pm p).2.2, (hq2.2.2.2.2.2.2 p).2.1, hwb]
      · rw [h2.res, (hrs (by simp)).1, (hq2.2.2.2.2.2.2 p).1, hneed, hvb]
      · rw [← hvb, ← hwr]
        exact h2.wire_t hp3
      · have e1 : ptp_count s4 p = ptp_count s3 p := by
          simp only [ptp_count, (h2.ss.2.2.2.2.2.2 p).1, (h2.ss.2.2.2.2.2.2 p).2.2.2.1]
        have e2 : ptp_count s2 p = ptp_count s p := by
          simp only [ptp_count, (hss2.2.2.2.2.2.2 p).1, (hss2.2.2.2.2.2.2 p).2.2.2.1]
        rw [e1, (hrs (by simp)).2, e2, hneed]
      · intro t0 h0
        rcases hold with ⟨h, _⟩ | ⟨h, _⟩
        · rw [h] at h0
          cases h0
        · rw [h] at h0
          cases h0
          rfl

/-! ## Lists: an index without one page -/

theorem lookup_filter_ne (l : List (Nat × Nat)) (k q : Nat) (hn : (l.map Prod.fst).Nodup) :
    (l.filter fun e => e.2 != q).lookup k =
      if l.lookup k = some q then none else l.lookup k := by
  induction l with
  | nil => simp
  | cons a l ih =>
    obtain ⟨k1, q1⟩ := a
    simp only [List.map_cons, List.nodup_cons] at hn
    have ih := ih hn.2
    by_cases hq : q1 = q
    · subst hq
      have hf : ((k1, q1) :: l).filter (fun e => e.2 != q1) = l.filter fun e => e.2 != q1 := by
        simp [List.filter_cons]
      rw [hf, ih, List.lookup_cons]
      by_cases hk : k = k1
      · subst hk
        have := lookup_none_of_not_mem l k hn.1
        simp [this]
      · have : (k == k1) = false := by simpa using hk
        rw [this]
    · have hf : ((k1, q1) :: l).filter (fun e => e.2 != q) =
          (k1, q1) :: l.filter fun e => e.2 != q := by
        simp [List.filter_cons, hq]
      rw [hf, List.lookup_cons, List.lookup_cons]
      by_cases hk : k = k1
      · subst hk
        simp [hq]
      · have : (k == k1) = false := by simpa using hk
        rw [this]
        exact ih

theorem filter_ne_length (l : List (Nat × Nat)) (q : Nat) (hn : (l.map Prod.snd).Nodup)
    (hq : q ∈ l.map Prod.snd) : (l.filter fun e => e.2 != q).length + 1 = l.length := by
  induction l with
  | nil => simp at hq
  | cons a l ih =>
    simp only [List.map_cons, List.nodup_cons, List.mem_cons] at hn hq
    by_cases ha : a.2 = q
    · have hf : (a :: l).filter (fun e => e.2 != q) = l := by
        rw [List.filter_cons]
        simp only [ha, bne_self_eq_false, Bool.false_eq_true, if_false]
        rw [List.filter_eq_self]
        intro e he
        have : e.2 ≠ q := by
          intro h
          apply hn.1
          rw [ha, ← h]
          exact List.mem_map_of_mem Prod.snd he
        simpa using this
      rw [hf, List.length_cons]
    · have hf : (a :: l).filter (fun e => e.2 != q) = a :: l.filter fun e => e.2 != q := by
        simp [List.filter_cons, ha]
      rcases hq with hq | hq
      · exact absurd hq.symm ha
      · rw [hf, List.length_cons, List.length_cons, ih hn.2 hq]

theorem filter_ne_sum (l : List (Nat × Nat)) (q : Nat) (g : Nat → Nat)
    (hn : (l.map Prod.snd).Nodup) (hq : q ∈ l.map Prod.snd) :
    ((l.filter fun e => e.2 != q).map fun e => g e.2).sum + g q = (l.map fun e => g e.2).sum := by
  induction l with
  | nil => simp at hq
  | cons a l ih =>
    simp only [List.map_cons, List.nodup_cons, List.mem_cons] at hn hq
    by_cases ha : a.2 = q
    · have hf : (a :: l).filter (fun e => e.2 != q) = l := by
        rw [List.filter_cons]
        simp only [ha, bne_self_eq_false, Bool.false_eq_true, if_false]
        rw [List.filter_eq_self]
        intro e he
        have : e.2 ≠ q := by
          intro h
          apply hn.1
          rw [ha, ← h]
          exact List.mem_map_of_mem Prod.snd he
        simpa using this
      rw [hf, List.map_cons, List.sum_cons, ha]
      omega
    · have hf : (a :: l).filter (fun e => e.2 != q) = a :: l.filter fun e => e.2 != q := by
        simp [List.filter_cons, ha]
      rcases hq with hq | hq
      · exact absurd hq.symm ha
      · have := ih hn.2 hq
        rw [hf, List.map_cons, List.sum_cons, List.map_cons, List.sum_cons]
        omega

theorem wcount_le_vcount (m : Nat → Nat → Nat) (t : Nat) : wcount m t ≤ vcount m t := by
  unfold wcount vcount
  apply List.Sublist.length_le
  apply List.monotone_filter_right
  intro i h
  simp only [Bool.and_eq_true] at h
  exact h.1

/-! ### Unlinking a table -/

theorem unlink_entry (c : config) (s s1 : kstate) (p va L t q : Nat) (hI : SInv c s)
    (h : Unlink s s1 p va L t q) (p1 va1 L1 x j : Nat) (hd : dom s p1 va1) (h1 : 1 ≤ L1)
    (h4 : L1 ≤ 4) (hx : ptab s.mem (root s p1) va1 L1 = some x)
    (hne : ¬ (x = t ∧ j = slot va (L + 1))) : s1.mem x j = s.mem x j := by
  apply h.mem_o x j hne
  intro e
  exact hI.shadow p h.hp e.1 p1 va1 L1 hd h1 h4 (e.2 ▸ hx)

theorem unlink_invalid (s s1 : kstate) (p va L t q : Nat) (h : Unlink s s1 p va L t q)
    (j : Nat) (hj : j < 512) : s.mem q j &&& (PG_PS ||| PG_V) ≠ PG_V := by
  intro e
  have := vcount_zero_entry s.mem q j hj h.empty
  rw [psv_valid _ e] at this
  cases this

/-- The walks of the old state, from those of the new one. -/
theorem unlink_graft (c : config) (s s1 : kstate) (p va L t q : Nat) (hI : SInv c s)
    (h : Unlink s s1 p va L t q) (va1 L1 : Nat) (hva1 : va1 < 0x7f8000000000) (h1 : 1 ≤ L1)
    (h4 : L1 ≤ 4) :
    ptab s.mem (root s p) va1 L1 =
      if pfx va1 L = pfx va L ∧ L1 < L + 1 then (if L1 = L then some q else none)
      else ptab s1.mem (root s p) va1 L1 := by
  have hL1 := h.hL1
  have hL3 := h.hL3
  have hdp := dom_user s p va h.hp h.hva
  have hd1 := dom_user s p va1 h.hp hva1
  obtain ⟨t0, ht0, hpsv, hfrm⟩ := ptab_parent s.mem (root s p) va L q hL1 hL3 h.hq
  rw [h.ht] at ht0
  cases ht0
  have ht1 : ptab s1.mem (root s p) va (L + 1) = some t := by
    rw [← h.ht]
    apply ptab_congr _ _ _ _ _ (by omega) (by omega)
    intro j tj hj hj4 htj
    apply unlink_entry c s s1 p va L t q hI h p va j tj _ hdp (by omega) hj4 htj
    intro e
    have := hI.sep p va j p va (L + 1) tj hdp hdp (by omega) hj4 (by omega) (by omega) htj
      (e.1 ▸ h.ht)
    omega
  have := ptab_graft s1.mem s.mem (root s p) va (L + 1) t q (by omega) (by omega) ht1
    ⟨hpsv, hfrm⟩ (unlink_invalid s s1 p va L t q h) va1
    (by
      intro L2 t1 a2 a4 _ b2 hne
      exact (unlink_entry c s s1 p va L t q hI h p va1 L2 t1 _ hd1 (by omega) a4 b2 hne).symm)
    (by
      intro L2 a2 a4 _ b2
      have := hI.sep p va1 L2 p va (L + 1) t hd1 hdp (by omega) a4 (by omega) (by omega) b2
        h.ht
      exact ⟨this.1, this.1 ▸ this.2.2⟩) L1 h1 h4
  simpa using this

theorem unlink_ptab (c : config) (s s1 : kstate) (p va L t q : Nat) (hI : SInv c s)
    (h : Unlink s s1 p va L t q) (p1 va1 L1 : Nat) (hd : dom s p1 va1) (h1 : 1 ≤ L1)
    (h4 : L1 ≤ 4) :
    ptab s1.mem (root s1 p1) va1 L1 =
      if p1 = p ∧ pfx va1 L = pfx va L ∧ L1 ≤ L then none
      else ptab s.mem (root s p1) va1 L1 := by
  have hL1 := h.hL1
  have hL3 := h.hL3
  have hr : root s1 p1 = root s p1 := (h.pm p1).1
  have hdp := dom_user s p va h.hp h.hva
  rw [hr]
  by_cases hp1 : p1 = p
  · subst hp1
    have hva1 : va1 < 0x7f8000000000 := by
      rcases hd with hd | hd
      · exact hd.2
      · exact absurd (hd.1 ▸ h.hp) hI.kern_notin
    have hg := unlink_graft c s s1 p1 va L t q hI h
    by_cases hc : pfx va1 L = pfx va L ∧ L1 ≤ L
    · rw [if_pos ⟨rfl, hc⟩]
      -- the parent is still there, its entry is empty
      have hs := (pfx_split va va1 (L + 1) (by omega)).1 hc.1
      have e1 := hg va (L + 1) h.hva (by omega) (by omega)
      rw [if_neg (by omega), h.ht] at e1
      have e2 : ptab s1.mem (root s p1) va1 (L + 1) = some t := by
        rw [ptab_pfx s1.mem (root s p1) va va1 (L + 1) (by omega) (by omega) hs.1.symm]
        exact e1.symm
      have e3 : ptab s1.mem (root s p1) va1 L = none := by
        apply ptab_child_none s1.mem (root s p1) va1 L t hL1 hL3 e2
        rw [hs.2, h.mem_t]
        decide
      exact ptab_none_down s1.mem (root s p1) va1 L1 L h1 hc.2 (by omega) e3
    · have hn : ¬ (p1 = p1 ∧ pfx va1 L = pfx va L ∧ L1 ≤ L) := fun e => hc e.2
      rw [if_neg hn]
      have := hg va1 L1 hva1 h1 h4
      rw [if_neg (fun e => hc ⟨e.1, by omega⟩)] at this
      exact this.symm
  · have hn : ¬ (p1 = p ∧ pfx va1 L = pfx va L ∧ L1 ≤ L) := fun e => hp1 e.1
    rw [if_neg hn]
    apply ptab_congr _ _ _ _ _ h1 h4
    intro j x hj hj4 hx
    apply unlink_entry c s s1 p va L t q hI h p1 va1 j x _ hd (by omega) hj4 hx
    intro e
    have := hI.sep p1 va1 j p va (L + 1) x hd hdp (by omega) hj4 (by omega) (by omega) hx
      (e.1 ▸ h.ht)
    exact hp1 this.2.1

/-- A table of the new state is a table of the old state, and not the
unlinked one. -/
theorem unlink_cases (c : config) (s s1 : kstate) (p va L t q : Nat) (hI : SInv c s)
    (h : Unlink s s1 p va L t q) (p1 va1 L1 x : Nat) (hd : dom s p1 va1) (h1 : 1 ≤ L1)
    (h4 : L1 ≤ 4) (hx : ptab s1.mem (root s1 p1) va1 L1 = some x) :
    ptab s.mem (root s p1) va1 L1 = some x ∧ x ≠ q ∧
      ¬ (p1 = p ∧ pfx va1 L = pfx va L ∧ L1 ≤ L) := by
  rw [unlink_ptab c s s1 p va L t q hI h p1 va1 L1 hd h1 h4] at hx
  by_cases hc : p1 = p ∧ pfx va1 L = pfx va L ∧ L1 ≤ L
  · rw [if_pos hc] at hx
    cases hx
  · rw [if_neg hc] at hx
    refine ⟨hx, ?_, hc⟩
    intro e
    have hL1 := h.hL1
    have hL3 := h.hL3
    have := hI.sep p1 va1 L1 p va L x hd (dom_user s p va h.hp h.hva) h1 h4 hL1 (by omega) hx
      (e ▸ h.hq)
    exact hc ⟨this.2.1, this.1 ▸ this.2.2, by omega⟩

/-- A table of the old state, apart from the unlinked one, is a table of
the new state. -/
theorem unlink_old (c : config) (s s1 : kstate) (p va L t q : Nat) (hI : SInv c s)
    (h : Unlink s s1 p va L t q) (p1 va1 L1 x : Nat) (hd : dom s p1 va1) (h1 : 1 ≤ L1)
    (h4 : L1 ≤ 4) (hx : ptab s.mem (root s p1) va1 L1 = some x) (hxq : x ≠ q) :
    ptab s1.mem (root s1 p1) va1 L1 = some x := by
  rw [unlink_ptab c s s1 p va L t q hI h p1 va1 L1 hd h1 h4]
  by_cases hc : p1 = p ∧ pfx va1 L = pfx va L ∧ L1 ≤ L
  · exfalso
    have hva1 : va1 < 0x7f8000000000 := by
      rcases hd with hd | hd
      · exact hd.2
      · exact absurd (hd.1 ▸ hc.1 ▸ h.hp) hI.kern_notin
    have := unlink_graft c s s1 p va L t q hI h va1 L1 hva1 h1 h4
    rw [if_pos ⟨hc.2.1, by omega⟩, ← hc.1, hx] at this
    split at this
    · exact hxq (Option.some.inj this)
    · cases this
  · rw [if_neg hc]
    exact hx

theorem unlink_SInv (c : config) (s s1 : kstate) (p va L t q : Nat) (hI : SInv c s)
    (h : Unlink s s1 p va L t q) : SInv c s1 := by
  have hL1 := h.hL1
  have hL3 := h.hL3
  have hr : ∀ r, root s1 r = root s r := fun r => (h.pm r).1
  have hdom : ∀ r v, dom s1 r v ↔ dom s r v := by
    intro r v
    simp only [dom, h.pmaps]
  have hlive : ∀ r, live s1 r ↔ live s r := by
    intro r
    simp only [live, h.pmaps]
  have hdp := dom_user s p va h.hp h.hva
  have hcases := unlink_cases c s s1 p va L t q hI h
  have hent := unlink_entry c s s1 p va L t q hI h
  have hroot : ∀ r, live s r → ∀ j, 256 ≤ j → j < 512 →
      s1.mem (root s r) j = s.mem (root s r) j := by
    intro r hq j hj hj2
    obtain ⟨v, hv⟩ := live_dom s r hq
    apply hent r v 4 (root s r) j hv (by omega) (by omega) (ptab_4 _ _ _)
    intro e
    have := hI.sep r v 4 p va (L + 1) (root s r) hv hdp (by omega) (by omega) (by omega)
      (by omega) (ptab_4 _ _ _) (e.1 ▸ h.ht)
    have h4 : L + 1 = 4 := this.1.symm
    have := pfx_user va h.hva
    rw [e.2, h4, slot4] at hj
    omega
  constructor
  · exact hI.cfg
  · rw [h.init]
    exact hI.init
  · rw [h.pmaps]
    exact hI.kern_notin
  · rw [h.pmaps]
    exact hI.pmaps_nodup
  · obtain ⟨r, hq, hc⟩ := hI.cr3_live
    exact ⟨r, (hlive r).2 hq, by rw [hr, h.cr3]; exact hc⟩
  · intro r hq
    rw [hr]
    exact hI.root_ne r ((hlive r).1 hq)
  · intro r hq
    rw [(h.pm r).2.2.2.1]
    exact hI.normal r ((hlive r).1 hq)
  · intro r hq
    rw [(h.pm r).2.2.2.2.1]
    exact hI.refs r ((hlive r).1 hq)
  · intro r hq
    rw [(h.pm r).2.1, (h.pm r).1]
    exact hI.pdir r ((hlive r).1 hq)
  · intro r hq j hj hj2
    rw [h.pmaps] at hq
    rw [hr, hr, hroot r (Or.inr hq) j hj hj2, hroot 0 (Or.inl rfl) j hj hj2]
    exact hI.kshare r hq j hj hj2
  · intro j hj hj2
    rw [h.nkptp] at hj
    rw [hr, hroot 0 (Or.inl rfl) j (by omega) (by omega)]
    exact hI.kern_slots j hj hj2
  · intro r v L1 r1 v1 L2 x d1 d2 a1 a2 a3 a4 b1 b2
    rw [hdom] at d1 d2
    exact hI.sep r v L1 r1 v1 L2 x d1 d2 a1 a2 a3 a4 (hcases r v L1 x d1 a1 a2 b1).1
      (hcases r1 v1 L2 x d2 a3 a4 b2).1
  · intro r hq hne r1 v L1 d1 a1 a2 b
    rw [hdom] at d1
    rw [h.pmaps] at hq
    rw [(h.pm r).2.2.1] at hne b
    exact hI.shadow r hq hne r1 v L1 d1 a1 a2 (hcases r1 v L1 _ d1 a1 a2 b).1
  · intro x hx r v L1 d1 a1 a2 b
    rw [hdom] at d1
    rw [h.free] at hx
    exact hI.free_sep x hx r v L1 d1 a1 a2 (hcases r v L1 _ d1 a1 a2 b).1
  · intro x hx r hq hne
    rw [h.free] at hx
    rw [h.pmaps] at hq
    rw [(h.pm r).2.2.1] at hne ⊢
    exact hI.free_shadow x hx r hq hne
  · rw [h.free]
    exact hI.free_nodup
  · intro x hx
    rw [h.free] at hx
    exact hI.free_frame x hx
  · intro x hx r v L1 d1 a1 a2 b
    rw [hdom] at d1
    rw [h.pdp] at hx
    exact hI.pdp_sep x hx r v L1 d1 a1 a2 (hcases r v L1 _ d1 a1 a2 b).1
  · intro x hx r hq
    rw [h.pdp] at hx
    rw [h.pmaps] at hq
    rw [(h.pm r).2.2.1]
    exact hI.pdp_shadow x hx r hq
  · intro x hx
    rw [h.pdp] at hx
    rw [h.free]
    exact hI.pdp_free x hx
  · rw [h.pdp]
    exact hI.pdp_nodup
  · intro x hx
    rw [h.pdp] at hx
    exact hI.pdp_frame x hx
  · intro r hq
    rw [h.pool] at hq
    rw [h.pmaps]
    exact hI.pool_fresh r hq
  · rw [h.pool]
    exact hI.pool_nodup
  · -- idx
    intro r hq v L1 hv a1 a3
    rw [h.pmaps] at hq
    have hd := dom_user s r v hq hv
    rw [unlink_ptab c s s1 p va L t q hI h r v L1 hd a1 (by omega), h.obj]
    by_cases hc : r = p ∧ L1 - 1 = L - 1
    · have hLL : L1 = L := by omega
      rw [if_pos hc, lookup_filter_ne _ _ _ (hI.idx_nodup r hq L1 a1 a3),
        ← hI.idx r hq v L1 hv a1 a3, hLL, hc.1]
      by_cases hk : pfx v L = pfx va L
      · rw [if_pos ⟨rfl, hk, Nat.le_refl _⟩,
          ptab_pfx s.mem (root s p) va v L hL1 (by omega) hk.symm, h.hq, if_pos rfl]
      · have hn : ¬ (p = p ∧ pfx v L = pfx va L ∧ L ≤ L) := fun e => hk e.2.1
        have hn2 : ¬ ptab s.mem (root s p) v L = some q := by
          intro e
          have := hI.sep p v L p va L q (hc.1 ▸ hd) hdp hL1 (by omega) hL1 (by omega) e h.hq
          exact hk this.2.2
        rw [if_neg hn, if_neg hn2]
    · rw [if_neg hc]
      by_cases hn : r = p ∧ pfx v L = pfx va L ∧ L1 ≤ L
      · rw [if_pos hn, ← hI.idx r hq v L1 hv a1 a3, hn.1]
        have := unlink_graft c s s1 p va L t q hI h v L1 hv a1 (by omega)
        rw [if_pos ⟨hn.2.1, by omega⟩, if_neg (by omega)] at this
        exact this.symm
      · rw [if_neg hn]
        exact hI.idx r hq v L1 hv a1 a3
  · -- idx_keys
    intro r hq L1 a1 a3 e he
    rw [h.pmaps] at hq
    rw [h.obj] at he
    split at he
    · exact hI.idx_keys r hq L1 a1 a3 e (List.mem_filter.1 he).1
    · exact hI.idx_keys r hq L1 a1 a3 e he
  · -- idx_nodup
    intro r hq L1 a1 a3
    rw [h.pmaps] at hq
    rw [h.obj]
    split
    · exact List.Nodup.sublist (List.Sublist.map _ (List.filter_sublist _))
        (hI.idx_nodup r hq L1 a1 a3)
    · exact hI.idx_nodup r hq L1 a1 a3
  · -- shape
    intro r hq v L1 x hv a2 a4 b
    rw [h.pmaps] at hq
    have hd := dom_user s r v hq hv
    have e2 := (hcases r v L1 x hd (by omega) a4 b).1
    by_cases hx : x = t ∧ slot v L1 = slot va (L + 1)
    · left
      rw [hx.1, hx.2, h.mem_t]
    · rw [hent r v L1 x _ hd (by omega) a4 e2 hx]
      exact hI.shape r hq v L1 x hv a2 a4 e2
  · -- leaf_shape
    intro r hq v x hv b
    rw [h.pmaps] at hq
    have hd := dom_user s r v hq hv
    have e2 := (hcases r v 1 x hd (by omega) (by omega) b).1
    have hx : ¬ (x = t ∧ slot v 1 = slot va (L + 1)) := by
      intro e
      have := hI.sep r v 1 p va (L + 1) x hd hdp (by omega) (by omega) (by omega) (by omega) e2
        (e.1 ▸ h.ht)
      omega
    rw [hent r v 1 x _ hd (by omega) (by omega) e2 hx]
    exact hI.leaf_shape r hq v x hv e2
  · -- direct
    intro v a1 a2
    have hne : ¬ (0 = p ∧ pfx v L = pfx va L ∧ 1 ≤ L) :=
      fun e => hI.kern_notin (e.1 ▸ h.hp)
    rw [unlink_ptab c s s1 p va L t q hI h 0 v 1 (dom_direct s v a1 a2) (by omega) (by omega),
      if_neg hne]
    exact hI.direct v a1 a2

/-- The leaf tables of the old state keep their entries. -/
theorem unlink_leaf (c : config) (s s1 : kstate) (p va L t q : Nat) (hI : SInv c s)
    (h : Unlink s s1 p va L t q) (r v x : Nat) (hd : dom s r v)
    (hx : ptab s.mem (root s r) v 1 = some x) (j : Nat) : s1.mem x j = s.mem x j := by
  apply unlink_entry c s s1 p va L t q hI h r v 1 x j hd (by omega) (by omega) hx
  intro e
  have := hI.sep r v 1 p va (L + 1) x hd (dom_user s p va h.hp h.hva) (by omega) (by omega)
    (by omega) (by have := h.hL3; omega) hx (e.1 ▸ h.ht)
  have := h.hL1
  omega

theorem unlink_WInv (c : config) (s s1 : kstate) (p va L t q : Nat) (hI : SInv c s)
    (hW : WInv s) (h : Unlink s s1 p va L t q) : WInv s1 := by
  have hL1 := h.hL1
  have hL3 := h.hL3
  have hdp := dom_user s p va h.hp h.hva
  obtain ⟨t0, ht0, hpsv, hfrm⟩ := ptab_parent s.mem (root s p) va L q hL1 hL3 h.hq
  rw [h.ht] at ht0
  cases ht0
  constructor
  intro r hq v L1 x hv a1 a3 b
  rw [h.pmaps] at hq
  have hd := dom_user s r v hq hv
  obtain ⟨e2, e1, _⟩ := unlink_cases c s s1 p va L t q hI h r v L1 x hd a1 (by omega) b
  have hold := hW.wire r hq v L1 x hv a1 a3 e2
  by_cases hx : x = t
  · subst hx
    have hs := hI.sep r v L1 p va (L + 1) x hd hdp a1 (by omega) (by omega) (by omega) e2 h.ht
    have hc : vcount s1.mem x = vcount (mem_set s.mem x (slot va (L + 1)) 0) x := by
      apply vcount_congr
      intro j _
      by_cases hj : j = slot va (L + 1)
      · rw [hj, mem_set_same, h.mem_t]
      · rw [mem_set_other _ _ _ _ _ _ (fun e => hj e.2)]
        exact unlink_entry c s s1 p va L x q hI h r v L1 x j hd a1 (by omega) e2
          (fun e => hj e.2)
    have hset := vcount_set s.mem x (slot va (L + 1)) 0 (slot_lt va (L + 1))
    rw [vbit_zero, vbit_valid _ (psv_valid _ hpsv)] at hset
    have := h.wire_t (by omega)
    rw [hc]
    omega
  · rw [h.wire_o x e1 (fun e => hx e.1), hold]
    congr 1
    symm
    apply vcount_congr
    intro j _
    exact unlink_entry c s s1 p va L t q hI h r v L1 x j hd a1 (by omega) e2
      (fun e => hx e.1)

theorem unlink_CInv (c : config) (s s1 : kstate) (p va L t q : Nat) (hI : SInv c s)
    (hC : CInv s) (h : Unlink s s1 p va L t q) : CInv s1 := by
  have hL1 := h.hL1
  have hL3 := h.hL3
  have hqm := table_mem_idx c s hI p va L q h.hp h.hva hL1 hL3 h.hq
  have hqp : q ∈ ((s.pm p).pm_obj (L - 1)).map Prod.snd := List.mem_map_of_mem Prod.snd hqm
  have hnd := idx_pages_nodup c s hI p L h.hp hL1 hL3
  have hvc : ∀ r ∈ s.pmaps, ∀ e ∈ (s.pm r).pm_obj 0, vcount s1.mem e.2 = vcount s.mem e.2 := by
    intro r hq e he
    obtain ⟨v, hv, _, hx⟩ := idx_mem_table c s hI r 1 e hq (by omega) (by omega) he
    apply vcount_congr
    intro j _
    exact unlink_leaf c s s1 p va L t q hI h r v e.2 (dom_user s r v hq hv) hx j
  have hwc : ∀ r ∈ s.pmaps, ∀ e ∈ (s.pm r).pm_obj 0, wcount s1.mem e.2 = wcount s.mem e.2 := by
    intro r hq e he
    obtain ⟨v, hv, _, hx⟩ := idx_mem_table c s hI r 1 e hq (by omega) (by omega) he
    apply wcount_congr
    intro j _
    exact unlink_leaf c s s1 p va L t q hI h r v e.2 (dom_user s r v hq hv) hx j
  have hw0 : wcount s.mem q = 0 := by
    have := wcount_le_vcount s.mem q
    have := h.empty
    omega
  have hlc : ∀ r ∈ s.pmaps, leaf_count s1 r = leaf_count s r := by
    intro r hq
    simp only [leaf_count, h.obj]
    by_cases hc : r = p ∧ 0 = L - 1
    · rw [if_pos hc]
      have hL : L = 1 := by omega
      subst hL
      rw [hc.1]
      have e1 := sum_congr_pages (((s.pm p).pm_obj 0).filter fun e => e.2 != q)
        (vcount s.mem) (vcount s1.mem)
        (fun e he => hvc p h.hp e (List.mem_filter.1 he).1)
      have e2 := filter_ne_sum ((s.pm p).pm_obj 0) q (vcount s.mem) hnd hqp
      rw [h.empty] at e2
      rw [e1]
      exact e2
    · rw [if_neg hc]
      exact sum_congr_pages _ _ _ (hvc r hq)
  have hwl : ∀ r ∈ s.pmaps, wired_leaf_count s1 r = wired_leaf_count s r := by
    intro r hq
    simp only [wired_leaf_count, h.obj]
    by_cases hc : r = p ∧ 0 = L - 1
    · rw [if_pos hc]
      have hL : L = 1 := by omega
      subst hL
      rw [hc.1]
      have e1 := sum_congr_pages (((s.pm p).pm_obj 0).filter fun e => e.2 != q)
        (wcount s.mem) (wcount s1.mem)
        (fun e he => hwc p h.hp e (List.mem_filter.1 he).1)
      have e2 := filter_ne_sum ((s.pm p).pm_obj 0) q (wcount s.mem) hnd hqp
      rw [hw0] at e2
      rw [e1]
      exact e2
    · rw [if_neg hc]
      exact sum_congr_pages _ _ _ (hwc r hq)
  have hpc : ∀ r, ptp_count s1 r + (if r = p then 1 else 0) = ptp_count s r := by
    intro r
    have hlen := filter_ne_length ((s.pm p).pm_obj (L - 1)) q hnd hqp
    simp only [ptp_count, h.obj, (h.pm r).2.2.1]
    by_cases hq : r = p
    · subst hq
      have hi : L = 1 ∨ L = 2 ∨ L = 3 := by omega
      rcases hi with e | e | e <;> subst e <;> simp at hlen ⊢ <;> omega
    · simp [hq]
  constructor
  · intro r hq
    rw [h.pmaps] at hq
    have := hpc r
    rw [h.res r, hlc r hq, hC.resident r hq]
    split at this
    · simp_all
      omega
    · simp_all
  · intro r hq
    rw [h.pmaps] at hq
    rw [(h.pm r).2.2.2.2.2, hwl r hq]
    exact hC.wired r hq

theorem unlink_PInv (c : config) (s s1 : kstate) (p va L t q : Nat) (hI : SInv c s)
    (hP : PInv c s) (h : Unlink s s1 p va L t q) : PInv c s1 := by
  have hdom : ∀ r v, dom s1 r v ↔ dom s r v := by
    intro r v
    simp only [dom, h.pmaps]
  have hleaf := unlink_leaf c s s1 p va L t q hI h
  have hcases := unlink_cases c s s1 p va L t q hI h
  constructor
  · intro g e he
    rw [h.pv] at he
    obtain ⟨hd, ha, x, hx, hv, hfm, hpl, hpt⟩ := hP.pv_sound g e he
    have hxq : x ≠ q := by
      intro e1
      have := vcount_zero_entry s.mem q (slot e.pv_va 1) (slot_lt _ _) h.empty
      rw [← e1, hv] at this
      cases this
    refine ⟨(hdom _ _).2 hd, ha, x,
      unlink_old c s s1 p va L t q hI h _ _ 1 x hd (by omega) (by omega) hx hxq, ?_⟩
    rw [hleaf _ _ x hd hx]
    exact ⟨hv, hfm, hpl, hpt⟩
  · intro r v x hd ha hx hv hpl
    rw [hdom] at hd
    have e2 := (hcases r v 1 x hd (by omega) (by omega) hx).1
    rw [hleaf r v x hd e2] at hv hpl ⊢
    rw [h.pv]
    exact hP.pv_complete r v x hd ha e2 hv hpl
  · intro g
    rw [h.pv]
    exact hP.pv_nodup g
  · intro r v x hd hx hv
    rw [hdom] at hd
    have e2 := (hcases r v 1 x hd (by omega) (by omega) hx).1
    rw [hleaf r v x hd e2] at hv ⊢
    exact hP.pv_managed r v x hd e2 hv

theorem unlink_Inv (c : config) (s s1 : kstate) (p va L t q : Nat) (hI : Inv c s)
    (h : Unlink s s1 p va L t q) : Inv c s1 :=
  ⟨unlink_SInv c s s1 p va L t q hI.tree h, unlink_WInv c s s1 p va L t q hI.tree hI.wire h,
    unlink_CInv c s s1 p va L t q hI.tree hI.count h,
    unlink_PInv c s s1 p va L t q hI.tree hI.pv h⟩

/-- The pages waiting to be freed stay so, and the unlinked table joins them. -/
theorem unlink_limbo (c : config) (s s1 : kstate) (p va L t q : Nat) (hI : SInv c s)
    (h : Unlink s s1 p va L t q) (l : List Nat) (hl : Limbo s l) : Limbo s1 (l ++ [q]) := by
  have hL1 := h.hL1
  have hL3 := h.hL3
  have hdp := dom_user s p va h.hp h.hva
  have hdom : ∀ r v, dom s1 r v ↔ dom s r v := by
    intro r v
    simp only [dom, h.pmaps]
  have hnt : ∀ f, ¬ is_table s f → ¬ is_table s1 f := by
    intro f hf ⟨r, v, L1, hd, a1, a4, hx⟩
    rw [hdom] at hd
    exact hf ⟨r, v, L1, hd, a1, a4,
      (unlink_cases c s s1 p va L t q hI h r v L1 f hd a1 a4 hx).1⟩
  have hqt : is_table s q := ⟨p, va, L, hdp, hL1, by omega, h.hq⟩
  obtain ⟨t0, _, _, hfrm⟩ := ptab_parent s.mem (root s p) va L q hL1 hL3 h.hq
  constructor
  · rw [List.nodup_append]
    refine ⟨hl.1, List.nodup_singleton q, ?_⟩
    intro a ha hb
    rw [List.mem_singleton] at hb
    subst hb
    exact (hl.2 a ha).1 hqt
  · intro f hf
    rw [List.mem_append, List.mem_singleton] at hf
    rw [h.free, h.pdp, h.pmaps]
    rcases hf with hf | hf
    · obtain ⟨a1, a2, a3, a4, a5⟩ := hl.2 f hf
      refine ⟨hnt f a1, a2, a3, ?_, a5⟩
      intro r hr
      rw [(h.pm r).2.2.1]
      exact a4 r hr
    · subst hf
      refine ⟨?_, ?_, ?_, ?_, ?_⟩
      · rintro ⟨r, v, L1, hd, a1, a4, hx⟩
        rw [hdom] at hd
        exact (unlink_cases c s s1 p va L t f hI h r v L1 f hd a1 a4 hx).2.1 rfl
      · exact fun e => hI.free_sep f e p va L hdp hL1 (by omega) h.hq
      · exact fun e => hI.pdp_sep f e p va L hdp hL1 (by omega) h.hq
      · intro r hr
        rw [(h.pm r).2.2.1]
        intro hne e
        exact hI.shadow r hr hne p va L hdp hL1 (by omega) (e ▸ h.hq)
      · rw [← hfrm]
        exact and_frame_frame _

/-! ## pmap_free_ptp -/

theorem free_round_spec (c : config) (s : kstate) (hI : Inv c s) (p va L q n : Nat)
    (l : List Nat) (hp : p ∈ s.pmaps) (hva : va < 0x7f8000000000) (hmp : mapped s p)
    (hL1 : 1 ≤ L) (hL3 : L ≤ 3) (hq : ptab s.mem (root s p) va L = some q)
    (hempty : vcount s.mem q = 0) :
    ∃ t s1, Unlink s s1 p va L t q ∧ s1.pv_pool = s.pv_pool ∧
      pmap_free_ptp_loop s p va (n + 1) q L l =
        (if L < 3 then
          (if s1.wire_count t > 1 then some (s1, l ++ [q])
           else pmap_free_ptp_loop s1 p va n t (L + 1) (l ++ [q]))
         else some (s1, l ++ [q])) := by
  have hS := hI.tree
  have hp0 : p ≠ 0 := fun e => hS.kern_notin (e ▸ hp)
  have hcr : s.cr3 = root s p := hmp.resolve_right hp0
  have hd := dom_user s p va hp hva
  obtain ⟨t, ht, hpsv, hfrm⟩ := ptab_parent s.mem (root s p) va L q hL1 hL3 hq
  have htq : t ≠ q := by
    intro e
    have := hS.sep p va (L + 1) p va L t hd hd (by omega) (by omega) hL1 (by omega) ht
      (e ▸ hq)
    omega
  obtain ⟨sF, hsF⟩ : ∃ sF, sF = (pmap_freepage s p q L l).1 := ⟨_, rfl⟩
  have hl : (pmap_freepage s p q L l).2 = l ++ [q] := rfl
  have b1 : sF.mem = s.mem ∧ sF.cr3 = s.cr3 ∧ sF.free_pages = s.free_pages ∧
      sF.pmaps = s.pmaps ∧ sF.pdp_pool = s.pdp_pool ∧ sF.pmap_pool = s.pmap_pool ∧
      sF.pmap_initialized = s.pmap_initialized ∧ sF.nkptp = s.nkptp ∧
      sF.pv_list = s.pv_list ∧ sF.pv_pool = s.pv_pool ∧
      sF.wire_count = upd s.wire_count q 0 := by
    rw [hsF]
    simp only [pmap_freepage]
    split <;> simp [obj_remove, set_wire, set_hint, add_resident]
  obtain ⟨b11, b12, b13, b14, b15, b16, b17, b18, b19, b110, b111⟩ := b1
  have b2 : ∀ r, (sF.pm r).pm_pdirpa = (s.pm r).pm_pdirpa ∧
      (sF.pm r).pm_pdir = (s.pm r).pm_pdir ∧
      (sF.pm r).pm_pdir_intel = (s.pm r).pm_pdir_intel ∧
      (sF.pm r).pm_type = (s.pm r).pm_type ∧ (sF.pm r).uo_refs = (s.pm r).uo_refs ∧
      (sF.pm r).wired_count = (s.pm r).wired_count ∧
      (sF.pm r).resident_count = (s.pm r).resident_count - (if r = p then 1 else 0) ∧
      ∀ k, (sF.pm r).pm_obj k =
        if r = p ∧ k = L - 1 then ((s.pm r).pm_obj k).filter fun e => e.2 != q
        else (s.pm r).pm_obj k := by
    intro r
    rw [hsF]
    simp only [pmap_freepage]
    by_cases hr : r = p
    · subst hr
      split <;> simp [obj_remove, set_wire, set_hint, add_resident, upd] <;>
        (refine ⟨by omega, fun k => ?_⟩; by_cases hk : k = L - 1 <;> simp [hk])
    · split <;> simp [obj_remove, set_wire, set_hint, add_resident, upd, hr]
  have pw : pde_write sF va (L + 1) 0 = some (set_mem sF t (slot va (L + 1)) 0) := by
    apply pde_write_of_ptab sF va (L + 1) t _ (by omega) (by omega)
    rw [b11, b12, hcr]
    exact ht
  have hwb := wire_bound c s hS hI.wire p va t (L + 1) hp hva (by omega)
  have hvpos := vcount_pos s.mem t (slot va (L + 1)) (slot_lt _ _) (psv_valid _ hpsv)
  -- the fields of the possible final states
  have fin : ∀ s1 : kstate,
      (s1 = set_mem sF t (slot va (L + 1)) 0 ∧ L = 3 ∨
       s1 = set_mem (set_mem sF t (slot va (L + 1)) 0) (s.pm p).pm_pdir_intel
          (pl_i va (L + 1)) 0 ∧ L = 3 ∧ (s.pm p).pm_pdir_intel ≠ 0 ∨
       s1 = wire_dec (set_mem sF t (slot va (L + 1)) 0) t ∧ L < 3) →
      Unlink s s1 p va L t q ∧ s1.pv_pool = s.pv_pool := by
    intro s1 h1
    have hshn : (s.pm p).pm_pdir_intel ≠ 0 → (s.pm p).pm_pdir_intel ≠ t := by
      intro hne e
      exact hS.shadow p hp hne p va (L + 1) hd (by omega) (by omega) (e ▸ ht)
    have hmemo : ∀ t1 j, ¬ (t1 = t ∧ j = slot va (L + 1)) →
        ¬ ((s.pm p).pm_pdir_intel ≠ 0 ∧ t1 = (s.pm p).pm_pdir_intel) →
        s1.mem t1 j = s.mem t1 j := by
      intro t1 j h2 h3
      rcases h1 with ⟨e, _⟩ | ⟨e, _, hne⟩ | ⟨e, _⟩ <;> rw [e]
      · simp only [set_mem, mem_set, b11, h2, if_false]
      · have h4 : t1 ≠ (s.pm p).pm_pdir_intel := fun e1 => h3 ⟨hne, e1⟩
        simp only [set_mem, mem_set, b11, h2, h4, if_false, false_and]
      · simp only [wire_dec, set_wire, set_mem, mem_set, b11, h2, if_false]
    have hmemt : s1.mem t (slot va (L + 1)) = 0 := by
      rcases h1 with ⟨e, _⟩ | ⟨e, _, hne⟩ | ⟨e, _⟩ <;> rw [e]
      · simp only [set_mem, mem_set_same]
      · simp only [set_mem]
        rw [mem_set_other _ _ _ _ _ _ (fun e1 => hshn hne e1.1.symm), mem_set_same]
      · simp only [wire_dec, set_wire, set_mem, mem_set_same]
    have hpm : s1.pm = sF.pm := by
      rcases h1 with ⟨e, _⟩ | ⟨e, _, hne⟩ | ⟨e, _⟩ <;> rw [e] <;> rfl
    have hwire : s1.wire_count = if L < 3 then
        upd (upd s.wire_count q 0) t ((upd s.wire_count q 0 t + (2 ^ 32 - 1)) % 2 ^ 32)
        else upd s.wire_count q 0 := by
      rcases h1 with ⟨e, h4⟩ | ⟨e, h4, hne⟩ | ⟨e, h4⟩ <;> rw [e]
      · rw [if_neg (by omega)]
        simp [set_mem, b111]
      · rw [if_neg (by omega)]
        simp [set_mem, b111]
      · rw [if_pos h4]
        simp [wire_dec, set_wire, set_mem, b111]
    have hoth : s1.free_pages = s.free_pages ∧ s1.pmaps = s.pmaps ∧
        s1.pdp_pool = s.pdp_pool ∧ s1.pmap_pool = s.pmap_pool ∧
        s1.pmap_initialized = s.pmap_initialized ∧ s1.nkptp = s.nkptp ∧ s1.cr3 = s.cr3 ∧
        s1.pv_list = s.pv_list ∧ s1.pv_pool = s.pv_pool := by
      rcases h1 with ⟨e, _⟩ | ⟨e, _, hne⟩ | ⟨e, _⟩ <;> rw [e] <;>
        simp [wire_dec, set_wire, set_mem, b12, b13, b14, b15, b16, b17, b18, b19, b110]
    obtain ⟨o1, o2, o3, o4, o5, o6, o7, o8, o9⟩ := hoth
    refine ⟨?_, o9⟩
    constructor
    · exact hp
    · exact hva
    · exact hL1
    · exact hL3
    · exact hq
    · exact ht
    · exact hempty
    · exact o1
    · exact o2
    · exact o3
    · exact o4
    · exact o5
    · exact o6
    · exact o7
    · exact o8
    · intro r
      rw [hpm]
      obtain ⟨c1, c2, c3, c4, c5, c6, _⟩ := b2 r
      exact ⟨c1, c2, c3, c4, c5, c6⟩
    · intro r k
      rw [hpm]
      exact (b2 r).2.2.2.2.2.2.2 k
    · intro r
      rw [hpm]
      exact (b2 r).2.2.2.2.2.2.1
    · rw [hwire]
      split
      · simp [upd, htq.symm]
      · simp [upd]
    · intro h4
      rw [hwire, if_pos h4]
      have := hwb (by omega) ht
      simp only [upd, if_true, htq, if_false]
      rw [dec32 _ (by omega) (by omega)]
      omega
    · intro t1 h1 h2
      rw [hwire]
      split
      · rename_i h4
        have : t1 ≠ t := fun e => h2 ⟨e, h4⟩
        simp [upd, this, h1]
      · simp [upd, h1]
    · exact hmemt
    · exact hmemo
    · intro t1 j
      rcases h1 with ⟨e, _⟩ | ⟨e, _, hne⟩ | ⟨e, _⟩ <;> rw [e] <;>
        simp only [wire_dec, set_wire, set_mem, mem_set, b11] <;> split_ifs <;> simp
  have hobjL : L < 3 → ((set_mem sF t (slot va (L + 1)) 0).pm p).pm_obj L =
      (s.pm p).pm_obj L := by
    intro h3
    rw [show ((set_mem sF t (slot va (L + 1)) 0).pm p).pm_obj L = (sF.pm p).pm_obj L from rfl,
      (b2 p).2.2.2.2.2.2.2 L, if_neg (by omega)]
  have hloop : pmap_free_ptp_loop s p va (n + 1) q L l =
      match pde_write sF va (L + 1) 0 with
      | none => none
      | some s1 =>
        if L < PTP_LEVELS - 1 then
          match pmap_find_ptp (if L = 3 ∧ (s1.pm p).pm_pdir_intel ≠ 0 then
              set_mem s1 (s1.pm p).pm_pdir_intel (pl_i va (L + 1)) 0 else s1) p va PADDR_NONE
              (L + 1) with
          | none => none
          | some pptp =>
            if (wire_dec (if L = 3 ∧ (s1.pm p).pm_pdir_intel ≠ 0 then
                set_mem s1 (s1.pm p).pm_pdir_intel (pl_i va (L + 1)) 0 else s1)
                pptp).wire_count pptp > 1 then
              some (wire_dec (if L = 3 ∧ (s1.pm p).pm_pdir_intel ≠ 0 then
                set_mem s1 (s1.pm p).pm_pdir_intel (pl_i va (L + 1)) 0 else s1) pptp, l ++ [q])
            else if L + 1 < PTP_LEVELS then
              pmap_free_ptp_loop (wire_dec (if L = 3 ∧ (s1.pm p).pm_pdir_intel ≠ 0 then
                set_mem s1 (s1.pm p).pm_pdir_intel (pl_i va (L + 1)) 0 else s1) pptp) p va n
                pptp (L + 1) (l ++ [q])
            else some (wire_dec (if L = 3 ∧ (s1.pm p).pm_pdir_intel ≠ 0 then
                set_mem s1 (s1.pm p).pm_pdir_intel (pl_i va (L + 1)) 0 else s1) pptp, l ++ [q])
        else if L + 1 < PTP_LEVELS then
          pmap_free_ptp_loop (if L = 3 ∧ (s1.pm p).pm_pdir_intel ≠ 0 then
            set_mem s1 (s1.pm p).pm_pdir_intel (pl_i va (L + 1)) 0 else s1) p va n q (L + 1)
            (l ++ [q])
        else some (if L = 3 ∧ (s1.pm p).pm_pdir_intel ≠ 0 then
            set_mem s1 (s1.pm p).pm_pdir_intel (pl_i va (L + 1)) 0 else s1, l ++ [q]) := by
    rw [hsF]
    rfl
  rw [hloop, pw]
  simp only []
  have hint : ((set_mem sF t (slot va (L + 1)) 0).pm p).pm_pdir_intel =
      (s.pm p).pm_pdir_intel := (b2 p).2.2.1
  rw [hint]
  by_cases h3 : L < 3
  · have hlt : L < PTP_LEVELS - 1 := h3
    have hlt2 : L + 1 < PTP_LEVELS := by
      simp only [PTP_LEVELS]
      omega
    have hc : ¬ (L = 3 ∧ (s.pm p).pm_pdir_intel ≠ 0) := fun e => by omega
    simp only [hc, if_false, hlt, if_true, hlt2, h3]
    have hfind : pmap_find_ptp (set_mem sF t (slot va (L + 1)) 0) p va PADDR_NONE (L + 1) =
        some t := by
      simp only [pmap_find_ptp, ne_eq, not_true_eq_false, false_and, if_false, uvm_pagelookup,
        Nat.add_sub_cancel]
      rw [hobjL h3, ptp_va2o_eq va (L + 1) (by omega) (by omega)]
      have := hS.idx p hp va (L + 1) hva (by omega) (by omega)
      rw [Nat.add_sub_cancel] at this
      rw [← this]
      exact ht
    simp only [hfind]
    exact ⟨t, _, (fin _ (Or.inr (Or.inr ⟨rfl, h3⟩))).1, (fin _ (Or.inr (Or.inr ⟨rfl, h3⟩))).2,
      rfl⟩
  · have hL : L = 3 := by omega
    have hlt : ¬ L < PTP_LEVELS - 1 := h3
    have hlt2 : ¬ L + 1 < PTP_LEVELS := by
      simp only [PTP_LEVELS]
      omega
    simp only [hlt, if_false, hlt2, h3]
    by_cases hc : L = 3 ∧ (s.pm p).pm_pdir_intel ≠ 0
    · rw [if_pos hc]
      exact ⟨t, _, (fin _ (Or.inr (Or.inl ⟨rfl, hL, hc.2⟩))).1,
        (fin _ (Or.inr (Or.inl ⟨rfl, hL, hc.2⟩))).2, rfl⟩
    · rw [if_neg hc]
      exact ⟨t, _, (fin _ (Or.inl ⟨rfl, hL⟩)).1, (fin _ (Or.inl ⟨rfl, hL⟩)).2, rfl⟩

theorem unlink_shrink (s s1 : kstate) (p va L t q : Nat) (h : Unlink s s1 p va L t q) :
    shrink s s1 :=
  ⟨h.pmaps, fun r => (h.pm r).1, h.mem_s⟩

theorem unlink_index (c : config) (s s1 : kstate) (p va L t q : Nat) (hI : SInv c s)
    (h : Unlink s s1 p va L t q) (r : Nat) (hr : r ∈ s.pmaps) (k : Nat) (hk : k < 3)
    (e : Nat × Nat) (he : e ∈ (s1.pm r).pm_obj k) :
    e ∈ (s.pm r).pm_obj k ∧ e.2 ≠ q ∧
      (¬ (e.2 = t ∧ L < 3) → s1.wire_count e.2 = s.wire_count e.2) := by
  have hL1 := h.hL1
  have hL3 := h.hL3
  have hdp := dom_user s p va h.hp h.hva
  rw [h.obj] at he
  have hmem : e ∈ (s.pm r).pm_obj k := by
    split at he
    · exact (List.mem_filter.mp he).1
    · exact he
  have hne : e.2 ≠ q := by
    intro e1
    by_cases hc : r = p ∧ k = L - 1
    · rw [if_pos hc] at he
      have := (List.mem_filter.mp he).2
      simp [e1] at this
    · obtain ⟨v, hv, _, hx⟩ := idx_mem_table c s hI r (k + 1) e hr (by omega) (by omega) hmem
      have := hI.sep r v (k + 1) p va L q (dom_user s r v hr hv) hdp (by omega) (by omega) hL1
        (by omega) (e1 ▸ hx) h.hq
      exact hc ⟨this.2.1, by omega⟩
  exact ⟨hmem, hne, fun h2 => h.wire_o e.2 hne h2⟩

/-- Taking an empty table out of the tree keeps every valid leaf. -/
theorem keeps_unlink (c : config) (s s1 : kstate) (p va L t q : Nat) (hS : SInv c s)
    (h : Unlink s s1 p va L t q) : keeps s s1 p (fun _ => False) := by
  refine ⟨?_, (h.pm 0).1, ?_⟩
  · intro v x hv _ hx hval
    have hd := dom_user s p v h.hp hv
    have hxq : x ≠ q := by
      intro e
      subst e
      have h1 := (hS.sep p v 1 p va L x hd (dom_user s p va h.hp h.hva) (by omega) (by omega)
        h.hL1 (by have := h.hL3; omega) hx h.hq).1
      subst h1
      have h0 := vcount_zero_entry s.mem x _ (slot_lt v 1) h.empty
      rw [hval] at h0
      cases h0
    exact ⟨unlink_old c s s1 p va L t q hS h p v 1 x hd (by omega) (by omega) hx hxq,
      unlink_leaf c s s1 p va L t q hS h p v x hd hx _⟩
  · intro v L1 x hv1 hv2 hL1 hL4 hx j
    apply unlink_entry c s s1 p va L t q hS h 0 v L1 x j (Or.inr ⟨rfl, hv1, hv2⟩) hL1 hL4 hx
    intro e
    have hsep := hS.sep 0 v L1 p va (L + 1) x (Or.inr ⟨rfl, hv1, hv2⟩)
      (dom_user s p va h.hp h.hva) hL1 hL4 (by omega) (by have := h.hL3; omega) hx
      (e.1 ▸ h.ht)
    exact hS.kern_notin (hsep.2.1 ▸ h.hp)

/-- The loop of `pmap_free_ptp` from an empty page-table page on. -/
theorem free_ptp_loop_spec (c : config) (p va : Nat) (hva : va < 0x7f8000000000) :
    ∀ n s q L l, Inv c s → p ∈ s.pmaps → mapped s p → 1 ≤ L → L ≤ 3 → 4 ≤ L + n →
      ptab s.mem (root s p) va L = some q → vcount s.mem q = 0 → Limbo s l →
      ∃ s1 l1, pmap_free_ptp_loop s p va n q L l = some (s1, l1) ∧ Inv c s1 ∧ Limbo s1 l1 ∧
        s1.cr3 = s.cr3 ∧ shrink s s1 ∧ s1.pv_list = s.pv_list ∧ s1.pv_pool = s.pv_pool ∧
        s1.free_pages = s.free_pages ∧ wkeep_ex s s1 q ∧
        (∀ r, (s1.pm r).uo_refs = (s.pm r).uo_refs) ∧ keeps s s1 p (fun _ => False) := by
  intro n
  induction n with
  | zero =>
    intro s q L l _ _ _ _ h3 h4
    omega
  | succ n ih =>
    intro s q L l hI hp hmp hL1 hL3 hn hq hempty hl
    obtain ⟨t, s', hU, hpool, heq⟩ := free_round_spec c s hI p va L q n l hp hva hmp hL1 hL3 hq
      hempty
    have hI' := unlink_Inv c s s' p va L t q hI hU
    have hl' := unlink_limbo c s s' p va L t q hI.tree hU l hl
    have hsh := unlink_shrink s s' p va L t q hU
    have hk := keeps_unlink c s s' p va L t q hI.tree hU
    have hdone : (¬ L < 3 ∨ 1 < s'.wire_count t) → wkeep_ex s s' q := by
      intro hc r hr k hk e he
      obtain ⟨a1, a2, a3⟩ := unlink_index c s s' p va L t q hI.tree hU r hr k hk e he
      refine ⟨a1, a2, ?_⟩
      by_cases h2 : e.2 = t ∧ L < 3
      · right
        rw [h2.1]
        exact hc.resolve_left (fun h => h h2.2)
      · exact Or.inl (a3 h2)
    rw [heq]
    by_cases h3 : L < 3
    · rw [if_pos h3]
      by_cases hw : s'.wire_count t > 1
      · rw [if_pos hw]
        exact ⟨s', _, rfl, hI', hl', hU.cr3, hsh, hU.pv, hpool, hU.free, hdone (Or.inr hw),
          fun r => (hU.pm r).2.2.2.2.1, hk⟩
      · rw [if_neg hw]
        have hp' : p ∈ s'.pmaps := hU.pmaps ▸ hp
        have hp0 : p ≠ 0 := fun e => hI.tree.kern_notin (e ▸ hp)
        have hmp' : mapped s' p := by
          left
          rw [hU.cr3, hmp.resolve_right hp0]
          exact ((hU.pm p).1).symm
        have htq : t ≠ q := by
          intro e
          have hd := dom_user s p va hp hva
          have := hI.tree.sep p va (L + 1) p va L t hd hd (by omega) (by omega) hL1 (by omega)
            hU.ht (e ▸ hq)
          omega
        have ht' : ptab s'.mem (root s' p) va (L + 1) = some t :=
          unlink_old c s s' p va L t q hI.tree hU p va (L + 1) t (dom_user s p va hp hva)
            (by omega) (by omega) hU.ht htq
        have hv' : vcount s'.mem t = 0 := by
          have := hI'.wire.wire p hp' va (L + 1) t hva (by omega) (by omega) ht'
          omega
        obtain ⟨s1, l1, b1, b2, b3, b4, b5, b6, b7, b8, b9, b10, b11⟩ :=
          ih s' t (L + 1) (l ++ [q]) hI' hp' hmp' (by omega) (by omega) (by omega) ht' hv' hl'
        refine ⟨s1, l1, b1, b2, b3, b4.trans hU.cr3, shrink_trans s s' s1 hsh b5,
          b6.trans hU.pv, b7.trans hpool, b8.trans hU.free, ?_,
          fun r => (b10 r).trans (hU.pm r).2.2.2.2.1, keeps_trans s s' s1 p _ hk b11⟩
        intro r hr k hk e he
        obtain ⟨d1, d2, d3⟩ := b9 r (hU.pmaps ▸ hr) k hk e he
        obtain ⟨a1, a2, a3⟩ := unlink_index c s s' p va L t q hI.tree hU r hr k hk e d1
        refine ⟨a1, a2, ?_⟩
        rw [← a3 (fun h => d2 h.1)]
        exact d3
    · rw [if_neg h3]
      exact ⟨s', _, rfl, hI', hl', hU.cr3, hsh, hU.pv, hpool, hU.free, hdone (Or.inl h3),
        fun r => (hU.pm r).2.2.2.2.1, hk⟩

/-- `pmap_free_ptp` on an empty leaf page-table page. -/
theorem free_ptp_spec (c : config) (s : kstate) (hI : Inv c s) (p va q : Nat) (l : List Nat)
    (hp : p ∈ s.pmaps) (hva : va < 0x7f8000000000) (hmp : mapped s p)
    (hq : ptab s.mem (root s p) va 1 = some q) (hempty : vcount s.mem q = 0)
    (hl : Limbo s l) :
    ∃ s1 l1, pmap_free_ptp s p q va l = some (s1, l1) ∧ Inv c s1 ∧ Limbo s1 l1 ∧
      s1.cr3 = s.cr3 ∧ shrink s s1 ∧ s1.pv_list = s.pv_list ∧ s1.pv_pool = s.pv_pool ∧
      s1.free_pages = s.free_pages ∧ wkeep_ex s s1 q ∧
      (∀ r, (s1.pm r).uo_refs = (s.pm r).uo_refs) ∧ keeps s s1 p (fun _ => False) :=
  free_ptp_loop_spec c p va hva PTP_LEVELS s q 1 l hI hp hmp (by omega) (by omega)
    (by simp [PTP_LEVELS]) hq hempty hl

/-! ## Cleared entries only shorten the walks -/

theorem shrink_pdown (s s1 : kstate) (h : shrink s s1) (q va : Nat) :
    ∀ k t, pdown s1.mem (root s1 q) va k = some t → pdown s.mem (root s q) va k = some t := by
  intro k
  induction k with
  | zero =>
    intro t ht
    simp only [pdown] at ht ⊢
    rw [← h.2.1 q]
    exact ht
  | succ k ih =>
    intro t ht
    simp only [pdown] at ht ⊢
    rw [pstep_some] at ht ⊢
    obtain ⟨t0, h0, hv, hf⟩ := ht
    refine ⟨t0, ih t0 h0, ?_⟩
    rcases h.2.2 t0 (slot va (4 - k)) with e | e
    · rw [← e]
      exact ⟨hv, hf⟩
    · rw [e] at hv
      exact absurd hv (by decide)

theorem shrink_ptab (s s1 : kstate) (h : shrink s s1) (q va L t : Nat)
    (ht : ptab s1.mem (root s1 q) va L = some t) : ptab s.mem (root s q) va L = some t :=
  shrink_pdown s s1 h q va (4 - L) t ht

theorem shrink_cleared (s s1 : kstate) (h : shrink s s1) (p va : Nat) (hc : cleared s p va) :
    cleared s1 p va := by
  intro t ht
  have := hc t (shrink_ptab s s1 h p va 1 t ht)
  rcases h.2.2 t (slot va 1) with e | e
  · rw [e]
    exact this
  · exact e

/-- In a user tree the walk stops at an entry that is not valid. -/
theorem stop_invalid (c : config) (s : kstate) (hS : SInv c s) (p va L t : Nat)
    (hp : p ∈ s.pmaps) (hva : va < 0x7f8000000000) (h2 : 2 ≤ L) (h4 : L ≤ 4)
    (ht : ptab s.mem (root s p) va L = some t)
    (hn : ptab s.mem (root s p) va (L - 1) = none) :
    pmap_valid_entry (s.mem t (slot va L)) = false := by
  by_contra hv
  have hv1 : pmap_valid_entry (s.mem t (slot va L)) = true := by simpa using hv
  have := shape_psv _ (hS.shape p hp va L t hva h2 h4 ht) hv1
  have hc := ptab_child s.mem (root s p) va (L - 1) t (by omega) (by omega)
    (by rw [Nat.sub_add_cancel (by omega)]; exact ht)
    (by rw [Nat.sub_add_cancel (by omega)]; exact this)
  rw [hn] at hc
  cases hc

theorem cleared_extract (c : config) (s : kstate) (hS : SInv c s) (p va : Nat)
    (hp : p ∈ s.pmaps) (hva : va < 0x7f8000000000) (hc : cleared s p va) :
    pmap_extract s p va = none := by
  have hp0 : p ≠ 0 := fun e => hS.kern_notin (e ▸ hp)
  have hd : ¬ (p = 0 ∧ va ≥ PMAP_DIRECT_BASE ∧ va < PMAP_DIRECT_END) := fun e => hp0 e.1
  cases h1 : ptab s.mem (root s p) va 1 with
  | some t =>
    rw [extract_leaf s p va t hd h1, hc t h1]
    rfl
  | none =>
    cases h2 : ptab s.mem (root s p) va 2 with
    | some t2 =>
      exact extract_none s p va 2 t2 hd (by omega) (by omega) h2
        (stop_invalid c s hS p va 2 t2 hp hva (by omega) (by omega) h2 h1)
    | none =>
      cases h3 : ptab s.mem (root s p) va 3 with
      | some t3 =>
        exact extract_none s p va 3 t3 hd (by omega) (by omega) h3
          (stop_invalid c s hS p va 3 t3 hp hva (by omega) (by omega) h3 h2)
      | none =>
        exact extract_none s p va 4 (root s p) hd (by omega) (by omega) rfl
          (stop_invalid c s hS p va 4 (root s p) hp hva (by omega) (by omega) rfl h3)

/-! ## pmap_extract and cleared entries -/

theorem extract_hi (s : kstate) (p va : Nat)
    (hd : ¬ (p = 0 ∧ va ≥ PMAP_DIRECT_BASE ∧ va < PMAP_DIRECT_END))
    (h2 : ptab s.mem (root s p) va 2 = none) : pmap_extract s p va = none := by
  have h1 := ptab_none_below s.mem (root s p) va 1 (by omega) (by omega) h2
  simp only [pmap_extract, hd, if_false, find_pte_direct_spec, h2, h1]
  cases ptab s.mem (root s p) va 3 <;> simp

theorem extract_at1 (s : kstate) (p va t2 : Nat)
    (hd : ¬ (p = 0 ∧ va ≥ PMAP_DIRECT_BASE ∧ va < PMAP_DIRECT_END))
    (h2 : ptab s.mem (root s p) va 2 = some t2) (h1 : ptab s.mem (root s p) va 1 = none) :
    pmap_extract s p va =
      if s.mem t2 (slot va 2) &&& (PG_PS ||| PG_V) = (PG_PS ||| PG_V) then
        some ((s.mem t2 (slot va 2) &&& PG_LGFRAME) ||| (va &&& PAGE_MASK_L2))
      else none := by
  obtain ⟨t3, h3, _, _⟩ := ptab_parent s.mem (root s p) va 2 t2 (by omega) (by omega) h2
  simp only [pmap_extract, hd, if_false, find_pte_direct_spec, h3, h2, h1]
  simp

theorem extract_shrink (s s1 : kstate) (h : shrink s s1) (p va : Nat)
    (he : pmap_extract s p va = none) : pmap_extract s1 p va = none := by
  by_cases hd : p = 0 ∧ va ≥ PMAP_DIRECT_BASE ∧ va < PMAP_DIRECT_END
  · simp [pmap_extract, hd] at he
  · cases h2 : ptab s1.mem (root s1 p) va 2 with
    | none => exact extract_hi s1 p va hd h2
    | some t2 =>
      have g2 := shrink_ptab s s1 h p va 2 t2 h2
      cases h1 : ptab s1.mem (root s1 p) va 1 with
      | none =>
        rw [extract_at1 s1 p va t2 hd h2 h1, if_neg]
        intro hlg
        rcases h.2.2 t2 (slot va 2) with e | e
        · rw [e] at hlg
          have hn : ptab s.mem (root s p) va 1 = none := by
            apply ptab_child_none s.mem (root s p) va 1 t2 (by omega) (by omega) g2
            rw [hlg]
            decide
          rw [extract_at1 s p va t2 hd g2 hn, if_pos hlg] at he
          cases he
        · rw [e] at hlg
          revert hlg
          decide
      | some t1 =>
        have g1 := shrink_ptab s s1 h p va 1 t1 h1
        rw [extract_leaf s p va t1 hd g1] at he
        rw [extract_leaf s1 p va t1 hd h1, if_neg]
        intro hv
        rcases h.2.2 t1 (slot va 1) with e | e
        · rw [e] at hv
          rw [if_pos hv] at he
          cases he
        · rw [e] at hv
          revert hv
          decide

/-! ## The deferred frees -/

theorem limbo_same (s s1 : kstate) (l : List Nat) (hl : Limbo s l) (hs : same_struct s s1)
    (ht : ∀ p1 va1 L, dom s p1 va1 → 1 ≤ L → L ≤ 4 →
      ptab s1.mem (root s1 p1) va1 L = ptab s.mem (root s p1) va1 L) : Limbo s1 l := by
  refine ⟨hl.1, ?_⟩
  intro f hf
  obtain ⟨a1, a2, a3, a4, a5⟩ := hl.2 f hf
  obtain ⟨b1, b2, b3, b4, b5, b6, b7⟩ := hs
  refine ⟨?_, by rw [b2]; exact a2, by rw [b3]; exact a3, ?_, a5⟩
  · intro ⟨r, v, L, hd, h1, h4, hx⟩
    have hd1 : dom s r v := by
      simpa only [dom, b1] using hd
    rw [ht r v L hd1 h1 h4] at hx
    exact a1 ⟨r, v, L, hd1, h1, h4, hx⟩
  · intro r hr
    rw [(b7 r).2.2.2.1]
    exact a4 r (b1 ▸ hr)

theorem Inv_pagefree (c : config) (s : kstate) (hI : Inv c s) (f : Nat) (l : List Nat)
    (hl : Limbo s (f :: l)) : Inv c (uvm_pagefree s f) ∧ Limbo (uvm_pagefree s f) l := by
  obtain ⟨hnd, hall⟩ := hl
  obtain ⟨a1, a2, a3, a4, a5⟩ := hall f (List.mem_cons_self f l)
  have hS := hI.tree
  constructor
  · refine ⟨?_, ?_, ?_, ?_⟩
    · constructor
      · exact hS.cfg
      · exact hS.init
      · exact hS.kern_notin
      · exact hS.pmaps_nodup
      · exact hS.cr3_live
      · exact hS.root_ne
      · exact hS.normal
      · exact hS.refs
      · exact hS.pdir
      · exact hS.kshare
      · exact hS.kern_slots
      · exact hS.sep
      · exact hS.shadow
      · intro g hg p va L hd h1 h4 hx
        rcases List.mem_cons.mp hg with e | e
        · exact a1 ⟨p, va, L, hd, h1, h4, e ▸ hx⟩
        · exact hS.free_sep g e p va L hd h1 h4 hx
      · intro g hg p hp hne
        rcases List.mem_cons.mp hg with e | e
        · rw [e]
          exact a4 p hp hne
        · exact hS.free_shadow g e p hp hne
      · exact List.nodup_cons.mpr ⟨a2, hS.free_nodup⟩
      · intro g hg
        rcases List.mem_cons.mp hg with e | e
        · rw [e]
          exact a5
        · exact hS.free_frame g e
      · exact hS.pdp_sep
      · exact hS.pdp_shadow
      · intro g hg hgf
        rcases List.mem_cons.mp hgf with e | e
        · exact a3 (e ▸ hg)
        · exact hS.pdp_free g hg e
      · exact hS.pdp_nodup
      · exact hS.pdp_frame
      · exact hS.pool_fresh
      · exact hS.pool_nodup
      · exact hS.idx
      · exact hS.idx_keys
      · exact hS.idx_nodup
      · exact hS.shape
      · exact hS.leaf_shape
      · exact hS.direct
    · constructor
      intro p hp va L t hva h1 h3 ht
      have : t ≠ f := fun e => a1 ⟨p, va, L, dom_user s p va hp hva, h1, by omega, e ▸ ht⟩
      show upd s.wire_count f 0 t = _
      simp only [upd, this, if_false]
      exact hI.wire.wire p hp va L t hva h1 h3 ht
    · exact ⟨hI.count.resident, hI.count.wired⟩
    · exact ⟨hI.pv.pv_sound, hI.pv.pv_complete, hI.pv.pv_nodup, hI.pv.pv_managed⟩
  · have hnd2 := List.nodup_cons.mp hnd
    refine ⟨hnd2.2, ?_⟩
    intro g hg
    obtain ⟨b1, b2, b3, b4, b5⟩ := hall g (List.mem_cons_of_mem f hg)
    refine ⟨b1, ?_, b3, b4, b5⟩
    intro hgf
    rcases List.mem_cons.mp hgf with e | e
    · exact hnd2.1 (e ▸ hg)
    · exact b2 e

theorem pagefree_fold (c : config) :
    ∀ (l : List Nat) (s : kstate), Inv c s → Limbo s l →
      Inv c (l.foldl uvm_pagefree s) ∧ (l.foldl uvm_pagefree s).mem = s.mem ∧
      (l.foldl uvm_pagefree s).pm = s.pm ∧ (l.foldl uvm_pagefree s).cr3 = s.cr3 ∧
      (l.foldl uvm_pagefree s).pv_list = s.pv_list ∧
      (l.foldl uvm_pagefree s).pmaps = s.pmaps ∧
      (l.foldl uvm_pagefree s).pv_pool = s.pv_pool ∧
      (∀ t, t ∉ l → (l.foldl uvm_pagefree s).wire_count t = s.wire_count t) := by
  intro l
  induction l with
  | nil =>
    intro s hI _
    exact ⟨hI, rfl, rfl, rfl, rfl, rfl, rfl, fun _ _ => rfl⟩
  | cons f l ih =>
    intro s hI hl
    obtain ⟨h1, h2⟩ := Inv_pagefree c s hI f l hl
    obtain ⟨b1, b2, b3, b4, b5, b6, b7, b8⟩ := ih (uvm_pagefree s f) h1 h2
    refine ⟨b1, b2, b3, b4, b5, b6, b7, ?_⟩
    intro t ht
    rw [List.foldl_cons, b8 t (fun e => ht (List.mem_cons_of_mem f e))]
    have : t ≠ f := fun e => ht (e ▸ List.mem_cons_self f l)
    simp [uvm_pagefree, upd, this]

/-- The `cleanup:` part of `pmap_do_remove`. -/
theorem cleanup_spec (c : config) (s : kstate) (hI : Inv c s) (fp : List pv_entry)
    (l : List Nat) (hl : Limbo s l) :
    Inv c (pmap_do_remove_cleanup s fp l) ∧ eqv_tree s (pmap_do_remove_cleanup s fp l) ∧
      (∀ t, t ∉ l → (pmap_do_remove_cleanup s fp l).wire_count t = s.wire_count t) := by
  have hI1 : Inv c (pv_pool_put s fp.length) := Inv_pool c s hI _
  have hl1 : Limbo (pv_pool_put s fp.length) l := hl
  obtain ⟨b1, b2, b3, b4, b5, b6, b7, b8⟩ := pagefree_fold c l _ hI1 hl1
  exact ⟨b1, ⟨b2, b3, b4, b5, b6⟩, b8⟩

/-! ## pmap_do_remove -/

theorem pdes_valid_spec (c : config) (s : kstate) (hS : SInv c s) (p va : Nat)
    (hp : p ∈ s.pmaps) (hva : va < 0x7f8000000000) (hmp : mapped s p) :
    (∀ t, ptab s.mem (root s p) va 1 = some t →
      ∃ pde, pmap_pdes_valid s va = some pde ∧ pde &&& PG_FRAME = t) ∧
    (ptab s.mem (root s p) va 1 = none → pmap_pdes_valid s va = none) := by
  have hp0 : p ≠ 0 := fun e => hS.kern_notin (e ▸ hp)
  have hcr : s.cr3 = root s p := hmp.resolve_right hp0
  have hd := dom_user s p va hp hva
  have r4 : pde_read s va 4 = some (s.mem (root s p) (slot va 4)) := by
    rw [← hcr]
    exact pde_read_of_ptab s va 4 s.cr3 (by omega) (by omega) rfl
  simp only [pmap_pdes_valid, r4]
  cases h3 : ptab s.mem (root s p) va 3 with
  | none =>
    have h2 := ptab_none_below s.mem (root s p) va 2 (by omega) (by omega) h3
    have h1 := ptab_none_below s.mem (root s p) va 1 (by omega) (by omega) h2
    have hv := stop_invalid c s hS p va 4 (root s p) hp hva (by omega) (by omega) rfl h3
    simp [h1, hv]
  | some t3 =>
    obtain ⟨t4, e4, hv4, _⟩ := ptab_parent s.mem (root s p) va 3 t3 (by omega) (by omega) h3
    cases e4
    have r3 := pde_read_leaf c s hS p va t3 3 hd hmp (by omega) (by omega) h3
    simp only [psv_valid _ hv4, not_true_eq_false, if_false, r3]
    cases h2 : ptab s.mem (root s p) va 2 with
    | none =>
      have h1 := ptab_none_below s.mem (root s p) va 1 (by omega) (by omega) h2
      have hv := stop_invalid c s hS p va 3 t3 hp hva (by omega) (by omega) h3 h2
      simp [h1, hv]
    | some t2 =>
      obtain ⟨t3a, e3, hv3, _⟩ := ptab_parent s.mem (root s p) va 2 t2 (by omega) (by omega) h2
      rw [h3] at e3
      cases e3
      have r2 := pde_read_leaf c s hS p va t2 2 hd hmp (by omega) (by omega) h2
      simp only [psv_valid _ hv3, not_true_eq_false, if_false, r2]
      cases h1 : ptab s.mem (root s p) va 1 with
      | none =>
        have hv := stop_invalid c s hS p va 2 t2 hp hva (by omega) (by omega) h2 h1
        simp [hv]
      | some t =>
        obtain ⟨t2a, e2, hv2, hf2⟩ := ptab_parent s.mem (root s p) va 1 t (by omega) (by omega)
          h1
        rw [h2] at e2
        cases e2
        simp [psv_valid _ hv2, hf2]

theorem do_remove_ptp_spec (c : config) (s : kstate) (hS : SInv c s) (p va t : Nat)
    (hp : p ∈ s.pmaps) (hva : va < 0x7f8000000000)
    (ht : ptab s.mem (root s p) va 1 = some t) :
    pmap_do_remove_ptp c s p va t = some (some t) := by
  have hp0 : p ≠ 0 := fun e => hS.kern_notin (e ▸ hp)
  have hl : uvm_pagelookup ((s.pm p).pm_obj 0) (ptp_va2o va 1) = some t := by
    rw [uvm_pagelookup, ptp_va2o_eq va 1 (by omega) (by omega), ← ht]
    exact (hS.idx p hp va 1 hva (by omega) (by omega)).symm
  have hf : pmap_find_ptp s p va t 1 = some t := by
    simp only [pmap_find_ptp, Nat.sub_self]
    split
    · rename_i h
      rw [← h.2.2]
    · exact hl
  simp only [pmap_do_remove_ptp, hp0, if_false, hf]

theorem wkeep_of_eqv (s s1 : kstate) (h : eqv s s1) : wkeep s s1 := by
  obtain ⟨_, a2, _, _, _, a6, _⟩ := h
  intro q _ L _ e he
  rw [(a6.2.2.2.2.2.2 q).1] at he
  exact ⟨he, Or.inl (by rw [a2])⟩

theorem pv_sub_of_eqv (s s1 : kstate) (h : eqv s s1) : pv_sub s s1 := by
  obtain ⟨_, _, _, a4, _⟩ := h
  intro f e he
  rw [a4] at he
  exact he

/-- What follows the PTE removal in one leaf page `t`: the page is freed
when it has no reference left. -/
theorem after_ptes (c : config) (s S1 : kstate) (p va t : Nat) (l : List Nat)
    (hI : Inv c s) (hI1 : Inv c S1) (hss : same_struct s S1) (hcr : S1.cr3 = s.cr3)
    (hsh : shrink s S1) (hpv : pv_sub s S1)
    (hw : ∀ t1, t1 ≠ t → S1.wire_count t1 = s.wire_count t1)
    (hpt : ∀ p1 va1 L, dom s p1 va1 → 1 ≤ L → L ≤ 4 →
      ptab S1.mem (root S1 p1) va1 L = ptab s.mem (root s p1) va1 L)
    (hp : p ∈ s.pmaps) (hva : va < 0x7f8000000000) (hmp : mapped s p)
    (ht : ptab s.mem (root s p) va 1 = some t) (hl : Limbo s l) :
    Limbo S1 l ∧ ((1 < S1.wire_count t ∨ S1.wire_count t = s.wire_count t) → wkeep s S1) ∧
    (S1.wire_count t ≤ 1 →
      ∃ s1 l1, pmap_free_ptp S1 p t va l = some (s1, l1) ∧ Inv c s1 ∧ Limbo s1 l1 ∧
        s1.cr3 = s.cr3 ∧ shrink s s1 ∧ pv_sub s s1 ∧ wkeep s s1 ∧
        (∀ v, cleared S1 p v → cleared s1 p v) ∧
        (∀ v, pmap_extract S1 p v = none → pmap_extract s1 p v = none) ∧
        (∀ r, (s1.pm r).uo_refs = (s.pm r).uo_refs) ∧ keeps S1 s1 p (fun _ => False)) := by
  have hl1 := limbo_same s S1 l hl hss hpt
  have hd := dom_user s p va hp hva
  refine ⟨hl1, ?_, ?_⟩
  · intro h1 q _ L _ e he
    rw [(hss.2.2.2.2.2.2 q).1] at he
    refine ⟨he, ?_⟩
    by_cases h2 : e.2 = t
    · rw [h2]
      rcases h1 with h1 | h1
      · exact Or.inr h1
      · exact Or.inl h1
    · exact Or.inl (hw e.2 h2)
  · intro h1
    have hp1 : p ∈ S1.pmaps := hss.1 ▸ hp
    have hp0 : p ≠ 0 := fun e => hI.tree.kern_notin (e ▸ hp)
    have hr : root S1 p = root s p := (hss.2.2.2.2.2.2 p).2.1
    have hmp1 : mapped S1 p := by
      left
      rw [hcr, hr]
      exact hmp.resolve_right hp0
    have ht1 : ptab S1.mem (root S1 p) va 1 = some t := by
      rw [hpt p va 1 hd (by omega) (by omega)]
      exact ht
    have hv : vcount S1.mem t = 0 := by
      have := hI1.wire.wire p hp1 va 1 t hva (by omega) (by omega) ht1
      omega
    obtain ⟨s1, l1, b1, b2, b3, b4, b5, b6, _, _, b9, b10, b11⟩ :=
      free_ptp_spec c S1 hI1 p va t l hp1 hva hmp1 ht1 hv hl1
    refine ⟨s1, l1, b1, b2, b3, b4.trans hcr, shrink_trans s S1 s1 hsh b5, ?_, ?_,
      fun v hv => shrink_cleared S1 s1 b5 p v hv,
      fun v hv => extract_shrink S1 s1 b5 p v hv,
      fun r => (b10 r).trans (hss.2.2.2.2.2.2 r).2.2.2.2.2, b11⟩
    · intro f e he
      rw [b6] at he
      exact hpv f e he
    · intro q hq L hL e he
      obtain ⟨d1, d2, d3⟩ := b9 q (hss.1 ▸ hq) L hL e he
      rw [(hss.2.2.2.2.2.2 q).1] at d1
      refine ⟨d1, ?_⟩
      rw [← hw e.2 d2]
      exact d3

theorem round_pdr_eq (va : Nat) (h : va < 2 ^ 47) :
    x86_round_pdr (va + 1) = (va / 2 ^ 21 + 1) * 2 ^ 21 := by
  have e : (0xffffffffffe00000 : Nat) = 2 ^ 64 - 2 ^ 21 := by norm_num
  rw [x86_round_pdr, e, and_mask _ 21 64 (by omega), w64, NBPD_L2]
  norm_num at h ⊢
  omega

theorem pfx1_block (va v : Nat) (hv : v < 2 ^ 47) (h1 : va ≤ v)
    (h2 : v < (va / 2 ^ 21 + 1) * 2 ^ 21) : pfx v 1 = pfx va 1 := by
  simp only [pfx]
  norm_num at hv h2 ⊢
  omega

/-- One round of the range loop of `pmap_do_remove`. -/
theorem block_spec (c : config) (s : kstate) (hI : Inv c s) (p va eva flags n : Nat)
    (fp : List pv_entry) (l : List Nat) (hfl : flags &&& PMAP_REMOVE_SKIPWIRED = 0)
    (hp : p ∈ s.pmaps) (hmp : mapped s p) (ha : va % 4096 = 0) (hlt : va < eva)
    (he : eva ≤ 0x7f8000000000) (hae : eva % 4096 = 0) (hl : Limbo s l) :
    ∃ blk s1 fp1 l1,
      pmap_do_remove_loop c p eva flags (n + 1) va s fp l =
        pmap_do_remove_loop c p eva flags n blk s1 fp1 l1 ∧
      va < blk ∧ blk % 4096 = 0 ∧ (blk = eva ∨ (blk = (va / 2 ^ 21 + 1) * 2 ^ 21 ∧ blk < eva)) ∧
      Inv c s1 ∧ Limbo s1 l1 ∧ s1.cr3 = s.cr3 ∧ shrink s s1 ∧ pv_sub s s1 ∧ wkeep s s1 ∧
      (∀ v, va ≤ v → v < blk → cleared s1 p v) ∧ keeps s s1 p (fun v => va ≤ v ∧ v < blk) := by
  have hS := hI.tree
  have hva : va < 0x7f8000000000 := by omega
  have hrd := round_pdr_eq va (by norm_num; omega)
  obtain ⟨blk, hblk⟩ : ∃ blk, blk = if x86_round_pdr (va + 1) > eva then eva
      else x86_round_pdr (va + 1) := ⟨_, rfl⟩
  have hb1 : va < blk := by
    rw [hblk, hrd]
    split <;> norm_num <;> omega
  have hb2 : blk % 4096 = 0 := by
    rw [hblk, hrd]
    split <;> norm_num <;> omega
  have hb3 : blk = eva ∨ (blk = (va / 2 ^ 21 + 1) * 2 ^ 21 ∧ blk < eva) := by
    rw [hblk, hrd]
    by_cases hc : (va / 2 ^ 21 + 1) * 2 ^ 21 > eva
    · rw [if_pos hc]
      exact Or.inl rfl
    · rw [if_neg hc]
      by_cases hc2 : (va / 2 ^ 21 + 1) * 2 ^ 21 = eva
      · exact Or.inl hc2
      · exact Or.inr ⟨rfl, by omega⟩
  have hb4 : blk ≤ (va / 2 ^ 21 + 1) * 2 ^ 21 ∧ blk ≤ eva := by
    rw [hblk, hrd]
    split <;> constructor <;> omega
  have hsame : ∀ v, va ≤ v → v < blk →
      ptab s.mem (root s p) v 1 = ptab s.mem (root s p) va 1 := by
    intro v h1 h2
    exact ptab_pfx s.mem (root s p) va v 1 (by omega) (by omega)
      (pfx1_block va v (by norm_num; omega) h1 (by omega)).symm
  have hslot : ¬ pl_i va PTP_LEVELS = PDIR_SLOT_PTE := by
    rw [show PTP_LEVELS = 4 from rfl, pl_i_4, show PDIR_SLOT_PTE = 255 from rfl]
    have := pfx_user va hva
    omega
  have hstep : pmap_do_remove_loop c p eva flags (n + 1) va s fp l =
      match pmap_pdes_valid s va with
      | none => pmap_do_remove_loop c p eva flags n blk s fp l
      | some pde =>
        match pmap_do_remove_ptp c s p va (pde &&& PG_FRAME) with
        | none => none
        | some ptp =>
          match pmap_remove_ptes c s p ptp va blk flags fp with
          | none => none
          | some r =>
            match ptp with
            | none => pmap_do_remove_loop c p eva flags n blk r.1 r.2 l
            | some q =>
              if r.1.wire_count q ≤ 1 then
                match pmap_free_ptp r.1 p q va l with
                | none => none
                | some f => pmap_do_remove_loop c p eva flags n blk f.1 r.2 f.2
              else pmap_do_remove_loop c p eva flags n blk r.1 r.2 l := by
    rw [hblk]
    simp only [pmap_do_remove_loop, hlt, if_true, hslot, if_false]
  rw [hstep]
  obtain ⟨hv1, hv2⟩ := pdes_valid_spec c s hS p va hp hva hmp
  cases ht : ptab s.mem (root s p) va 1 with
  | none =>
    rw [hv2 ht]
    refine ⟨blk, s, fp, l, rfl, hb1, hb2, hb3, hI, hl, rfl, shrink_refl s, pv_sub_refl s,
      wkeep_refl s, ?_, keeps_refl s p _⟩
    intro v h1 h2 t h
    rw [hsame v h1 h2, ht] at h
    cases h
  | some t =>
    obtain ⟨pde, e1, e2⟩ := hv1 t ht
    rw [e1]
    simp only [e2, do_remove_ptp_spec c s hS p va t hp hva ht]
    obtain ⟨S1, fp1, r1, r2, r3, r4, r5, r6, r7, r8, r9, r10, r11⟩ :=
      remove_ptes_loop_spec c p t blk flags hfl (by omega)
        ((blk - va + (PAGE_SIZE - 1)) / PAGE_SIZE) s fp va hI hp ha hmp
        (fun v h1 h2 => (hsame v h1 h2).trans ht)
        (by simp only [PAGE_SIZE]; omega)
    have r1' : pmap_remove_ptes c s p (some t) va blk flags fp = some (S1, fp1) := r1
    rw [r1']
    simp only []
    obtain ⟨k1, k2, k3⟩ := after_ptes c s S1 p va t l hI r2 r3 r4 r5 r6 r7 r10 hp hva hmp ht hl
    have hcl : ∀ v, va ≤ v → v < blk → cleared S1 p v := by
      intro v h1 h2 t1 h
      have hz := r2.tree.leaf_shape p (r3.1 ▸ hp) v t1 (by omega) h
      rw [r10 p v 1 (dom_user s p v hp (by omega)) (by omega) (by omega), hsame v h1 h2,
        ht] at h
      cases h
      rcases hz with hz | hz
      · exact hz
      · rw [r9 v h1 h2] at hz
        cases hz
    have hk1 : keeps s S1 p (fun v => va ≤ v ∧ v < blk) :=
      keeps_ptes c s S1 hS p t va blk hp ha hb2 hb1 (by omega) (same_struct_root s S1 r3 0)
        (fun v h1 h2 => (hsame v h1 h2).trans ht) r8 r10 r11
    by_cases hw : S1.wire_count t ≤ 1
    · rw [if_pos hw]
      obtain ⟨s1, l1, d1, d2, d3, d4, d5, d6, d7, d8, _, _, d11⟩ := k3 hw
      rw [d1]
      simp only []
      exact ⟨blk, s1, fp1, l1, rfl, hb1, hb2, hb3, d2, d3, d4, d5, d6, d7,
        fun v h1 h2 => d8 v (hcl v h1 h2),
        keeps_trans s S1 s1 p _ hk1 (keeps_mono S1 s1 p _ _ d11 (fun _ h => h.elim))⟩
    · rw [if_neg hw]
      exact ⟨blk, S1, fp1, l, rfl, hb1, hb2, hb3, r2, k1, r4, r5, r6,
        k2 (Or.inl (by omega)), hcl, hk1⟩

/-- The range loop of `pmap_do_remove`. -/
theorem do_remove_loop_spec (c : config) (p eva flags : Nat)
    (hfl : flags &&& PMAP_REMOVE_SKIPWIRED = 0) (he : eva ≤ 0x7f8000000000)
    (hae : eva % 4096 = 0) :
    ∀ n va s fp l, Inv c s → p ∈ s.pmaps → mapped s p → va % 4096 = 0 → Limbo s l → 1 ≤ n →
      (va < eva → eva ≤ (va / 2 ^ 21 + (n - 1)) * 2 ^ 21) →
      ∃ s1 fp1 l1, pmap_do_remove_loop c p eva flags n va s fp l = some (s1, fp1, l1) ∧
        Inv c s1 ∧ Limbo s1 l1 ∧ s1.cr3 = s.cr3 ∧ shrink s s1 ∧ pv_sub s s1 ∧ wkeep s s1 ∧
        (∀ v, va ≤ v → v < eva → cleared s1 p v) ∧
        keeps s s1 p (fun v => va ≤ v ∧ v < eva) := by
  intro n
  induction n with
  | zero =>
    intro va s fp l _ _ _ _ _ h1
    omega
  | succ n ih =>
    intro va s fp l hI hp hmp ha hl _ hn
    by_cases hlt : va < eva
    · obtain ⟨blk, s', fp', l', e, b1, b2, b3, b4, b5, b6, b7, b8, b9, b10, b11⟩ :=
        block_spec c s hI p va eva flags n fp l hfl hp hmp ha hlt he hae hl
      have hn1 := hn hlt
      have hp' : p ∈ s'.pmaps := b7.1 ▸ hp
      have hp0 : p ≠ 0 := fun e => hI.tree.kern_notin (e ▸ hp)
      have hmp' : mapped s' p := by
        left
        rw [b6, b7.2.1 p]
        exact hmp.resolve_right hp0
      have hn2 : 1 ≤ n := by
        norm_num at hn1
        omega
      have hn3 : blk < eva → eva ≤ (blk / 2 ^ 21 + (n - 1)) * 2 ^ 21 := by
        intro h
        rcases b3 with h3 | h3
        · omega
        · rw [h3.1]
          norm_num at hn1 ⊢
          omega
      obtain ⟨s1, fp1, l1, d1, d2, d3, d4, d5, d6, d7, d8, d9⟩ :=
        ih blk s' fp' l' b4 hp' hmp' b2 b5 hn2 hn3
      rw [e]
      have hble : blk ≤ eva := by
        rcases b3 with h3 | h3
        · omega
        · omega
      refine ⟨s1, fp1, l1, d1, d2, d3, d4.trans b6, shrink_trans s s' s1 b7 d5,
        pv_sub_trans s s' s1 b8 d6, wkeep_trans s s' s1 b7.1 b9 d7, ?_,
        keeps_trans s s' s1 p _
          (keeps_mono s s' p _ _ b11 (fun v h => ⟨h.1, by have := h.2; omega⟩))
          (keeps_mono s' s1 p _ _ d9 (fun v h => ⟨by have := h.1; omega, h.2⟩))⟩
      intro v h1 h2
      by_cases hv : v < blk
      · exact shrink_cleared s' s1 d5 p v (b10 v h1 hv)
      · exact d8 v (by omega) h2
    · refine ⟨s, fp, l, ?_, hI, hl, rfl, shrink_refl s, pv_sub_refl s, wkeep_refl s, ?_,
        keeps_refl s p _⟩
      · simp only [pmap_do_remove_loop, hlt, if_false]
      · intro v h1 h2
        omega

/-- The end of `pmap_do_remove`: the page tables are unmapped and the
deferred frees done. -/
theorem do_remove_finish (c : config) (s s0 s1 : kstate) (p scr3 : Nat) (fp : List pv_entry)
    (l : List Nat) (hI : Inv c s) (_hp : p ∈ s.pmaps) (he : eqv s s0)
    (hscr : (scr3 = 0 ∧ s0.cr3 = s.cr3) ∨ (scr3 = s.cr3 ∧ scr3 ≠ 0))
    (hI1 : Inv c s1) (hl : Limbo s1 l) (hcr : s1.cr3 = s0.cr3) (hsh : shrink s0 s1)
    (hpv : pv_sub s0 s1) (hwk : wkeep s0 s1) :
    Inv c (pmap_do_remove_cleanup (pmap_unmap_ptes c s1 p scr3) fp l) ∧
      (pmap_do_remove_cleanup (pmap_unmap_ptes c s1 p scr3) fp l).cr3 = s.cr3 ∧
      shrink s (pmap_do_remove_cleanup (pmap_unmap_ptes c s1 p scr3) fp l) ∧
      pv_sub s (pmap_do_remove_cleanup (pmap_unmap_ptes c s1 p scr3) fp l) ∧
      wkeep s (pmap_do_remove_cleanup (pmap_unmap_ptes c s1 p scr3) fp l) ∧
      shrink s1 (pmap_do_remove_cleanup (pmap_unmap_ptes c s1 p scr3) fp l) ∧
      ∀ X, keeps s1 (pmap_do_remove_cleanup (pmap_unmap_ptes c s1 p scr3) fp l) p X := by
  obtain ⟨u, hu⟩ : ∃ u, u = pmap_unmap_ptes c s1 p scr3 := ⟨_, rfl⟩
  rw [← hu]
  have heu : eqv s1 u := hu ▸ unmap_ptes_eqv c s1 p scr3
  have hss0 := ss_of_eqv s s0 he
  have hpm0 : s0.pmaps = s.pmaps := hss0.1
  have hsh0 : shrink s s1 := shrink_trans s s0 s1 (shrink_of_eqv s s0 he) hsh
  have hucr : u.cr3 = s.cr3 := by
    rw [hu, unmap_ptes_cr3]
    rcases hscr with h | h
    · rw [if_neg (by simp [h.1]), hcr, h.2]
    · rw [if_pos h.2, h.1]
  have hIu : Inv c u := by
    apply Inv_eqv c s1 u hI1 heu
    obtain ⟨q, hq, hq2⟩ := hI.tree.cr3_live
    refine ⟨q, ?_, ?_⟩
    · rcases hq with h | h
      · exact Or.inl h
      · exact Or.inr (hsh0.1 ▸ h)
    · rw [hucr, hq2, hsh0.2.1 q]
  have hssu := ss_of_eqv s1 u heu
  have hlu : Limbo u l := by
    apply limbo_same s1 u l hl hssu
    intro p1 va1 L _ _ _
    rw [heu.1]
    show ptab s1.mem (u.pm p1).pm_pdirpa va1 L = _
    rw [(hssu.2.2.2.2.2.2 p1).2.1]
    rfl
  obtain ⟨c1, c2, c3⟩ := cleanup_spec c u hIu fp l hlu
  obtain ⟨sF, hsF⟩ : ∃ sF, sF = pmap_do_remove_cleanup u fp l := ⟨_, rfl⟩
  rw [← hsF] at c1 c2 c3 ⊢
  obtain ⟨m1, m2, m3, m4, m5⟩ := c2
  have hshF : shrink u sF := ⟨m5, fun q => by simp only [root, m2], fun t i => Or.inl (by rw [m1])⟩
  have hsh1F : shrink s1 sF := shrink_trans s1 u sF (shrink_of_eqv s1 u heu) hshF
  refine ⟨c1, m3.trans hucr, shrink_trans s s1 sF hsh0 hsh1F, ?_, ?_, hsh1F,
    fun X => keeps_of_mem s1 sF p X (m1.trans heu.1) hsh1F.2.1⟩
  · intro f e he1
    rw [m4] at he1
    exact pv_sub_of_eqv s s0 he f e (hpv f e (pv_sub_of_eqv s1 u heu f e he1))
  · have hwF : wkeep u sF := by
      intro q hq L hL e he1
      rw [m2] at he1
      refine ⟨he1, Or.inl (c3 e.2 ?_)⟩
      intro hin
      obtain ⟨v, hv, _, hx⟩ := idx_mem_table c u hIu.tree q (L + 1) e hq (by omega) (by omega) he1
      exact (hlu.2 e.2 hin).1 ⟨q, v, L + 1, dom_user u q v hq hv, by omega, by omega, hx⟩
    have w1 := wkeep_trans s s0 s1 hpm0 (wkeep_of_eqv s s0 he) hwk
    have w2 := wkeep_trans s s1 u hsh0.1 w1 (wkeep_of_eqv s1 u heu)
    exact wkeep_trans s u sF (hssu.1.trans hsh0.1) w2 hwF

theorem limbo_nil (s : kstate) : Limbo s [] :=
  ⟨List.nodup_nil, fun _ h => absurd h (List.not_mem_nil _)⟩

/-- `pmap_do_remove` on a page-aligned range of user addresses. -/
theorem do_remove_spec (c : config) (s : kstate) (hI : Inv c s) (p sva eva flags : Nat)
    (hfl : flags &&& PMAP_REMOVE_SKIPWIRED = 0) (hp : p ∈ s.pmaps) (ha : sva % 4096 = 0)
    (hae : eva % 4096 = 0) (hlt : sva < eva) (he : eva ≤ 0x7f8000000000) :
    ∃ s1, pmap_do_remove c s p sva eva flags = some s1 ∧ Inv c s1 ∧ s1.cr3 = s.cr3 ∧
      shrink s s1 ∧ pv_sub s s1 ∧ wkeep s s1 ∧ (∀ v, sva ≤ v → v < eva → cleared s1 p v) ∧
      keeps s s1 p (fun v => sva ≤ v ∧ v < eva) := by
  obtain ⟨scr3, s0, hm, heqv, hmp0, hlive, hscr⟩ := map_ptes_spec c s hI.tree p (Or.inr hp)
  have hI0 : Inv c s0 := Inv_eqv c s s0 hI heqv hlive
  have hss0 := ss_of_eqv s s0 heqv
  have hp0 : p ∈ s0.pmaps := hss0.1 ▸ hp
  have hva : sva < 0x7f8000000000 := by omega
  have fin : ∀ s1 fp l, Inv c s1 → Limbo s1 l → s1.cr3 = s0.cr3 → shrink s0 s1 → pv_sub s0 s1 →
      wkeep s0 s1 → (∀ v, sva ≤ v → v < eva → cleared s1 p v) →
      keeps s0 s1 p (fun v => sva ≤ v ∧ v < eva) →
      ∃ sF, some (pmap_do_remove_cleanup (pmap_unmap_ptes c s1 p scr3) fp l) = some sF ∧
        Inv c sF ∧ sF.cr3 = s.cr3 ∧
        shrink s sF ∧ pv_sub s sF ∧ wkeep s sF ∧ (∀ v, sva ≤ v → v < eva → cleared sF p v) ∧
        keeps s sF p (fun v => sva ≤ v ∧ v < eva) := by
    intro s1 fp l h1 h2 h3 h4 h5 h6 h7 h8
    obtain ⟨f1, f2, f3, f4, f5, f6, f7⟩ :=
      do_remove_finish c s s0 s1 p scr3 fp l hI hp heqv hscr h1 h2 h3 h4 h5 h6
    exact ⟨_, rfl, f1, f2, f3, f4, f5, fun v a b => shrink_cleared s1 _ f6 p v (h7 v a b),
      keeps_trans s s0 _ p _ (keeps_of_mem s s0 p _ heqv.1 (same_struct_root s s0 hss0))
        (keeps_trans s0 s1 _ p _ h8 (f7 _))⟩
  simp only [pmap_do_remove, hm]
  by_cases hsingle : w64 (sva + PAGE_SIZE) = eva
  · rw [if_pos hsingle]
    have heva : eva = sva + 4096 := by
      rw [← hsingle, w64, PAGE_SIZE]
      norm_num at hva ⊢
      omega
    have hsame : ∀ v, sva ≤ v → v < eva →
        ptab s0.mem (root s0 p) v 1 = ptab s0.mem (root s0 p) sva 1 := by
      intro v h1 h2
      apply ptab_pfx s0.mem (root s0 p) sva v 1 (by omega) (by omega)
      simp only [pfx]
      omega
    obtain ⟨hv1, hv2⟩ := pdes_valid_spec c s0 hI0.tree p sva hp0 hva hmp0
    cases ht : ptab s0.mem (root s0 p) sva 1 with
    | none =>
      rw [hv2 ht]
      apply fin s0 [] [] hI0 (limbo_nil s0) rfl (shrink_refl s0) (pv_sub_refl s0) (wkeep_refl s0)
        _ (keeps_refl s0 p _)
      intro v h1 h2 t h
      rw [hsame v h1 h2, ht] at h
      cases h
    | some t =>
      obtain ⟨pde, e1, e2⟩ := hv1 t ht
      rw [e1]
      simp only [e2, do_remove_ptp_spec c s0 hI0.tree p sva t hp0 hva ht]
      obtain ⟨b, S1, fp1, r1, r2, r3, r4, r5, r6, r7, r8, r9, r10, r11, r12⟩ :=
        remove_pte_spec c s0 hI0 p sva t flags [] hfl hp0 hva ha hmp0 ht
      rw [r1]
      simp only []
      obtain ⟨k1, k2, k3⟩ := after_ptes c s0 S1 p sva t [] hI0 r2 r3 r4 r5 r6 r7 r11 hp0 hva hmp0
        ht (limbo_nil s0)
      have hcl : ∀ v, sva ≤ v → v < eva → cleared S1 p v := by
        intro v h1 h2 t1 h
        have hz := r2.tree.leaf_shape p (r3.1 ▸ hp0) v t1 (by omega) h
        rw [r11 p v 1 (dom_user s0 p v hp0 (by omega)) (by omega) (by omega), hsame v h1 h2,
          ht] at h
        cases h
        rw [slot_page sva v ha h1 (by omega)] at hz ⊢
        rcases hz with hz | hz
        · exact hz
        · rw [r9] at hz
          cases hz
      have hk1 : keeps s0 S1 p (fun v => sva ≤ v ∧ v < eva) :=
        keeps_ptes c s0 S1 hI0.tree p t sva eva hp0 ha hae hlt he (same_struct_root s0 S1 r3 0)
          (fun v h1 h2 => (hsame v h1 h2).trans ht) r8 r11
          (fun i hi => r12 i (hi sva (Nat.le_refl _) hlt))
      by_cases hw : b = true ∧ S1.wire_count t ≤ 1
      · rw [if_pos hw]
        obtain ⟨s1, l1, d1, d2, d3, d4, d5, d6, d7, d8, _, _, d11⟩ := k3 hw.2
        rw [d1]
        simp only []
        exact fin s1 fp1 l1 d2 d3 d4 d5 d6 d7 (fun v h1 h2 => d8 v (hcl v h1 h2))
          (keeps_trans s0 S1 s1 p _ hk1 (keeps_mono S1 s1 p _ _ d11 (fun _ h => h.elim)))
      · rw [if_neg hw]
        apply fin S1 fp1 [] r2 k1 r4 r5 r6 _ hcl hk1
        apply k2
        by_cases hb : b = true
        · left
          have : ¬ S1.wire_count t ≤ 1 := fun h => hw ⟨hb, h⟩
          omega
        · right
          exact r10 (by simpa using hb)
  · rw [if_neg hsingle]
    obtain ⟨s1, fp1, l1, d1, d2, d3, d4, d5, d6, d7, d8, d9⟩ :=
      do_remove_loop_spec c p eva flags hfl he hae (2 ^ 43 + 2) sva s0 [] [] hI0 hp0 hmp0 ha
        (limbo_nil s0) (by norm_num) (by
          intro _
          norm_num
          omega)
    rw [d1]
    simp only []
    exact fin s1 fp1 l1 d2 d3 d4 d5 d6 d7 d8 d9

/-- `pmap_remove` on a page-aligned range of user addresses of a user pmap. -/
theorem remove_spec (c : config) (s : kstate) (hI : Inv c s) (p sva eva : Nat)
    (hp : p ∈ s.pmaps) (ha : sva % 4096 = 0) (hae : eva % 4096 = 0) (hlt : sva < eva)
    (he : eva ≤ 0x7f8000000000) :
    ∃ s1, pmap_remove c s p sva eva = some s1 ∧ Inv c s1 ∧ s1.cr3 = s.cr3 ∧
      shrink s s1 ∧ pv_sub s s1 ∧ wkeep s s1 ∧ (∀ v, sva ≤ v → v < eva → cleared s1 p v) ∧
      keeps s s1 p (fun v => sva ≤ v ∧ v < eva) := by
  have hn := hI.tree.normal p (Or.inr hp)
  have : ¬ (s.pm p).pm_type = PMAP_TYPE_EPT := by
    rw [hn]
    decide
  simp only [pmap_remove, this, if_false]
  exact do_remove_spec c s hI p sva eva PMAP_REMOVE_ALL rfl hp ha hae hlt he

/-! ## States that differ in the reference counts of the pmaps -/

/-- The invariant looks at the reference counts of the pmaps in `refs` only. -/
theorem Inv_set_refs (c : config) (s : kstate) (r : Nat → Int) (h : Inv c s)
    (hr : ∀ p, live s p → 1 ≤ r p) :
    Inv c { s with pm := fun q => { s.pm q with uo_refs := r q } } :=
  ⟨⟨h.tree.cfg, h.tree.init, h.tree.kern_notin, h.tree.pmaps_nodup, h.tree.cr3_live,
      h.tree.root_ne, h.tree.normal, hr, h.tree.pdir, h.tree.kshare, h.tree.kern_slots,
      h.tree.sep, h.tree.shadow, h.tree.free_sep, h.tree.free_shadow, h.tree.free_nodup,
      h.tree.free_frame, h.tree.pdp_sep, h.tree.pdp_shadow, h.tree.pdp_free, h.tree.pdp_nodup,
      h.tree.pdp_frame, h.tree.pool_fresh, h.tree.pool_nodup, h.tree.idx, h.tree.idx_keys,
      h.tree.idx_nodup, h.tree.shape, h.tree.leaf_shape, h.tree.direct⟩,
    ⟨h.wire.wire⟩, ⟨h.count.resident, h.count.wired⟩,
    ⟨h.pv.pv_sound, h.pv.pv_complete, h.pv.pv_nodup, h.pv.pv_managed⟩⟩

theorem sim_refl (s : kstate) : sim s s :=
  ⟨rfl, rfl, rfl, rfl, rfl, rfl, rfl, rfl, rfl, fun _ => ⟨rfl, rfl, rfl, rfl, rfl, rfl, rfl⟩⟩

theorem sim_trans (s s1 s2 : kstate) (h1 : sim s s1) (h2 : sim s1 s2) : sim s s2 := by
  obtain ⟨a1, a2, a3, a4, a5, a6, a7, a8, a9, a10⟩ := h1
  obtain ⟨b1, b2, b3, b4, b5, b6, b7, b8, b9, b10⟩ := h2
  refine ⟨b1.trans a1, b2.trans a2, b3.trans a3, b4.trans a4, b5.trans a5, b6.trans a6,
    b7.trans a7, b8.trans a8, b9.trans a9, ?_⟩
  intro q
  obtain ⟨c1, c2, c3, c4, c5, c6, c7⟩ := a10 q
  obtain ⟨d1, d2, d3, d4, d5, d6, d7⟩ := b10 q
  exact ⟨d1.trans c1, d2.trans c2, d3.trans c3, d4.trans c4, d5.trans c5, d6.trans c6,
    d7.trans c7⟩

theorem sim_of_eqv (s s1 : kstate) (h : eqv s s1) : sim s s1 := by
  obtain ⟨a1, a2, _, a4, _, ⟨b1, b2, b3, b4, b5, b6, b7⟩, a7⟩ := h
  refine ⟨a1, a2, a4, b1, b2, b3, b4, b5, b6, ?_⟩
  intro q
  obtain ⟨c1, c2, c3, c4, c5, _⟩ := b7 q
  exact ⟨c1, c2, c3, c4, c5, (a7 q).1, (a7 q).2.1⟩

theorem Inv_sim (c : config) (s s1 : kstate) (hI : Inv c s) (h : sim s s1)
    (hcr3 : ∃ p, live s p ∧ s1.cr3 = root s p)
    (hrefs : ∀ p, live s p → 1 ≤ (s1.pm p).uo_refs) : Inv c s1 := by
  obtain ⟨a1, a2, a3, a4, a5, a6, a7, a8, a9, a10⟩ := h
  have hss : same_struct s
      { s1 with pm := fun q => { s1.pm q with uo_refs := (s.pm q).uo_refs } } :=
    ⟨a4, a5, a6, a7, a8, a9, fun q => ⟨(a10 q).1, (a10 q).2.1, (a10 q).2.2.1, (a10 q).2.2.2.1,
      (a10 q).2.2.2.2.1, rfl⟩⟩
  have h1 : Inv c { s1 with pm := fun q => { s1.pm q with uo_refs := (s.pm q).uo_refs } } :=
    ⟨SInv_congr c s _ hI.tree hss a1 hcr3, WInv_congr s _ hI.wire hss a1 a2,
      CInv_congr s _ hI.count hss a1 (fun q => ⟨(a10 q).2.2.2.2.2.1, (a10 q).2.2.2.2.2.2⟩),
      PInv_congr c s _ hI.pv hss a1 a3⟩
  have h2 := Inv_set_refs c
    { s1 with pm := fun q => { s1.pm q with uo_refs := (s.pm q).uo_refs } }
    (fun q => (s1.pm q).uo_refs) h1
    (fun p hp => hrefs p (by
      rcases hp with hp | hp
      · exact Or.inl hp
      · exact Or.inr (a4 ▸ hp)))
  exact h2

theorem shrink_of_sim (s s1 : kstate) (h : sim s s1) : shrink s s1 :=
  ⟨h.2.2.2.1, fun q => (h.2.2.2.2.2.2.2.2.2 q).2.1, fun t i => Or.inl (by rw [h.1])⟩

theorem pv_sub_of_sim (s s1 : kstate) (h : sim s s1) : pv_sub s s1 := by
  intro f e he
  rw [h.2.2.1] at he
  exact he

theorem wkeep_of_sim (s s1 : kstate) (h : sim s s1) : wkeep s s1 := by
  intro q _ L _ e he
  rw [(h.2.2.2.2.2.2.2.2.2 q).1] at he
  exact ⟨he, Or.inl (by rw [h.2.1])⟩

theorem limbo_sim (s s1 : kstate) (l : List Nat) (hl : Limbo s l) (h : sim s s1) :
    Limbo s1 l := by
  obtain ⟨a1, a2, a3, a4, a5, a6, a7, a8, a9, a10⟩ := h
  refine ⟨hl.1, ?_⟩
  intro f hf
  obtain ⟨b1, b2, b3, b4, b5⟩ := hl.2 f hf
  refine ⟨?_, by rw [a5]; exact b2, by rw [a6]; exact b3, ?_, b5⟩
  · intro ⟨r, v, L, hd, h1, h4, hx⟩
    have hd1 : dom s r v := by
      simpa only [dom, a4] using hd
    rw [a1] at hx
    have hx1 : ptab s.mem (root s r) v L = some f := by
      rw [← hx]
      show _ = ptab s.mem (s1.pm r).pm_pdirpa v L
      rw [(a10 r).2.1]
      rfl
    exact b1 ⟨r, v, L, hd1, h1, h4, hx1⟩
  · intro r hr
    rw [(a10 r).2.2.2.1]
    exact b4 r (a4 ▸ hr)

theorem sim_reference (s : kstate) (p : Nat) : sim s (pmap_reference s p) := by
  refine ⟨rfl, rfl, rfl, rfl, rfl, rfl, rfl, rfl, rfl, ?_⟩
  intro q
  by_cases hq : q = p
  · subst hq
    simp [pmap_reference, upd]
  · simp [pmap_reference, upd, hq]

theorem destroy_spec (c : config) (s : kstate) (p : Nat) (h : 2 ≤ (s.pm p).uo_refs) :
    ∃ s1, pmap_destroy c s p = some s1 ∧ sim s s1 ∧ s1.cr3 = s.cr3 ∧
      (∀ q, (s1.pm q).uo_refs = (s.pm q).uo_refs - (if q = p then 1 else 0)) := by
  have hgt : (s.pm p).uo_refs - 1 > 0 := by omega
  simp only [pmap_destroy, hgt, if_true]
  refine ⟨_, rfl, ⟨rfl, rfl, rfl, rfl, rfl, rfl, rfl, rfl, rfl, ?_⟩, rfl, ?_⟩
  · intro q
    by_cases hq : q = p
    · subst hq
      simp [upd]
    · simp [upd, hq]
  · intro q
    by_cases hq : q = p
    · subst hq
      simp [upd]
    · simp [upd, hq]

theorem sim_pool (s : kstate) (n : Nat) : sim s (pv_pool_put s n) :=
  sim_refl s

/-! ## pmap_page_remove -/

theorem sync_wire_dec (s : kstate) (g pte q : Nat) :
    wire_dec (pmap_sync_flags_pte s g pte) q = pmap_sync_flags_pte (wire_dec s q) g pte := by
  simp only [pmap_sync_flags_pte]
  split <;> rfl

theorem page_zapped_spec (c : config) (s : kstate) (hI : Inv c s) (pg : Nat) (pve : pv_entry)
    (rest : List pv_entry) (t : Nat) (hch : s.pv_list pg = pve :: rest)
    (ht : ptab s.mem (root s pve.pv_pmap) pve.pv_va 1 = some t) :
    Inv c (page_zapped s pg pve rest t) ∧ same_struct s (page_zapped s pg pve rest t) ∧
      (page_zapped s pg pve rest t).cr3 = s.cr3 ∧
      (page_zapped s pg pve rest t).mem = mem_set s.mem t (slot pve.pv_va 1) 0 ∧
      (∀ t1, t1 ≠ t → (page_zapped s pg pve rest t).wire_count t1 = s.wire_count t1) ∧
      (page_zapped s pg pve rest t).pv_list = upd s.pv_list pg rest ∧
      (pve.pv_pmap = 0 → ∀ t1, (page_zapped s pg pve rest t).wire_count t1 = s.wire_count t1) := by
  have hmem : pve ∈ s.pv_list pg := hch ▸ List.mem_cons_self pve rest
  obtain ⟨hd, ha, t0, ht0, hv, hf, hpvl, hptp⟩ := hI.pv.pv_sound pg pve hmem
  rw [ht] at ht0
  cases ht0
  obtain ⟨e1, e2, e3, e4, e5, e6, e7, e8, e9, e10⟩ :=
    zap_stats_spec { s with pv_list := upd s.pv_list pg rest } pve.pv_pmap t (slot pve.pv_va 1)
      (s.mem t (slot pve.pv_va 1)) pve.pv_ptp
  obtain ⟨f1, f2, f3, _, f4, f5⟩ := sync_fields
    (pmap_zap_stats
      (set_mem { s with pv_list := upd s.pv_list pg rest } t (slot pve.pv_va 1) 0)
      pve.pv_pmap pve.pv_ptp (s.mem t (slot pve.pv_va 1))) pg (s.mem t (slot pve.pv_va 1))
  have hss : same_struct s (page_zapped s pg pve rest t) := ss_sync _ _ _ _ e2
  have hcr : (page_zapped s pg pve rest t).cr3 = s.cr3 := f2.trans e3
  have hm : (page_zapped s pg pve rest t).mem = mem_set s.mem t (slot pve.pv_va 1) 0 :=
    f1.trans e1
  have hpv : (page_zapped s pg pve rest t).pv_list = upd s.pv_list pg rest := f3.trans e4
  have hw : ∀ t1, t1 ≠ t → (page_zapped s pg pve rest t).wire_count t1 = s.wire_count t1 := by
    intro t1 h1
    show (pmap_sync_flags_pte _ _ _).wire_count t1 = _
    rw [f4]
    apply e9
    intro q hq
    rw [hptp] at hq
    split at hq
    · cases hq
    · cases hq
      exact h1
  have hwt : pve.pv_pmap ∈ s.pmaps →
      (page_zapped s pg pve rest t).wire_count t + 1 = s.wire_count t := by
    intro hp
    have hp0 : pve.pv_pmap ≠ 0 := fun e => hI.tree.kern_notin (e ▸ hp)
    have hva : pve.pv_va < 0x7f8000000000 := by
      rcases hd with hd | hd
      · exact hd.2
      · exact absurd hd.1 hp0
    show (pmap_sync_flags_pte _ _ _).wire_count t + 1 = _
    rw [f4, e10 t (by rw [hptp, if_neg hp0])]
    have hb := wire_bound c s hI.tree hI.wire pve.pv_pmap pve.pv_va t 1 hp hva (by omega)
      (by omega) ht
    have hpos := vcount_pos s.mem t (slot pve.pv_va 1) (slot_lt _ 1) hv
    show (s.wire_count t + (2 ^ 32 - 1)) % 2 ^ 32 + 1 = _
    rw [dec32 _ (by omega) (by omega)]
    omega
  have hnd := hI.pv.pv_nodup pg
  rw [hch, List.map_cons, List.nodup_cons] at hnd
  have hchain : ∀ f e, e ∈ (page_zapped s pg pve rest t).pv_list f ↔
      e ∈ s.pv_list f ∧ ¬ (e.pv_pmap = pve.pv_pmap ∧ e.pv_va = pve.pv_va) := by
    intro f e
    rw [hpv]
    by_cases hfp : f = pg
    · subst hfp
      simp only [upd, if_true, hch, List.mem_cons]
      constructor
      · intro he
        refine ⟨Or.inr he, ?_⟩
        intro hk
        apply hnd.1
        rw [List.mem_map]
        exact ⟨e, he, by rw [hk.1, hk.2]⟩
      · rintro ⟨he | he, hk⟩
        · exact absurd (by rw [he]; exact ⟨rfl, rfl⟩) hk
        · exact he
    · simp only [upd, hfp, if_false]
      constructor
      · intro he
        refine ⟨he, ?_⟩
        intro hk
        have := (chain_entry c s hI.pv pve.pv_pmap pve.pv_va t f e ht he hk).2.2.1
        exact hfp (this.trans hf)
      · exact fun he => he.1
  have hnodup : ∀ f, (((page_zapped s pg pve rest t).pv_list f).map
      fun e => (e.pv_pmap, e.pv_va)).Nodup := by
    intro f
    rw [hpv]
    by_cases hfp : f = pg
    · subst hfp
      simp only [upd, if_true]
      exact hnd.2
    · simp only [upd, hfp, if_false]
      exact hI.pv.pv_nodup f
  have hw0 : pve.pv_pmap = 0 →
      ∀ t1, (page_zapped s pg pve rest t).wire_count t1 = s.wire_count t1 := by
    intro h0 t1
    show (pmap_sync_flags_pte _ _ _).wire_count t1 = _
    rw [f4]
    apply e9
    intro q hq
    rw [hptp, if_pos h0] at hq
    cases hq
  refine ⟨?_, hss, hcr, hm, hw, hpv, hw0⟩
  apply Inv_zap c s _ hI hss hcr pve.pv_pmap pve.pv_va t hd ha ht hv hm hw hwt _ _ _ hchain
    hnodup
  · intro q hq
    have := e6 q hq
    exact ⟨(congrArg (fun m => (m q).resident_count) f5).trans this.1,
      (congrArg (fun m => (m q).wired_count) f5).trans this.2⟩
  · exact (congrArg (fun m => (m pve.pv_pmap).resident_count) f5).trans e7
  · exact (congrArg (fun m => (m pve.pv_pmap).wired_count) f5).trans e8

theorem page_zap_spec (c : config) (s : kstate) (hI : Inv c s) (pg : Nat) (pve : pv_entry)
    (rest : List pv_entry) (l : List Nat) (hch : s.pv_list pg = pve :: rest)
    (hmp : mapped s pve.pv_pmap) (hl : Limbo s l) :
    ∃ s9 l9,
      pmap_page_remove_zap c { s with pv_list := upd s.pv_list pg rest } pg pve l =
        some (s9, l9) ∧
      Inv c s9 ∧ Limbo s9 l9 ∧ s9.cr3 = s.cr3 ∧ shrink s s9 ∧ pv_sub s s9 ∧ wkeep s s9 ∧
      s9.pv_list pg = rest ∧ (∀ q, (s9.pm q).uo_refs = (s.pm q).uo_refs) ∧
      cleared s9 pve.pv_pmap pve.pv_va ∧
      (¬ (pve.pv_pmap = 0 ∧ pve.pv_va ≥ PMAP_DIRECT_BASE ∧ pve.pv_va < PMAP_DIRECT_END) →
        pmap_extract s9 pve.pv_pmap pve.pv_va = none) := by
  have hmem : pve ∈ s.pv_list pg := hch ▸ List.mem_cons_self pve rest
  obtain ⟨hd, ha, t, ht, hv, hf, hpvl, hptp⟩ := hI.pv.pv_sound pg pve hmem
  obtain ⟨z1, z2, z3, z4, z5, z6, z7⟩ := page_zapped_spec c s hI pg pve rest t hch ht
  obtain ⟨Z, hZ⟩ : ∃ Z, Z = page_zapped s pg pve rest t := ⟨_, rfl⟩
  rw [← hZ] at z1 z2 z3 z4 z5 z6 z7
  have hsh : shrink s Z := by
    refine ⟨z2.1, same_struct_root s Z z2, ?_⟩
    intro t1 i
    rw [z4]
    by_cases h : t1 = t ∧ i = slot pve.pv_va 1
    · right
      rw [h.1, h.2, mem_set_same]
    · left
      exact mem_set_other _ _ _ _ _ _ h
  have hpv : pv_sub s Z := by
    intro f e he
    rw [z6] at he
    by_cases hfp : f = pg
    · subst hfp
      simp only [upd, if_true] at he
      rw [hch]
      exact List.mem_cons_of_mem _ he
    · simpa only [upd, hfp, if_false] using he
  have hpt : ∀ p1 va1 L, dom s p1 va1 → 1 ≤ L → L ≤ 4 →
      ptab Z.mem (root Z p1) va1 L = ptab s.mem (root s p1) va1 L :=
    fun p1 va1 L hd1 h1 h4 =>
      leaf_ptab c s Z hI.tree z2 pve.pv_pmap pve.pv_va t 0 hd ht z4 p1 va1 L hd1 h1 h4
  have htZ : ptab Z.mem (root Z pve.pv_pmap) pve.pv_va 1 = some t := by
    rw [hpt _ _ 1 hd (by omega) (by omega)]
    exact ht
  have hz0 : Z.mem t (slot pve.pv_va 1) = 0 := by
    rw [z4, mem_set_same]
  have hclr : cleared Z pve.pv_pmap pve.pv_va := by
    intro t1 h1
    rw [htZ] at h1
    cases h1
    exact hz0
  have hext : ¬ (pve.pv_pmap = 0 ∧ pve.pv_va ≥ PMAP_DIRECT_BASE ∧ pve.pv_va < PMAP_DIRECT_END) →
      pmap_extract Z pve.pv_pmap pve.pv_va = none := by
    intro hdm
    rw [extract_leaf Z _ _ t hdm htZ, hz0]
    rfl
  have hpvZ : Z.pv_list pg = rest := by
    rw [z6]
    simp [upd]
  have hrefs : ∀ q, (Z.pm q).uo_refs = (s.pm q).uo_refs := fun q => (z2.2.2.2.2.2.2 q).2.2.2.2.2
  -- the accesses through the recursive mapping
  have hS3 : SInv c { s with pv_list := upd s.pv_list pg rest } :=
    SInv_congr c s _ hI.tree (same_struct_refl s) rfl hI.tree.cr3_live
  have r1 : pde_read { s with pv_list := upd s.pv_list pg rest } pve.pv_va 1 =
      some (s.mem t (slot pve.pv_va 1)) :=
    pde_read_leaf c _ hS3 pve.pv_pmap pve.pv_va t 1 hd hmp (by omega) (by omega) ht
  have w1 : pde_write { s with pv_list := upd s.pv_list pg rest } pve.pv_va 1 0 =
      some (set_mem { s with pv_list := upd s.pv_list pg rest } t (slot pve.pv_va 1) 0) :=
    pde_write_leaf c _ hS3 pve.pv_pmap pve.pv_va t 1 0 hd hmp (by omega) (by omega) ht
  by_cases hp0 : pve.pv_pmap = 0
  · have hptp0 : pve.pv_ptp = none := by
      rw [hptp, if_pos hp0]
    have hmis : ¬ (c.DIAGNOSTIC = true ∧
        pv_ptp_mismatch { s with pv_list := upd s.pv_list pg rest } pve = true) := by
      simp [pv_ptp_mismatch, hptp0]
    have hZ2 : pmap_page_remove_zap c { s with pv_list := upd s.pv_list pg rest } pg pve l =
        some (Z, l) := by
      simp only [pmap_page_remove_zap, hmis, if_false, r1, w1, pmap_page_remove_ptp, hptp0]
      rw [hZ]
      simp only [page_zapped, pmap_zap_stats, hptp0]
    refine ⟨Z, l, hZ2, z1, limbo_same s Z l hl z2 hpt, z3, hsh, hpv, ?_, hpvZ, hrefs, hclr,
      hext⟩
    intro q _ L _ e he
    rw [(z2.2.2.2.2.2.2 q).1] at he
    exact ⟨he, Or.inl (z7 hp0 e.2)⟩
  · have hp : pve.pv_pmap ∈ s.pmaps := by
      rcases hd with hd | hd
      · exact hd.1
      · exact absurd hd.1 hp0
    have hva : pve.pv_va < 0x7f8000000000 := by
      rcases hd with hd | hd
      · exact hd.2
      · exact absurd hd.1 hp0
    have hptp1 : pve.pv_ptp = some t := by
      rw [hptp, if_neg hp0]
    have hmp3 : mapped { s with pv_list := upd s.pv_list pg rest } pve.pv_pmap := hmp
    obtain ⟨pde, e1, e2⟩ :=
      (pdes_valid_spec c _ hS3 pve.pv_pmap pve.pv_va hp hva hmp3).1 t ht
    have hmis : ¬ (c.DIAGNOSTIC = true ∧
        pv_ptp_mismatch { s with pv_list := upd s.pv_list pg rest } pve = true) := by
      simp [pv_ptp_mismatch, hptp1, e1, e2]
    obtain ⟨k1, k2, k3⟩ := after_ptes c s Z pve.pv_pmap pve.pv_va t l hI z1 z2 z3 hsh hpv z5 hpt
      hp hva hmp ht hl
    have hZ2 : pmap_page_remove_zap c { s with pv_list := upd s.pv_list pg rest } pg pve l =
        if Z.wire_count t ≤ 1 then pmap_free_ptp Z pve.pv_pmap t pve.pv_va l
        else some (Z, l) := by
      simp only [pmap_page_remove_zap, hmis, if_false, r1, w1, pmap_page_remove_ptp, hptp1]
      rw [hZ]
      simp only [page_zapped, pmap_zap_stats, hptp1, sync_wire_dec]
    rw [hZ2]
    by_cases hw : Z.wire_count t ≤ 1
    · rw [if_pos hw]
      obtain ⟨s1, l1, d1, d2, d3, d4, d5, d6, d7, d8, d9, d10, _⟩ := k3 hw
      refine ⟨s1, l1, d1, d2, d3, d4, d5, d6, d7, ?_, d10, d8 _ hclr, fun h => d9 _ (hext h)⟩
      have hs1 : shrink Z s1 ∧ s1.pv_list = Z.pv_list := by
        have hp1 : pve.pv_pmap ∈ Z.pmaps := z2.1 ▸ hp
        have hmp1 : mapped Z pve.pv_pmap := by
          left
          rw [z3, same_struct_root s Z z2]
          exact hmp.resolve_right hp0
        have hv0 : vcount Z.mem t = 0 := by
          have := z1.wire.wire pve.pv_pmap hp1 pve.pv_va 1 t hva (by omega) (by omega) htZ
          omega
        obtain ⟨s1', l1', g1, _, _, _, g5, g6, _⟩ :=
          free_ptp_spec c Z z1 pve.pv_pmap pve.pv_va t l hp1 hva hmp1 htZ hv0 k1
        rw [d1] at g1
        cases g1
        exact ⟨g5, g6⟩
      rw [hs1.2]
      exact hpvZ
    · rw [if_neg hw]
      exact ⟨Z, l, rfl, z1, k1, z3, hsh, hpv, k2 (Or.inl (by omega)), hpvZ, hrefs, hclr, hext⟩

theorem reference_refs (s : kstate) (p q : Nat) :
    ((pmap_reference s p).pm q).uo_refs = (s.pm q).uo_refs + (if q = p then 1 else 0) := by
  by_cases hq : q = p
  · subst hq
    simp [pmap_reference, upd]
  · simp [pmap_reference, upd, hq]

/-- With a reference left, `pmap_destroy` frees nothing: the log is unchanged. -/
theorem destroy_ev_pos (c : config) (s : kstate) (p : Nat) (log : List event)
    (h : 2 ≤ (s.pm p).uo_refs) :
    pmap_destroy_ev c s p log = (pmap_destroy c s p).map (fun s1 => (s1, log)) := by
  have hgt : (s.pm p).uo_refs - 1 > 0 := by omega
  simp only [pmap_destroy_ev, pmap_destroy, hgt, if_true, Option.map]

/-- One round of the loop of `pmap_page_remove`, with the log of the round. -/
theorem page_round_ev (c : config) (s : kstate) (hI : Inv c s) (pg : Nat) (pve : pv_entry)
    (rest : List pv_entry) (l : List Nat) (n : Nat) (hch : s.pv_list pg = pve :: rest)
    (hl : Limbo s l) :
    ∃ s' l', pmap_page_remove_loop c pg (n + 1) s l = pmap_page_remove_loop c pg n s' l' ∧
      Inv c s' ∧ Limbo s' l' ∧ s'.cr3 = s.cr3 ∧ shrink s s' ∧ pv_sub s s' ∧ wkeep s s' ∧
      s'.pv_list pg = rest ∧ cleared s' pve.pv_pmap pve.pv_va ∧
      (¬ (pve.pv_pmap = 0 ∧ pve.pv_va ≥ PMAP_DIRECT_BASE ∧ pve.pv_va < PMAP_DIRECT_END) →
        pmap_extract s' pve.pv_pmap pve.pv_va = none) ∧
      ∀ log, pmap_page_remove_loop_ev c pg (n + 1) s l log =
        pmap_page_remove_loop_ev c pg n s' l' log := by
  have hmem : pve ∈ s.pv_list pg := hch ▸ List.mem_cons_self pve rest
  obtain ⟨hd, _⟩ := hI.pv.pv_sound pg pve hmem
  have hlive := dom_live s _ _ hd
  have h1 : sim s (pmap_reference s pve.pv_pmap) := sim_reference s pve.pv_pmap
  have hI1 : Inv c (pmap_reference s pve.pv_pmap) := by
    apply Inv_sim c s _ hI h1 hI.tree.cr3_live
    intro q hq
    rw [reference_refs]
    have := hI.tree.refs q hq
    split <;> omega
  have hlive1 : live (pmap_reference s pve.pv_pmap) pve.pv_pmap := hlive
  obtain ⟨scr3, s2, hm, heqv, hmp2, hlive2, hscr⟩ :=
    map_ptes_spec c _ hI1.tree pve.pv_pmap hlive1
  have hI2 : Inv c s2 := Inv_eqv c _ s2 hI1 heqv hlive2
  have h2 : sim s s2 := sim_trans s _ s2 h1 (sim_of_eqv _ s2 heqv)
  have h2ch : s2.pv_list pg = pve :: rest := by
    rw [h2.2.2.1]
    exact hch
  have hl2 : Limbo s2 l := limbo_sim s s2 l hl h2
  obtain ⟨s9, l9, e9, g1, g2, g3, g4, g5, g6, g7, g8, g9, g10⟩ :=
    page_zap_spec c s2 hI2 pg pve rest l h2ch hmp2 hl2
  obtain ⟨u, hu⟩ : ∃ u, u = pmap_unmap_ptes c s9 pve.pv_pmap scr3 := ⟨_, rfl⟩
  have heu : eqv s9 u := hu ▸ unmap_ptes_eqv c s9 pve.pv_pmap scr3
  have hucr : u.cr3 = s.cr3 := by
    rw [hu, unmap_ptes_cr3]
    rcases hscr with h | h
    · rw [if_neg (by simp [h.1]), g3, h.2]
      rfl
    · rw [if_pos h.2, h.1]
      rfl
  have hrefs2 : ∀ q, (s2.pm q).uo_refs = (s.pm q).uo_refs + (if q = pve.pv_pmap then 1 else 0) := by
    intro q
    rw [((ss_of_eqv _ s2 heqv).2.2.2.2.2.2 q).2.2.2.2.2, reference_refs]
  have hrefsu : ∀ q, (u.pm q).uo_refs = (s.pm q).uo_refs + (if q = pve.pv_pmap then 1 else 0) := by
    intro q
    rw [((ss_of_eqv s9 u heu).2.2.2.2.2.2 q).2.2.2.2.2, g8, hrefs2]
  have h2u : 2 ≤ (u.pm pve.pv_pmap).uo_refs := by
    rw [hrefsu, if_pos rfl]
    have := hI.tree.refs _ hlive
    omega
  obtain ⟨s10, hd10, hsim10, hcr10, hr10⟩ := destroy_spec c u pve.pv_pmap h2u
  have hstep : pmap_page_remove_loop c pg (n + 1) s l =
      pmap_page_remove_loop c pg n (pv_pool_put s10 1) l9 := by
    simp only [pmap_page_remove_loop, hch, hm, h2ch, ne_eq, not_true_eq_false, if_false, e9,
      ← hu, hd10]
  have hstepev : ∀ log, pmap_page_remove_loop_ev c pg (n + 1) s l log =
      pmap_page_remove_loop_ev c pg n (pv_pool_put s10 1) l9 log := by
    intro log
    simp only [pmap_page_remove_loop_ev, hch, hm, h2ch, ne_eq, not_true_eq_false, if_false, e9,
      ← hu, destroy_ev_pos c u pve.pv_pmap log h2u, hd10, Option.map]
  have hs9' : sim s9 (pv_pool_put s10 1) :=
    sim_trans s9 u _ (sim_of_eqv s9 u heu) (sim_trans u s10 _ hsim10 (sim_pool s10 1))
  have hsh : shrink s s9 := shrink_trans s s2 s9 (shrink_of_sim s s2 h2) g4
  have hI' : Inv c (pv_pool_put s10 1) := by
    apply Inv_sim c s9 _ g1 hs9'
    · obtain ⟨q, hq, hq2⟩ := hI.tree.cr3_live
      refine ⟨q, ?_, ?_⟩
      · rcases hq with h | h
        · exact Or.inl h
        · exact Or.inr (hsh.1 ▸ h)
      · show s10.cr3 = _
        rw [hcr10, hucr, hq2, hsh.2.1 q]
    · intro q hq
      show 1 ≤ (s10.pm q).uo_refs
      rw [hr10, hrefsu]
      have hq' : live s q := by
        rcases hq with h | h
        · exact Or.inl h
        · exact Or.inr (hsh.1 ▸ h)
      have := hI.tree.refs q hq'
      split <;> omega
  refine ⟨_, l9, hstep, hI', limbo_sim s9 _ l9 g2 hs9', ?_,
    shrink_trans s s9 _ hsh (shrink_of_sim s9 _ hs9'), ?_, ?_, ?_,
    shrink_cleared s9 _ (shrink_of_sim s9 _ hs9') _ _ g9,
    fun h => extract_shrink s9 _ (shrink_of_sim s9 _ hs9') _ _ (g10 h), hstepev⟩
  · show s10.cr3 = _
    rw [hcr10, hucr]
  · exact pv_sub_trans s s9 _ (pv_sub_trans s s2 s9 (pv_sub_of_sim s s2 h2) g5)
      (pv_sub_of_sim s9 _ hs9')
  · exact wkeep_trans s s9 _ hsh.1
      (wkeep_trans s s2 s9 h2.2.2.2.1 (wkeep_of_sim s s2 h2) g6) (wkeep_of_sim s9 _ hs9')
  · rw [hs9'.2.2.1]
    exact g7

/-- One round of the loop of `pmap_page_remove`. -/
theorem page_round (c : config) (s : kstate) (hI : Inv c s) (pg : Nat) (pve : pv_entry)
    (rest : List pv_entry) (l : List Nat) (n : Nat) (hch : s.pv_list pg = pve :: rest)
    (hl : Limbo s l) :
    ∃ s' l', pmap_page_remove_loop c pg (n + 1) s l = pmap_page_remove_loop c pg n s' l' ∧
      Inv c s' ∧ Limbo s' l' ∧ s'.cr3 = s.cr3 ∧ shrink s s' ∧ pv_sub s s' ∧ wkeep s s' ∧
      s'.pv_list pg = rest ∧ cleared s' pve.pv_pmap pve.pv_va ∧
      (¬ (pve.pv_pmap = 0 ∧ pve.pv_va ≥ PMAP_DIRECT_BASE ∧ pve.pv_va < PMAP_DIRECT_END) →
        pmap_extract s' pve.pv_pmap pve.pv_va = none) := by
  obtain ⟨s', l', e, b1, b2, b3, b4, b5, b6, b7, b8, b9, _⟩ :=
    page_round_ev c s hI pg pve rest l n hch hl
  exact ⟨s', l', e, b1, b2, b3, b4, b5, b6, b7, b8, b9⟩

/-- The loop of `pmap_page_remove`: in the run with the log, the log comes
out as it went in. -/
theorem page_remove_loop_ev_spec (c : config) (pg : Nat) :
    ∀ n s l, Inv c s → Limbo s l → (s.pv_list pg).length < n →
      ∃ s1 l1, pmap_page_remove_loop c pg n s l = some (s1, l1) ∧ Inv c s1 ∧ Limbo s1 l1 ∧
        ∀ log, pmap_page_remove_loop_ev c pg n s l log = some (s1, l1, log) := by
  intro n
  induction n with
  | zero =>
    intro s l _ _ h
    omega
  | succ n ih =>
    intro s l hI hl hn
    cases hch : s.pv_list pg with
    | nil =>
      refine ⟨s, l, ?_, hI, hl, ?_⟩
      · simp only [pmap_page_remove_loop, hch]
      · intro log
        simp only [pmap_page_remove_loop_ev, hch]
    | cons pve rest =>
      obtain ⟨s', l', e, b1, b2, _, _, _, _, b7, _, _, b10⟩ :=
        page_round_ev c s hI pg pve rest l n hch hl
      rw [hch] at hn
      obtain ⟨s1, l1, d1, d2, d3, d4⟩ := ih s' l' b1 b2 (by
        rw [b7]
        simp only [List.length_cons] at hn
        omega)
      rw [e]
      exact ⟨s1, l1, d1, d2, d3, fun log => (b10 log).trans (d4 log)⟩

/-- The loop of `pmap_page_remove`. -/
theorem page_remove_loop_spec (c : config) (pg : Nat) :
    ∀ n s l, Inv c s → Limbo s l → (s.pv_list pg).length < n →
      ∃ s1 l1, pmap_page_remove_loop c pg n s l = some (s1, l1) ∧ Inv c s1 ∧ Limbo s1 l1 ∧
        s1.cr3 = s.cr3 ∧ shrink s s1 ∧ pv_sub s s1 ∧ wkeep s s1 ∧ s1.pv_list pg = [] ∧
        ∀ e ∈ s.pv_list pg, cleared s1 e.pv_pmap e.pv_va ∧
          (¬ (e.pv_pmap = 0 ∧ e.pv_va ≥ PMAP_DIRECT_BASE ∧ e.pv_va < PMAP_DIRECT_END) →
            pmap_extract s1 e.pv_pmap e.pv_va = none) := by
  intro n
  induction n with
  | zero =>
    intro s l _ _ h
    omega
  | succ n ih =>
    intro s l hI hl hn
    cases hch : s.pv_list pg with
    | nil =>
      refine ⟨s, l, ?_, hI, hl, rfl, shrink_refl s, pv_sub_refl s, wkeep_refl s, hch, ?_⟩
      · simp only [pmap_page_remove_loop, hch]
      · intro e he
        cases he
    | cons pve rest =>
      obtain ⟨s', l', e, b1, b2, b3, b4, b5, b6, b7, b8, b9⟩ :=
        page_round c s hI pg pve rest l n hch hl
      rw [hch] at hn
      obtain ⟨s1, l1, d1, d2, d3, d4, d5, d6, d7, d8, d9⟩ := ih s' l' b1 b2 (by
        rw [b7]
        simp only [List.length_cons] at hn
        omega)
      rw [e]
      refine ⟨s1, l1, d1, d2, d3, d4.trans b3, shrink_trans s s' s1 b4 d5,
        pv_sub_trans s s' s1 b5 d6, wkeep_trans s s' s1 b4.1 b6 d7, d8, ?_⟩
      intro e1 he1
      rcases List.mem_cons.mp he1 with h | h
      · rw [h]
        exact ⟨shrink_cleared s' s1 d5 _ _ b8, fun hdm => extract_shrink s' s1 d5 _ _ (b9 hdm)⟩
      · exact d9 e1 (b7 ▸ h)

/-- `pmap_page_remove`. -/
theorem page_remove_spec (c : config) (s : kstate) (hI : Inv c s) (pg : Nat) :
    ∃ s1, pmap_page_remove c s pg = some s1 ∧ Inv c s1 ∧ s1.cr3 = s.cr3 ∧ shrink s s1 ∧
      pv_sub s s1 ∧ wkeep s s1 ∧ s1.pv_list pg = [] ∧
      ∀ e ∈ s.pv_list pg, cleared s1 e.pv_pmap e.pv_va ∧
        (¬ (e.pv_pmap = 0 ∧ e.pv_va ≥ PMAP_DIRECT_BASE ∧ e.pv_va < PMAP_DIRECT_END) →
          pmap_extract s1 e.pv_pmap e.pv_va = none) := by
  obtain ⟨s1, l1, d1, d2, d3, d4, d5, d6, d7, d8, d9⟩ :=
    page_remove_loop_spec c pg ((s.pv_list pg).length + 1) s [] hI (limbo_nil s) (by omega)
  obtain ⟨b1, b2, b3, b4, b5, b6, b7, b8⟩ := pagefree_fold c l1 s1 d2 d3
  have hshF : shrink s1 (l1.foldl uvm_pagefree s1) :=
    ⟨b6, fun q => by simp only [root, b3], fun t i => Or.inl (by rw [b2])⟩
  simp only [pmap_page_remove, d1]
  refine ⟨_, rfl, b1, b4.trans d4, shrink_trans s s1 _ d5 hshF, ?_, ?_, ?_, ?_⟩
  · intro f e he
    rw [b5] at he
    exact d6 f e he
  · apply wkeep_trans s s1 _ d5.1 d7
    intro q hq L hL e he1
    rw [b3] at he1
    refine ⟨he1, Or.inl (b8 e.2 ?_)⟩
    intro hin
    obtain ⟨v, hv, _, hx⟩ := idx_mem_table c s1 d2.tree q (L + 1) e hq (by omega) (by omega) he1
    exact (d3.2 e.2 hin).1 ⟨q, v, L + 1, dom_user s1 q v hq hv, by omega, by omega, hx⟩
  · rw [b5]
    exact d8
  · intro e he
    exact ⟨shrink_cleared s1 _ hshF _ _ (d9 e he).1,
      fun hdm => extract_shrink s1 _ hshF _ _ ((d9 e he).2 hdm)⟩

/-! ## Changes of the attribute bits of a leaf PTE -/

/-- The invariant after the valid leaf entry of (`p`, `va`) changed to a
valid `v` with the same frame and pv bit, `wired_count` following the wired bit. -/
theorem Inv_bits (c : config) (s s1 : kstate) (hI : Inv c s) (hs : same_struct s s1)
    (hcr3 : s1.cr3 = s.cr3) (p va t v : Nat)
    (hd : dom s p va) (ha : va % 4096 = 0) (ht : ptab s.mem (root s p) va 1 = some t)
    (hm : s1.mem = mem_set s.mem t (slot va 1) v)
    (hve : pmap_valid_entry (s.mem t (slot va 1)) = true) (hv : pmap_valid_entry v = true)
    (hfr : v &&& PG_FRAME = s.mem t (slot va 1) &&& PG_FRAME)
    (hpl : v &&& PG_PVLIST = s.mem t (slot va 1) &&& PG_PVLIST)
    (hw : s1.wire_count = s.wire_count)
    (hres : ∀ q, (s1.pm q).resident_count = (s.pm q).resident_count)
    (hc : ∀ q, q ≠ p → (s1.pm q).wired_count = (s.pm q).wired_count)
    (hwir : (s1.pm p).wired_count + (wbit (s.mem t (slot va 1)) : Int) =
      (s.pm p).wired_count + (wbit v : Int))
    (hpv : s1.pv_list = s.pv_list) : Inv c s1 := by
  apply Inv_enter c s s1 hI hs hcr3 p va t v hd ha ht hm hv (fun t1 _ => by rw [hw])
  · intro _
    rw [hw, vbit_valid _ hve]
  · exact fun q hq => ⟨hres q, hc q hq⟩
  · rw [hres, vbit_valid _ hve, Nat.cast_one]
  · exact hwir
  · intro f e
    rw [hpv]
    constructor
    · intro he
      by_cases hk : e.pv_pmap = p ∧ e.pv_va = va
      · right
        obtain ⟨_, k2, k3, k4⟩ := chain_entry c s hI.pv p va t f e ht he hk
        exact ⟨by rw [hpl]; exact k2, by rw [hfr]; exact k3, k4⟩
      · exact Or.inl ⟨he, hk⟩
    · rintro (h | ⟨h1, h2, h3⟩)
      · exact h.1
      · rw [hpl] at h1
        rw [hfr] at h2
        obtain ⟨e1, he1, hk1⟩ := hI.pv.pv_complete p va t hd ha ht hve h1
        have := (chain_entry c s hI.pv p va t _ e1 ht he1 hk1).2.2.2
        rw [h3, h2, ← this]
        exact he1
  · intro f
    rw [hpv]
    exact hI.pv.pv_nodup f
  · rw [hpl, hfr]
    exact hI.pv.pv_managed p va t hd ht hve

theorem and_and_const (e m k : Nat) : (e &&& m) &&& k = e &&& (m &&& k) := Nat.land_assoc e m k

theorem clear_w_valid (e : Nat) :
    pmap_valid_entry (e &&& (0xffffffffffffffff ^^^ PG_W)) = pmap_valid_entry e := by
  simp only [pmap_valid_entry, and_and_const]
  rfl

theorem clear_w_frame (e : Nat) :
    (e &&& (0xffffffffffffffff ^^^ PG_W)) &&& PG_FRAME = e &&& PG_FRAME := by
  rw [and_and_const]
  rfl

theorem clear_w_pvlist (e : Nat) :
    (e &&& (0xffffffffffffffff ^^^ PG_W)) &&& PG_PVLIST = e &&& PG_PVLIST := by
  rw [and_and_const]
  rfl

theorem clear_w_w (e : Nat) : (e &&& (0xffffffffffffffff ^^^ PG_W)) &&& PG_W = 0 := by
  rw [and_and_const]
  exact Nat.and_zero e

theorem page_of_facts (va : Nat) (hva : va < 0x7f8000000000) :
    page_of va < 0x7f8000000000 ∧ page_of va % 4096 = 0 ∧ pfx (page_of va) 1 = pfx va 1 ∧
      slot (page_of va) 1 = slot va 1 := by
  simp only [page_of, slot, pfx]
  omega

/-- `pmap_unwire` on a user pmap, when it returns. -/
theorem unwire_spec (c : config) (s : kstate) (hI : Inv c s) (p va : Nat)
    (hp : p ∈ s.pmaps) (hva : va < 0x7f8000000000) (s1 : kstate)
    (h : pmap_unwire c s p va = some s1) :
    Inv c s1 ∧ s1.cr3 = s.cr3 ∧ s1.pmaps = s.pmaps ∧ s1.pv_list = s.pv_list ∧
      s1.wire_count = s.wire_count ∧ (∀ q, (s1.pm q).pm_obj = (s.pm q).pm_obj) := by
  obtain ⟨g1, g2, g3, g4⟩ := page_of_facts va hva
  have hd := dom_user s p (page_of va) hp g1
  simp only [pmap_unwire] at h
  cases ht : ptab s.mem (root s p) va 1 with
  | none =>
    have hl : (pmap_find_pte_direct s p va).1 ≠ 0 := by
      rw [find_pte_direct_spec, ht]
      cases ptab s.mem (root s p) va 3 <;> cases ptab s.mem (root s p) va 2 <;> simp
    rw [if_neg hl] at h
    split at h
    · cases h
    · cases h
      exact ⟨hI, rfl, rfl, rfl, rfl, fun _ => rfl⟩
  | some t =>
    rw [find_pte_direct_leaf s p va t ht] at h
    simp only [if_true] at h
    split at h
    · cases h
    · rename_i hdv
      split at h
      · rename_i hw
        cases h
        have ht0 : ptab s.mem (root s p) (page_of va) 1 = some t := by
          rw [← ht]
          exact (ptab_pfx s.mem (root s p) (page_of va) va 1 (by omega) (by omega) g3).symm
        have hve : pmap_valid_entry (s.mem t (slot (page_of va) 1)) = true := by
          rw [g4]
          rcases hI.tree.leaf_shape p hp va t hva ht with h0 | h0
          · rw [h0] at hw
            exact absurd rfl hw
          · exact h0
        refine ⟨?_, rfl, rfl, rfl, rfl, ?_⟩
        · apply Inv_bits c s (add_wired (pmap_pte_clearbits s t (slot va 1) PG_W) p (-1)) hI
            (ss_add_wired _ _ _ _ (ss_set_mem _ _ _ _ _ (same_struct_refl s))) rfl p (page_of va) t
            (s.mem t (slot va 1) &&& (0xffffffffffffffff ^^^ PG_W)) hd g2 ht0
          · rw [g4]
            rfl
          · exact hve
          · rw [clear_w_valid, ← g4]
            exact hve
          · rw [clear_w_frame, g4]
          · rw [clear_w_pvlist, g4]
          · rfl
          · intro q
            by_cases hq : q = p
            · subst hq
              simp [add_wired, pmap_pte_clearbits, set_mem, upd]
            · simp [add_wired, pmap_pte_clearbits, set_mem, upd, hq]
          · intro q hq
            simp [add_wired, pmap_pte_clearbits, set_mem, upd, hq]
          · have hv2 : pmap_valid_entry (s.mem t (slot va 1) &&&
                (0xffffffffffffffff ^^^ PG_W)) = true := by
              rw [clear_w_valid, ← g4]
              exact hve
            rw [wbit_eq _ hve, wbit_eq _ hv2, clear_w_w, g4, if_pos hw]
            simp [add_wired, pmap_pte_clearbits, set_mem, upd]
          · rfl
        · intro q
          by_cases hq : q = p
          · subst hq
            simp [add_wired, pmap_pte_clearbits, set_mem, upd]
          · simp [add_wired, pmap_pte_clearbits, set_mem, upd, hq]
      · cases h
        exact ⟨hI, rfl, rfl, rfl, rfl, fun _ => rfl⟩

/-! ## pmap_write_protect -/

theorem wp_and (e nx K : Nat) (hn : nx &&& K = 0)
    (hk : (0xffffffffffffffff ^^^ PG_RW) &&& K = K) : wp_entry e nx &&& K = e &&& K := by
  rw [wp_entry, or_keep _ _ _ hn, and_and_const, hk]

theorem wp_step_state (s : kstate) (t i nx : Nat) :
    pmap_pte_setbits (pmap_pte_clearbits s t i PG_RW) t i nx =
      set_mem s t i (wp_entry (s.mem t i) nx) := by
  simp only [pmap_pte_setbits, pmap_pte_clearbits, set_mem, wp_entry, mem_set_same]
  congr 1
  funext t1 i1
  simp only [mem_set]
  split <;> rfl

theorem Inv_wp (c : config) (s : kstate) (hI : Inv c s) (p va t nx : Nat)
    (hnx : nx = 0 ∨ nx = PG_NX) (hd : dom s p va) (ha : va % 4096 = 0)
    (ht : ptab s.mem (root s p) va 1 = some t)
    (hve : pmap_valid_entry (s.mem t (slot va 1)) = true) :
    Inv c (set_mem s t (slot va 1) (wp_entry (s.mem t (slot va 1)) nx)) := by
  have hv : pmap_valid_entry (wp_entry (s.mem t (slot va 1)) nx) = true := by
    rw [pmap_valid_entry, wp_and _ _ PG_V (by rcases hnx with e | e <;> rw [e] <;> rfl) rfl]
    exact hve
  have hW : wp_entry (s.mem t (slot va 1)) nx &&& PG_W = s.mem t (slot va 1) &&& PG_W :=
    wp_and _ _ PG_W (by rcases hnx with e | e <;> rw [e] <;> rfl) rfl
  apply Inv_bits c s _ hI (ss_set_mem _ _ _ _ _ (same_struct_refl s)) rfl p va t
    (wp_entry (s.mem t (slot va 1)) nx) hd ha ht rfl hve hv
  · exact wp_and _ _ PG_FRAME (by rcases hnx with e | e <;> rw [e] <;> rfl) rfl
  · exact wp_and _ _ PG_PVLIST (by rcases hnx with e | e <;> rw [e] <;> rfl) rfl
  · rfl
  · exact fun _ => rfl
  · exact fun _ _ => rfl
  · rw [wbit_eq _ hve, wbit_eq _ hv, hW]
    rfl
  · rfl

theorem wp_rel_refl (s : kstate) : wp_rel s s :=
  ⟨same_struct_refl s, rfl, rfl, rfl, fun _ _ _ _ _ _ => rfl, fun _ => ⟨rfl, rfl⟩⟩

theorem wp_rel_trans (s s1 s2 : kstate) (h1 : wp_rel s s1) (h2 : wp_rel s1 s2) :
    wp_rel s s2 := by
  obtain ⟨a1, a2, a3, a4, a5, a6⟩ := h1
  obtain ⟨b1, b2, b3, b4, b5, b6⟩ := h2
  refine ⟨same_struct_trans s s1 s2 a1 b1, b2.trans a2, b3.trans a3, b4.trans a4, ?_, ?_⟩
  · intro p1 va1 L hd h1 h4
    rw [b5 p1 va1 L ((same_struct_dom s s1 a1 p1 va1).2 hd) h1 h4, a5 p1 va1 L hd h1 h4]
  · intro q
    exact ⟨(b6 q).1.trans (a6 q).1, (b6 q).2.trans (a6 q).2⟩

/-! ### The entries `pmap_write_protect` has gone over -/

theorem wp_done_nil (nx p : Nat) (s : kstate) (lo hi : Nat) (h : hi ≤ lo) :
    wp_done nx p s s lo hi :=
  ⟨fun j h1 h2 => by omega, fun _ _ _ => rfl⟩

theorem wp_done_none (nx p : Nat) (s : kstate) (lo hi : Nat)
    (h : ∀ j, lo ≤ j → j < hi → ptab s.mem (root s p) (j * 4096) 1 = none) :
    wp_done nx p s s lo hi := by
  refine ⟨?_, fun _ _ _ => rfl⟩
  intro j h1 h2 t ht
  rw [h j h1 h2] at ht
  cases ht

theorem page_slot (j : Nat) : slot (j * 4096) 1 = j % 512 := by
  simp only [slot, pfx]
  omega

theorem wp_done_one (nx p : Nat) (s : kstate) (j t : Nat)
    (ht : ptab s.mem (root s p) (j * 4096) 1 = some t) :
    wp_done nx p s (set_mem s t (j % 512) (wp_val nx (s.mem t (j % 512)))) j (j + 1) := by
  refine ⟨?_, ?_⟩
  · intro j1 h1 h2 t1 ht1
    have : j1 = j := by omega
    subst this
    rw [ht] at ht1
    cases ht1
    simp only [set_mem, mem_set_same]
  · intro t1 i h
    simp only [set_mem, mem_set]
    split
    · rename_i hk
      exact absurd hk.2 (h j (le_refl j) (by omega) (hk.1 ▸ ht))
    · rfl

/-- Two pages with the same leaf table are in the same 2 MiB block. -/
theorem same_table_block (c : config) (s : kstate) (hS : SInv c s) (p j j1 t : Nat)
    (hp : p ∈ s.pmaps) (h1 : j * 4096 < 0x7f8000000000) (h2 : j1 * 4096 < 0x7f8000000000)
    (ht : ptab s.mem (root s p) (j * 4096) 1 = some t)
    (ht1 : ptab s.mem (root s p) (j1 * 4096) 1 = some t) : j / 512 = j1 / 512 := by
  have := (hS.sep p (j * 4096) 1 p (j1 * 4096) 1 t (dom_user s p _ hp h1) (dom_user s p _ hp h2)
    (by omega) (by omega) (by omega) (by omega) ht ht1).2.2
  simp only [pfx] at this
  omega

theorem wp_done_trans (c : config) (nx p : Nat) (s s1 s2 : kstate) (lo mid hi : Nat)
    (hS : SInv c s) (hp : p ∈ s.pmaps) (hhi : hi * 4096 ≤ 0x7f8000000000)
    (hlm : lo ≤ mid) (hmh : mid ≤ hi) (hr : wp_rel s s1)
    (h1 : wp_done nx p s s1 lo mid) (h2 : wp_done nx p s1 s2 mid hi) :
    wp_done nx p s s2 lo hi := by
  have hpt : ∀ j, j < hi →
      ptab s1.mem (root s1 p) (j * 4096) 1 = ptab s.mem (root s p) (j * 4096) 1 :=
    fun j hj => hr.2.2.2.2.1 p (j * 4096) 1 (dom_user s p _ hp (by omega)) (by omega) (by omega)
  have hne : ∀ j j1 t, j < hi → j1 < hi → j ≠ j1 →
      ptab s.mem (root s p) (j * 4096) 1 = some t →
      ptab s.mem (root s p) (j1 * 4096) 1 = some t → j % 512 ≠ j1 % 512 := by
    intro j j1 t a1 a2 a3 a4 a5
    have := same_table_block c s hS p j j1 t hp (by omega) (by omega) a4 a5
    omega
  refine ⟨?_, ?_⟩
  · intro j a1 a2 t ht
    by_cases hj : j < mid
    · rw [h2.2 t (j % 512) (fun j1 b1 b2 b3 => hne j j1 t a2 b2 (by omega) ht (hpt j1 b2 ▸ b3))]
      exact h1.1 j a1 hj t ht
    · rw [h2.1 j (by omega) a2 t (by rw [hpt j a2]; exact ht)]
      rw [h1.2 t (j % 512) (fun j1 b1 b2 b3 => hne j j1 t a2 (by omega) (by omega) ht b3)]
  · intro t i h
    rw [h2.2 t i (fun j b1 b2 b3 => h j (by omega) b2 (hpt j b2 ▸ b3))]
    exact h1.2 t i (fun j b1 b2 b3 => h j b1 (by omega) b3)

theorem wp_ptes_spec (c : config) (p t nx epte : Nat) (hnx : nx = 0 ∨ nx = PG_NX)
    (he : epte * 4096 ≤ 0x7f8000000000) :
    ∀ n spte s, Inv c s → p ∈ s.pmaps → mapped s p →
      (∀ j, spte ≤ j → j < epte → ptab s.mem (root s p) (j * 4096) 1 = some t) →
      epte ≤ spte + n →
      ∃ s1, pmap_write_protect_ptes nx epte n spte s = some s1 ∧ Inv c s1 ∧ wp_rel s s1 ∧
        wp_done nx p s s1 spte epte := by
  intro n
  induction n with
  | zero =>
    intro spte s hI _ _ _ h0
    exact ⟨s, rfl, hI, wp_rel_refl s, wp_done_nil nx p s spte epte (by omega)⟩
  | succ n ih =>
    intro spte s hI hp hmp hall hn
    by_cases hlt : spte < epte
    · have hva : spte * 4096 < 0x7f8000000000 := by omega
      have hd := dom_user s p (spte * 4096) hp hva
      have ht := hall spte (le_refl _) hlt
      have hrt : rec_table s (spte * PAGE_SIZE) 1 = some t := by
        apply rec_table_of_ptab s _ 1 t (by omega) (by omega)
        show ptab s.mem s.cr3 (spte * 4096) 1 = some t
        rw [ptab_cr3 c s hI.tree p _ 1 hd hmp (by omega) (by omega)]
        exact ht
      have hsl : spte % 512 = slot (spte * 4096) 1 := by
        simp only [slot, pfx]
        omega
      simp only [pmap_write_protect_ptes, hlt, if_true, hrt]
      by_cases hv : pmap_valid_entry (s.mem t (spte % 512)) = true
      · simp only [hv, not_true_eq_false, if_false]
        rw [wp_step_state, hsl]
        have hv' : pmap_valid_entry (s.mem t (slot (spte * 4096) 1)) = true := hsl ▸ hv
        have hI1 := Inv_wp c s hI p (spte * 4096) t nx hnx hd (by omega) ht hv'
        have hss := ss_set_mem s s t (slot (spte * 4096) 1)
          (wp_entry (s.mem t (slot (spte * 4096) 1)) nx) (same_struct_refl s)
        have hrel : wp_rel s (set_mem s t (slot (spte * 4096) 1)
            (wp_entry (s.mem t (slot (spte * 4096) 1)) nx)) :=
          ⟨hss, rfl, rfl, rfl, fun p1 va1 L hd1 h1 h4 =>
            leaf_ptab c s _ hI.tree hss p (spte * 4096) t _ hd ht rfl p1 va1 L hd1 h1 h4,
            fun _ => ⟨rfl, rfl⟩⟩
        obtain ⟨s1, e1, e2, e3, e4⟩ := ih (spte + 1) _ hI1 hp hmp
          (by
            intro j h1 h2
            rw [hrel.2.2.2.2.1 p (j * 4096) 1 (dom_user s p _ hp (by omega)) (by omega)
              (by omega)]
            exact hall j (by omega) h2)
          (by omega)
        refine ⟨s1, e1, e2, wp_rel_trans s _ s1 hrel e3, ?_⟩
        have h1 := wp_done_one nx p s spte t ht
        rw [← hsl] at e4 hrel
        have hwv : wp_val nx (s.mem t (spte % 512)) = wp_entry (s.mem t (spte % 512)) nx := by
          simp only [wp_val, hv, if_true]
        rw [hwv] at h1
        exact wp_done_trans c nx p s _ s1 spte (spte + 1) epte hI.tree hp he (by omega)
          (by omega) hrel h1 e4
      · simp only [hv, not_false_eq_true, if_true]
        obtain ⟨s1, e1, e2, e3, e4⟩ := ih (spte + 1) s hI hp hmp
          (fun j h1 h2 => hall j (by omega) h2) (by omega)
        refine ⟨s1, e1, e2, e3, ?_⟩
        have h1 := wp_done_one nx p s spte t ht
        have hwv : wp_val nx (s.mem t (spte % 512)) = s.mem t (spte % 512) := by
          simp only [wp_val, hv]
          rfl
        have hid : set_mem s t (spte % 512) (s.mem t (spte % 512)) = s := by
          simp only [set_mem]
          have : mem_set s.mem t (spte % 512) (s.mem t (spte % 512)) = s.mem := by
            funext t1 i1
            simp only [mem_set]
            split
            · rename_i hk
              rw [hk.1, hk.2]
            · rfl
          rw [this]
        rw [hwv, hid] at h1
        exact wp_done_trans c nx p s s s1 spte (spte + 1) epte hI.tree hp he (by omega)
          (by omega) (wp_rel_refl s) h1 e4
    · refine ⟨s, ?_, hI, wp_rel_refl s, wp_done_nil nx p s spte epte (by omega)⟩
      simp only [pmap_write_protect_ptes, hlt, if_false]

theorem l2_frame_eq (va : Nat) (h : va < 2 ^ 47) :
    w64 ((va &&& L2_FRAME) + NBPD_L2) = (va / 2 ^ 21 + 1) * 2 ^ 21 := by
  have e : L2_FRAME = 2 ^ 48 - 2 ^ 21 := by
    rw [L2_FRAME]
    norm_num
  rw [e, and_mask _ 21 48 (by omega), w64, NBPD_L2]
  norm_num at h ⊢
  omega

theorem pl1_i_eq (x : Nat) (h : x < 2 ^ 47) : pl1_i x = x / 4096 := by
  rw [pl1_i, pl_i_1]
  simp only [pfx]
  norm_num at h ⊢
  omega

/-- The block loop of `pmap_write_protect`. -/
theorem wp_loop_spec (c : config) (p eva nx : Nat) (hnx : nx = 0 ∨ nx = PG_NX)
    (he : eva ≤ 0x7f7fffffc000) (hae : eva % 4096 = 0) :
    ∀ n va s, Inv c s → p ∈ s.pmaps → mapped s p → va % 4096 = 0 → 1 ≤ n →
      (va < eva → eva ≤ (va / 2 ^ 21 + (n - 1)) * 2 ^ 21) →
      ∃ s1, pmap_write_protect_loop c eva nx n va s = some s1 ∧ Inv c s1 ∧ wp_rel s s1 ∧
        wp_done nx p s s1 (va / 4096) (eva / 4096) := by
  intro n
  induction n with
  | zero =>
    intro va s _ _ _ _ h1
    omega
  | succ n ih =>
    intro va s hI hp hmp ha _ hn
    by_cases hlt : va < eva
    · have hva : va < 0x7f8000000000 := by omega
      have hn1 := hn hlt
      have hrd := l2_frame_eq va (by norm_num; omega)
      obtain ⟨blk, hblk⟩ : ∃ blk, blk = if w64 ((va &&& L2_FRAME) + NBPD_L2) > eva then eva
          else w64 ((va &&& L2_FRAME) + NBPD_L2) := ⟨_, rfl⟩
      have hb : va < blk ∧ blk % 4096 = 0 ∧ blk ≤ (va / 2 ^ 21 + 1) * 2 ^ 21 ∧ blk ≤ eva ∧
          (blk = eva ∨ blk = (va / 2 ^ 21 + 1) * 2 ^ 21) := by
        rw [hblk, hrd]
        split <;> norm_num <;> omega
      obtain ⟨hb1, hb2, hb3, hb4, hb5⟩ := hb
      have hn2 : 1 ≤ n := by
        norm_num at hn1
        omega
      have hn3 : blk < eva → eva ≤ (blk / 2 ^ 21 + (n - 1)) * 2 ^ 21 := by
        intro h
        rcases hb5 with h3 | h3
        · omega
        · rw [h3]
          norm_num at hn1 ⊢
          omega
      have hslot : ¬ pl_i va PTP_LEVELS = PDIR_SLOT_PTE := by
        rw [show PTP_LEVELS = 4 from rfl, pl_i_4, show PDIR_SLOT_PTE = 255 from rfl]
        have := pfx_user va hva
        omega
      have hdiag : ¬ (c.DIAGNOSTIC = true ∧ va ≥ VM_MAXUSER_ADDRESS ∧ va < VM_MAX_ADDRESS) := by
        rw [VM_MAXUSER_ADDRESS]
        intro h
        omega
      have hstep : pmap_write_protect_loop c eva nx (n + 1) va s =
          match pmap_pdes_valid s va with
          | none => pmap_write_protect_loop c eva nx n blk s
          | some _ =>
            match pmap_write_protect_ptes nx (pl1_i blk) (pl1_i blk - pl1_i va) (pl1_i va) s with
            | none => none
            | some s1 => pmap_write_protect_loop c eva nx n blk s1 := by
        rw [hblk]
        simp only [pmap_write_protect_loop, hlt, if_true, hslot, if_false, hdiag]
      rw [hstep]
      obtain ⟨hv1, hv2⟩ := pdes_valid_spec c s hI.tree p va hp hva hmp
      cases ht : ptab s.mem (root s p) va 1 with
      | none =>
        rw [hv2 ht]
        obtain ⟨s1, d1, d2, d3, d4⟩ := ih blk s hI hp hmp hb2 hn2 hn3
        refine ⟨s1, d1, d2, d3, ?_⟩
        apply wp_done_trans c nx p s s s1 (va / 4096) (blk / 4096) (eva / 4096) hI.tree hp
          (by omega) (by omega) (by omega) (wp_rel_refl s) _ d4
        apply wp_done_none
        intro j h1 h2
        rw [← ht]
        apply ptab_pfx s.mem (root s p) va (j * 4096) 1 (by omega) (by omega)
        exact (pfx1_block va (j * 4096) (by norm_num; omega) (by omega) (by omega)).symm
      | some t =>
        obtain ⟨pde, e1, _⟩ := hv1 t ht
        rw [e1]
        simp only []
        have hp1 := pl1_i_eq va (by norm_num; omega)
        have hp2 := pl1_i_eq blk (by norm_num; omega)
        obtain ⟨s', e2, e3, e4, e5⟩ := wp_ptes_spec c p t nx (pl1_i blk) hnx
          (by rw [hp2]; omega) (pl1_i blk - pl1_i va) (pl1_i va) s hI hp hmp
          (by
            intro j h1 h2
            rw [hp1] at h1
            rw [hp2] at h2
            rw [← ht]
            apply ptab_pfx s.mem (root s p) va (j * 4096) 1 (by omega) (by omega)
            exact (pfx1_block va (j * 4096) (by norm_num; omega) (by omega) (by omega)).symm)
          (by omega)
        rw [e2]
        simp only []
        have hp' : p ∈ s'.pmaps := e4.1.1 ▸ hp
        have hp0 : p ≠ 0 := fun e => hI.tree.kern_notin (e ▸ hp)
        have hmp' : mapped s' p := by
          left
          rw [e4.2.1, same_struct_root s s' e4.1]
          exact hmp.resolve_right hp0
        obtain ⟨s1, d1, d2, d3, d4⟩ := ih blk s' e3 hp' hmp' hb2 hn2 hn3
        refine ⟨s1, d1, d2, wp_rel_trans s s' s1 e4 d3, ?_⟩
        rw [hp1, hp2] at e5
        exact wp_done_trans c nx p s s' s1 (va / 4096) (blk / 4096) (eva / 4096) hI.tree hp
          (by omega) (by omega) (by omega) e4 e5 d4
    · refine ⟨s, ?_, hI, wp_rel_refl s, wp_done_nil nx p s _ _ (by omega)⟩
      simp only [pmap_write_protect_loop, hlt, if_false]

/-- `pmap_write_protect` on a range of user addresses of a user pmap. -/
theorem write_protect_spec (c : config) (s : kstate) (hI : Inv c s) (p sva eva prot : Nat)
    (hp : p ∈ s.pmaps) (he : eva ≤ 0x7f7fffffc000) :
    ∃ s1, pmap_write_protect c s p sva eva prot = some s1 ∧ Inv c s1 ∧ s1.cr3 = s.cr3 ∧
      s1.pmaps = s.pmaps ∧ s1.wire_count = s.wire_count ∧ s1.pv_list = s.pv_list ∧
      (∀ q, (s1.pm q).pm_obj = (s.pm q).pm_obj) ∧
      wp_done (if prot &&& PROT_EXEC = 0 then c.pg_nx else 0) p s s1
        ((sva &&& PG_FRAME) / 4096) ((eva &&& PG_FRAME) / 4096) ∧
      (∀ q, (s1.pm q).resident_count = (s.pm q).resident_count ∧
        (s1.pm q).wired_count = (s.pm q).wired_count) ∧
      (∀ p1 va1 L, dom s p1 va1 → 1 ≤ L → L ≤ 4 →
        ptab s1.mem (root s1 p1) va1 L = ptab s.mem (root s p1) va1 L) := by
  obtain ⟨scr3, s0, hm, heqv, hmp0, hlive, hscr⟩ := map_ptes_spec c s hI.tree p (Or.inr hp)
  have hI0 : Inv c s0 := Inv_eqv c s s0 hI heqv hlive
  have hss0 := ss_of_eqv s s0 heqv
  have hp0 : p ∈ s0.pmaps := hss0.1 ▸ hp
  have hnx : (if prot &&& PROT_EXEC = 0 then c.pg_nx else 0) = 0 ∨
      (if prot &&& PROT_EXEC = 0 then c.pg_nx else 0) = PG_NX := by
    split
    · exact hI.tree.cfg.1
    · exact Or.inl rfl
  have hea : eva &&& PG_FRAME ≤ 0x7f7fffffc000 ∧ (eva &&& PG_FRAME) % 4096 = 0 := by
    rw [and_frame]
    omega
  have hsa : (sva &&& PG_FRAME) % 4096 = 0 := by
    rw [and_frame]
    omega
  obtain ⟨s1, d1, d2, d3, d4⟩ := wp_loop_spec c p (eva &&& PG_FRAME) _ hnx hea.1 hea.2 (2 ^ 43 + 2)
    (sva &&& PG_FRAME) s0 hI0 hp0 hmp0 hsa (by norm_num) (by
      intro _
      have := hea.1
      norm_num
      omega)
  simp only [pmap_write_protect, hm, d1]
  obtain ⟨u, hu⟩ : ∃ u, u = pmap_unmap_ptes c s1 p scr3 := ⟨_, rfl⟩
  rw [← hu]
  have heu : eqv s1 u := hu ▸ unmap_ptes_eqv c s1 p scr3
  have hucr : u.cr3 = s.cr3 := by
    rw [hu, unmap_ptes_cr3]
    rcases hscr with h | h
    · rw [if_neg (by simp [h.1]), d3.2.1, h.2]
    · rw [if_pos h.2, h.1]
  have hss1 : same_struct s s1 := same_struct_trans s s0 s1 hss0 d3.1
  have hssu : same_struct s u := same_struct_trans s s1 u hss1 (ss_of_eqv s1 u heu)
  have hroot : ∀ q, root s0 q = root s q := same_struct_root s s0 hss0
  have hrootu : ∀ q, root u q = root s1 q := same_struct_root s1 u (ss_of_eqv s1 u heu)
  refine ⟨u, rfl, ?_, hucr, hssu.1, ?_, ?_, fun q => (hssu.2.2.2.2.2.2 q).1, ?_, ?_, ?_⟩
  · apply Inv_eqv c s1 u d2 heu
    obtain ⟨q, hq, hq2⟩ := hI.tree.cr3_live
    exact ⟨q, (same_struct_live s s1 hss1 q).2 hq, by
      rw [hucr, hq2, same_struct_root s s1 hss1]⟩
  · rw [heu.2.1, d3.2.2.1, heqv.2.1]
  · rw [heu.2.2.2.1, d3.2.2.2.1, heqv.2.2.2.1]
  · refine ⟨?_, ?_⟩
    · intro j h1 h2 t ht
      rw [heu.1, ← heqv.1]
      exact d4.1 j h1 h2 t (by rw [hroot, heqv.1]; exact ht)
    · intro t i h
      rw [heu.1, ← heqv.1]
      exact d4.2 t i (fun j h1 h2 h3 => h j h1 h2 (by rw [← hroot, ← heqv.1]; exact h3))
  · intro q
    rw [(heu.2.2.2.2.2.2 q).1, (heu.2.2.2.2.2.2 q).2.1, (d3.2.2.2.2.2 q).1, (d3.2.2.2.2.2 q).2,
      (heqv.2.2.2.2.2.2 q).1, (heqv.2.2.2.2.2.2 q).2.1]
    exact ⟨rfl, rfl⟩
  · intro p1 va1 L hd h1 h4
    rw [hrootu, heu.1, d3.2.2.2.2.1 p1 va1 L ((same_struct_dom s s0 hss0 p1 va1).2 hd) h1 h4,
      hroot, heqv.1]

/-! ## A new pmap -/

theorem created_fresh (c : config) (s s1 : kstate) (pmap pdir intel : Nat) (hI : SInv c s)
    (h : Created s s1 pmap pdir intel) :
    pmap ≠ 0 ∧ pmap ∉ s.pmaps ∧ (∀ q, live s q → q ≠ pmap) ∧
      (∀ q va, dom s q va → q ≠ pmap) ∧
      (∀ q va L, dom s q va → 1 ≤ L → L ≤ 4 → ptab s.mem (root s q) va L ≠ some pdir) ∧
      (intel ≠ 0 → ∀ q va L, dom s q va → 1 ≤ L → L ≤ 4 →
        ptab s.mem (root s q) va L ≠ some intel) := by
  obtain ⟨a1, a2⟩ := hI.pool_fresh pmap h.hpmap
  have hl : ∀ q, live s q → q ≠ pmap := by
    intro q hq e
    rcases hq with hq | hq
    · exact a1 (e ▸ hq)
    · exact a2 (e ▸ hq)
  refine ⟨a1, a2, hl, fun q va hd => hl q (dom_live s q va hd),
    fun q va L hd h1 h4 => hI.pdp_sep pdir h.hpdir q va L hd h1 h4, ?_⟩
  intro hne q va L hd h1 h4
  rcases h.hintel with e | e
  · exact absurd e hne
  · exact hI.pdp_sep intel e.1 q va L hd h1 h4

/-- The walks of the old pmaps are left as they are. -/
theorem created_old (c : config) (s s1 : kstate) (pmap pdir intel : Nat) (hI : SInv c s)
    (h : Created s s1 pmap pdir intel) (q va L : Nat) (hd : dom s q va) (h1 : 1 ≤ L)
    (h4 : L ≤ 4) : ptab s1.mem (root s1 q) va L = ptab s.mem (root s q) va L := by
  obtain ⟨_, _, _, f4, f5, f6⟩ := created_fresh c s s1 pmap pdir intel hI h
  have hr : root s1 q = root s q := by
    simp only [root, h.pm_old q (f4 q va hd)]
  rw [hr]
  apply ptab_congr s.mem s1.mem (root s q) va L h1 h4
  intro j t hj hj4 ht
  apply h.mem_old
  · intro e
    exact f5 q va j hd (by omega) hj4 (e ▸ ht)
  · intro e
    exact f6 e.1 q va j hd (by omega) hj4 (e.2 ▸ ht)

/-- The tree of the new pmap is its root. -/
theorem created_new (s s1 : kstate) (pmap pdir intel : Nat)
    (h : Created s s1 pmap pdir intel) (va L : Nat) (hva : va < 0x7f8000000000) (h1 : 1 ≤ L)
    (h4 : L ≤ 4) :
    ptab s1.mem (root s1 pmap) va L = if L = 4 then some pdir else none := by
  have hr : root s1 pmap = pdir := h.pm_root
  rw [hr]
  have h0 : s1.mem pdir (slot va 4) = 0 := by
    apply h.mem_user
    rw [slot4]
    exact pfx_user va hva
  have h3 : ptab s1.mem pdir va 3 = none := by
    apply ptab_child_none s1.mem pdir va 3 pdir (by omega) (by omega) rfl
    rw [h0]
    decide
  have h2 := ptab_none_below s1.mem pdir va 2 (by omega) (by omega) h3
  have h1' := ptab_none_below s1.mem pdir va 1 (by omega) (by omega) h2
  have : L = 1 ∨ L = 2 ∨ L = 3 ∨ L = 4 := by omega
  rcases this with e | e | e | e <;> subst e
  · simpa using h1'
  · simpa using h2
  · simpa using h3
  · rfl

theorem created_dom (c : config) (s s1 : kstate) (pmap pdir intel : Nat) (_hI : SInv c s)
    (h : Created s s1 pmap pdir intel) (q va : Nat) :
    dom s1 q va ↔ (q = pmap ∧ va < 0x7f8000000000) ∨ dom s q va := by
  simp only [dom, h.pmaps, List.mem_cons]
  tauto

/-- A table of the new state is the new root or a table of the old state. -/
theorem created_cases (c : config) (s s1 : kstate) (pmap pdir intel : Nat) (hI : SInv c s)
    (h : Created s s1 pmap pdir intel) (q va L t : Nat) (hd : dom s1 q va) (h1 : 1 ≤ L)
    (h4 : L ≤ 4) (ht : ptab s1.mem (root s1 q) va L = some t) :
    (q = pmap ∧ va < 0x7f8000000000 ∧ L = 4 ∧ t = pdir) ∨
      (q ≠ pmap ∧ dom s q va ∧ ptab s.mem (root s q) va L = some t ∧ t ≠ pdir) := by
  obtain ⟨_, _, _, f4, f5, _⟩ := created_fresh c s s1 pmap pdir intel hI h
  rw [created_dom c s s1 pmap pdir intel hI h] at hd
  rcases hd with hd | hd
  · left
    rw [hd.1, created_new s s1 pmap pdir intel h va L hd.2 h1 h4] at ht
    split at ht
    · rename_i hL
      cases ht
      exact ⟨hd.1, hd.2, hL, rfl⟩
    · cases ht
  · right
    rw [created_old c s s1 pmap pdir intel hI h q va L hd h1 h4] at ht
    exact ⟨f4 q va hd, hd, ht, fun e => f5 q va L hd h1 h4 (e ▸ ht)⟩

theorem created_mem (c : config) (s s1 : kstate) (pmap pdir intel : Nat) (hI : SInv c s)
    (h : Created s s1 pmap pdir intel) (q va L t : Nat) (hd : dom s q va) (h1 : 1 ≤ L)
    (h4 : L ≤ 4) (ht : ptab s.mem (root s q) va L = some t) (i : Nat) :
    s1.mem t i = s.mem t i := by
  obtain ⟨_, _, _, _, f5, f6⟩ := created_fresh c s s1 pmap pdir intel hI h
  apply h.mem_old
  · intro e
    exact f5 q va L hd h1 h4 (e ▸ ht)
  · intro e
    exact f6 e.1 q va L hd h1 h4 (e.2 ▸ ht)

theorem created_SInv (c : config) (s s1 : kstate) (pmap pdir intel : Nat) (hI : SInv c s)
    (h : Created s s1 pmap pdir intel) : SInv c s1 := by
  obtain ⟨f1, f2, f3, f4, f5, f6⟩ := created_fresh c s s1 pmap pdir intel hI h
  have hcases := created_cases c s s1 pmap pdir intel hI h
  have hold := created_old c s s1 pmap pdir intel hI h
  have hmem := created_mem c s s1 pmap pdir intel hI h
  have hpdf := hI.pdp_frame pdir h.hpdir
  have hlive : ∀ q, live s1 q ↔ q = pmap ∨ live s q := by
    intro q
    simp only [live, h.pmaps, List.mem_cons]
    tauto
  have hr : ∀ q, q ≠ pmap → root s1 q = root s q := by
    intro q hq
    simp only [root, h.pm_old q hq]
  have hr0 : root s1 0 = root s 0 := hr 0 (Ne.symm f1)
  have hrn : root s1 pmap = pdir := h.pm_root
  have hroot_mem : ∀ q, live s q → ∀ i, s1.mem (root s q) i = s.mem (root s q) i := by
    intro q hq i
    obtain ⟨va, hd⟩ := live_dom s q hq
    exact hmem q va 4 (root s q) hd (by omega) (by omega) rfl i
  have hin : ∀ q, q ∈ s1.pmaps ↔ q = pmap ∨ q ∈ s.pmaps := by
    intro q
    rw [h.pmaps, List.mem_cons]
  constructor
  · exact hI.cfg
  · rw [h.init]
    exact hI.init
  · rw [h.pmaps, List.mem_cons]
    rintro (e | e)
    · exact f1 e.symm
    · exact hI.kern_notin e
  · rw [h.pmaps]
    exact List.nodup_cons.mpr ⟨f2, hI.pmaps_nodup⟩
  · obtain ⟨q, hq, e⟩ := hI.cr3_live
    exact ⟨q, (hlive q).2 (Or.inr hq), by rw [h.cr3, e, hr q (f3 q hq)]⟩
  · intro q hq
    rcases (hlive q).1 hq with e | e
    · rw [e, hrn]
      exact hpdf.2
    · rw [hr q (f3 q e)]
      exact hI.root_ne q e
  · intro q hq
    rcases (hlive q).1 hq with e | e
    · rw [e]
      exact h.pm_type
    · rw [h.pm_old q (f3 q e)]
      exact hI.normal q e
  · intro q hq
    rcases (hlive q).1 hq with e | e
    · rw [e, h.pm_refs]
    · rw [h.pm_old q (f3 q e)]
      exact hI.refs q e
  · intro q hq
    rcases (hlive q).1 hq with e | e
    · rw [e, h.pm_pdir, h.pm_root]
    · rw [h.pm_old q (f3 q e)]
      exact hI.pdir q e
  · intro q hq i hi hi2
    rw [hr0, hroot_mem 0 (Or.inl rfl)]
    rcases (hin q).1 hq with e | e
    · rw [e, hrn]
      exact h.mem_kern i hi hi2
    · rw [hr q (f3 q (Or.inr e)), hroot_mem q (Or.inr e)]
      exact hI.kshare q e i hi hi2
  · intro i hi hi2
    rw [hr0, hroot_mem 0 (Or.inl rfl)]
    rw [h.nkptp] at hi
    exact hI.kern_slots i hi hi2
  · intro p va L p1 va1 L1 t hd hd1 a1 a4 b1 b4 ht ht1
    rcases hcases p va L t hd a1 a4 ht with ⟨e1, e2, e3, e4⟩ | ⟨e1, e2, e3, e4⟩
    · rcases hcases p1 va1 L1 t hd1 b1 b4 ht1 with ⟨g1, g2, g3, g4⟩ | ⟨g1, g2, g3, g4⟩
      · refine ⟨by rw [e3, g3], by rw [e1, g1], ?_⟩
        rw [e3]
        have := pfx3_lt va
        have := pfx3_lt va1
        simp only [pfx] at *
        omega
      · exact absurd e4 g4
    · rcases hcases p1 va1 L1 t hd1 b1 b4 ht1 with ⟨g1, g2, g3, g4⟩ | ⟨g1, g2, g3, g4⟩
      · exact absurd g4 e4
      · exact hI.sep p va L p1 va1 L1 t e2 g2 a1 a4 b1 b4 e3 g3
  · intro p hp hne p1 va L hd a1 a4 ht
    rcases (hin p).1 hp with e | e
    · rw [e, h.pm_intel] at ht hne
      rcases h.hintel with k | k
      · exact hne k
      · rcases hcases p1 va L _ hd a1 a4 ht with ⟨_, _, _, e4⟩ | ⟨_, e2, e3, _⟩
        · exact k.2 e4
        · exact f6 hne p1 va L e2 a1 a4 e3
    · rw [h.pm_old p (f3 p (Or.inr e))] at ht hne
      rcases hcases p1 va L _ hd a1 a4 ht with ⟨_, _, _, e4⟩ | ⟨_, e2, e3, _⟩
      · exact hI.pdp_shadow pdir h.hpdir p e e4
      · exact hI.shadow p e hne p1 va L e2 a1 a4 e3
  · intro f hf p va L hd a1 a4 ht
    rw [h.free] at hf
    rcases hcases p va L f hd a1 a4 ht with ⟨_, _, _, e4⟩ | ⟨_, e2, e3, _⟩
    · exact hI.pdp_free pdir h.hpdir (e4 ▸ hf)
    · exact hI.free_sep f hf p va L e2 a1 a4 e3
  · intro f hf p hp hne
    rw [h.free] at hf
    rcases (hin p).1 hp with e | e
    · rw [e, h.pm_intel] at hne ⊢
      rcases h.hintel with k | k
      · exact absurd k hne
      · intro e2
        exact hI.pdp_free intel k.1 (e2 ▸ hf)
    · rw [h.pm_old p (f3 p (Or.inr e))] at hne ⊢
      exact hI.free_shadow f hf p e hne
  · rw [h.free]
    exact hI.free_nodup
  · rw [h.free]
    exact hI.free_frame
  · intro f hf p va L hd a1 a4 ht
    obtain ⟨k1, k2, _⟩ := h.pdp_sub f hf
    rcases hcases p va L f hd a1 a4 ht with ⟨_, _, _, e4⟩ | ⟨_, e2, e3, _⟩
    · exact k2 e4
    · exact hI.pdp_sep f k1 p va L e2 a1 a4 e3
  · intro f hf p hp
    obtain ⟨k1, _, k3⟩ := h.pdp_sub f hf
    rcases (hin p).1 hp with e | e
    · rw [e, h.pm_intel]
      exact Ne.symm k3
    · rw [h.pm_old p (f3 p (Or.inr e))]
      exact hI.pdp_shadow f k1 p e
  · intro f hf
    rw [h.free]
    exact hI.pdp_free f (h.pdp_sub f hf).1
  · exact h.pdp_nodup
  · intro f hf
    exact hI.pdp_frame f (h.pdp_sub f hf).1
  · intro q hq
    obtain ⟨k1, k2⟩ := h.pool_sub q hq
    obtain ⟨k3, k4⟩ := hI.pool_fresh q k1
    refine ⟨k3, ?_⟩
    rw [hin]
    rintro (e | e)
    · exact k2 e
    · exact k4 e
  · exact h.pool_nodup
  · intro p hp va L hva a1 a3
    rcases (hin p).1 hp with e | e
    · rw [e, created_new s s1 pmap pdir intel h va L hva a1 (by omega), if_neg (by omega),
        h.pm_obj]
      rfl
    · rw [hold p va L (dom_user s p va e hva) a1 (by omega), h.pm_old p (f3 p (Or.inr e))]
      exact hI.idx p e va L hva a1 a3
  · intro p hp L a1 a3 x hx
    rcases (hin p).1 hp with e | e
    · rw [e, h.pm_obj] at hx
      cases hx
    · rw [h.pm_old p (f3 p (Or.inr e))] at hx
      exact hI.idx_keys p e L a1 a3 x hx
  · intro p hp L a1 a3
    rcases (hin p).1 hp with e | e
    · rw [e, h.pm_obj]
      exact List.nodup_nil
    · rw [h.pm_old p (f3 p (Or.inr e))]
      exact hI.idx_nodup p e L a1 a3
  · intro p hp va L t hva a2 a4 ht
    have hd : dom s1 p va := Or.inl ⟨hp, hva⟩
    rcases hcases p va L t hd (by omega) a4 ht with ⟨_, _, e3, e4⟩ | ⟨e1, e2, e3, _⟩
    · left
      rw [e3, e4]
      apply h.mem_user
      rw [slot4]
      exact pfx_user va hva
    · rw [hmem p va L t e2 (by omega) a4 e3]
      have hp' : p ∈ s.pmaps := ((hin p).1 hp).resolve_left e1
      exact hI.shape p hp' va L t hva a2 a4 e3
  · intro p hp va t hva ht
    have hd : dom s1 p va := Or.inl ⟨hp, hva⟩
    rcases hcases p va 1 t hd (by omega) (by omega) ht with ⟨_, _, e3, _⟩ | ⟨e1, e2, e3, _⟩
    · omega
    · rw [hmem p va 1 t e2 (by omega) (by omega) e3]
      have hp' : p ∈ s.pmaps := ((hin p).1 hp).resolve_left e1
      exact hI.leaf_shape p hp' va t hva e3
  · intro va a1 a2
    rw [hold 0 va 1 (dom_direct s va a1 a2) (by omega) (by omega)]
    exact hI.direct va a1 a2

theorem created_Inv (c : config) (s s1 : kstate) (pmap pdir intel : Nat) (hI : Inv c s)
    (h : Created s s1 pmap pdir intel) : Inv c s1 := by
  have hS := hI.tree
  obtain ⟨f1, f2, f3, f4, f5, f6⟩ := created_fresh c s s1 pmap pdir intel hS h
  have hcases := created_cases c s s1 pmap pdir intel hS h
  have hold := created_old c s s1 pmap pdir intel hS h
  have hmem := created_mem c s s1 pmap pdir intel hS h
  have hin : ∀ q, q ∈ s1.pmaps ↔ q = pmap ∨ q ∈ s.pmaps := by
    intro q
    rw [h.pmaps, List.mem_cons]
  have hdom := created_dom c s s1 pmap pdir intel hS h
  refine ⟨created_SInv c s s1 pmap pdir intel hS h, ?_, ?_, ?_⟩
  · constructor
    intro p hp va L t hva a1 a3 ht
    rcases hcases p va L t (Or.inl ⟨hp, hva⟩) a1 (by omega) ht with
      ⟨_, _, e3, _⟩ | ⟨e1, e2, e3, _⟩
    · omega
    · have hp' : p ∈ s.pmaps := ((hin p).1 hp).resolve_left e1
      rw [h.wire, vcount_congr s.mem s1.mem t (fun i _ => hmem p va L t e2 a1 (by omega) e3 i)]
      exact hI.wire.wire p hp' va L t hva a1 a3 e3
  · constructor
    · intro p hp
      rcases (hin p).1 hp with e | e
      · rw [e, h.pm_res]
        simp only [leaf_count, ptp_count, h.pm_obj, h.pm_intel, List.map_nil, List.sum_nil,
          List.length_nil]
        split <;> simp
      · have hpm := h.pm_old p (f3 p (Or.inr e))
        rw [hpm, hI.count.resident p e]
        simp only [leaf_count, ptp_count, hpm]
        congr 2
        apply sum_congr_pages
        intro x hx
        obtain ⟨va, hva, _, ht⟩ := idx_mem_table c s hS p 1 x e (by omega) (by omega) hx
        exact (vcount_congr s.mem s1.mem x.2
          (fun i _ => hmem p va 1 x.2 (dom_user s p va e hva) (by omega) (by omega) ht i)).symm
    · intro p hp
      rcases (hin p).1 hp with e | e
      · rw [e, h.pm_wired]
        simp only [wired_leaf_count, h.pm_obj, List.map_nil, List.sum_nil]
        rfl
      · have hpm := h.pm_old p (f3 p (Or.inr e))
        rw [hpm, hI.count.wired p e]
        simp only [wired_leaf_count, hpm]
        congr 1
        apply sum_congr_pages
        intro x hx
        obtain ⟨va, hva, _, ht⟩ := idx_mem_table c s hS p 1 x e (by omega) (by omega) hx
        exact (wcount_congr s.mem s1.mem x.2
          (fun i _ => hmem p va 1 x.2 (dom_user s p va e hva) (by omega) (by omega) ht i)).symm
  · constructor
    · intro f e he
      rw [h.pv] at he
      obtain ⟨k1, k2, t, k3, k4, k5, k6, k7⟩ := hI.pv.pv_sound f e he
      refine ⟨(hdom _ _).2 (Or.inr k1), k2, t, ?_, ?_, ?_, ?_, k7⟩
      · rw [hold _ _ 1 k1 (by omega) (by omega)]
        exact k3
      · rw [hmem _ _ 1 t k1 (by omega) (by omega) k3]
        exact k4
      · rw [hmem _ _ 1 t k1 (by omega) (by omega) k3]
        exact k5
      · rw [hmem _ _ 1 t k1 (by omega) (by omega) k3]
        exact k6
    · intro p va t hd ha ht hv hpl
      rcases hcases p va 1 t hd (by omega) (by omega) ht with ⟨_, _, e3, _⟩ | ⟨e1, e2, e3, _⟩
      · omega
      · rw [hmem p va 1 t e2 (by omega) (by omega) e3] at hv hpl ⊢
        rw [h.pv]
        exact hI.pv.pv_complete p va t e2 ha e3 hv hpl
    · intro f
      rw [h.pv]
      exact hI.pv.pv_nodup f
    · intro p va t hd ht hv
      rcases hcases p va 1 t hd (by omega) (by omega) ht with ⟨_, _, e3, _⟩ | ⟨e1, e2, e3, _⟩
      · omega
      · rw [hmem p va 1 t e2 (by omega) (by omega) e3] at hv ⊢
        exact hI.pv.pv_managed p va t e2 e3 hv

theorem ctor_frame (c : config) (hc : cfg_ok c) (pdir : Nat) (h : is_frame pdir) :
    (pdir ||| PG_V ||| PG_KW ||| c.pg_nx) &&& PG_FRAME = pdir := by
  have h1 : c.pg_nx &&& PG_FRAME = 0 := by
    rcases hc.1 with e | e <;> rw [e] <;> rfl
  rw [or_keep _ _ _ h1, or_keep _ _ _ (show PG_KW &&& PG_FRAME = 0 from rfl),
    or_keep _ _ _ (show PG_V &&& PG_FRAME = 0 from rfl)]
  exact h

theorem cr3_kern (c : config) (s : kstate) (h : SInv c s) (i : Nat) (h1 : 256 ≤ i)
    (h2 : i < 512) : s.mem s.cr3 i = s.mem (root s 0) i := by
  obtain ⟨q, hq, hcq⟩ := h.cr3_live
  rcases hq with hq | hq
  · rw [hcq, hq]
  · rw [hcq]
    exact h.kshare q hq i h1 h2

theorem pdp_ctor_eq (c : config) (s : kstate) (pdir : Nat) :
    (pmap_pdp_ctor c s pdir).mem = fun t i =>
      if t = pdir ∧ i < NTOPLEVEL_PDES then
        if i = 511 then s.mem s.cr3 511
        else if i = PDIR_SLOT_DIRECT then s.mem (s.pm 0).pm_pdir PDIR_SLOT_DIRECT
        else if i < PDIR_SLOT_PTE then 0
        else if i = PDIR_SLOT_PTE then pdir ||| PG_V ||| PG_KW ||| c.pg_nx
        else if i < PDIR_SLOT_KERN + s.nkptp (PTP_LEVELS - 1) then s.mem s.cr3 i
        else 0
      else s.mem t i := by
  have h1 : pl4_pi KERNBASE = 511 := by decide
  have h2 : VM_MIN_KERNEL_ADDRESS ≠ KERNBASE := by decide
  simp only [pmap_pdp_ctor, h1, h2, ne_eq, not_false_eq_true, true_and]

theorem ctor_mem (c : config) (s : kstate) (hS : SInv c s) (pdir : Nat) (hf : is_frame pdir) :
    (∀ t i, t ≠ pdir → (pmap_pdp_ctor c s pdir).mem t i = s.mem t i) ∧
    (∀ i, i < 255 → (pmap_pdp_ctor c s pdir).mem pdir i = 0) ∧
    (∀ i, 256 ≤ i → i < 512 → (pmap_pdp_ctor c s pdir).mem pdir i = s.mem (root s 0) i) ∧
    (pmap_pdp_ctor c s pdir).mem pdir PDIR_SLOT_PTE &&& PG_FRAME = pdir := by
  refine ⟨?_, ?_, ?_, ?_⟩
  · intro t i ht
    simp [pdp_ctor_eq, ht]
  · intro i hi
    have h1 : i < NTOPLEVEL_PDES := by
      rw [NTOPLEVEL_PDES]
      omega
    have h2 : i ≠ 511 := by omega
    have h3 : i ≠ PDIR_SLOT_DIRECT := by
      rw [PDIR_SLOT_DIRECT]
      omega
    have h4 : i < PDIR_SLOT_PTE := hi
    simp [pdp_ctor_eq, h1, h2, h3, h4]
  · intro i hi hi2
    have h1 : i < NTOPLEVEL_PDES := hi2
    simp only [pdp_ctor_eq, h1, and_self, if_true, true_and]
    by_cases h511 : i = 511
    · rw [if_pos h511, h511]
      exact cr3_kern c s hS 511 (by omega) (by omega)
    · rw [if_neg h511]
      by_cases h510 : i = PDIR_SLOT_DIRECT
      · rw [if_pos h510, h510, hS.pdir 0 (Or.inl rfl)]
        rfl
      · rw [if_neg h510]
        have h510' : i ≠ 510 := h510
        have h5 : ¬ i < PDIR_SLOT_PTE := by
          rw [PDIR_SLOT_PTE]
          omega
        have h6 : ¬ i = PDIR_SLOT_PTE := by
          rw [PDIR_SLOT_PTE]
          omega
        rw [if_neg h5, if_neg h6]
        by_cases h7 : i < PDIR_SLOT_KERN + s.nkptp (PTP_LEVELS - 1)
        · rw [if_pos h7]
          exact cr3_kern c s hS i hi hi2
        · rw [if_neg h7]
          symm
          apply hS.kern_slots i _ (by omega)
          have : PDIR_SLOT_KERN + s.nkptp (PTP_LEVELS - 1) = 256 + s.nkptp 3 := rfl
          omega
  · have h1 : (pmap_pdp_ctor c s pdir).mem pdir PDIR_SLOT_PTE =
        pdir ||| PG_V ||| PG_KW ||| c.pg_nx := by
      simp [pdp_ctor_eq, PDIR_SLOT_PTE, NTOPLEVEL_PDES, PDIR_SLOT_DIRECT]
    rw [h1]
    exact ctor_frame c hS.cfg pdir hf

theorem ctor_intel_none (s : kstate) (pdir : Nat) (h : (s.pm 0).pm_pdir_intel = 0) :
    pmap_pdp_ctor_intel s pdir = none := by
  simp [pmap_pdp_ctor_intel, h]

theorem ctor_intel_some (s : kstate) (pdir : Nat) (h : (s.pm 0).pm_pdir_intel ≠ 0) :
    pmap_pdp_ctor_intel s pdir = some { s with mem := (fun t i =>
      if t = pdir ∧ i < 512 then (s.mem ((s.pm 0).pm_pdir_intel) i) else s.mem t i) } := by
  simp [pmap_pdp_ctor_intel, h]

/-- `pmap_create`: it returns when the pools are not exhausted and, with
`cpu_meltdown`, the kernel pmap has a shadow root; the new state has the new
pmap with an empty tree. -/
theorem create_spec (c : config) (s : kstate) (hI : Inv c s) :
    (pmap_create c s = none ∧
      (s.pmap_pool = [] ∨ s.pdp_pool.length < (if c.cpu_meltdown then 2 else 1) ∨
        (c.cpu_meltdown = true ∧ (s.pm 0).pm_pdir_intel = 0))) ∨
    ∃ p s1 pdir intel, pmap_create c s = some (p, s1) ∧ Created s s1 p pdir intel ∧
      (intel ≠ 0 ↔ c.cpu_meltdown = true) ∧ s.pmap_pool.head? = some p := by
  have hS := hI.tree
  cases hpp : s.pmap_pool with
  | nil =>
    left
    simp [pmap_create, hpp]
  | cons pmap ppool =>
    cases hdp : s.pdp_pool with
    | nil =>
      left
      refine ⟨by simp [pmap_create, hpp, hdp], Or.inr (Or.inl ?_)⟩
      split <;> simp
    | cons pdir pool1 =>
      have hpdir : pdir ∈ s.pdp_pool := hdp ▸ List.mem_cons_self pdir pool1
      have hpmap : pmap ∈ s.pmap_pool := hpp ▸ List.mem_cons_self pmap ppool
      have hnd := hS.pdp_nodup
      rw [hdp, List.nodup_cons] at hnd
      have hpn := hS.pool_nodup
      rw [hpp, List.nodup_cons] at hpn
      have hpf := hS.pdp_frame pdir hpdir
      obtain ⟨m1, m2, m3, m4⟩ := ctor_mem c s hS pdir hpf.1
      by_cases hmd : c.cpu_meltdown = true
      · cases hp1 : pool1 with
        | nil =>
          left
          refine ⟨by simp [pmap_create, hpp, hdp, hmd, hp1], Or.inr (Or.inl ?_)⟩
          simp [hmd, hp1]
        | cons pdi pool2 =>
          by_cases hk : (s.pm 0).pm_pdir_intel = 0
          · left
            refine ⟨?_, Or.inr (Or.inr ⟨hmd, hk⟩)⟩
            simp only [pmap_create, hpp, hdp, hmd, if_true, hp1]
            rw [ctor_intel_none]
            exact hk
          right
          rw [hp1] at hnd hdp
          have hpdi : pdi ∈ s.pdp_pool := hdp ▸ List.mem_cons_of_mem _ (List.mem_cons_self pdi pool2)
          have hne : pdi ≠ pdir := fun e => hnd.1 (e ▸ List.mem_cons_self pdi pool2)
          have hnd2 := List.nodup_cons.mp hnd.2
          have hpdf := hS.pdp_frame pdi hpdi
          refine ⟨pmap, _, pdir, pdi, by
              simp only [pmap_create, hpp, hdp, hmd, if_true]
              rw [ctor_intel_some]
              exact hk, ?_,
            by simp [hmd, hpdf.2], by simp⟩
          constructor
          · exact hpmap
          · exact hpdir
          · exact Or.inr ⟨hpdi, hne⟩
          · rfl
          · rfl
          · intro f hf
            have hf' : f ∈ pool2 := hf
            refine ⟨hdp ▸ List.mem_cons_of_mem _ (List.mem_cons_of_mem _ hf'), ?_, ?_⟩
            · intro e
              exact hnd.1 (e ▸ List.mem_cons_of_mem _ hf')
            · intro e
              exact hnd2.1 (e ▸ hf')
          · exact hnd2.2
          · intro q hq
            have hq' : q ∈ ppool := hq
            exact ⟨hpp ▸ List.mem_cons_of_mem _ hq', fun e => hpn.1 (e ▸ hq')⟩
          · exact hpn.2
          · rfl
          · rfl
          · rfl
          · rfl
          · rfl
          · intro q hq
            simp [pmap_pdp_ctor_intel, upd, hq]
            rfl
          · simp only [pmap_pdp_ctor_intel, upd, if_true]
            exact m4
          · simp [pmap_pdp_ctor_intel, upd]
          · simp [pmap_pdp_ctor_intel, upd]
          · simp [pmap_pdp_ctor_intel, upd]
          · simp [pmap_pdp_ctor_intel, upd]
          · simp [pmap_pdp_ctor_intel, upd]
          · simp [pmap_pdp_ctor_intel, upd, hpdf.2]
          · intro k
            simp [pmap_pdp_ctor_intel, upd]
          · intro t i h1 h2
            have h3 : t ≠ pdi := fun e => h2 ⟨hpdf.2, e⟩
            simp only [pmap_pdp_ctor_intel, h3, false_and, if_false]
            exact m1 t i h1
          · intro i hi
            simp only [pmap_pdp_ctor_intel, hne.symm, false_and, if_false]
            exact m2 i hi
          · intro i hi hi2
            simp only [pmap_pdp_ctor_intel, hne.symm, false_and, if_false]
            exact m3 i hi hi2
      · right
        have hmd' : c.cpu_meltdown = false := by simpa using hmd
        refine ⟨pmap, _, pdir, 0, by
            simp only [pmap_create, hpp, hdp, hmd', Bool.false_eq_true, if_false]; rfl, ?_,
          by simp [hmd'], by simp⟩
        constructor
        · exact hpmap
        · exact hpdir
        · exact Or.inl rfl
        · rfl
        · rfl
        · intro f hf
          have hf' : f ∈ pool1 := hf
          refine ⟨hdp ▸ List.mem_cons_of_mem _ hf', ?_, ?_⟩
          · intro e
            exact hnd.1 (e ▸ hf')
          · exact (hS.pdp_frame f (hdp ▸ List.mem_cons_of_mem _ hf')).2
        · exact hnd.2
        · intro q hq
          have hq' : q ∈ ppool := hq
          exact ⟨hpp ▸ List.mem_cons_of_mem _ hq', fun e => hpn.1 (e ▸ hq')⟩
        · exact hpn.2
        · rfl
        · rfl
        · rfl
        · rfl
        · rfl
        · intro q hq
          simp [upd, hq]
          rfl
        · simp only [upd, if_true]
          exact m4
        · simp [upd]
        · simp [upd]
        · simp [upd]
        · simp [upd]
        · simp [upd]
        · simp [upd]
        · intro k
          simp [upd]
        · intro t i h1 _
          exact m1 t i h1
        · exact m2
        · exact m3

/-! ## The boot state -/

theorem ptab_zero (r va L : Nat) (h1 : 1 ≤ L) (h4 : L ≤ 4) :
    ptab (fun _ _ => 0) r va L = if L = 4 then some r else none := by
  have : L = 1 ∨ L = 2 ∨ L = 3 ∨ L = 4 := by omega
  rcases this with e | e | e | e <;> subst e <;> simp [ptab, pdown, pstep] <;> decide

theorem cfg0_ok : cfg_ok cfg0 := by
  refine ⟨Or.inr rfl, Or.inl rfl, Or.inr rfl, by decide, ?_⟩
  intro pa h
  simp only [cfg0, decide_eq_true_eq] at h
  rw [is_frame_iff]
  omega

theorem boot_Inv (c : config) (hc : cfg_ok c) (free : List Nat) (h : boot_ok free = true) :
    Inv c (boot free) := by
  simp only [boot_ok, decide_eq_true_eq] at h
  obtain ⟨hnd, hfr⟩ := h
  have hpt : ∀ p va L t, 1 ≤ L → L ≤ 4 → ptab (boot free).mem (root (boot free) p) va L = some t →
      L = 4 ∧ t = 0x1000 := by
    intro p va L t h1 h4 ht
    have := ptab_zero (root (boot free) p) va L h1 h4
    rw [show (boot free).mem = fun _ _ => 0 from rfl] at ht
    rw [this] at ht
    split at ht
    · rename_i hL
      cases ht
      exact ⟨hL, rfl⟩
    · cases ht
  have hno : ∀ p, p ∉ (boot free).pmaps := fun p hp => by cases hp
  refine ⟨?_, ?_, ?_, ?_⟩
  · constructor
    · exact hc
    · rfl
    · exact hno 0
    · exact List.nodup_nil
    · exact ⟨0, Or.inl rfl, rfl⟩
    · intro p _
      show (0x1000 : Nat) ≠ 0
      decide
    · intro p _
      rfl
    · intro p _
      show (1 : Int) ≤ 1
      decide
    · intro p _
      rfl
    · intro p hp
      exact absurd hp (hno p)
    · intro i _ _
      rfl
    · intro p va L p1 va1 L1 t hd hd1 a1 a4 b1 b4 ht ht1
      obtain ⟨e1, _⟩ := hpt p va L t a1 a4 ht
      obtain ⟨g1, _⟩ := hpt p1 va1 L1 t b1 b4 ht1
      have hp : p = 0 := by
        rcases hd with hd | hd
        · exact absurd hd.1 (hno p)
        · exact hd.1
      have hp1 : p1 = 0 := by
        rcases hd1 with hd1 | hd1
        · exact absurd hd1.1 (hno p1)
        · exact hd1.1
      refine ⟨by rw [e1, g1], by rw [hp, hp1], ?_⟩
      rw [e1]
      have := pfx3_lt va
      have := pfx3_lt va1
      simp only [pfx] at *
      omega
    · intro p hp
      exact absurd hp (hno p)
    · intro f hf p va L _ a1 a4 ht
      obtain ⟨_, e2⟩ := hpt p va L f a1 a4 ht
      exact (hfr f hf).2.1 e2
    · intro f _ p hp
      exact absurd hp (hno p)
    · exact hnd
    · intro f hf
      exact (hfr f hf).1
    · intro f hf p va L _ a1 a4 ht
      obtain ⟨_, e2⟩ := hpt p va L f a1 a4 ht
      rw [e2] at hf
      have hf' : (0x1000 : Nat) ∈ [0x2000, 0x3000, 0x4000, 0x5000] := hf
      revert hf'
      decide
    · intro f _ p hp
      exact absurd hp (hno p)
    · intro f hf hf2
      exact (hfr f hf2).2.2 hf
    · show [0x2000, 0x3000, 0x4000, 0x5000].Nodup
      decide
    · show ∀ f ∈ [0x2000, 0x3000, 0x4000, 0x5000], f &&& PG_FRAME = f ∧ f ≠ 0
      decide
    · show ∀ p ∈ [1, 2, 3], p ≠ 0 ∧ p ∉ ([] : List Nat)
      decide
    · show [1, 2, 3].Nodup
      decide
    · intro p hp
      exact absurd hp (hno p)
    · intro p hp
      exact absurd hp (hno p)
    · intro p hp
      exact absurd hp (hno p)
    · intro p hp
      exact absurd hp (hno p)
    · intro p hp
      exact absurd hp (hno p)
    · intro va _ _
      have := ptab_zero (root (boot free) 0) va 1 (by omega) (by omega)
      rw [show (boot free).mem = fun _ _ => 0 from rfl, this]
      rfl
  · constructor
    intro p hp
    exact absurd hp (hno p)
  · constructor
    · intro p hp
      exact absurd hp (hno p)
    · intro p hp
      exact absurd hp (hno p)
  · constructor
    · intro f e he
      cases he
    · intro p va t _ _ ht
      obtain ⟨e1, _⟩ := hpt p va 1 t (by omega) (by omega) ht
      omega
    · intro f
      exact List.nodup_nil
    · intro p va t _ ht
      obtain ⟨e1, _⟩ := hpt p va 1 t (by omega) (by omega) ht
      omega

/-! ## The operations keep the invariant -/

theorem create_Inv (c : config) (s : kstate) (hI : Inv c s) (p : Nat) (s1 : kstate)
    (h : pmap_create c s = some (p, s1)) :
    Inv c s1 ∧ s1.pmaps = p :: s.pmaps ∧ (∀ k, (s1.pm p).pm_obj k = []) ∧
      (s1.pm p).resident_count = 1 + (if c.cpu_meltdown = true then 1 else 0) ∧
      s1.wire_count = s.wire_count := by
  rcases create_spec c s hI with ⟨h0, _⟩ | ⟨p', s1', pdir, intel, h1, h2, h3, _⟩
  · rw [h0] at h
    cases h
  · rw [h1] at h
    cases h
    refine ⟨created_Inv c s s1 p pdir intel hI h2, h2.pmaps, h2.pm_obj, ?_, h2.wire⟩
    rw [h2.pm_res]
    by_cases hm : c.cpu_meltdown = true
    · rw [if_pos (h3.2 hm), if_pos hm]
    · rw [if_neg (fun e => hm (h3.1 e)), if_neg hm]

theorem enter_Inv (c : config) (s : kstate) (hI : Inv c s) (p va pa prot flags : Nat)
    (hp : p ∈ s.pmaps) (hva : va < 0x7f8000000000) (ha : va % 4096 = 0) (hpa : pa < 2 ^ 52)
    (r : Nat) (s1 : kstate) (h : pmap_enter c s p va pa prot flags = some (r, s1)) :
    Inv c s1 ∧ s1.pmaps = s.pmaps := by
  rcases enter_spec c s hI p va pa prot flags hp hva ha hpa with ⟨h0, _⟩ | ⟨r', s1', h1, h2, _, h4, _⟩
  · rw [h0] at h
    cases h
  · rw [h1] at h
    cases h
    exact ⟨h2, h4⟩

/-- Every operation keeps the state invariant, and `pmap_remove` and
`pmap_page_remove` bring no page-table page down to `wire_count <= 1`
without freeing it. -/
theorem step_Inv (c : config) (s : kstate) (hI : Inv c s) (o : op) (s1 : kstate)
    (hok : op_ok s o = true) (h : exec c s o = some s1) :
    Inv c s1 ∧ (op_removes o = true → s1.pmaps = s.pmaps ∧ wkeep s s1) := by
  cases o with
  | create =>
    simp only [exec, Option.map_eq_some'] at h
    obtain ⟨⟨p, s1'⟩, h1, h2⟩ := h
    cases h2
    exact ⟨(create_Inv c s hI p s1' h1).1, fun e => by cases e⟩
  | enter p va pa prot flags =>
    simp only [op_ok, decide_eq_true_eq] at hok
    simp only [exec, Option.map_eq_some'] at h
    obtain ⟨⟨r, s1'⟩, h1, h2⟩ := h
    cases h2
    exact ⟨(enter_Inv c s hI p va pa prot flags hok.1 hok.2.1 hok.2.2.1 hok.2.2.2.2.1 r s1' h1).1,
      fun e => by cases e⟩
  | remove p sva eva =>
    simp only [op_ok, decide_eq_true_eq] at hok
    obtain ⟨s1', h1, h2, _, h4, _, h6, _⟩ :=
      remove_spec c s hI p sva eva hok.1 hok.2.1 hok.2.2.1 hok.2.2.2.1 hok.2.2.2.2
    simp only [exec, h1] at h
    cases h
    exact ⟨h2, fun _ => ⟨h4.1, h6⟩⟩
  | page_remove pg =>
    obtain ⟨s1', h1, h2, _, h4, _, h6, _⟩ := page_remove_spec c s hI pg
    simp only [exec, h1] at h
    cases h
    exact ⟨h2, fun _ => ⟨h4.1, h6⟩⟩
  | write_protect p sva eva prot =>
    simp only [op_ok, decide_eq_true_eq] at hok
    obtain ⟨s1', h1, h2, _⟩ := write_protect_spec c s hI p sva eva prot hok.1 hok.2
    simp only [exec, h1] at h
    cases h
    exact ⟨h2, fun e => by cases e⟩
  | unwire p va =>
    simp only [op_ok, decide_eq_true_eq] at hok
    exact ⟨(unwire_spec c s hI p va hok.1 hok.2 s1 h).1, fun e => by cases e⟩

theorem run_Inv (c : config) : ∀ (ops : List op) (s s1 : kstate), Inv c s →
    run c s ops = some s1 → Inv c s1 := by
  intro ops
  induction ops with
  | nil =>
    intro s s1 hI h
    cases h
    exact hI
  | cons o os ih =>
    intro s s1 hI h
    simp only [run] at h
    split at h
    · rename_i hok
      cases he : exec c s o with
      | none =>
        rw [he] at h
        cases h
      | some s' =>
        rw [he] at h
        exact ih s' s1 (step_Inv c s hI o s' hok he).1 h
    · cases h

theorem after_Inv (c : config) (s : kstate) (ops : List op) (hI : Inv c s) :
    Inv c (after c s ops) := by
  unfold after
  cases h : run c s ops with
  | none => exact hI
  | some s1 => exact run_Inv c ops s s1 hI h

/-! ## Consequences of the specifications, as the contract states them -/

theorem frame_pa_mask (pa : Nat) (h1 : pa % 4096 = 0) (h2 : pa < 2 ^ 52) :
    pa &&& PMAP_PA_MASK = pa ∧ is_frame pa ∧ pa &&& PMAP_NOCACHE = 0 := by
  refine ⟨?_, ?_, ?_⟩
  · rw [and_pa_mask]
    norm_num at h2 ⊢
    omega
  · rw [is_frame_iff]
    exact ⟨h1, h2⟩
  · have h : pa &&& PMAP_NOCACHE = pa &&& 2 ^ 0 := rfl
    rw [h, and_bit]
    omega

/-- A successful `pmap_enter` of a page-aligned physical address: the
state invariant, the new leaf PTE and `wired_count`. -/
theorem enter_ok (c : config) (s : kstate) (hI : Inv c s) (p va pa prot flags : Nat)
    (hp : p ∈ s.pmaps) (hva : va < 0x7f8000000000) (ha : va % 4096 = 0)
    (hpa : pa % 4096 = 0) (hpa2 : pa < 2 ^ 52) (s1 : kstate)
    (h : pmap_enter c s p va pa prot flags = some (0, s1)) :
    Inv c s1 ∧ s1.pmaps = s.pmaps ∧ ¬ alloc_fails s p va ∧
    ∃ t, ptab s1.mem (root s1 p) va 1 = some t ∧
      pmap_valid_entry (s1.mem t (slot va 1)) = true ∧
      s1.mem t (slot va 1) &&& PG_FRAME = pa ∧
      s1.mem t (slot va 1) &&& PG_W = (if flags &&& PMAP_WIRED ≠ 0 then PG_W else 0) ∧
      (s1.pm p).wired_count = (s.pm p).wired_count +
        (if flags &&& PMAP_WIRED ≠ 0 then 1 else 0) - (old_wbit s p va : Int) := by
  obtain ⟨m1, m2, _⟩ := frame_pa_mask pa hpa hpa2
  rcases enter_spec c s hI p va pa prot flags hp hva ha hpa2 with
    ⟨h0, _⟩ | ⟨r, s1', h1, h2, _, h4, h5⟩
  · rw [h0] at h
    cases h
  · rw [h1] at h
    cases h
    rcases h5 with ⟨e, _⟩ | ⟨_, h6, t, pvl, wcb, h7, h8, h9, _⟩
    · exact absurd e (by decide)
    · refine ⟨h2, h4, h6, t, h7, ?_, ?_, ?_, ?_⟩
      · rw [h8]
        exact npte_valid _ _ _ _ _ _ _ _ _
      · rw [h8, m1]
        exact npte_frame c hI.tree.cfg _ _ _ _ _ _ _ _ m2
      · rw [h8, m1, npte_w c hI.tree.cfg _ _ _ _ _ _ _ _ m2]
        by_cases hw : flags &&& PMAP_WIRED = 0 <;> simp [hw]
      · rw [h9]
        by_cases hw : flags &&& PMAP_WIRED = 0 <;> simp [hw]

theorem extract_page (s : kstate) (p va t off : Nat) (hp : p ≠ 0) (ha : va % 4096 = 0)
    (hoff : off < 4096) (ht : ptab s.mem (root s p) va 1 = some t)
    (hv : pmap_valid_entry (s.mem t (slot va 1)) = true) :
    pmap_extract s p (va + off) = some ((s.mem t (slot va 1) &&& PG_FRAME) + off) := by
  have hd : ¬ (p = 0 ∧ va + off ≥ PMAP_DIRECT_BASE ∧ va + off < PMAP_DIRECT_END) :=
    fun e => hp e.1
  have hpf : pfx va 1 = pfx (va + off) 1 := by
    simp only [pfx]
    omega
  have ht' : ptab s.mem (root s p) (va + off) 1 = some t := by
    rw [ptab_pfx s.mem (root s p) va (va + off) 1 (by omega) (by omega) hpf]
    exact ht
  have hsl : slot (va + off) 1 = slot va 1 := slot_page va (va + off) ha (by omega) (by omega)
  rw [extract_leaf s p (va + off) t hd ht', hsl, if_pos hv, and_page_mask, and_frame]
  have : (va + off) % 4096 = off := by omega
  rw [this]
  have e := or_low (s.mem t (slot va 1) % 2 ^ 52 / 4096) off 12 (by norm_num; omega)
  norm_num at e ⊢
  exact e

/-! ## pmap_enter on the kernel pmap -/

theorem kernel_l4_valid (s : kstate) (va t : Nat) (ht : ptab s.mem (root s 0) va 1 = some t) :
    pmap_valid_entry (s.mem (root s 0) (pl_i va PTP_LEVELS)) = true := by
  obtain ⟨t2, h2, _, _⟩ := ptab_parent _ _ _ 1 t (by omega) (by omega) ht
  obtain ⟨t3, h3, _, _⟩ := ptab_parent _ _ _ 2 t2 (by omega) (by omega) h2
  obtain ⟨t4, h4, hv, _⟩ := ptab_parent _ _ _ 3 t3 (by omega) (by omega) h3
  rw [ptab_4] at h4
  cases h4
  have e : pl_i va PTP_LEVELS = slot va 4 := by
    rw [← pl_i_slot va 4 (by omega) (by omega)]
    have : pl_i va 4 < 512 := by
      rw [pl_i_4]
      simp only [pfx]
      omega
    exact (Nat.mod_eq_of_lt this).symm
  rw [e]
  exact psv_valid _ hv

/-- `pmap_enter` on the kernel pmap, at an address whose leaf table exists:
no page-table page is looked for, none changes its reference count. -/
theorem enter_kernel_spec (c : config) (s : kstate) (hI : Inv c s) (va pa0 prot flags : Nat)
    (hva : 0xffff800000000000 ≤ va) (hva2 : va < 2 ^ 64) (ha : va % 4096 = 0)
    (hpa : pa0 < 2 ^ 52) (t : Nat) (ht : ptab s.mem (root s 0) va 1 = some t) :
    (pmap_enter c s 0 va pa0 prot flags = none ∧
      ((c.DIAGNOSTIC = true ∧ pa0 &&& PMAP_NOCACHE ≠ 0 ∧
          (pa0 &&& PMAP_WC ≠ 0 ∨ (s.pv_pool ≠ 0 ∧
            pmap_enter_pgwc s (PHYS_TO_VM_PAGE c (pa0 &&& PMAP_PA_MASK)) = true))) ∨
        (flags &&& PMAP_CANFAIL = 0 ∧ s.pv_pool = 0))) ∨
    ∃ r s1, pmap_enter c s 0 va pa0 prot flags = some (r, s1) ∧ Inv c s1 ∧
      s1.cr3 = s.cr3 ∧ s1.pmaps = s.pmaps ∧
      ((r = ENOMEM ∧ flags &&& PMAP_CANFAIL ≠ 0 ∧ s.pv_pool = 0 ∧ s1 = s) ∨
        (r = 0 ∧ s.pv_pool ≠ 0 ∧ ptab s1.mem (root s1 0) va 1 = some t ∧
          s1.mem = mem_set s.mem t (slot va 1)
            (pmap_enter_npte c 0 va (pa0 &&& PMAP_PA_MASK) prot
              (PHYS_TO_VM_PAGE c (pa0 &&& PMAP_PA_MASK)).isSome (flags &&& PMAP_WIRED != 0)
              (pa0 &&& PMAP_NOCACHE != 0)
              ((pa0 &&& PMAP_WC != 0) ||
                pmap_enter_pgwc s1 (PHYS_TO_VM_PAGE c (pa0 &&& PMAP_PA_MASK)))) ∧
          (s1.pm 0).wired_count = (s.pm 0).wired_count +
            (if (flags &&& PMAP_WIRED != 0) = true then 1 else 0) -
              (wbit (s.mem t (slot va 1)) : Int) ∧
          (s1.pm 0).resident_count = (s.pm 0).resident_count + 1 -
            (vbit (s.mem t (slot va 1)) : Int) ∧
          s1.wire_count = s.wire_count ∧
          ∀ q, (s1.pm q).pm_obj = (s.pm q).pm_obj ∧
            (s1.pm q).pm_pdir_intel = (s.pm q).pm_pdir_intel)) := by
  have hS := hI.tree
  have hlive : live s 0 := Or.inl rfl
  have hd : dom s 0 va := Or.inr ⟨rfl, hva, hva2⟩
  have hty : ¬ (s.pm 0).pm_type = PMAP_TYPE_EPT := by
    rw [hS.normal 0 hlive]
    decide
  have hpaf : is_frame (pa0 &&& PMAP_PA_MASK) := by
    rw [is_frame_iff, and_pa_mask]
    omega
  have hpdp : ¬ (c.DIAGNOSTIC = true ∧ va = PDP_BASE) := by
    intro h
    rw [h.2] at hva
    exact absurd hva (by decide)
  have hkv : ¬ (c.DIAGNOSTIC = true ∧ va ≥ VM_MIN_KERNEL_ADDRESS ∧
      ¬ pmap_valid_entry (s.mem (s.pm 0).pm_pdir (pl_i va PTP_LEVELS)) = true) := by
    intro h
    apply h.2.2
    rw [hS.pdir 0 hlive]
    exact kernel_l4_valid s va t ht
  simp only [pmap_enter, if_neg hty, if_neg hpdp, if_neg hkv]
  by_cases hwn : c.DIAGNOSTIC = true ∧ (pa0 &&& PMAP_WC != 0) = true ∧
      (pa0 &&& PMAP_NOCACHE != 0) = true
  · rw [if_pos hwn]
    left
    refine ⟨rfl, Or.inl ⟨hwn.1, ?_, Or.inl ?_⟩⟩
    · simpa using hwn.2.2
    · simpa using hwn.2.1
  rw [if_neg hwn]
  by_cases hpool : s.pv_pool = 0
  · rw [if_pos hpool]
    by_cases hcf : flags &&& PMAP_CANFAIL ≠ 0
    · rw [if_pos hcf]
      right
      exact ⟨ENOMEM, s, rfl, hI, rfl, rfl, Or.inl ⟨rfl, hcf, hpool, rfl⟩⟩
    · rw [if_neg hcf]
      left
      refine ⟨rfl, Or.inr ⟨?_, hpool⟩⟩
      by_contra h
      exact hcf h
  rw [if_neg hpool]
  have hI1 := Inv_pool c s hI (s.pv_pool - 1)
  obtain ⟨scr3, s2, e2, hq2, hmp2, hcl2, hsc2⟩ :=
    map_ptes_spec c { s with pv_pool := s.pv_pool - 1 } hI1.tree 0 hlive
  rw [e2]
  simp only [if_true]
  have hI2 : Inv c s2 := Inv_eqv c _ s2 hI1 hq2 hcl2
  have hss2 := ss_of_eqv _ _ hq2
  have hr2s : root s2 0 = root s 0 := same_struct_root _ _ hss2 0
  have hd2 : dom s2 0 va := Or.inr ⟨rfl, hva, hva2⟩
  have ht2 : ptab s2.mem (root s2 0) va 1 = some t := by
    rw [hr2s, hq2.1]
    exact ht
  have hcr3 : (if scr3 ≠ 0 then scr3 else s2.cr3) = s.cr3 := by
    rcases hsc2 with ⟨h1, h2⟩ | ⟨h1, h2⟩
    · rw [h1, if_neg (by simp), h2]
    · rw [if_pos h2, h1]
  have hscr : scr3 ≠ 0 → ∃ q, live s2 q ∧ scr3 = root s2 q := by
    intro h
    rcases hsc2 with ⟨h1, _⟩ | ⟨h1, _⟩
    · exact absurd h1 h
    · obtain ⟨q, hq, hc⟩ := hS.cr3_live
      refine ⟨q, ?_, ?_⟩
      · simp only [live, hss2.1]
        exact hq
      · rw [h1, same_struct_root _ _ hss2 q]
        exact hc
  have hne : ¬ ((0 : Nat) ≠ 0 ∧ True) := fun h => h.1 rfl
  rw [if_neg hne, pde_read_leaf c s2 hI2.tree 0 va t 1 hd2 hmp2 (by omega) (by omega) ht2]
  simp only []
  have hopte := enter_opte_spec c s2 hI2 0 va t (pa0 &&& PMAP_PA_MASK) prot scr3
    (flags &&& PMAP_WIRED != 0) (pa0 &&& PMAP_NOCACHE != 0) (pa0 &&& PMAP_WC != 0)
    hd2 ha hmp2 ht2 hpaf hscr
  rw [if_pos rfl] at hopte
  rcases hopte with ⟨h1, h2, h3, h4⟩ | ⟨s4, h1, h2⟩
  · left
    refine ⟨h1, Or.inl ⟨h2, ?_, Or.inr ⟨hpool, ?_⟩⟩⟩
    · simpa using h3
    · have e := pgwc_congr { s with pv_pool := s.pv_pool - 1 } s2
        (PHYS_TO_VM_PAGE c (pa0 &&& PMAP_PA_MASK)) hq2.2.2.1
      rw [h4] at e
      exact e.symm
  · right
    refine ⟨0, s4, h1, h2.inv, ?_, ?_, Or.inr ⟨rfl, hpool, ?_, ?_, ?_, ?_, ?_, ?_⟩⟩
    · rw [h2.cr3]
      exact hcr3
    · rw [h2.ss.1, hss2.1]
    · rw [leaf_ptab c s2 s4 hI2.tree h2.ss 0 va t _ hd2 ht2 h2.mem 0 va 1 hd2 (by omega)
        (by omega)]
      exact ht2
    · rw [h2.mem, hq2.1]
    · rw [h2.wired, (hq2.2.2.2.2.2.2 0).2.1, hq2.1]
    · rw [h2.res, (hq2.2.2.2.2.2.2 0).1, hq2.1]
    · rw [h2.wire_k rfl, hq2.2.1]
    · intro q
      rw [(h2.ss.2.2.2.2.2.2 q).1, (hss2.2.2.2.2.2.2 q).1, (h2.ss.2.2.2.2.2.2 q).2.2.2.1,
        (hss2.2.2.2.2.2.2 q).2.2.2.1]
      exact ⟨rfl, rfl⟩

/-! ## A successful pmap_enter, user or kernel pmap -/

theorem old_wbit_at (s : kstate) (p va t : Nat) (ht : ptab s.mem (root s p) va 1 = some t) :
    old_wbit s p va = wbit (s.mem t (slot va 1)) := by
  simp only [old_wbit, leaf, ht, Option.map_some']

/-- What a successful `pmap_enter` leaves, for a user pmap and for the
kernel pmap at an address whose leaf table exists. -/
theorem enter_live (c : config) (s : kstate) (hI : Inv c s) (p va pa prot flags : Nat)
    (hd : dom s p va) (ha : va % 4096 = 0) (hpa : pa < 2 ^ 52)
    (hk : p = 0 → ptab s.mem (root s p) va 1 ≠ none) (s1 : kstate)
    (h : pmap_enter c s p va pa prot flags = some (0, s1)) :
    Inv c s1 ∧ s1.pmaps = s.pmaps ∧ dom s1 p va ∧
    ∃ t, ptab s1.mem (root s1 p) va 1 = some t ∧
      s1.mem t (slot va 1) = pmap_enter_npte c p va (pa &&& PMAP_PA_MASK) prot
        (PHYS_TO_VM_PAGE c (pa &&& PMAP_PA_MASK)).isSome (flags &&& PMAP_WIRED != 0)
        (pa &&& PMAP_NOCACHE != 0)
        ((pa &&& PMAP_WC != 0) || pmap_enter_pgwc s1 (PHYS_TO_VM_PAGE c (pa &&& PMAP_PA_MASK))) ∧
      (s1.pm p).wired_count = (s.pm p).wired_count +
        (if (flags &&& PMAP_WIRED != 0) = true then 1 else 0) - (old_wbit s p va : Int) := by
  rcases hd with ⟨hp, hva⟩ | ⟨hp, hva, hva2⟩
  · rcases enter_spec c s hI p va pa prot flags hp hva ha hpa with
      ⟨h0, _⟩ | ⟨r, s1', h1, h2, _, h4, h5⟩
    · rw [h0] at h
      cases h
    · rw [h1] at h
      cases h
      rcases h5 with ⟨e, _⟩ | ⟨_, _, t, pvl, wcb, h7, h8, h9, h10, h11, _⟩
      · exact absurd e (by decide)
      · subst h10 h11
        exact ⟨h2, h4, Or.inl ⟨h4 ▸ hp, hva⟩, t, h7, h8, h9⟩
  · subst hp
    cases ht : ptab s.mem (root s 0) va 1 with
    | none => exact absurd ht (hk rfl)
    | some t =>
      rcases enter_kernel_spec c s hI va pa prot flags hva hva2 ha hpa t ht with
        ⟨h0, _⟩ | ⟨r, s1', h1, h2, _, h4, h5⟩
      · rw [h0] at h
        cases h
      · rw [h1] at h
        cases h
        rcases h5 with ⟨e, _⟩ | ⟨_, _, h7, h8, h9, _⟩
        · exact absurd e (by decide)
        · refine ⟨h2, h4, Or.inr ⟨rfl, hva, hva2⟩, t, h7, ?_, ?_⟩
          · rw [h8, mem_set_same]
          · rw [h9, old_wbit_at s 0 va t ht]

/-! ## pmap_enter in the extended regime -/

theorem ept_entry_mask (f : Nat) (h : f &&& PMAP_PA_MASK = f) :
    (f ||| EPT_R ||| EPT_W ||| EPT_X) &&& PMAP_PA_MASK = f := by
  rw [or_keep _ _ _ (by decide), or_keep _ _ _ (by decide), or_keep _ _ _ (by decide), h]

theorem ept_ok_alloc (c : config) (s s1 : kstate) (f pd idx : Nat) (rest : List Nat)
    (hf : s.free_pages = f :: rest)
    (hm : s1.mem = mem_set (mem_zero s.mem f) pd idx (f ||| EPT_R ||| EPT_W ||| EPT_X))
    (hfr : s1.free_pages = rest) (hok : ept_ok c s) : ept_ok c s1 := by
  have hfok := hok.2 f (by rw [hf]; exact List.mem_cons_self f rest)
  refine ⟨?_, ?_⟩
  · intro t i
    rw [hm]
    simp only [mem_set, mem_zero]
    by_cases h1 : t = pd ∧ i = idx
    · rw [if_pos h1, ept_entry_mask f hfok.1]
      exact fun _ => hfok.2
    · rw [if_neg h1]
      by_cases h2 : t = f
      · rw [if_pos h2]
        intro h
        exact absurd (Nat.zero_and _) h
      · rw [if_neg h2]
        exact hok.1 t i
  · intro g hg
    rw [hfr] at hg
    exact hok.2 g (by rw [hf]; exact List.mem_cons_of_mem f hg)

/-- One upper level of `pmap_enter_ept`: it yields the next table, and
keeps the tables well formed; or no frame is free; or the page of the
table above is missing. -/
theorem ept_level_spec (c : config) (s : kstate) (pmap gpa pd idx lidx : Nat)
    (pptp : Option (Option Nat)) (setwire : Bool) :
    (∃ npa q s1, pmap_enter_ept_level c s pmap gpa pd idx lidx pptp setwire =
        some (some (npa, q), s1) ∧
      s.free_pages.length ≤ s1.free_pages.length + 1 ∧
      (s1.pm pmap).pm_pdir = (s.pm pmap).pm_pdir ∧
      (ept_ok c s → PMAP_DIRECT_MAP npa ≠ 0 ∧ q ≠ none ∧ ept_ok c s1)) ∨
    (pmap_enter_ept_level c s pmap gpa pd idx lidx pptp setwire = some (none, s) ∧
      s.free_pages = []) ∨
    (pmap_enter_ept_level c s pmap gpa pd idx lidx pptp setwire = none ∧ pptp = some none) := by
  simp only [pmap_enter_ept_level]
  by_cases hn : s.mem pd idx &&& PMAP_PA_MASK = 0
  · rw [if_pos hn]
    cases hf : s.free_pages with
    | nil =>
      right
      left
      simp only [uvm_pagealloc, hf]
      trivial
    | cons f rest =>
      have hlen : (f :: rest).length ≤ rest.length + 1 := by simp
      have hfin : ∀ s1 : kstate,
          s1.mem = mem_set (mem_zero s.mem f) pd idx (f ||| EPT_R ||| EPT_W ||| EPT_X) →
          s1.free_pages = rest →
          (ept_ok c s → PMAP_DIRECT_MAP f ≠ 0 ∧ (some f : Option Nat) ≠ none ∧ ept_ok c s1) := by
        intro s1 hm hfr hok
        exact ⟨(hok.2 f (by rw [hf]; exact List.mem_cons_self f rest)).2.2, by simp,
          ept_ok_alloc c s s1 f pd idx rest hf hm hfr hok⟩
      simp only [uvm_pagealloc, hf]
      cases pptp with
      | none =>
        left
        cases setwire
        · refine ⟨f, some f, _, rfl, hlen, ?_, hfin _ rfl rfl⟩
          simp [add_resident, set_mem, upd]
        · refine ⟨f, some f, _, rfl, hlen, ?_, hfin _ rfl rfl⟩
          simp [add_resident, set_mem, set_wire, upd]
      | some q0 =>
        cases q0 with
        | none =>
          right
          right
          exact ⟨rfl, rfl⟩
        | some q =>
          left
          cases setwire
          · refine ⟨f, some f, _, rfl, hlen, ?_, hfin _ rfl rfl⟩
            simp [add_resident, set_mem, wire_inc, set_wire, upd]
          · refine ⟨f, some f, _, rfl, hlen, ?_, hfin _ rfl rfl⟩
            simp [add_resident, set_mem, wire_inc, set_wire, upd]
  · rw [if_neg hn]
    left
    refine ⟨_, _, s, rfl, by omega, rfl, ?_⟩
    intro hok
    have := hok.1 pd idx hn
    refine ⟨this.2, ?_, hok⟩
    simp [PHYS_TO_VM_PAGE, this.1]

/-- `pmap_enter_ept` below the maximum: it returns 0, or it returns
`ENOMEM` after an allocation found no free frame, or it stops in a panic,
which well-formed tables exclude. -/
theorem enter_ept_spec (c : config) (s : kstate) (p gpa hpa prot : Nat)
    (hg : gpa ≤ MAXDSIZ) (hpd : (s.pm p).pm_pdir ≠ 0) :
    (pmap_enter_ept c s p gpa hpa prot = none ∧ ¬ ept_ok c s) ∨
    (∃ s1, pmap_enter_ept c s p gpa hpa prot = some (0, s1)) ∨
    (∃ s1, pmap_enter_ept c s p gpa hpa prot = some (ENOMEM, s1) ∧ s1.free_pages = [] ∧
      s.free_pages.length < 3) := by
  have hg' : ¬ gpa > MAXDSIZ := by omega
  simp only [pmap_enter_ept, if_neg hg', if_neg hpd]
  rcases ept_level_spec c s p gpa (s.pm p).pm_pdir (ept_idx gpa L4_MASK L4_SHIFT) 2 none true
    with ⟨npa3, q3, s1, e1, l1, _, k1⟩ | ⟨e1, f1⟩ | ⟨_, f1⟩
  · rw [e1]
    simp only []
    by_cases d3 : PMAP_DIRECT_MAP npa3 = 0
    · rw [if_pos d3]
      exact Or.inl ⟨rfl, fun hok => (k1 hok).1 d3⟩
    rw [if_neg d3]
    rcases ept_level_spec c s1 p gpa npa3 (ept_idx gpa L3_MASK L3_SHIFT) 1 (some q3) true
      with ⟨npa2, q2, s2, e2, l2, _, k2⟩ | ⟨e2, f2⟩ | ⟨e2, f2⟩
    · rw [e2]
      simp only []
      by_cases d2 : PMAP_DIRECT_MAP npa2 = 0
      · rw [if_pos d2]
        exact Or.inl ⟨rfl, fun hok => (k2 (k1 hok).2.2).1 d2⟩
      rw [if_neg d2]
      rcases ept_level_spec c s2 p gpa npa2 (ept_idx gpa L2_MASK L2_SHIFT) 0 (some q2) false
        with ⟨npa1, q1, s3, e3, _, _, k3⟩ | ⟨e3, f3⟩ | ⟨e3, f3⟩
      · rw [e3]
        simp only []
        cases q1 with
        | none =>
          exact Or.inl ⟨rfl, fun hok => (k3 (k2 (k1 hok).2.2).2.2).2.1 rfl⟩
        | some ptp =>
          simp only []
          by_cases d1 : PMAP_DIRECT_MAP npa1 = 0
          · rw [if_pos d1]
            exact Or.inl ⟨rfl, fun hok => (k3 (k2 (k1 hok).2.2).2.2).1 d1⟩
          · rw [if_neg d1]
            exact Or.inr (Or.inl ⟨_, rfl⟩)
      · rw [e3]
        refine Or.inr (Or.inr ⟨s2, rfl, f3, ?_⟩)
        rw [f3] at l2
        simp only [List.length_nil] at l2
        omega
      · rw [e3]
        refine Or.inl ⟨rfl, fun hok => (k2 (k1 hok).2.2).2.1 ?_⟩
        exact Option.some.inj f3
    · rw [e2]
      refine Or.inr (Or.inr ⟨s1, rfl, f2, ?_⟩)
      rw [f2] at l1
      simp only [List.length_nil] at l1
      omega
    · rw [e2]
      refine Or.inl ⟨rfl, fun hok => (k1 hok).2.1 ?_⟩
      exact Option.some.inj f2
  · rw [e1]
    refine Or.inr (Or.inr ⟨s, rfl, f1, ?_⟩)
    rw [f1]
    decide
  · cases f1

/-! ## The fields of a new pmap -/

theorem create_fields (c : config) (s : kstate) (hI : Inv c s) (p : Nat) (s1 : kstate)
    (h : pmap_create c s = some (p, s1)) :
    (s1.pm p).pm_cpus = 0 ∧ (∀ k, (s1.pm p).pm_ptphint k = none) ∧
      s1.mem (root s1 p) PDIR_SLOT_PTE = root s1 p ||| PG_V ||| PG_KW ||| c.pg_nx := by
  have hS := hI.tree
  cases hpp : s.pmap_pool with
  | nil => simp [pmap_create, hpp] at h
  | cons pmap ppool =>
    cases hdp : s.pdp_pool with
    | nil => simp [pmap_create, hpp, hdp] at h
    | cons pdir pool1 =>
      have hpdir : pdir ∈ s.pdp_pool := hdp ▸ List.mem_cons_self pdir pool1
      have hnd := hS.pdp_nodup
      rw [hdp, List.nodup_cons] at hnd
      have hpf := hS.pdp_frame pdir hpdir
      have hself : ∀ s0 : kstate, (pmap_pdp_ctor c s0 pdir).mem pdir PDIR_SLOT_PTE =
          pdir ||| PG_V ||| PG_KW ||| c.pg_nx := by
        intro s0
        simp [pdp_ctor_eq, PDIR_SLOT_PTE, NTOPLEVEL_PDES, PDIR_SLOT_DIRECT]
      have hfr := ctor_frame c hS.cfg pdir hpf.1
      by_cases hmd : c.cpu_meltdown = true
      · cases hp1 : pool1 with
        | nil => simp [pmap_create, hpp, hdp, hmd, hp1] at h
        | cons pdi pool2 =>
          rw [hp1] at hnd
          have hne : pdi ≠ pdir := fun e => hnd.1 (e ▸ List.mem_cons_self pdi pool2)
          simp only [pmap_create, hpp, hdp, hmd, if_true, hp1] at h
          by_cases hk : (s.pm 0).pm_pdir_intel = 0
          · rw [ctor_intel_none] at h
            · cases h
            · exact hk
          rw [ctor_intel_some] at h
          swap
          · exact hk
          simp only [Option.some.injEq, Prod.mk.injEq] at h
          obtain ⟨h1, h2⟩ := h
          subst h1
          subst h2
          refine ⟨by simp [upd], fun k => by simp [upd], ?_⟩
          simp only [root, upd, if_true, hself, hfr, hne.symm, false_and, if_false]
      · have hmd' : c.cpu_meltdown = false := by simpa using hmd
        simp only [pmap_create, hpp, hdp, hmd', Bool.false_eq_true, if_false, Option.some.injEq,
          Prod.mk.injEq] at h
        obtain ⟨h1, h2⟩ := h
        subst h1
        subst h2
        refine ⟨by simp [upd], fun k => by simp [upd], ?_⟩
        simp only [root, upd, if_true, hself, hfr]

/-! ## The state `kimg` -/

theorem kimg_mem (t j : Nat) :
    kimg.mem t j =
      if t = 0x8000 ∧ j = 0 then 0x800000 ||| PG_KW ||| PG_V
      else if t = 0x7000 ∧ j = 0 then 0x8000 ||| PG_KW ||| PG_V
      else if t = 0x6000 ∧ j = 510 then 0x7000 ||| PG_KW ||| PG_V
      else if t = 0x1000 ∧ j = 511 then 0x6000 ||| PG_KW ||| PG_V
      else 0 := by
  simp only [kimg, set_mem, mem_set]
  rfl

theorem kimg_ptab (va L t : Nat) (h1 : 1 ≤ L) (h4 : L ≤ 4)
    (h : ptab kimg.mem 0x1000 va L = some t) :
    (L = 4 ∧ t = 0x1000) ∨ (L = 3 ∧ t = 0x6000 ∧ slot va 4 = 511) ∨
      (L = 2 ∧ t = 0x7000 ∧ slot va 4 = 511 ∧ slot va 3 = 510) ∨
      (L = 1 ∧ t = 0x8000 ∧ slot va 4 = 511 ∧ slot va 3 = 510 ∧ slot va 2 = 0) := by
  have s4 : ∀ t3, ptab kimg.mem 0x1000 va 3 = some t3 → t3 = 0x6000 ∧ slot va 4 = 511 := by
    intro t3 h3
    obtain ⟨t0, a1, a2, a3⟩ := ptab_parent _ _ _ 3 t3 (by omega) (by omega) h3
    rw [ptab_4] at a1
    cases a1
    rw [kimg_mem] at a2 a3
    by_cases e : slot va 4 = 511
    · rw [e] at a3
      exact ⟨a3.symm, e⟩
    · simp [e] at a2
      exact absurd a2 (by decide)
  have s3 : ∀ t2, ptab kimg.mem 0x1000 va 2 = some t2 →
      t2 = 0x7000 ∧ slot va 4 = 511 ∧ slot va 3 = 510 := by
    intro t2 h2
    obtain ⟨t0, a1, a2, a3⟩ := ptab_parent _ _ _ 2 t2 (by omega) (by omega) h2
    obtain ⟨b1, b2⟩ := s4 t0 a1
    subst b1
    rw [kimg_mem] at a2 a3
    by_cases e : slot va 3 = 510
    · rw [e] at a3
      exact ⟨a3.symm, b2, e⟩
    · simp [e] at a2
      exact absurd a2 (by decide)
  have s2 : ∀ t1, ptab kimg.mem 0x1000 va 1 = some t1 →
      t1 = 0x8000 ∧ slot va 4 = 511 ∧ slot va 3 = 510 ∧ slot va 2 = 0 := by
    intro t1 h1'
    obtain ⟨t0, a1, a2, a3⟩ := ptab_parent _ _ _ 1 t1 (by omega) (by omega) h1'
    obtain ⟨b1, b2, b3⟩ := s3 t0 a1
    subst b1
    rw [kimg_mem] at a2 a3
    by_cases e : slot va 2 = 0
    · rw [e] at a3
      exact ⟨a3.symm, b2, b3, e⟩
    · simp [e] at a2
      exact absurd a2 (by decide)
  have hL : L = 1 ∨ L = 2 ∨ L = 3 ∨ L = 4 := by omega
  rcases hL with e | e | e | e <;> subst e
  · exact Or.inr (Or.inr (Or.inr ⟨rfl, s2 t h⟩))
  · exact Or.inr (Or.inr (Or.inl ⟨rfl, s3 t h⟩))
  · exact Or.inr (Or.inl ⟨rfl, s4 t h⟩)
  · rw [ptab_4] at h
    cases h
    exact Or.inl ⟨rfl, rfl⟩

theorem kimg_Inv (c : config) (hc : cfg_ok c) (hm : c.managed 0x800000 = false) :
    Inv c kimg := by
  have hno : ∀ p, p ∉ kimg.pmaps := fun p hp => by cases hp
  have hd0 : ∀ p va, dom kimg p va → p = 0 := by
    intro p va hd
    rcases hd with hd | hd
    · exact absurd hd.1 (hno p)
    · exact hd.1
  have hpt : ∀ p va L t, 1 ≤ L → L ≤ 4 → ptab kimg.mem (root kimg p) va L = some t →
      (L = 4 ∧ t = 0x1000) ∨ (L = 3 ∧ t = 0x6000 ∧ slot va 4 = 511) ∨
      (L = 2 ∧ t = 0x7000 ∧ slot va 4 = 511 ∧ slot va 3 = 510) ∨
      (L = 1 ∧ t = 0x8000 ∧ slot va 4 = 511 ∧ slot va 3 = 510 ∧ slot va 2 = 0) :=
    fun p va L t h1 h4 h => kimg_ptab va L t h1 h4 h
  have hleaf : ∀ j, kimg.mem 0x8000 j &&& PG_PVLIST = 0 ∧
      (pmap_valid_entry (kimg.mem 0x8000 j) = true → kimg.mem 0x8000 j &&& PG_FRAME = 0x800000) := by
    intro j
    rw [kimg_mem]
    by_cases e : j = 0
    · subst e
      exact ⟨by decide, fun _ => by decide⟩
    · have e0 : kimg.mem 0x8000 j = 0 := by
        rw [kimg_mem]
        simp [e]
      rw [kimg_mem] at e0
      rw [e0]
      exact ⟨by decide, fun h => absurd h (by decide)⟩
  have hlist : ∀ t, (t = 0x1000 ∨ t = 0x6000 ∨ t = 0x7000 ∨ t = 0x8000) →
      t ∉ [0x2000, 0x3000, 0x4000, 0x5000] ∧
      t ∉ [0x100000, 0x101000, 0x102000, 0x103000, 0x104000, 0x105000, 0x106000, 0x107000] := by
    intro t ht
    rcases ht with e | e | e | e <;> subst e <;> decide
  have htab : ∀ p va L t, 1 ≤ L → L ≤ 4 → ptab kimg.mem (root kimg p) va L = some t →
      t = 0x1000 ∨ t = 0x6000 ∨ t = 0x7000 ∨ t = 0x8000 := by
    intro p va L t h1 h4 h
    rcases hpt p va L t h1 h4 h with e | e | e | e
    · exact Or.inl e.2
    · exact Or.inr (Or.inl e.2.1)
    · exact Or.inr (Or.inr (Or.inl e.2.1))
    · exact Or.inr (Or.inr (Or.inr e.2.1))
  refine ⟨?_, ?_, ?_, ?_⟩
  · constructor
    · exact hc
    · rfl
    · exact hno 0
    · exact List.nodup_nil
    · exact ⟨0, Or.inl rfl, rfl⟩
    · intro p _
      show (0x1000 : Nat) ≠ 0
      decide
    · intro p _
      rfl
    · intro p _
      show (1 : Int) ≤ 1
      decide
    · intro p _
      rfl
    · intro p hp
      exact absurd hp (hno p)
    · intro i _ hi
      show kimg.mem 0x1000 i = 0
      rw [kimg_mem]
      have : i ≠ 511 := by omega
      simp [this]
    · intro p va L p1 va1 L1 t hd hd1 a1 a4 b1 b4 ht ht1
      have hp := hd0 p va hd
      have hp1 := hd0 p1 va1 hd1
      have e1 := hpt p va L t a1 a4 ht
      have g1 := hpt p1 va1 L1 t b1 b4 ht1
      have := pfx3_lt va
      have := pfx3_lt va1
      refine ⟨?_, by rw [hp, hp1], ?_⟩
      · rcases e1 with e | e | e | e <;> rcases g1 with g | g | g | g <;> omega
      · rcases e1 with ⟨rfl, e⟩ | ⟨rfl, e⟩ | ⟨rfl, e⟩ | ⟨rfl, e⟩ <;>
          rcases g1 with g | g | g | g <;> simp only [slot, pfx] at * <;> omega
    · intro p hp
      exact absurd hp (hno p)
    · intro f hf p va L _ a1 a4 ht
      exact (hlist f (htab p va L f a1 a4 ht)).2 hf
    · intro f _ p hp
      exact absurd hp (hno p)
    · show [0x100000, 0x101000, 0x102000, 0x103000, 0x104000, 0x105000, 0x106000,
        0x107000].Nodup
      decide
    · show ∀ f ∈ [0x100000, 0x101000, 0x102000, 0x103000, 0x104000, 0x105000, 0x106000,
        0x107000], f &&& PG_FRAME = f
      decide
    · intro f hf p va L _ a1 a4 ht
      exact (hlist f (htab p va L f a1 a4 ht)).1 hf
    · intro f _ p hp
      exact absurd hp (hno p)
    · show ∀ f ∈ [0x2000, 0x3000, 0x4000, 0x5000], f ∉ [0x100000, 0x101000, 0x102000, 0x103000,
        0x104000, 0x105000, 0x106000, 0x107000]
      decide
    · show [0x2000, 0x3000, 0x4000, 0x5000].Nodup
      decide
    · show ∀ f ∈ [0x2000, 0x3000, 0x4000, 0x5000], f &&& PG_FRAME = f ∧ f ≠ 0
      decide
    · show ∀ p ∈ [1, 2, 3], p ≠ 0 ∧ p ∉ ([] : List Nat)
      decide
    · show [1, 2, 3].Nodup
      decide
    · intro p hp
      exact absurd hp (hno p)
    · intro p hp
      exact absurd hp (hno p)
    · intro p hp
      exact absurd hp (hno p)
    · intro p hp
      exact absurd hp (hno p)
    · intro p hp
      exact absurd hp (hno p)
    · intro va h1 h2
      cases h : ptab kimg.mem (root kimg 0) va 1 with
      | none => rfl
      | some t =>
        rcases hpt 0 va 1 t (by omega) (by omega) h with e | e | e | e
        · omega
        · omega
        · omega
        · exfalso
          have e4 := e.2.2.1
          simp only [slot, pfx, PMAP_DIRECT_BASE, PMAP_DIRECT_END] at e4 h1 h2
          omega
  · constructor
    intro p hp
    exact absurd hp (hno p)
  · constructor
    · intro p hp
      exact absurd hp (hno p)
    · intro p hp
      exact absurd hp (hno p)
  · constructor
    · intro f e he
      cases he
    · intro p va t _ _ ht _ hpv
      rcases hpt p va 1 t (by omega) (by omega) ht with e | e | e | e
      · omega
      · omega
      · omega
      · rw [e.2.1] at hpv
        exact absurd (hleaf _).1 hpv
    · intro f
      exact List.nodup_nil
    · intro p va t _ ht hv
      rcases hpt p va 1 t (by omega) (by omega) ht with e | e | e | e
      · omega
      · omega
      · omega
      · rw [e.2.1] at hv ⊢
        rw [(hleaf _).2 hv, hm]
        simp [(hleaf _).1]

theorem cfgm_ok : cfg_ok cfgm := cfg0_ok

/-! ## `pmap_test_attrs` -/

theorem pv_pte_leaf (s : kstate) (e : pv_entry) (t : Nat)
    (h : ptab s.mem (root s e.pv_pmap) e.pv_va 1 = some t) :
    pv_pte s e = s.mem t (slot e.pv_va 1) := by
  simp only [pv_pte, find_pte_direct_leaf s e.pv_pmap e.pv_va t h]

/-- Under the invariant the entry read for a chain entry is its leaf PTE. -/
theorem pv_pte_chain (c : config) (s : kstate) (hP : PInv c s) (f : Nat) (e : pv_entry)
    (he : e ∈ s.pv_list f) :
    ∃ t, ptab s.mem (root s e.pv_pmap) e.pv_va 1 = some t ∧
      leaf s e.pv_pmap e.pv_va = some (pv_pte s e) ∧ pv_pte s e = s.mem t (slot e.pv_va 1) := by
  obtain ⟨_, _, t, ht, _⟩ := hP.pv_sound f e he
  refine ⟨t, ht, ?_, pv_pte_leaf s e t ht⟩
  rw [leaf, ht, pv_pte_leaf s e t ht]
  rfl

theorem test_loop_nonzero (s : kstate) (bits : Nat) (l : List pv_entry) (b : Nat) (hb : b ≠ 0) :
    pmap_test_attrs_loop s bits l b = b := by
  cases l with
  | nil => rfl
  | cons e l => simp [pmap_test_attrs_loop, hb]

theorem test_loop_step (s : kstate) (bits : Nat) (e : pv_entry) (l : List pv_entry) :
    pmap_test_attrs_loop s bits (e :: l) 0 = pmap_test_attrs_loop s bits l (pv_pte s e &&& bits) := by
  simp only [pmap_test_attrs_loop, ne_eq, not_true_eq_false, if_false, Nat.zero_or, pv_pte]

theorem test_loop_cases (s : kstate) (bits : Nat) (l : List pv_entry) :
    (pmap_test_attrs_loop s bits l 0 = 0 ∧ ∀ e ∈ l, pv_pte s e &&& bits = 0) ∨
    ∃ l1 e l2, l = l1 ++ e :: l2 ∧ (∀ e1 ∈ l1, pv_pte s e1 &&& bits = 0) ∧
      pv_pte s e &&& bits ≠ 0 ∧ pmap_test_attrs_loop s bits l 0 = pv_pte s e &&& bits := by
  induction l with
  | nil => exact Or.inl ⟨rfl, fun e he => by cases he⟩
  | cons e l ih =>
    rw [test_loop_step]
    by_cases h : pv_pte s e &&& bits = 0
    · rw [h]
      rcases ih with ⟨a1, a2⟩ | ⟨l1, e1, l2, a1, a2, a3, a4⟩
      · left
        refine ⟨a1, ?_⟩
        intro e1 he1
        rcases List.mem_cons.mp he1 with k | k
        · rw [k]
          exact h
        · exact a2 e1 k
      · right
        refine ⟨e :: l1, e1, l2, by rw [a1]; rfl, ?_, a3, a4⟩
        intro e2 he2
        rcases List.mem_cons.mp he2 with k | k
        · rw [k]
          exact h
        · exact a2 e2 k
    · right
      exact ⟨[], e, l, rfl, fun e1 he1 => absurd he1 (List.not_mem_nil e1), h,
        test_loop_nonzero s bits l _ h⟩

theorem or_eq_zero_right (a b : Nat) (h : a ||| b = 0) : b = 0 := by
  apply Nat.eq_of_testBit_eq
  intro i
  have := congrArg (fun x => Nat.testBit x i) h
  simp only [Nat.testBit_or, Nat.zero_testBit, Bool.or_eq_false_iff] at this
  rw [this.2, Nat.zero_testBit]

theorem pte2flags_sub (x bits : Nat) :
    pmap_pte2flags (x &&& bits) &&& pmap_pte2flags bits = pmap_pte2flags (x &&& bits) := by
  have h1 : (x &&& bits) &&& PG_U ≠ 0 → bits &&& PG_U ≠ 0 := by
    intro h e
    apply h
    rw [Nat.and_assoc, e, Nat.and_zero]
  have h2 : (x &&& bits) &&& PG_M ≠ 0 → bits &&& PG_M ≠ 0 := by
    intro h e
    apply h
    rw [Nat.and_assoc, e, Nat.and_zero]
  simp only [pmap_pte2flags]
  by_cases a : (x &&& bits) &&& PG_U ≠ 0 <;> by_cases b : (x &&& bits) &&& PG_M ≠ 0
  · rw [if_pos a, if_pos b, if_pos (h1 a), if_pos (h2 b)]
    rfl
  · rw [if_pos a, if_neg b, if_pos (h1 a)]
    split <;> rfl
  · rw [if_neg a, if_pos b, if_pos (h2 b)]
    split <;> rfl
  · rw [if_neg a, if_neg b]
    simp

theorem pte2flags_ne (y : Nat) (h : y &&& (PG_U ||| PG_M) ≠ 0) : pmap_pte2flags y ≠ 0 := by
  have h0 : y &&& PG_U ≠ 0 ∨ y &&& PG_M ≠ 0 := by
    by_contra hc
    push_neg at hc
    apply h
    rw [Nat.and_or_distrib_left, hc.1, hc.2]
    rfl
  simp only [pmap_pte2flags]
  rcases h0 with a | a
  · rw [if_pos a]
    split <;> decide
  · rw [if_pos a]
    split <;> decide

/-! ## `pmap_clear_attrs` -/

theorem testBit_ones (n i : Nat) : (2 ^ n - 1).testBit i = decide (i < n) :=
  Nat.testBit_two_pow_sub_one n i

theorem clr_and (n x b : Nat) (hb : b < 2 ^ n) :
    (x &&& ((2 ^ n - 1) ^^^ (x &&& b))) &&& b = 0 := by
  apply Nat.eq_of_testBit_eq
  intro i
  simp only [Nat.testBit_and, Nat.testBit_xor, testBit_ones, Nat.zero_testBit]
  by_cases hi : i < n
  · simp only [hi, decide_True]
    cases x.testBit i <;> cases b.testBit i <;> rfl
  · have : b.testBit i = false :=
      Nat.testBit_eq_false_of_lt (lt_of_lt_of_le hb (Nat.pow_le_pow_right (by decide) (by omega)))
    simp [this]

theorem clr_other (n x b : Nat) (hb : b < 2 ^ n) :
    (x &&& ((2 ^ n - 1) ^^^ (x &&& b))) &&& ((2 ^ n - 1) ^^^ b) = x &&& ((2 ^ n - 1) ^^^ b) := by
  apply Nat.eq_of_testBit_eq
  intro i
  simp only [Nat.testBit_and, Nat.testBit_xor, testBit_ones]
  by_cases hi : i < n
  · simp only [hi, decide_True]
    cases x.testBit i <;> cases b.testBit i <;> rfl
  · have : b.testBit i = false :=
      Nat.testBit_eq_false_of_lt (lt_of_lt_of_le hb (Nat.pow_le_pow_right (by decide) (by omega)))
    simp [this, hi]

theorem and_mod_zero (x b n : Nat) (h : x &&& b = 0) : x &&& (b % 2 ^ n) = 0 := by
  rw [← Nat.and_pow_two_sub_one_eq_mod, ← Nat.and_assoc, h, Nat.zero_and]

theorem pte2flags_lt (b : Nat) : pmap_pte2flags b < 2 ^ 32 := by
  simp only [pmap_pte2flags]
  split <;> split <;> decide

theorem pte2flags_mod (b : Nat) : pmap_pte2flags (b % 2 ^ 32) = pmap_pte2flags b := by
  have h : ∀ k, k < 2 ^ 32 → (b % 2 ^ 32) &&& k = b &&& k := by
    intro k hk
    rw [← Nat.and_pow_two_sub_one_eq_mod, Nat.and_assoc]
    congr 1
    rw [Nat.and_comm, Nat.and_pow_two_sub_one_eq_mod]
    exact Nat.mod_eq_of_lt hk
  simp only [pmap_pte2flags, h PG_U (by decide), h PG_M (by decide)]

/-- The loop of `pmap_clear_attrs`, started on the chain of `pg` in a state
that has the tables of `s` but for leaf PTEs of the chain already cleared:
it changes the memory only, clears the bits in the leaf PTE of every entry
it visits, and sets `result` when it clears one. -/
theorem sep_upper_ne_leaf (s : kstate) (h : tree_sep s) (p va t p1 va1 L t1 : Nat)
    (hd : dom s p va) (ht : ptab s.mem (root s p) va 1 = some t)
    (hd1 : dom s p1 va1) (h2 : 2 ≤ L) (h4 : L ≤ 4)
    (ht1 : ptab s.mem (root s p1) va1 L = some t1) : t1 ≠ t := by
  intro e
  subst e
  have := h p va 1 p1 va1 L t1 hd hd1 (by omega) (by omega) (by omega) h4 ht ht1
  omega

theorem clear_loop_spec (c : config) (s s1 : kstate) (hsep : tree_sep s) (hP : PInv c s)
    (pg bits : Nat)
    (hb : bits < 2 ^ 64) (hs1 : same_struct s s1) :
    ∀ (l : List pv_entry) (m : Nat → Nat → Nat) (res : Nat),
      (∀ e ∈ l, e ∈ s.pv_list pg) →
      (∀ t j, m t j = s.mem t j ∨
        (chain_cell s pg t j ∧
          m t j = s.mem t j &&& (0xffffffffffffffff ^^^ (s.mem t j &&& bits)) ∧ res ≠ 0)) →
      ∃ m2 res2,
        pmap_clear_attrs_loop bits l res { s1 with mem := m } = (res2, { s1 with mem := m2 }) ∧
        (∀ t j, m2 t j = s.mem t j ∨
          (chain_cell s pg t j ∧
            m2 t j = s.mem t j &&& (0xffffffffffffffff ^^^ (s.mem t j &&& bits)) ∧ res2 ≠ 0)) ∧
        (res ≠ 0 → res2 ≠ 0) ∧
        (∀ t j, m t j &&& bits = 0 → m2 t j &&& bits = 0) ∧
        (∀ e ∈ l, ∀ t, ptab s.mem (root s e.pv_pmap) e.pv_va 1 = some t →
          m2 t (slot e.pv_va 1) &&& bits = 0) ∧
        (res2 ≠ 0 → res ≠ 0 ∨ ∃ e ∈ l, ∃ t, ptab s.mem (root s e.pv_pmap) e.pv_va 1 = some t ∧
          s.mem t (slot e.pv_va 1) &&& bits ≠ 0) := by
  have hM : (0xffffffffffffffff : Nat) = 2 ^ 64 - 1 := by norm_num
  intro l
  induction l with
  | nil =>
    intro m res _ hA
    exact ⟨m, res, rfl, hA, fun h => h, fun _ _ h => h, fun e he => absurd he (List.not_mem_nil e),
      fun h => Or.inl h⟩
  | cons e rest ih =>
    intro m res hl hA
    have he : e ∈ s.pv_list pg := hl e (List.mem_cons_self _ _)
    have hrest : ∀ e1 ∈ rest, e1 ∈ s.pv_list pg := fun e1 h1 => hl e1 (List.mem_cons_of_mem _ h1)
    obtain ⟨hd, _, t, ht, _⟩ := hP.pv_sound pg e he
    have hs : same_struct s { s1 with mem := m } := hs1
    have hup : ∀ p va L t1, dom s p va → 2 ≤ L → L ≤ 4 → ptab s.mem (root s p) va L = some t1 →
        m t1 (slot va L) = s.mem t1 (slot va L) := by
      intro p va L t1 hd1 h2 h4 ht1
      rcases hA t1 (slot va L) with k | ⟨⟨e2, he2, k1, _⟩, _⟩
      · exact k
      · obtain ⟨hd2, _⟩ := hP.pv_sound pg e2 he2
        exact absurd rfl (sep_upper_ne_leaf s hsep _ _ _ p va L t1 hd2 k1 hd1 h2 h4 ht1)
    have hw : ptab m (root { s1 with mem := m } e.pv_pmap) e.pv_va 1 = some t := by
      have := ptab_of_upper s { s1 with mem := m } hs hup e.pv_pmap e.pv_va 1 hd (by omega)
        (by omega)
      rw [← ht]
      exact this
    have hf := find_pte_direct_leaf { s1 with mem := m } e.pv_pmap e.pv_va t hw
    by_cases hbit : m t (slot e.pv_va 1) &&& bits ≠ 0
    · have hms : m t (slot e.pv_va 1) = s.mem t (slot e.pv_va 1) := by
        rcases hA t (slot e.pv_va 1) with k | ⟨_, k, _⟩
        · exact k
        · exfalso
          apply hbit
          rw [k, hM]
          exact clr_and 64 _ _ hb
      have hA1 : ∀ t1 j, mem_set m t (slot e.pv_va 1)
            (m t (slot e.pv_va 1) &&& (0xffffffffffffffff ^^^ (m t (slot e.pv_va 1) &&& bits)))
            t1 j = s.mem t1 j ∨
          (chain_cell s pg t1 j ∧
            mem_set m t (slot e.pv_va 1)
              (m t (slot e.pv_va 1) &&& (0xffffffffffffffff ^^^ (m t (slot e.pv_va 1) &&& bits)))
              t1 j = s.mem t1 j &&& (0xffffffffffffffff ^^^ (s.mem t1 j &&& bits)) ∧
            (1 : Nat) ≠ 0) := by
        intro t1 j
        by_cases hc : t1 = t ∧ j = slot e.pv_va 1
        · right
          obtain ⟨c1, c2⟩ := hc
          subst c1
          subst c2
          refine ⟨⟨e, he, ht, rfl⟩, ?_, by decide⟩
          rw [mem_set_same, hms]
        · rw [mem_set_other _ _ _ _ _ _ hc]
          rcases hA t1 j with k | ⟨k1, k2, _⟩
          · exact Or.inl k
          · exact Or.inr ⟨k1, k2, by decide⟩
      obtain ⟨m2, res2, r1, r2, r3, r4, r5, r6⟩ := ih _ 1 hrest hA1
      have hcl : ∀ t1 j, m t1 j &&& bits = 0 → mem_set m t (slot e.pv_va 1)
          (m t (slot e.pv_va 1) &&& (0xffffffffffffffff ^^^ (m t (slot e.pv_va 1) &&& bits)))
          t1 j &&& bits = 0 := by
        intro t1 j h0
        by_cases hc : t1 = t ∧ j = slot e.pv_va 1
        · obtain ⟨c1, c2⟩ := hc
          subst c1
          subst c2
          exact absurd h0 hbit
        · rw [mem_set_other _ _ _ _ _ _ hc]
          exact h0
      refine ⟨m2, res2, ?_, r2, fun _ => r3 (by decide), fun t1 j h0 => r4 t1 j (hcl t1 j h0), ?_,
        fun _ => Or.inr ⟨e, List.mem_cons_self _ _, t, ht, hms ▸ hbit⟩⟩
      · rw [← r1]
        simp only [pmap_clear_attrs_loop, hf]
        rw [if_pos hbit]
        rfl
      · intro e1 he1 t1 ht1
        rcases List.mem_cons.mp he1 with k | k
        · subst k
          rw [ht] at ht1
          cases ht1
          apply r4
          rw [mem_set_same, hM]
          exact clr_and 64 _ _ hb
        · exact r5 e1 k t1 ht1
    · have hbit0 : m t (slot e.pv_va 1) &&& bits = 0 := by
        by_contra k
        exact hbit k
      obtain ⟨m2, res2, r1, r2, r3, r4, r5, r6⟩ := ih m res hrest hA
      refine ⟨m2, res2, ?_, r2, r3, r4, ?_, ?_⟩
      · rw [← r1]
        simp only [pmap_clear_attrs_loop, hf]
        rw [if_neg hbit]
      · intro e1 he1 t1 ht1
        rcases List.mem_cons.mp he1 with k | k
        · subst k
          rw [ht] at ht1
          cases ht1
          exact r4 _ _ hbit0
        · exact r5 e1 k t1 ht1
      · intro h
        rcases r6 h with k | ⟨e1, k1, k2⟩
        · exact Or.inl k
        · exact Or.inr ⟨e1, List.mem_cons_of_mem _ k1, k2⟩

theorem and_xor_and (n x b : Nat) : (x &&& ((2 ^ n - 1) ^^^ b)) &&& b = 0 ∨ 2 ^ n ≤ b := by
  by_cases hb : b < 2 ^ n
  · left
    apply Nat.eq_of_testBit_eq
    intro i
    simp only [Nat.testBit_and, Nat.testBit_xor, testBit_ones, Nat.zero_testBit]
    by_cases hi : i < n
    · simp only [hi, decide_True]
      cases x.testBit i <;> cases b.testBit i <;> rfl
    · have : b.testBit i = false :=
        Nat.testBit_eq_false_of_lt
          (lt_of_lt_of_le hb (Nat.pow_le_pow_right (by decide) (by omega)))
      simp [this]
  · right
    omega

/-- A memory that differs from that of `s` in leaf PTEs of a chain only has
the walks of `s`. -/
theorem cells_walk (c : config) (s s1 : kstate) (hsep : tree_sep s) (hP : PInv c s) (pg : Nat)
    (hs : same_struct s s1)
    (hA : ∀ t j, s1.mem t j = s.mem t j ∨ chain_cell s pg t j)
    (p va L : Nat) (hd : dom s p va) (h1 : 1 ≤ L) (h4 : L ≤ 4) :
    ptab s1.mem (root s1 p) va L = ptab s.mem (root s p) va L := by
  apply ptab_of_upper s s1 hs _ p va L hd h1 h4
  intro p1 va1 L1 t1 hd1 h2 h41 ht1
  rcases hA t1 (slot va1 L1) with k | ⟨e2, he2, k1, _⟩
  · exact k
  · obtain ⟨hd2, _⟩ := hP.pv_sound pg e2 he2
    exact absurd rfl (sep_upper_ne_leaf s hsep _ _ _ p1 va1 L1 t1 hd2 k1 hd1 h2 h41 ht1)

/-! ## `pmap_enter_special`: the walk down the shadow tree -/

theorem rest_set (s X : kstate)
    (hX : X = { s with mem := X.mem, pdp_pool := X.pdp_pool, pm := X.pm })
    (m1 : Nat → Nat → Nat) (p1 : List Nat) :
    ({ X with mem := m1, pdp_pool := p1 } : kstate) =
      { s with mem := m1, pdp_pool := p1, pm := X.pm } := by
  rw [hX]

theorem shadow_tab_down (s : kstate) (va L : Nat) (h2 : 2 ≤ L) (h4 : L ≤ 4) :
    shadow_tab s va (L - 1) = shadow_step s va L (shadow_tab s va L) := by
  have : L = 2 ∨ L = 3 ∨ L = 4 := by omega
  rcases this with e | e | e <;> subst e <;> rfl

theorem shadow_step_congr (s s2 : kstate) (va L : Nat) (t : Option Nat)
    (h : ∀ t0, t = some t0 → s2.mem t0 (shadow_idx va L) = s.mem t0 (shadow_idx va L)) :
    shadow_step s2 va L t = shadow_step s va L t := by
  cases t with
  | none => rfl
  | some t0 => simp only [shadow_step, h t0 rfl]

/-- The walk down the shadow tree only depends on the entries it reads. -/
theorem shadow_tab_congr (s s2 : kstate) (va L : Nat) (h1 : 1 ≤ L) (h4 : L ≤ 4)
    (hr : (s2.pm 0).pm_pdir_intel = (s.pm 0).pm_pdir_intel)
    (h : ∀ L1 t, L < L1 → L1 ≤ 4 → shadow_tab s va L1 = some t →
      s2.mem t (shadow_idx va L1) = s.mem t (shadow_idx va L1)) :
    shadow_tab s2 va L = shadow_tab s va L := by
  have e4 : shadow_tab s2 va 4 = shadow_tab s va 4 := by
    show shadow_root s2 = shadow_root s
    simp only [shadow_root, hr]
  have st : ∀ j, 2 ≤ j → j ≤ 4 → L < j → shadow_tab s2 va j = shadow_tab s va j →
      shadow_tab s2 va (j - 1) = shadow_tab s va (j - 1) := by
    intro j hj2 hj4 hLj ih
    rw [shadow_tab_down s2 va j hj2 hj4, shadow_tab_down s va j hj2 hj4, ih]
    exact shadow_step_congr s s2 va j _ (fun t0 ht0 => h j t0 hLj hj4 ht0)
  have : L = 1 ∨ L = 2 ∨ L = 3 ∨ L = 4 := by omega
  rcases this with hL | hL | hL | hL <;> subst hL
  · exact st 2 (by omega) (by omega) (by omega)
      (st 3 (by omega) (by omega) (by omega) (st 4 (by omega) (by omega) (by omega) e4))
  · exact st 3 (by omega) (by omega) (by omega) (st 4 (by omega) (by omega) (by omega) e4)
  · exact st 4 (by omega) (by omega) (by omega) e4
  · exact e4

theorem ptp_entry_mask (f : Nat) (h : is_frame f) :
    (f ||| PG_u ||| PG_RW ||| PG_V) &&& PMAP_PA_MASK = f := by
  rw [or_keep _ _ _ (show PG_V &&& PMAP_PA_MASK = 0 from rfl),
    or_keep _ _ _ (show PG_RW &&& PMAP_PA_MASK = 0 from rfl),
    or_keep _ _ _ (show PG_u &&& PMAP_PA_MASK = 0 from rfl), and_pa_mask]
  rw [is_frame_iff] at h
  omega

/-- One upper level of `pmap_enter_special`. -/
theorem special_level (c : config) (s s1 : kstate) (hI : Inv c s) (va pd L : Nat)
    (hsep : shadow_sep s va) (hlen : 4 ≤ s.pdp_pool.length)
    (hdm : ∀ f ∈ s.pdp_pool, PMAP_DIRECT_MAP f ≠ 0) (h2 : 2 ≤ L) (h4 : L ≤ 4)
    (h : shadow_at s s1 va pd L) :
    ∃ pd1 s2, pmap_enter_special_level s1 pd (shadow_idx va L) = some (pd1, s2) ∧
      shadow_at s s2 va pd1 (L - 1) := by
  have hS := hI.tree
  by_cases hz : s1.mem pd (shadow_idx va L) &&& PMAP_PA_MASK = 0
  · cases hp : s1.pdp_pool with
    | nil =>
      have := h.len
      rw [hp] at this
      simp only [List.length_nil, zero_add] at this
      omega
    | cons f rest =>
      have hfs1 : f ∈ s1.pdp_pool := hp ▸ List.mem_cons_self f rest
      have hfs : f ∈ s.pdp_pool := h.suffix.subset hfs1
      have hnd : (f :: rest).Nodup := hp ▸ (h.suffix.sublist.nodup hS.pdp_nodup)
      have hfr := hS.pdp_frame f hfs
      have hne : f ≠ pd := fun e => h.pd_out (e ▸ hfs1)
      have hrest : ∀ t, t ∉ s1.pdp_pool → t ∉ rest := fun t ht k =>
        ht (hp ▸ List.mem_cons_of_mem f k)
      have hcell : ∀ L1 t, L < L1 → L1 ≤ 4 → shadow_tab s1 va L1 = some t → ∀ i,
          mem_set (mem_zero s1.mem f) pd (shadow_idx va L) (f ||| PG_u ||| PG_RW ||| PG_V) t i =
            s1.mem t i := by
        intro L1 t a1 a2 a3 i
        obtain ⟨b1, b2, _⟩ := h.up L1 t a1 a2 a3
        rw [mem_set_other _ _ _ _ _ _ (fun e => b1 e.1)]
        have : t ≠ f := fun e => b2 (e ▸ hfs1)
        simp only [mem_zero, this, if_false]
      have hsame : ∀ L1, L ≤ L1 → L1 ≤ 4 →
          shadow_tab (set_mem { s1 with pdp_pool := rest, mem := mem_zero s1.mem f } pd
            (shadow_idx va L) (f ||| PG_u ||| PG_RW ||| PG_V)) va L1 = shadow_tab s1 va L1 := by
        intro L1 a1 a2
        refine shadow_tab_congr s1 _ va L1 (by omega) a2 ?_ ?_
        · rfl
        · intro L2 t b1 b2 b3
          exact hcell L2 t (by omega) b2 b3 _
      refine ⟨f, set_mem { s1 with pdp_pool := rest, mem := mem_zero s1.mem f } pd
        (shadow_idx va L) (f ||| PG_u ||| PG_RW ||| PG_V), ?_, ?_⟩
      · simp only [pmap_enter_special_level, hz, if_true, pdp_pool_get_zero, hp,
          hdm f hfs, if_false]
      · constructor
        · rw [shadow_tab_down _ va L h2 h4, hsame L (le_refl _) h4, h.walk]
          have e : (set_mem { s1 with pdp_pool := rest, mem := mem_zero s1.mem f } pd
              (shadow_idx va L) (f ||| PG_u ||| PG_RW ||| PG_V)).mem pd (shadow_idx va L) =
              f ||| PG_u ||| PG_RW ||| PG_V := mem_set_same _ _ _ _
          simp only [shadow_step, e, ptp_entry_mask f hfr.1, hfr.2, if_false]
        · intro L1 t a1 a2 a3
          rw [hsame L1 (by omega) a2] at a3
          by_cases e : L1 = L
          · subst e
            rw [h.walk] at a3
            cases a3
            exact ⟨fun k => hne k.symm, hrest _ h.pd_out, h.pd_page⟩
          · obtain ⟨_, b2, b3⟩ := h.up L1 t (by omega) a2 a3
            exact ⟨fun k => b2 (k ▸ hfs1), hrest _ b2, b3⟩
        · exact (List.nodup_cons.mp hnd).1
        · exact Or.inl hfs
        · right
          intro j
          show mem_set (mem_zero s1.mem f) pd _ _ f j = 0
          rw [mem_set_other _ _ _ _ _ _ (fun e => hne e.1)]
          simp [mem_zero]
        · exact (List.suffix_cons f rest).trans (hp ▸ h.suffix)
        · have h1 : s1.pdp_pool.length = rest.length + 1 := by rw [hp]; rfl
          have h3 := h.len
          show s.pdp_pool.length ≤ rest.length + (5 - (L - 1))
          omega
        · intro t j
          show mem_set (mem_zero s1.mem f) pd _ _ t j = s.mem t j ∨ _
          by_cases e1 : t = pd
          · subst e1
            exact Or.inr h.pd_page
          · rw [mem_set_other _ _ _ _ _ _ (fun e => e1 e.1)]
            by_cases e2 : t = f
            · subst e2
              exact Or.inr (Or.inl hfs)
            · simp only [mem_zero, e2, if_false]
              exact h.mem t j
        · exact rest_set s s1 h.rest _ rest
        · exact h.pm_o
        · exact h.pm_k
  · have hs : s1 = s := by
      rcases h.cur with k | k
      · exact k
      · exfalso
        apply hz
        rw [k]
        rfl
    subst hs
    have hnext : shadow_tab s1 va (L - 1) =
        some (s1.mem pd (shadow_idx va L) &&& PMAP_PA_MASK) := by
      rw [shadow_tab_down s1 va L h2 h4, h.walk]
      simp only [shadow_step, hz, if_false]
    obtain ⟨_, k5, k6, k7⟩ := hsep (L - 1) _ (by omega) (by omega) hnext
    refine ⟨s1.mem pd (shadow_idx va L) &&& PMAP_PA_MASK, s1, ?_, ?_⟩
    · simp only [pmap_enter_special_level, hz, if_false, k6]
    · constructor
      · exact hnext
      · intro L1 t a1 a2 a3
        obtain ⟨_, b2, _, _⟩ := hsep L1 t (by omega) a2 a3
        refine ⟨?_, b2, Or.inr ⟨L1, by omega, a2, a3⟩⟩
        intro e
        have := k7 L1 (by omega) a2 (e ▸ a3)
        omega
      · exact k5
      · exact Or.inr ⟨L - 1, by omega, by omega, hnext⟩
      · exact Or.inl rfl
      · exact List.suffix_refl _
      · omega
      · exact fun _ _ => Or.inl rfl
      · rfl
      · exact fun _ _ => rfl
      · rfl

/-! ## `pmap_enter_special`: the whole walk -/

theorem special_walk_spec (c : config) (s s0 : kstate) (hI : Inv c s) (va pa prot : Nat)
    (hsep : shadow_sep s va) (hlen : 4 ≤ s.pdp_pool.length)
    (hdm : ∀ f ∈ s.pdp_pool, PMAP_DIRECT_MAP f ≠ 0)
    (h0 : shadow_at s s0 va (s0.pm 0).pm_pdir_intel 4) (hpd : (s0.pm 0).pm_pdir_intel ≠ 0) :
    ∃ s3 pd1, pmap_enter_special_walk c s0 va pa prot =
        some (pmap_enter_special_leaf c s3 va pa prot pd1 (shadow_idx va 1)) ∧
      shadow_at s s3 va pd1 1 := by
  obtain ⟨pd3, s1, a1, b1⟩ := special_level c s s0 hI va _ 4 hsep hlen hdm (by omega) (by omega) h0
  obtain ⟨pd2, s2, a2, b2⟩ := special_level c s s1 hI va pd3 3 hsep hlen hdm (by omega)
    (by omega) b1
  obtain ⟨pd1, s3, a3, b3⟩ := special_level c s s2 hI va pd2 2 hsep hlen hdm (by omega)
    (by omega) b2
  have e4 : shadow_idx va 4 = (va &&& L4_MASK) >>> L4_SHIFT := rfl
  have e3 : shadow_idx va 3 = (va &&& L3_MASK) >>> L3_SHIFT := rfl
  have e2 : shadow_idx va 2 = (va &&& L2_MASK) >>> L2_SHIFT := rfl
  have e1 : shadow_idx va 1 = (va &&& L1_MASK) >>> L1_SHIFT := rfl
  rw [e4] at a1
  rw [e3] at a2
  rw [e2] at a3
  refine ⟨s3, pd1, ?_, b3⟩
  simp only [pmap_enter_special_walk, hpd, if_false, a1, a2, a3, e1]

/-- `pmap_enter_special` on a processor that needs the mitigation returns,
and its result is the last step applied to a state reached by the walk. -/
theorem special_spec (c : config) (s : kstate) (hI : Inv c s) (va pa prot : Nat)
    (hmd : c.cpu_meltdown = true) (hva : VM_MIN_KERNEL_ADDRESS ≤ va)
    (hsep : shadow_sep s va) (hlen : 4 ≤ s.pdp_pool.length)
    (hdm : ∀ f ∈ s.pdp_pool, PMAP_DIRECT_MAP f ≠ 0) :
    ∃ s3 pd1, pmap_enter_special c s va pa prot =
        some (pmap_enter_special_leaf c s3 va pa prot pd1 (shadow_idx va 1)) ∧
      shadow_at s s3 va pd1 1 := by
  have hS := hI.tree
  have hva' : ¬ va < VM_MIN_KERNEL_ADDRESS := by omega
  by_cases hr : (s.pm 0).pm_pdir_intel = 0
  · cases hp : s.pdp_pool with
    | nil =>
      rw [hp] at hlen
      simp at hlen
    | cons f rest =>
      have hfs : f ∈ s.pdp_pool := hp ▸ List.mem_cons_self f rest
      have hnd : (f :: rest).Nodup := hp ▸ hS.pdp_nodup
      have hfr := hS.pdp_frame f hfs
      have e : pmap_enter_special c s va pa prot =
          pmap_enter_special_walk c
            { s with pdp_pool := rest, mem := mem_zero s.mem f,
                     pm := upd s.pm 0 { s.pm 0 with pm_pdir_intel := f } } va pa prot := by
        simp only [pmap_enter_special, hmd, not_true_eq_false, if_false, hva', hr, if_true,
          pdp_pool_get_zero, hp]
      rw [e]
      apply special_walk_spec c s _ hI va pa prot hsep hlen hdm
      · have ef : (upd s.pm 0 { s.pm 0 with pm_pdir_intel := f } 0).pm_pdir_intel = f := by
          simp [upd]
        show shadow_at s _ va (upd s.pm 0 { s.pm 0 with pm_pdir_intel := f } 0).pm_pdir_intel 4
        rw [ef]
        constructor
        · show shadow_root _ = some f
          simp only [shadow_root, ef, hfr.2, if_false]
        · intro L1 t a1 a2
          omega
        · exact (List.nodup_cons.mp hnd).1
        · exact Or.inl hfs
        · right
          intro j
          show mem_zero s.mem f f j = 0
          simp [mem_zero]
        · show rest <:+ s.pdp_pool
          rw [hp]
          exact List.suffix_cons f rest
        · show s.pdp_pool.length ≤ rest.length + (5 - 4)
          rw [hp]
          simp
        · intro t j
          show mem_zero s.mem f t j = s.mem t j ∨ _
          by_cases e2 : t = f
          · subst e2
            exact Or.inr (Or.inl hfs)
          · simp only [mem_zero, e2, if_false]
            exact Or.inl trivial
        · rfl
        · intro q hq
          simp [upd, hq]
        · simp [upd]
      · show (upd s.pm 0 { s.pm 0 with pm_pdir_intel := f } 0).pm_pdir_intel ≠ 0
        simp only [upd, if_true]
        exact hfr.2
  · have e : pmap_enter_special c s va pa prot = pmap_enter_special_walk c s va pa prot := by
      simp only [pmap_enter_special, hmd, not_true_eq_false, if_false, hva', hr]
    rw [e]
    have hw : shadow_tab s va 4 = some (s.pm 0).pm_pdir_intel := by
      show shadow_root s = _
      simp only [shadow_root, hr, if_false]
    obtain ⟨_, k2, _, _⟩ := hsep 4 _ (by omega) (by omega) hw
    apply special_walk_spec c s s hI va pa prot hsep hlen hdm _ hr
    constructor
    · exact hw
    · intro L1 t a1 a2
      omega
    · exact k2
    · exact Or.inr ⟨4, by omega, by omega, hw⟩
    · exact Or.inl rfl
    · exact List.suffix_refl _
    · omega
    · exact fun _ _ => Or.inl rfl
    · rfl
    · exact fun _ _ => rfl
    · rfl

/-! ## `pmap_enter_special`: the leaf PTE and the global bit -/

/-- A page of the pool of roots or a shadow table is no table of a tree. -/
theorem shadow_page_sep (c : config) (s : kstate) (hI : Inv c s) (va t : Nat)
    (hsep : shadow_sep s va) (h : shadow_page s va t) (p va1 L : Nat) (hd : dom s p va1)
    (h1 : 1 ≤ L) (h4 : L ≤ 4) : ptab s.mem (root s p) va1 L ≠ some t := by
  rcases h with h | ⟨L1, a1, a2, a3⟩
  · exact hI.tree.pdp_sep t h p va1 L hd h1 h4
  · exact (hsep L1 t a1 a2 a3).1 p va1 L hd h1 h4

theorem shadow_at_root (s s3 : kstate) (va pd L : Nat) (h : shadow_at s s3 va pd L) (p : Nat) :
    root s3 p = root s p := by
  simp only [root]
  by_cases hp : p = 0
  · subst hp
    have := congrArg (fun x : struct_pmap => x.pm_pdirpa) h.pm_k
    exact this
  · rw [h.pm_o p hp]

/-- The last step of `pmap_enter_special`, from a state reached by the walk
down the shadow tree. -/
theorem special_leaf_spec (c : config) (s s3 : kstate) (hI : Inv c s) (va pa prot pd1 : Nat)
    (hva : VM_MIN_KERNEL_ADDRESS ≤ va) (hva2 : va < 2 ^ 64) (hsep : shadow_sep s va)
    (h : shadow_at s s3 va pd1 1) :
    (∀ p va1 L t, dom s p va1 → 1 ≤ L → L ≤ 4 → ptab s.mem (root s p) va1 L = some t → ∀ j,
      (pmap_enter_special_leaf c s3 va pa prot pd1 (shadow_idx va 1)).mem t j =
        if special_global c s va pa prot = true ∧ ptab s.mem (root s 0) va 1 = some t ∧
            j = slot va 1 then s.mem t j ||| PG_G else s.mem t j) ∧
    (∀ p va1 L, dom s p va1 → 1 ≤ L → L ≤ 4 →
      ptab (pmap_enter_special_leaf c s3 va pa prot pd1 (shadow_idx va 1)).mem
        (root (pmap_enter_special_leaf c s3 va pa prot pd1 (shadow_idx va 1)) p) va1 L =
        ptab s.mem (root s p) va1 L) ∧
    shadow_tab (pmap_enter_special_leaf c s3 va pa prot pd1 (shadow_idx va 1)) va 1 = some pd1 ∧
    (pmap_enter_special_leaf c s3 va pa prot pd1 (shadow_idx va 1)).mem pd1 (shadow_idx va 1) =
      (if special_global c s va pa prot = true then
        pa ||| protection_codes c prot ||| PG_V ||| PG_W ||| PG_G
      else pa ||| protection_codes c prot ||| PG_V ||| PG_W) ∧
    pmap_enter_special_leaf c s3 va pa prot pd1 (shadow_idx va 1) =
      { s3 with mem := (pmap_enter_special_leaf c s3 va pa prot pd1 (shadow_idx va 1)).mem } := by
  have hd0 : dom s 0 va := Or.inr ⟨rfl, hva, hva2⟩
  have hnm : ∀ t, shadow_page s va t → ∀ p va1 L, dom s p va1 → 1 ≤ L → L ≤ 4 →
      ptab s.mem (root s p) va1 L ≠ some t :=
    fun t ht => shadow_page_sep c s hI va t hsep ht
  have hroot := shadow_at_root s s3 va pd1 1 h
  -- the state after the write of the shadow leaf
  have hmain3 : ∀ p va1 L t, dom s p va1 → 1 ≤ L → L ≤ 4 → ptab s.mem (root s p) va1 L = some t →
      t ≠ pd1 ∧ ∀ j, s3.mem t j = s.mem t j := by
    intro p va1 L t hd h1 h4 ht
    refine ⟨fun e => hnm pd1 h.pd_page p va1 L hd h1 h4 (e ▸ ht), fun j => ?_⟩
    rcases h.mem t j with k | k
    · exact k
    · exact absurd ht (hnm t k p va1 L hd h1 h4)
  have hmain4 : ∀ p va1 L t, dom s p va1 → 1 ≤ L → L ≤ 4 → ptab s.mem (root s p) va1 L = some t →
      ∀ j v, (set_mem s3 pd1 (shadow_idx va 1) v).mem t j = s.mem t j := by
    intro p va1 L t hd h1 h4 ht j v
    obtain ⟨a1, a2⟩ := hmain3 p va1 L t hd h1 h4 ht
    show mem_set s3.mem pd1 _ v t j = _
    rw [mem_set_other _ _ _ _ _ _ (fun e => a1 e.1)]
    exact a2 j
  have hwalk4 : ∀ v p va1 L, dom s p va1 → 1 ≤ L → L ≤ 4 →
      ptab (set_mem s3 pd1 (shadow_idx va 1) v).mem (root (set_mem s3 pd1 (shadow_idx va 1) v) p)
        va1 L = ptab s.mem (root s p) va1 L := by
    intro v p va1 L hd h1 h4
    have : root (set_mem s3 pd1 (shadow_idx va 1) v) p = root s p := hroot p
    rw [this]
    apply ptab_congr _ _ _ _ _ h1 h4
    intro j t hj hj4 ht
    exact hmain4 p va1 j t hd (by omega) hj4 ht _ v
  have hup3 : ∀ L1 t, 1 < L1 → L1 ≤ 4 → shadow_tab s3 va L1 = some t →
      t ≠ pd1 ∧ ∀ p va1 L, dom s p va1 → 1 ≤ L → L ≤ 4 → ptab s.mem (root s p) va1 L ≠ some t := by
    intro L1 t a1 a2 a3
    obtain ⟨b1, _, b3⟩ := h.up L1 t a1 a2 a3
    exact ⟨b1, hnm t b3⟩
  cases hleaf : ptab s.mem (root s 0) va 1 with
  | none =>
    have hg : special_global c s va pa prot = false := by
      simp only [special_global, leaf, hleaf, Option.map_none']
    have hlev : (pmap_find_pte_direct (set_mem s3 pd1 (shadow_idx va 1)
        (pa ||| protection_codes c prot ||| PG_V ||| PG_W)) 0 va).1 ≠ 0 := by
      rw [find_pte_direct_spec, hwalk4 _ 0 va 3 hd0 (by omega) (by omega),
        hwalk4 _ 0 va 2 hd0 (by omega) (by omega), hwalk4 _ 0 va 1 hd0 (by omega) (by omega), hleaf]
      cases ptab s.mem (root s 0) va 3 with
      | none => simp
      | some t3 =>
        cases ptab s.mem (root s 0) va 2 with
        | none => simp
        | some t2 => simp
    have e : pmap_enter_special_leaf c s3 va pa prot pd1 (shadow_idx va 1) =
        set_mem s3 pd1 (shadow_idx va 1) (pa ||| protection_codes c prot ||| PG_V ||| PG_W) := by
      simp only [pmap_enter_special_leaf]
      rw [if_neg (fun k => hlev k.1)]
    rw [e]
    refine ⟨?_, fun p va1 L hd h1 h4 => hwalk4 _ p va1 L hd h1 h4, ?_, ?_, rfl⟩
    · intro p va1 L t hd h1 h4 ht j
      rw [hmain4 p va1 L t hd h1 h4 ht j _, hg]
      simp
    · rw [← h.walk]
      refine shadow_tab_congr s3 _ va 1 (by omega) (by omega) ?_ ?_
      · rfl
      · intro L1 t a1 a2 a3
        show mem_set s3.mem pd1 _ _ t _ = _
        exact mem_set_other _ _ _ _ _ _ (fun e => (hup3 L1 t a1 a2 a3).1 e.1)
    · rw [hg]
      simp only [Bool.false_eq_true, if_false]
      exact mem_set_same _ _ _ _
  | some t0 =>
    have hf := find_pte_direct_leaf (set_mem s3 pd1 (shadow_idx va 1)
      (pa ||| protection_codes c prot ||| PG_V ||| PG_W)) 0 va t0
      (by rw [hwalk4 _ 0 va 1 hd0 (by omega) (by omega), hleaf])
    obtain ⟨hne0, hm0⟩ := hmain3 0 va 1 t0 hd0 (by omega) (by omega) hleaf
    have hx : (set_mem s3 pd1 (shadow_idx va 1)
        (pa ||| protection_codes c prot ||| PG_V ||| PG_W)).mem t0 (slot va 1) =
        s.mem t0 (slot va 1) := hmain4 0 va 1 t0 hd0 (by omega) (by omega) hleaf _ _
    have hv : (set_mem s3 pd1 (shadow_idx va 1)
        (pa ||| protection_codes c prot ||| PG_V ||| PG_W)).mem pd1 (shadow_idx va 1) =
        pa ||| protection_codes c prot ||| PG_V ||| PG_W := mem_set_same _ _ _ _
    have hgdef : special_global c s va pa prot =
        (pmap_valid_entry (s.mem t0 (slot va 1)) &&
          decide (((pa ||| protection_codes c prot ||| PG_V ||| PG_W) ^^^ s.mem t0 (slot va 1)) &&&
            PG_FRAME = 0)) := by
      simp only [special_global, leaf, hleaf, Option.map_some']
    by_cases hg : special_global c s va pa prot = true
    · have hg' := hg
      rw [hgdef, Bool.and_eq_true, decide_eq_true_eq] at hg'
      have e : pmap_enter_special_leaf c s3 va pa prot pd1 (shadow_idx va 1) =
          set_mem (set_mem (set_mem s3 pd1 (shadow_idx va 1)
            (pa ||| protection_codes c prot ||| PG_V ||| PG_W)) pd1 (shadow_idx va 1)
            (pa ||| protection_codes c prot ||| PG_V ||| PG_W ||| PG_G)) t0 (slot va 1)
            (s.mem t0 (slot va 1) ||| PG_G) := by
        simp only [pmap_enter_special_leaf, hf, hx, hv, hg'.1, hg'.2, and_self, if_true]
        congr 1
        show mem_set _ pd1 _ _ t0 (slot va 1) ||| PG_G = _
        rw [mem_set_other _ _ _ _ _ _ (fun e => hne0 e.1)]
        exact congrArg (· ||| PG_G) hx
      rw [e]
      have hmem : ∀ t j, (¬ (t = t0 ∧ j = slot va 1)) → t ≠ pd1 →
          mem_set (mem_set (mem_set s3.mem pd1 (shadow_idx va 1)
            (pa ||| protection_codes c prot ||| PG_V ||| PG_W)) pd1 (shadow_idx va 1)
            (pa ||| protection_codes c prot ||| PG_V ||| PG_W ||| PG_G)) t0 (slot va 1)
            (s.mem t0 (slot va 1) ||| PG_G) t j = s3.mem t j := by
        intro t j a1 a2
        rw [mem_set_other _ _ _ _ _ _ a1, mem_set_other _ _ _ _ _ _ (fun e => a2 e.1),
          mem_set_other _ _ _ _ _ _ (fun e => a2 e.1)]
      have hA : ∀ p va1 L t, dom s p va1 → 1 ≤ L → L ≤ 4 →
          ptab s.mem (root s p) va1 L = some t → ∀ j,
          mem_set (mem_set (mem_set s3.mem pd1 (shadow_idx va 1)
            (pa ||| protection_codes c prot ||| PG_V ||| PG_W)) pd1 (shadow_idx va 1)
            (pa ||| protection_codes c prot ||| PG_V ||| PG_W ||| PG_G)) t0 (slot va 1)
            (s.mem t0 (slot va 1) ||| PG_G) t j =
            if special_global c s va pa prot = true ∧ some t0 = some t ∧ j = slot va 1 then
              s.mem t j ||| PG_G else s.mem t j := by
        intro p va1 L t hd h1 h4 ht j
        obtain ⟨b1, b2⟩ := hmain3 p va1 L t hd h1 h4 ht
        by_cases hc : t = t0 ∧ j = slot va 1
        · obtain ⟨c1, c2⟩ := hc
          subst c1
          subst c2
          rw [mem_set_same, if_pos ⟨hg, rfl, rfl⟩]
        · rw [hmem t j hc b1, b2 j, if_neg]
          rintro ⟨_, k1, k2⟩
          exact hc ⟨(Option.some.inj k1).symm, k2⟩
      refine ⟨hA, ?_, ?_, ?_, rfl⟩
      · intro p va1 L hd h1 h4
        have : root (set_mem (set_mem (set_mem s3 pd1 (shadow_idx va 1)
            (pa ||| protection_codes c prot ||| PG_V ||| PG_W)) pd1 (shadow_idx va 1)
            (pa ||| protection_codes c prot ||| PG_V ||| PG_W ||| PG_G)) t0 (slot va 1)
            (s.mem t0 (slot va 1) ||| PG_G)) p = root s p := hroot p
        rw [this]
        apply ptab_congr _ _ _ _ _ h1 h4
        intro j t hj hj4 ht
        obtain ⟨b1, b2⟩ := hmain3 p va1 j t hd (by omega) hj4 ht
        have b3 : t ≠ t0 := upper_ne_leaf c s hI.tree 0 va t0 p va1 j t hd0 hleaf hd (by omega)
          hj4 ht
        exact (hmem t _ (fun e => b3 e.1) b1).trans (b2 _)
      · rw [← h.walk]
        refine shadow_tab_congr s3 _ va 1 (by omega) (by omega) ?_ ?_
        · rfl
        · intro L1 t a1 a2 a3
          obtain ⟨b1, b2⟩ := hup3 L1 t a1 a2 a3
          have b3 : t ≠ t0 := fun e => b2 0 va 1 hd0 (by omega) (by omega) (e ▸ hleaf)
          exact hmem t _ (fun e => b3 e.1) b1
      · rw [if_pos hg]
        show mem_set _ t0 (slot va 1) _ pd1 _ = _
        rw [mem_set_other _ _ _ _ _ _ (fun e => hne0 e.1.symm)]
        exact mem_set_same _ _ _ _
    · have hg0 : special_global c s va pa prot = false := by
        simpa using hg
      have hcond : ¬ (pmap_valid_entry (s.mem t0 (slot va 1)) = true ∧
          ((pa ||| protection_codes c prot ||| PG_V ||| PG_W) ^^^ s.mem t0 (slot va 1)) &&&
            PG_FRAME = 0) := by
        intro k
        apply hg
        rw [hgdef, Bool.and_eq_true, decide_eq_true_eq]
        exact k
      have e : pmap_enter_special_leaf c s3 va pa prot pd1 (shadow_idx va 1) =
          set_mem s3 pd1 (shadow_idx va 1)
            (pa ||| protection_codes c prot ||| PG_V ||| PG_W) := by
        simp only [pmap_enter_special_leaf, hf, hx, hv, true_and]
        by_cases k1 : pmap_valid_entry (s.mem t0 (slot va 1)) = true
        · rw [if_pos k1, if_neg (fun k2 => hcond ⟨k1, k2⟩)]
        · rw [if_neg k1]
      rw [e]
      refine ⟨?_, fun p va1 L hd h1 h4 => hwalk4 _ p va1 L hd h1 h4, ?_, ?_, rfl⟩
      · intro p va1 L t hd h1 h4 ht j
        rw [hmain4 p va1 L t hd h1 h4 ht j _, hg0]
        simp
      · rw [← h.walk]
        refine shadow_tab_congr s3 _ va 1 (by omega) (by omega) ?_ ?_
        · rfl
        · intro L1 t a1 a2 a3
          show mem_set s3.mem pd1 _ _ t _ = _
          exact mem_set_other _ _ _ _ _ _ (fun e => (hup3 L1 t a1 a2 a3).1 e.1)
      · rw [hg0]
        simp only [Bool.false_eq_true, if_false]
        exact mem_set_same _ _ _ _

/-! ## The global bit of a new PTE -/

theorem npte_global (c : config) (hc : cfg_ok c) (p va pa prot : Nat)
    (pvlist wired nocache wc : Bool) (hpa : pa &&& PG_G = 0) :
    pmap_enter_npte c p va pa prot pvlist wired nocache wc &&& PG_G =
      if p = 0 then c.pg_g_kern else 0 := by
  have a1 := prot_and c hc prot PG_G (by decide) (by decide)
  have a2 := wc_and c hc PG_G (by decide) (by decide)
  have a4 : (PG_u ||| PG_RW) &&& PG_G = 0 := by decide
  have h5 : ∀ x, (if va < VM_MAXUSER_ADDRESS then x ||| PG_u
      else if va < VM_MAX_ADDRESS then x ||| (PG_u ||| PG_RW) else x) &&& PG_G = x &&& PG_G := by
    intro x
    split
    · exact or_keep x _ PG_G (by decide)
    · exact ite_keep _ x _ PG_G (fun _ => a4)
  simp only [pmap_enter_npte]
  by_cases hp : p = 0
  · rw [if_pos hp, if_pos hp, Nat.and_distrib_right, h5, ite_keep _ _ _ PG_G (fun _ => by decide),
      ite_keep _ _ _ PG_G (fun _ => by decide), ite_keep _ _ _ PG_G (fun _ => a2),
      ite_keep _ _ _ PG_G (fun _ => by decide), or_keep _ _ PG_G (by decide),
      or_keep _ _ PG_G a1, hpa, Nat.zero_or]
    rcases hc.2.1 with e | e <;> rw [e] <;> rfl
  · rw [if_neg hp, if_neg hp, h5, ite_keep _ _ _ PG_G (fun _ => by decide),
      ite_keep _ _ _ PG_G (fun _ => by decide), ite_keep _ _ _ PG_G (fun _ => a2),
      ite_keep _ _ _ PG_G (fun _ => by decide), or_keep _ _ PG_G (by decide),
      or_keep _ _ PG_G a1, hpa]

theorem special_pte_global (c : config) (hc : cfg_ok c) (pa prot : Nat) (hpa : pa &&& PG_G = 0) :
    (pa ||| protection_codes c prot ||| PG_V ||| PG_W) &&& PG_G = 0 ∧
    (pa ||| protection_codes c prot ||| PG_V ||| PG_W ||| PG_G) &&& PG_G = PG_G := by
  have a1 := prot_and c hc prot PG_G (by decide) (by decide)
  have e : (pa ||| protection_codes c prot ||| PG_V ||| PG_W) &&& PG_G = 0 := by
    rw [or_keep _ _ PG_G (by decide), or_keep _ _ PG_G (by decide), or_keep _ _ PG_G a1, hpa]
  refine ⟨e, ?_⟩
  rw [Nat.and_distrib_right, e, Nat.zero_or]
  rfl

theorem kenter_npte_global (c : config) (hc : cfg_ok c) (va pa prot : Nat) :
    pmap_kenter_npte c va pa prot &&& PG_G = (if va ≥ NBPD_L2 then c.pg_g_kern else 0) ∧
    pmap_valid_entry (pmap_kenter_npte c va pa prot) = true := by
  have a2 := wc_and c hc PG_G (by decide) (by decide)
  have hnx : c.pg_nx &&& PG_G = 0 := by
    rcases hc.1 with e | e <;> rw [e] <;> rfl
  have hg : c.pg_g_kern &&& PG_G = c.pg_g_kern := by
    rcases hc.2.1 with e | e <;> rw [e] <;> rfl
  constructor
  · simp only [pmap_kenter_npte]
    rw [ite_keep _ _ _ PG_G (fun _ => hnx)]
    have e0 : ((pa &&& PMAP_PA_MASK) ||| (if prot &&& PROT_WRITE ≠ 0 then PG_RW else PG_RO) |||
        (if pa &&& PMAP_NOCACHE ≠ 0 then PG_N else 0) |||
        (if pa &&& PMAP_WC ≠ 0 then c.pmap_pg_wc else 0) ||| PG_V) &&& PG_G = 0 := by
      rw [or_keep _ _ PG_G (by decide), or_keep _ _ PG_G (by split <;> first | exact a2 | rfl),
        or_keep _ _ PG_G (by split <;> rfl), or_keep _ _ PG_G (by split <;> rfl),
        Nat.and_assoc, show PMAP_PA_MASK &&& PG_G = 0 from rfl, Nat.and_zero]
    split
    · rw [Nat.and_distrib_right, e0, Nat.zero_or, hg]
    · exact e0
  · have h : (pmap_kenter_npte c va pa prot).testBit 0 = true := by
      simp only [pmap_kenter_npte]
      apply ite_tb
      apply ite_tb
      rw [Nat.testBit_or, show PG_V.testBit 0 = true from rfl, Bool.or_true]
    rw [valid_iff]
    rw [Nat.testBit_zero] at h
    simpa using h

/-- `pmap_kenter_pa`, when the recursive mapping reaches the PTE of `va`. -/
theorem kenter_spec (c : config) (LARGEPAGES : Bool) (s : kstate)
    (va pa prot t : Nat) (ht : rec_table s va 1 = some t)
    (hlp : ¬ (LARGEPAGES = true ∧ s.mem t (pl_i va 1 % 512) &&& PG_PS ≠ 0)) :
    pmap_kenter_pa c LARGEPAGES s va pa prot =
      some (set_mem s t (pl_i va 1 % 512) (pmap_kenter_npte c va pa prot)) := by
  simp only [pmap_kenter_pa, pde_read, pde_write, ht, Option.map_some']
  rw [if_neg hlp]

/-- The loop that frees the deferred list: the state is the fold of
`uvm_pagefree`, and the log gets the frees in the order of the list. -/
theorem free_empty_ptps_spec (l : List Nat) :
    ∀ (s : kstate) (log : List event),
      pmap_free_empty_ptps l s log = (l.foldl uvm_pagefree s, log ++ l.map event.pagefree) := by
  induction l with
  | nil =>
    intro s log
    simp [pmap_free_empty_ptps]
  | cons a l ih =>
    intro s log
    simp [pmap_free_empty_ptps, ih]

theorem cleanup_ev_spec (s : kstate) (fp : List pv_entry) (l : List Nat) (log : List event) :
    pmap_do_remove_cleanup_ev s fp l log =
      (pmap_do_remove_cleanup s fp l, l, log ++ l.map event.pagefree) := by
  simp only [pmap_do_remove_cleanup_ev, free_empty_ptps_spec, pmap_do_remove_cleanup]

/-- Every frame of a list is in the free list after the list was freed. -/
theorem pagefree_fold_mem (l : List Nat) :
    ∀ (s : kstate), (∀ q ∈ s.free_pages, q ∈ (l.foldl uvm_pagefree s).free_pages) ∧
      ∀ q ∈ l, q ∈ (l.foldl uvm_pagefree s).free_pages := by
  induction l with
  | nil =>
    intro s
    exact ⟨fun q h => h, fun q h => by cases h⟩
  | cons a l ih =>
    intro s
    obtain ⟨h1, h2⟩ := ih (uvm_pagefree s a)
    refine ⟨fun q h => h1 q (List.mem_cons_of_mem a h), fun q h => ?_⟩
    rcases List.mem_cons.mp h with h | h
    · rw [h]
      exact h1 a (List.mem_cons_self a _)
    · exact h2 q h

/-- `pmap_do_remove` with the log is `pmap_do_remove`, and its log has the
wait before the frees of the deferred list. -/
theorem do_remove_ev_spec (c : config) (s : kstate) (p sva eva fl : Nat) :
    (pmap_do_remove_ev c s p sva eva fl).map (fun r => r.1) = pmap_do_remove c s p sva eva fl ∧
      ∀ s1 ptps log, pmap_do_remove_ev c s p sva eva fl = some (s1, ptps, log) →
        (log = event.shootwait :: ptps.map event.pagefree ∨ (ptps = [] ∧ log = [])) ∧ ∀ q ∈ ptps, q ∈ s1.free_pages := by
  have key : ∀ (u : kstate) (fp : List pv_entry) (l : List Nat) (s1 : kstate) (ptps : List Nat)
      (log : List event),
      some (pmap_do_remove_cleanup_ev u fp l [event.shootwait]) = some (s1, ptps, log) →
        (log = event.shootwait :: ptps.map event.pagefree ∨ (ptps = [] ∧ log = [])) ∧ ∀ q ∈ ptps, q ∈ s1.free_pages := by
    intro u fp l s1 ptps log h
    rw [cleanup_ev_spec] at h
    simp only [Option.some.injEq, Prod.mk.injEq] at h
    obtain ⟨h1, h2, h3⟩ := h
    subst h2
    refine ⟨Or.inl (by simpa using h3.symm), fun q hq => ?_⟩
    rw [← h1]
    exact (pagefree_fold_mem l _).2 q hq
  simp only [pmap_do_remove_ev, pmap_do_remove]
  cases pmap_map_ptes c s p with
  | none => exact ⟨rfl, fun _ _ _ h => by cases h⟩
  | some r =>
    obtain ⟨scr3, s0⟩ := r
    simp only []
    by_cases h1 : w64 (sva + PAGE_SIZE) = eva
    · simp only [h1, if_true]
      cases pmap_pdes_valid s0 sva with
      | none =>
        simp only [cleanup_ev_spec, Option.map]
        refine ⟨trivial, fun s1 ptps log h => ?_⟩
        simp only [Option.some.injEq, Prod.mk.injEq] at h
        obtain ⟨_, h2, h3⟩ := h
        subst h2
        exact ⟨Or.inr ⟨rfl, by simpa using h3.symm⟩, fun q hq => by cases hq⟩
      | some pde =>
        simp only []
        cases pmap_do_remove_ptp c s0 p sva (pde &&& PG_FRAME) with
        | none => exact ⟨rfl, fun _ _ _ h => by cases h⟩
        | some ptp =>
          simp only []
          cases pmap_remove_pte c s0 p ptp sva fl [] with
          | none => exact ⟨rfl, fun _ _ _ h => by cases h⟩
          | some r =>
            obtain ⟨result, s1, fp⟩ := r
            simp only []
            cases ptp with
            | none =>
              simp only []
              exact ⟨by simp only [cleanup_ev_spec, Option.map], key _ _ _⟩
            | some q =>
              simp only []
              by_cases h2 : result ∧ s1.wire_count q ≤ 1
              · simp only [h2, and_self, if_true]
                cases pmap_free_ptp s1 p q sva [] with
                | none => exact ⟨rfl, fun _ _ _ h => by cases h⟩
                | some f =>
                  simp only []
                  exact ⟨by simp only [cleanup_ev_spec, Option.map], key _ _ _⟩
              · simp only [h2, if_false]
                exact ⟨by simp only [cleanup_ev_spec, Option.map], key _ _ _⟩
    · simp only [h1, if_false]
      cases pmap_do_remove_loop c p eva fl (2 ^ 43 + 2) sva s0 [] [] with
      | none => exact ⟨rfl, fun _ _ _ h => by cases h⟩
      | some r =>
        obtain ⟨s1, fp, l⟩ := r
        simp only []
        exact ⟨by simp only [cleanup_ev_spec, Option.map], key _ _ _⟩

/-- `pmap_page_remove` with the log returns, is `pmap_page_remove`, and its
log is the wait followed by the frees of the deferred list. -/
theorem page_remove_ev_spec (c : config) (s : kstate) (hI : Inv c s) (pg : Nat) :
    ∃ s1 ptps, pmap_page_remove c s pg = some s1 ∧
      pmap_page_remove_ev c s pg =
        some (s1, ptps, event.shootwait :: ptps.map event.pagefree) ∧
      ∀ q ∈ ptps, q ∈ s1.free_pages := by
  obtain ⟨s1, l1, d1, _, _, d4⟩ :=
    page_remove_loop_ev_spec c pg ((s.pv_list pg).length + 1) s [] hI (limbo_nil s) (by omega)
  refine ⟨l1.foldl uvm_pagefree s1, l1, ?_, ?_, (pagefree_fold_mem l1 s1).2⟩
  · simp only [pmap_page_remove, d1]
  · simp only [pmap_page_remove_ev, d4, free_empty_ptps_spec, List.nil_append,
      List.singleton_append]

/-! ## The entries `pmap_alloc_level` writes -/

theorem kpde_val (f nx : Nat) (h : is_frame f) (hn : nx = 0 ∨ nx = PG_NX) :
    f ||| PG_RW ||| PG_V ||| nx = f + 3 + nx := by
  rw [is_frame_iff] at h
  have e : f ||| PG_RW ||| PG_V = f + 3 := by
    have e1 : f ||| PG_RW ||| PG_V = f ||| 3 := by
      rw [Nat.or_assoc]
      rfl
    rw [e1]
    have := or_low (f / 4096) 3 12 (by norm_num)
    norm_num at this
    have e2 : f / 4096 * 4096 = f := by omega
    rw [e2] at this
    exact this
  rw [e]
  rcases hn with hn | hn
  · rw [hn]
    simp
  · rw [hn, Nat.or_comm]
    have := or_low 1 (f + 3) 63 (by norm_num at h ⊢; omega)
    norm_num at this
    simp only [PG_NX]
    omega

theorem kpde_valid (f nx : Nat) (h : is_frame f) (hn : nx = 0 ∨ nx = PG_NX) :
    pmap_valid_entry (f ||| PG_RW ||| PG_V ||| nx) = true := by
  rw [kpde_val f nx h hn, valid_iff]
  rw [is_frame_iff] at h
  rcases hn with hn | hn
  · rw [hn]
    omega
  · rw [hn]
    simp only [PG_NX]
    omega

theorem kpde_frame (f nx : Nat) (h : is_frame f) (hn : nx = 0 ∨ nx = PG_NX) :
    (f ||| PG_RW ||| PG_V ||| nx) &&& PG_FRAME = f := by
  rw [kpde_val f nx h hn, and_frame]
  rw [is_frame_iff] at h
  norm_num at h
  rcases hn with hn | hn
  · rw [hn]
    omega
  · rw [hn]
    simp only [PG_NX]
    omega

/-! ## `pmap_get_physpage` with the frame allocator up -/

theorem get_physpage_spec (g : grow_globals) (s : kstate) (va level f : Nat) (rest : List Nat)
    (hg : g.page_init_done = true) (hf : s.free_pages = f :: rest) :
    ∃ s1, pmap_get_physpage g s va level = some (f, g, s1) ∧ s1.free_pages = rest ∧
      s1.mem = mem_zero s.mem f ∧ s1.cr3 = s.cr3 ∧ s1.pmaps = s.pmaps ∧ s1.nkptp = s.nkptp ∧
      ∀ p, (s1.pm p).pm_pdir = (s.pm p).pm_pdir := by
  simp only [pmap_get_physpage, hg, Bool.true_eq_false, if_false, uvm_pagealloc, hf]
  refine ⟨_, rfl, rfl, rfl, rfl, rfl, rfl, ?_⟩
  intro p
  by_cases hp : p = 0
  · subst hp
    simp [add_resident, set_wire, clear_busy, upd]
  · simp [add_resident, set_wire, clear_busy, upd, hp]

/-! ## One allocation and one store, on the invariant of the loops -/

theorem grow_inv_congr (s0 s : kstate) (W E4 E3 W1 E41 E31 : Nat → Prop)
    (h : grow_inv s0 s W E4 E3) (hW : ∀ j, W j ↔ W1 j) (h4 : ∀ j, E4 j ↔ E41 j)
    (h3 : ∀ j, E3 j ↔ E31 j) : grow_inv s0 s W1 E41 E31 := by
  have e1 : W = W1 := funext fun j => propext (hW j)
  have e2 : E4 = E41 := funext fun j => propext (h4 j)
  have e3 : E3 = E31 := funext fun j => propext (h3 j)
  rw [← e1, ← e2, ← e3]
  exact h

theorem groots_cr3 (s0 : kstate) : groots s0 s0.cr3 := Or.inr (Or.inl rfl)

theorem groots_kr (s0 : kstate) : groots s0 (s0.pm 0).pm_pdir := Or.inl rfl

/-- A store into a table that is no root, after the allocation of `f`. -/
theorem step_low (s0 s s3 : kstate) (W E4 E3 E31 : Nat → Prop) (f t j nx : Nat) (rest : List Nat)
    (h : grow_inv s0 s W E4 E3) (hf : s.free_pages = f :: rest)
    (hmem : s3.mem = mem_set (mem_zero s.mem f) t j (f ||| PG_RW ||| PG_V ||| nx))
    (hfree : s3.free_pages = rest) (hcr3 : s3.cr3 = s.cr3) (hpm : s3.pmaps = s.pmaps)
    (hpd : ∀ p, (s3.pm p).pm_pdir = (s.pm p).pm_pdir) (hn : nx = 0 ∨ nx = PG_NX)
    (ht : ¬ groots s0 t)
    (hE : ∀ e, E31 e → E4 (e / 512 % 512) ∧
      (E3 e ∨ ((s.mem s0.cr3 (e / 512 % 512) &&& PG_FRAME) = t ∧ e % 512 = j))) :
    grow_inv s0 s3 W E4 E31 := by
  have hnd : (f :: rest).Nodup := hf ▸ h.nodup
  have hfin : f ∈ s.free_pages := hf ▸ List.mem_cons_self f rest
  have hsub : ∀ x ∈ rest, x ∈ s.free_pages := fun x hx => hf ▸ List.mem_cons_of_mem f hx
  have hfr : ¬ groots s0 f := h.free_root f hfin
  have hff : is_frame f := h.frames f hfin
  have hfrest : f ∉ rest := (List.nodup_cons.mp hnd).1
  have hcell : ∀ r i, r ≠ f → ¬ (r = t ∧ i = j) → s3.mem r i = s.mem r i := by
    intro r i h1 h2
    rw [hmem]
    simp only [mem_set, mem_zero, if_neg h2, if_neg h1]
  have hroot : ∀ r i, groots s0 r → s3.mem r i = s.mem r i := by
    intro r i hr
    apply hcell r i
    · intro e
      exact hfr (e ▸ hr)
    · intro e
      exact ht (e.1 ▸ hr)
  refine ⟨hcr3.trans h.cr3, hpm.trans h.pmaps, fun p => (hpd p).trans (h.pdir p), ?_, ?_, ?_, ?_,
    fun e he => (hE e he).1, ?_, ?_⟩
  · rw [hfree]
    exact (List.nodup_cons.mp hnd).2
  · intro x hx
    rw [hfree] at hx
    exact h.frames x (hsub x hx)
  · intro x hx
    rw [hfree] at hx
    exact h.free_root x (hsub x hx)
  · intro r i hr hw
    rw [hroot r i hr]
    exact h.roots r i hr hw
  · intro i hi
    rw [hroot _ i (groots_cr3 s0), hfree]
    obtain ⟨a, b, d⟩ := h.p4 i hi
    exact ⟨a, b, fun hx => d (hsub _ hx)⟩
  · intro e he
    obtain ⟨h4, hor⟩ := hE e he
    obtain ⟨a4, b4, d4⟩ := h.p4 _ h4
    rw [hroot _ _ (groots_cr3 s0), hfree]
    by_cases hw : (s.mem s0.cr3 (e / 512 % 512) &&& PG_FRAME) = t ∧ e % 512 = j
    · have e1 : s3.mem (s.mem s0.cr3 (e / 512 % 512) &&& PG_FRAME) (e % 512) =
          f ||| PG_RW ||| PG_V ||| nx := by
        rw [hmem, hw.1, hw.2]
        simp only [mem_set, and_self, if_true]
      rw [e1, kpde_frame f nx hff hn]
      exact ⟨kpde_valid f nx hff hn, hfr, hfrest⟩
    · rw [hcell (s.mem s0.cr3 (e / 512 % 512) &&& PG_FRAME) (e % 512)
        (fun e1 => d4 (by rw [e1]; exact hfin)) hw]
      rcases hor with hor | hor
      · obtain ⟨a, b, d⟩ := h.p3 e hor
        exact ⟨a, b, fun hx => d (hsub _ hx)⟩
      · exact absurd hor hw

/-- A store into the root of the kernel pmap, after the allocation of `f`. -/
theorem step_top (s0 s s3 : kstate) (W E4 E3 : Nat → Prop) (f j nx : Nat) (rest : List Nat)
    (h : grow_inv s0 s W E4 E3) (hf : s.free_pages = f :: rest)
    (hmem : s3.mem = mem_set (mem_zero s.mem f) (s0.pm 0).pm_pdir j (f ||| PG_RW ||| PG_V ||| nx))
    (hfree : s3.free_pages = rest) (hcr3 : s3.cr3 = s.cr3) (hpm : s3.pmaps = s.pmaps)
    (hpd : ∀ p, (s3.pm p).pm_pdir = (s.pm p).pm_pdir) (hn : nx = 0 ∨ nx = PG_NX)
    (hE3 : s0.cr3 = (s0.pm 0).pm_pdir → ∀ e, E3 e → e / 512 % 512 ≠ j) :
    grow_inv s0 s3 (fun i => W i ∨ i = j)
      (fun i => E4 i ∨ (i = j ∧ s0.cr3 = (s0.pm 0).pm_pdir)) E3 := by
  have hnd : (f :: rest).Nodup := hf ▸ h.nodup
  have hfin : f ∈ s.free_pages := hf ▸ List.mem_cons_self f rest
  have hsub : ∀ x ∈ rest, x ∈ s.free_pages := fun x hx => hf ▸ List.mem_cons_of_mem f hx
  have hfr : ¬ groots s0 f := h.free_root f hfin
  have hff : is_frame f := h.frames f hfin
  have hfrest : f ∉ rest := (List.nodup_cons.mp hnd).1
  have hcell : ∀ r i, r ≠ f → ¬ (r = (s0.pm 0).pm_pdir ∧ i = j) → s3.mem r i = s.mem r i := by
    intro r i h1 h2
    rw [hmem]
    simp only [mem_set, mem_zero, if_neg h2, if_neg h1]
  have hnf : ∀ r, groots s0 r → r ≠ f := fun r hr e => hfr (e ▸ hr)
  refine ⟨hcr3.trans h.cr3, hpm.trans h.pmaps, fun p => (hpd p).trans (h.pdir p), ?_, ?_, ?_, ?_,
    fun e he => Or.inl (h.e34 e he), ?_, ?_⟩
  · rw [hfree]
    exact (List.nodup_cons.mp hnd).2
  · intro x hx
    rw [hfree] at hx
    exact h.frames x (hsub x hx)
  · intro x hx
    rw [hfree] at hx
    exact h.free_root x (hsub x hx)
  · intro r i hr hw
    rw [hcell r i (hnf r hr) (fun e => hw ⟨e.1, Or.inr e.2⟩)]
    exact h.roots r i hr (fun e => hw ⟨e.1, Or.inl e.2⟩)
  · intro i hi
    rw [hfree]
    by_cases hw : s0.cr3 = (s0.pm 0).pm_pdir ∧ i = j
    · have e1 : s3.mem s0.cr3 i = f ||| PG_RW ||| PG_V ||| nx := by
        rw [hmem, hw.1, hw.2]
        simp only [mem_set, and_self, if_true]
      rw [e1, kpde_frame f nx hff hn]
      exact ⟨kpde_valid f nx hff hn, hfr, hfrest⟩
    · rw [hcell _ _ (hnf _ (groots_cr3 s0)) hw]
      rcases hi with hi | hi
      · obtain ⟨a, b, d⟩ := h.p4 i hi
        exact ⟨a, b, fun hx => d (hsub _ hx)⟩
      · exact absurd ⟨hi.2, hi.1⟩ hw
  · intro e he
    obtain ⟨a4, b4, d4⟩ := h.p4 _ (h.e34 e he)
    have hw : ¬ (s0.cr3 = (s0.pm 0).pm_pdir ∧ e / 512 % 512 = j) := fun k => hE3 k.1 e he k.2
    rw [hcell _ _ (hnf _ (groots_cr3 s0)) hw, hfree]
    rw [hcell (s.mem s0.cr3 (e / 512 % 512) &&& PG_FRAME) (e % 512)
      (fun e1 => d4 (by rw [e1]; exact hfin)) (fun k => b4 (by rw [k.1]; exact groots_kr s0))]
    obtain ⟨a, b, d⟩ := h.p3 e he
    exact ⟨a, b, fun hx => d (hsub _ hx)⟩

/-! ## Indices and the stores through the recursive mapping -/

theorem pl3_shift (e : Nat) (h : e < 2 ^ 18) :
    pl_i (e <<< 30) 3 = e ∧ pl_i (e <<< 30) 4 = e / 512 := by
  rw [pl_i_3, pl_i_4, Nat.shiftLeft_eq]
  simp only [pfx]
  norm_num at h ⊢
  omega

theorem pl2_shift (i : Nat) (h : i < 2 ^ 27) :
    pl_i (i <<< 21) 2 = i ∧ pl_i (i <<< 21) 3 = i / 512 ∧ pl_i (i <<< 21) 4 = i / 512 / 512 := by
  rw [pl_i_2, pl_i_3, pl_i_4, Nat.shiftLeft_eq]
  simp only [pfx]
  norm_num at h ⊢
  omega

theorem pdep_write4 (s : kstate) (i v : Nat) (hi : i < 512) :
    pdep_write s 4 i v = some (set_mem s (s.pm 0).pm_pdir i v) := by
  simp only [pdep_write, PTP_LEVELS, if_true, if_pos hi]

theorem pdep_write3 (s : kstate) (e v : Nat) (he : e < 2 ^ 18)
    (hv : pmap_valid_entry (s.mem s.cr3 (e / 512 % 512)) = true) :
    pdep_write s 3 e v =
      some (set_mem s (s.mem s.cr3 (e / 512 % 512) &&& PG_FRAME) (e % 512) v) := by
  obtain ⟨a, b⟩ := pl3_shift e he
  have e1 : pdep_write s 3 e v = pde_write s (e <<< 30) 3 v := by
    simp only [pdep_write, PTP_LEVELS]
    rw [if_neg (by decide), if_pos (by norm_num at he ⊢; exact he)]
    rfl
  rw [e1]
  simp only [pde_write, rec_table]
  norm_num
  simp only [rec_step, a, b, hv, if_true]
  exact ⟨_, rfl, rfl⟩

theorem pdep_write2 (s : kstate) (i v : Nat) (hi : i < 2 ^ 27)
    (hv : pmap_valid_entry (s.mem s.cr3 (i / 512 / 512 % 512)) = true)
    (hv3 : pmap_valid_entry
      (s.mem (s.mem s.cr3 (i / 512 / 512 % 512) &&& PG_FRAME) (i / 512 % 512)) = true) :
    pdep_write s 2 i v =
      some (set_mem s
        (s.mem (s.mem s.cr3 (i / 512 / 512 % 512) &&& PG_FRAME) (i / 512 % 512) &&& PG_FRAME)
        (i % 512) v) := by
  obtain ⟨a, b, d⟩ := pl2_shift i hi
  have e1 : pdep_write s 2 i v = pde_write s (i <<< 21) 2 v := by
    simp only [pdep_write, PTP_LEVELS]
    rw [if_neg (by decide), if_pos (by norm_num at hi ⊢; exact hi)]
    rfl
  rw [e1]
  simp only [pde_write, rec_table]
  norm_num
  simp only [rec_step, a, b, d, hv, hv3, if_true]
  exact ⟨_, rfl, rfl⟩

/-! ## The loop of `pmap_alloc_level` -/

/-- The loop runs to its end when every round keeps a property of the index
and the state, and there are free frames for all rounds. -/
theorem alloc_loop_gen (c : config) (g : grow_globals) (level end_ i0 : Nat)
    (Q : Nat → kstate → Prop) (hend : end_ + 1 < 2 ^ 64)
    (hstep : ∀ i va s, i0 ≤ i → i ≤ end_ → Q i s → 1 ≤ s.free_pages.length →
      ∃ pa s1 s2, pmap_get_physpage g s va (level - 1) = some (pa, g, s1) ∧
        pdep_write s1 level i (pa ||| PG_RW ||| PG_V ||| c.pg_nx) = some s2 ∧
        (∀ nk, s2.nkptp = nk → Q (i + 1) { s2 with nkptp := upd nk (level - 1) (nk (level - 1) + 1) }) ∧
        s2.free_pages.length + 1 = s.free_pages.length ∧ s2.nkptp = s.nkptp) :
    ∀ n i va s, i0 ≤ i → i ≤ end_ + 1 → Q i s → end_ + 1 - i ≤ s.free_pages.length →
      end_ + 1 - i < n →
      ∃ s1, pmap_alloc_level_loop c level end_ n i va g s = some (g, s1) ∧ Q (end_ + 1) s1 ∧
        s1.free_pages.length + (end_ + 1 - i) = s.free_pages.length ∧
        ∀ k, s1.nkptp k = s.nkptp k + (if k = level - 1 then end_ + 1 - i else 0) := by
  intro n
  induction n with
  | zero =>
    intro i va s _ _ _ _ h
    omega
  | succ n ih =>
    intro i va s h0 h1 hQ hfree hn
    by_cases hle : i ≤ end_
    · obtain ⟨pa, s1, s2, e1, e2, e3, e4, e5⟩ := hstep i va s h0 hle hQ (by omega)
      have hw : w64 (i + 1) = i + 1 := by
        simp only [w64]
        exact Nat.mod_eq_of_lt (by omega)
      obtain ⟨s9, d1, d2, d3, d4⟩ := ih (i + 1) (w64 (va + nbpd (level - 1)))
        { s2 with nkptp := upd s2.nkptp (level - 1) (s2.nkptp (level - 1) + 1) }
        (by omega) (by omega) (e3 _ rfl) (by show end_ + 1 - (i + 1) ≤ s2.free_pages.length; omega)
        (by omega)
      refine ⟨s9, ?_, d2, ?_, ?_⟩
      · simp only [pmap_alloc_level_loop, if_pos hle, e1, e2, hw]
        exact d1
      · have : s9.free_pages.length + (end_ + 1 - (i + 1)) = s2.free_pages.length := d3
        omega
      · intro k
        rw [d4 k]
        show upd s2.nkptp (level - 1) (s2.nkptp (level - 1) + 1) k + _ = _
        rw [e5]
        by_cases hk : k = level - 1
        · simp only [upd, hk, if_true]
          omega
        · simp only [upd, hk, if_false]
    · have hi : i = end_ + 1 := by omega
      subst hi
      refine ⟨s, ?_, hQ, by omega, ?_⟩
      · simp only [pmap_alloc_level_loop, if_neg hle]
      · intro k
        simp

/-- The loop of `pmap_alloc_level` at the top level. -/
theorem loop_top (c : config) (g : grow_globals) (s0 : kstate) (W E4 E3 : Nat → Prop)
    (end_ i0 : Nat) (hn : c.pg_nx = 0 ∨ c.pg_nx = PG_NX) (hg : g.page_init_done = true)
    (hend : end_ < 512)
    (hE3 : s0.cr3 = (s0.pm 0).pm_pdir → ∀ e, E3 e → e / 512 % 512 < i0)
    (n va : Nat) (s : kstate) (h0 : i0 ≤ end_ + 1) (h : grow_inv s0 s W E4 E3)
    (hfree : end_ + 1 - i0 ≤ s.free_pages.length) (hfuel : end_ + 1 - i0 < n) :
    ∃ s1, pmap_alloc_level_loop c 4 end_ n i0 va g s = some (g, s1) ∧
      grow_inv s0 s1 (fun j => W j ∨ (i0 ≤ j ∧ j ≤ end_))
        (fun j => E4 j ∨ ((i0 ≤ j ∧ j ≤ end_) ∧ s0.cr3 = (s0.pm 0).pm_pdir)) E3 ∧
      s1.free_pages.length + (end_ + 1 - i0) = s.free_pages.length ∧
      ∀ k, s1.nkptp k = s.nkptp k + (if k = 3 then end_ + 1 - i0 else 0) := by
  have key := alloc_loop_gen c g 4 end_ i0
    (fun i s => grow_inv s0 s (fun j => W j ∨ (i0 ≤ j ∧ j < i))
      (fun j => E4 j ∨ ((i0 ≤ j ∧ j < i) ∧ s0.cr3 = (s0.pm 0).pm_pdir)) E3)
    (by omega) (by
      intro i va s hi0 hie hQ hlen
      obtain ⟨f, rest, hf⟩ : ∃ f rest, s.free_pages = f :: rest := by
        cases hfp : s.free_pages with
        | nil => rw [hfp] at hlen; simp at hlen
        | cons f rest => exact ⟨f, rest, rfl⟩
      obtain ⟨s1, a1, a2, a3, a4, a5, a6, a7⟩ := get_physpage_spec g s va (4 - 1) f rest hg hf
      refine ⟨f, s1, _, a1, pdep_write4 s1 _ _ (by omega), ?_, ?_, a6⟩
      · intro nk _
        have hst := step_top s0 s
          { set_mem s1 (s1.pm 0).pm_pdir i (f ||| PG_RW ||| PG_V ||| c.pg_nx) with
            nkptp := upd nk (4 - 1) (nk (4 - 1) + 1) } _ _ _ f i c.pg_nx rest hQ hf
          (by
            show mem_set s1.mem _ _ _ = _
            rw [a3, a7 0, hQ.pdir 0])
          a2 a4 a5 a7 hn (fun hk e he => by have := hE3 hk e he; omega)
        refine grow_inv_congr _ _ _ _ _ _ _ _ hst ?_ ?_ ?_
        · intro j
          constructor
          · rintro ((h1 | h1) | h1)
            · exact Or.inl h1
            · exact Or.inr ⟨h1.1, by omega⟩
            · exact Or.inr ⟨by omega, by omega⟩
          · rintro (h1 | h1)
            · exact Or.inl (Or.inl h1)
            · by_cases hj : j = i
              · exact Or.inr hj
              · exact Or.inl (Or.inr ⟨h1.1, by omega⟩)
        · intro j
          constructor
          · rintro ((h1 | h1) | h1)
            · exact Or.inl h1
            · exact Or.inr ⟨⟨h1.1.1, by omega⟩, h1.2⟩
            · exact Or.inr ⟨⟨by omega, by omega⟩, h1.2⟩
          · rintro (h1 | h1)
            · exact Or.inl (Or.inl h1)
            · by_cases hj : j = i
              · exact Or.inr ⟨hj, h1.2⟩
              · exact Or.inl (Or.inr ⟨⟨h1.1.1, by omega⟩, h1.2⟩)
        · intro j
          exact Iff.rfl
      · show s1.free_pages.length + 1 = _
        rw [a2, hf]
        rfl)
    n i0 va s (le_refl _) h0
    (grow_inv_congr _ _ _ _ _ _ _ _ h (fun j => ⟨Or.inl, fun k => k.elim id (fun k => by omega)⟩)
      (fun j => ⟨Or.inl, fun k => k.elim id (fun k => by omega)⟩) (fun j => Iff.rfl))
    hfree hfuel
  obtain ⟨s1, b1, b2, b3, b4⟩ := key
  refine ⟨s1, b1, ?_, b3, b4⟩
  exact grow_inv_congr _ _ _ _ _ _ _ _ b2
    (fun j => ⟨fun k => k.elim Or.inl (fun k => Or.inr ⟨k.1, by omega⟩),
      fun k => k.elim Or.inl (fun k => Or.inr ⟨k.1, by omega⟩)⟩)
    (fun j => ⟨fun k => k.elim Or.inl (fun k => Or.inr ⟨⟨k.1.1, by omega⟩, k.2⟩),
      fun k => k.elim Or.inl (fun k => Or.inr ⟨⟨k.1.1, by omega⟩, k.2⟩)⟩)
    (fun j => Iff.rfl)

/-- The loop of `pmap_alloc_level` at level 3. -/
theorem loop_mid (c : config) (g : grow_globals) (s0 : kstate) (W E4 E3 : Nat → Prop)
    (end_ i0 : Nat) (hn : c.pg_nx = 0 ∨ c.pg_nx = PG_NX) (hg : g.page_init_done = true)
    (hend : end_ < 2 ^ 18)
    (hE4 : ∀ e, i0 ≤ e → e ≤ end_ → E4 (e / 512 % 512))
    (n va : Nat) (s : kstate) (h0 : i0 ≤ end_ + 1) (h : grow_inv s0 s W E4 E3)
    (hfree : end_ + 1 - i0 ≤ s.free_pages.length) (hfuel : end_ + 1 - i0 < n) :
    ∃ s1, pmap_alloc_level_loop c 3 end_ n i0 va g s = some (g, s1) ∧
      grow_inv s0 s1 W E4 (fun e => E3 e ∨ (i0 ≤ e ∧ e ≤ end_)) ∧
      s1.free_pages.length + (end_ + 1 - i0) = s.free_pages.length ∧
      ∀ k, s1.nkptp k = s.nkptp k + (if k = 2 then end_ + 1 - i0 else 0) := by
  have key := alloc_loop_gen c g 3 end_ i0
    (fun i s => grow_inv s0 s W E4 (fun e => E3 e ∨ (i0 ≤ e ∧ e < i)))
    (by norm_num at hend ⊢; omega) (by
      intro i va s hi0 hie hQ hlen
      obtain ⟨f, rest, hf⟩ : ∃ f rest, s.free_pages = f :: rest := by
        cases hfp : s.free_pages with
        | nil => rw [hfp] at hlen; simp at hlen
        | cons f rest => exact ⟨f, rest, rfl⟩
      have hfin : f ∈ s.free_pages := hf ▸ List.mem_cons_self f rest
      obtain ⟨s1, a1, a2, a3, a4, a5, a6, a7⟩ := get_physpage_spec g s va (3 - 1) f rest hg hf
      obtain ⟨p1, p2, p3⟩ := hQ.p4 _ (hE4 i hi0 hie)
      have hcr : s1.cr3 = s0.cr3 := a4.trans hQ.cr3
      have hcell : s1.mem s0.cr3 (i / 512 % 512) = s.mem s0.cr3 (i / 512 % 512) := by
        rw [a3]
        simp only [mem_zero]
        rw [if_neg (fun e : s0.cr3 = f => hQ.free_root f hfin (e ▸ groots_cr3 s0))]
      refine ⟨f, s1, _, a1, pdep_write3 s1 _ _ (by omega) (by rw [hcr, hcell]; exact p1), ?_, ?_, a6⟩
      · intro nk _
        have hst := step_low s0 s
          { set_mem s1 (s1.mem s1.cr3 (i / 512 % 512) &&& PG_FRAME) (i % 512)
              (f ||| PG_RW ||| PG_V ||| c.pg_nx) with
            nkptp := upd nk (3 - 1) (nk (3 - 1) + 1) } W E4 _
          (fun e => (E3 e ∨ (i0 ≤ e ∧ e < i)) ∨ e = i) f
          (s.mem s0.cr3 (i / 512 % 512) &&& PG_FRAME) (i % 512) c.pg_nx rest hQ hf
          (by
            show mem_set s1.mem _ _ _ = _
            rw [a3, hcr, ← a3, hcell])
          a2 a4 a5 a7 hn p2 (by
            intro e he
            rcases he with he | he
            · exact ⟨hQ.e34 e he, Or.inl he⟩
            · subst he
              exact ⟨hE4 e hi0 hie, Or.inr ⟨rfl, rfl⟩⟩)
        refine grow_inv_congr _ _ _ _ _ _ _ _ hst (fun j => Iff.rfl) (fun j => Iff.rfl) ?_
        intro j
        constructor
        · rintro ((h1 | h1) | h1)
          · exact Or.inl h1
          · exact Or.inr ⟨h1.1, by omega⟩
          · exact Or.inr ⟨by omega, by omega⟩
        · rintro (h1 | h1)
          · exact Or.inl (Or.inl h1)
          · by_cases hj : j = i
            · exact Or.inr hj
            · exact Or.inl (Or.inr ⟨h1.1, by omega⟩)
      · show s1.free_pages.length + 1 = _
        rw [a2, hf]
        rfl)
    n i0 va s (le_refl _) h0
    (grow_inv_congr _ _ _ _ _ _ _ _ h (fun j => Iff.rfl) (fun j => Iff.rfl)
      (fun j => ⟨Or.inl, fun k => k.elim id (fun k => by omega)⟩))
    hfree hfuel
  obtain ⟨s1, b1, b2, b3, b4⟩ := key
  refine ⟨s1, b1, ?_, b3, b4⟩
  exact grow_inv_congr _ _ _ _ _ _ _ _ b2 (fun j => Iff.rfl) (fun j => Iff.rfl)
    (fun j => ⟨fun k => k.elim Or.inl (fun k => Or.inr ⟨k.1, by omega⟩),
      fun k => k.elim Or.inl (fun k => Or.inr ⟨k.1, by omega⟩)⟩)

/-- The loop of `pmap_alloc_level` at level 2. -/
theorem loop_low (c : config) (g : grow_globals) (s0 : kstate) (W E4 E3 : Nat → Prop)
    (end_ i0 : Nat) (hn : c.pg_nx = 0 ∨ c.pg_nx = PG_NX) (hg : g.page_init_done = true)
    (hend : end_ < 2 ^ 27)
    (hE3 : ∀ i, i0 ≤ i → i ≤ end_ → E3 (i / 512))
    (n va : Nat) (s : kstate) (h0 : i0 ≤ end_ + 1) (h : grow_inv s0 s W E4 E3)
    (hfree : end_ + 1 - i0 ≤ s.free_pages.length) (hfuel : end_ + 1 - i0 < n) :
    ∃ s1, pmap_alloc_level_loop c 2 end_ n i0 va g s = some (g, s1) ∧
      grow_inv s0 s1 W E4 E3 ∧
      s1.free_pages.length + (end_ + 1 - i0) = s.free_pages.length ∧
      ∀ k, s1.nkptp k = s.nkptp k + (if k = 1 then end_ + 1 - i0 else 0) := by
  exact alloc_loop_gen c g 2 end_ i0 (fun _ s => grow_inv s0 s W E4 E3)
    (by norm_num at hend ⊢; omega) (by
      intro i va s hi0 hie hQ hlen
      obtain ⟨f, rest, hf⟩ : ∃ f rest, s.free_pages = f :: rest := by
        cases hfp : s.free_pages with
        | nil => rw [hfp] at hlen; simp at hlen
        | cons f rest => exact ⟨f, rest, rfl⟩
      have hfin : f ∈ s.free_pages := hf ▸ List.mem_cons_self f rest
      obtain ⟨s1, a1, a2, a3, a4, a5, a6, a7⟩ := get_physpage_spec g s va (2 - 1) f rest hg hf
      have he3 := hE3 i hi0 hie
      obtain ⟨p1, p2, p3⟩ := hQ.p4 _ (hQ.e34 _ he3)
      obtain ⟨q1, q2, q3⟩ := hQ.p3 _ he3
      have hcr : s1.cr3 = s0.cr3 := a4.trans hQ.cr3
      have hcell : s1.mem s0.cr3 (i / 512 / 512 % 512) = s.mem s0.cr3 (i / 512 / 512 % 512) := by
        rw [a3]
        simp only [mem_zero]
        rw [if_neg (fun e : s0.cr3 = f => hQ.free_root f hfin (e ▸ groots_cr3 s0))]
      have hcell3 : s1.mem (s.mem s0.cr3 (i / 512 / 512 % 512) &&& PG_FRAME) (i / 512 % 512) =
          s.mem (s.mem s0.cr3 (i / 512 / 512 % 512) &&& PG_FRAME) (i / 512 % 512) := by
        rw [a3]
        simp only [mem_zero]
        rw [if_neg (fun e => p3 (by rw [e]; exact hfin))]
      refine ⟨f, s1, _, a1, pdep_write2 s1 _ _ (by omega) (by rw [hcr, hcell]; exact p1)
        (by rw [hcr, hcell, hcell3]; exact q1), ?_, ?_, a6⟩
      · intro nk _
        exact step_low s0 s
          { set_mem s1
              (s1.mem (s1.mem s1.cr3 (i / 512 / 512 % 512) &&& PG_FRAME) (i / 512 % 512) &&&
                PG_FRAME) (i % 512) (f ||| PG_RW ||| PG_V ||| c.pg_nx) with
            nkptp := upd nk (2 - 1) (nk (2 - 1) + 1) } W E4 E3 E3 f
          (s.mem (s.mem s0.cr3 (i / 512 / 512 % 512) &&& PG_FRAME) (i / 512 % 512) &&& PG_FRAME)
          (i % 512) c.pg_nx rest hQ hf
          (by
            show mem_set s1.mem _ _ _ = _
            rw [hcr, hcell, hcell3, a3])
          a2 a4 a5 a7 hn q2 (fun e he => ⟨hQ.e34 e he, Or.inl he⟩)
      · show s1.free_pages.length + 1 = _
        rw [a2, hf]
        rfl)
    n i0 va s (le_refl _) h0 h hfree hfuel

/-! ## The copy of the new top-level slots -/

theorem memcpy_pdes_spec (s : kstate) (dst src start : Nat) (n : Nat) :
    (memcpy_pdes s dst src start n).pm = s.pm ∧ (memcpy_pdes s dst src start n).pmaps = s.pmaps ∧
      (memcpy_pdes s dst src start n).nkptp = s.nkptp ∧
      ∀ r j, (memcpy_pdes s dst src start n).mem r j =
        if r = dst ∧ start ≤ j ∧ j < start + n then s.mem src j else s.mem r j := by
  induction n with
  | zero =>
    refine ⟨rfl, rfl, rfl, fun r j => ?_⟩
    rw [if_neg (by omega)]
    rfl
  | succ n ih =>
    obtain ⟨a1, a2, a3, a4⟩ := ih
    have e : memcpy_pdes s dst src start (n + 1) =
        set_mem (memcpy_pdes s dst src start n) dst (start + n)
          ((memcpy_pdes s dst src start n).mem src (start + n)) := by
      simp only [memcpy_pdes, List.range_succ, List.foldl_append, List.foldl_cons, List.foldl_nil]
    rw [e]
    refine ⟨a1, a2, a3, fun r j => ?_⟩
    show mem_set _ _ _ _ r j = _
    simp only [mem_set]
    by_cases h1 : r = dst ∧ j = start + n
    · rw [if_pos h1, if_pos ⟨h1.1, by omega, by omega⟩, a4, h1.2, if_neg (by omega)]
    · rw [if_neg h1, a4]
      by_cases h2 : r = dst ∧ start ≤ j ∧ j < start + n
      · rw [if_pos h2, if_pos ⟨h2.1, h2.2.1, by omega⟩]
      · rw [if_neg h2, if_neg (fun k => by
          apply h2
          refine ⟨k.1, k.2.1, ?_⟩
          have : j ≠ start + n := fun e => h1 ⟨k.1, e⟩
          omega)]

theorem memcpy_all_spec (start n : Nat) (l : List Nat) :
    ∀ s : kstate,
      (l.foldl (fun s pm => memcpy_pdes s (s.pm pm).pm_pdir (s.pm 0).pm_pdir start n) s).pm =
        s.pm ∧
      (l.foldl (fun s pm => memcpy_pdes s (s.pm pm).pm_pdir (s.pm 0).pm_pdir start n) s).pmaps =
        s.pmaps ∧
      (l.foldl (fun s pm => memcpy_pdes s (s.pm pm).pm_pdir (s.pm 0).pm_pdir start n) s).nkptp =
        s.nkptp ∧
      ∀ r j,
        (l.foldl (fun s pm => memcpy_pdes s (s.pm pm).pm_pdir (s.pm 0).pm_pdir start n) s).mem r j =
          if (∃ p ∈ l, r = (s.pm p).pm_pdir) ∧ start ≤ j ∧ j < start + n then
            s.mem (s.pm 0).pm_pdir j
          else s.mem r j := by
  induction l with
  | nil =>
    intro s
    refine ⟨rfl, rfl, rfl, fun r j => ?_⟩
    rw [if_neg (by simp)]
    rfl
  | cons p l ih =>
    intro s
    obtain ⟨a1, a2, a3, a4⟩ := memcpy_pdes_spec s (s.pm p).pm_pdir (s.pm 0).pm_pdir start n
    obtain ⟨b1, b2, b3, b4⟩ := ih (memcpy_pdes s (s.pm p).pm_pdir (s.pm 0).pm_pdir start n)
    simp only [List.foldl_cons]
    refine ⟨b1.trans a1, b2.trans a2, b3.trans a3, fun r j => ?_⟩
    rw [b4, a1]
    by_cases hin : start ≤ j ∧ j < start + n
    · have hk : (memcpy_pdes s (s.pm p).pm_pdir (s.pm 0).pm_pdir start n).mem (s.pm 0).pm_pdir j =
          s.mem (s.pm 0).pm_pdir j := by
        rw [a4]
        split <;> rfl
      by_cases h1 : ∃ q ∈ l, r = (s.pm q).pm_pdir
      · obtain ⟨q, hq, hr⟩ := h1
        rw [if_pos ⟨⟨q, hq, hr⟩, hin⟩, if_pos ⟨⟨q, List.mem_cons_of_mem p hq, hr⟩, hin⟩, hk]
      · rw [if_neg (fun k => h1 k.1), a4]
        by_cases h2 : r = (s.pm p).pm_pdir
        · rw [if_pos ⟨h2, hin⟩, if_pos ⟨⟨p, List.mem_cons_self p l, h2⟩, hin⟩]
        · rw [if_neg (fun k => h2 k.1), if_neg]
          rintro ⟨⟨q, hq, hr⟩, _⟩
          rcases List.mem_cons.mp hq with e | e
          · exact h2 (e ▸ hr)
          · exact h1 ⟨q, e, hr⟩
    · rw [if_neg (fun k => hin k.2), if_neg (fun k => hin k.2), a4, if_neg (fun k => hin k.2)]

/-! ## Addresses of the kernel half -/

theorem kern_idx (va : Nat) (h : 0xffff800000000000 ≤ va) (h2 : va < 2 ^ 64) :
    256 ≤ pl_i va 4 ∧ pl_i va 4 < 512 ∧ pl_i va 3 / 512 = pl_i va 4 ∧
      pl_i va 2 / 512 = pl_i va 3 ∧ pl_i va 3 < 2 ^ 18 ∧ pl_i va 2 < 2 ^ 27 := by
  rw [pl_i_4, pl_i_3, pl_i_2]
  simp only [pfx]
  norm_num at h2 ⊢
  omega

theorem kern_idx_mono (va vb : Nat) (h : 0xffff800000000000 ≤ va) (hab : va ≤ vb)
    (h2 : vb < 2 ^ 64) :
    pl_i va 4 ≤ pl_i vb 4 ∧ pl_i va 3 ≤ pl_i vb 3 ∧ pl_i va 2 ≤ pl_i vb 2 := by
  rw [pl_i_4, pl_i_3, pl_i_2, pl_i_4, pl_i_3, pl_i_2]
  simp only [pfx]
  norm_num at h2 ⊢
  omega

theorem kern_idx_min :
    pl_i VM_MIN_KERNEL_ADDRESS 4 = 256 ∧ pl_i VM_MIN_KERNEL_ADDRESS 3 = 131072 ∧
      pl_i VM_MIN_KERNEL_ADDRESS 2 = 67108864 := by decide

theorem round_pdr_up (x : Nat) (h : x + 0x1fffff < 2 ^ 64) :
    x ≤ x86_round_pdr x ∧ x86_round_pdr x < 2 ^ 64 := by
  have e : (0xffffffffffe00000 : Nat) = 2 ^ 64 - 2 ^ 21 := by norm_num
  rw [x86_round_pdr, e, and_mask _ 21 64 (by omega), w64, NBPD_L2]
  norm_num at h ⊢
  omega

theorem alloc_level_4 (c : config) (kva : Nat) (needed : Nat → Int) (g : grow_globals)
    (s : kstate) :
    pmap_alloc_level c kva needed 4 g s =
      (pmap_alloc_level_at c kva 4 needed g s).bind fun r1 =>
        (pmap_alloc_level_at c kva 3 needed r1.1 r1.2).bind fun r2 =>
          pmap_alloc_level_at c kva 2 needed r2.1 r2.2 := by
  show pmap_alloc_level c kva needed (2 + 2) g s = _
  simp only [pmap_alloc_level]
  cases pmap_alloc_level_at c kva 4 needed g s with
  | none => rfl
  | some r1 =>
    obtain ⟨g1, s1⟩ := r1
    simp only [Option.bind]
    cases pmap_alloc_level_at c kva 3 needed g1 s1 with
    | none => rfl
    | some r2 =>
      obtain ⟨g2, s2⟩ := r2
      simp only []
      cases pmap_alloc_level_at c kva 2 needed g2 s2 with
      | none => rfl
      | some r3 => rfl

/-- The three loops of `pmap_alloc_level`, one after the other. -/
theorem alloc_level_core (c : config) (g : grow_globals) (s0 : kstate) (needed : Nat → Int)
    (kva : Nat) (hn : c.pg_nx = 0 ∨ c.pg_nx = PG_NX) (hg : g.page_init_done = true)
    (a4 t4 a3 t3 a2 t2 : Nat) (E4 E3 : Nat → Prop)
    (h : grow_inv s0 s0 (fun _ => False) E4 E3)
    (ht4 : t4 < 512) (ht3 : t3 < 2 ^ 18) (ht2 : t2 < 2 ^ 27)
    (h4 : a4 ≤ t4 + 1) (h3 : a3 ≤ t3 + 1) (h2 : a2 ≤ t2 + 1)
    (hat4 : ∀ s : kstate, s.nkptp 3 = s0.nkptp 3 →
      pmap_alloc_level_at c kva 4 needed g s =
        pmap_alloc_level_loop c 4 t4 (2 ^ 64 + 1) a4 kva g s)
    (hat3 : ∀ s : kstate, s.nkptp 2 = s0.nkptp 2 →
      pmap_alloc_level_at c kva 3 needed g s =
        pmap_alloc_level_loop c 3 t3 (2 ^ 64 + 1) a3 kva g s)
    (hat2 : ∀ s : kstate, s.nkptp 1 = s0.nkptp 1 →
      pmap_alloc_level_at c kva 2 needed g s =
        pmap_alloc_level_loop c 2 t2 (2 ^ 64 + 1) a2 kva g s)
    (hE3 : s0.cr3 = (s0.pm 0).pm_pdir → ∀ e, E3 e → e / 512 % 512 < a4)
    (hw3 : ∀ e, a3 ≤ e → e ≤ t3 → E4 (e / 512 % 512) ∨
      ((a4 ≤ e / 512 % 512 ∧ e / 512 % 512 ≤ t4) ∧ s0.cr3 = (s0.pm 0).pm_pdir))
    (hw2 : ∀ i, a2 ≤ i → i ≤ t2 → E3 (i / 512) ∨ (a3 ≤ i / 512 ∧ i / 512 ≤ t3))
    (hfree : (t4 + 1 - a4) + (t3 + 1 - a3) + (t2 + 1 - a2) ≤ s0.free_pages.length) :
    ∃ s1, pmap_alloc_level c kva needed 4 g s0 = some (g, s1) ∧
      s1.pmaps = s0.pmaps ∧ (∀ p, (s1.pm p).pm_pdir = (s0.pm p).pm_pdir) ∧
      (∀ r j, groots s0 r → ¬ (r = (s0.pm 0).pm_pdir ∧ a4 ≤ j ∧ j ≤ t4) →
        s1.mem r j = s0.mem r j) ∧
      ∀ k, s1.nkptp k = s0.nkptp k + (if k = 3 then t4 + 1 - a4 else 0) +
        (if k = 2 then t3 + 1 - a3 else 0) + (if k = 1 then t2 + 1 - a2 else 0) := by
  obtain ⟨s1, b1, b2, b3, b4⟩ := loop_top c g s0 _ E4 E3 t4 a4 hn hg ht4 hE3 (2 ^ 64 + 1) kva s0 h4 h
    (by omega) (by omega)
  obtain ⟨s2, d1, d2, d3, d4⟩ := loop_mid c g s0 _ _ E3 t3 a3 hn hg ht3
    (fun e he1 he2 => hw3 e he1 he2) (2 ^ 64 + 1) kva s1 h3 b2 (by omega)
    (by norm_num at ht3 ⊢; omega)
  obtain ⟨s3, e1, e2, e3, e4⟩ := loop_low c g s0 _ _ _ t2 a2 hn hg ht2
    (fun i hi1 hi2 => (hw2 i hi1 hi2).imp id id) (2 ^ 64 + 1) kva s2 h2 d2 (by omega)
    (by norm_num at ht2 ⊢; omega)
  refine ⟨s3, ?_, e2.pmaps, e2.pdir, ?_, ?_⟩
  · rw [alloc_level_4, hat4 s0 rfl, b1]
    simp only [Option.bind]
    rw [hat3 s1 (by rw [b4]; simp), d1]
    simp only []
    rw [hat2 s2 (by rw [d4, b4]; simp), e1]
  · intro r j hr hw
    exact e2.roots r j hr (fun k => hw ⟨k.1, k.2.elim (fun f => f.elim) id⟩)
  · intro k
    rw [e4, d4, b4]

/-! ## The invariant of the loops at the call -/

theorem groots_root (c : config) (s : kstate) (hI : SInv c s) (r : Nat) (h : groots s r) :
    ∃ p, live s p ∧ r = root s p := by
  rcases h with h | h | ⟨p, hp, h⟩
  · exact ⟨0, Or.inl rfl, by rw [h, root, hI.pdir 0 (Or.inl rfl)]⟩
  · obtain ⟨p, hp, e⟩ := hI.cr3_live
    exact ⟨p, hp, h.trans e⟩
  · exact ⟨p, Or.inr hp, by rw [h, root, hI.pdir p (Or.inr hp)]⟩

theorem free_not_root (c : config) (s : kstate) (hI : SInv c s) (f : Nat)
    (hf : f ∈ s.free_pages) : ¬ groots s f := by
  intro h
  obtain ⟨p, hp, e⟩ := groots_root c s hI f h
  obtain ⟨va, hd⟩ := live_dom s p hp
  exact hI.free_sep f hf p va 4 hd (by omega) (by omega) (by rw [ptab_4, e])

theorem table_not_root (c : config) (s : kstate) (hI : SInv c s) (va L t : Nat)
    (hd : dom s 0 va) (h1 : 1 ≤ L) (h3 : L ≤ 3) (ht : ptab s.mem (root s 0) va L = some t) :
    ¬ groots s t := by
  intro h
  obtain ⟨p, hp, e⟩ := groots_root c s hI t h
  obtain ⟨va1, hd1⟩ := live_dom s p hp
  have := (hI.sep 0 va L p va1 4 t hd hd1 h1 (by omega) (by omega) (by omega) ht
    (by rw [ptab_4, e])).1
  omega

theorem grow_init_first (c : config) (s : kstate) (hI : SInv c s) :
    grow_inv s s (fun _ => False) (fun _ => False) (fun _ => False) :=
  ⟨rfl, rfl, fun _ => rfl, hI.free_nodup, hI.free_frame, free_not_root c s hI,
    fun _ _ _ _ => rfl, fun _ h => h, fun _ h => h.elim, fun _ h => h.elim⟩

theorem cr3_kern_slot (c : config) (s : kstate) (hI : SInv c s) (j : Nat) (h1 : 256 ≤ j)
    (h2 : j < 512) : s.mem s.cr3 j = s.mem (root s 0) j := by
  obtain ⟨p, hp, e⟩ := hI.cr3_live
  rw [e]
  rcases hp with hp | hp
  · rw [hp]
  · exact hI.kshare p hp j h1 h2

theorem grow_init_grown (c : config) (s : kstate) (hI : SInv c s) (kva : Nat)
    (hk1 : 0xffff800000000000 ≤ kva) (hk2 : kva < 2 ^ 64)
    (ht : (ptab s.mem (root s 0) kva 2).isSome = true) :
    grow_inv s s (fun _ => False) (fun j => j = pl_i kva 4) (fun e => e = pl_i kva 3) := by
  obtain ⟨t2, ht2⟩ := Option.isSome_iff_exists.mp ht
  obtain ⟨t3, ht3, v3, f3⟩ := ptab_parent _ _ _ 2 t2 (by omega) (by omega) ht2
  obtain ⟨t4, ht4, v4, f4⟩ := ptab_parent _ _ _ 3 t3 (by omega) (by omega) ht3
  rw [ptab_4] at ht4
  have ht4' : t4 = root s 0 := (Option.some.inj ht4).symm
  subst ht4'
  have hd : dom s 0 kva := Or.inr ⟨rfl, hk1, hk2⟩
  obtain ⟨i1, i2, i3, i4, i5, i6⟩ := kern_idx kva hk1 hk2
  have hs4 : slot kva (3 + 1) = pl_i kva 4 := by
    rw [pl_i_4]
    exact slot4 kva
  have hs3 : slot kva (2 + 1) = pl_i kva 3 % 512 := by
    rw [pl_i_3]
    rfl
  rw [hs4] at v4 f4
  rw [hs3] at v3 f3
  have hc : s.mem s.cr3 (pl_i kva 4) = s.mem (root s 0) (pl_i kva 4) :=
    cr3_kern_slot c s hI _ i1 i2
  have e4 : pl_i kva 3 / 512 % 512 = pl_i kva 4 := by omega
  refine ⟨rfl, rfl, fun _ => rfl, hI.free_nodup, hI.free_frame, free_not_root c s hI,
    fun _ _ _ _ => rfl, ?_, ?_, ?_⟩
  · intro e he
    rw [he]
    exact e4
  · intro j hj
    rw [hj, hc, f4]
    exact ⟨psv_valid _ v4, table_not_root c s hI kva 3 t3 hd (by omega) (by omega) ht3,
      fun hx => hI.free_sep t3 hx 0 kva 3 hd (by omega) (by omega) ht3⟩
  · intro e he
    rw [he, e4, hc, f4, f3]
    exact ⟨psv_valid _ v3, table_not_root c s hI kva 2 t2 hd (by omega) (by omega) ht2,
      fun hx => hI.free_sep t2 hx 0 kva 2 hd (by omega) (by omega) ht2⟩

/-! ## `pmap_alloc_level` as `pmap_growkernel` calls it -/

theorem at_first (c : config) (kva L : Nat) (needed : Nat → Int) (g : grow_globals)
    (s : kstate) (tgt : Nat) (h0 : s.nkptp (L - 1) = 0)
    (he : u64 (↑(u64 (↑(pl_i kva L) + needed (L - 1))) - 1) = tgt) :
    pmap_alloc_level_at c kva L needed g s =
      pmap_alloc_level_loop c L tgt (2 ^ 64 + 1) (pl_i kva L) kva g s := by
  simp only [pmap_alloc_level_at, h0, ne_eq, not_true_eq_false, if_false, he]

theorem at_grown (c : config) (kva L : Nat) (needed : Nat → Int) (g : grow_globals)
    (s : kstate) (tgt : Nat) (h0 : s.nkptp (L - 1) ≠ 0) (hw : pl_i kva L + 1 < 2 ^ 64)
    (he : u64 (↑(pl_i kva L) + needed (L - 1)) = tgt) :
    pmap_alloc_level_at c kva L needed g s =
      pmap_alloc_level_loop c L tgt (2 ^ 64 + 1) (pl_i kva L + 1) kva g s := by
  have e : w64 (pl_i kva L + 1) = pl_i kva L + 1 := Nat.mod_eq_of_lt hw
  simp only [pmap_alloc_level_at, h0, ne_eq, not_false_eq_true, if_true, he, e]

/-- The first call: nothing was allocated, the loaded root is the kernel's. -/
theorem alloc_first (c : config) (g : grow_globals) (s : kstate) (m : Nat) (hI : SInv c s)
    (hg : g.page_init_done = true) (h1 : s.nkptp 1 = 0) (h2 : s.nkptp 2 = 0)
    (h3 : s.nkptp 3 = 0) (hm1 : VM_MIN_KERNEL_ADDRESS ≤ m) (hm2 : m < 2 ^ 64)
    (hcr3 : s.cr3 = root s 0) (hfree : grow_pages s m ≤ s.free_pages.length) :
    ∃ s1, pmap_alloc_level c VM_MIN_KERNEL_ADDRESS
        (fun i => target_nptp m i - (s.nkptp i : Int) + 1) 4 g s = some (g, s1) ∧
      s1.pmaps = s.pmaps ∧ (∀ p, (s1.pm p).pm_pdir = (s.pm p).pm_pdir) ∧
      (∀ r j, groots s r → ¬ (r = (s.pm 0).pm_pdir ∧ 256 + s.nkptp 3 ≤ j ∧ j ≤ pl_i m 4) →
        s1.mem r j = s.mem r j) ∧
      ∀ i, 1 ≤ i → i ≤ 3 → s1.nkptp i + pl_i VM_MIN_KERNEL_ADDRESS (i + 1) = pl_i m (i + 1) + 1 := by
  have hmin : (0xffff800000000000 : Nat) = VM_MIN_KERNEL_ADDRESS := rfl
  obtain ⟨i1, i2, i3, i4, i5, i6⟩ := kern_idx m (hmin ▸ hm1) hm2
  obtain ⟨j1, j2, j3⟩ := kern_idx_mono VM_MIN_KERNEL_ADDRESS m (le_of_eq hmin) hm1 hm2
  obtain ⟨k1, k2, k3⟩ := kern_idx_min
  have hkr : s.cr3 = (s.pm 0).pm_pdir := by rw [hcr3, root, hI.pdir 0 (Or.inl rfl)]
  simp only [grow_pages, k1, k2, k3, h1, h2, h3] at hfree
  obtain ⟨s1, a1, a2, a3, a4, a5⟩ := alloc_level_core c g s
    (fun i => target_nptp m i - (s.nkptp i : Int) + 1) VM_MIN_KERNEL_ADDRESS hI.cfg.1 hg
    256 (pl_i m 4) 131072 (pl_i m 3) 67108864 (pl_i m 2) _ _ (grow_init_first c s hI)
    i2 i5 i6 (by omega) (by omega) (by omega)
    (by
      intro s' hs'
      rw [h3] at hs'
      have := at_first c VM_MIN_KERNEL_ADDRESS 4
        (fun i => target_nptp m i - (s.nkptp i : Int) + 1) g s' (pl_i m 4) hs' (by
          simp only [target_nptp, u64, k1, h3, Nat.reduceAdd, Nat.reduceSub]
          push_cast
          omega)
      rw [k1] at this
      exact this)
    (by
      intro s' hs'
      rw [h2] at hs'
      have := at_first c VM_MIN_KERNEL_ADDRESS 3
        (fun i => target_nptp m i - (s.nkptp i : Int) + 1) g s' (pl_i m 3) hs' (by
          simp only [target_nptp, u64, k2, h2, Nat.reduceAdd, Nat.reduceSub]
          push_cast
          omega)
      rw [k2] at this
      exact this)
    (by
      intro s' hs'
      rw [h1] at hs'
      have := at_first c VM_MIN_KERNEL_ADDRESS 2
        (fun i => target_nptp m i - (s.nkptp i : Int) + 1) g s' (pl_i m 2) hs' (by
          simp only [target_nptp, u64, k3, h1, Nat.reduceAdd, Nat.reduceSub]
          push_cast
          omega)
      rw [k3] at this
      exact this)
    (fun _ _ he => he.elim)
    (fun e he1 he2 => Or.inr ⟨by omega, hkr⟩)
    (fun i hi1 hi2 => Or.inr (by omega))
    (by omega)
  refine ⟨s1, a1, a2, a3, ?_, ?_⟩
  · intro r j hr hw
    exact a4 r j hr (fun k => hw ⟨k.1, by omega, k.2.2⟩)
  · intro i hi1 hi3
    have : i = 1 ∨ i = 2 ∨ i = 3 := by omega
    rcases this with e | e | e <;> subst e <;> rw [a5] <;> simp <;> omega

/-- A later call: the counters fit `kva`, the old maximum, and the kernel
tree has its tables on the path of `kva`. -/
theorem alloc_grown (c : config) (g : grow_globals) (s : kstate) (kva m : Nat) (hI : SInv c s)
    (hg : g.page_init_done = true) (hk1 : VM_MIN_KERNEL_ADDRESS ≤ kva) (hkm : kva ≤ m)
    (hm2 : m < 2 ^ 64)
    (hnk : ∀ i, 1 ≤ i → i ≤ 3 →
      s.nkptp i + pl_i VM_MIN_KERNEL_ADDRESS (i + 1) = pl_i kva (i + 1) + 1)
    (ht : (ptab s.mem (root s 0) kva 2).isSome = true)
    (hcr3 : s.cr3 = root s 0 ∨ pl_i m 4 = pl_i kva 4)
    (hfree : grow_pages s m ≤ s.free_pages.length) :
    ∃ s1, pmap_alloc_level c kva
        (fun i => target_nptp m i - (s.nkptp i : Int) + 1) 4 g s = some (g, s1) ∧
      s1.pmaps = s.pmaps ∧ (∀ p, (s1.pm p).pm_pdir = (s.pm p).pm_pdir) ∧
      (∀ r j, groots s r → ¬ (r = (s.pm 0).pm_pdir ∧ 256 + s.nkptp 3 ≤ j ∧ j ≤ pl_i m 4) →
        s1.mem r j = s.mem r j) ∧
      ∀ i, 1 ≤ i → i ≤ 3 → s1.nkptp i + pl_i VM_MIN_KERNEL_ADDRESS (i + 1) = pl_i m (i + 1) + 1 := by
  have hmin : (0xffff800000000000 : Nat) = VM_MIN_KERNEL_ADDRESS := rfl
  have hk2 : kva < 2 ^ 64 := by omega
  obtain ⟨i1, i2, i3, i4, i5, i6⟩ := kern_idx m (hmin ▸ (le_trans hk1 hkm)) hm2
  obtain ⟨c1, c2, c3, c4, c5, c6⟩ := kern_idx kva (hmin ▸ hk1) hk2
  obtain ⟨j1, j2, j3⟩ := kern_idx_mono kva m (hmin ▸ hk1) hkm hm2
  obtain ⟨b1, b2, b3⟩ := kern_idx_mono VM_MIN_KERNEL_ADDRESS kva (le_of_eq hmin) hk1 hk2
  obtain ⟨k1, k2, k3⟩ := kern_idx_min
  have n3 := hnk 3 (by omega) (by omega)
  have n2 := hnk 2 (by omega) (by omega)
  have n1 := hnk 1 (by omega) (by omega)
  simp only [Nat.reduceAdd] at n1 n2 n3
  rw [k1] at n3 b1
  rw [k2] at n2 b2
  rw [k3] at n1 b3
  have hkr : s.cr3 = root s 0 → s.cr3 = (s.pm 0).pm_pdir := by
    intro h
    rw [h, root, hI.pdir 0 (Or.inl rfl)]
  simp only [grow_pages, k1, k2, k3] at hfree
  obtain ⟨s1, a1, a2, a3, a4, a5⟩ := alloc_level_core c g s
    (fun i => target_nptp m i - (s.nkptp i : Int) + 1) kva hI.cfg.1 hg
    (pl_i kva 4 + 1) (pl_i m 4) (pl_i kva 3 + 1) (pl_i m 3) (pl_i kva 2 + 1) (pl_i m 2) _ _
    (grow_init_grown c s hI kva (hmin ▸ hk1) hk2 ht)
    i2 i5 i6 (by omega) (by omega) (by omega)
    (by
      intro s' hs'
      exact at_grown c kva 4 (fun i => target_nptp m i - (s.nkptp i : Int) + 1) g s' (pl_i m 4)
        (by simp only [Nat.reduceSub]; omega) (by omega) (by
          simp only [target_nptp, u64, k1, Nat.reduceAdd, Nat.reduceSub]
          push_cast
          omega))
    (by
      intro s' hs'
      exact at_grown c kva 3 (fun i => target_nptp m i - (s.nkptp i : Int) + 1) g s' (pl_i m 3)
        (by simp only [Nat.reduceSub]; omega) (by norm_num at c5 ⊢; omega) (by
          simp only [target_nptp, u64, k2, Nat.reduceAdd, Nat.reduceSub]
          push_cast
          omega))
    (by
      intro s' hs'
      exact at_grown c kva 2 (fun i => target_nptp m i - (s.nkptp i : Int) + 1) g s' (pl_i m 2)
        (by simp only [Nat.reduceSub]; omega) (by norm_num at c6 ⊢; omega) (by
          simp only [target_nptp, u64, k3, Nat.reduceAdd, Nat.reduceSub]
          push_cast
          omega))
    (fun _ e he => by rw [he]; omega)
    (fun e he1 he2 => by
      by_cases h : e / 512 % 512 = pl_i kva 4
      · exact Or.inl h
      · refine Or.inr ⟨by omega, ?_⟩
        rcases hcr3 with h1 | h1
        · exact hkr h1
        · omega)
    (fun i hi1 hi2 => by
      by_cases h : i / 512 = pl_i kva 3
      · exact Or.inl h
      · exact Or.inr (by omega))
    (by omega)
  refine ⟨s1, a1, a2, a3, ?_, ?_⟩
  · intro r j hr hw
    exact a4 r j hr (fun k => hw ⟨k.1, by omega, k.2.2⟩)
  · intro i hi1 hi3
    have : i = 1 ∨ i = 2 ∨ i = 3 := by omega
    rcases this with e | e | e <;> subst e <;> rw [a5] <;> simp <;> omega

/-- `pmap_alloc_level` as `pmap_growkernel` calls it, in a state whose
counters fit the old maximum. -/
theorem grow_alloc (c : config) (g : grow_globals) (s : kstate) (m : Nat) (hI : SInv c s)
    (hg : g.page_init_done = true) (hk : kva_ok g s) (hkm : g.pmap_maxkvaddr ≤ m)
    (hm2 : m < 2 ^ 64)
    (hcr3 : s.cr3 = root s 0 ∨ (s.nkptp 3 ≠ 0 ∧ pl_i m 4 = pl_i g.pmap_maxkvaddr 4))
    (hfree : grow_pages s m ≤ s.free_pages.length) :
    ∃ s1, pmap_alloc_level c g.pmap_maxkvaddr
        (fun i => target_nptp m i - (s.nkptp i : Int) + 1) 4 g s = some (g, s1) ∧
      s1.pmaps = s.pmaps ∧ (∀ p, (s1.pm p).pm_pdir = (s.pm p).pm_pdir) ∧
      (∀ r j, groots s r → ¬ (r = (s.pm 0).pm_pdir ∧ 256 + s.nkptp 3 ≤ j ∧ j ≤ pl_i m 4) →
        s1.mem r j = s.mem r j) ∧
      ∀ i, 1 ≤ i → i ≤ 3 → s1.nkptp i + pl_i VM_MIN_KERNEL_ADDRESS (i + 1) = pl_i m (i + 1) + 1 := by
  rcases hk with ⟨e, h1, h2, h3⟩ | ⟨hk1, _, hnk, ht⟩
  · rw [e] at hkm ⊢
    refine alloc_first c g s m hI hg h1 h2 h3 hkm hm2 ?_ hfree
    rcases hcr3 with h | h
    · exact h
    · exact absurd h3 h.1
  · exact alloc_grown c g s g.pmap_maxkvaddr m hI hg hk1 hkm hm2 hnk ht
      (hcr3.imp id (fun h => h.2)) hfree

/-- After the copy, the kernel slots of every root of the list are those of
the root of the kernel pmap. -/
theorem grow_roots (c : config) (s s1 s2 : kstate) (hI : SInv c s) (n : Nat)
    (hn : s1.nkptp 3 = s.nkptp 3 + n) (h512 : 256 + s.nkptp 3 + n ≤ 512)
    (hpm : s1.pmaps = s.pmaps) (hpd : ∀ p, (s1.pm p).pm_pdir = (s.pm p).pm_pdir)
    (hroots : ∀ r j, groots s r →
      ¬ (r = (s.pm 0).pm_pdir ∧ 256 + s.nkptp 3 ≤ j ∧ j < 256 + s.nkptp 3 + n) →
      s1.mem r j = s.mem r j)
    (h2pm : s2.pm = s1.pm) (h2l : s2.pmaps = s1.pmaps) (h2n : s2.nkptp = s1.nkptp)
    (h2 : ∀ r j, s2.mem r j =
      if (∃ p ∈ s1.pmaps, r = (s1.pm p).pm_pdir) ∧
          256 + s.nkptp 3 ≤ j ∧ j < 256 + s.nkptp 3 + n then
        s1.mem (s1.pm 0).pm_pdir j
      else s1.mem r j) :
    ∀ p ∈ s2.pmaps, ∀ i, PDIR_SLOT_KERN ≤ i → i < PDIR_SLOT_KERN + s2.nkptp 3 →
      s2.mem (s2.pm p).pm_pdir i = s2.mem (s2.pm 0).pm_pdir i := by
  intro p hp i hi1 hi2
  rw [h2l] at hp
  rw [h2n, hn] at hi2
  simp only [PDIR_SLOT_KERN] at hi1 hi2
  have hkr : s2.mem (s2.pm 0).pm_pdir i = s1.mem (s1.pm 0).pm_pdir i := by
    rw [h2, h2pm]
    split <;> rfl
  rw [hkr, h2, h2pm]
  by_cases hin : 256 + s.nkptp 3 ≤ i ∧ i < 256 + s.nkptp 3 + n
  · rw [if_pos ⟨⟨p, hp, rfl⟩, hin⟩]
  · rw [if_neg (fun k => hin k.2), hpd p, hpd 0]
    have hps : p ∈ s.pmaps := hpm ▸ hp
    rw [hroots _ i (Or.inr (Or.inr ⟨p, hps, rfl⟩)) (fun k => hin k.2),
      hroots _ i (Or.inl rfl) (fun k => hin k.2)]
    have := hI.kshare p hps i hi1 (by omega)
    simp only [root] at this
    rw [hI.pdir p (Or.inr hps), hI.pdir 0 (Or.inl rfl)]
    exact this

/-! ## The state `kgr0` -/

theorem kgr0_mem (t j : Nat) :
    kgr0.mem t j =
      if t = 0x7000 ∧ j = 0 then 0x8000 ||| PG_KW ||| PG_V
      else if t = 0x6000 ∧ j = 0 then 0x7000 ||| PG_KW ||| PG_V
      else if t = 0x1000 ∧ j = 256 then 0x6000 ||| PG_KW ||| PG_V
      else 0 := by
  simp only [kgr0, set_mem, mem_set]
  rfl

theorem kgr0_ptab (va L t : Nat) (h1 : 1 ≤ L) (h4 : L ≤ 4)
    (h : ptab kgr0.mem 0x1000 va L = some t) :
    (L = 4 ∧ t = 0x1000) ∨ (L = 3 ∧ t = 0x6000 ∧ slot va 4 = 256) ∨
      (L = 2 ∧ t = 0x7000 ∧ slot va 4 = 256 ∧ slot va 3 = 0) ∨
      (L = 1 ∧ t = 0x8000 ∧ slot va 4 = 256 ∧ slot va 3 = 0 ∧ slot va 2 = 0) := by
  have s4 : ∀ t3, ptab kgr0.mem 0x1000 va 3 = some t3 → t3 = 0x6000 ∧ slot va 4 = 256 := by
    intro t3 h3
    obtain ⟨t0, a1, a2, a3⟩ := ptab_parent _ _ _ 3 t3 (by omega) (by omega) h3
    rw [ptab_4] at a1
    cases a1
    rw [kgr0_mem] at a2 a3
    by_cases e : slot va 4 = 256
    · rw [e] at a3
      exact ⟨a3.symm, e⟩
    · simp [e] at a2
      exact absurd a2 (by decide)
  have s3 : ∀ t2, ptab kgr0.mem 0x1000 va 2 = some t2 →
      t2 = 0x7000 ∧ slot va 4 = 256 ∧ slot va 3 = 0 := by
    intro t2 h2
    obtain ⟨t0, a1, a2, a3⟩ := ptab_parent _ _ _ 2 t2 (by omega) (by omega) h2
    obtain ⟨b1, b2⟩ := s4 t0 a1
    subst b1
    rw [kgr0_mem] at a2 a3
    by_cases e : slot va 3 = 0
    · rw [e] at a3
      exact ⟨a3.symm, b2, e⟩
    · simp [e] at a2
      exact absurd a2 (by decide)
  have s2 : ∀ t1, ptab kgr0.mem 0x1000 va 1 = some t1 →
      t1 = 0x8000 ∧ slot va 4 = 256 ∧ slot va 3 = 0 ∧ slot va 2 = 0 := by
    intro t1 h1'
    obtain ⟨t0, a1, a2, a3⟩ := ptab_parent _ _ _ 1 t1 (by omega) (by omega) h1'
    obtain ⟨b1, b2, b3⟩ := s3 t0 a1
    subst b1
    rw [kgr0_mem] at a2 a3
    by_cases e : slot va 2 = 0
    · rw [e] at a3
      exact ⟨a3.symm, b2, b3, e⟩
    · simp [e] at a2
      exact absurd a2 (by decide)
  have hL : L = 1 ∨ L = 2 ∨ L = 3 ∨ L = 4 := by omega
  rcases hL with e | e | e | e <;> subst e
  · exact Or.inr (Or.inr (Or.inr ⟨rfl, s2 t h⟩))
  · exact Or.inr (Or.inr (Or.inl ⟨rfl, s3 t h⟩))
  · exact Or.inr (Or.inl ⟨rfl, s4 t h⟩)
  · rw [ptab_4] at h
    cases h
    exact Or.inl ⟨rfl, rfl⟩

theorem kgr0_Inv (c : config) (hc : cfg_ok c) : Inv c kgr0 := by
  have hno : ∀ p, p ∉ kgr0.pmaps := fun p hp => by cases hp
  have hd0 : ∀ p va, dom kgr0 p va → p = 0 := by
    intro p va hd
    rcases hd with hd | hd
    · exact absurd hd.1 (hno p)
    · exact hd.1
  have hpt : ∀ p va L t, 1 ≤ L → L ≤ 4 → ptab kgr0.mem (root kgr0 p) va L = some t →
      (L = 4 ∧ t = 0x1000) ∨ (L = 3 ∧ t = 0x6000 ∧ slot va 4 = 256) ∨
      (L = 2 ∧ t = 0x7000 ∧ slot va 4 = 256 ∧ slot va 3 = 0) ∨
      (L = 1 ∧ t = 0x8000 ∧ slot va 4 = 256 ∧ slot va 3 = 0 ∧ slot va 2 = 0) :=
    fun p va L t h1 h4 h => kgr0_ptab va L t h1 h4 h
  have hleaf : ∀ j, kgr0.mem 0x8000 j = 0 := by
    intro j
    rw [kgr0_mem]
    simp
  have hlist : ∀ t, (t = 0x1000 ∨ t = 0x6000 ∨ t = 0x7000 ∨ t = 0x8000) →
      t ∉ [0x2000, 0x3000, 0x4000, 0x5000] ∧
      t ∉ [0x100000, 0x101000, 0x102000, 0x103000, 0x104000, 0x105000, 0x106000, 0x107000] := by
    intro t ht
    rcases ht with e | e | e | e <;> subst e <;> decide
  have htab : ∀ p va L t, 1 ≤ L → L ≤ 4 → ptab kgr0.mem (root kgr0 p) va L = some t →
      t = 0x1000 ∨ t = 0x6000 ∨ t = 0x7000 ∨ t = 0x8000 := by
    intro p va L t h1 h4 h
    rcases hpt p va L t h1 h4 h with e | e | e | e
    · exact Or.inl e.2
    · exact Or.inr (Or.inl e.2.1)
    · exact Or.inr (Or.inr (Or.inl e.2.1))
    · exact Or.inr (Or.inr (Or.inr e.2.1))
  refine ⟨?_, ?_, ?_, ?_⟩
  · constructor
    · exact hc
    · rfl
    · exact hno 0
    · exact List.nodup_nil
    · exact ⟨0, Or.inl rfl, rfl⟩
    · intro p _
      show (0x1000 : Nat) ≠ 0
      decide
    · intro p _
      rfl
    · intro p _
      show (1 : Int) ≤ 1
      decide
    · intro p _
      rfl
    · intro p hp
      exact absurd hp (hno p)
    · intro i hlo hi
      show kgr0.mem 0x1000 i = 0
      rw [kgr0_mem]
      have h3 : 256 + kgr0.nkptp 3 = 257 := rfl
      rw [h3] at hlo
      have : i ≠ 256 := by omega
      simp [this]
    · intro p va L p1 va1 L1 t hd hd1 a1 a4 b1 b4 ht ht1
      have hp := hd0 p va hd
      have hp1 := hd0 p1 va1 hd1
      have e1 := hpt p va L t a1 a4 ht
      have g1 := hpt p1 va1 L1 t b1 b4 ht1
      have := pfx3_lt va
      have := pfx3_lt va1
      refine ⟨?_, by rw [hp, hp1], ?_⟩
      · rcases e1 with e | e | e | e <;> rcases g1 with g | g | g | g <;> omega
      · rcases e1 with ⟨rfl, e⟩ | ⟨rfl, e⟩ | ⟨rfl, e⟩ | ⟨rfl, e⟩ <;>
          rcases g1 with g | g | g | g <;> simp only [slot, pfx] at * <;> omega
    · intro p hp
      exact absurd hp (hno p)
    · intro f hf p va L _ a1 a4 ht
      exact (hlist f (htab p va L f a1 a4 ht)).2 hf
    · intro f _ p hp
      exact absurd hp (hno p)
    · show [0x100000, 0x101000, 0x102000, 0x103000, 0x104000, 0x105000, 0x106000,
        0x107000].Nodup
      decide
    · show ∀ f ∈ [0x100000, 0x101000, 0x102000, 0x103000, 0x104000, 0x105000, 0x106000,
        0x107000], f &&& PG_FRAME = f
      decide
    · intro f hf p va L _ a1 a4 ht
      exact (hlist f (htab p va L f a1 a4 ht)).1 hf
    · intro f _ p hp
      exact absurd hp (hno p)
    · show ∀ f ∈ [0x2000, 0x3000, 0x4000, 0x5000], f ∉ [0x100000, 0x101000, 0x102000, 0x103000,
        0x104000, 0x105000, 0x106000, 0x107000]
      decide
    · show [0x2000, 0x3000, 0x4000, 0x5000].Nodup
      decide
    · show ∀ f ∈ [0x2000, 0x3000, 0x4000, 0x5000], f &&& PG_FRAME = f ∧ f ≠ 0
      decide
    · show ∀ p ∈ [1, 2, 3], p ≠ 0 ∧ p ∉ ([] : List Nat)
      decide
    · show [1, 2, 3].Nodup
      decide
    · intro p hp
      exact absurd hp (hno p)
    · intro p hp
      exact absurd hp (hno p)
    · intro p hp
      exact absurd hp (hno p)
    · intro p hp
      exact absurd hp (hno p)
    · intro p hp
      exact absurd hp (hno p)
    · intro va h1 h2
      cases h : ptab kgr0.mem (root kgr0 0) va 1 with
      | none => rfl
      | some t =>
        rcases hpt 0 va 1 t (by omega) (by omega) h with e | e | e | e
        · omega
        · omega
        · omega
        · exfalso
          have e4 := e.2.2.1
          simp only [slot, pfx, PMAP_DIRECT_BASE, PMAP_DIRECT_END] at e4 h1 h2
          omega
  · constructor
    intro p hp
    exact absurd hp (hno p)
  · constructor
    · intro p hp
      exact absurd hp (hno p)
    · intro p hp
      exact absurd hp (hno p)
  · constructor
    · intro f e he
      cases he
    · intro p va t _ _ ht _ hpv
      rcases hpt p va 1 t (by omega) (by omega) ht with e | e | e | e
      · omega
      · omega
      · omega
      · rw [e.2.1, hleaf] at hpv
        exact absurd rfl hpv
    · intro f
      exact List.nodup_nil
    · intro p va t _ ht hv
      rcases hpt p va 1 t (by omega) (by omega) ht with e | e | e | e
      · omega
      · omega
      · omega
      · rw [e.2.1, hleaf] at hv
        exact absurd hv (by decide)

theorem round_pdr_top (va : Nat) (h : va + 2 ^ 21 < 2 ^ 64) :
    x86_round_pdr (va + 1) = (va / 2 ^ 21 + 1) * 2 ^ 21 := by
  have e : (0xffffffffffe00000 : Nat) = 2 ^ 64 - 2 ^ 21 := by norm_num
  rw [x86_round_pdr, e, and_mask _ 21 64 (by omega), w64, NBPD_L2]
  norm_num at h ⊢
  omega

theorem blkendva_eq (va eva : Nat) (h : va < eva) (htop : eva + 2 ^ 21 ≤ 2 ^ 64) :
    blkendva va eva = min eva ((va / 2 ^ 21 + 1) * 2 ^ 21) := by
  simp only [blkendva, round_pdr_top va (by omega)]
  split
  · rename_i h1
    rw [min_eq_left (by omega)]
  · rename_i h1
    rw [min_eq_right (by omega)]

/-- The loop of `pmap_do_remove` is its body run over the blocks of the loop
header, when the fuel outlasts the blocks. -/
theorem do_remove_loop_run (c : config) (pmap eva flags : Nat) :
    ∀ n va s fp l, (do_remove_blocks eva n va).length < n →
      pmap_do_remove_loop c pmap eva flags n va s fp l =
        do_remove_run c pmap flags (do_remove_blocks eva n va) s fp l := by
  intro n
  induction n with
  | zero =>
    intro va s fp l h
    simp at h
  | succ n ih =>
    intro va s fp l h
    by_cases hlt : va < eva
    · simp only [do_remove_blocks, if_pos hlt, List.length_cons, Nat.add_lt_add_iff_right] at h
      have hstep : pmap_do_remove_loop c pmap eva flags (n + 1) va s fp l =
          match pmap_do_remove_block c pmap flags (va, blkendva va eva) s fp l with
          | none => none
          | some r => pmap_do_remove_loop c pmap eva flags n (blkendva va eva) r.1 r.2.1 r.2.2 := by
        simp only [pmap_do_remove_loop, if_pos hlt, pmap_do_remove_block, blkendva]
        split
        · rfl
        · cases pmap_pdes_valid s va with
          | none => rfl
          | some pde =>
            simp only []
            cases pmap_do_remove_ptp c s pmap va (pde &&& PG_FRAME) with
            | none => rfl
            | some ptp =>
              simp only []
              cases pmap_remove_ptes c s pmap ptp va
                (if x86_round_pdr (va + 1) > eva then eva else x86_round_pdr (va + 1))
                flags fp with
              | none => rfl
              | some r =>
                simp only []
                cases ptp with
                | none => rfl
                | some q =>
                  simp only []
                  split
                  · cases pmap_free_ptp r.1 pmap q va l with
                    | none => rfl
                    | some f => rfl
                  · rfl
      rw [hstep]
      simp only [do_remove_blocks, if_pos hlt, do_remove_run]
      cases pmap_do_remove_block c pmap flags (va, blkendva va eva) s fp l with
      | none => rfl
      | some r => exact ih _ _ _ _ h
    · simp only [pmap_do_remove_loop, if_neg hlt, do_remove_blocks, do_remove_run]

/-- The blocks of the loop header from `va` on. -/
theorem blocks_gen (eva : Nat) (htop : eva + 2 ^ 21 ≤ 2 ^ 64) :
    ∀ n va, (va < eva → (eva - 1) / 2 ^ 21 - va / 2 ^ 21 + 1 ≤ n) →
      (do_remove_blocks eva n va).length =
          (if va < eva then (eva - 1) / 2 ^ 21 - va / 2 ^ 21 + 1 else 0) ∧
        (∀ b ∈ do_remove_blocks eva n va,
          va ≤ b.1 ∧ b.1 < b.2 ∧ b.2 ≤ eva ∧ b.1 / 2 ^ 21 = (b.2 - 1) / 2 ^ 21) ∧
        (∀ a0 : Nat, List.Chain (fun x y : Nat × Nat => x.2 = y.1) (a0, va)
          (do_remove_blocks eva n va)) ∧
        (∀ v, (va ≤ v ∧ v < eva) ↔ ∃ b ∈ do_remove_blocks eva n va, b.1 ≤ v ∧ v < b.2) ∧
        ∀ m, n ≤ m → do_remove_blocks eva m va = do_remove_blocks eva n va := by
  intro n
  induction n with
  | zero =>
    intro va h
    have hge : ¬ va < eva := fun h1 => by have := h h1; omega
    refine ⟨by simp [do_remove_blocks, hge], by simp [do_remove_blocks],
      fun a0 => List.Chain.nil, fun v => ?_, fun m _ => ?_⟩
    · simp only [do_remove_blocks, List.not_mem_nil, false_and, exists_false, iff_false]
      omega
    · cases m with
      | zero => rfl
      | succ m => simp only [do_remove_blocks, if_neg hge]
  | succ n ih =>
    intro va h
    by_cases hlt : va < eva
    · have hb := blkendva_eq va eva hlt htop
      have h1 := h hlt
      obtain ⟨blk, hblk⟩ : ∃ blk, blk = blkendva va eva := ⟨_, rfl⟩
      rw [← hblk] at hb
      have hb1 : va < blk := by
        rw [hb]
        norm_num
        omega
      have hb2 : blk ≤ eva := by
        rw [hb]
        exact min_le_left _ _
      have hb3 : va / 2 ^ 21 = (blk - 1) / 2 ^ 21 := by
        rcases min_choice eva ((va / 2 ^ 21 + 1) * 2 ^ 21) with e | e
        · have e1 : blk = eva := by rw [hb, e]
          have : eva ≤ (va / 2 ^ 21 + 1) * 2 ^ 21 := by
            rw [← e]
            exact min_le_right _ _
          rw [e1]
          norm_num at this ⊢
          omega
        · rw [hb, e]
          norm_num
          omega
      have hb4 : blk < eva → (eva - 1) / 2 ^ 21 - blk / 2 ^ 21 + 1 ≤ n ∧
          (eva - 1) / 2 ^ 21 - va / 2 ^ 21 + 1 = ((eva - 1) / 2 ^ 21 - blk / 2 ^ 21 + 1) + 1 := by
        intro hl
        have e : blk = (va / 2 ^ 21 + 1) * 2 ^ 21 := by
          rcases min_choice eva ((va / 2 ^ 21 + 1) * 2 ^ 21) with e | e
          · rw [hb, e] at hl
            omega
          · rw [hb, e]
        norm_num at e h1 ⊢
        omega
      have hb5 : ¬ blk < eva → (eva - 1) / 2 ^ 21 - va / 2 ^ 21 + 1 = 1 := by
        intro hl
        have e : blk = eva := by omega
        rw [e] at hb3
        norm_num at hb3 ⊢
        omega
      obtain ⟨i1, i2, i3, i4, i5⟩ := ih blk (fun hl => (hb4 hl).1)
      simp only [do_remove_blocks, if_pos hlt, ← hblk]
      refine ⟨?_, ?_, ?_, ?_, ?_⟩
      · rw [List.length_cons, i1]
        by_cases hl : blk < eva
        · rw [if_pos hl, (hb4 hl).2]
        · rw [if_neg hl, hb5 hl]
      · intro b hm
        rcases List.mem_cons.mp hm with e | e
        · rw [e]
          exact ⟨le_refl _, hb1, hb2, hb3⟩
        · obtain ⟨a1, a2, a3, a4⟩ := i2 b e
          exact ⟨by omega, a2, a3, a4⟩
      · intro a0
        exact List.Chain.cons rfl (i3 va)
      · intro v
        constructor
        · rintro ⟨v1, v2⟩
          by_cases hv : v < blk
          · exact ⟨(va, blk), List.mem_cons_self _ _, v1, hv⟩
          · obtain ⟨b, b1, b2⟩ := (i4 v).1 ⟨by omega, v2⟩
            exact ⟨b, List.mem_cons_of_mem _ b1, b2⟩
        · rintro ⟨b, hm, b1, b2⟩
          rcases List.mem_cons.mp hm with e | e
          · rw [e] at b1 b2
            exact ⟨b1, by simp only at b2; omega⟩
          · have := (i4 v).2 ⟨b, e, b1, b2⟩
            omega
      · intro m hm
        cases m with
        | zero => omega
        | succ m =>
          simp only [do_remove_blocks, if_pos hlt, ← hblk]
          rw [i5 m (by omega)]
    · refine ⟨by simp [do_remove_blocks, hlt], by simp [do_remove_blocks, hlt],
        fun a0 => by simp [do_remove_blocks, hlt], fun v => ?_, fun m _ => ?_⟩
      · simp only [do_remove_blocks, if_neg hlt, List.not_mem_nil, false_and, exists_false,
          iff_false]
        omega
      · cases m with
        | zero => simp only [do_remove_blocks, if_neg hlt]
        | succ m => simp only [do_remove_blocks, if_neg hlt]

/-- Two pages with the same leaf table have different slots in it. -/
theorem slot_ne (c : config) (s : kstate) (hS : SInv c s) (p t va va1 : Nat) (hp : p ∈ s.pmaps)
    (h1 : va < 0x7f8000000000) (h2 : va1 < 0x7f8000000000)
    (ht : ptab s.mem (root s p) va 1 = some t) (ht1 : ptab s.mem (root s p) va1 1 = some t)
    (hne : va / 4096 ≠ va1 / 4096) : slot va 1 ≠ slot va1 1 := by
  have e := (hS.sep p va 1 p va1 1 t (dom_user s p va hp h1) (dom_user s p va1 hp h2)
    (by omega) (by omega) (by omega) (by omega) ht ht1).2.2
  simp only [pfx, slot, Nat.sub_self] at e ⊢
  norm_num at e ⊢
  omega

/-- A scan over a slice of a leaf table without valid entries changes nothing. -/
theorem scan_noop (c : config) (s : kstate) (hS : SInv c s) (p t endva flags : Nat)
    (hp : p ∈ s.pmaps) (hmp : mapped s p) (he : endva ≤ 0x7f8000000000)
    (h0 : vcount s.mem t = 0) :
    ∀ n startva fp,
      (∀ va, startva ≤ va → va < endva → ptab s.mem (root s p) va 1 = some t) →
      remove_ptes_scan_loop c p (some t) endva flags n startva s fp = some (s, fp) := by
  intro n
  induction n with
  | zero =>
    intro startva fp _
    rfl
  | succ n ih =>
    intro startva fp hb
    simp only [remove_ptes_scan_loop]
    by_cases hlt : startva < endva
    · rw [if_pos hlt]
      have ht := hb startva (Nat.le_refl _) hlt
      rw [pde_read_leaf c s hS p startva t 1 (dom_user s p startva hp (by omega)) hmp
        (by omega) (by omega) ht]
      have hv := vcount_zero_entry s.mem t _ (slot_lt startva 1) h0
      simp only [hv, Bool.false_eq_true, not_false_eq_true, if_true]
      exact ih _ fp (fun va h1 h2 => hb va (by simp only [PAGE_SIZE] at h1; omega) h2)
    · rw [if_neg hlt]

theorem scanned_invalid (flags old : Nat) (h : pmap_valid_entry old = false) :
    scanned flags old = old := by
  simp only [scanned, h, Bool.false_eq_true, false_and, if_false]

/-- The loop of `pmap_remove_ptes` and the full scan, for any flags. -/
theorem remove_ptes_scan_spec (c : config) (p t endva flags : Nat)
    (he : endva ≤ 0x7f8000000000) :
    ∀ n s fp startva, Inv c s → p ∈ s.pmaps → startva % 4096 = 0 → mapped s p →
      (∀ va, startva ≤ va → va < endva → ptab s.mem (root s p) va 1 = some t) →
      endva ≤ startva + n * 4096 →
      ∃ s1 fp1,
        pmap_remove_ptes_loop c p (some t) endva flags n startva s fp = some (s1, fp1) ∧
        remove_ptes_scan_loop c p (some t) endva flags n startva s fp = some (s1, fp1) ∧
        Inv c s1 ∧ same_struct s s1 ∧ s1.cr3 = s.cr3 ∧
        (∀ va, startva ≤ va → va < endva →
          s1.mem t (slot va 1) = scanned flags (s.mem t (slot va 1))) ∧
        (∀ p1 va1 L, dom s p1 va1 → 1 ≤ L → L ≤ 4 →
          ptab s1.mem (root s1 p1) va1 L = ptab s.mem (root s p1) va1 L) ∧
        (∀ i, (∀ va, startva ≤ va → va < endva → i ≠ slot va 1) →
          s1.mem t i = s.mem t i) := by
  intro n
  induction n with
  | zero =>
    intro s fp startva hI hp ha hmp hb hn
    refine ⟨s, fp, rfl, rfl, hI, same_struct_refl s, rfl, ?_, fun _ _ _ _ _ _ => rfl,
      fun _ _ => rfl⟩
    intro va h1 h2
    omega
  | succ n ih =>
    intro s fp startva hI hp ha hmp hb hn
    by_cases hlt : startva < endva
    · have hva : startva < 0x7f8000000000 := by omega
      have hd := dom_user s p startva hp hva
      have ht := hb startva (Nat.le_refl _) hlt
      have hrd := pde_read_leaf c s hI.tree p startva t 1 hd hmp (by omega) (by omega) ht
      by_cases hw : s.wire_count t > 1
      · have hc : startva < endva ∧
            (some t = none ∨ ∃ q, some t = some q ∧ s.wire_count q > 1) :=
          ⟨hlt, Or.inr ⟨t, rfl, hw⟩⟩
        simp only [pmap_remove_ptes_loop, remove_ptes_scan_loop, if_pos hc, if_pos hlt, hrd]
        have hstep : ∀ s0 fp0, Inv c s0 → same_struct s s0 → s0.cr3 = s.cr3 →
            s0.mem t (slot startva 1) = scanned flags (s.mem t (slot startva 1)) →
            (∀ p1 va1 L, dom s p1 va1 → 1 ≤ L → L ≤ 4 →
              ptab s0.mem (root s0 p1) va1 L = ptab s.mem (root s p1) va1 L) →
            (∀ i, i ≠ slot startva 1 → s0.mem t i = s.mem t i) →
            ∃ s1 fp1,
              pmap_remove_ptes_loop c p (some t) endva flags n (startva + PAGE_SIZE) s0 fp0 =
                some (s1, fp1) ∧
              remove_ptes_scan_loop c p (some t) endva flags n (startva + PAGE_SIZE) s0 fp0 =
                some (s1, fp1) ∧
              Inv c s1 ∧ same_struct s s1 ∧ s1.cr3 = s.cr3 ∧
              (∀ va, startva ≤ va → va < endva →
                s1.mem t (slot va 1) = scanned flags (s.mem t (slot va 1))) ∧
              (∀ p1 va1 L, dom s p1 va1 → 1 ≤ L → L ≤ 4 →
                ptab s1.mem (root s1 p1) va1 L = ptab s.mem (root s p1) va1 L) ∧
              (∀ i, (∀ va, startva ≤ va → va < endva → i ≠ slot va 1) →
                s1.mem t i = s.mem t i) := by
          intro s0 fp0 hI0 hss0 hcr0 hz0 hpt0 hot0
          have hmp0 : mapped s0 p := by
            rcases hmp with h | h
            · left
              rw [hcr0, same_struct_root s s0 hss0]
              exact h
            · exact Or.inr h
          obtain ⟨s1, fp1, e, e', hI1, hss1, hcr1, hz1, hpt1, hot1⟩ :=
            ih s0 fp0 (startva + PAGE_SIZE) hI0 (hss0.1 ▸ hp)
              (by simp only [PAGE_SIZE]; omega) hmp0
              (by
                intro va h1 h2
                simp only [PAGE_SIZE] at h1
                rw [hpt0 p va 1 (dom_user s p va hp (by omega)) (by omega) (by omega)]
                exact hb va (by omega) h2)
              (by simp only [PAGE_SIZE]; omega)
          have hsl : ∀ va, startva + 4096 ≤ va → va < endva → slot startva 1 ≠ slot va 1 :=
            fun va h1 h2 => slot_ne c s hI.tree p t startva va hp hva (by omega) ht
              (hb va (by omega) h2) (by omega)
          refine ⟨s1, fp1, e, e', hI1, same_struct_trans s s0 s1 hss0 hss1, hcr1.trans hcr0,
            ?_, ?_, ?_⟩
          · intro va h1 h2
            by_cases h3 : va < startva + 4096
            · rw [slot_page startva va ha h1 h3, hot1 _ (fun va1 h4 h5 =>
                hsl va1 (by simp only [PAGE_SIZE] at h4; omega) h5)]
              exact hz0
            · rw [hz1 va (by simp only [PAGE_SIZE]; omega) h2,
                hot0 _ (fun h => hsl va (by omega) h2 h.symm)]
          · intro p1 va1 L hd1 h1 h4
            rw [hpt1 p1 va1 L ((same_struct_dom s s0 hss0 p1 va1).2 hd1) h1 h4]
            exact hpt0 p1 va1 L hd1 h1 h4
          · intro i hi
            rw [hot1 i (fun va h1 h2 => hi va (by simp only [PAGE_SIZE] at h1; omega) h2)]
            exact hot0 i (hi startva (Nat.le_refl _) hlt)
        by_cases hv : pmap_valid_entry (s.mem t (slot startva 1)) = true
        · by_cases hsk : flags &&& PMAP_REMOVE_SKIPWIRED ≠ 0 ∧
              s.mem t (slot startva 1) &&& PG_W ≠ 0
          · simp only [hv, not_true_eq_false, if_false]
            rw [if_pos hsk, if_pos hsk]
            refine hstep s fp hI (same_struct_refl s) rfl ?_ (fun _ _ _ _ _ _ => rfl)
              (fun _ _ => rfl)
            simp only [scanned]
            rw [if_neg (fun h => h.2 hsk)]
          · obtain ⟨s0, fp0, e, hI0, hss0, hcr0, _, _, _, _, hz0, _, hpt0, hot0⟩ :=
              zap_user c s hI p startva t fp hp hva ha hmp ht hv
            simp only [hv, not_true_eq_false, if_false]
            rw [if_neg hsk, if_neg hsk, e]
            refine hstep s0 fp0 hI0 hss0 hcr0 ?_ hpt0 hot0
            rw [hz0]
            simp only [scanned]
            rw [if_pos ⟨hv, hsk⟩]
        · simp only [hv, not_false_eq_true, if_true]
          exact hstep s fp hI (same_struct_refl s) rfl
            (by rw [scanned_invalid _ _ (by simpa using hv)]) (fun _ _ _ _ _ _ => rfl)
            (fun _ _ => rfl)
      · have hc : ¬ (startva < endva ∧
            (some t = none ∨ ∃ q, some t = some q ∧ s.wire_count q > 1)) := by
          rintro ⟨_, h | ⟨q, hq, h⟩⟩
          · cases h
          · cases hq
            exact hw h
        have hwb := wire_bound c s hI.tree hI.wire p startva t 1 hp (by omega) (by omega)
          (by omega) ht
        have h0 : vcount s.mem t = 0 := by omega
        refine ⟨s, fp, by simp only [pmap_remove_ptes_loop, if_neg hc],
          scan_noop c s hI.tree p t endva flags hp hmp he h0 (n + 1) startva fp hb, hI,
          same_struct_refl s, rfl, ?_, fun _ _ _ _ _ _ => rfl, fun _ _ => rfl⟩
        intro va _ _
        rw [scanned_invalid _ _ (vcount_zero_entry s.mem t _ (slot_lt va 1) h0)]
    · refine ⟨s, fp, ?_, ?_, hI, same_struct_refl s, rfl, ?_, fun _ _ _ _ _ _ => rfl,
        fun _ _ => rfl⟩
      · simp only [pmap_remove_ptes_loop]
        rw [if_neg (fun h => hlt h.1)]
      · simp only [remove_ptes_scan_loop, if_neg hlt]
      · intro va h1 h2
        omega

/-! ## The path of a guest address through `pmap_enter_ept` -/

theorem ept_path_zero (m : Nat → Nat → Nat) (f : Nat) (is : List Nat) (h : ∀ j, m f j = 0) :
    ept_path m f is = [f] := by
  cases is with
  | nil => rfl
  | cons i is =>
    simp only [ept_path, ept_next, h]
    rfl

/-- One upper level of `pmap_enter_ept` that yields a next table: the entry
was there and nothing changed, or the first free frame was zeroed and
installed with the three permission bits. -/
theorem ept_level_step (c : config) (s : kstate) (pmap gpa t i lidx : Nat)
    (pptp : Option (Option Nat)) (setwire : Bool) (V is : List Nat) (n : Nat) (q : Option Nat)
    (s1 : kstate)
    (hnd : (V ++ ept_path s.mem t (i :: is) ++ s.free_pages).Nodup)
    (hfr : ∀ f ∈ s.free_pages, f &&& PMAP_PA_MASK = f ∧ f ≠ 0)
    (h : pmap_enter_ept_level c s pmap gpa t i lidx pptp setwire = some (some (n, q), s1)) :
    n ≠ 0 ∧ ept_next s1.mem t i = n ∧
      ((V ++ [t]) ++ ept_path s1.mem n is ++ s1.free_pages).Nodup ∧
      (∀ f ∈ s1.free_pages, f ∈ s.free_pages) ∧
      (∀ v ∈ V ++ [t], ∀ j, ¬ (v = t ∧ j = i) → s1.mem v j = s.mem v j) ∧
      s1.pv_list = s.pv_list ∧ (s1.pm pmap).pm_pdir = (s.pm pmap).pm_pdir ∧
      ((ept_next s.mem t i ≠ 0 ∧ s1 = s) ∨
        (ept_next s.mem t i = 0 ∧ n ∈ s.free_pages ∧
          s1.mem t i = n ||| EPT_R ||| EPT_W ||| EPT_X ∧ ∀ j, s1.mem n j = 0)) := by
  simp only [pmap_enter_ept_level] at h
  by_cases hn : s.mem t i &&& PMAP_PA_MASK = 0
  · rw [if_pos hn] at h
    have hp : ept_path s.mem t (i :: is) = [t] := by
      simp only [ept_path, ept_next, hn, if_true]
    rw [hp] at hnd
    cases hf : s.free_pages with
    | nil =>
      simp only [uvm_pagealloc, hf] at h
      cases h
    | cons f rest =>
      rw [hf] at hnd
      have hfok := hfr f (by rw [hf]; exact List.mem_cons_self f rest)
      have hft : f ≠ t := by
        intro e
        rw [e] at hnd
        have := List.nodup_append.mp hnd
        exact this.2.2 (List.mem_append_right V (List.mem_singleton_self t))
          (List.mem_cons_self t rest)
      have hfV : ∀ v ∈ V ++ [t], v ≠ f := by
        intro v hv e
        rw [e] at hv
        exact (List.nodup_append.mp hnd).2.2 hv (List.mem_cons_self f rest)
      have hfin : ∀ s2 : kstate,
          s2.mem = mem_set (mem_zero s.mem f) t i (f ||| EPT_R ||| EPT_W ||| EPT_X) →
          s2.free_pages = rest → s2.pv_list = s.pv_list →
          (s2.pm pmap).pm_pdir = (s.pm pmap).pm_pdir →
          f ≠ 0 ∧ ept_next s2.mem t i = f ∧
            ((V ++ [t]) ++ ept_path s2.mem f is ++ s2.free_pages).Nodup ∧
            (∀ g ∈ s2.free_pages, g ∈ f :: rest) ∧
            (∀ v ∈ V ++ [t], ∀ j, ¬ (v = t ∧ j = i) → s2.mem v j = s.mem v j) ∧
            s2.pv_list = s.pv_list ∧ (s2.pm pmap).pm_pdir = (s.pm pmap).pm_pdir ∧
            ((ept_next s.mem t i ≠ 0 ∧ s2 = s) ∨
              (ept_next s.mem t i = 0 ∧ f ∈ f :: rest ∧
                s2.mem t i = f ||| EPT_R ||| EPT_W ||| EPT_X ∧ ∀ j, s2.mem f j = 0)) := by
        intro s2 hm hfree hpv hpd
        have hz : ∀ j, s2.mem f j = 0 := by
          intro j
          rw [hm, mem_set_other _ _ _ _ _ _ (fun e => hft e.1)]
          simp only [mem_zero, if_true]
        refine ⟨hfok.2, ?_, ?_, ?_, ?_, hpv, hpd, Or.inr ⟨hn, List.mem_cons_self f rest, ?_, hz⟩⟩
        · rw [ept_next, hm, mem_set_same, ept_entry_mask f hfok.1]
        · rw [ept_path_zero s2.mem f is hz, hfree]
          simpa [List.append_assoc] using hnd
        · intro g hg
          rw [hfree] at hg
          exact List.mem_cons_of_mem f hg
        · intro v hv j hj
          rw [hm, mem_set_other _ _ _ _ _ _ hj]
          simp only [mem_zero, if_neg (hfV v hv)]
        · rw [hm, mem_set_same]
      simp only [uvm_pagealloc, hf] at h
      cases pptp with
      | none =>
        cases setwire
        · simp only [Bool.false_eq_true, if_false, Option.some.injEq, Prod.mk.injEq] at h
          obtain ⟨⟨e1, _⟩, e2⟩ := h
          subst e1
          subst e2
          exact hfin _ rfl rfl rfl (by simp [add_resident, set_mem, upd])
        · simp only [if_true, Option.some.injEq, Prod.mk.injEq] at h
          obtain ⟨⟨e1, _⟩, e2⟩ := h
          subst e1
          subst e2
          exact hfin _ rfl rfl rfl (by simp [add_resident, set_mem, set_wire, upd])
      | some q0 =>
        cases q0 with
        | none =>
          cases setwire <;> simp at h
        | some q1 =>
          cases setwire
          · simp only [Bool.false_eq_true, if_false, Option.some.injEq, Prod.mk.injEq] at h
            obtain ⟨⟨e1, _⟩, e2⟩ := h
            subst e1
            subst e2
            exact hfin _ rfl rfl rfl (by simp [add_resident, set_mem, wire_inc, set_wire, upd])
          · simp only [if_true, Option.some.injEq, Prod.mk.injEq] at h
            obtain ⟨⟨e1, _⟩, e2⟩ := h
            subst e1
            subst e2
            exact hfin _ rfl rfl rfl (by simp [add_resident, set_mem, wire_inc, set_wire, upd])
  · rw [if_neg hn] at h
    simp only [Option.some.injEq, Prod.mk.injEq] at h
    obtain ⟨⟨e1, _⟩, e2⟩ := h
    subst e2
    have hp : ept_path s.mem t (i :: is) = t :: ept_path s.mem n is := by
      simp only [ept_path, ept_next, e1]
      rw [if_neg (by rw [← e1]; exact hn)]
    rw [hp] at hnd
    refine ⟨by rw [← e1]; exact hn, e1, by simpa [List.append_assoc] using hnd,
      fun f hf => hf, fun _ _ _ _ => rfl, rfl, rfl, Or.inl ⟨hn, rfl⟩⟩

theorem enomem_ne (s s1 : kstate) : (some (ENOMEM, s) : Option (Nat × kstate)) ≠ some (0, s1) := by
  intro h
  exact absurd (Prod.mk.inj (Option.some.inj h)).1 (by decide)

theorem ept_npte_eq (hpa prot : Nat) :
    (if prot &&& PROT_EXEC ≠ 0 then
        (if prot &&& PROT_WRITE ≠ 0 then
            (if prot &&& PROT_READ ≠ 0 then hpa ||| EPT_WB ||| EPT_R else hpa ||| EPT_WB) ||| EPT_W
          else (if prot &&& PROT_READ ≠ 0 then hpa ||| EPT_WB ||| EPT_R else hpa ||| EPT_WB)) |||
          EPT_X
      else
        (if prot &&& PROT_WRITE ≠ 0 then
            (if prot &&& PROT_READ ≠ 0 then hpa ||| EPT_WB ||| EPT_R else hpa ||| EPT_WB) ||| EPT_W
          else (if prot &&& PROT_READ ≠ 0 then hpa ||| EPT_WB ||| EPT_R else hpa ||| EPT_WB))) =
      ept_leaf hpa prot := by
  simp only [ept_leaf]
  split_ifs <;> simp only [Nat.or_zero]

/-- A successful `pmap_enter_ept`, when the tables on the path of `gpa` and
the free frames are all different: the path afterwards, the leaf, the upper
entries and the chains. -/
theorem enter_ept_path (c : config) (s : kstate) (p gpa hpa prot : Nat) (s1 : kstate)
    (hnd : (ept_tables s p gpa ++ s.free_pages).Nodup)
    (hfr : ∀ f ∈ s.free_pages, f &&& PMAP_PA_MASK = f ∧ f ≠ 0)
    (h : pmap_enter_ept c s p gpa hpa prot = some (0, s1)) :
    s1.pv_list = s.pv_list ∧
      ∃ npa3 npa2 npa1,
        ept_tables s1 p gpa = [(s.pm p).pm_pdir, npa3, npa2, npa1] ∧
        s1.mem npa1 (ept_idx gpa L1_MASK L1_SHIFT) = ept_leaf hpa prot ∧
        (s1.mem (s.pm p).pm_pdir (ept_idx gpa L4_MASK L4_SHIFT) =
            s.mem (s.pm p).pm_pdir (ept_idx gpa L4_MASK L4_SHIFT) ∨
          (npa3 ∈ s.free_pages ∧
            s1.mem (s.pm p).pm_pdir (ept_idx gpa L4_MASK L4_SHIFT) =
              npa3 ||| EPT_R ||| EPT_W ||| EPT_X)) ∧
        (s1.mem npa3 (ept_idx gpa L3_MASK L3_SHIFT) = s.mem npa3 (ept_idx gpa L3_MASK L3_SHIFT) ∨
          (npa2 ∈ s.free_pages ∧
            s1.mem npa3 (ept_idx gpa L3_MASK L3_SHIFT) = npa2 ||| EPT_R ||| EPT_W ||| EPT_X)) ∧
        (s1.mem npa2 (ept_idx gpa L2_MASK L2_SHIFT) = s.mem npa2 (ept_idx gpa L2_MASK L2_SHIFT) ∨
          (npa1 ∈ s.free_pages ∧
            s1.mem npa2 (ept_idx gpa L2_MASK L2_SHIFT) = npa1 ||| EPT_R ||| EPT_W ||| EPT_X)) := by
  simp only [pmap_enter_ept] at h
  by_cases hg : gpa > MAXDSIZ
  · rw [if_pos hg] at h
    exact absurd h (enomem_ne _ _)
  rw [if_neg hg] at h
  by_cases hpd : (s.pm p).pm_pdir = 0
  · rw [if_pos hpd] at h
    exact absurd h (enomem_ne _ _)
  rw [if_neg hpd] at h
  obtain ⟨pd, hpdE⟩ : ∃ pd, pd = (s.pm p).pm_pdir := ⟨_, rfl⟩
  obtain ⟨l4, hl4⟩ : ∃ l4, l4 = ept_idx gpa L4_MASK L4_SHIFT := ⟨_, rfl⟩
  obtain ⟨l3, hl3⟩ : ∃ l3, l3 = ept_idx gpa L3_MASK L3_SHIFT := ⟨_, rfl⟩
  obtain ⟨l2, hl2⟩ : ∃ l2, l2 = ept_idx gpa L2_MASK L2_SHIFT := ⟨_, rfl⟩
  obtain ⟨l1, hl1⟩ : ∃ l1, l1 = ept_idx gpa L1_MASK L1_SHIFT := ⟨_, rfl⟩
  simp only [ept_tables] at hnd ⊢
  rw [← hpdE, ← hl4, ← hl3, ← hl2] at hnd h ⊢
  rw [← hl1] at h ⊢
  cases h4 : pmap_enter_ept_level c s p gpa pd l4 2 none true with
  | none =>
    rw [h4] at h
    cases h
  | some r4 =>
    obtain ⟨o4, t1⟩ := r4
    cases o4 with
    | none =>
      rw [h4] at h
      exact absurd h (enomem_ne _ _)
    | some nq4 =>
      obtain ⟨npa3, q3⟩ := nq4
      rw [h4] at h
      simp only [] at h
      split at h
      · cases h
      obtain ⟨a1, a2, a3, a4, a5, a6, a7, a8⟩ :=
        ept_level_step c s p gpa pd l4 2 none true [] [l3, l2] npa3 q3 t1
          (by simpa using hnd) hfr h4
      cases h3 : pmap_enter_ept_level c t1 p gpa npa3 l3 1 (some q3) true with
      | none =>
        rw [h3] at h
        cases h
      | some r3 =>
        obtain ⟨o3, t2⟩ := r3
        cases o3 with
        | none =>
          rw [h3] at h
          exact absurd h (enomem_ne _ _)
        | some nq3 =>
          obtain ⟨npa2, q2⟩ := nq3
          rw [h3] at h
          simp only [] at h
          split at h
          · cases h
          obtain ⟨b1, b2, b3, b4, b5, b6, b7, b8⟩ :=
            ept_level_step c t1 p gpa npa3 l3 1 (some q3) true [pd] [l2] npa2 q2 t2
              (by simpa using a3) (fun f hf => hfr f (a4 f hf)) h3
          cases h2 : pmap_enter_ept_level c t2 p gpa npa2 l2 0 (some q2) false with
          | none =>
            rw [h2] at h
            cases h
          | some r2 =>
            obtain ⟨o2, t3⟩ := r2
            cases o2 with
            | none =>
              rw [h2] at h
              exact absurd h (enomem_ne _ _)
            | some nq2 =>
              obtain ⟨npa1, q1⟩ := nq2
              rw [h2] at h
              simp only [] at h
              obtain ⟨c1, c2, c3, c4, c5, c6, c7, c8⟩ :=
                ept_level_step c t2 p gpa npa2 l2 0 (some q2) false [pd, npa3] [] npa1 q1 t3
                  (by simpa using b3) (fun f hf => hfr f (a4 f (b4 f hf))) h2
              cases q1 with
              | none => cases h
              | some ptp =>
                simp only [] at h
                split at h
                · cases h
                rw [ept_npte_eq] at h
                have hs1 : s1.mem = mem_set t3.mem npa1 l1 (ept_leaf hpa prot) ∧
                    s1.pv_list = t3.pv_list ∧ (s1.pm p).pm_pdir = (t3.pm p).pm_pdir := by
                  have e := (Prod.mk.inj (Option.some.inj h)).2
                  rw [← e]
                  split
                  · exact ⟨rfl, rfl, by simp [add_resident, set_mem, wire_inc, set_wire, upd]⟩
                  · exact ⟨rfl, rfl, rfl⟩
                obtain ⟨hm, hpv, hpdir⟩ := hs1
                -- the four tables are different
                have hd : ([pd, npa3, npa2, npa1] : List Nat).Nodup := by
                  have := (List.nodup_append.mp c3).1
                  simpa [ept_path] using this
                simp only [List.nodup_cons, List.mem_cons, List.mem_singleton, not_or,
                  List.not_mem_nil, not_false_eq_true, List.nodup_nil, and_true] at hd
                obtain ⟨⟨d1, d2, d3⟩, ⟨d4, d5⟩, d6⟩ := hd
                have k4 : s1.mem pd l4 = t1.mem pd l4 := by
                  rw [hm, mem_set_other _ _ _ _ _ _ (fun e => d3 e.1),
                    c5 pd (by simp) l4 (fun e => d2 e.1), b5 pd (by simp) l4 (fun e => d1 e.1)]
                have k3 : s1.mem npa3 l3 = t2.mem npa3 l3 := by
                  rw [hm, mem_set_other _ _ _ _ _ _ (fun e => d5 e.1),
                    c5 npa3 (by simp) l3 (fun e => d4 e.1)]
                have k2 : s1.mem npa2 l2 = t3.mem npa2 l2 := by
                  rw [hm, mem_set_other _ _ _ _ _ _ (fun e => d6 e.1)]
                refine ⟨by rw [hpv, c6, b6, a6], npa3, npa2, npa1, ?_, ?_, ?_, ?_, ?_⟩
                · rw [hpdir, c7, b7, a7, ← hpdE]
                  have n4 : ept_next s1.mem pd l4 = npa3 := by
                    rw [ept_next, k4]
                    exact a2
                  have n3 : ept_next s1.mem npa3 l3 = npa2 := by
                    rw [ept_next, k3]
                    exact b2
                  have n2 : ept_next s1.mem npa2 l2 = npa1 := by
                    rw [ept_next, k2]
                    exact c2
                  simp only [ept_path, n4, n3, n2, if_neg a1, if_neg b1, if_neg c1]
                · rw [hm, mem_set_same]
                · rw [k4]
                  rcases a8 with ⟨_, e⟩ | ⟨_, e1, e2, _⟩
                  · left
                    rw [e]
                  · exact Or.inr ⟨e1, e2⟩
                · rw [k3]
                  rcases b8 with ⟨bn, e⟩ | ⟨_, e1, e2, _⟩
                  · left
                    rw [e]
                    rcases a8 with ⟨_, e⟩ | ⟨_, _, _, ez⟩
                    · rw [e]
                    · exact absurd (by rw [ept_next, ez]; rfl) bn
                  · exact Or.inr ⟨a4 _ e1, e2⟩
                · rw [k2]
                  rcases c8 with ⟨cn, e⟩ | ⟨_, e1, e2, _⟩
                  · left
                    rw [e]
                    rcases b8 with ⟨bn, e⟩ | ⟨_, _, _, ez⟩
                    · rw [e]
                      rcases a8 with ⟨_, e⟩ | ⟨_, _, _, ez⟩
                      · rw [e]
                      · exact absurd (by rw [ept_next, ez]; rfl) bn
                    · exact absurd (by rw [ept_next, ez]; rfl) cn
                  · exact Or.inr ⟨a4 _ (b4 _ e1), e2⟩

theorem or_page_low (hpa lo : Nat) (h : hpa % 4096 = 0) (hlo : lo < 4096) :
    hpa ||| lo = hpa + lo := by
  have := or_low (hpa / 4096) lo 12 (by norm_num; exact hlo)
  rw [show hpa / 4096 * 2 ^ 12 = hpa by norm_num; omega] at this
  exact this

/-- The leaf entry of a page-aligned address as a sum. -/
theorem ept_leaf_sum (hpa prot : Nat) (h : hpa % 4096 = 0) :
    ept_leaf hpa prot = hpa + 0x30 + (if prot &&& PROT_READ ≠ 0 then 1 else 0) +
      (if prot &&& PROT_WRITE ≠ 0 then 2 else 0) + (if prot &&& PROT_EXEC ≠ 0 then 4 else 0) := by
  simp only [ept_leaf, Nat.or_assoc]
  split_ifs <;>
    (rw [or_page_low hpa _ h (by decide)]
     simp only [EPT_WB, EPT_R, EPT_W, EPT_X]
     rfl)

/-- The bits of the leaf entry of a page-aligned address, one by one. -/
theorem ept_leaf_bits (hpa prot : Nat) (h : hpa % 4096 = 0) :
    (ept_leaf hpa prot &&& EPT_R ≠ 0 ↔ prot &&& PROT_READ ≠ 0) ∧
      (ept_leaf hpa prot &&& EPT_W ≠ 0 ↔ prot &&& PROT_WRITE ≠ 0) ∧
      (ept_leaf hpa prot &&& EPT_X ≠ 0 ↔ prot &&& PROT_EXEC ≠ 0) ∧
      ept_leaf hpa prot &&& 0x38 = EPT_WB ∧
      ept_leaf hpa prot / 4096 = hpa / 4096 := by
  have e1 : ∀ x : Nat, x &&& EPT_R = x / 2 ^ 0 % 2 * 2 ^ 0 := fun x => and_bit x 0
  have e2 : ∀ x : Nat, x &&& EPT_W = x / 2 ^ 1 % 2 * 2 ^ 1 := fun x => and_bit x 1
  have e3 : ∀ x : Nat, x &&& EPT_X = x / 2 ^ 2 % 2 * 2 ^ 2 := fun x => and_bit x 2
  have e4 : ∀ x : Nat, x &&& 0x38 = x % 2 ^ 6 / 2 ^ 3 * 2 ^ 3 := fun x => by
    rw [show (0x38 : Nat) = 2 ^ 6 - 2 ^ 3 by norm_num, and_mask x 3 6 (by omega)]
  rw [e1, e2, e3, e4, ept_leaf_sum hpa prot h]
  simp only [EPT_WB]
  split_ifs <;> norm_num <;> omega

/-- No level of `pmap_enter_ept` touches a chain. -/
theorem ept_level_pv (c : config) (s : kstate) (pmap gpa pd idx lidx : Nat)
    (pptp : Option (Option Nat)) (setwire : Bool) (r : Option (Nat × Option Nat)) (s1 : kstate)
    (h : pmap_enter_ept_level c s pmap gpa pd idx lidx pptp setwire = some (r, s1)) :
    s1.pv_list = s.pv_list := by
  simp only [pmap_enter_ept_level] at h
  split at h
  · cases hf : s.free_pages with
    | nil =>
      simp only [uvm_pagealloc, hf] at h
      cases h
      rfl
    | cons f rest =>
      simp only [uvm_pagealloc, hf] at h
      cases pptp with
      | none =>
        cases setwire <;> (simp only [Bool.false_eq_true, if_false, if_true] at h; cases h; rfl)
      | some q0 =>
        cases q0 with
        | none => cases setwire <;> simp at h
        | some q1 =>
          cases setwire <;> (simp only [Bool.false_eq_true, if_false, if_true] at h; cases h; rfl)
  · cases h
    rfl

/-- `pmap_enter_ept` leaves the chains of all frames as they are, whatever
it returns. -/
theorem enter_ept_pv (c : config) (s : kstate) (p gpa hpa prot r : Nat) (s1 : kstate)
    (h : pmap_enter_ept c s p gpa hpa prot = some (r, s1)) : s1.pv_list = s.pv_list := by
  simp only [pmap_enter_ept] at h
  split at h
  · cases h
    rfl
  split at h
  · cases h
    rfl
  split at h
  · cases h
  · rename_i t1 h4
    cases h
    exact ept_level_pv _ _ _ _ _ _ _ _ _ _ _ h4
  · rename_i npa3 q3 t1 h4
    have a := ept_level_pv _ _ _ _ _ _ _ _ _ _ _ h4
    split at h
    · cases h
    split at h
    · cases h
    · rename_i t2 h3
      cases h
      rw [ept_level_pv _ _ _ _ _ _ _ _ _ _ _ h3, a]
    · rename_i npa2 q2 t2 h3
      have b := ept_level_pv _ _ _ _ _ _ _ _ _ _ _ h3
      split at h
      · cases h
      split at h
      · cases h
      · rename_i t3 h2
        cases h
        rw [ept_level_pv _ _ _ _ _ _ _ _ _ _ _ h2, b, a]
      · rename_i npa1 q1 t3 h2
        have d := ept_level_pv _ _ _ _ _ _ _ _ _ _ _ h2
        split at h
        · cases h
        · split at h
          · cases h
          · cases h
            simp only [set_mem]
            split
            · exact d.trans (b.trans a)
            · exact d.trans (b.trans a)

/-! ## The reference counts along the loop of `pmap_get_ptp` -/

theorem path_level (c : config) (s : kstate) (hS : SInv c s) (p va L L1 x : Nat)
    (hp : p ∈ s.pmaps) (hva : va < 0x7f8000000000) (h1 : 1 ≤ L) (h4 : L ≤ 4) (h1' : 1 ≤ L1)
    (h4' : L1 ≤ 4) (h : ptab s.mem (root s p) va L = some x)
    (h' : ptab s.mem (root s p) va L1 = some x) : L = L1 :=
  (hS.sep p va L p va L1 x (dom_user s p va hp hva) (dom_user s p va hp hva) h1 h4 h1' h4'
    h h').1

theorem get_ptp_loop_wire (c : config) (p va : Nat) (hva : va < 0x7f8000000000) :
    ∀ n, n ≤ 3 → ∀ s ptp pa ppa t, Inv c s → p ∈ s.pmaps → mapped s p →
      ptab s.mem (root s p) va (n + 1) = some t →
      (∀ q, ptp = some q → q = t ∧ ∀ j, s.mem t j = 0) →
      (ptp = none → pa = PADDR_NONE) →
      (ptp = none → n + 1 < 4 → ppa = t) →
      ∀ r s1, pmap_get_ptp_loop p va n ptp pa ppa s = some (some r, s1) →
        ptp_wires s s1 p va n t := by
  intro n
  induction n with
  | zero =>
    intro _ s ptp pa ppa t hI hp hmp ht hpp hpa hppa r s1 h
    simp only [pmap_get_ptp_loop, Option.some.injEq, Prod.mk.injEq] at h
    obtain ⟨_, e⟩ := h
    subst e
    refine ⟨fun _ _ _ => rfl, ?_, ?_⟩
    · rw [if_neg (by omega)]
      rfl
    · intro L y h1 h0
      omega
  | succ n ih =>
    intro hn s ptp pa ppa t hI hp hmp ht hpp hpa hppa r s1 h
    have hS := hI.tree
    have hp0 : p ≠ 0 := fun e => hS.kern_notin (e ▸ hp)
    have hcr : s.cr3 = root s p := hmp.resolve_right hp0
    have ht2 : ptab s.mem (root s p) va (n + 2) = some t := ht
    have hsh := hS.shape p hp va (n + 2) t hva (by omega) (by omega) ht2
    have hd := dom_user s p va hp hva
    simp only [pmap_get_ptp_loop] at h
    rw [pde_read_of_ptab s va (n + 2) t (by omega) (by omega) (hcr ▸ ht2)] at h
    simp only [] at h
    by_cases hv : pmap_valid_entry (s.mem t (slot va (n + 2))) = true
    · rw [if_pos hv] at h
      have hch := ptab_child s.mem (root s p) va (n + 1) t (by omega) (by omega) ht
        (shape_psv _ hsh hv)
      obtain ⟨t', ht'⟩ : ∃ t', t' = s.mem t (slot va (n + 2)) &&& PG_FRAME := ⟨_, rfl⟩
      rw [← ht'] at hch h
      have hq1 : ∀ q, (none : Option Nat) = some q → q = t' ∧ ∀ j, s.mem t' j = 0 := by
        intro q hq
        cases hq
      have hq2 : (none : Option Nat) = none → pa = PADDR_NONE := by
        intro _
        cases hptp : ptp with
        | none => exact hpa hptp
        | some q =>
          have := (hpp q hptp).2 (slot va (n + 2))
          rw [this] at hv
          exact absurd hv (by decide)
      obtain ⟨r', s1', e, hI1, hg1, _⟩ := get_ptp_loop_spec c p va hva n (by omega) s none pa t'
        t' hI hp hmp hch hq1 hq2 (fun _ _ => rfl)
      rw [e] at h
      have es : s1' = s1 := (Prod.mk.inj (Option.some.inj h)).2
      subst es
      obtain ⟨w1, w2, w3⟩ := ih (by omega) s none pa t' t' hI hp hmp hch hq1 hq2
        (fun _ _ => rfl) r s1' (by rw [e, h])
      have hp1 : p ∈ s1'.pmaps := hg1.pmaps ▸ hp
      have g2 : ptab s1'.mem (root s1' p) va (n + 2) = some t :=
        hg1.old p va (n + 2) t hd (by omega) (by omega) ht2
      have g1 : ptab s1'.mem (root s1' p) va (n + 1) = some t' :=
        hg1.old p va (n + 1) t' hd (by omega) (by omega) hch
      have hoff : ∀ L, 1 ≤ L → L ≤ n + 1 → ptab s1'.mem (root s1' p) va L ≠ some t := by
        intro L h1 h2 e1
        have := path_level c s1' hI1.tree p va L (n + 2) t hp1 hva h1 (by omega) (by omega)
          (by omega) e1 g2
        omega
      refine ⟨?_, ?_, ?_⟩
      · intro x hx hoffx
        exact w1 x (fun e1 => hoffx (n + 1) (by omega) (by omega) (e1 ▸ g1))
          (fun L h1 h2 => hoffx L h1 (by omega))
      · rw [if_neg (fun h3 => by rw [hch] at h3; cases h3.2.2), Nat.add_zero]
        exact w1 t (fun e1 => hoff (n + 1) (by omega) (by omega) (e1 ▸ g1))
          (fun L h1 h2 => hoff L h1 (by omega))
      · intro L y h1 h2 hy
        by_cases hL : L ≤ n
        · exact w3 L y h1 hL hy
        · have eL : L = n + 1 := by omega
          subst eL
          rw [g1] at hy
          have ey : t' = y := Option.some.inj hy
          subst ey
          left
          refine ⟨hch, ?_⟩
          rw [w2]
          simp only [Nat.add_sub_cancel]
          by_cases hc : ptab s.mem (root s p) va n = none
          · by_cases hn1 : 1 ≤ n
            · rw [if_pos ⟨hn1, by omega, hc⟩, if_pos ⟨by omega, hc⟩]
            · rw [if_neg (fun h3 => hn1 h3.1), if_neg (fun h3 => by omega)]
          · rw [if_neg (fun h3 => hc h3.2.2), if_neg (fun h3 => hc h3.2)]
    · rw [if_neg hv] at h
      have he : s.mem t (slot va (n + 2)) = 0 := by
        rcases hsh with h | h
        · exact h
        · rw [h] at hv
          exact absurd (pde_valid _ (and_frame_frame _)) hv
      have hnone : ptab s.mem (root s p) va (n + 1) = none := by
        apply ptab_child_none s.mem (root s p) va (n + 1) t (by omega) (by omega) ht
        rw [he]
        decide
      have hnoneL : ∀ L, 1 ≤ L → L ≤ n + 1 → ptab s.mem (root s p) va L = none :=
        fun L h1 h2 => ptab_none_down s.mem (root s p) va L (n + 1) h1 h2 (by omega) hnone
      cases hfree : s.free_pages with
      | nil =>
        have hA : uvm_pagealloc s p (n + 2 - 2) (ptp_va2o va (n + 2 - 1)) = (none, s) := by
          simp only [uvm_pagealloc, hfree]
        rw [hA] at h
        cases h
      | cons f rest =>
        obtain ⟨s6, e6, eA, hIn, hpool⟩ := link_spec c s hI p va (n + 2) t f rest ptp pa hp hva
          hmp (by omega) (by omega) ht2 he hfree (fun q hq => (hpp q hq).1) hpa
        have hA : uvm_pagealloc s p (n + 2 - 2) (ptp_va2o va (n + 2 - 1)) =
            (some f, (uvm_pagealloc s p (n + 2 - 2) (ptp_va2o va (n + 2 - 1))).2) := by
          rw [← eA]
        rw [hA] at h
        simp only [e6] at h
        have hI6 := install_Inv c s s6 p va (n + 2) t f hI hIn
        have hg6 := install_grow c s s6 p va (n + 2) t f hS hIn hpool
        have hp6 : p ∈ s6.pmaps := hIn.pmaps ▸ hp
        have ht6 : ptab s6.mem (root s6 p) va (n + 1) = some f := by
          rw [install_ptab c s s6 p va (n + 2) t f hS hIn p va (n + 1) hd (by omega) (by omega),
            if_pos ⟨rfl, rfl, by omega⟩, if_pos (by omega)]
        have hmp6 : mapped s6 p := by
          left
          rw [hIn.cr3, hcr]
          exact ((hIn.pm p).1).symm
        have hq1 : ∀ q, some f = some q → q = f ∧ ∀ j, s6.mem f j = 0 := by
          intro q hq
          cases hq
          exact ⟨rfl, hIn.mem_f⟩
        have hq2 : some f = none → f = PADDR_NONE := by
          intro e
          cases e
        have hq3 : some f = none → n + 1 < 4 → pa = f := by
          intro e
          cases e
        obtain ⟨r', s1', e, hI1, hg1, _⟩ := get_ptp_loop_spec c p va hva n (by omega) s6
          (some f) f pa f hI6 hp6 hmp6 ht6 hq1 hq2 hq3
        rw [e] at h
        have es : s1' = s1 := (Prod.mk.inj (Option.some.inj h)).2
        subst es
        obtain ⟨w1, w2, w3⟩ := ih (by omega) s6 (some f) f pa f hI6 hp6 hmp6 ht6 hq1 hq2 hq3
          r s1' (by rw [e, h])
        have hd6 : dom s6 p va := dom_user s6 p va hp6 hva
        have hp1 : p ∈ s1'.pmaps := hg1.pmaps ▸ hp6
        have g2 : ptab s1'.mem (root s1' p) va (n + 2) = some t :=
          hg1.old p va (n + 2) t hd6 (by omega) (by omega)
            (hg6.old p va (n + 2) t hd (by omega) (by omega) ht2)
        have g1 : ptab s1'.mem (root s1' p) va (n + 1) = some f :=
          hg1.old p va (n + 1) f hd6 (by omega) (by omega) ht6
        have hoff : ∀ L, 1 ≤ L → L ≤ n + 1 → ptab s1'.mem (root s1' p) va L ≠ some t := by
          intro L h1 h2 e1
          have := path_level c s1' hI1.tree p va L (n + 2) t hp1 hva h1 (by omega) (by omega)
            (by omega) e1 g2
          omega
        have htf : t ≠ f := fun e1 => hoff (n + 1) (by omega) (by omega) (e1 ▸ g1)
        have hn6 : ∀ L, 1 ≤ L → L ≤ n → ptab s6.mem (root s6 p) va L = none := by
          intro L h1 h2
          apply ptab_none_down s6.mem (root s6 p) va L n h1 h2 (by omega)
          apply ptab_child_none s6.mem (root s6 p) va n f (by omega) (by omega) ht6
          rw [hIn.mem_f]
          decide
        have hf : f ∈ s.free_pages := by
          rw [hfree]
          exact List.mem_cons_self _ _
        refine ⟨?_, ?_, ?_⟩
        · intro x hx hoffx
          have hxf : x ≠ f := fun e1 => hoffx (n + 1) (by omega) (by omega) (e1 ▸ g1)
          rw [w1 x hxf (fun L h1 h2 => hoffx L h1 (by omega))]
          exact hIn.wire_o x hxf (fun h3 => hx h3.1)
        · rw [w1 t htf (fun L h1 h2 => hoff L h1 (by omega))]
          by_cases h4 : n + 2 < 4
          · rw [if_pos ⟨by omega, by omega, hnone⟩]
            exact hIn.wire_t h4
          · rw [if_neg (fun h3 => h4 (by omega)), Nat.add_zero]
            exact hIn.wire_o t htf (fun h3 => h4 h3.2)
        · intro L y h1 h2 hy
          right
          by_cases hL : L ≤ n
          · rcases w3 L y h1 hL hy with ⟨a, _⟩ | ⟨_, a, b⟩
            · rw [hn6 L h1 hL] at a
              cases a
            · refine ⟨hnoneL L h1 h2, ?_, b⟩
              rw [hIn.free]
              exact List.mem_cons_of_mem _ a
          · have eL : L = n + 1 := by omega
            subst eL
            rw [g1] at hy
            have ey : f = y := Option.some.inj hy
            subst ey
            refine ⟨hnone, hf, ?_⟩
            rw [w2, hIn.wire_f]
            by_cases hn1 : 1 ≤ n
            · rw [if_pos ⟨hn1, by omega, hn6 n hn1 (le_refl _)⟩, if_pos (by omega)]
            · rw [if_neg (fun h3 => hn1 h3.1), if_neg (by omega)]

/-- An upper entry on the path of `va` in a user tree is the address of the
table below with the valid, user and writable bits. -/
theorem path_entry (c : config) (s : kstate) (hS : SInv c s) (p va L y : Nat) (hp : p ∈ s.pmaps)
    (hva : va < 0x7f8000000000) (h1 : 1 ≤ L) (h3 : L ≤ 3)
    (hy : ptab s.mem (root s p) va L = some y) :
    ∃ t0, ptab s.mem (root s p) va (L + 1) = some t0 ∧
      s.mem t0 (slot va (L + 1)) = y ||| PG_u ||| PG_RW ||| PG_V ∧
      s.mem t0 (slot va (L + 1)) &&& PG_FRAME = y ∧ is_frame y ∧
      pmap_valid_entry (s.mem t0 (slot va (L + 1))) = true := by
  obtain ⟨t0, a1, a2, a3⟩ := ptab_parent s.mem (root s p) va L y h1 h3 hy
  have hv := psv_valid _ a2
  refine ⟨t0, a1, ?_, a3, by rw [← a3]; exact and_frame_frame _, hv⟩
  rcases hS.shape p hp va (L + 1) t0 hva (by omega) (by omega) a1 with h | h
  · rw [h] at hv
    exact absurd hv (by decide)
  · rw [a3] at h
    exact h

theorem ptp_wires_congr (s s1 s2 : kstate) (p va n t : Nat) (hm : s2.mem = s1.mem)
    (hw : s2.wire_count = s1.wire_count) (hr : root s2 p = root s1 p)
    (h : ptp_wires s s1 p va n t) : ptp_wires s s2 p va n t := by
  simp only [ptp_wires, hm, hw, hr]
  exact h

/-- The reference counts and the hint after a successful `pmap_get_ptp`. -/
theorem get_ptp_wire (c : config) (s : kstate) (hI : Inv c s) (p va : Nat)
    (hp : p ∈ s.pmaps) (hva : va < 0x7f8000000000) (hmp : mapped s p) (ptp : Nat) (s1 : kstate)
    (h : pmap_get_ptp c s p va = some (some ptp, s1)) :
    ptp_wires s s1 p va 3 (root s p) ∧ (s1.pm p).pm_ptphint 0 = some ptp := by
  simp only [pmap_get_ptp] at h
  cases hl : pmap_get_ptp_loop p va (PTP_LEVELS - 1) none PADDR_NONE PADDR_NONE s with
  | none =>
    rw [hl] at h
    cases h
  | some x =>
    obtain ⟨o, s1'⟩ := x
    cases o with
    | none =>
      rw [hl] at h
      cases h
    | some pr =>
      obtain ⟨ptp1, ppa1⟩ := pr
      rw [hl] at h
      simp only [] at h
      split at h
      · cases h
      · have e1 := (Prod.mk.inj (Option.some.inj h)).1
        have e2 := (Prod.mk.inj (Option.some.inj h)).2
        have hw := get_ptp_loop_wire c p va hva 3 (by omega) s none PADDR_NONE PADDR_NONE
          (root s p) hI hp hmp (ptab_4 _ _ _) (fun q hq => by cases hq) (fun _ => rfl)
          (fun _ h4 => by omega) (ptp1, ppa1) s1' hl
        rw [← e2, e1]
        refine ⟨ptp_wires_congr s s1' _ p va 3 (root s p) rfl rfl ?_ hw, ?_⟩
        · simp [root, set_hint, upd]
        · simp [set_hint, upd]

/-! ## The rounds of `pmap_free_ptp` -/

theorem path_ne (c : config) (s : kstate) (hS : SInv c s) (p va j j1 x y : Nat)
    (hp : p ∈ s.pmaps) (hva : va < 0x7f8000000000) (h1 : 1 ≤ j) (h4 : j ≤ 4) (h1' : 1 ≤ j1)
    (h4' : j1 ≤ 4) (hx : ptab s.mem (root s p) va j = some x)
    (hy : ptab s.mem (root s p) va j1 = some y) (hne : j ≠ j1) : x ≠ y := by
  intro e
  exact hne (path_level c s hS p va j j1 x hp hva h1 h4 h1' h4' hx (e ▸ hy))

theorem filterMap_range_succ (g : Nat → Option Nat) (k q : Nat) (h0 : g 0 = some q) :
    (List.range (k + 1)).filterMap g = q :: (List.range k).filterMap (fun i => g (i + 1)) := by
  rw [List.range_succ_eq_map, List.filterMap_cons, h0, List.filterMap_map]
  rfl

/-- The loop of `pmap_free_ptp` from an empty page-table page on: the pages
it releases. -/
theorem free_ptp_loop_released (c : config) (p va : Nat) (hva : va < 0x7f8000000000) :
    ∀ n s q L l, Inv c s → p ∈ s.pmaps → mapped s p → 1 ≤ L → L ≤ 3 → 4 ≤ L + n →
      ptab s.mem (root s p) va L = some q → vcount s.mem q = 0 →
      ∃ s1 l1 k, pmap_free_ptp_loop s p va n q L l = some (s1, l1) ∧ Inv c s1 ∧
        ptp_released s s1 p va L k l l1 := by
  intro n
  induction n with
  | zero =>
    intro s q L l _ _ _ _ h3 h4
    omega
  | succ n ih =>
    intro s q L l hI hp hmp hL1 hL3 hn hq hempty
    obtain ⟨t, s', hU, hpool, heq⟩ := free_round_spec c s hI p va L q n l hp hva hmp hL1 hL3 hq
      hempty
    have hS := hI.tree
    have hd := dom_user s p va hp hva
    have hI' := unlink_Inv c s s' p va L t q hI hU
    have htq : t ≠ q :=
      path_ne c s hS p va (L + 1) L t q hp hva (by omega) (by omega) hL1 (by omega) hU.ht hq
        (by omega)
    have hconv : ∀ j, L + 1 ≤ j → j ≤ 4 →
        ptab s'.mem (root s' p) va j = ptab s.mem (root s p) va j := by
      intro j h1 h4
      rw [unlink_ptab c s s' p va L t q hS hU p va j hd (by omega) h4,
        if_neg (fun h => by omega)]
    have hobj : ∀ e ∈ (s'.pm p).pm_obj (L - 1), e.2 ≠ q := by
      intro e he
      rw [hU.obj p (L - 1), if_pos ⟨rfl, rfl⟩, List.mem_filter] at he
      simpa using he.2
    have hone : (¬ L < 3 ∨ 1 < s'.wire_count t) → ptp_released s s' p va L 1 l (l ++ [q]) := by
      intro hc
      refine ⟨le_refl _, by omega, ?_, ?_, ?_, ?_, ?_, ?_, hU.free, ?_, hU.pmaps⟩
      · simp [List.range_succ, hq]
      · intro j h1 h2
        have ej : j = L := by omega
        subst ej
        exact ⟨q, t, hq, hU.ht, hU.mem_t, hU.wire_q, hobj, fun h => absurd h (lt_irrefl _)⟩
      · intro h3
        exact ⟨t, hU.ht, by rw [hconv (L + 1) (le_refl _) (by omega)]; exact hU.ht,
          hU.wire_t (by omega), hc.resolve_left (fun h => h (by omega))⟩
      · intro x hx
        apply hU.wire_o x (fun e => hx L (le_refl _) (by omega) hL3 (e ▸ hq))
        intro h
        exact hx (L + 1) (by omega) (le_refl _) (by omega) (h.1 ▸ hU.ht)
      · intro x i hx hsh
        exact hU.mem_o x i (fun h => hx (L + 1) (by omega) (le_refl _) (h.1 ▸ hU.ht)) hsh
      · intro r i hri
        rw [hU.obj r i, if_neg (fun h => hri ⟨h.1, by omega, by omega⟩)]
      · rw [hU.res p, if_pos rfl]
        rfl
    rw [heq]
    by_cases h3 : L < 3
    · rw [if_pos h3]
      by_cases hw : s'.wire_count t > 1
      · rw [if_pos hw]
        exact ⟨s', l ++ [q], 1, rfl, hI', hone (Or.inr hw)⟩
      · rw [if_neg hw]
        have hp' : p ∈ s'.pmaps := hU.pmaps ▸ hp
        have hp0 : p ≠ 0 := fun e => hS.kern_notin (e ▸ hp)
        have hmp' : mapped s' p := by
          left
          rw [hU.cr3, hmp.resolve_right hp0]
          exact ((hU.pm p).1).symm
        have ht' : ptab s'.mem (root s' p) va (L + 1) = some t := by
          rw [hconv (L + 1) (le_refl _) (by omega)]
          exact hU.ht
        have hv' : vcount s'.mem t = 0 := by
          have := hI'.wire.wire p hp' va (L + 1) t hva (by omega) (by omega) ht'
          omega
        obtain ⟨s1, l1, k, hres, hI1, R⟩ := ih s' t (L + 1) (l ++ [q]) hI' hp' hmp' (by omega)
          (by omega) (by omega) ht' hv'
        have hk4 := R.k4
        have hnq : ∀ j, L + 1 ≤ j → j ≤ 4 → ptab s.mem (root s p) va j ≠ some q := by
          intro j h1 h4 e
          have := path_level c s hS p va j L q hp hva (by omega) h4 hL1 (by omega) e hq
          omega
        have hnt : ∀ j, L + 2 ≤ j → j ≤ 4 → ptab s.mem (root s p) va j ≠ some t := by
          intro j h1 h4 e
          have := path_level c s hS p va j (L + 1) t hp hva (by omega) h4 (by omega) (by omega)
            e hU.ht
          omega
        have hsh' : ¬ ((s'.pm p).pm_pdir_intel ≠ 0 ∧ t = (s'.pm p).pm_pdir_intel) := by
          intro h
          exact hI'.tree.shadow p hp' h.1 p va (L + 1) (dom_user s' p va hp' hva) (by omega)
            (by omega) (h.2 ▸ ht')
        refine ⟨s1, l1, k + 1, hres, hI1, R.k1.trans (Nat.le_succ k), by omega, ?_, ?_, ?_, ?_, ?_,
          ?_, R.free.trans hU.free, ?_, R.pmaps.trans hU.pmaps⟩
        · rw [R.list, filterMap_range_succ _ k q hq, List.append_assoc]
          congr 1
          simp only [List.singleton_append, List.cons.injEq, true_and]
          apply List.filterMap_congr
          intro i hi
          have hi' := List.mem_range.mp hi
          rw [hconv (L + 1 + i) (by omega) (by omega)]
          congr 1
          omega
        · intro j h1 h2
          by_cases ej : j = L
          · subst ej
            refine ⟨q, t, hq, hU.ht, ?_, ?_, ?_, fun h => absurd h (lt_irrefl _)⟩
            · rw [R.mem_o t (slot va (j + 1)) (fun i h4 h5 => by
                rw [hconv i (by omega) (by omega)]
                exact hnt i (by omega) (by omega)) hsh']
              exact hU.mem_t
            · rw [R.wire_o q (fun i h4 h5 h6 => by
                rw [hconv i (by omega) (by omega)]
                exact hnq i (by omega) (by omega))]
              exact hU.wire_q
            · intro e he
              rw [R.obj_o p (j - 1) (fun h => by omega)] at he
              exact hobj e he
          · obtain ⟨T, T', a1, a2, a3, a4, a5, a6⟩ := R.path j (by omega) (by omega)
            rw [hconv j (by omega) (by omega)] at a1
            rw [hconv (j + 1) (by omega) (by omega)] at a2
            refine ⟨T, T', a1, a2, a3, a4, a5, fun _ => ?_⟩
            by_cases ej1 : j = L + 1
            · subst ej1
              rw [hU.ht] at a1
              have : t = T := Option.some.inj a1
              subst this
              have := hU.wire_t h3
              omega
            · have hT : s'.wire_count T = s.wire_count T := by
                apply hU.wire_o T (fun e => hnq j (by omega) (by omega) (e ▸ a1))
                intro h
                exact hnt j (by omega) (by omega) (h.1 ▸ a1)
              rw [← hT]
              exact a6 (by omega)
        · intro hk3
          obtain ⟨A, a1, a2, a3, a4⟩ := R.stop (by omega)
          rw [hconv (L + 1 + k) (by omega) (by omega)] at a1
          have e1 : L + 1 + k = L + (k + 1) := by omega
          rw [e1] at a1 a2
          have hA : s'.wire_count A = s.wire_count A := by
            apply hU.wire_o A (fun e => hnq _ (by omega) (by omega) (e ▸ a1))
            intro h
            exact hnt _ (by have := R.k1; omega) (by omega) (h.1 ▸ a1)
          exact ⟨A, a1, a2, by rw [← hA]; exact a3, a4⟩
        · intro x hx
          rw [R.wire_o x (fun j h1 h2 h4 => by
            rw [hconv j (by omega) (by omega)]
            exact hx j (by omega) (by omega) h4)]
          apply hU.wire_o x (fun e => hx L (le_refl _) (by omega) hL3 (e ▸ hq))
          intro h
          exact hx (L + 1) (by omega) (by omega) (by omega) (h.1 ▸ hU.ht)
        · intro x i hx hsh
          rw [R.mem_o x i (fun j h1 h2 => by
            rw [hconv j (by omega) (by omega)]
            exact hx j (by omega) (by omega)) (by rw [(hU.pm p).2.2.1]; exact hsh)]
          exact hU.mem_o x i (fun h => hx (L + 1) (by omega) (by omega) (h.1 ▸ hU.ht)) hsh
        · intro r i hri
          rw [R.obj_o r i (fun h => hri ⟨h.1, by omega, by omega⟩), hU.obj r i,
            if_neg (fun h => hri ⟨h.1, by omega, by omega⟩)]
        · rw [R.res, hU.res p, if_pos rfl]
          push_cast
          omega
    · rw [if_neg h3]
      exact ⟨s', l ++ [q], 1, rfl, hI', hone (Or.inl h3)⟩

/-! ## The shadow root through `pmap_get_ptp` and `pmap_free_ptp` -/

theorem slot4_eq (va : Nat) : pl_i va 4 = slot va 4 := by
  rw [pl_i_eq va 4 (by omega) (by omega)]
  simp only [slot, pfx, Nat.add_one_sub_one]
  norm_num
  omega

/-- One allocating round of the loop of `pmap_get_ptp`: the cells of the
shadow root afterwards. -/
theorem link_shadow (c : config) (s : kstate) (hI : Inv c s) (p va i t f : Nat) (rest : List Nat)
    (pptp : Option Nat) (ppa : Nat)
    (hp : p ∈ s.pmaps) (hva : va < 0x7f8000000000) (hmp : mapped s p)
    (hi2 : 2 ≤ i) (hi4 : i ≤ 4) (ht : ptab s.mem (root s p) va i = some t)
    (_he : s.mem t (slot va i) = 0) (hfree : s.free_pages = f :: rest)
    (_hpp : ∀ q, pptp = some q → q = t) (_hpa : pptp = none → ppa = PADDR_NONE)
    (hne : (s.pm p).pm_pdir_intel ≠ 0) (s6 : kstate)
    (h6 : pmap_get_ptp_link (uvm_pagealloc s p (i - 2) (ptp_va2o va (i - 1))).2 p va i pptp ppa f
      = some s6) :
    ∀ j, s6.mem (s.pm p).pm_pdir_intel j =
      if i = 4 ∧ va < VM_MAXUSER_ADDRESS ∧ j = slot va 4 then f ||| PG_u ||| PG_RW ||| PG_V
      else s.mem (s.pm p).pm_pdir_intel j := by
  have hS := hI.tree
  have hp0 : p ≠ 0 := fun e => hS.kern_notin (e ▸ hp)
  have hcr : s.cr3 = root s p := hmp.resolve_right hp0
  have hd := dom_user s p va hp hva
  have hf : f ∈ s.free_pages := by
    rw [hfree]
    exact List.mem_cons_self _ _
  have hfr := hS.free_frame f hf
  have htf : t ≠ f := fun e => hS.free_sep f hf p va i hd (by omega) hi4 (e ▸ ht)
  have hA1 : (uvm_pagealloc s p (i - 2) (ptp_va2o va (i - 1))).1 = some f := by
    simp only [uvm_pagealloc, hfree]
  have hkey : ptp_va2o va (i - 1) = pfx va (i - 1) * 4096 :=
    ptp_va2o_eq va (i - 1) (by omega) (by omega)
  generalize hsA : (uvm_pagealloc s p (i - 2) (ptp_va2o va (i - 1))).2 = sA at h6
  have a1 : sA.mem = mem_zero s.mem f := by
    rw [← hsA]
    simp only [uvm_pagealloc, hfree]
  have a2 : sA.cr3 = s.cr3 := by
    rw [← hsA]
    simp only [uvm_pagealloc, hfree]
  have a3 : sA.free_pages = rest := by
    rw [← hsA]
    simp only [uvm_pagealloc, hfree]
  have a4 : sA.wire_count = upd s.wire_count f 0 := by
    rw [← hsA]
    simp only [uvm_pagealloc, hfree]
  have a5 : sA.pv_list = s.pv_list ∧ sA.pv_pool = s.pv_pool ∧ sA.pmaps = s.pmaps ∧
      sA.pdp_pool = s.pdp_pool ∧ sA.pmap_pool = s.pmap_pool ∧
      sA.pmap_initialized = s.pmap_initialized ∧ sA.nkptp = s.nkptp := by
    rw [← hsA]
    simp only [uvm_pagealloc, hfree, and_self]
  have a6 : sA.pm = upd s.pm p { s.pm p with
      pm_obj := upd (s.pm p).pm_obj (i - 2) ((pfx va (i - 1) * 4096, f) :: (s.pm p).pm_obj (i - 2)) } := by
    rw [← hsA, ← hkey]
    simp only [uvm_pagealloc, hfree]
  clear hsA
  obtain ⟨a51, a52, a53, a54, a55, a56, a57⟩ := a5
  have hs2 : ∃ s2, s2 = set_hint (set_wire (clear_busy sA f) f 1) p (i - 2) (some f) :=
    ⟨_, rfl⟩
  obtain ⟨s2, hs2⟩ := hs2
  have b1 : s2.mem = mem_zero s.mem f := by
    rw [hs2, ← a1]
    rfl
  have b2 : s2.cr3 = s.cr3 := by
    rw [hs2, ← a2]
    rfl
  have hw : pmap_get_ptp_link sA p va i pptp ppa f =
      match pde_write s2 va i (f ||| PG_u ||| PG_RW ||| PG_V) with
      | none => none
      | some s3 =>
        match pde_read s3 va i with
        | none => none
        | some e1 =>
          if i < PTP_LEVELS then
            match (match pptp with
              | none => pmap_find_ptp (add_resident (if (s3.pm p).pm_pdir_intel ≠ 0 ∧ i = 4 ∧
                  va < VM_MAXUSER_ADDRESS then set_mem s3 (s3.pm p).pm_pdir_intel (pl_i va i) e1
                  else s3) p 1) p va ppa i
              | some q => some q) with
            | none => none
            | some q => some (wire_inc (add_resident (if (s3.pm p).pm_pdir_intel ≠ 0 ∧ i = 4 ∧
                  va < VM_MAXUSER_ADDRESS then set_mem s3 (s3.pm p).pm_pdir_intel (pl_i va i) e1
                  else s3) p 1) q)
          else some (add_resident (if (s3.pm p).pm_pdir_intel ≠ 0 ∧ i = 4 ∧
                  va < VM_MAXUSER_ADDRESS then set_mem s3 (s3.pm p).pm_pdir_intel (pl_i va i) e1
                  else s3) p 1) := by
    rw [hs2]
    rfl
  have pw : pde_write s2 va i (f ||| PG_u ||| PG_RW ||| PG_V) =
      some (set_mem s2 t (slot va i) (f ||| PG_u ||| PG_RW ||| PG_V)) := by
    apply pde_write_of_ptab s2 va i t _ (by omega) hi4
    rw [b1, b2, hcr, ptab_mem_zero c s hS f p va i hf hd (by omega) hi4]
    exact ht
  have pr : pde_read (set_mem s2 t (slot va i) (f ||| PG_u ||| PG_RW ||| PG_V)) va i =
      some (f ||| PG_u ||| PG_RW ||| PG_V) := by
    rw [pde_read_of_ptab _ va i t (by omega) hi4]
    · simp only [set_mem, mem_set_same]
    · simp only [set_mem]
      rw [b1, b2, hcr, ptab_mem_set_ne _ _ _ _ _ _ _ (by omega) hi4,
        ptab_mem_zero c s hS f p va i hf hd (by omega) hi4]
      · exact ht
      · intro j tj hj hj4 htj e
        rw [ptab_mem_zero c s hS f p va j hf hd (by omega) hj4] at htj
        have := hS.sep p va j p va i tj hd hd (by omega) hj4 (by omega) hi4 htj (e.1 ▸ ht)
        omega
  rw [hw, pw] at h6
  simp only [pr] at h6
  have hsh : ((set_mem s2 t (slot va i) (f ||| PG_u ||| PG_RW ||| PG_V)).pm p).pm_pdir_intel =
      (s.pm p).pm_pdir_intel := by
    rw [hs2]
    simp [set_mem, set_hint, set_wire, clear_busy, a6, upd]
  rw [hsh] at h6
  have hnt : (s.pm p).pm_pdir_intel ≠ t :=
    fun e => hS.shadow p hp hne p va i hd (by omega) hi4 (e ▸ ht)
  have hnf : (s.pm p).pm_pdir_intel ≠ f := fun e => hS.free_shadow f hf p hp hne e
  have hbase : ∀ j, (set_mem s2 t (slot va i) (f ||| PG_u ||| PG_RW ||| PG_V)).mem
      (s.pm p).pm_pdir_intel j = s.mem (s.pm p).pm_pdir_intel j := by
    intro j
    simp only [set_mem]
    rw [mem_set_other _ _ _ _ _ _ (fun e => hnt e.1), b1]
    simp only [mem_zero, if_neg hnf]
  intro j
  by_cases h4 : i < 4
  · have hc : ¬ ((s.pm p).pm_pdir_intel ≠ 0 ∧ i = 4 ∧ va < VM_MAXUSER_ADDRESS) := by
      intro e
      omega
    have hlt : i < PTP_LEVELS := h4
    simp only [hc, if_false, hlt, if_true] at h6
    rw [if_neg (fun e => by omega)]
    split at h6
    · cases h6
    · have e6 := Option.some.inj h6
      rw [← e6]
      simp only [wire_inc, add_resident, set_wire]
      exact hbase j
  · have hlt : ¬ i < PTP_LEVELS := h4
    have e4 : i = 4 := by omega
    simp only [hlt, if_false] at h6
    have e6 := Option.some.inj h6
    rw [← e6]
    by_cases hu : va < VM_MAXUSER_ADDRESS
    · rw [if_pos ⟨hne, e4, hu⟩]
      simp only [add_resident, set_mem]
      by_cases hj : j = slot va 4
      · rw [if_pos ⟨e4, hu, hj⟩, hj, e4, slot4_eq, mem_set_same]
      · rw [if_neg (fun e => hj e.2.2), mem_set_other _ _ _ _ _ _ (fun e => by
          rw [e4, slot4_eq] at e
          exact hj e.2)]
        exact hbase j
    · rw [if_neg (fun e => hu e.2.2), if_neg (fun e => hu e.2.1)]
      simp only [add_resident]
      exact hbase j

/-- One round of the loop of `pmap_free_ptp`, with the cells of the shadow
root afterwards. -/
theorem free_round_shadow (c : config) (s : kstate) (hI : Inv c s) (p va L q n : Nat)
    (l : List Nat) (hp : p ∈ s.pmaps) (hva : va < 0x7f8000000000) (hmp : mapped s p)
    (hL1 : 1 ≤ L) (hL3 : L ≤ 3) (hq : ptab s.mem (root s p) va L = some q)
    (hempty : vcount s.mem q = 0) :
    ∃ t s1, Unlink s s1 p va L t q ∧ s1.pv_pool = s.pv_pool ∧
      (∀ j, (s.pm p).pm_pdir_intel ≠ 0 → s1.mem (s.pm p).pm_pdir_intel j =
        if L = 3 ∧ j = slot va 4 then 0 else s.mem (s.pm p).pm_pdir_intel j) ∧
      pmap_free_ptp_loop s p va (n + 1) q L l =
        (if L < 3 then
          (if s1.wire_count t > 1 then some (s1, l ++ [q])
           else pmap_free_ptp_loop s1 p va n t (L + 1) (l ++ [q]))
         else some (s1, l ++ [q])) := by
  have hS := hI.tree
  have hp0 : p ≠ 0 := fun e => hS.kern_notin (e ▸ hp)
  have hcr : s.cr3 = root s p := hmp.resolve_right hp0
  have hd := dom_user s p va hp hva
  obtain ⟨t, ht, hpsv, hfrm⟩ := ptab_parent s.mem (root s p) va L q hL1 hL3 hq
  have htq : t ≠ q := by
    intro e
    have := hS.sep p va (L + 1) p va L t hd hd (by omega) (by omega) hL1 (by omega) ht
      (e ▸ hq)
    omega
  obtain ⟨sF, hsF⟩ : ∃ sF, sF = (pmap_freepage s p q L l).1 := ⟨_, rfl⟩
  have hl : (pmap_freepage s p q L l).2 = l ++ [q] := rfl
  have b1 : sF.mem = s.mem ∧ sF.cr3 = s.cr3 ∧ sF.free_pages = s.free_pages ∧
      sF.pmaps = s.pmaps ∧ sF.pdp_pool = s.pdp_pool ∧ sF.pmap_pool = s.pmap_pool ∧
      sF.pmap_initialized = s.pmap_initialized ∧ sF.nkptp = s.nkptp ∧
      sF.pv_list = s.pv_list ∧ sF.pv_pool = s.pv_pool ∧
      sF.wire_count = upd s.wire_count q 0 := by
    rw [hsF]
    simp only [pmap_freepage]
    split <;> simp [obj_remove, set_wire, set_hint, add_resident]
  obtain ⟨b11, b12, b13, b14, b15, b16, b17, b18, b19, b110, b111⟩ := b1
  have b2 : ∀ r, (sF.pm r).pm_pdirpa = (s.pm r).pm_pdirpa ∧
      (sF.pm r).pm_pdir = (s.pm r).pm_pdir ∧
      (sF.pm r).pm_pdir_intel = (s.pm r).pm_pdir_intel ∧
      (sF.pm r).pm_type = (s.pm r).pm_type ∧ (sF.pm r).uo_refs = (s.pm r).uo_refs ∧
      (sF.pm r).wired_count = (s.pm r).wired_count ∧
      (sF.pm r).resident_count = (s.pm r).resident_count - (if r = p then 1 else 0) ∧
      ∀ k, (sF.pm r).pm_obj k =
        if r = p ∧ k = L - 1 then ((s.pm r).pm_obj k).filter fun e => e.2 != q
        else (s.pm r).pm_obj k := by
    intro r
    rw [hsF]
    simp only [pmap_freepage]
    by_cases hr : r = p
    · subst hr
      split <;> simp [obj_remove, set_wire, set_hint, add_resident, upd] <;>
        (refine ⟨by omega, fun k => ?_⟩; by_cases hk : k = L - 1 <;> simp [hk])
    · split <;> simp [obj_remove, set_wire, set_hint, add_resident, upd, hr]
  have pw : pde_write sF va (L + 1) 0 = some (set_mem sF t (slot va (L + 1)) 0) := by
    apply pde_write_of_ptab sF va (L + 1) t _ (by omega) (by omega)
    rw [b11, b12, hcr]
    exact ht
  have hwb := wire_bound c s hS hI.wire p va t (L + 1) hp hva (by omega)
  have hvpos := vcount_pos s.mem t (slot va (L + 1)) (slot_lt _ _) (psv_valid _ hpsv)
  -- the fields of the possible final states
  have fin : ∀ s1 : kstate,
      (s1 = set_mem sF t (slot va (L + 1)) 0 ∧ L = 3 ∧ (s.pm p).pm_pdir_intel = 0 ∨
       s1 = set_mem (set_mem sF t (slot va (L + 1)) 0) (s.pm p).pm_pdir_intel
          (pl_i va (L + 1)) 0 ∧ L = 3 ∧ (s.pm p).pm_pdir_intel ≠ 0 ∨
       s1 = wire_dec (set_mem sF t (slot va (L + 1)) 0) t ∧ L < 3) →
      Unlink s s1 p va L t q ∧ s1.pv_pool = s.pv_pool ∧
        (∀ j, (s.pm p).pm_pdir_intel ≠ 0 → s1.mem (s.pm p).pm_pdir_intel j =
          if L = 3 ∧ j = slot va 4 then 0 else s.mem (s.pm p).pm_pdir_intel j) := by
    intro s1 h1
    have hshn : (s.pm p).pm_pdir_intel ≠ 0 → (s.pm p).pm_pdir_intel ≠ t := by
      intro hne e
      exact hS.shadow p hp hne p va (L + 1) hd (by omega) (by omega) (e ▸ ht)
    have hmemo : ∀ t1 j, ¬ (t1 = t ∧ j = slot va (L + 1)) →
        ¬ ((s.pm p).pm_pdir_intel ≠ 0 ∧ t1 = (s.pm p).pm_pdir_intel) →
        s1.mem t1 j = s.mem t1 j := by
      intro t1 j h2 h3
      rcases h1 with ⟨e, _⟩ | ⟨e, _, hne⟩ | ⟨e, _⟩ <;> rw [e]
      · simp only [set_mem, mem_set, b11, h2, if_false]
      · have h4 : t1 ≠ (s.pm p).pm_pdir_intel := fun e1 => h3 ⟨hne, e1⟩
        simp only [set_mem, mem_set, b11, h2, h4, if_false, false_and]
      · simp only [wire_dec, set_wire, set_mem, mem_set, b11, h2, if_false]
    have hmemt : s1.mem t (slot va (L + 1)) = 0 := by
      rcases h1 with ⟨e, _⟩ | ⟨e, _, hne⟩ | ⟨e, _⟩ <;> rw [e]
      · simp only [set_mem, mem_set_same]
      · simp only [set_mem]
        rw [mem_set_other _ _ _ _ _ _ (fun e1 => hshn hne e1.1.symm), mem_set_same]
      · simp only [wire_dec, set_wire, set_mem, mem_set_same]
    have hpm : s1.pm = sF.pm := by
      rcases h1 with ⟨e, _⟩ | ⟨e, _, hne⟩ | ⟨e, _⟩ <;> rw [e] <;> rfl
    have hwire : s1.wire_count = if L < 3 then
        upd (upd s.wire_count q 0) t ((upd s.wire_count q 0 t + (2 ^ 32 - 1)) % 2 ^ 32)
        else upd s.wire_count q 0 := by
      rcases h1 with ⟨e, h4⟩ | ⟨e, h4, hne⟩ | ⟨e, h4⟩ <;> rw [e]
      · rw [if_neg (by omega)]
        simp [set_mem, b111]
      · rw [if_neg (by omega)]
        simp [set_mem, b111]
      · rw [if_pos h4]
        simp [wire_dec, set_wire, set_mem, b111]
    have hoth : s1.free_pages = s.free_pages ∧ s1.pmaps = s.pmaps ∧
        s1.pdp_pool = s.pdp_pool ∧ s1.pmap_pool = s.pmap_pool ∧
        s1.pmap_initialized = s.pmap_initialized ∧ s1.nkptp = s.nkptp ∧ s1.cr3 = s.cr3 ∧
        s1.pv_list = s.pv_list ∧ s1.pv_pool = s.pv_pool := by
      rcases h1 with ⟨e, _⟩ | ⟨e, _, hne⟩ | ⟨e, _⟩ <;> rw [e] <;>
        simp [wire_dec, set_wire, set_mem, b12, b13, b14, b15, b16, b17, b18, b19, b110]
    obtain ⟨o1, o2, o3, o4, o5, o6, o7, o8, o9⟩ := hoth
    have hmemi : ∀ j, (s.pm p).pm_pdir_intel ≠ 0 → s1.mem (s.pm p).pm_pdir_intel j =
        if L = 3 ∧ j = slot va 4 then 0 else s.mem (s.pm p).pm_pdir_intel j := by
      intro j hne
      have hnt := hshn hne
      rcases h1 with ⟨_, _, e0⟩ | ⟨e, h4, _⟩ | ⟨e, h4⟩
      · exact absurd e0 hne
      · rw [e]
        simp only [set_mem]
        by_cases hj : j = slot va 4
        · rw [if_pos ⟨h4, hj⟩, hj, h4, slot4_eq, mem_set_same]
        · rw [if_neg (fun e1 => hj e1.2), mem_set_other _ _ _ _ _ _ (fun e1 => by
            rw [h4, slot4_eq] at e1
            exact hj e1.2), mem_set_other _ _ _ _ _ _ (fun e1 => hnt e1.1), b11]
      · rw [e, if_neg (fun e1 => by omega)]
        simp only [wire_dec, set_wire, set_mem]
        rw [mem_set_other _ _ _ _ _ _ (fun e1 => hnt e1.1), b11]
    refine ⟨?_, o9, hmemi⟩
    constructor
    · exact hp
    · exact hva
    · exact hL1
    · exact hL3
    · exact hq
    · exact ht
    · exact hempty
    · exact o1
    · exact o2
    · exact o3
    · exact o4
    · exact o5
    · exact o6
    · exact o7
    · exact o8
    · intro r
      rw [hpm]
      obtain ⟨c1, c2, c3, c4, c5, c6, _⟩ := b2 r
      exact ⟨c1, c2, c3, c4, c5, c6⟩
    · intro r k
      rw [hpm]
      exact (b2 r).2.2.2.2.2.2.2 k
    · intro r
      rw [hpm]
      exact (b2 r).2.2.2.2.2.2.1
    · rw [hwire]
      split
      · simp [upd, htq.symm]
      · simp [upd]
    · intro h4
      rw [hwire, if_pos h4]
      have := hwb (by omega) ht
      simp only [upd, if_true, htq, if_false]
      rw [dec32 _ (by omega) (by omega)]
      omega
    · intro t1 h1 h2
      rw [hwire]
      split
      · rename_i h4
        have : t1 ≠ t := fun e => h2 ⟨e, h4⟩
        simp [upd, this, h1]
      · simp [upd, h1]
    · exact hmemt
    · exact hmemo
    · intro t1 j
      rcases h1 with ⟨e, _⟩ | ⟨e, _, hne⟩ | ⟨e, _⟩ <;> rw [e] <;>
        simp only [wire_dec, set_wire, set_mem, mem_set, b11] <;> split_ifs <;> simp
  have hobjL : L < 3 → ((set_mem sF t (slot va (L + 1)) 0).pm p).pm_obj L =
      (s.pm p).pm_obj L := by
    intro h3
    rw [show ((set_mem sF t (slot va (L + 1)) 0).pm p).pm_obj L = (sF.pm p).pm_obj L from rfl,
      (b2 p).2.2.2.2.2.2.2 L, if_neg (by omega)]
  have hloop : pmap_free_ptp_loop s p va (n + 1) q L l =
      match pde_write sF va (L + 1) 0 with
      | none => none
      | some s1 =>
        if L < PTP_LEVELS - 1 then
          match pmap_find_ptp (if L = 3 ∧ (s1.pm p).pm_pdir_intel ≠ 0 then
              set_mem s1 (s1.pm p).pm_pdir_intel (pl_i va (L + 1)) 0 else s1) p va PADDR_NONE
              (L + 1) with
          | none => none
          | some pptp =>
            if (wire_dec (if L = 3 ∧ (s1.pm p).pm_pdir_intel ≠ 0 then
                set_mem s1 (s1.pm p).pm_pdir_intel (pl_i va (L + 1)) 0 else s1)
                pptp).wire_count pptp > 1 then
              some (wire_dec (if L = 3 ∧ (s1.pm p).pm_pdir_intel ≠ 0 then
                set_mem s1 (s1.pm p).pm_pdir_intel (pl_i va (L + 1)) 0 else s1) pptp, l ++ [q])
            else if L + 1 < PTP_LEVELS then
              pmap_free_ptp_loop (wire_dec (if L = 3 ∧ (s1.pm p).pm_pdir_intel ≠ 0 then
                set_mem s1 (s1.pm p).pm_pdir_intel (pl_i va (L + 1)) 0 else s1) pptp) p va n
                pptp (L + 1) (l ++ [q])
            else some (wire_dec (if L = 3 ∧ (s1.pm p).pm_pdir_intel ≠ 0 then
                set_mem s1 (s1.pm p).pm_pdir_intel (pl_i va (L + 1)) 0 else s1) pptp, l ++ [q])
        else if L + 1 < PTP_LEVELS then
          pmap_free_ptp_loop (if L = 3 ∧ (s1.pm p).pm_pdir_intel ≠ 0 then
            set_mem s1 (s1.pm p).pm_pdir_intel (pl_i va (L + 1)) 0 else s1) p va n q (L + 1)
            (l ++ [q])
        else some (if L = 3 ∧ (s1.pm p).pm_pdir_intel ≠ 0 then
            set_mem s1 (s1.pm p).pm_pdir_intel (pl_i va (L + 1)) 0 else s1, l ++ [q]) := by
    rw [hsF]
    rfl
  rw [hloop, pw]
  simp only []
  have hint : ((set_mem sF t (slot va (L + 1)) 0).pm p).pm_pdir_intel =
      (s.pm p).pm_pdir_intel := (b2 p).2.2.1
  rw [hint]
  by_cases h3 : L < 3
  · have hlt : L < PTP_LEVELS - 1 := h3
    have hlt2 : L + 1 < PTP_LEVELS := by
      simp only [PTP_LEVELS]
      omega
    have hc : ¬ (L = 3 ∧ (s.pm p).pm_pdir_intel ≠ 0) := fun e => by omega
    simp only [hc, if_false, hlt, if_true, hlt2, h3]
    have hfind : pmap_find_ptp (set_mem sF t (slot va (L + 1)) 0) p va PADDR_NONE (L + 1) =
        some t := by
      simp only [pmap_find_ptp, ne_eq, not_true_eq_false, false_and, if_false, uvm_pagelookup,
        Nat.add_sub_cancel]
      rw [hobjL h3, ptp_va2o_eq va (L + 1) (by omega) (by omega)]
      have := hS.idx p hp va (L + 1) hva (by omega) (by omega)
      rw [Nat.add_sub_cancel] at this
      rw [← this]
      exact ht
    simp only [hfind]
    exact ⟨t, _, (fin _ (Or.inr (Or.inr ⟨rfl, h3⟩))).1, (fin _ (Or.inr (Or.inr ⟨rfl, h3⟩))).2.1,
      (fin _ (Or.inr (Or.inr ⟨rfl, h3⟩))).2.2, rfl⟩
  · have hL : L = 3 := by omega
    have hlt : ¬ L < PTP_LEVELS - 1 := h3
    have hlt2 : ¬ L + 1 < PTP_LEVELS := by
      simp only [PTP_LEVELS]
      omega
    simp only [hlt, if_false, hlt2, h3]
    by_cases hc : L = 3 ∧ (s.pm p).pm_pdir_intel ≠ 0
    · rw [if_pos hc]
      exact ⟨t, _, (fin _ (Or.inr (Or.inl ⟨rfl, hL, hc.2⟩))).1,
        (fin _ (Or.inr (Or.inl ⟨rfl, hL, hc.2⟩))).2.1,
        (fin _ (Or.inr (Or.inl ⟨rfl, hL, hc.2⟩))).2.2, rfl⟩
    · rw [if_neg hc]
      have h0 : (s.pm p).pm_pdir_intel = 0 := not_not.mp (fun h => hc ⟨hL, h⟩)
      exact ⟨t, _, (fin _ (Or.inl ⟨rfl, hL, h0⟩)).1, (fin _ (Or.inl ⟨rfl, hL, h0⟩)).2.1,
        (fin _ (Or.inl ⟨rfl, hL, h0⟩)).2.2, rfl⟩

/-- The root of a user pmap is no free frame and not its shadow root. -/
theorem root_sep (c : config) (s : kstate) (hS : SInv c s) (p va : Nat) (hp : p ∈ s.pmaps)
    (hva : va < 0x7f8000000000) :
    (∀ f ∈ s.free_pages, root s p ≠ f) ∧
      ((s.pm p).pm_pdir_intel ≠ 0 → root s p ≠ (s.pm p).pm_pdir_intel) := by
  have hd := dom_user s p va hp hva
  refine ⟨fun f hf e => ?_, fun hne e => ?_⟩
  · exact hS.free_sep f hf p va 4 hd (by omega) (by omega) (by rw [ptab_4, e])
  · exact hS.shadow p hp hne p va 4 hd (by omega) (by omega) (by rw [ptab_4, e])

/-- The loop of `pmap_get_ptp` and the shadow root: below
`VM_MAXUSER_ADDRESS` an index at which the two roots agree is one at which
they agree afterwards; from `VM_MAXUSER_ADDRESS` on the shadow root is not
written. -/
theorem get_ptp_loop_shadow (c : config) (p va : Nat) (hva : va < 0x7f8000000000) :
    ∀ n, n ≤ 3 → ∀ s ptp pa ppa t, Inv c s → p ∈ s.pmaps → mapped s p →
      ptab s.mem (root s p) va (n + 1) = some t →
      (∀ q, ptp = some q → q = t ∧ ∀ j, s.mem t j = 0) →
      (ptp = none → pa = PADDR_NONE) →
      (ptp = none → n + 1 < 4 → ppa = t) →
      (s.pm p).pm_pdir_intel ≠ 0 →
      ∀ r s1, pmap_get_ptp_loop p va n ptp pa ppa s = some (r, s1) →
        (s1.pm p).pm_pdir_intel = (s.pm p).pm_pdir_intel ∧ root s1 p = root s p ∧
        (va < VM_MAXUSER_ADDRESS → ∀ j,
          (s.mem (s.pm p).pm_pdir_intel j = s.mem (root s p) j ∨
            s1.mem (root s p) j ≠ s.mem (root s p) j) →
          s1.mem (s.pm p).pm_pdir_intel j = s1.mem (root s p) j) ∧
        (VM_MAXUSER_ADDRESS ≤ va → ∀ j,
          s1.mem (s.pm p).pm_pdir_intel j = s.mem (s.pm p).pm_pdir_intel j) := by
  intro n
  induction n with
  | zero =>
    intro _ s ptp pa ppa t hI hp hmp ht hpp hpa hppa hne r s1 h
    simp only [pmap_get_ptp_loop, Option.some.injEq, Prod.mk.injEq] at h
    obtain ⟨_, e⟩ := h
    subst e
    exact ⟨rfl, rfl, fun _ _ h => h.resolve_right (fun e => e rfl), fun _ _ => rfl⟩
  | succ n ih =>
    intro hn s ptp pa ppa t hI hp hmp ht hpp hpa hppa hne r s1 h
    have hS := hI.tree
    have hp0 : p ≠ 0 := fun e => hS.kern_notin (e ▸ hp)
    have hcr : s.cr3 = root s p := hmp.resolve_right hp0
    have ht2 : ptab s.mem (root s p) va (n + 2) = some t := ht
    have hsh := hS.shape p hp va (n + 2) t hva (by omega) (by omega) ht2
    have hd := dom_user s p va hp hva
    simp only [pmap_get_ptp_loop] at h
    rw [pde_read_of_ptab s va (n + 2) t (by omega) (by omega) (hcr ▸ ht2)] at h
    simp only [] at h
    by_cases hv : pmap_valid_entry (s.mem t (slot va (n + 2))) = true
    · rw [if_pos hv] at h
      have hch := ptab_child s.mem (root s p) va (n + 1) t (by omega) (by omega) ht
        (shape_psv _ hsh hv)
      refine ih (by omega) s none pa _ _ hI hp hmp hch ?_ ?_ (fun _ _ => rfl) hne r s1 h
      · intro q hq
        cases hq
      · intro _
        cases hptp : ptp with
        | none => exact hpa hptp
        | some q =>
          have := (hpp q hptp).2 (slot va (n + 2))
          rw [this] at hv
          exact absurd hv (by decide)
    · rw [if_neg hv] at h
      have he : s.mem t (slot va (n + 2)) = 0 := by
        rcases hsh with h | h
        · exact h
        · rw [h] at hv
          exact absurd (pde_valid _ (and_frame_frame _)) hv
      cases hfree : s.free_pages with
      | nil =>
        have hA : uvm_pagealloc s p (n + 2 - 2) (ptp_va2o va (n + 2 - 1)) = (none, s) := by
          simp only [uvm_pagealloc, hfree]
        rw [hA] at h
        simp only [Option.some.injEq, Prod.mk.injEq] at h
        obtain ⟨_, e⟩ := h
        subst e
        exact ⟨rfl, rfl, fun _ _ h => h.resolve_right (fun e => e rfl), fun _ _ => rfl⟩
      | cons f rest =>
        obtain ⟨s6, e6, eA, hIn, hpool⟩ := link_spec c s hI p va (n + 2) t f rest ptp pa hp hva
          hmp (by omega) (by omega) ht2 he hfree (fun q hq => (hpp q hq).1) hpa
        have hshad := link_shadow c s hI p va (n + 2) t f rest ptp pa hp hva hmp (by omega)
          (by omega) ht2 he hfree (fun q hq => (hpp q hq).1) hpa hne s6 e6
        have hA : uvm_pagealloc s p (n + 2 - 2) (ptp_va2o va (n + 2 - 1)) =
            (some f, (uvm_pagealloc s p (n + 2 - 2) (ptp_va2o va (n + 2 - 1))).2) := by
          rw [← eA]
        rw [hA] at h
        simp only [e6] at h
        have hI6 := install_Inv c s s6 p va (n + 2) t f hI hIn
        have hp6 : p ∈ s6.pmaps := hIn.pmaps ▸ hp
        have ht6 : ptab s6.mem (root s6 p) va (n + 1) = some f := by
          rw [install_ptab c s s6 p va (n + 2) t f hS hIn p va (n + 1) hd (by omega) (by omega),
            if_pos ⟨rfl, rfl, by omega⟩, if_pos (by omega)]
        have hmp6 : mapped s6 p := by
          left
          rw [hIn.cr3, hcr]
          exact ((hIn.pm p).1).symm
        have eI : (s6.pm p).pm_pdir_intel = (s.pm p).pm_pdir_intel := (hIn.pm p).2.2.1
        have eR : root s6 p = root s p := (hIn.pm p).1
        obtain ⟨i1, i2, i3, i4⟩ := ih (by omega) s6 (some f) f pa f hI6 hp6 hmp6 ht6
          (by
            intro q hq
            cases hq
            exact ⟨rfl, hIn.mem_f⟩)
          (by
            intro e
            cases e)
          (by
            intro e
            cases e)
          (by rw [eI]; exact hne) r s1 h
        rw [eI, eR] at i3
        rw [eI] at i4
        have hf : f ∈ s.free_pages := by
          rw [hfree]
          exact List.mem_cons_self _ _
        obtain ⟨r1, r2⟩ := root_sep c s hS p va hp hva
        -- the cells of the root after the round
        have hroot : ∀ j, s6.mem (root s p) j =
            if n + 2 = 4 ∧ j = slot va 4 then f ||| PG_u ||| PG_RW ||| PG_V
            else s.mem (root s p) j := by
          intro j
          by_cases h4 : n + 2 = 4
          · have et : t = root s p := by
              rw [h4, ptab_4] at ht2
              exact (Option.some.inj ht2).symm
            by_cases hj : j = slot va 4
            · rw [if_pos ⟨h4, hj⟩, hj, ← et]
              have := hIn.mem_t
              rw [h4] at this
              exact this
            · rw [if_neg (fun e => hj e.2)]
              exact hIn.mem_o _ j (r1 f hf) (fun e => by rw [h4] at e; exact hj e.2)
                (fun e => r2 e.1 e.2)
          · rw [if_neg (fun e => h4 e.1)]
            have hne' : root s p ≠ t :=
              path_ne c s hS p va 4 (n + 2) _ t hp hva (by omega) (by omega) (by omega)
                (by omega) (ptab_4 _ _ _) ht2 (fun e => h4 e.symm)
            exact hIn.mem_o _ j (r1 f hf) (fun e => hne' e.1) (fun e => r2 e.1 e.2)
        refine ⟨i1.trans eI, i2.trans eR, ?_, ?_⟩
        · intro hu j hj
          apply i3 hu j
          rw [hshad j, hroot j]
          by_cases hc : n + 2 = 4 ∧ j = slot va 4
          · left
            rw [if_pos ⟨hc.1, hu, hc.2⟩, if_pos hc]
          · rw [if_neg (fun e => hc ⟨e.1, e.2.2⟩), if_neg hc]
            exact hj
        · intro hu j
          rw [i4 hu j, hshad j, if_neg (fun e => by omega)]

/-- The loop of `pmap_free_ptp` and the shadow root: an index at which the
two roots agree is one at which they agree afterwards. -/
theorem free_ptp_loop_shadow (c : config) (p va : Nat) (hva : va < 0x7f8000000000) :
    ∀ n s q L l, Inv c s → p ∈ s.pmaps → mapped s p → 1 ≤ L → L ≤ 3 → 4 ≤ L + n →
      ptab s.mem (root s p) va L = some q → vcount s.mem q = 0 →
      (s.pm p).pm_pdir_intel ≠ 0 →
      ∃ s1 l1, pmap_free_ptp_loop s p va n q L l = some (s1, l1) ∧
        (s1.pm p).pm_pdir_intel = (s.pm p).pm_pdir_intel ∧ root s1 p = root s p ∧
        ∀ j, (s.mem (s.pm p).pm_pdir_intel j = s.mem (root s p) j ∨
            s1.mem (root s p) j ≠ s.mem (root s p) j) →
          s1.mem (s.pm p).pm_pdir_intel j = s1.mem (root s p) j := by
  intro n
  induction n with
  | zero =>
    intro s q L l _ _ _ _ h3 h4
    omega
  | succ n ih =>
    intro s q L l hI hp hmp hL1 hL3 hn hq hempty hne
    obtain ⟨t, s', hU, hpool, hshad, heq⟩ := free_round_shadow c s hI p va L q n l hp hva hmp
      hL1 hL3 hq hempty
    have hS := hI.tree
    have hd := dom_user s p va hp hva
    have hI' := unlink_Inv c s s' p va L t q hI hU
    obtain ⟨r1, r2⟩ := root_sep c s hS p va hp hva
    have eI : (s'.pm p).pm_pdir_intel = (s.pm p).pm_pdir_intel := (hU.pm p).2.2.1
    have eR : root s' p = root s p := (hU.pm p).1
    have hroot : ∀ j, s'.mem (root s p) j =
        if L = 3 ∧ j = slot va 4 then 0 else s.mem (root s p) j := by
      intro j
      by_cases h3 : L = 3
      · have et : t = root s p := by
          have := hU.ht
          rw [h3, ptab_4] at this
          exact (Option.some.inj this).symm
        by_cases hj : j = slot va 4
        · rw [if_pos ⟨h3, hj⟩, hj, ← et]
          have := hU.mem_t
          rw [h3] at this
          exact this
        · rw [if_neg (fun e => hj e.2)]
          exact hU.mem_o _ j (fun e => by rw [h3] at e; exact hj e.2) (fun e => r2 e.1 e.2)
      · rw [if_neg (fun e => h3 e.1)]
        have hne' : root s p ≠ t :=
          path_ne c s hS p va 4 (L + 1) _ t hp hva (by omega) (by omega) (by omega)
            (by omega) (ptab_4 _ _ _) hU.ht (by omega)
        exact hU.mem_o _ j (fun e => hne' e.1) (fun e => r2 e.1 e.2)
    have hmir : ∀ j, (s.mem (s.pm p).pm_pdir_intel j = s.mem (root s p) j ∨
          s'.mem (root s p) j ≠ s.mem (root s p) j) →
        s'.mem (s.pm p).pm_pdir_intel j = s'.mem (root s p) j := by
      intro j hj
      rw [hshad j hne, hroot j]
      by_cases hc : L = 3 ∧ j = slot va 4
      · rw [if_pos hc, if_pos hc]
      · rw [if_neg hc, if_neg hc]
        refine hj.resolve_right (fun e => e ?_)
        rw [hroot j, if_neg hc]
    rw [heq]
    by_cases h3 : L < 3
    · rw [if_pos h3]
      by_cases hw : s'.wire_count t > 1
      · rw [if_pos hw]
        exact ⟨s', _, rfl, eI, eR, hmir⟩
      · rw [if_neg hw]
        have hp' : p ∈ s'.pmaps := hU.pmaps ▸ hp
        have hp0 : p ≠ 0 := fun e => hS.kern_notin (e ▸ hp)
        have hmp' : mapped s' p := by
          left
          rw [hU.cr3, hmp.resolve_right hp0]
          exact ((hU.pm p).1).symm
        have ht' : ptab s'.mem (root s' p) va (L + 1) = some t := by
          rw [unlink_ptab c s s' p va L t q hS hU p va (L + 1) hd (by omega) (by omega),
            if_neg (fun h => by omega)]
          exact hU.ht
        have hv' : vcount s'.mem t = 0 := by
          have := hI'.wire.wire p hp' va (L + 1) t hva (by omega) (by omega) ht'
          omega
        obtain ⟨s1, l1, e, i1, i2, i3⟩ := ih s' t (L + 1) (l ++ [q]) hI' hp' hmp' (by omega)
          (by omega) (by omega) ht' hv' (by rw [eI]; exact hne)
        rw [eI, eR] at i3
        refine ⟨s1, l1, e, i1.trans eI, i2.trans eR, fun j hj => i3 j ?_⟩
        by_cases hc : s'.mem (root s p) j = s.mem (root s p) j
        · rcases hj with hj | hj
          · exact Or.inl (hmir j (Or.inl hj))
          · exact Or.inr (by rw [hc]; exact hj)
        · exact Or.inl (hmir j (Or.inr hc))
    · rw [if_neg h3]
      exact ⟨s', _, rfl, eI, eR, hmir⟩

/-- `pmap_get_ptp` and the shadow root. -/
theorem get_ptp_shadow (c : config) (s : kstate) (hI : Inv c s) (p va : Nat)
    (hp : p ∈ s.pmaps) (hva : va < 0x7f8000000000) (hmp : mapped s p)
    (hne : (s.pm p).pm_pdir_intel ≠ 0) (r : Option Nat) (s1 : kstate)
    (h : pmap_get_ptp c s p va = some (r, s1)) :
    (s1.pm p).pm_pdir_intel = (s.pm p).pm_pdir_intel ∧ root s1 p = root s p ∧
      (va < VM_MAXUSER_ADDRESS → ∀ j,
        (s.mem (s.pm p).pm_pdir_intel j = s.mem (root s p) j ∨
          s1.mem (root s p) j ≠ s.mem (root s p) j) →
        s1.mem (s.pm p).pm_pdir_intel j = s1.mem (root s p) j) ∧
      (VM_MAXUSER_ADDRESS ≤ va → ∀ j,
        s1.mem (s.pm p).pm_pdir_intel j = s.mem (s.pm p).pm_pdir_intel j) := by
  simp only [pmap_get_ptp] at h
  cases hl : pmap_get_ptp_loop p va (PTP_LEVELS - 1) none PADDR_NONE PADDR_NONE s with
  | none =>
    rw [hl] at h
    cases h
  | some x =>
    obtain ⟨o, s1'⟩ := x
    have hw := get_ptp_loop_shadow c p va hva 3 (by omega) s none PADDR_NONE PADDR_NONE
      (root s p) hI hp hmp (ptab_4 _ _ _) (fun q hq => by cases hq) (fun _ => rfl)
      (fun _ h4 => by omega) hne o s1' hl
    cases o with
    | none =>
      rw [hl] at h
      simp only [Option.some.injEq, Prod.mk.injEq] at h
      obtain ⟨_, e⟩ := h
      subst e
      exact hw
    | some pr =>
      obtain ⟨ptp1, ppa1⟩ := pr
      rw [hl] at h
      simp only [] at h
      split at h
      · cases h
      · have e2 := (Prod.mk.inj (Option.some.inj h)).2
        obtain ⟨w1, w2, w3, w4⟩ := hw
        rw [← e2]
        refine ⟨?_, ?_, w3, w4⟩
        · rw [← w1]
          simp [set_hint, upd]
        · rw [← w2]
          simp [root, set_hint, upd]

/-! ## States without user pmaps -/

theorem ptab_root_zero (m : Nat → Nat → Nat) (r va L : Nat) (hz : ∀ i, m r i = 0)
    (h1 : 1 ≤ L) (h4 : L ≤ 4) :
    ptab m r va L = if L = 4 then some r else none := by
  have h0 : ¬ ((0 : Nat) = PG_V) := by decide
  have : L = 1 ∨ L = 2 ∨ L = 3 ∨ L = 4 := by omega
  rcases this with e | e | e | e <;> subst e <;> simp [ptab, pdown, pstep, hz, h0]

/-- A state without user pmaps, in which the kernel root is loaded and
empty, the chains are empty and the pools hold frames that are handed out
once, satisfies the invariant. -/
theorem kern_only_Inv (c : config) (hc : cfg_ok c) (s : kstate)
    (hinit : s.pmap_initialized = true) (hnone : s.pmaps = [])
    (hr : root s 0 ≠ 0) (hcr3 : s.cr3 = root s 0)
    (hty : (s.pm 0).pm_type = PMAP_TYPE_NORMAL) (hrefs : 1 ≤ (s.pm 0).uo_refs)
    (hpdir : (s.pm 0).pm_pdir = (s.pm 0).pm_pdirpa)
    (hz : ∀ i, s.mem (root s 0) i = 0)
    (hfn : s.free_pages.Nodup) (hff : ∀ f ∈ s.free_pages, is_frame f ∧ f ≠ root s 0)
    (hpn : s.pdp_pool.Nodup)
    (hpf : ∀ f ∈ s.pdp_pool, (is_frame f ∧ f ≠ 0) ∧ f ≠ root s 0 ∧ f ∉ s.free_pages)
    (hqn : s.pmap_pool.Nodup) (hqf : ∀ p ∈ s.pmap_pool, p ≠ 0)
    (hpv : ∀ f, s.pv_list f = []) : Inv c s := by
  have hno : ∀ p, p ∉ s.pmaps := fun p hp => by
    rw [hnone] at hp
    cases hp
  have hl0 : ∀ p, live s p → p = 0 := by
    intro p hp
    rcases hp with hp | hp
    · exact hp
    · exact absurd hp (hno p)
  have hd0 : ∀ p va, dom s p va → p = 0 := by
    intro p va hd
    rcases hd with hd | hd
    · exact absurd hd.1 (hno p)
    · exact hd.1
  have hpt : ∀ p va L t, dom s p va → 1 ≤ L → L ≤ 4 → ptab s.mem (root s p) va L = some t →
      L = 4 ∧ t = root s 0 := by
    intro p va L t hd h1 h4 ht
    have hp := hd0 p va hd
    subst hp
    rw [ptab_root_zero s.mem (root s 0) va L hz h1 h4] at ht
    split at ht
    · rename_i hL
      cases ht
      exact ⟨hL, rfl⟩
    · cases ht
  refine ⟨?_, ?_, ?_, ?_⟩
  · constructor
    · exact hc
    · exact hinit
    · exact hno 0
    · rw [hnone]
      exact List.nodup_nil
    · exact ⟨0, Or.inl rfl, hcr3⟩
    · intro p hp
      rw [hl0 p hp]
      exact hr
    · intro p hp
      rw [hl0 p hp]
      exact hty
    · intro p hp
      rw [hl0 p hp]
      exact hrefs
    · intro p hp
      rw [hl0 p hp]
      exact hpdir
    · intro p hp
      exact absurd hp (hno p)
    · intro i _ _
      exact hz i
    · intro p va L p1 va1 L1 t hd hd1 a1 a4 b1 b4 ht ht1
      obtain ⟨e1, _⟩ := hpt p va L t hd a1 a4 ht
      obtain ⟨g1, _⟩ := hpt p1 va1 L1 t hd1 b1 b4 ht1
      have hp : p = 0 := hd0 p va hd
      have hp1 : p1 = 0 := hd0 p1 va1 hd1
      refine ⟨by rw [e1, g1], by rw [hp, hp1], ?_⟩
      rw [e1]
      have := pfx3_lt va
      have := pfx3_lt va1
      simp only [pfx] at *
      omega
    · intro p hp
      exact absurd hp (hno p)
    · intro f hf p va L hd a1 a4 ht
      obtain ⟨_, e2⟩ := hpt p va L f hd a1 a4 ht
      exact (hff f hf).2 e2
    · intro f _ p hp
      exact absurd hp (hno p)
    · exact hfn
    · intro f hf
      exact (hff f hf).1
    · intro f hf p va L hd a1 a4 ht
      obtain ⟨_, e2⟩ := hpt p va L f hd a1 a4 ht
      exact (hpf f hf).2.1 e2
    · intro f _ p hp
      exact absurd hp (hno p)
    · intro f hf
      exact (hpf f hf).2.2
    · exact hpn
    · intro f hf
      exact (hpf f hf).1
    · intro p hp
      exact ⟨hqf p hp, hno p⟩
    · exact hqn
    · intro p hp
      exact absurd hp (hno p)
    · intro p hp
      exact absurd hp (hno p)
    · intro p hp
      exact absurd hp (hno p)
    · intro p hp
      exact absurd hp (hno p)
    · intro p hp
      exact absurd hp (hno p)
    · intro va _ _
      rw [ptab_root_zero s.mem (root s 0) va 1 hz (by omega) (by omega)]
      rfl
  · constructor
    intro p hp
    exact absurd hp (hno p)
  · constructor
    · intro p hp
      exact absurd hp (hno p)
    · intro p hp
      exact absurd hp (hno p)
  · constructor
    · intro f e he
      rw [hpv f] at he
      cases he
    · intro p va t hd _ ht
      obtain ⟨e1, _⟩ := hpt p va 1 t hd (by omega) (by omega) ht
      omega
    · intro f
      rw [hpv f]
      exact List.nodup_nil
    · intro p va t hd ht
      obtain ⟨e1, _⟩ := hpt p va 1 t hd (by omega) (by omega) ht
      omega

theorem bootm_Inv : Inv cfgm bootm :=
  kern_only_Inv cfgm cfgm_ok bootm rfl rfl (by decide) rfl rfl (by decide) rfl (fun _ => rfl)
    (by decide)
    (by
      show ∀ f ∈ [0x100000, 0x101000, 0x102000, 0x103000, 0x104000, 0x105000, 0x106000, 0x107000],
        f &&& PG_FRAME = f ∧ f ≠ 0x1000
      decide)
    (by decide)
    (by
      show ∀ f ∈ [0x2000, 0x3000, 0x4000, 0x5000], (f &&& PG_FRAME = f ∧ f ≠ 0) ∧ f ≠ 0x1000 ∧
        f ∉ [0x100000, 0x101000, 0x102000, 0x103000, 0x104000, 0x105000, 0x106000, 0x107000]
      decide)
    (by decide) (by decide) (fun _ => rfl)

theorem m1_Inv : Inv cfgm m1 :=
  Inv_eqv cfgm (after cfgm bootm [op.create]) m1 (after_Inv cfgm bootm _ bootm_Inv)
    ⟨rfl, rfl, rfl, rfl, rfl, ⟨rfl, rfl, rfl, rfl, rfl, rfl, fun _ => ⟨rfl, rfl, rfl, rfl, rfl, rfl⟩⟩,
      fun _ => ⟨rfl, rfl, rfl, rfl⟩⟩
    ⟨1, Or.inr (by decide), by decide⟩

theorem m2_Inv : Inv cfgm m2 := by
  obtain ⟨r, s1, e, hI1, _⟩ := get_ptp_spec cfgm m1 m1_Inv 1 0x7f7fffffb000 (by decide)
    (by decide) (Or.inl (by decide))
  have : m2 = s1 := by
    simp only [m2, e, Option.map_some', Option.getD_some]
  rw [this]
  exact hI1

/-! ## The accessed and dirty bits -/

theorem and_of_mask (x y k m : Nat) (h : x &&& k = y &&& k) (hm : k &&& m = m) :
    x &&& m = y &&& m := by
  rw [← hm, ← Nat.and_assoc, ← Nat.and_assoc, h]

theorem ptab_attr (m m1 : Nat → Nat → Nat)
    (h : ∀ t i, m1 t i &&& (0xffffffffffffffff ^^^ (PG_U ||| PG_M)) =
      m t i &&& (0xffffffffffffffff ^^^ (PG_U ||| PG_M))) (r va : Nat) :
    ∀ k, pdown m1 r va k = pdown m r va k := by
  intro k
  induction k with
  | zero => rfl
  | succ k ih =>
    simp only [pdown, ih]
    cases pdown m r va k with
    | none => rfl
    | some t =>
      simp only [pstep]
      rw [and_of_mask _ _ _ (PG_PS ||| PG_V) (h t (slot va (4 - k))) (by decide),
        and_of_mask _ _ _ PG_FRAME (h t (slot va (4 - k))) (by decide)]

theorem attr_eq_refl (s : kstate) : attr_eq s s := ⟨rfl, fun _ _ => rfl⟩

theorem attr_eq_setbits (s s1 : kstate) (h : attr_eq s s1) (t i b : Nat)
    (hb : b &&& (0xffffffffffffffff ^^^ (PG_U ||| PG_M)) = 0) :
    attr_eq s (pmap_pte_setbits s1 t i b) := by
  obtain ⟨h1, h2⟩ := h
  refine ⟨?_, ?_⟩
  · simp only [pmap_pte_setbits, set_mem]
    rw [h1]
  · intro t1 i1
    simp only [pmap_pte_setbits, set_mem]
    by_cases e : t1 = t ∧ i1 = i
    · rw [e.1, e.2, mem_set_same, Nat.and_distrib_right, hb, Nat.or_zero]
      exact h2 t i
    · rw [mem_set_other _ _ _ _ _ _ e]
      exact h2 t1 i1

/-- The separation of the trees and the consistency of the reverse map do
not look at the accessed and dirty bits. -/
theorem attr_eq_inv (c : config) (s s1 : kstate) (hI : Inv c s) (h : attr_eq s s1) :
    tree_sep s1 ∧ PInv c s1 := by
  obtain ⟨h1, h2⟩ := h
  have hpm : s1.pm = s.pm := by rw [h1]
  have hpmaps : s1.pmaps = s.pmaps := by rw [h1]
  have hpv : s1.pv_list = s.pv_list := by rw [h1]
  have hroot : ∀ p, root s1 p = root s p := fun p => by simp only [root, hpm]
  have hdom : ∀ p va, dom s1 p va ↔ dom s p va := fun p va => by simp only [dom, hpmaps]
  have hpt : ∀ p va L, ptab s1.mem (root s1 p) va L = ptab s.mem (root s p) va L := by
    intro p va L
    rw [hroot]
    exact ptab_attr s.mem s1.mem h2 (root s p) va (4 - L)
  have hv : ∀ t i, pmap_valid_entry (s1.mem t i) = pmap_valid_entry (s.mem t i) := by
    intro t i
    simp only [pmap_valid_entry]
    rw [and_of_mask _ _ _ PG_V (h2 t i) (by decide)]
  have hf : ∀ t i, s1.mem t i &&& PG_FRAME = s.mem t i &&& PG_FRAME :=
    fun t i => and_of_mask _ _ _ PG_FRAME (h2 t i) (by decide)
  have hl : ∀ t i, s1.mem t i &&& PG_PVLIST = s.mem t i &&& PG_PVLIST :=
    fun t i => and_of_mask _ _ _ PG_PVLIST (h2 t i) (by decide)
  refine ⟨?_, ?_⟩
  · intro p va L p1 va1 L1 t hd hd1 a1 a4 b1 b4 ht ht1
    rw [hpt] at ht ht1
    exact hI.tree.sep p va L p1 va1 L1 t ((hdom _ _).1 hd) ((hdom _ _).1 hd1) a1 a4 b1 b4 ht ht1
  · constructor
    · intro f e he
      rw [hpv] at he
      obtain ⟨k1, k2, t, k3, k4, k5, k6, k7⟩ := hI.pv.pv_sound f e he
      refine ⟨(hdom _ _).2 k1, k2, t, ?_, ?_, ?_, ?_, k7⟩
      · rw [hpt]
        exact k3
      · rw [hv]
        exact k4
      · rw [hf]
        exact k5
      · rw [hl]
        exact k6
    · intro p va t hd ha ht hval hpl
      rw [hpt] at ht
      rw [hv] at hval
      rw [hl] at hpl
      rw [hpv, hf]
      exact hI.pv.pv_complete p va t ((hdom _ _).1 hd) ha ht hval hpl
    · intro f
      rw [hpv]
      exact hI.pv.pv_nodup f
    · intro p va t hd ht hval
      rw [hpt] at ht
      rw [hv] at hval
      rw [hl, hf]
      exact hI.pv.pv_managed p va t ((hdom _ _).1 hd) ht hval

theorem st2a_attr : attr_eq st2 st2a :=
  attr_eq_setbits _ _ (attr_eq_setbits _ _ (attr_eq_setbits _ _ (attr_eq_setbits _ _
    (attr_eq_refl st2) 0x2000 0 PG_U (by decide)) 0x100000 0 PG_U (by decide))
    0x101000 0 PG_U (by decide)) 0x102000 1 (PG_U ||| PG_M) (by decide)

/-! ## `pmap_write_protect` on a range above 2^48 -/

/-- The block loop of `pmap_write_protect` with an end above `2 ^ 48`: the
end of a block, `(va & L2_FRAME) + NBPD_L2`, is at most `2 ^ 48`, so that the
loop never reaches `eva`. -/
theorem wp_loop_high (c : config) (eva nx : Nat) (he : 2 ^ 48 < eva) :
    ∀ n va s, va < eva → pmap_write_protect_loop c eva nx n va s = none := by
  intro n
  induction n with
  | zero =>
    intro va s _
    rfl
  | succ n ih =>
    intro va s hlt
    have hb : (va &&& L2_FRAME) + NBPD_L2 ≤ 2 ^ 48 := by
      have h1 : va &&& L2_FRAME ≤ L2_FRAME := Nat.and_le_right
      have h2 : L2_FRAME + NBPD_L2 = 2 ^ 48 := by decide
      omega
    have hw : w64 ((va &&& L2_FRAME) + NBPD_L2) = (va &&& L2_FRAME) + NBPD_L2 := by
      simp only [w64]
      apply Nat.mod_eq_of_lt
      omega
    have hg : ¬ ((va &&& L2_FRAME) + NBPD_L2 > eva) := by omega
    have hnext : ∀ s1, pmap_write_protect_loop c eva nx n ((va &&& L2_FRAME) + NBPD_L2) s1 =
        none := fun s1 => ih _ s1 (by omega)
    simp only [pmap_write_protect_loop, hlt, if_true, hw, hg, if_false, hnext]
    split
    · rfl
    · split
      · rfl
      · split
        · rfl
        · split <;> rfl

/-- `pmap_write_protect` does not return for a range that, after the
masking of `sva` and `eva` with `PG_FRAME`, is not empty and ends above
`2 ^ 48`. -/
theorem write_protect_high (c : config) (s : kstate) (pmap sva eva prot : Nat)
    (h1 : sva &&& PG_FRAME < eva &&& PG_FRAME) (h2 : 2 ^ 48 < eva &&& PG_FRAME) :
    pmap_write_protect c s pmap sva eva prot = none := by
  simp only [pmap_write_protect]
  cases pmap_map_ptes c s pmap with
  | none => rfl
  | some r =>
    obtain ⟨scr3, s0⟩ := r
    simp only [wp_loop_high c _ _ h2 _ _ s0 h1]

/-! ## `pmap_remove` on the kernel pmap -/

theorem alloc_fails_kernel (s : kstate) (va : Nat)
    (hk : ptab s.mem (root s 0) va 1 ≠ none) : alloc_fails s 0 va ↔ s.pv_pool = 0 := by
  cases ht : ptab s.mem (root s 0) va 1 with
  | none => exact absurd ht hk
  | some t =>
    simp only [alloc_fails, need_leaf s 0 va t ht]
    constructor
    · rintro (h | h)
      · exact h
      · omega
    · exact fun h => Or.inl h

/-- What `pmap_enter` does for a pmap of the normal regime in a state that
satisfies the invariant: a user pmap and a page-aligned address below the
recursive slot, or the kernel pmap and a page-aligned address of the kernel
half whose leaf table exists. -/
theorem enter_cases (c : config) (s : kstate) (hI : Inv c s) (p va pa prot flags : Nat)
    (hd : dom s p va) (ha : va % 4096 = 0) (hpa : pa < 2 ^ 52)
    (hk : p = 0 → ptab s.mem (root s p) va 1 ≠ none) :
    (pmap_enter c s p va pa prot flags = none ∧
      ((c.DIAGNOSTIC = true ∧ pa &&& PMAP_NOCACHE ≠ 0 ∧
          (pa &&& PMAP_WC ≠ 0 ∨ (¬ alloc_fails s p va ∧
            pmap_enter_pgwc s (PHYS_TO_VM_PAGE c (pa &&& PMAP_PA_MASK)) = true))) ∨
        (flags &&& PMAP_CANFAIL = 0 ∧ alloc_fails s p va))) ∨
    ∃ r s1, pmap_enter c s p va pa prot flags = some (r, s1) ∧ Inv c s1 ∧
      ((r = ENOMEM ∧ flags &&& PMAP_CANFAIL ≠ 0 ∧ alloc_fails s p va ∧
          leaf s1 p va = leaf s p va ∧
          (∀ q, (s1.pm q).wired_count = (s.pm q).wired_count) ∧
          s1.pv_list = s.pv_list ∧ s1.pv_pool = s.pv_pool) ∨
        (r = 0 ∧ ¬ alloc_fails s p va)) := by
  rcases hd with ⟨hp, hva⟩ | ⟨hp, hva, hva2⟩
  · rcases enter_spec c s hI p va pa prot flags hp hva ha hpa with
      ⟨h0, h1⟩ | ⟨r, s1, h1, h2, _, _, h5⟩
    · exact Or.inl ⟨h0, h1⟩
    · refine Or.inr ⟨r, s1, h1, h2, ?_⟩
      rcases h5 with h5 | ⟨e, h6, _⟩
      · exact Or.inl h5
      · exact Or.inr ⟨e, h6⟩
  · subst hp
    have hk0 := hk rfl
    have haf := alloc_fails_kernel s va hk0
    cases ht : ptab s.mem (root s 0) va 1 with
    | none => exact absurd ht hk0
    | some t =>
      rcases enter_kernel_spec c s hI va pa prot flags hva hva2 ha hpa t ht with
        ⟨h0, h1⟩ | ⟨r, s1, h1, h2, _, _, h5⟩
      · left
        refine ⟨h0, ?_⟩
        rcases h1 with ⟨a, b, h1⟩ | ⟨a, b⟩
        · refine Or.inl ⟨a, b, ?_⟩
          rcases h1 with h1 | ⟨h1, h3⟩
          · exact Or.inl h1
          · exact Or.inr ⟨fun h => h1 (haf.1 h), h3⟩
        · exact Or.inr ⟨a, haf.2 b⟩
      · refine Or.inr ⟨r, s1, h1, h2, ?_⟩
        rcases h5 with ⟨e, a, b, h5⟩ | ⟨e, a, _⟩
        · subst h5
          exact Or.inl ⟨e, a, haf.2 b, rfl, fun _ => rfl, rfl, rfl⟩
        · exact Or.inr ⟨e, fun h => a (haf.1 h)⟩

/-- What `op_ok` allows is in `op_dom`. -/
theorem op_dom_of_ok (s : kstate) (o : op) (h : op_ok s o = true) : op_dom s o := by
  cases o with
  | create => exact h
  | page_remove pg => exact h
  | write_protect p sva eva prot => exact h
  | unwire p va => exact h
  | enter p va pa prot flags =>
    simp only [op_ok, decide_eq_true_eq] at h
    exact ⟨h.2.2.1, h.2.2.2.2.1, Or.inl ⟨h.1, h.2.1⟩⟩
  | remove p sva eva =>
    simp only [op_ok, decide_eq_true_eq] at h
    exact ⟨h.2.1, h.2.2.1, h.2.2.2.1, Or.inl ⟨h.1, h.2.2.2.2⟩⟩

theorem boot0_Inv : Inv cfg0 boot0 := boot_Inv cfg0 cfg0_ok _ (by decide)

theorem st1_Inv : Inv cfg0 st1 := after_Inv cfg0 boot0 _ boot0_Inv

theorem st2_Inv : Inv cfg0 st2 := after_Inv cfg0 boot0 _ boot0_Inv

theorem u2_Inv : Inv cfg0 u2 := after_Inv cfg0 boot0 _ boot0_Inv

/-- C1: in a state that satisfies the state invariant, for a user pmap `p`,
a page-aligned user address `va` below the recursive slot, a page-aligned
physical address `pa` of at most 52 bits, a protection `prot` and any
flags: when `pmap_enter` returns 0, `pmap_extract` of `va + off` returns
`pa + off` for every offset `off` inside the page. -/
theorem enter_extract (c : config) (s : kstate) (hI : Inv c s) (p va pa prot flags : Nat)
    (s1 : kstate) (off : Nat) (hp : p ∈ s.pmaps) (hva : va < 0x7f8000000000)
    (ha : va % PAGE_SIZE = 0) (hpa : pa % PAGE_SIZE = 0) (hpa2 : pa < 2 ^ 52) (_hprot : prot < 8)
    (h : pmap_enter c s p va pa prot flags = some (0, s1)) (hoff : off < PAGE_SIZE) :
    pmap_extract s1 p (va + off) = some (pa + off) := by
  obtain ⟨_, _, _, t, h1, h2, h3, _⟩ := enter_ok c s hI p va pa prot flags hp hva ha hpa hpa2 s1 h
  have hp0 : p ≠ 0 := fun e => hI.tree.kern_notin (e ▸ hp)
  rw [extract_page s1 p va t off hp0 ha hoff h1 h2, h3]

theorem enter_extract_witness :
    Inv cfg0 st1 ∧ pmap_enter cfg0 st1 1 0x1000 0x400000 3 0 = some (0, st2) ∧
      pmap_extract st2 1 0x1080 = some 0x400080 :=
  ⟨st1_Inv, rfl,
    enter_extract cfg0 st1 st1_Inv 1 0x1000 0x400000 3 0 st2 0x80 (by decide) (by decide)
      (by decide) (by decide) (by decide) (by decide) rfl (by decide)⟩

/-- C2, as stated: a page-aligned range inside the recursive slot is left
as it is by the range path of `pmap_remove`, which skips the blocks of that
slot; `pmap_extract` still answers for its first page. -/
theorem remove_recursive_slot_counterexample :
    Inv cfg0 st2 ∧ 1 ∈ st2.pmaps ∧
      (pmap_remove cfg0 st2 1 0x7f8000000000 0x7f8000002000).map
        (fun s1 => pmap_extract s1 1 0x7f8000000000) = some (some 0x102000) :=
  ⟨st2_Inv, by decide, by decide!⟩

/-- C2, amended: in a state that satisfies the state invariant (which
holds the PTP `wire_count` invariant), for a user pmap and a page-aligned
range `[sva, eva)` with `sva < eva` that ends at or below the recursive
slot, `pmap_remove` returns, and afterwards `pmap_extract` returns FALSE for
every `va` of the range, on the single-page path and on the range path. -/
theorem remove_extract_none (c : config) (s : kstate) (hI : Inv c s) (p sva eva : Nat)
    (hp : p ∈ s.pmaps) (ha : sva % PAGE_SIZE = 0) (hae : eva % PAGE_SIZE = 0) (hlt : sva < eva)
    (he : eva ≤ 0x7f8000000000) :
    ∃ s1, pmap_remove c s p sva eva = some s1 ∧
      ∀ va, sva ≤ va → va < eva → pmap_extract s1 p va = none := by
  obtain ⟨s1, h1, h2, _, h4, _, _, h7, _⟩ := remove_spec c s hI p sva eva hp ha hae hlt he
  refine ⟨s1, h1, ?_⟩
  intro va a1 a2
  exact cleared_extract c s1 h2.tree p va (h4.1 ▸ hp) (by omega) (h7 va a1 a2)

theorem remove_extract_none_witness :
    Inv cfg0 st2 ∧ pmap_extract st2 1 0x1080 = some 0x400080 ∧
      ∃ s1, pmap_remove cfg0 st2 1 0x1000 0x3000 = some s1 ∧
        ∀ va, 0x1000 ≤ va → va < 0x3000 → pmap_extract s1 1 va = none :=
  ⟨st2_Inv, rfl,
    remove_extract_none cfg0 st2 st2_Inv 1 0x1000 0x3000 (by decide) (by decide) (by decide)
      (by decide) (by decide)⟩

/-- C3: in a state that satisfies the state invariant (which holds the
consistency of the reverse map and the leaf PTEs), `pmap_page_remove` of a
frame returns; afterwards the chain of the frame is empty, and for every
(`pmap`, `va`) that was on the chain the leaf PTE is zero and `pmap_extract`
returns FALSE. -/
theorem page_remove_unmaps (c : config) (s : kstate) (hI : Inv c s) (pg : Nat) :
    ∃ s1, pmap_page_remove c s pg = some s1 ∧ s1.pv_list pg = [] ∧
      ∀ e ∈ s.pv_list pg, leaf s1 e.pv_pmap e.pv_va ∈ [none, some 0] ∧
        pmap_extract s1 e.pv_pmap e.pv_va = none := by
  obtain ⟨s1, h1, _, _, _, _, _, h7, h8⟩ := page_remove_spec c s hI pg
  refine ⟨s1, h1, h7, ?_⟩
  intro e he
  obtain ⟨k1, k2⟩ := h8 e he
  refine ⟨?_, k2 ?_⟩
  · simp only [leaf]
    cases ht : ptab s1.mem (root s1 e.pv_pmap) e.pv_va 1 with
    | none => simp
    | some t => simp [k1 t ht]
  · intro hdm
    obtain ⟨_, _, t, ht, _⟩ := hI.pv.pv_sound pg e he
    rw [hdm.1, hI.tree.direct e.pv_va hdm.2.1 hdm.2.2] at ht
    cases ht

theorem page_remove_unmaps_witness :
    Inv cfg0 u2 ∧
      (u2.pv_list 0x400000).map (fun e => (e.pv_pmap, e.pv_va)) = [(2, 0x2000), (1, 0x1000)] ∧
      pmap_extract u2 1 0x1000 = some 0x400000 ∧ pmap_extract u2 2 0x2000 = some 0x400000 ∧
      ∃ s1, pmap_page_remove cfg0 u2 0x400000 = some s1 ∧ s1.pv_list 0x400000 = [] ∧
        ∀ e ∈ u2.pv_list 0x400000, leaf s1 e.pv_pmap e.pv_va ∈ [none, some 0] ∧
          pmap_extract s1 e.pv_pmap e.pv_va = none :=
  ⟨u2_Inv, rfl, rfl, rfl, page_remove_unmaps cfg0 u2 u2_Inv 0x400000⟩

theorem st4_Inv : Inv cfg0 st4 := after_Inv cfg0 st2 _ st2_Inv

theorem w1_Inv : Inv cfg0 w1 := after_Inv cfg0 st1 _ st1_Inv

theorem boot2_Inv : Inv cfg0 boot2 := boot_Inv cfg0 cfg0_ok _ (by decide)

theorem t1_Inv : Inv cfg0 t1 := after_Inv cfg0 boot2 _ boot2_Inv

theorem t2_Inv : Inv cfg0 t2 := after_Inv cfg0 t1 _ t1_Inv

theorem w2_Inv : Inv cfg0 w2 := after_Inv cfg0 w1 _ w1_Inv

theorem stw_Inv : Inv cfg0 stw :=
  Inv_sim cfg0 st1 stw st1_Inv
    ⟨rfl, rfl, rfl, rfl, rfl, rfl, rfl, rfl, rfl, fun _ => ⟨rfl, rfl, rfl, rfl, rfl, rfl, rfl⟩⟩
    st1_Inv.tree.cr3_live (fun p hp => st1_Inv.tree.refs p hp)

/-- C8, as stated, fails on a `DIAGNOSTIC` kernel for the flag `NOCACHE`.
In the state `st1` no allocation fails for the page `0x1000` of the pmap 1;
`pmap_enter` of the frame `0x400000` with the flags `NOCACHE` and `WC` stops
at `KASSERT(!(wc && nocache))` and does not return.  In the state `stw` the
header of the frame `0x400000` has the flag `PG_PMAP_WC`; `pmap_enter` of it
with the flag `NOCACHE` stops at `KASSERT(nocache == 0)` and does not
return, after the allocations succeeded.  Without `DIAGNOSTIC` both calls
return 0. -/
theorem enter_nocache_counterexample :
    (Inv cfg0 st1 ∧ 1 ∈ st1.pmaps ∧ (st1.pm 1).pm_type = PMAP_TYPE_NORMAL ∧
      cfg0.DIAGNOSTIC = true ∧ ¬ alloc_fails st1 1 0x1000 ∧
      pmap_enter cfg0 st1 1 0x1000 (0x400000 ||| PMAP_NOCACHE ||| PMAP_WC) 3 0 = none ∧
      (pmap_enter cfg1 st1 1 0x1000 (0x400000 ||| PMAP_NOCACHE ||| PMAP_WC) 3 0).map Prod.fst =
        some 0) ∧
    (Inv cfg0 stw ∧ 1 ∈ stw.pmaps ∧ (stw.pm 1).pm_type = PMAP_TYPE_NORMAL ∧
      ¬ alloc_fails stw 1 0x1000 ∧ cfg0.managed 0x400000 = true ∧
      stw.pg_flags 0x400000 &&& PG_PMAP_WC ≠ 0 ∧
      pmap_enter cfg0 stw 1 0x1000 (0x400000 ||| PMAP_NOCACHE) 3 0 = none ∧
      (pmap_enter cfg1 stw 1 0x1000 (0x400000 ||| PMAP_NOCACHE) 3 0).map Prod.fst = some 0) :=
  ⟨⟨st1_Inv, by decide, by decide, rfl, by
      simp only [alloc_fails, not_or]
      decide, rfl, by decide⟩,
    ⟨stw_Inv, by decide, by decide, by
      simp only [alloc_fails, not_or]
      decide, by decide, by decide, rfl, by decide⟩⟩

/-- C8, amended: in a state that satisfies the invariant, for a user pmap
and a page-aligned `va` below the recursive slot, or the kernel pmap and a
page-aligned `va` of the kernel half whose leaf table exists, and a physical
address with any flags.  `pmap_enter` returns `ENOMEM` exactly when
`CANFAIL` is set and an allocation fails (the pool of pv entries is empty,
or the free frames do not suffice for the page-table pages of `va`), unless
a `DIAGNOSTIC` kernel is given `WC` and `NOCACHE` together; it returns 0
whenever no allocation fails, unless a `DIAGNOSTIC` kernel is given
`NOCACHE` together with `WC` or for a managed frame whose header has
`PG_PMAP_WC`; and when it returns `ENOMEM` the leaf PTE at `va`, the
`wired_count` of every pmap and every chain are as before, and the pool of
pv entries has its entry back. -/
theorem enter_enomem (c : config) (s : kstate) (hI : Inv c s) (p va pa prot flags : Nat)
    (hd : dom s p va) (ha : va % PAGE_SIZE = 0) (hpa : pa < 2 ^ 52)
    (hk : p = 0 → ptab s.mem (root s p) va 1 ≠ none) :
    ((∃ s1, pmap_enter c s p va pa prot flags = some (ENOMEM, s1)) ↔
        (flags &&& PMAP_CANFAIL ≠ 0 ∧ alloc_fails s p va ∧
          ¬ (c.DIAGNOSTIC = true ∧ pa &&& PMAP_WC ≠ 0 ∧ pa &&& PMAP_NOCACHE ≠ 0))) ∧
      (¬ alloc_fails s p va →
        ¬ (c.DIAGNOSTIC = true ∧ pa &&& PMAP_NOCACHE ≠ 0 ∧
          (pa &&& PMAP_WC ≠ 0 ∨
            pmap_enter_pgwc s (PHYS_TO_VM_PAGE c (pa &&& PMAP_PA_MASK)) = true)) →
        ∃ s1, pmap_enter c s p va pa prot flags = some (0, s1)) ∧
      (∀ s1, pmap_enter c s p va pa prot flags = some (ENOMEM, s1) →
        leaf s1 p va = leaf s p va ∧ (∀ q, (s1.pm q).wired_count = (s.pm q).wired_count) ∧
          s1.pv_list = s.pv_list ∧ s1.pv_pool = s.pv_pool) := by
  have hne : ENOMEM ≠ 0 := by decide
  have hty : ¬ (s.pm p).pm_type = PMAP_TYPE_EPT := by
    have hl : live s p := by
      rcases hd with h | h
      · exact Or.inr h.1
      · exact Or.inl h.1
    rw [hI.tree.normal p hl]
    decide
  have hfirst : c.DIAGNOSTIC = true ∧ pa &&& PMAP_WC ≠ 0 ∧ pa &&& PMAP_NOCACHE ≠ 0 →
      pmap_enter c s p va pa prot flags = none := by
    intro h
    have hw : c.DIAGNOSTIC = true ∧ (pa &&& PMAP_WC != 0) = true ∧
        (pa &&& PMAP_NOCACHE != 0) = true := ⟨h.1, by simpa using h.2.1, by simpa using h.2.2⟩
    simp only [pmap_enter, if_neg hty, if_pos hw]
  rcases enter_cases c s hI p va pa prot flags hd ha hpa hk with
    ⟨h0, h1⟩ | ⟨r, s1, h1, _, h5⟩
  · refine ⟨⟨?_, ?_⟩, ?_, ?_⟩
    · rintro ⟨s1, e⟩
      rw [h0] at e
      cases e
    · rintro ⟨a, b, d⟩
      exfalso
      rcases h1 with ⟨k1, k2, k3⟩ | ⟨k1, _⟩
      · rcases k3 with k3 | ⟨k3, _⟩
        · exact d ⟨k1, k3, k2⟩
        · exact k3 b
      · exact a k1
    · intro a b
      exfalso
      rcases h1 with ⟨k1, k2, k3⟩ | ⟨_, k2⟩
      · rcases k3 with k3 | ⟨_, k3⟩
        · exact b ⟨k1, k2, Or.inl k3⟩
        · exact b ⟨k1, k2, Or.inr k3⟩
      · exact a k2
    · intro s1 e
      rw [h0] at e
      cases e
  · have hnf : ¬ (c.DIAGNOSTIC = true ∧ pa &&& PMAP_WC ≠ 0 ∧ pa &&& PMAP_NOCACHE ≠ 0) := by
      intro h
      rw [hfirst h] at h1
      cases h1
    rcases h5 with ⟨e, h6, h7, h8⟩ | ⟨e, h6⟩
    · subst e
      refine ⟨⟨fun _ => ⟨h6, h7, hnf⟩, fun _ => ⟨s1, h1⟩⟩, fun h => absurd h7 h, ?_⟩
      intro s2 e
      rw [h1] at e
      cases e
      exact h8
    · subst e
      refine ⟨⟨?_, fun h => absurd h.2.1 h6⟩, fun _ _ => ⟨s1, h1⟩, ?_⟩
      · rintro ⟨s2, e⟩
        rw [h1] at e
        cases e
      · intro s2 e
        rw [h1] at e
        cases e

/-- In the state `t1` two frames are free and the page `0x1000` needs three
page-table pages: `pmap_enter` with `CANFAIL` returns `ENOMEM`.  In the
state `st1` the same page is entered uncached (`NOCACHE`) and the call
returns 0.  In the state `kimg` the page at `KERNBASE` of the kernel pmap is
entered uncached and the call returns 0. -/
theorem enter_enomem_witness :
    (Inv cfg0 t1 ∧ t1.free_pages.length = 2 ∧ need t1 1 0x1000 = 3 ∧
      pmap_enter cfg0 t1 1 0x1000 0x400000 3 PMAP_CANFAIL = some (ENOMEM, t2) ∧
      (((∃ s1, pmap_enter cfg0 t1 1 0x1000 0x400000 3 PMAP_CANFAIL = some (ENOMEM, s1)) ↔
          (PMAP_CANFAIL &&& PMAP_CANFAIL ≠ 0 ∧ alloc_fails t1 1 0x1000 ∧
            ¬ (cfg0.DIAGNOSTIC = true ∧ 0x400000 &&& PMAP_WC ≠ 0 ∧
              0x400000 &&& PMAP_NOCACHE ≠ 0))) ∧
        (¬ alloc_fails t1 1 0x1000 →
          ¬ (cfg0.DIAGNOSTIC = true ∧ 0x400000 &&& PMAP_NOCACHE ≠ 0 ∧
            (0x400000 &&& PMAP_WC ≠ 0 ∨
              pmap_enter_pgwc t1 (PHYS_TO_VM_PAGE cfg0 (0x400000 &&& PMAP_PA_MASK)) = true)) →
          ∃ s1, pmap_enter cfg0 t1 1 0x1000 0x400000 3 PMAP_CANFAIL = some (0, s1)) ∧
        (∀ s1, pmap_enter cfg0 t1 1 0x1000 0x400000 3 PMAP_CANFAIL = some (ENOMEM, s1) →
          leaf s1 1 0x1000 = leaf t1 1 0x1000 ∧
            (∀ q, (s1.pm q).wired_count = (t1.pm q).wired_count) ∧
            s1.pv_list = t1.pv_list ∧ s1.pv_pool = t1.pv_pool))) ∧
    (∃ s1, pmap_enter cfg0 st1 1 0x1000 (0x400000 ||| PMAP_NOCACHE) 3 0 = some (0, s1)) ∧
    (∃ s1, pmap_enter cfg0 kimg 0 KERNBASE (0x900000 ||| PMAP_NOCACHE) 3 0 = some (0, s1)) :=
  ⟨⟨t1_Inv, rfl, rfl, rfl,
      enter_enomem cfg0 t1 t1_Inv 1 0x1000 0x400000 3 PMAP_CANFAIL (Or.inl ⟨by decide, by decide⟩)
        (by decide) (by decide) (fun h => absurd h (by decide))⟩,
    (enter_enomem cfg0 st1 st1_Inv 1 0x1000 (0x400000 ||| PMAP_NOCACHE) 3 0
      (Or.inl ⟨by decide, by decide⟩) (by decide) (by decide)
      (fun h => absurd h (by decide))).2.1
      (by
        simp only [alloc_fails, not_or]
        decide)
      (by decide),
    (enter_enomem cfg0 kimg (kimg_Inv cfg0 cfg0_ok (by decide)) 0 KERNBASE
      (0x900000 ||| PMAP_NOCACHE) 3 0 (Or.inr ⟨rfl, by decide, by decide⟩) (by decide)
      (by decide) (fun _ => by decide)).2.1
      (by
        simp only [alloc_fails, not_or]
        decide)
      (by decide)⟩

/-- C10: in a state that satisfies the invariant, for a user pmap and a
page-aligned `va` below the recursive slot, or the kernel pmap and a
page-aligned `va` of the kernel half whose leaf table exists, and a physical
address with any flags, a successful `pmap_enter` leaves the wired bit of
the leaf PTE set exactly when the `WIRED` flag was passed, and changes
`wired_count` by (1 if `WIRED` else 0) minus (1 if the previous leaf was
valid and wired else 0). -/
theorem enter_wired (c : config) (s : kstate) (hI : Inv c s) (p va pa prot flags : Nat)
    (hd : dom s p va) (ha : va % PAGE_SIZE = 0) (hpa2 : pa < 2 ^ 52)
    (hk : p = 0 → ptab s.mem (root s p) va 1 ≠ none) (s1 : kstate)
    (h : pmap_enter c s p va pa prot flags = some (0, s1)) :
    (∃ e, leaf s1 p va = some e ∧ (e &&& PG_W ≠ 0 ↔ flags &&& PMAP_WIRED ≠ 0)) ∧
      (s1.pm p).wired_count = (s.pm p).wired_count +
        (if flags &&& PMAP_WIRED ≠ 0 then 1 else 0) - (old_wbit s p va : Int) := by
  have hpaf : is_frame (pa &&& PMAP_PA_MASK) := by
    rw [is_frame_iff, and_pa_mask]
    omega
  obtain ⟨_, _, _, t, h1, h4, h5⟩ := enter_live c s hI p va pa prot flags hd ha hpa2 hk s1 h
  refine ⟨⟨s1.mem t (slot va 1), ?_, ?_⟩, ?_⟩
  · simp only [leaf, h1]
    rfl
  · rw [h4, npte_w c hI.tree.cfg _ _ _ _ _ _ _ _ hpaf]
    by_cases hw : flags &&& PMAP_WIRED = 0 <;> simp [hw, PG_W]
  · rw [h5]
    by_cases hw : flags &&& PMAP_WIRED = 0 <;> simp [hw]

/-- In the state `st1` the page `0x1000` of the pmap 1 is entered wired, then
entered again with the same frame and without `WIRED`: `wired_count` goes
from 0 to 1 and back to 0.  In the state `kimg` the page at `KERNBASE` of the
kernel pmap is entered wired and uncached: `wired_count` of the kernel pmap
goes from 0 to 1. -/
theorem enter_wired_witness :
    Inv cfg0 st1 ∧ pmap_enter cfg0 st1 1 0x1000 0x400000 3 PMAP_WIRED = some (0, w1) ∧
      pmap_enter cfg0 w1 1 0x1000 0x400000 3 0 = some (0, w2) ∧
      (st1.pm 1).wired_count = 0 ∧ (w1.pm 1).wired_count = 1 ∧ (w2.pm 1).wired_count = 0 ∧
      ((∃ e, leaf w1 1 0x1000 = some e ∧ (e &&& PG_W ≠ 0 ↔ PMAP_WIRED &&& PMAP_WIRED ≠ 0)) ∧
        (w1.pm 1).wired_count = (st1.pm 1).wired_count +
          (if PMAP_WIRED &&& PMAP_WIRED ≠ 0 then 1 else 0) - (old_wbit st1 1 0x1000 : Int)) ∧
      ((∃ e, leaf w2 1 0x1000 = some e ∧ (e &&& PG_W ≠ 0 ↔ 0 &&& PMAP_WIRED ≠ 0)) ∧
        (w2.pm 1).wired_count = (w1.pm 1).wired_count +
          (if 0 &&& PMAP_WIRED ≠ 0 then 1 else 0) - (old_wbit w1 1 0x1000 : Int)) ∧
      pmap_enter cfg0 kimg 0 KERNBASE (0x900000 ||| PMAP_NOCACHE) 3 PMAP_WIRED = some (0, kw1) ∧
      (kimg.pm 0).wired_count = 0 ∧ (kw1.pm 0).wired_count = 1 ∧
      ((∃ e, leaf kw1 0 KERNBASE = some e ∧ (e &&& PG_W ≠ 0 ↔ PMAP_WIRED &&& PMAP_WIRED ≠ 0)) ∧
        (kw1.pm 0).wired_count = (kimg.pm 0).wired_count +
          (if PMAP_WIRED &&& PMAP_WIRED ≠ 0 then 1 else 0) - (old_wbit kimg 0 KERNBASE : Int)) :=
  ⟨st1_Inv, rfl, rfl, rfl, rfl, rfl,
    enter_wired cfg0 st1 st1_Inv 1 0x1000 0x400000 3 PMAP_WIRED (Or.inl ⟨by decide, by decide⟩)
      (by decide) (by decide) (fun h => absurd h (by decide)) w1 rfl,
    enter_wired cfg0 w1 w1_Inv 1 0x1000 0x400000 3 0 (Or.inl ⟨by decide, by decide⟩)
      (by decide) (by decide) (fun h => absurd h (by decide)) w2 rfl,
    rfl, rfl, by decide,
    enter_wired cfg0 kimg (kimg_Inv cfg0 cfg0_ok (by decide)) 0 KERNBASE
      (0x900000 ||| PMAP_NOCACHE) 3 PMAP_WIRED (Or.inr ⟨rfl, by decide, by decide⟩)
      (by decide) (by decide) (fun _ => by decide) kw1 (by rfl)⟩

theorem old_vbit_invalid (s : kstate) (p va : Nat)
    (h : ∀ e, leaf s p va = some e → pmap_valid_entry e = false) : old_vbit s p va = 0 := by
  simp only [old_vbit]
  cases hl : leaf s p va with
  | none => rfl
  | some e => simp [vbit, h e hl]

theorem old_valid_table (s : kstate) (p va e : Nat) (h : leaf s p va = some e) :
    ∃ t, ptab s.mem (root s p) va 1 = some t ∧ e = s.mem t (slot va 1) := by
  simp only [leaf] at h
  cases ht : ptab s.mem (root s p) va 1 with
  | none =>
    rw [ht] at h
    cases h
  | some t =>
    rw [ht] at h
    exact ⟨t, rfl, (Option.some.inj h).symm⟩

/-- C11: a successful `pmap_enter` (normal regime; a user pmap and `va`
below the recursive slot, or the kernel pmap and a kernel `va` whose leaf
table exists) ends with a leaf table `t` for `va`, and:
if the previous leaf PTE at `va` was invalid (or there was no leaf table),
`resident_count` grows by 1 for the leaf, beside 1 for each page-table page
added, and the `wire_count` of the leaf PTP grows by 1 (from the count 1 of
a new PTP, when the PTP is new; it does not change for the kernel pmap,
where no `wire_count` changes at all);
if the previous leaf PTE was valid, with the same or another frame, `t` was
the leaf table before, and `resident_count`, the number of page-table pages
and the `wire_count` of the leaf PTP do not change. -/
theorem enter_counts (c : config) (s : kstate) (hI : Inv c s) (p va pa prot flags : Nat)
    (hd : dom s p va) (ha : va % PAGE_SIZE = 0) (hpa : pa < 2 ^ 52)
    (hk : p = 0 → ptab s.mem (root s p) va 1 ≠ none) (s1 : kstate)
    (h : pmap_enter c s p va pa prot flags = some (0, s1)) :
    ∃ t, ptab s1.mem (root s1 p) va 1 = some t ∧
      ((∀ e, leaf s p va = some e → pmap_valid_entry e = false) →
        (s1.pm p).resident_count =
            (s.pm p).resident_count + 1 + ((ptp_count s1 p : Int) - (ptp_count s p : Int)) ∧
          s1.wire_count t = (if p = 0 then s.wire_count t else old_wire s p va + 1)) ∧
      ((∃ e, leaf s p va = some e ∧ pmap_valid_entry e = true) →
        ptab s.mem (root s p) va 1 = some t ∧
          (s1.pm p).resident_count = (s.pm p).resident_count ∧
          ptp_count s1 p = ptp_count s p ∧ s1.wire_count t = s.wire_count t) ∧
      (p = 0 → s1.wire_count = s.wire_count) := by
  rcases hd with ⟨hp, hva⟩ | ⟨hp, hva, hva2⟩
  · have hp0 : p ≠ 0 := fun e => hI.tree.kern_notin (e ▸ hp)
    rcases enter_spec c s hI p va pa prot flags hp hva ha hpa with
      ⟨h0, _⟩ | ⟨r, s1', h1, _, _, _, h5⟩
    · rw [h0] at h
      cases h
    · rw [h1] at h
      cases h
      rcases h5 with ⟨e, _⟩ | ⟨_, _, t, pvl, wcb, h7, _, _, _, _, hres, hwire, hptp, hid⟩
      · exact absurd e (by decide)
      · refine ⟨t, h7, ?_, ?_, fun e => absurd e hp0⟩
        · intro hinv
          have hv := old_vbit_invalid s p va hinv
          rw [hv] at hres hwire
          refine ⟨?_, ?_⟩
          · rw [hres, hptp]
            push_cast
            omega
          · rw [if_neg hp0]
            omega
        · rintro ⟨e, he, hv⟩
          obtain ⟨t0, ht0, het⟩ := old_valid_table s p va e he
          have := hid t0 ht0
          subst this
          have hn := need_leaf s p va t0 ht0
          have hvb : old_vbit s p va = 1 := by
            simp only [old_vbit, he, vbit, hv, if_true]
          have hw : old_wire s p va = s.wire_count t0 := by
            simp only [old_wire, ht0]
          rw [hvb, hn] at hres
          rw [hvb, hw] at hwire
          rw [hn] at hptp
          refine ⟨ht0, ?_, hptp, by omega⟩
          rw [hres]
          push_cast
          omega
  · subst hp
    cases ht : ptab s.mem (root s 0) va 1 with
    | none => exact absurd ht (hk rfl)
    | some t =>
      rcases enter_kernel_spec c s hI va pa prot flags hva hva2 ha hpa t ht with
        ⟨h0, _⟩ | ⟨r, s1', h1, _, _, _, h5⟩
      · rw [h0] at h
        cases h
      · rw [h1] at h
        cases h
        rcases h5 with ⟨e, _⟩ | ⟨_, _, h7, _, _, hres, hwire, hobj⟩
        · exact absurd e (by decide)
        · have hptp : ptp_count s1 0 = ptp_count s 0 := by
            simp only [ptp_count, (hobj 0).1, (hobj 0).2]
          have hl : leaf s 0 va = some (s.mem t (slot va 1)) := by
            simp only [leaf, ht, Option.map_some']
          refine ⟨t, h7, ?_, ?_, fun _ => hwire⟩
          · intro hinv
            have hv : vbit (s.mem t (slot va 1)) = 0 := by
              simp [vbit, hinv _ hl]
            rw [hv] at hres
            refine ⟨?_, ?_⟩
            · rw [hres, hptp]
              push_cast
              omega
            · rw [if_pos rfl, hwire]
          · rintro ⟨e, he, hv⟩
            rw [hl] at he
            cases he
            have hvb : vbit (s.mem t (slot va 1)) = 1 := by
              simp [vbit, hv]
            rw [hvb] at hres
            refine ⟨rfl, ?_, hptp, by rw [hwire]⟩
            rw [hres]
            push_cast
            omega

theorem enter_counts_witness :
    Inv cfg0 st1 ∧ pmap_enter cfg0 st1 1 0x1000 0x400000 3 0 = some (0, st2) ∧
      pmap_enter cfg0 st2 1 0x1000 0x401000 3 0 = some (0, st4) ∧
      leaf st1 1 0x1000 = none ∧ (st1.pm 1).resident_count = 1 ∧
      (st2.pm 1).resident_count = 5 ∧ ptp_count st1 1 = 1 ∧ ptp_count st2 1 = 4 ∧
      st2.wire_count 0x102000 = 2 ∧ (st4.pm 1).resident_count = 5 ∧
      st4.wire_count 0x102000 = 2 ∧
      (∃ t, ptab st2.mem (root st2 1) 0x1000 1 = some t ∧
        ((∀ e, leaf st1 1 0x1000 = some e → pmap_valid_entry e = false) →
          (st2.pm 1).resident_count =
              (st1.pm 1).resident_count + 1 +
                ((ptp_count st2 1 : Int) - (ptp_count st1 1 : Int)) ∧
            st2.wire_count t = (if 1 = 0 then st1.wire_count t else old_wire st1 1 0x1000 + 1)) ∧
        ((∃ e, leaf st1 1 0x1000 = some e ∧ pmap_valid_entry e = true) →
          ptab st1.mem (root st1 1) 0x1000 1 = some t ∧
            (st2.pm 1).resident_count = (st1.pm 1).resident_count ∧
            ptp_count st2 1 = ptp_count st1 1 ∧ st2.wire_count t = st1.wire_count t) ∧
        (1 = 0 → st2.wire_count = st1.wire_count)) ∧
      (∃ t, ptab st4.mem (root st4 1) 0x1000 1 = some t ∧
        ((∀ e, leaf st2 1 0x1000 = some e → pmap_valid_entry e = false) →
          (st4.pm 1).resident_count =
              (st2.pm 1).resident_count + 1 +
                ((ptp_count st4 1 : Int) - (ptp_count st2 1 : Int)) ∧
            st4.wire_count t = (if 1 = 0 then st2.wire_count t else old_wire st2 1 0x1000 + 1)) ∧
        ((∃ e, leaf st2 1 0x1000 = some e ∧ pmap_valid_entry e = true) →
          ptab st2.mem (root st2 1) 0x1000 1 = some t ∧
            (st4.pm 1).resident_count = (st2.pm 1).resident_count ∧
            ptp_count st4 1 = ptp_count st2 1 ∧ st4.wire_count t = st2.wire_count t) ∧
        (1 = 0 → st4.wire_count = st2.wire_count)) :=
  ⟨st1_Inv, rfl, rfl, rfl, rfl, rfl, rfl, rfl, rfl, rfl, rfl,
    enter_counts cfg0 st1 st1_Inv 1 0x1000 0x400000 3 0 (Or.inl ⟨by decide, by decide⟩)
      (by decide) (by decide) (fun e => absurd e (by decide)) st2 rfl,
    enter_counts cfg0 st2 st2_Inv 1 0x1000 0x401000 3 0 (Or.inl ⟨by decide, by decide⟩)
      (by decide) (by decide) (fun e => absurd e (by decide)) st4 rfl⟩

theorem npte_expr (c : config) (p va pa prot : Nat) (man wired nocache wc : Bool) :
    pmap_enter_npte c p va pa prot man wired nocache wc =
      pa ||| protection_codes c prot ||| PG_V ||| (if man then PG_PVLIST else 0) |||
        (if wc then c.pmap_pg_wc else 0) ||| (if wired then PG_W else 0) |||
        (if nocache then PG_N else 0) |||
        (if va < VM_MAXUSER_ADDRESS then PG_u
          else if va < VM_MAX_ADDRESS then PG_u ||| PG_RW else 0) |||
        (if p = 0 then c.pg_g_kern else 0) := by
  simp only [pmap_enter_npte]
  cases man <;> cases wired <;> cases nocache <;> cases wc <;>
    by_cases h1 : va < VM_MAXUSER_ADDRESS <;> by_cases h2 : va < VM_MAX_ADDRESS <;>
    by_cases h3 : p = 0 <;> simp [h1, h2, h3]

theorem pgwc_eq (c : config) (s : kstate) (pa : Nat) :
    (pmap_enter_pgwc s (PHYS_TO_VM_PAGE c pa) = true) ↔
      (c.managed pa = true ∧ s.pg_flags pa &&& PG_PMAP_WC ≠ 0) := by
  simp only [PHYS_TO_VM_PAGE]
  by_cases hm : c.managed pa = true
  · simp [hm, pmap_enter_pgwc]
  · simp [hm, pmap_enter_pgwc]

theorem ite_bool_prop (b : Bool) (P : Prop) [Decidable P] (h : b = true ↔ P) (x : Nat) :
    (if b = true then x else 0) = if P then x else 0 := by
  by_cases hp : P
  · rw [if_pos hp, if_pos (h.2 hp)]
  · rw [if_neg hp, if_neg (fun e => hp (h.1 e))]

theorem managed_isSome (c : config) (pa : Nat) :
    (PHYS_TO_VM_PAGE c pa).isSome = c.managed pa := by
  simp only [PHYS_TO_VM_PAGE]
  cases c.managed pa <;> rfl

/-- C12, as stated: a `pmap_enter` with read-only protection at the first
page above `VM_MAXUSER_ADDRESS` writes a leaf PTE with the writable bit;
`pa | protection_codes[prot] | valid` with the pv-tracked and user bits has
no writable bit. -/
theorem enter_leaf_value_counterexample :
    Inv cfg0 st1 ∧ 1 ∈ st1.pmaps ∧ cfg0.managed 0x400000 = true ∧
      VM_MAXUSER_ADDRESS ≤ 0x7f7fffffc000 ∧ 0x7f7fffffc000 < VM_MAX_ADDRESS ∧
      (pmap_enter cfg0 st1 1 0x7f7fffffc000 0x400000 PROT_READ 0).map
        (fun r => (r.1, leaf r.2 1 0x7f7fffffc000)) = some (0, some 0x8000000000400407) ∧
      0x400000 ||| protection_codes cfg0 PROT_READ ||| PG_V ||| PG_PVLIST ||| PG_u =
        0x8000000000400405 ∧
      0x8000000000400407 &&& PG_RW ≠ 0 ∧ protection_codes cfg0 PROT_READ &&& PG_RW = 0 :=
  ⟨st1_Inv, by decide, rfl, by decide, by decide, by decide!, by decide, by decide, by decide⟩

/-- C12, amended: the leaf PTE written by a successful `pmap_enter`
(normal regime; a user pmap and `va` below the recursive slot, or the kernel
pmap and a kernel `va` whose leaf table exists; `prot` a protection code)
is the bitwise or of: the physical address; `protection_codes[prot]`; the
valid bit; `PG_PVLIST` iff the frame is managed; the bits `pmap_pg_wc`
iff `WRITE_COMBINE` was passed or the managed frame is flagged
write-combining; the wired bit iff `WIRED` was passed; `PG_N` iff `NOCACHE`
was passed; the user bit iff `va < VM_MAX_ADDRESS`, and with it the writable
bit when `VM_MAXUSER_ADDRESS <= va < VM_MAX_ADDRESS`; the bits `pg_g_kern`
for the kernel pmap.  It has no accessed and no dirty bit.  A managed frame
gets the pv entry (pmap, va, ptp) on its chain, and for an unmanaged frame
no chain holds an entry for (pmap, va). -/
theorem enter_leaf_value (c : config) (s : kstate) (hI : Inv c s) (p va pa prot flags : Nat)
    (hd : dom s p va) (ha : va % PAGE_SIZE = 0) (hpa : pa < 2 ^ 52) (_hprot : prot < 8)
    (hk : p = 0 → ptab s.mem (root s p) va 1 ≠ none) (s1 : kstate)
    (h : pmap_enter c s p va pa prot flags = some (0, s1)) :
    ∃ t, ptab s1.mem (root s1 p) va 1 = some t ∧
      s1.mem t (slot va 1) =
        (pa &&& PMAP_PA_MASK) ||| protection_codes c prot ||| PG_V |||
          (if c.managed (pa &&& PMAP_PA_MASK) then PG_PVLIST else 0) |||
          (if pa &&& PMAP_WC ≠ 0 ∨ (c.managed (pa &&& PMAP_PA_MASK) = true ∧
              s1.pg_flags (pa &&& PMAP_PA_MASK) &&& PG_PMAP_WC ≠ 0)
            then c.pmap_pg_wc else 0) |||
          (if flags &&& PMAP_WIRED ≠ 0 then PG_W else 0) |||
          (if pa &&& PMAP_NOCACHE ≠ 0 then PG_N else 0) |||
          (if va < VM_MAXUSER_ADDRESS then PG_u
            else if va < VM_MAX_ADDRESS then PG_u ||| PG_RW else 0) |||
          (if p = 0 then c.pg_g_kern else 0) ∧
      s1.mem t (slot va 1) &&& (PG_U ||| PG_M) = 0 ∧
      (c.managed (pa &&& PMAP_PA_MASK) = true →
        { pv_pmap := p, pv_va := va, pv_ptp := if p = 0 then none else some t } ∈
          s1.pv_list (pa &&& PMAP_PA_MASK)) ∧
      (c.managed (pa &&& PMAP_PA_MASK) = false →
        ∀ f, ∀ e ∈ s1.pv_list f, ¬ (e.pv_pmap = p ∧ e.pv_va = va)) := by
  obtain ⟨hI1, _, hd1, t, ht, hm, _⟩ := enter_live c s hI p va pa prot flags hd ha hpa hk s1 h
  have hpaf : is_frame (pa &&& PMAP_PA_MASK) := by
    rw [is_frame_iff, and_pa_mask]
    omega
  have hc := hI.tree.cfg
  have hv : pmap_valid_entry (s1.mem t (slot va 1)) = true := by
    rw [hm]
    exact npte_valid _ _ _ _ _ _ _ _ _
  have hfr : s1.mem t (slot va 1) &&& PG_FRAME = pa &&& PMAP_PA_MASK := by
    rw [hm]
    exact npte_frame c hc _ _ _ _ _ _ _ _ hpaf
  have hpv : s1.mem t (slot va 1) &&& PG_PVLIST =
      if c.managed (pa &&& PMAP_PA_MASK) then PG_PVLIST else 0 := by
    rw [hm, npte_pvlist c hc _ _ _ _ _ _ _ _ hpaf, managed_isSome]
  refine ⟨t, ht, ?_, ?_, ?_, ?_⟩
  · have b1 : ((pa &&& PMAP_WC != 0 ||
        pmap_enter_pgwc s1 (PHYS_TO_VM_PAGE c (pa &&& PMAP_PA_MASK))) = true) ↔
        (pa &&& PMAP_WC ≠ 0 ∨ (c.managed (pa &&& PMAP_PA_MASK) = true ∧
          s1.pg_flags (pa &&& PMAP_PA_MASK) &&& PG_PMAP_WC ≠ 0)) := by
      rw [Bool.or_eq_true, pgwc_eq]
      simp
    have b2 : ((flags &&& PMAP_WIRED != 0) = true) ↔ flags &&& PMAP_WIRED ≠ 0 := by simp
    have b3 : ((pa &&& PMAP_NOCACHE != 0) = true) ↔ pa &&& PMAP_NOCACHE ≠ 0 := by simp
    rw [hm, npte_expr, managed_isSome, ite_bool_prop _ _ b1, ite_bool_prop _ _ b2,
      ite_bool_prop _ _ b3]
  · rw [hm, npte_and c hc _ _ _ _ _ _ _ _ (PG_U ||| PG_M) (by decide) (by decide) (by decide)
      (by decide) (by decide) (by decide) (by decide) (by decide) (fun _ => by decide)
      (fun _ => by decide)]
    exact frame_and_low _ _ hpaf (by decide)
  · intro hman
    have hb : s1.mem t (slot va 1) &&& PG_PVLIST ≠ 0 := by
      rw [hpv, if_pos hman]
      decide
    obtain ⟨e, he, e1, e2⟩ := hI1.pv.pv_complete p va t hd1 ha ht hv hb
    obtain ⟨_, _, t', k1, _, _, _, k2⟩ := hI1.pv.pv_sound _ e he
    rw [e1, e2, ht] at k1
    cases k1
    rw [hfr] at he
    have : e = { pv_pmap := p, pv_va := va, pv_ptp := if p = 0 then none else some t } := by
      cases e
      simp only [pv_entry.mk.injEq]
      simp only at e1 e2 k2
      exact ⟨e1, e2, e1 ▸ k2⟩
    rw [← this]
    exact he
  · intro hman f e he hk
    obtain ⟨_, _, t', k1, _, _, k3, _⟩ := hI1.pv.pv_sound f e he
    rw [hk.1, hk.2, ht] at k1
    cases k1
    rw [hk.2, hpv] at k3
    simp [hman] at k3

theorem enter_leaf_value_witness :
    Inv cfg0 st1 ∧ pmap_enter cfg0 st1 1 0x1000 0x400000 3 0 = some (0, st2) ∧
      leaf st2 1 0x1000 = some 0x8000000000400407 ∧
      (st2.pv_list 0x400000).map (fun e => (e.pv_pmap, e.pv_va, e.pv_ptp)) =
        [(1, 0x1000, some 0x102000)] ∧
      ∃ t, ptab st2.mem (root st2 1) 0x1000 1 = some t ∧
        st2.mem t (slot 0x1000 1) =
          (0x400000 &&& PMAP_PA_MASK) ||| protection_codes cfg0 3 ||| PG_V |||
            (if cfg0.managed (0x400000 &&& PMAP_PA_MASK) then PG_PVLIST else 0) |||
            (if 0x400000 &&& PMAP_WC ≠ 0 ∨ (cfg0.managed (0x400000 &&& PMAP_PA_MASK) = true ∧
                st2.pg_flags (0x400000 &&& PMAP_PA_MASK) &&& PG_PMAP_WC ≠ 0)
              then cfg0.pmap_pg_wc else 0) |||
            (if 0 &&& PMAP_WIRED ≠ 0 then PG_W else 0) |||
            (if 0x400000 &&& PMAP_NOCACHE ≠ 0 then PG_N else 0) |||
            (if 0x1000 < VM_MAXUSER_ADDRESS then PG_u
              else if 0x1000 < VM_MAX_ADDRESS then PG_u ||| PG_RW else 0) |||
            (if 1 = 0 then cfg0.pg_g_kern else 0) ∧
        st2.mem t (slot 0x1000 1) &&& (PG_U ||| PG_M) = 0 ∧
        (cfg0.managed (0x400000 &&& PMAP_PA_MASK) = true →
          { pv_pmap := 1, pv_va := 0x1000, pv_ptp := if 1 = 0 then none else some t } ∈
            st2.pv_list (0x400000 &&& PMAP_PA_MASK)) ∧
        (cfg0.managed (0x400000 &&& PMAP_PA_MASK) = false →
          ∀ f, ∀ e ∈ st2.pv_list f, ¬ (e.pv_pmap = 1 ∧ e.pv_va = 0x1000)) :=
  ⟨st1_Inv, rfl, rfl, rfl,
    enter_leaf_value cfg0 st1 st1_Inv 1 0x1000 0x400000 3 0 (Or.inl ⟨by decide, by decide⟩)
      (by decide) (by decide) (by decide) (fun e => absurd e (by decide)) st2 rfl⟩

theorem st1_mem (t i : Nat) (ht : t ≠ 0x2000) : st1.mem t i = 0 := by
  rcases create_spec cfg0 boot0 boot0_Inv with ⟨h, _⟩ | ⟨p, s1, pdir, intel, h, hc, _, _⟩
  · have e : pmap_create cfg0 boot0 = some (1, st1) := rfl
    rw [e] at h
    cases h
  · have e : pmap_create cfg0 boot0 = some (1, st1) := rfl
    rw [e] at h
    cases h
    have h1 : pdir = 0x2000 := hc.pm_pdir.symm.trans rfl
    have h2 : intel = 0 := hc.pm_intel.symm.trans rfl
    subst h1 h2
    exact hc.mem_old t i ht (fun k => k.1 rfl)

theorem e1_ok : ept_ok cfg0 e1 := by
  have hm : e1.mem = mem_zero st1.mem 0x2000 := rfl
  have hf : e1.free_pages =
      [0x100000, 0x101000, 0x102000, 0x103000, 0x104000, 0x105000, 0x106000, 0x107000] := rfl
  refine ⟨?_, ?_⟩
  · intro t i h
    rw [hm] at h
    simp only [mem_zero] at h
    by_cases ht : t = 0x2000
    · rw [if_pos ht] at h
      exact absurd (Nat.zero_and _) h
    · rw [if_neg ht, st1_mem t i ht] at h
      exact absurd (Nat.zero_and _) h
  · rw [hf]
    simp only [ept_page_ok]
    decide

/-- C9: for a pmap of the extended regime, `pmap_enter` of a
guest-physical address above `MAXDSIZ` returns `ENOMEM` and leaves the
state as it is: no table entry, `wire_count` or counter changes.  For an
address not above `MAXDSIZ` and a pmap with its root: every value returned
is 0, or is `ENOMEM` after an allocation found no free frame (only possible
with fewer than 3 free frames); and where the tables are well formed
(every entry with an address names a managed frame inside the direct map,
and so does every free frame) and 3 frames are free, `pmap_enter` returns
0. -/
theorem ept_enter_enomem (c : config) (s : kstate) (p gpa hpa prot flags : Nat)
    (hty : (s.pm p).pm_type = PMAP_TYPE_EPT) :
    (gpa > MAXDSIZ → pmap_enter c s p gpa hpa prot flags = some (ENOMEM, s)) ∧
      (gpa ≤ MAXDSIZ → (s.pm p).pm_pdir ≠ 0 →
        (∀ r s1, pmap_enter c s p gpa hpa prot flags = some (r, s1) →
          r = 0 ∨ (r = ENOMEM ∧ s1.free_pages = [] ∧ s.free_pages.length < 3)) ∧
        (ept_ok c s → ∃ r s1, pmap_enter c s p gpa hpa prot flags = some (r, s1)) ∧
        (ept_ok c s → 3 ≤ s.free_pages.length →
          ∃ s1, pmap_enter c s p gpa hpa prot flags = some (0, s1))) := by
  have he : pmap_enter c s p gpa hpa prot flags = pmap_enter_ept c s p gpa hpa prot := by
    simp only [pmap_enter, hty, if_true]
  rw [he]
  refine ⟨?_, ?_⟩
  · intro hg
    simp only [pmap_enter_ept, if_pos hg]
  · intro hg hpd
    rcases enter_ept_spec c s p gpa hpa prot hg hpd with ⟨h, hn⟩ | ⟨s1, h⟩ | ⟨s1, h, h1, h2⟩
    · rw [h]
      refine ⟨?_, fun hok => absurd hok hn, fun hok => absurd hok hn⟩
      intro r s1 e
      cases e
    · rw [h]
      refine ⟨?_, fun _ => ⟨0, s1, rfl⟩, fun _ _ => ⟨s1, rfl⟩⟩
      intro r s2 e
      cases e
      exact Or.inl rfl
    · rw [h]
      refine ⟨?_, fun _ => ⟨ENOMEM, s1, rfl⟩, fun _ h3 => absurd h2 (by omega)⟩
      intro r s2 e
      cases e
      exact Or.inr ⟨rfl, h1, h2⟩

theorem ept_enter_enomem_witness :
    (e1.pm 1).pm_type = PMAP_TYPE_EPT ∧ ept_ok cfg0 e1 ∧ e1.free_pages.length = 8 ∧
      0x1000000000 > MAXDSIZ ∧
      pmap_enter cfg0 e1 1 0x1000000000 0x400000 3 0 = some (ENOMEM, e1) ∧
      0x1000 ≤ MAXDSIZ ∧ (e1.pm 1).pm_pdir ≠ 0 ∧
      ∃ s1, pmap_enter cfg0 e1 1 0x1000 0x400000 3 0 = some (0, s1) :=
  ⟨rfl, e1_ok, rfl, by decide,
    (ept_enter_enomem cfg0 e1 1 0x1000000000 0x400000 3 0 rfl).1 (by decide), by decide,
    by decide,
    (ept_enter_enomem cfg0 e1 1 0x1000 0x400000 3 0 rfl).2 (by decide) (by decide) |>.2.2
      e1_ok (by decide)⟩

/-- `pmap_extract` outside the direct-map window in terms of the walk: the
leaf PTE when the walk reaches a leaf table, else the level-2 entry when it
reaches a level-2 table, else `FALSE`. -/
theorem extract_walk_spec (s : kstate) (pm va : Nat)
    (hd : ¬ (pm = 0 ∧ va ≥ PMAP_DIRECT_BASE ∧ va < PMAP_DIRECT_END)) :
    (∀ t, ptab s.mem (root s pm) va 1 = some t →
      pmap_extract s pm va =
        if pmap_valid_entry (s.mem t (slot va 1)) then
          some ((s.mem t (slot va 1) &&& PG_FRAME) ||| (va &&& PAGE_MASK))
        else none) ∧
    (ptab s.mem (root s pm) va 1 = none → ∀ t, ptab s.mem (root s pm) va 2 = some t →
      pmap_extract s pm va =
        if s.mem t (slot va 2) &&& (PG_PS ||| PG_V) = PG_PS ||| PG_V then
          some ((s.mem t (slot va 2) &&& PG_LGFRAME) ||| (va &&& PAGE_MASK_L2))
        else none) ∧
    (ptab s.mem (root s pm) va 2 = none → pmap_extract s pm va = none) := by
  refine ⟨fun t h => extract_leaf s pm va t hd h, ?_, ?_⟩
  · intro h1 t h2
    obtain ⟨t3, h3, _, _⟩ := ptab_parent _ _ _ 2 t (by omega) (by omega) h2
    simp only [pmap_extract, hd, if_false, find_pte_direct_spec, h1, h2, h3]
    simp
  · intro h2
    have h1 := ptab_none_below s.mem (root s pm) va 1 (by omega) (by omega) h2
    simp only [pmap_extract, hd, if_false, find_pte_direct_spec, h1, h2]
    cases h3 : ptab s.mem (root s pm) va 3 <;> simp

/-- C13: for `va` outside the kernel direct-map window, `pmap_extract`
returns `TRUE` exactly when the walk for `va` ends at a valid leaf PTE or
at a level-2 entry with the valid and the large-page bit (a 2 MiB page);
for a valid leaf the address is `(pte & PG_FRAME) | (va & PAGE_MASK)`.
`pmap_extract` stores to `*pap` only: the model function has the state as
argument and the answer as its only result, `none` being `FALSE` with
`*pap` not written. -/
theorem extract_walk (s : kstate) (pm va : Nat)
    (hd : ¬ (pm = 0 ∧ va ≥ PMAP_DIRECT_BASE ∧ va < PMAP_DIRECT_END)) :
    ((pmap_extract s pm va).isSome = true ↔
      (∃ t, ptab s.mem (root s pm) va 1 = some t ∧
        pmap_valid_entry (s.mem t (slot va 1)) = true) ∨
      (∃ t, ptab s.mem (root s pm) va 2 = some t ∧
        s.mem t (slot va 2) &&& (PG_PS ||| PG_V) = PG_PS ||| PG_V)) ∧
    (∀ t, ptab s.mem (root s pm) va 1 = some t →
      pmap_valid_entry (s.mem t (slot va 1)) = true →
      pmap_extract s pm va =
        some ((s.mem t (slot va 1) &&& PG_FRAME) ||| (va &&& PAGE_MASK))) := by
  obtain ⟨w1, w2, w3⟩ := extract_walk_spec s pm va hd
  refine ⟨?_, fun t h hv => by rw [w1 t h, if_pos hv]⟩
  cases h1 : ptab s.mem (root s pm) va 1 with
  | some t1 =>
    obtain ⟨t2, h2, hv2, _⟩ := ptab_parent _ _ _ 1 t1 (by omega) (by omega) h1
    rw [w1 t1 h1]
    constructor
    · intro h
      left
      refine ⟨t1, rfl, ?_⟩
      by_contra hv
      rw [if_neg hv] at h
      cases h
    · rintro (⟨t, e, hv⟩ | ⟨t, e, hv⟩)
      · cases e
        rw [if_pos hv]
        rfl
      · rw [h2] at e
        cases e
        rw [hv2] at hv
        exact absurd hv (by decide)
  | none =>
    cases h2 : ptab s.mem (root s pm) va 2 with
    | some t2 =>
      rw [w2 h1 t2 h2]
      constructor
      · intro h
        right
        refine ⟨t2, rfl, ?_⟩
        by_contra hv
        rw [if_neg hv] at h
        cases h
      · rintro (⟨t, e, _⟩ | ⟨t, e, hv⟩)
        · cases e
        · cases e
          rw [if_pos hv]
          rfl
    | none =>
      rw [w3 h2]
      constructor
      · intro h
        cases h
      · rintro (⟨t, e, _⟩ | ⟨t, e, _⟩) <;> cases e

theorem extract_walk_witness :
    ¬ (1 = 0 ∧ 0x1080 ≥ PMAP_DIRECT_BASE ∧ 0x1080 < PMAP_DIRECT_END) ∧
      pmap_extract st2 1 0x1080 = some 0x400080 ∧
      ((pmap_extract st2 1 0x1080).isSome = true ↔
        (∃ t, ptab st2.mem (root st2 1) 0x1080 1 = some t ∧
          pmap_valid_entry (st2.mem t (slot 0x1080 1)) = true) ∨
        (∃ t, ptab st2.mem (root st2 1) 0x1080 2 = some t ∧
          st2.mem t (slot 0x1080 2) &&& (PG_PS ||| PG_V) = PG_PS ||| PG_V)) ∧
      (∀ t, ptab st2.mem (root st2 1) 0x1080 1 = some t →
        pmap_valid_entry (st2.mem t (slot 0x1080 1)) = true →
        pmap_extract st2 1 0x1080 =
          some ((st2.mem t (slot 0x1080 1) &&& PG_FRAME) ||| (0x1080 &&& PAGE_MASK))) :=
  ⟨by decide, rfl, extract_walk st2 1 0x1080 (by decide)⟩

/-- C14, as stated: a kernel tree maps the first GiB of kernel space with
one 1 GiB page: the level-3 entry on the path of `0xffff800000001000` has
the valid and the large-page bit, the walk ends there, and `pmap_extract`
returns `FALSE`. -/
theorem extract_1g_counterexample :
    ptab g1.mem (root g1 0) 0xffff800000001000 3 = some 0x6000 ∧
      g1.mem 0x6000 (slot 0xffff800000001000 3) &&& (PG_PS ||| PG_V) = PG_PS ||| PG_V ∧
      pmap_find_pte_direct g1 0 0xffff800000001000 = (2, 0x6000, 0) ∧
      ¬ (0xffff800000001000 ≥ PMAP_DIRECT_BASE ∧ 0xffff800000001000 < PMAP_DIRECT_END) ∧
      pmap_extract g1 0 0xffff800000001000 = none :=
  ⟨by decide, by decide, by decide, by decide, by decide⟩

/-- C14, amended: for every pmap and every `va` outside the kernel
direct-map window whose walk ends at a valid 2 MiB large-page terminal (a
level-2 entry with the valid and the large-page bit), `pmap_extract`
returns `TRUE` and the physical address is the large frame's base plus the
offset of `va` inside the 2 MiB page:
`(pde & PG_LGFRAME) | (va & PAGE_MASK_L2)`. -/
theorem extract_2m (s : kstate) (pm va t : Nat)
    (hd : ¬ (pm = 0 ∧ va ≥ PMAP_DIRECT_BASE ∧ va < PMAP_DIRECT_END))
    (ht : ptab s.mem (root s pm) va 2 = some t)
    (hv : s.mem t (slot va 2) &&& (PG_PS ||| PG_V) = PG_PS ||| PG_V) :
    pmap_extract s pm va =
        some ((s.mem t (slot va 2) &&& PG_LGFRAME) ||| (va &&& PAGE_MASK_L2)) ∧
      (s.mem t (slot va 2) &&& PG_LGFRAME) ||| (va &&& PAGE_MASK_L2) =
        (s.mem t (slot va 2) &&& PG_LGFRAME) + va % 0x200000 := by
  have h1 : ptab s.mem (root s pm) va 1 = none :=
    ptab_child_none s.mem (root s pm) va 1 t (by omega) (by omega) ht (by
      rw [hv]
      decide)
  refine ⟨?_, ?_⟩
  · rw [(extract_walk_spec s pm va hd).2.1 h1 t ht, if_pos hv]
  · have e := or_low (s.mem t (slot va 2) % 2 ^ 52 / 2 ^ 21) (va % 2 ^ 21) 21
      (Nat.mod_lt _ (by norm_num))
    have m1 := and_mask (s.mem t (slot va 2)) 21 52 (by decide)
    have m2 := and_mask va 0 21 (by decide)
    norm_num at e m1 m2 ⊢
    rw [show PG_LGFRAME = 4503599625273344 from rfl, show PAGE_MASK_L2 = 2097151 from rfl, m1, m2]
    exact e

theorem extract_2m_witness :
    ¬ (0 = 0 ∧ 0xffff800040001234 ≥ PMAP_DIRECT_BASE ∧ 0xffff800040001234 < PMAP_DIRECT_END) ∧
      ptab g1.mem (root g1 0) 0xffff800040001234 2 = some 0x7000 ∧
      g1.mem 0x7000 (slot 0xffff800040001234 2) &&& PG_LGFRAME = 0x80000000 ∧
      pmap_extract g1 0 0xffff800040001234 = some 0x80001234 ∧
      (pmap_extract g1 0 0xffff800040001234 =
          some ((g1.mem 0x7000 (slot 0xffff800040001234 2) &&& PG_LGFRAME) |||
            (0xffff800040001234 &&& PAGE_MASK_L2)) ∧
        (g1.mem 0x7000 (slot 0xffff800040001234 2) &&& PG_LGFRAME) |||
            (0xffff800040001234 &&& PAGE_MASK_L2) =
          (g1.mem 0x7000 (slot 0xffff800040001234 2) &&& PG_LGFRAME) +
            0xffff800040001234 % 0x200000) :=
  ⟨by decide, by decide, by decide, by decide,
    extract_2m g1 0 0xffff800040001234 0x7000 (by decide) (by decide) (by decide)⟩

/-- C15: for the kernel pmap and every `va` in the direct-map window,
`pmap_extract` returns `TRUE` with `va - PMAP_DIRECT_BASE`, whatever the
page tables hold (the state is arbitrary); for any other pmap the same
`va` is resolved by the walk: the answer is that of the leaf PTE or of the
level-2 entry the walk of that pmap ends at. -/
theorem extract_direct (s : kstate) (va : Nat) (h1 : PMAP_DIRECT_BASE ≤ va)
    (h2 : va < PMAP_DIRECT_END) :
    pmap_extract s 0 va = some (va - PMAP_DIRECT_BASE) ∧
      ∀ pm, pm ≠ 0 →
        (∀ t, ptab s.mem (root s pm) va 1 = some t →
          pmap_extract s pm va =
            if pmap_valid_entry (s.mem t (slot va 1)) then
              some ((s.mem t (slot va 1) &&& PG_FRAME) ||| (va &&& PAGE_MASK))
            else none) ∧
        (ptab s.mem (root s pm) va 1 = none → ∀ t, ptab s.mem (root s pm) va 2 = some t →
          pmap_extract s pm va =
            if s.mem t (slot va 2) &&& (PG_PS ||| PG_V) = PG_PS ||| PG_V then
              some ((s.mem t (slot va 2) &&& PG_LGFRAME) ||| (va &&& PAGE_MASK_L2))
            else none) ∧
        (ptab s.mem (root s pm) va 2 = none → pmap_extract s pm va = none) := by
  refine ⟨?_, fun pm hpm => extract_walk_spec s pm va (fun h => hpm h.1)⟩
  have : (0 : Nat) = 0 ∧ va ≥ PMAP_DIRECT_BASE ∧ va < PMAP_DIRECT_END := ⟨rfl, h1, h2⟩
  simp only [pmap_extract, this, and_self, if_true]

theorem extract_direct_witness :
    PMAP_DIRECT_BASE ≤ 0xffffff0000005000 ∧ 0xffffff0000005000 < PMAP_DIRECT_END ∧
      pmap_extract st2 1 0xffffff0000005000 = none ∧
      pmap_extract g1 0 0xffffff0000005000 = some 0x5000 ∧
      pmap_extract st2 0 0xffffff0000005000 = some (0xffffff0000005000 - PMAP_DIRECT_BASE) :=
  ⟨by decide, by decide, by decide, by decide,
    (extract_direct st2 0xffffff0000005000 (by decide) (by decide)).1⟩

theorem st7_Inv : Inv cfg0 st7 := after_Inv cfg0 st1 _ st1_Inv

theorem page_ptab (s : kstate) (p va : Nat) :
    ptab s.mem (root s p) (va / 4096 * 4096) 1 = ptab s.mem (root s p) va 1 :=
  ptab_pfx s.mem (root s p) va (va / 4096 * 4096) 1 (by omega) (by omega) (by
    simp only [pfx]
    omega)

theorem page_slot_of (va : Nat) : slot va 1 = va / 4096 % 512 := by
  simp only [slot, pfx]
  omega

theorem wp_entry_bits (e nx : Nat) (hnx : nx = 0 ∨ nx = PG_NX) :
    wp_entry e nx &&& PG_RW = 0 ∧ wp_entry e nx &&& PG_NX = (e &&& PG_NX) ||| nx ∧
      wp_entry e nx &&& PG_FRAME = e &&& PG_FRAME ∧ wp_entry e nx &&& PG_U = e &&& PG_U ∧
      wp_entry e nx &&& PG_M = e &&& PG_M ∧ wp_entry e nx &&& PG_W = e &&& PG_W ∧
      wp_entry e nx &&& PG_PVLIST = e &&& PG_PVLIST ∧ wp_entry e nx &&& PG_V = e &&& PG_V := by
  have h0 : ∀ K, PG_NX &&& K = 0 → nx &&& K = 0 := by
    intro K hK
    rcases hnx with h | h <;> rw [h]
    · exact Nat.zero_and K
    · exact hK
  refine ⟨?_, ?_, wp_and e nx _ (h0 _ rfl) rfl, wp_and e nx _ (h0 _ rfl) rfl,
    wp_and e nx _ (h0 _ rfl) rfl, wp_and e nx _ (h0 _ rfl) rfl, wp_and e nx _ (h0 _ rfl) rfl,
    wp_and e nx _ (h0 _ rfl) rfl⟩
  · rw [wp_entry, or_keep _ _ _ (h0 _ rfl), and_and_const]
    exact Nat.and_zero e
  · rw [wp_entry, Nat.and_distrib_right, and_and_const]
    congr 1
    rcases hnx with h | h <;> rw [h] <;> rfl

/-- C16, as stated: `pmap_write_protect` skips every block under the
recursive slot.  In the state `st7` the leaf entry of `0x7f8000000000` is
`0x102007`, valid and writable; after `pmap_write_protect` of the page
`[0x7f8000000000, 0x7f8000001000)` for reading only it is `0x102007` still.
And a `DIAGNOSTIC` kernel panics on a mapped block between
`VM_MAXUSER_ADDRESS` and `VM_MAX_ADDRESS`: in the state `stg` the page
`0x7f7fffffc000` is mapped, and `pmap_write_protect` of it does not return.
On the kernel pmap the call does not return either: `sva` and `eva` are
masked with `PG_FRAME`, which leaves `eva` above `2 ^ 48`, and the end of a
block, `(va & L2_FRAME) + NBPD_L2`, is at most `2 ^ 48`, so that the loop
never reaches `eva`; in the state `kimg` the page at `KERNBASE` is mapped
writable, and `pmap_write_protect` of it does not return. -/
theorem write_protect_recursive_slot_counterexample :
    Inv cfg0 st7 ∧ 1 ∈ st7.pmaps ∧ (st7.pm 1).pm_type = PMAP_TYPE_NORMAL ∧
      0x7f8000000000 % PAGE_SIZE = 0 ∧ 0x7f8000001000 % PAGE_SIZE = 0 ∧
      leaf st7 1 0x7f8000000000 = some 0x102007 ∧ pmap_valid_entry 0x102007 = true ∧
      0x102007 &&& PG_RW ≠ 0 ∧
      (pmap_write_protect cfg0 st7 1 0x7f8000000000 0x7f8000001000 PROT_READ).map
        (fun r => leaf r 1 0x7f8000000000) = some (some 0x102007) ∧
      1 ∈ stg.pmaps ∧ VM_MAXUSER_ADDRESS ≤ 0x7f7fffffc000 ∧ 0x7f7fffffd000 ≤ VM_MAX_ADDRESS ∧
      (leaf stg 1 0x7f7fffffc000).map pmap_valid_entry = some true ∧
      (pmap_write_protect cfg0 stg 1 0x7f7fffffc000 0x7f7fffffd000 PROT_READ).isNone = true ∧
      Inv cfg0 kimg ∧ (kimg.pm 0).pm_type = PMAP_TYPE_NORMAL ∧ KERNBASE % PAGE_SIZE = 0 ∧
      leaf kimg 0 KERNBASE = some (0x800000 ||| PG_KW ||| PG_V) ∧
      pmap_valid_entry (0x800000 ||| PG_KW ||| PG_V) = true ∧
      (0x800000 ||| PG_KW ||| PG_V) &&& PG_RW ≠ 0 ∧
      KERNBASE &&& PG_FRAME < (KERNBASE + PAGE_SIZE) &&& PG_FRAME ∧
      2 ^ 48 < (KERNBASE + PAGE_SIZE) &&& PG_FRAME ∧
      pmap_write_protect cfg0 kimg 0 KERNBASE (KERNBASE + PAGE_SIZE) PROT_READ = none :=
  ⟨st7_Inv, by decide, by decide, by decide, by decide, by decide, by decide, by decide,
    by decide!, by decide, by decide, by decide, by decide, by decide!,
    kimg_Inv cfg0 cfg0_ok (by decide), by decide, by decide, by decide, by decide, by decide,
    by decide, by decide,
    write_protect_high cfg0 kimg 0 KERNBASE (KERNBASE + PAGE_SIZE) PROT_READ (by decide)
      (by decide)⟩

/-- C16, amended: for a user pmap (normal regime) in a state that satisfies
the state invariant, a page-aligned range `[sva, eva)` that ends at or below
`VM_MAXUSER_ADDRESS` and a protection `prot`, `pmap_write_protect` returns
and: every valid leaf PTE of the range is the old one with the writable bit
cleared and the bits `nx` or-ed in, where `nx` is `pg_nx` (the no-execute
bit of the CPU) when `prot` lacks execute and 0 otherwise, so that its
frame, accessed, dirty, wired, pv-tracked and valid bits are the old ones;
an invalid (or absent) leaf of the range stays as it is; the leaves of the
pmap outside the range and the leaves of the other pmaps are untouched;
`resident_count`, `wired_count`, the `wire_count` of every page and every
chain are unchanged. -/
theorem write_protect_leaves (c : config) (s : kstate) (hI : Inv c s) (p sva eva prot : Nat)
    (hp : p ∈ s.pmaps) (hs : sva % PAGE_SIZE = 0) (hae : eva % PAGE_SIZE = 0)
    (hse : sva ≤ eva) (hle : eva ≤ VM_MAXUSER_ADDRESS) :
    ∃ s1, pmap_write_protect c s p sva eva prot = some s1 ∧
      (∀ va, va < 0x7f8000000000 →
        leaf s1 p va =
          if sva ≤ va ∧ va < eva then
            (leaf s p va).map fun e =>
              if pmap_valid_entry e then
                (e &&& (0xffffffffffffffff ^^^ PG_RW)) |||
                  (if prot &&& PROT_EXEC = 0 then c.pg_nx else 0)
              else e
          else leaf s p va) ∧
      (∀ e, ((e &&& (0xffffffffffffffff ^^^ PG_RW)) |||
            (if prot &&& PROT_EXEC = 0 then c.pg_nx else 0)) &&&
          (PG_FRAME ||| PG_U ||| PG_M ||| PG_W ||| PG_PVLIST ||| PG_V) =
          e &&& (PG_FRAME ||| PG_U ||| PG_M ||| PG_W ||| PG_PVLIST ||| PG_V) ∧
        ((e &&& (0xffffffffffffffff ^^^ PG_RW)) |||
            (if prot &&& PROT_EXEC = 0 then c.pg_nx else 0)) &&& PG_RW = 0 ∧
        ((e &&& (0xffffffffffffffff ^^^ PG_RW)) |||
            (if prot &&& PROT_EXEC = 0 then c.pg_nx else 0)) &&& PG_NX =
          (e &&& PG_NX) ||| (if prot &&& PROT_EXEC = 0 then c.pg_nx else 0)) ∧
      (∀ q va, dom s q va → q ≠ p → leaf s1 q va = leaf s q va) ∧
      (∀ q, (s1.pm q).resident_count = (s.pm q).resident_count ∧
        (s1.pm q).wired_count = (s.pm q).wired_count) ∧
      s1.wire_count = s.wire_count ∧ s1.pv_list = s.pv_list := by
  simp only [PAGE_SIZE, VM_MAXUSER_ADDRESS] at hs hae hle
  obtain ⟨s1, h1, _, _, _, hw, hpv, _, hdone, hcnt, hpt⟩ :=
    write_protect_spec c s hI p sva eva prot hp hle
  have hnx : (if prot &&& PROT_EXEC = 0 then c.pg_nx else 0) = 0 ∨
      (if prot &&& PROT_EXEC = 0 then c.pg_nx else 0) = PG_NX := by
    split
    · exact hI.tree.cfg.1
    · exact Or.inl rfl
  have e1 : sva &&& PG_FRAME = sva := by
    rw [and_frame]
    omega
  have e2 : eva &&& PG_FRAME = eva := by
    rw [and_frame]
    omega
  rw [e1, e2] at hdone
  refine ⟨s1, h1, ?_, ?_, ?_, hcnt, hw, hpv⟩
  · intro va hva
    have hd := dom_user s p va hp hva
    have hl1 : leaf s1 p va = (ptab s.mem (root s p) va 1).map fun t => s1.mem t (slot va 1) := by
      simp only [leaf, hpt p va 1 hd (by omega) (by omega)]
    rw [hl1]
    simp only [leaf]
    cases ht : ptab s.mem (root s p) va 1 with
    | none => simp
    | some t =>
      have htj : ptab s.mem (root s p) (va / 4096 * 4096) 1 = some t := by
        rw [page_ptab, ht]
      simp only [Option.map_some']
      rw [page_slot_of]
      by_cases hr : sva ≤ va ∧ va < eva
      · rw [if_pos hr, hdone.1 (va / 4096) (by omega) (by omega) t htj]
        rfl
      · rw [if_neg hr]
        congr 1
        apply hdone.2 t
        intro j a1 a2 a3
        have := same_table_block c s hI.tree p (va / 4096) j t hp (by omega) (by omega) htj a3
        omega
  · intro e
    obtain ⟨b1, b2, _⟩ := wp_entry_bits e _ hnx
    simp only [wp_entry] at b1 b2
    refine ⟨?_, b1, b2⟩
    have h0 : (if prot &&& PROT_EXEC = 0 then c.pg_nx else 0) &&&
        (PG_FRAME ||| PG_U ||| PG_M ||| PG_W ||| PG_PVLIST ||| PG_V) = 0 := by
      rcases hnx with h | h <;> rw [h] <;> rfl
    exact wp_and e _ _ h0 rfl
  · intro q va hd hq
    have hl1 : leaf s1 q va = (ptab s.mem (root s q) va 1).map fun t => s1.mem t (slot va 1) := by
      simp only [leaf, hpt q va 1 hd (by omega) (by omega)]
    rw [hl1]
    simp only [leaf]
    cases ht : ptab s.mem (root s q) va 1 with
    | none => simp
    | some t =>
      simp only [Option.map_some']
      congr 1
      apply hdone.2 t
      intro j _ a2 a3
      exact absurd (hI.tree.sep q va 1 p (j * 4096) 1 t hd (dom_user s p _ hp (by omega))
        (by omega) (by omega) (by omega) (by omega) ht a3).2.1 hq

theorem write_protect_leaves_witness :
    Inv cfg0 st7 ∧ pmap_write_protect cfg0 st7 1 0x1000 0x2000 PROT_READ = some st8 ∧
      leaf st7 1 0x1000 = some 0x400407 ∧ leaf st8 1 0x1000 = some 0x8000000000400405 ∧
      ∃ s1, pmap_write_protect cfg0 st7 1 0x1000 0x2000 PROT_READ = some s1 ∧
        (∀ va, va < 0x7f8000000000 →
          leaf s1 1 va =
            if 0x1000 ≤ va ∧ va < 0x2000 then
              (leaf st7 1 va).map fun e =>
                if pmap_valid_entry e then
                  (e &&& (0xffffffffffffffff ^^^ PG_RW)) |||
                    (if PROT_READ &&& PROT_EXEC = 0 then cfg0.pg_nx else 0)
                else e
            else leaf st7 1 va) ∧
        (∀ e, ((e &&& (0xffffffffffffffff ^^^ PG_RW)) |||
              (if PROT_READ &&& PROT_EXEC = 0 then cfg0.pg_nx else 0)) &&&
            (PG_FRAME ||| PG_U ||| PG_M ||| PG_W ||| PG_PVLIST ||| PG_V) =
            e &&& (PG_FRAME ||| PG_U ||| PG_M ||| PG_W ||| PG_PVLIST ||| PG_V) ∧
          ((e &&& (0xffffffffffffffff ^^^ PG_RW)) |||
              (if PROT_READ &&& PROT_EXEC = 0 then cfg0.pg_nx else 0)) &&& PG_RW = 0 ∧
          ((e &&& (0xffffffffffffffff ^^^ PG_RW)) |||
              (if PROT_READ &&& PROT_EXEC = 0 then cfg0.pg_nx else 0)) &&& PG_NX =
            (e &&& PG_NX) ||| (if PROT_READ &&& PROT_EXEC = 0 then cfg0.pg_nx else 0)) ∧
        (∀ q va, dom st7 q va → q ≠ 1 → leaf s1 q va = leaf st7 q va) ∧
        (∀ q, (s1.pm q).resident_count = (st7.pm q).resident_count ∧
          (s1.pm q).wired_count = (st7.pm q).wired_count) ∧
        s1.wire_count = st7.wire_count ∧ s1.pv_list = st7.pv_list :=
  ⟨st7_Inv, rfl, rfl, rfl,
    write_protect_leaves cfg0 st7 st7_Inv 1 0x1000 0x2000 PROT_READ (by decide) (by decide)
      (by decide) (by decide) (by decide)⟩

theorem clear_w_testBit (e k : Nat) (hk : k < 64) :
    (e &&& (0xffffffffffffffff ^^^ PG_W)).testBit k = (e.testBit k && decide (k ≠ 9)) := by
  have h1 : (0xffffffffffffffff : Nat) = 2 ^ 64 - 1 := by norm_num
  have h2 : PG_W = 2 ^ 9 := by decide
  rw [Nat.testBit_and, Nat.testBit_xor, h1, Nat.testBit_two_pow_sub_one, h2, Nat.testBit_two_pow]
  by_cases h9 : k = 9 <;> simp [hk, h9]
  omega

/-- C17: for every pmap and `va` whose walk reaches a valid leaf PTE (in
any state): if the leaf has the wired bit, `pmap_unwire` clears that bit
and no other of the 64 bits of the PTE, lowers `wired_count` by 1 and
leaves `resident_count`, the other pmaps, every other entry, every
`wire_count` and every chain unchanged; if the leaf has no wired bit,
`pmap_unwire` leaves the state as it is. -/
theorem unwire_effect (c : config) (s : kstate) (p va t : Nat)
    (ht : ptab s.mem (root s p) va 1 = some t)
    (hv : pmap_valid_entry (s.mem t (slot va 1)) = true) :
    ∃ s1, pmap_unwire c s p va = some s1 ∧
      (s.mem t (slot va 1) &&& PG_W ≠ 0 →
        (s1.mem t (slot va 1)).testBit 9 = false ∧
          (∀ k, k < 64 → k ≠ 9 →
            (s1.mem t (slot va 1)).testBit k = (s.mem t (slot va 1)).testBit k) ∧
          (∀ t1 i, ¬ (t1 = t ∧ i = slot va 1) → s1.mem t1 i = s.mem t1 i) ∧
          (s1.pm p).wired_count = (s.pm p).wired_count - 1 ∧
          (s1.pm p).resident_count = (s.pm p).resident_count ∧
          (∀ q, q ≠ p → s1.pm q = s.pm q) ∧
          s1.wire_count = s.wire_count ∧ s1.pv_list = s.pv_list) ∧
      (s.mem t (slot va 1) &&& PG_W = 0 → s1 = s) := by
  have hnd : ¬ (c.DIAGNOSTIC = true ∧ ¬ pmap_valid_entry (s.mem t (slot va 1)) = true) :=
    fun h => h.2 hv
  simp only [pmap_unwire, find_pte_direct_leaf s p va t ht, if_true, if_neg hnd]
  by_cases hw : s.mem t (slot va 1) &&& PG_W = 0
  · refine ⟨s, by simp [hw], fun h => absurd hw h, fun _ => rfl⟩
  · refine ⟨add_wired (pmap_pte_clearbits s t (slot va 1) PG_W) p (-1), by rw [if_pos hw],
      fun _ => ⟨?_, ?_, ?_, ?_, ?_, ?_, rfl, rfl⟩, fun h => absurd h hw⟩
    · simp only [add_wired, pmap_pte_clearbits, set_mem, mem_set_same]
      rw [clear_w_testBit _ 9 (by omega)]
      simp
    · intro k hk h9
      simp only [add_wired, pmap_pte_clearbits, set_mem, mem_set_same]
      rw [clear_w_testBit _ k hk]
      simp [h9]
    · intro t1 i h
      simp only [add_wired, pmap_pte_clearbits, set_mem, mem_set, if_neg h]
    · simp [add_wired, pmap_pte_clearbits, set_mem, upd]
      rfl
    · simp [add_wired, pmap_pte_clearbits, set_mem, upd]
    · intro q hq
      simp [add_wired, pmap_pte_clearbits, set_mem, upd, hq]

theorem unwire_effect_witness :
    ptab w1.mem (root w1 1) 0x1000 1 = some 0x102000 ∧
      w1.mem 0x102000 (slot 0x1000 1) = 0x8000000000400607 ∧
      pmap_unwire cfg0 w1 1 0x1000 = some w3 ∧
      w3.mem 0x102000 (slot 0x1000 1) = 0x8000000000400407 ∧
      (w1.pm 1).wired_count = 1 ∧ (w3.pm 1).wired_count = 0 ∧
      ∃ s1, pmap_unwire cfg0 w1 1 0x1000 = some s1 ∧
        (w1.mem 0x102000 (slot 0x1000 1) &&& PG_W ≠ 0 →
          (s1.mem 0x102000 (slot 0x1000 1)).testBit 9 = false ∧
            (∀ k, k < 64 → k ≠ 9 →
              (s1.mem 0x102000 (slot 0x1000 1)).testBit k =
                (w1.mem 0x102000 (slot 0x1000 1)).testBit k) ∧
            (∀ t1 i, ¬ (t1 = 0x102000 ∧ i = slot 0x1000 1) → s1.mem t1 i = w1.mem t1 i) ∧
            (s1.pm 1).wired_count = (w1.pm 1).wired_count - 1 ∧
            (s1.pm 1).resident_count = (w1.pm 1).resident_count ∧
            (∀ q, q ≠ 1 → s1.pm q = w1.pm q) ∧
            s1.wire_count = w1.wire_count ∧ s1.pv_list = w1.pv_list) ∧
        (w1.mem 0x102000 (slot 0x1000 1) &&& PG_W = 0 → s1 = w1) :=
  ⟨by decide, by decide, rfl, by decide, rfl, rfl,
    unwire_effect cfg0 w1 1 0x1000 0x102000 (by decide) (by decide)⟩

/-! ## The recursive slot and the single-page path -/

/-- C18, at the failing input: `0x7f8000000000` lies under the top-level slot
`PDIR_SLOT_PTE`; in the state `st2` its "leaf" is the level-2 entry
`0x102007` that links the page-table page of the page `0x1000`.  Without
`DIAGNOSTIC` the single-page path of `pmap_remove` clears that entry, takes
one off `resident_count` and with it the mapping of `0x1000` is lost; with
`DIAGNOSTIC` the call panics.  The range path, on the two pages from the
same address, leaves the entry as it is. -/
theorem remove_single_page_recursive_slot :
    pl_i 0x7f8000000000 PTP_LEVELS = PDIR_SLOT_PTE ∧ 1 ∈ st2.pmaps ∧
      st2.mem 0x101000 0 = 0x102007 ∧ pmap_extract st2 1 0x1000 = some 0x400000 ∧
      (st2.pm 1).resident_count = 5 ∧
      (pmap_remove cfg1 st2 1 0x7f8000000000 0x7f8000001000).map
        (fun r => (r.mem 0x101000 0, pmap_extract r 1 0x1000, (r.pm 1).resident_count)) =
          some (0, none, 4) ∧
      (pmap_remove cfg0 st2 1 0x7f8000000000 0x7f8000001000).isNone = true ∧
      (pmap_remove cfg1 st2 1 0x7f8000000000 0x7f8000002000).map
        (fun r => (r.mem 0x101000 0, pmap_extract r 1 0x1000, (r.pm 1).resident_count)) =
          some (0x102007, some 0x400000, 5) :=
  ⟨by decide, by decide, by decide, by decide, by decide, by decide!, by decide!, by decide!⟩

/-! ## pmap_reference, pmap_destroy -/

theorem set_refs_upd (s : kstate) (p : Nat) (n : Int) :
    set_refs { s with pm := upd s.pm p { s.pm p with uo_refs := n } } p (s.pm p).uo_refs = s := by
  have hpm : upd (upd s.pm p { s.pm p with uo_refs := n }) p
      { (upd s.pm p { s.pm p with uo_refs := n }) p with uo_refs := (s.pm p).uo_refs } =
      s.pm := by
    funext q
    by_cases hq : q = p
    · subst hq
      simp [upd]
    · simp [upd, hq]
  simp only [set_refs, hpm]

theorem reference_then_destroy (c : config) (s : kstate) (p : Nat) (h : 0 < (s.pm p).uo_refs) :
    pmap_destroy c (pmap_reference s p) p = some s := by
  have hr : ((pmap_reference s p).pm p).uo_refs - 1 = (s.pm p).uo_refs := by
    simp [pmap_reference, upd]
  have hgt : ((pmap_reference s p).pm p).uo_refs - 1 > 0 := by
    rw [hr]
    exact h
  have hpm : upd (pmap_reference s p).pm p
      { (pmap_reference s p).pm p with uo_refs := ((pmap_reference s p).pm p).uo_refs - 1 } =
      s.pm := by
    funext q
    by_cases hq : q = p
    · subst hq
      simp [pmap_reference, upd]
    · simp [pmap_reference, upd, hq]
  simp only [pmap_destroy, hgt, if_true, hpm]
  rfl

/-- The loop of `pmap_destroy` over one index: the index ends empty, its
pages are free, the rest of the pmap stays. -/
theorem destroy_pages_spec (p lidx : Nat) :
    ∀ n s, ((s.pm p).pm_obj lidx).length ≤ n →
      ((pmap_destroy_pages p lidx n s).pm p).pm_obj lidx = [] ∧
      (∀ k, k ≠ lidx →
        ((pmap_destroy_pages p lidx n s).pm p).pm_obj k = (s.pm p).pm_obj k) ∧
      (∀ e ∈ (s.pm p).pm_obj lidx, e.2 ∈ (pmap_destroy_pages p lidx n s).free_pages) ∧
      (∀ f ∈ s.free_pages, f ∈ (pmap_destroy_pages p lidx n s).free_pages) ∧
      (pmap_destroy_pages p lidx n s).pmaps = s.pmaps ∧
      (pmap_destroy_pages p lidx n s).pdp_pool = s.pdp_pool ∧
      (pmap_destroy_pages p lidx n s).pmap_pool = s.pmap_pool ∧
      (pmap_destroy_pages p lidx n s).mem = s.mem ∧
      ((pmap_destroy_pages p lidx n s).pm p).uo_refs = (s.pm p).uo_refs ∧
      ((pmap_destroy_pages p lidx n s).pm p).pm_pdir = (s.pm p).pm_pdir ∧
      ((pmap_destroy_pages p lidx n s).pm p).pm_pdir_intel = (s.pm p).pm_pdir_intel := by
  intro n
  induction n with
  | zero =>
    intro s hn
    have h0 : (s.pm p).pm_obj lidx = [] := List.length_eq_zero.1 (by omega)
    have e0 : pmap_destroy_pages p lidx 0 s = s := rfl
    rw [e0]
    refine ⟨h0, fun _ _ => rfl, ?_, fun _ h => h, rfl, rfl, rfl, rfl, rfl, rfl, rfl⟩
    intro e he
    rw [h0] at he
    cases he
  | succ n ih =>
    intro s hn
    cases hl : (s.pm p).pm_obj lidx with
    | nil =>
      have e0 : pmap_destroy_pages p lidx (n + 1) s = s := by
        simp only [pmap_destroy_pages, hl, RBT_ROOT, List.head?_nil, Option.map_none']
      rw [e0]
      refine ⟨hl, fun _ _ => rfl, ?_, fun _ h => h, rfl, rfl, rfl, rfl, rfl, rfl, rfl⟩
      intro e he
      cases he
    | cons a rest =>
      obtain ⟨s', hs'⟩ : ∃ s', s' = uvm_pagefree (obj_remove
          (add_resident (set_wire s a.2 0) p (-1)) p lidx a.2) a.2 := ⟨_, rfl⟩
      have hstep : pmap_destroy_pages p lidx (n + 1) s = pmap_destroy_pages p lidx n s' := by
        simp only [pmap_destroy_pages, hl, RBT_ROOT, List.head?_cons, Option.map_some']
        rw [hs']
      have hobj : (s'.pm p).pm_obj lidx = rest.filter fun e => e.2 != a.2 := by
        rw [hs']
        simp [uvm_pagefree, obj_remove, add_resident, set_wire, upd, hl]
      have hobk : ∀ k, k ≠ lidx → (s'.pm p).pm_obj k = (s.pm p).pm_obj k := by
        intro k hk
        rw [hs']
        simp [uvm_pagefree, obj_remove, add_resident, set_wire, upd, hk]
      have hfree : s'.free_pages = a.2 :: s.free_pages := by
        rw [hs']
        rfl
      have hrest : s'.pmaps = s.pmaps ∧ s'.pdp_pool = s.pdp_pool ∧ s'.pmap_pool = s.pmap_pool ∧
          s'.mem = s.mem ∧ (s'.pm p).uo_refs = (s.pm p).uo_refs ∧
          (s'.pm p).pm_pdir = (s.pm p).pm_pdir ∧
          (s'.pm p).pm_pdir_intel = (s.pm p).pm_pdir_intel := by
        rw [hs']
        simp [uvm_pagefree, obj_remove, add_resident, set_wire, upd]
      have hlen : ((s'.pm p).pm_obj lidx).length ≤ n := by
        rw [hobj]
        have h1 := List.length_filter_le (fun e : Nat × Nat => e.2 != a.2) rest
        rw [hl] at hn
        simp only [List.length_cons] at hn
        omega
      obtain ⟨i1, i2, i3, i4, i5, i6, i7, i8, i9, i10, i11⟩ := ih s' hlen
      rw [hstep]
      refine ⟨i1, fun k hk => (i2 k hk).trans (hobk k hk), ?_, ?_, i5.trans hrest.1,
        i6.trans hrest.2.1, i7.trans hrest.2.2.1, i8.trans hrest.2.2.2.1,
        i9.trans hrest.2.2.2.2.1, i10.trans hrest.2.2.2.2.2.1, i11.trans hrest.2.2.2.2.2.2⟩
      · intro e he
        by_cases h2 : e.2 = a.2
        · rw [h2]
          exact i4 a.2 (by rw [hfree]; exact List.mem_cons_self _ _)
        · apply i3 e
          rw [hobj]
          rcases List.mem_cons.1 he with h3 | h3
          · exact absurd (by rw [h3]) h2
          · exact List.mem_filter.2 ⟨h3, by simpa using h2⟩
      · intro f hf
        exact i4 f (by rw [hfree]; exact List.mem_cons_of_mem _ hf)

/-- The part of `pmap_destroy` that follows the removal from the list of pmaps. -/
theorem destroy_tail (s s1 : kstate) (p : Nat) (sF : kstate)
    (a1 : (s1.pm p).pm_obj = (s.pm p).pm_obj) (a3 : (s1.pm p).pm_pdir = (s.pm p).pm_pdir)
    (a4 : (s1.pm p).pm_pdir_intel = (s.pm p).pm_pdir_intel)
    (hF : sF =
      (let s2 := pmap_destroy_pages p 0 ((s1.pm p).pm_obj 0).length s1
       let s3 := pmap_destroy_pages p 1 ((s2.pm p).pm_obj 1).length s2
       let s4 := pmap_destroy_pages p 2 ((s3.pm p).pm_obj 2).length s3
       let s5 : kstate := { s4 with pdp_pool := (s4.pm p).pm_pdir :: s4.pdp_pool }
       let s6 : kstate :=
         if (s5.pm p).pm_pdir_intel ≠ 0 then
           let s51 := add_resident s5 p (-1)
           { s51 with pdp_pool := (s51.pm p).pm_pdir_intel :: s51.pdp_pool }
         else s5
       { s6 with pmap_pool := p :: s6.pmap_pool })) :
    (sF.pm p).uo_refs = (s1.pm p).uo_refs ∧ sF.pmaps = s1.pmaps ∧ p ∈ sF.pmap_pool ∧
      (s.pm p).pm_pdir ∈ sF.pdp_pool ∧
      ((s.pm p).pm_pdir_intel ≠ 0 → (s.pm p).pm_pdir_intel ∈ sF.pdp_pool) ∧
      sF.mem = s1.mem ∧
      ∀ k, k < 3 → (sF.pm p).pm_obj k = [] ∧ ∀ e ∈ (s.pm p).pm_obj k, e.2 ∈ sF.free_pages := by
  rw [← a1, ← a3, ← a4]
  obtain ⟨s2, hs2⟩ : ∃ s2, s2 = pmap_destroy_pages p 0 ((s1.pm p).pm_obj 0).length s1 := ⟨_, rfl⟩
  obtain ⟨s3, hs3⟩ : ∃ s3, s3 = pmap_destroy_pages p 1 ((s2.pm p).pm_obj 1).length s2 := ⟨_, rfl⟩
  obtain ⟨s4, hs4⟩ : ∃ s4, s4 = pmap_destroy_pages p 2 ((s3.pm p).pm_obj 2).length s3 := ⟨_, rfl⟩
  have b2 := destroy_pages_spec p 0 _ s1 (Nat.le_refl _)
  have b3 := destroy_pages_spec p 1 _ s2 (Nat.le_refl _)
  have b4 := destroy_pages_spec p 2 _ s3 (Nat.le_refl _)
  rw [← hs2] at b2
  rw [← hs3] at b3
  rw [← hs4] at b4
  simp only [← hs2, ← hs3, ← hs4] at hF
  obtain ⟨c1, c2, c3, c4, c5, c6, c7, c8, c9, c10, c11⟩ := b2
  obtain ⟨d1, d2, d3, d4, d5, d6, d7, d8, d9, d10, d11⟩ := b3
  obtain ⟨e1, e2, e3, e4, e5, e6, e7, e8, e9, e10, e11⟩ := b4
  have hobj : ∀ k, k < 3 → (s4.pm p).pm_obj k = [] ∧
      ∀ e ∈ (s1.pm p).pm_obj k, e.2 ∈ s4.free_pages := by
    intro k hk
    have hk3 : k = 0 ∨ k = 1 ∨ k = 2 := by omega
    rcases hk3 with h | h | h <;> subst h
    · refine ⟨by rw [e2 0 (by omega), d2 0 (by omega), c1], ?_⟩
      intro e he
      exact e4 _ (d4 _ (c3 e he))
    · refine ⟨by rw [e2 1 (by omega), d1], ?_⟩
      intro e he
      rw [← c2 1 (by omega)] at he
      exact e4 _ (d3 e he)
    · refine ⟨e1, ?_⟩
      intro e he
      rw [← c2 2 (by omega), ← d2 2 (by omega)] at he
      exact e3 e he
  have hpd : (s4.pm p).pm_pdir = (s1.pm p).pm_pdir := e10.trans (d10.trans c10)
  have hpi : (s4.pm p).pm_pdir_intel = (s1.pm p).pm_pdir_intel := e11.trans (d11.trans c11)
  by_cases hi : (s4.pm p).pm_pdir_intel ≠ 0
  · simp only [hi, ne_eq, not_false_eq_true, if_true] at hF
    rw [hF]
    refine ⟨?_, e5.trans (d5.trans c5), List.mem_cons_self _ _, ?_, ?_, e8.trans (d8.trans c8), ?_⟩
    · simp [add_resident, upd]
      exact e9.trans (d9.trans c9)
    · simp [add_resident, upd, hpd]
    · intro _
      simp [add_resident, upd, hpi]
    · intro k hk
      simpa [add_resident, upd] using hobj k hk
  · simp only [hi, if_false] at hF
    rw [hF]
    refine ⟨e9.trans (d9.trans c9), e5.trans (d5.trans c5), List.mem_cons_self _ _, ?_, ?_,
      e8.trans (d8.trans c8), hobj⟩
    · simp [hpd]
    · intro h
      exact absurd (hpi ▸ h) hi

theorem destroy_last (c : config) (s : kstate) (p : Nat) (hr : (s.pm p).uo_refs - 1 ≤ 0)
    (hb : ∀ k, k < 3 → ∀ e ∈ (s.pm p).pm_obj k, s.pg_flags e.2 &&& PG_BUSY = 0) :
    ∃ s1, pmap_destroy c s p = some s1 ∧ (s1.pm p).uo_refs = (s.pm p).uo_refs - 1 ∧
      s1.pmaps = s.pmaps.erase p ∧ p ∈ s1.pmap_pool ∧ (s.pm p).pm_pdir ∈ s1.pdp_pool ∧
      ((s.pm p).pm_pdir_intel ≠ 0 → (s.pm p).pm_pdir_intel ∈ s1.pdp_pool) ∧ s1.mem = s.mem ∧
      ∀ k, k < 3 → (s1.pm p).pm_obj k = [] ∧ ∀ e ∈ (s.pm p).pm_obj k, e.2 ∈ s1.free_pages := by
  have hneg : ¬ (s.pm p).uo_refs - 1 > 0 := by omega
  obtain ⟨s1, hs1⟩ : ∃ s1 : kstate, s1 = { s with
      pm := upd s.pm p { s.pm p with uo_refs := (s.pm p).uo_refs - 1 },
      pmaps := s.pmaps.erase p } := ⟨_, rfl⟩
  have a1 : (s1.pm p).pm_obj = (s.pm p).pm_obj ∧ (s1.pm p).uo_refs = (s.pm p).uo_refs - 1 ∧
      (s1.pm p).pm_pdir = (s.pm p).pm_pdir ∧ (s1.pm p).pm_pdir_intel = (s.pm p).pm_pdir_intel ∧
      s1.pg_flags = s.pg_flags ∧ s1.pmaps = s.pmaps.erase p ∧ s1.mem = s.mem := by
    rw [hs1]
    simp [upd]
  obtain ⟨a11, a12, a13, a14, a15, a16, a17⟩ := a1
  have hbusy : ¬ (c.DIAGNOSTIC ∧
      (∃ e ∈ (s1.pm p).pm_obj 0 ++ (s1.pm p).pm_obj 1 ++ (s1.pm p).pm_obj 2,
        s1.pg_flags e.2 &&& PG_BUSY ≠ 0)) := by
    rintro ⟨_, e, he, h⟩
    rw [a11] at he
    rw [a15] at h
    rcases List.mem_append.1 he with h1 | h1
    · rcases List.mem_append.1 h1 with h2 | h2
      · exact h (hb 0 (by omega) e h2)
      · exact h (hb 1 (by omega) e h2)
    · exact h (hb 2 (by omega) e h1)
  obtain ⟨t1, t2, t3, t4, t5, t6, t7⟩ := destroy_tail s s1 p _ a11 a13 a14 rfl
  refine ⟨_, ?_, t1.trans a12, t2.trans a16, t3, t4, t5, t6.trans a17, t7⟩
  subst hs1
  exact (if_neg hneg).trans ((if_neg hbusy).trans rfl)

/-- C20: `pmap_reference` adds exactly 1 to the reference count of the pmap
and changes nothing else (setting the count back gives the state before).
`pmap_destroy` takes exactly 1 off; when the count it leaves is positive it
changes nothing else; when it is not positive (and no page-table page of the
pmap is busy, which the code asserts) it returns with the pmap off the list
of pmaps, its structure in the pmap pool, its root and its shadow root in
the pool of roots, its three indexes empty and their pages free; the page
tables of other pmaps are not written.  `pmap_reference` followed by
`pmap_destroy` on a pmap in use gives back exactly the state before. -/
theorem reference_destroy (c : config) (s : kstate) (p : Nat) :
    ((pmap_reference s p).pm p).uo_refs = (s.pm p).uo_refs + 1 ∧
      set_refs (pmap_reference s p) p (s.pm p).uo_refs = s ∧
      (0 < (s.pm p).uo_refs - 1 →
        ∃ s1, pmap_destroy c s p = some s1 ∧ (s1.pm p).uo_refs = (s.pm p).uo_refs - 1 ∧
          set_refs s1 p (s.pm p).uo_refs = s) ∧
      ((s.pm p).uo_refs - 1 ≤ 0 →
        (∀ k, k < 3 → ∀ e ∈ (s.pm p).pm_obj k, s.pg_flags e.2 &&& PG_BUSY = 0) →
        ∃ s1, pmap_destroy c s p = some s1 ∧ (s1.pm p).uo_refs = (s.pm p).uo_refs - 1 ∧
          s1.pmaps = s.pmaps.erase p ∧ p ∈ s1.pmap_pool ∧ (s.pm p).pm_pdir ∈ s1.pdp_pool ∧
          ((s.pm p).pm_pdir_intel ≠ 0 → (s.pm p).pm_pdir_intel ∈ s1.pdp_pool) ∧
          s1.mem = s.mem ∧
          ∀ k, k < 3 → (s1.pm p).pm_obj k = [] ∧
            ∀ e ∈ (s.pm p).pm_obj k, e.2 ∈ s1.free_pages) ∧
      (0 < (s.pm p).uo_refs → pmap_destroy c (pmap_reference s p) p = some s) := by
  refine ⟨by simp [pmap_reference, upd], set_refs_upd s p _, ?_, destroy_last c s p,
    reference_then_destroy c s p⟩
  intro h
  have hgt : (s.pm p).uo_refs - 1 > 0 := h
  simp only [pmap_destroy, hgt, if_true]
  exact ⟨_, rfl, by simp [upd], set_refs_upd s p _⟩

theorem reference_destroy_witness :
    (st2.pm 1).uo_refs = 1 ∧ ((pmap_reference st2 1).pm 1).uo_refs = 2 ∧
      pmap_destroy cfg0 (pmap_reference st2 1) 1 = some st2 ∧
      ∃ s1, pmap_destroy cfg0 st2 1 = some s1 ∧ s1.pmaps = [] ∧ 1 ∈ s1.pmap_pool ∧
        0x2000 ∈ s1.pdp_pool ∧ 0x102000 ∈ s1.free_pages :=
  ⟨by decide, (reference_destroy cfg0 st2 1).1.trans (by decide),
    (reference_destroy cfg0 st2 1).2.2.2.2 (by decide),
    let ⟨s1, h1, _, h3, h4, h5, _, _, h8⟩ :=
      (reference_destroy cfg0 st2 1).2.2.2.1 (by decide) (by decide)
    ⟨s1, h1, h3.trans (by decide), h4, h5, (h8 0 (by decide)).2 (0, 0x102000) (by decide)⟩⟩

/-! ## The range of pmap_remove -/

theorem st9_Inv : Inv cfg0 st9 := after_Inv cfg0 st2 _ st2_Inv

/-- A translation of a user pmap below the recursive slot comes from a
valid leaf PTE. -/
theorem extract_some_leaf (c : config) (s : kstate) (hS : SInv c s) (p va pa : Nat)
    (hp : p ∈ s.pmaps) (hva : va < 0x7f8000000000) (h : pmap_extract s p va = some pa) :
    ∃ t, ptab s.mem (root s p) va 1 = some t ∧
      pmap_valid_entry (s.mem t (slot va 1)) = true := by
  have hp0 : p ≠ 0 := fun e => hS.kern_notin (e ▸ hp)
  have hd : ¬ (p = 0 ∧ va ≥ PMAP_DIRECT_BASE ∧ va < PMAP_DIRECT_END) := fun e => hp0 e.1
  cases h1 : ptab s.mem (root s p) va 1 with
  | some t =>
    refine ⟨t, rfl, ?_⟩
    rw [extract_leaf s p va t hd h1] at h
    by_contra hv
    rw [if_neg hv] at h
    cases h
  | none =>
    have hn := cleared_extract c s hS p va hp hva (fun t ht => by rw [h1] at ht; cases ht)
    rw [hn] at h
    cases h

/-- The answer of `pmap_extract` depends on the entries on the path of `va` only. -/
theorem extract_congr (s s1 : kstate) (p va : Nat) (hr : root s1 p = root s p)
    (h : ∀ L x, 1 ≤ L → L ≤ 4 → ptab s.mem (root s p) va L = some x →
      s1.mem x (slot va L) = s.mem x (slot va L)) :
    pmap_extract s1 p va = pmap_extract s p va := by
  by_cases hd : p = 0 ∧ va ≥ PMAP_DIRECT_BASE ∧ va < PMAP_DIRECT_END
  · simp only [pmap_extract, hd, and_self, if_true]
  · have hp : ∀ L, 1 ≤ L → L ≤ 4 →
        ptab s1.mem (root s1 p) va L = ptab s.mem (root s p) va L := by
      intro L h1 h4
      rw [hr]
      exact ptab_congr s.mem s1.mem (root s p) va L h1 h4
        (fun j t hj1 hj2 ht => h j t (by omega) hj2 ht)
    cases h2 : ptab s.mem (root s p) va 2 with
    | none =>
      rw [extract_hi s p va hd h2, extract_hi s1 p va hd ((hp 2 (by omega) (by omega)).trans h2)]
    | some t2 =>
      have g2 := (hp 2 (by omega) (by omega)).trans h2
      cases h1 : ptab s.mem (root s p) va 1 with
      | none =>
        rw [extract_at1 s p va t2 hd h2 h1,
          extract_at1 s1 p va t2 hd g2 ((hp 1 (by omega) (by omega)).trans h1),
          h 2 t2 (by omega) (by omega) h2]
      | some t1 =>
        rw [extract_leaf s p va t1 hd h1,
          extract_leaf s1 p va t1 hd ((hp 1 (by omega) (by omega)).trans h1),
          h 1 t1 (by omega) (by omega) h1]

/-- The path of a kernel address in a user pmap is its path in the kernel pmap. -/
theorem ptab_kernel_half (c : config) (s : kstate) (hS : SInv c s) (p va L : Nat)
    (hp : p ∈ s.pmaps) (hv1 : 0xffff800000000000 ≤ va) (hv2 : va < 2 ^ 64) (h1 : 1 ≤ L)
    (h3 : L ≤ 3) : ptab s.mem (root s p) va L = ptab s.mem (root s 0) va L := by
  have hva := pfx_kern va hv1 hv2
  have e3 : ptab s.mem (root s p) va 3 = ptab s.mem (root s 0) va 3 := by
    rw [ptab_3, ptab_3]
    simp only [pstep, slot4]
    rw [hS.kshare p hp _ hva.1 hva.2]
  have e2 : ptab s.mem (root s p) va 2 = ptab s.mem (root s 0) va 2 := by
    rw [ptab_2, ptab_2, e3]
  have e1 : ptab s.mem (root s p) va 1 = ptab s.mem (root s 0) va 1 := by
    rw [ptab_1, ptab_1, e2]
  have : L = 1 ∨ L = 2 ∨ L = 3 := by omega
  rcases this with hL | hL | hL <;> subst hL
  · exact e1
  · exact e2
  · exact e3

/-- The addresses under the recursive slot translate to the page-table
pages themselves and follow the tree.  In the state `st2` the address
`0x7f8000000000`, outside the range `[0x1000, 0x2000)`, translates to the
page-table page `0x102000` of the page `0x1000`; `pmap_remove` of the range
frees that page-table page, and the address no longer translates. -/
theorem remove_window_counterexample :
    Inv cfg0 st2 ∧ 1 ∈ st2.pmaps ∧ (st2.pm 1).pm_type = PMAP_TYPE_NORMAL ∧
      0x2000 ≤ 0x7f8000000000 ∧ 0x7f8000000000 % PAGE_SIZE = 0 ∧
      pmap_extract st2 1 0x7f8000000000 = some 0x102000 ∧
      (pmap_remove cfg0 st2 1 0x1000 0x2000).map
        (fun s1 => pmap_extract s1 1 0x7f8000000000) = some none :=
  ⟨st2_Inv, by decide, by decide, by decide, by decide, by decide, by decide!⟩

/-- The normal regime keeps to the range: in a state that satisfies the
state invariant, for a user pmap of the normal regime and a page-aligned
range `[sva, eva)` with
`sva < eva` that ends at or below the recursive slot, `pmap_remove` returns,
and `pmap_extract` answers as it did before for every `va` outside
`[sva, eva)` that lies below the recursive slot, the page at `eva` among
them, and for every `va` of the kernel half. -/
theorem remove_outside (c : config) (s : kstate) (hI : Inv c s) (p sva eva : Nat)
    (hp : p ∈ s.pmaps) (ha : sva % PAGE_SIZE = 0) (hae : eva % PAGE_SIZE = 0) (hlt : sva < eva)
    (he : eva ≤ 0x7f8000000000) :
    ∃ s1, pmap_remove c s p sva eva = some s1 ∧
      (∀ va, va < 0x7f8000000000 → (va < sva ∨ eva ≤ va) →
        pmap_extract s1 p va = pmap_extract s p va) ∧
      ∀ va, 0xffff800000000000 ≤ va → va < 2 ^ 64 →
        pmap_extract s1 p va = pmap_extract s p va := by
  obtain ⟨s1, h1, h2, _, h4, _, _, _, h8⟩ := remove_spec c s hI p sva eva hp ha hae hlt he
  have hp0 : p ≠ 0 := fun e => hI.tree.kern_notin (e ▸ hp)
  refine ⟨s1, h1, ?_, ?_⟩
  · intro va hva hout
    have hd : ¬ (p = 0 ∧ va ≥ PMAP_DIRECT_BASE ∧ va < PMAP_DIRECT_END) := fun e => hp0 e.1
    cases hx : pmap_extract s p va with
    | none => exact extract_shrink s s1 h4 p va hx
    | some pa =>
      obtain ⟨t, ht, hv⟩ := extract_some_leaf c s hI.tree p va pa hp hva hx
      obtain ⟨k1, k2⟩ := h8.1 va t hva (fun h => by omega) ht hv
      rw [extract_leaf s1 p va t hd k1, k2, ← extract_leaf s p va t hd ht]
      exact hx
  · intro va hv1 hv2
    apply extract_congr s s1 p va (h4.2.1 p)
    intro L x hL1 hL4 hx
    by_cases h4L : L = 4
    · subst h4L
      have hva := pfx_kern va hv1 hv2
      rw [ptab_4] at hx
      cases hx
      rw [slot4, ← h4.2.1 p, h2.tree.kshare p (h4.1 ▸ hp) _ hva.1 hva.2, h4.2.1 p,
        hI.tree.kshare p hp _ hva.1 hva.2, h8.2.1]
      exact h8.2.2 va 4 (root s 0) hv1 hv2 (by omega) (by omega) rfl _
    · rw [ptab_kernel_half c s hI.tree p va L hp hv1 hv2 hL1 (by omega)] at hx
      exact h8.2.2 va L x hv1 hv2 hL1 hL4 hx _

theorem remove_outside_witness :
    Inv cfg0 st9 ∧ pmap_extract st9 1 0x1000 = some 0x400000 ∧
      pmap_extract st9 1 0x2000 = some 0x401000 ∧
      ∃ s1, pmap_remove cfg0 st9 1 0x1000 0x2000 = some s1 ∧
        pmap_extract s1 1 0x2000 = some 0x401000 :=
  ⟨st9_Inv, by decide, by decide,
    let ⟨s1, h1, h2, _⟩ := remove_outside cfg0 st9 st9_Inv 1 0x1000 0x2000 (by decide)
      (by decide) (by decide) (by decide) (by decide)
    ⟨s1, h1, (h2 0x2000 (by decide) (Or.inr (by decide))).trans (by decide)⟩⟩

/-- C19, at the failing input, the extended regime at the end of the range:
in the state `e2` the pmap 1 is an EPT pmap whose only mapping is the
guest-physical page `0x2000`, outside the range `[0x1000, 0x2000)`;
`pmap_remove` of `[0x1000, 0x2000)` goes on to the page at `0x2000`, the
loop of `pmap_remove_ept` running while `v < egpa + PAGE_SIZE`, and removes
that mapping. -/
theorem remove_ept_end_page :
    (e2.pm 1).pm_type = PMAP_TYPE_EPT ∧ 0x1000 % PAGE_SIZE = 0 ∧ 0x2000 % PAGE_SIZE = 0 ∧
      ¬ (0x1000 ≤ 0x2000 ∧ 0x2000 < 0x2000) ∧ pmap_extract e2 1 0x1000 = none ∧
      pmap_extract e2 1 0x2000 = some 0x400000 ∧
      (pmap_remove cfg0 e2 1 0x1000 0x2000).map (fun s1 => pmap_extract s1 1 0x2000) =
        some none :=
  ⟨by decide, by decide, by decide, by decide, by decide, by decide, by decide!⟩

/-! ## The protection table and the direct walk -/

/-- C29: `protection_codes[prot]` is, for each of the 8 combinations of the
protection bits, the writable bit when `prot` contains write (read-only
otherwise) or-ed with the no-execute bit `pg_nx` exactly when `prot` does not
contain execute; write-only gives the code of read+write, and setting or
clearing the read bit never changes the code.  On a processor with
no-execute (`pg_nx = PG_NX`) the code has the hardware bits `PG_RW` and
`PG_NX` exactly under these conditions. -/
theorem protection_codes_table (c : config) :
    (∀ prot : Fin 8, protection_codes c prot.val =
      (if prot.val &&& PROT_WRITE ≠ 0 then PG_RW else PG_RO) |||
        (if prot.val &&& PROT_EXEC = 0 then c.pg_nx else 0)) ∧
    protection_codes c PROT_WRITE = protection_codes c (PROT_READ ||| PROT_WRITE) ∧
    (∀ prot : Fin 8, protection_codes c (prot.val ||| PROT_READ) =
      protection_codes c (prot.val &&& (PROT_WRITE ||| PROT_EXEC))) ∧
    (c.pg_nx = PG_NX → ∀ prot : Fin 8,
      (protection_codes c prot.val &&& PG_RW ≠ 0 ↔ prot.val &&& PROT_WRITE ≠ 0) ∧
      (protection_codes c prot.val &&& PG_NX ≠ 0 ↔ prot.val &&& PROT_EXEC = 0)) := by
  refine ⟨?_, ?_, ?_, ?_⟩
  · intro prot
    fin_cases prot <;>
      first | rfl | exact (Nat.zero_or _).symm | exact (Nat.or_zero _).symm
  · rfl
  · intro prot
    fin_cases prot <;> first | rfl | exact Nat.zero_or _
  · intro h prot
    have e : ∀ p, protection_codes c p = protection_codes cfg0 p := by
      intro p
      simp only [protection_codes, h, show cfg0.pg_nx = PG_NX from rfl]
    rw [e]
    fin_cases prot <;> decide

theorem protection_codes_table_witness :
    cfg0.pg_nx = PG_NX ∧
    (protection_codes cfg0 PROT_WRITE &&& PG_RW ≠ 0 ↔ PROT_WRITE &&& PROT_WRITE ≠ 0) ∧
    (protection_codes cfg0 PROT_WRITE &&& PG_NX ≠ 0 ↔ PROT_WRITE &&& PROT_EXEC = 0) :=
  ⟨rfl, (protection_codes_table cfg0).2.2.2 rfl ⟨2, by decide⟩⟩

/-- C30: `pmap_find_pte_direct` walks the path of `va` from the root down.
The offset it uses in the level-`L` table is the 9-bit index of the
sign-stripped address, below 512.  At the first table of level 4, 3 or 2
whose entry for `va` is not valid or is a large page it returns one less than
that table's level, the table and the offset of that entry; when the three
upper entries are valid and not large (the path has a leaf table) it returns
level 0 with the leaf table and the leaf offset.  One of the two cases always
applies.  The function returns no state: it writes nothing. -/
theorem find_pte_direct_walk (s : kstate) (pm va : Nat) :
    (∀ L t, 2 ≤ L → L ≤ 4 → ptab s.mem (root s pm) va L = some t →
      s.mem t (slot va L) &&& (PG_PS ||| PG_V) ≠ PG_V →
      pmap_find_pte_direct s pm va = (L - 1, t, slot va L)) ∧
    (∀ t3 t2 t1, s.mem (root s pm) (slot va 4) &&& (PG_PS ||| PG_V) = PG_V →
      s.mem (root s pm) (slot va 4) &&& PG_FRAME = t3 →
      s.mem t3 (slot va 3) &&& (PG_PS ||| PG_V) = PG_V → s.mem t3 (slot va 3) &&& PG_FRAME = t2 →
      s.mem t2 (slot va 2) &&& (PG_PS ||| PG_V) = PG_V → s.mem t2 (slot va 2) &&& PG_FRAME = t1 →
      pmap_find_pte_direct s pm va = (0, t1, slot va 1)) ∧
    (∀ L t, 1 ≤ L → L ≤ 3 → ptab s.mem (root s pm) va L = some t →
      ∃ u, ptab s.mem (root s pm) va (L + 1) = some u ∧
        s.mem u (slot va (L + 1)) &&& (PG_PS ||| PG_V) = PG_V ∧
        s.mem u (slot va (L + 1)) &&& PG_FRAME = t) ∧
    ptab s.mem (root s pm) va 4 = some (s.pm pm).pm_pdirpa ∧
    (∀ L, 1 ≤ L → L ≤ 4 →
      slot va L = (VA_SIGN_POS va &&& (L4_MASK >>> (9 * (4 - L)))) >>> (L4_SHIFT - 9 * (4 - L)) ∧
      slot va L = VA_SIGN_POS va / 2 ^ (12 + 9 * (L - 1)) % 512 ∧ slot va L < 512) ∧
    (∃ L t, 1 ≤ L ∧ L ≤ 4 ∧ ptab s.mem (root s pm) va L = some t ∧
      pmap_find_pte_direct s pm va = (L - 1, t, slot va L) ∧
      (L = 1 ∨ s.mem t (slot va L) &&& (PG_PS ||| PG_V) ≠ PG_V)) := by
  have hspec := find_pte_direct_spec s pm va
  have key : ∀ L t, 2 ≤ L → L ≤ 4 → ptab s.mem (root s pm) va L = some t →
      s.mem t (slot va L) &&& (PG_PS ||| PG_V) ≠ PG_V →
      pmap_find_pte_direct s pm va = (L - 1, t, slot va L) := by
    intro L t h2 h4 ht hv
    have hnone := ptab_child_none s.mem (root s pm) va (L - 1) t (by omega) (by omega)
      (by rw [Nat.sub_add_cancel (by omega)]; exact ht)
      (by rw [Nat.sub_add_cancel (by omega)]; exact hv)
    have hL : L = 2 ∨ L = 3 ∨ L = 4 := by omega
    rcases hL with h | h | h <;> subst h
    · obtain ⟨t3, h3, _, _⟩ := ptab_parent _ _ _ 2 t (by omega) (by omega) ht
      rw [hspec]
      simp only [h3, ht, hnone]
    · have h2n := ptab_none_below s.mem (root s pm) va 1 (by omega) (by omega) hnone
      rw [hspec]
      simp only [ht, show (3 : Nat) - 1 = 2 from rfl] at hnone ⊢
      simp only [hnone]
    · rw [ptab_4] at ht
      cases ht
      rw [hspec]
      simp only [show (4 : Nat) - 1 = 3 from rfl] at hnone ⊢
      simp only [hnone]
  refine ⟨key, ?_, ?_, rfl, ?_, ?_⟩
  · intro t3 t2 t1 v4 f4 v3 f3 v2 f2
    have h3 : ptab s.mem (root s pm) va 3 = some t3 := by
      rw [← f4]; exact ptab_child _ _ _ 3 _ (by omega) (by omega) (ptab_4 _ _ _) v4
    have h2 : ptab s.mem (root s pm) va 2 = some t2 := by
      rw [← f3]; exact ptab_child _ _ _ 2 _ (by omega) (by omega) h3 v3
    have h1 : ptab s.mem (root s pm) va 1 = some t1 := by
      rw [← f2]; exact ptab_child _ _ _ 1 _ (by omega) (by omega) h2 v2
    exact find_pte_direct_leaf s pm va t1 h1
  · intro L t h1 h3 h
    exact ptab_parent _ _ _ L t h1 h3 h
  · intro L h1 h4
    have hL : L = 1 ∨ L = 2 ∨ L = 3 ∨ L = 4 := by omega
    refine ⟨?_, ?_, slot_lt va L⟩
    · rcases hL with h | h | h | h <;> subst h
      · exact (fpd_slot1 va).symm
      · exact (fpd_slot2 va).symm
      · exact (fpd_slot3 va).symm
      · exact (fpd_slot4 va).symm
    · have e : VA_SIGN_POS va = va % 2 ^ 48 := by
        have := and_mask va 0 48 (by decide)
        simp only [VA_SIGN_POS]
        norm_num at this ⊢
        omega
      rw [e]
      rcases hL with h | h | h | h <;> subst h <;>
        simp only [slot, pfx, Nat.div_div_eq_div_mul] <;> norm_num
  · cases h1 : ptab s.mem (root s pm) va 1 with
    | some t1 =>
      exact ⟨1, t1, le_refl _, by omega, h1, find_pte_direct_leaf s pm va t1 h1, Or.inl rfl⟩
    | none =>
      cases h2 : ptab s.mem (root s pm) va 2 with
      | some t2 =>
        have hv : s.mem t2 (slot va 2) &&& (PG_PS ||| PG_V) ≠ PG_V := by
          intro hv
          rw [ptab_child _ _ _ 1 _ (by omega) (by omega) h2 hv] at h1
          cases h1
        exact ⟨2, t2, by omega, by omega, h2, key 2 t2 (by omega) (by omega) h2 hv, Or.inr hv⟩
      | none =>
        cases h3 : ptab s.mem (root s pm) va 3 with
        | some t3 =>
          have hv : s.mem t3 (slot va 3) &&& (PG_PS ||| PG_V) ≠ PG_V := by
            intro hv
            rw [ptab_child _ _ _ 2 _ (by omega) (by omega) h3 hv] at h2
            cases h2
          exact ⟨3, t3, by omega, by omega, h3, key 3 t3 (by omega) (by omega) h3 hv, Or.inr hv⟩
        | none =>
          have hv : s.mem (root s pm) (slot va 4) &&& (PG_PS ||| PG_V) ≠ PG_V := by
            intro hv
            rw [ptab_child _ _ _ 3 _ (by omega) (by omega) (ptab_4 _ _ _) hv] at h3
            cases h3
          exact ⟨4, root s pm, by omega, by omega, ptab_4 _ _ _,
            key 4 _ (by omega) (by omega) (ptab_4 _ _ _) hv, Or.inr hv⟩

theorem find_pte_direct_walk_witness :
    pmap_find_pte_direct st2 1 0x1000 = (0, 0x102000, slot 0x1000 1) ∧
    pmap_find_pte_direct boot0 0 0 = (4 - 1, 0x1000, slot 0 4) :=
  ⟨(find_pte_direct_walk st2 1 0x1000).2.1 0x100000 0x101000 0x102000 (by decide) (by decide)
      (by decide) (by decide) (by decide) (by decide),
    (find_pte_direct_walk boot0 0 0).1 4 0x1000 (by decide) (by decide) rfl (by decide)⟩

/-! ## The root of a new pmap -/

/-- C21, as stated, fails at the slot of the kernel image: in the state
`kimg` the kernel root has the top-level slot 511 (that of `KERNBASE`) in
use and `nkptp[3]` is 0; the root of the pmap `pmap_create` returns has the
kernel's entry in slot 511, which is neither below the self-map slot, nor the
self-map slot, nor one of the first `nkptp[3]` kernel slots, nor the
direct-map slot, and is not zero. -/
theorem create_kernbase_slot_counterexample :
    pmap_create cfg0 kimg = some (1, kimg1) ∧ kimg.nkptp (PTP_LEVELS - 1) = 0 ∧
    ¬ (511 < PDIR_SLOT_PTE) ∧ 511 ≠ PDIR_SLOT_PTE ∧
    ¬ (PDIR_SLOT_KERN ≤ 511 ∧ 511 < PDIR_SLOT_KERN + kimg.nkptp (PTP_LEVELS - 1)) ∧
    511 ≠ PDIR_SLOT_DIRECT ∧ 511 < NTOPLEVEL_PDES ∧
    kimg1.mem (root kimg1 1) 511 = 0x6000 ||| PG_KW ||| PG_V ∧
    kimg1.mem (root kimg1 1) 511 ≠ 0 :=
  ⟨rfl, rfl, by decide, by decide, by decide, by decide, by decide, by decide, by decide⟩

/-- C21, amended: when the pools are not exhausted and, on a processor
that needs the Meltdown mitigation, the kernel pmap has a shadow root (which
`pmap_pdp_ctor_intel` copies), `pmap_create` returns a new pmap with
`wired_count` 0, an empty CPU mask, type normal, empty indexes and hints, at
the head of the list of user pmaps.  In its root every slot
below the self-map slot is zero, the self-map slot holds the root's own
address with `PG_V`, `PG_KW` and `pg_nx`, the first `nkptp[3]` kernel slots,
the direct-map slot and the slot of `KERNBASE` are those of the kernel
pmap's root, and every other slot is zero. -/
theorem create_root (c : config) (s : kstate) (hI : Inv c s) (hpool : s.pmap_pool ≠ [])
    (hpdp : (if c.cpu_meltdown = true then 2 else 1) ≤ s.pdp_pool.length)
    (hk : c.cpu_meltdown = true → (s.pm 0).pm_pdir_intel ≠ 0) :
    ∃ p s1, pmap_create c s = some (p, s1) ∧
      (s1.pm p).wired_count = 0 ∧ (s1.pm p).pm_cpus = 0 ∧
      (s1.pm p).pm_type = PMAP_TYPE_NORMAL ∧
      (∀ k, (s1.pm p).pm_obj k = [] ∧ (s1.pm p).pm_ptphint k = none) ∧
      s1.pmaps = p :: s.pmaps ∧
      (∀ i, i < PDIR_SLOT_PTE → s1.mem (root s1 p) i = 0) ∧
      s1.mem (root s1 p) PDIR_SLOT_PTE = root s1 p ||| PG_V ||| PG_KW ||| c.pg_nx ∧
      s1.mem (root s1 p) PDIR_SLOT_PTE &&& PG_FRAME = root s1 p ∧
      (∀ i, PDIR_SLOT_KERN ≤ i → i < PDIR_SLOT_KERN + s.nkptp (PTP_LEVELS - 1) →
        i < NTOPLEVEL_PDES → s1.mem (root s1 p) i = s1.mem (root s1 0) i) ∧
      s1.mem (root s1 p) PDIR_SLOT_DIRECT = s1.mem (root s1 0) PDIR_SLOT_DIRECT ∧
      s1.mem (root s1 p) (pl4_pi KERNBASE) = s1.mem (root s1 0) (pl4_pi KERNBASE) ∧
      (∀ i, PDIR_SLOT_KERN + s.nkptp (PTP_LEVELS - 1) ≤ i → i < NTOPLEVEL_PDES →
        i ≠ PDIR_SLOT_DIRECT → i ≠ pl4_pi KERNBASE → s1.mem (root s1 p) i = 0) := by
  have hS := hI.tree
  rcases create_spec c s hI with ⟨_, h0⟩ | ⟨p, s1, pdir, intel, h1, h2, h3, _⟩
  · exfalso
    rcases h0 with h0 | h0 | h0
    · exact hpool h0
    · omega
    · exact hk h0.1 h0.2
  · obtain ⟨f1, f2, f3⟩ := create_fields c s hI p s1 h1
    obtain ⟨g1, _, _, _, g5, g6⟩ := created_fresh c s s1 p pdir intel hS h2
    have hr : root s1 p = pdir := h2.pm_root
    have hr0 : root s1 0 = root s 0 := by
      simp only [root]
      rw [h2.pm_old 0 (fun e => g1 e.symm)]
    have hd0 : dom s 0 0xffff800000000000 := Or.inr ⟨rfl, by decide, by decide⟩
    have hk : ∀ i, s1.mem (root s1 0) i = s.mem (root s 0) i := by
      intro i
      rw [hr0]
      apply h2.mem_old
      · intro e
        exact g5 0 _ 4 hd0 (by omega) (by omega) (by rw [ptab_4, e])
      · intro e
        exact g6 e.1 0 _ 4 hd0 (by omega) (by omega) (by rw [ptab_4, e.2])
    have h511 : pl4_pi KERNBASE = 511 := by decide
    refine ⟨p, s1, h1, h2.pm_wired, f1, h2.pm_type, fun k => ⟨h2.pm_obj k, f2 k⟩, h2.pmaps, ?_,
      f3, ?_, ?_, ?_, ?_, ?_⟩
    · intro i hi
      rw [hr]
      exact h2.mem_user i hi
    · rw [f3]
      have hpf := hS.pdp_frame pdir h2.hpdir
      rw [hr]
      exact ctor_frame c hS.cfg pdir hpf.1
    · intro i a1 _ a3
      rw [hr, hk]
      exact h2.mem_kern i a1 a3
    · rw [hr, hk]
      exact h2.mem_kern _ (by decide) (by decide)
    · rw [hr, hk, h511]
      exact h2.mem_kern _ (by decide) (by decide)
    · intro i a1 a2 a3 a4
      have b1 : PDIR_SLOT_KERN + s.nkptp (PTP_LEVELS - 1) = 256 + s.nkptp 3 := rfl
      have b2 : NTOPLEVEL_PDES = 512 := rfl
      have b3 : PDIR_SLOT_DIRECT = 510 := rfl
      rw [hr, h2.mem_kern i (by omega) (by omega)]
      exact hS.kern_slots i (by omega) (by omega)

/-- In the state `bootm`, on a processor that needs the mitigation and with
the shadow root `0x9000` of the kernel pmap, `pmap_create` returns. -/
theorem create_root_witness :
    ∃ p s1, pmap_create cfgm bootm = some (p, s1) ∧
      (s1.pm p).wired_count = 0 ∧ (s1.pm p).pm_cpus = 0 ∧
      (s1.pm p).pm_type = PMAP_TYPE_NORMAL ∧
      (∀ k, (s1.pm p).pm_obj k = [] ∧ (s1.pm p).pm_ptphint k = none) ∧
      s1.pmaps = p :: bootm.pmaps ∧
      (∀ i, i < PDIR_SLOT_PTE → s1.mem (root s1 p) i = 0) ∧
      s1.mem (root s1 p) PDIR_SLOT_PTE = root s1 p ||| PG_V ||| PG_KW ||| cfgm.pg_nx ∧
      s1.mem (root s1 p) PDIR_SLOT_PTE &&& PG_FRAME = root s1 p ∧
      (∀ i, PDIR_SLOT_KERN ≤ i → i < PDIR_SLOT_KERN + bootm.nkptp (PTP_LEVELS - 1) →
        i < NTOPLEVEL_PDES → s1.mem (root s1 p) i = s1.mem (root s1 0) i) ∧
      s1.mem (root s1 p) PDIR_SLOT_DIRECT = s1.mem (root s1 0) PDIR_SLOT_DIRECT ∧
      s1.mem (root s1 p) (pl4_pi KERNBASE) = s1.mem (root s1 0) (pl4_pi KERNBASE) ∧
      (∀ i, PDIR_SLOT_KERN + bootm.nkptp (PTP_LEVELS - 1) ≤ i → i < NTOPLEVEL_PDES →
        i ≠ PDIR_SLOT_DIRECT → i ≠ pl4_pi KERNBASE → s1.mem (root s1 p) i = 0) :=
  create_root cfgm bootm bootm_Inv (by decide) (by decide) (fun _ => by decide)

/-! ## Testing the attributes of a frame -/

/-- C25: in a state in which the reverse map and the leaf PTEs say the same
(`PInv`, which does not look at the accessed and dirty bits),
`pmap_test_attrs(pg, bits)` returns TRUE exactly when the header of
`pg` has a flag of one of the tested bits or a leaf PTE on the chain of `pg`
has one of the tested bits.  No page-table entry and no chain changes, nor
anything but `pg_flags` of `pg`; when the header answers, and when the
answer is FALSE, the state is the one given.  When the answer comes from a
leaf, the flags of the tested bits of the first such leaf of the chain are
or-ed into the header, and for accessed/dirty bits the header then has a flag
of the tested bits. -/
theorem test_attrs_spec (c : config) (s : kstate) (hP : PInv c s) (pg bits : Nat)
    (hb : bits < 2 ^ 32) :
    ((pmap_test_attrs s pg bits).1 = true ↔
      (s.pg_flags pg &&& pmap_pte2flags bits ≠ 0 ∨
        ∃ e ∈ s.pv_list pg, ∃ x, leaf s e.pv_pmap e.pv_va = some x ∧ x &&& bits ≠ 0)) ∧
    (pmap_test_attrs s pg bits).2.mem = s.mem ∧
    (pmap_test_attrs s pg bits).2.pv_list = s.pv_list ∧
    (pmap_test_attrs s pg bits).2 =
      { s with pg_flags := (pmap_test_attrs s pg bits).2.pg_flags } ∧
    (∀ q, q ≠ pg → (pmap_test_attrs s pg bits).2.pg_flags q = s.pg_flags q) ∧
    (s.pg_flags pg &&& pmap_pte2flags bits ≠ 0 → (pmap_test_attrs s pg bits).2 = s) ∧
    ((pmap_test_attrs s pg bits).1 = false → (pmap_test_attrs s pg bits).2 = s) ∧
    (s.pg_flags pg &&& pmap_pte2flags bits = 0 → (pmap_test_attrs s pg bits).1 = true →
      ∃ l1 e l2 x, s.pv_list pg = l1 ++ e :: l2 ∧
        (∀ e1 ∈ l1, ∃ y, leaf s e1.pv_pmap e1.pv_va = some y ∧ y &&& bits = 0) ∧
        leaf s e.pv_pmap e.pv_va = some x ∧ x &&& bits ≠ 0 ∧
        (pmap_test_attrs s pg bits).2.pg_flags pg =
          s.pg_flags pg ||| pmap_pte2flags (x &&& bits) ∧
        (bits &&& (PG_U ||| PG_M) = bits →
          (pmap_test_attrs s pg bits).2.pg_flags pg &&& pmap_pte2flags bits ≠ 0)) := by
  have hmod : bits % 2 ^ 32 = bits := Nat.mod_eq_of_lt hb
  have hleaf : ∀ e ∈ s.pv_list pg, leaf s e.pv_pmap e.pv_va = some (pv_pte s e) :=
    fun e he => (pv_pte_chain c s hP pg e he).choose_spec.2.1
  by_cases hh : s.pg_flags pg &&& pmap_pte2flags bits ≠ 0
  · have e : pmap_test_attrs s pg bits = (true, s) := by
      simp only [pmap_test_attrs, hmod, hh, ne_eq, not_false_eq_true, if_true]
    rw [e]
    exact ⟨⟨fun _ => Or.inl hh, fun _ => rfl⟩, rfl, rfl, rfl, fun _ _ => rfl, fun _ => rfl,
      fun _ => rfl, fun h => absurd h hh⟩
  · have hh0 : s.pg_flags pg &&& pmap_pte2flags bits = 0 := by
      by_contra k
      exact hh k
    rcases test_loop_cases s bits (s.pv_list pg) with ⟨a1, a2⟩ | ⟨l1, e, l2, a1, a2, a3, a4⟩
    · have e : pmap_test_attrs s pg bits = (false, s) := by
        simp only [pmap_test_attrs, hmod, hh, if_false, a1, if_true]
      rw [e]
      refine ⟨⟨fun h => absurd h (by simp), ?_⟩, rfl, rfl, rfl, fun _ _ => rfl, fun _ => rfl,
        fun _ => rfl, fun _ h => absurd h (by simp)⟩
      rintro (h | ⟨e1, he1, x, hx, hx2⟩)
      · exact absurd h hh
      · rw [hleaf e1 he1] at hx
        cases hx
        exact absurd (a2 e1 he1) hx2
    · have e0 : ∀ fl, fl = upd s.pg_flags pg
          (s.pg_flags pg ||| pmap_pte2flags (pv_pte s e &&& bits)) →
          pmap_test_attrs s pg bits = (true, { s with pg_flags := fl }) := by
        intro fl hfl
        rw [hfl]
        simp only [pmap_test_attrs, hmod, hh, if_false, a4, a3]
      have e0 := e0 _ rfl
      have he : e ∈ s.pv_list pg := by
        rw [a1]
        exact List.mem_append_right _ (List.mem_cons_self _ _)
      rw [e0]
      refine ⟨⟨fun _ => Or.inr ⟨e, he, _, hleaf e he, a3⟩, fun _ => rfl⟩, rfl, rfl, rfl, ?_,
        fun h => absurd h hh, fun h => absurd h (by simp), ?_⟩
      · intro q hq
        simp [upd, hq]
      · intro _ _
        refine ⟨l1, e, l2, _, a1, ?_, hleaf e he, a3, by simp [upd], ?_⟩
        · intro e1 he1
          have he1' : e1 ∈ s.pv_list pg := by
            rw [a1]
            exact List.mem_append_left _ he1
          exact ⟨_, hleaf e1 he1', a2 e1 he1⟩
        · intro hsub
          have k1 : (pv_pte s e &&& bits) &&& (PG_U ||| PG_M) ≠ 0 := by
            rw [Nat.and_assoc, hsub]
            exact a3
          have k2 := pte2flags_ne _ k1
          have k3 := pte2flags_sub (pv_pte s e) bits
          simp only [upd, if_true]
          rw [Nat.and_distrib_right, k3]
          intro k
          exact k2 (or_eq_zero_right _ _ k)

/-- In the state `st2a` the processor has set the accessed bit in the upper
entries of the path of the page `0x1000` and the accessed and dirty bits in
its leaf PTE; the header of the frame `0x400000` has no flag.
`pmap_test_attrs` for the dirty bit returns TRUE and folds `PG_PMAP_MOD`
into the header. -/
theorem test_attrs_spec_witness :
    ((st2a.mem 0x2000 0 &&& PG_U, st2a.mem 0x100000 0 &&& PG_U, st2a.mem 0x101000 0 &&& PG_U,
        st2a.mem 0x102000 1 &&& (PG_U ||| PG_M)) = (PG_U, PG_U, PG_U, PG_U ||| PG_M) ∧
      st2a.pg_flags 0x400000 = 0 ∧
      (st2a.pv_list 0x400000).map (fun e => (e.pv_pmap, e.pv_va)) = [(1, 0x1000)] ∧
      (pmap_test_attrs st2a 0x400000 PG_M).1 = true ∧
      (pmap_test_attrs st2a 0x400000 PG_M).2.pg_flags 0x400000 = PG_PMAP_MOD) ∧
    ((pmap_test_attrs st2a 0x400000 PG_M).1 = true ↔
      (st2a.pg_flags 0x400000 &&& pmap_pte2flags PG_M ≠ 0 ∨
        ∃ e ∈ st2a.pv_list 0x400000, ∃ x,
          leaf st2a e.pv_pmap e.pv_va = some x ∧ x &&& PG_M ≠ 0)) ∧
    (st2a.pg_flags 0x400000 &&& pmap_pte2flags PG_M = 0 →
      (pmap_test_attrs st2a 0x400000 PG_M).1 = true →
      ∃ l1 e l2 x, st2a.pv_list 0x400000 = l1 ++ e :: l2 ∧
        (∀ e1 ∈ l1, ∃ y, leaf st2a e1.pv_pmap e1.pv_va = some y ∧ y &&& PG_M = 0) ∧
        leaf st2a e.pv_pmap e.pv_va = some x ∧ x &&& PG_M ≠ 0 ∧
        (pmap_test_attrs st2a 0x400000 PG_M).2.pg_flags 0x400000 =
          st2a.pg_flags 0x400000 ||| pmap_pte2flags (x &&& PG_M) ∧
        (PG_M &&& (PG_U ||| PG_M) = PG_M →
          (pmap_test_attrs st2a 0x400000 PG_M).2.pg_flags 0x400000 &&& pmap_pte2flags PG_M ≠ 0)) :=
  ⟨⟨by decide, by decide, by decide, by decide, by decide⟩,
    (test_attrs_spec cfg0 st2a (attr_eq_inv cfg0 st2 st2a st2_Inv st2a_attr).2 0x400000 PG_M
      (by decide)).1,
    (test_attrs_spec cfg0 st2a (attr_eq_inv cfg0 st2 st2a st2_Inv st2a_attr).2 0x400000 PG_M
      (by decide)).2.2.2.2.2.2.2⟩

/-! ## Clearing the attributes of a frame -/

/-- C26: in a state in which the trees are separate and the reverse map and
the leaf PTEs say the same (`tree_sep` and `PInv`, which do not look at the
accessed and dirty bits), `pmap_clear_attrs(pg, bits)` returns TRUE exactly
when, before the
call, the header of `pg` had a flag of one of the bits or a leaf PTE on the
chain of `pg` had one of the bits.  After the call the header has none of
those flags and keeps its other flags, no leaf PTE of the chain has any of
the bits, every page-table entry keeps all its other bits and the entries
that are no leaf PTE of the chain are as before, nothing else changes, and
`pmap_test_attrs(pg, bits)` returns FALSE. -/
theorem clear_attrs_spec (c : config) (s : kstate) (hsep : tree_sep s) (hP : PInv c s)
    (pg bits : Nat)
    (hb : bits < 2 ^ 64) :
    ((pmap_clear_attrs s pg bits).1 = true ↔
      (s.pg_flags pg &&& pmap_pte2flags bits ≠ 0 ∨
        ∃ e ∈ s.pv_list pg, ∃ x, leaf s e.pv_pmap e.pv_va = some x ∧ x &&& bits ≠ 0)) ∧
    (pmap_clear_attrs s pg bits).2.pg_flags pg &&& pmap_pte2flags bits = 0 ∧
    (pmap_clear_attrs s pg bits).2.pg_flags pg &&& (0xffffffff ^^^ pmap_pte2flags bits) =
      s.pg_flags pg &&& (0xffffffff ^^^ pmap_pte2flags bits) ∧
    (∀ q, q ≠ pg → (pmap_clear_attrs s pg bits).2.pg_flags q = s.pg_flags q) ∧
    (∀ e ∈ s.pv_list pg, ∃ x,
      leaf (pmap_clear_attrs s pg bits).2 e.pv_pmap e.pv_va = some x ∧ x &&& bits = 0) ∧
    (∀ t j, (pmap_clear_attrs s pg bits).2.mem t j &&& (0xffffffffffffffff ^^^ bits) =
      s.mem t j &&& (0xffffffffffffffff ^^^ bits)) ∧
    (∀ t j, ¬ chain_cell s pg t j → (pmap_clear_attrs s pg bits).2.mem t j = s.mem t j) ∧
    (pmap_clear_attrs s pg bits).2.pv_list = s.pv_list ∧
    (pmap_clear_attrs s pg bits).2 =
      { s with mem := (pmap_clear_attrs s pg bits).2.mem,
               pg_flags := (pmap_clear_attrs s pg bits).2.pg_flags } ∧
    (pmap_test_attrs (pmap_clear_attrs s pg bits).2 pg bits).1 = false := by
  have hmod : bits % 2 ^ 64 = bits := Nat.mod_eq_of_lt hb
  have hM : (0xffffffffffffffff : Nat) = 2 ^ 64 - 1 := by norm_num
  have hM32 : (0xffffffff : Nat) = 2 ^ 32 - 1 := by norm_num
  have hcf := pte2flags_lt bits
  -- the header
  have hhead : ∃ fl : Nat → Nat,
      (if s.pg_flags pg &&& pmap_pte2flags bits ≠ 0 then
        { s with pg_flags := upd s.pg_flags pg (s.pg_flags pg &&& (0xffffffff ^^^ pmap_pte2flags bits)) }
      else s) = { s with pg_flags := fl } ∧
      fl pg &&& pmap_pte2flags bits = 0 ∧
      fl pg &&& (0xffffffff ^^^ pmap_pte2flags bits) =
        s.pg_flags pg &&& (0xffffffff ^^^ pmap_pte2flags bits) ∧
      ∀ q, q ≠ pg → fl q = s.pg_flags q := by
    by_cases hh : s.pg_flags pg &&& pmap_pte2flags bits ≠ 0
    · refine ⟨_, by rw [if_pos hh], ?_, ?_, ?_⟩
      · simp only [upd, if_true]
        rcases and_xor_and 32 (s.pg_flags pg) (pmap_pte2flags bits) with k | k
        · rw [hM32]
          exact k
        · omega
      · simp only [upd, if_true]
        rw [Nat.and_assoc, Nat.and_self]
      · intro q hq
        simp [upd, hq]
    · refine ⟨s.pg_flags, by rw [if_neg hh], ?_, rfl, fun _ _ => rfl⟩
      by_contra k
      exact hh k
  obtain ⟨fl, hfl, f1, f2, f3⟩ := hhead
  have hs1 : same_struct s { s with pg_flags := fl } :=
    ⟨rfl, rfl, rfl, rfl, rfl, rfl, fun _ => ⟨rfl, rfl, rfl, rfl, rfl, rfl⟩⟩
  obtain ⟨m2, res2, r1, r2, r3, r4, r5, r6⟩ :=
    clear_loop_spec c s { s with pg_flags := fl } hsep hP pg bits hb hs1 (s.pv_list pg) s.mem
      (s.pg_flags pg &&& pmap_pte2flags bits) (fun _ h => h) (fun _ _ => Or.inl rfl)
  have e0 : pmap_clear_attrs s pg bits =
      (decide (res2 ≠ 0), { s with mem := m2, pg_flags := fl }) := by
    simp only [pmap_clear_attrs, hmod]
    rw [hfl]
    have r1' : pmap_clear_attrs_loop bits (s.pv_list pg) (s.pg_flags pg &&& pmap_pte2flags bits)
        { s with pg_flags := fl } = (res2, { s with mem := m2, pg_flags := fl }) := r1
    rw [r1']
  have hleaf : ∀ e ∈ s.pv_list pg, leaf s e.pv_pmap e.pv_va = some (pv_pte s e) :=
    fun e he => (pv_pte_chain c s hP pg e he).choose_spec.2.1
  have hs2 : same_struct s { s with mem := m2, pg_flags := fl } :=
    ⟨rfl, rfl, rfl, rfl, rfl, rfl, fun _ => ⟨rfl, rfl, rfl, rfl, rfl, rfl⟩⟩
  have hA2 : ∀ t j, m2 t j = s.mem t j ∨ chain_cell s pg t j := by
    intro t j
    rcases r2 t j with k | k
    · exact Or.inl k
    · exact Or.inr k.1
  have hwalk := cells_walk c s { s with mem := m2, pg_flags := fl } hsep hP pg hs2 hA2
  have hnew : ∀ e ∈ s.pv_list pg, ∃ t, ptab s.mem (root s e.pv_pmap) e.pv_va 1 = some t ∧
      ptab m2 (root { s with mem := m2, pg_flags := fl } e.pv_pmap) e.pv_va 1 = some t ∧
      m2 t (slot e.pv_va 1) &&& bits = 0 := by
    intro e he
    obtain ⟨hd, _, t, ht, _⟩ := hP.pv_sound pg e he
    refine ⟨t, ht, ?_, r5 e he t ht⟩
    rw [← ht]
    exact hwalk e.pv_pmap e.pv_va 1 hd (by omega) (by omega)
  rw [e0]
  refine ⟨?_, f1, f2, f3, ?_, ?_, ?_, rfl, rfl, ?_⟩
  · simp only [decide_eq_true_eq]
    constructor
    · intro h
      rcases r6 h with k | ⟨e, he, t, ht, k⟩
      · exact Or.inl k
      · refine Or.inr ⟨e, he, _, hleaf e he, ?_⟩
        rw [pv_pte_leaf s e t ht]
        exact k
    · rintro (h | ⟨e, he, x, hx, hx2⟩)
      · exact r3 h
      · rw [hleaf e he] at hx
        cases hx
        obtain ⟨t, ht, _, k⟩ := hnew e he
        rw [pv_pte_leaf s e t ht] at hx2
        rcases r2 t (slot e.pv_va 1) with k1 | ⟨_, _, k1⟩
        · rw [k1] at k
          exact absurd k hx2
        · exact k1
  · intro e he
    obtain ⟨t, _, ht2, k⟩ := hnew e he
    refine ⟨m2 t (slot e.pv_va 1), ?_, k⟩
    simp only [leaf]
    rw [ht2]
    rfl
  · intro t j
    show m2 t j &&& _ = _
    rcases r2 t j with k | ⟨_, k, _⟩
    · rw [k]
    · rw [k, hM]
      exact clr_other 64 _ _ hb
  · intro t j hc
    show m2 t j = _
    rcases r2 t j with k | ⟨k, _⟩
    · exact k
    · exact absurd k hc
  · have hfl2 : fl pg &&& pmap_pte2flags (bits % 2 ^ 32) = 0 := by
      rw [pte2flags_mod]
      exact f1
    rcases test_loop_cases { s with mem := m2, pg_flags := fl } (bits % 2 ^ 32) (s.pv_list pg)
      with ⟨a1, _⟩ | ⟨l1, e, l2, a1, _, a3, _⟩
    · simp only [pmap_test_attrs, hfl2, ne_eq, not_true_eq_false, if_false, a1, if_true]
    · exfalso
      have he : e ∈ s.pv_list pg := by
        rw [a1]
        exact List.mem_append_right _ (List.mem_cons_self _ _)
      obtain ⟨t, _, ht2, k⟩ := hnew e he
      rw [pv_pte_leaf _ e t ht2] at a3
      exact a3 (and_mod_zero _ _ 32 k)

/-- In the state `st2a` (accessed and dirty bits set by the processor)
`pmap_clear_attrs` for the dirty bit returns TRUE, clears the dirty bit of
the leaf PTE of the page `0x1000` and leaves its accessed bit and the upper
entries; `pmap_test_attrs` then returns FALSE. -/
theorem clear_attrs_spec_witness :
    ((st2a.mem 0x2000 0 &&& PG_U, st2a.mem 0x100000 0 &&& PG_U, st2a.mem 0x101000 0 &&& PG_U,
        st2a.mem 0x102000 1 &&& (PG_U ||| PG_M)) = (PG_U, PG_U, PG_U, PG_U ||| PG_M) ∧
      st2a.pg_flags 0x400000 = 0 ∧
      (pmap_clear_attrs st2a 0x400000 PG_M).1 = true ∧
      (pmap_clear_attrs st2a 0x400000 PG_M).2.mem 0x102000 1 = st2a.mem 0x102000 1 - PG_M ∧
      (pmap_clear_attrs st2a 0x400000 PG_M).2.mem 0x2000 0 = st2a.mem 0x2000 0) ∧
    ((pmap_clear_attrs st2a 0x400000 PG_M).1 = true ↔
      (st2a.pg_flags 0x400000 &&& pmap_pte2flags PG_M ≠ 0 ∨
        ∃ e ∈ st2a.pv_list 0x400000, ∃ x,
          leaf st2a e.pv_pmap e.pv_va = some x ∧ x &&& PG_M ≠ 0)) ∧
    (∀ e ∈ st2a.pv_list 0x400000, ∃ x,
      leaf (pmap_clear_attrs st2a 0x400000 PG_M).2 e.pv_pmap e.pv_va = some x ∧
        x &&& PG_M = 0) ∧
    (pmap_test_attrs (pmap_clear_attrs st2a 0x400000 PG_M).2 0x400000 PG_M).1 = false :=
  ⟨⟨by decide, by decide, by decide, by decide, by decide⟩,
    (clear_attrs_spec cfg0 st2a (attr_eq_inv cfg0 st2 st2a st2_Inv st2a_attr).1
      (attr_eq_inv cfg0 st2 st2a st2_Inv st2a_attr).2 0x400000 PG_M (by decide)).1,
    (clear_attrs_spec cfg0 st2a (attr_eq_inv cfg0 st2 st2a st2_Inv st2a_attr).1
      (attr_eq_inv cfg0 st2 st2a st2_Inv st2a_attr).2 0x400000 PG_M (by decide)).2.2.2.2.1,
    (clear_attrs_spec cfg0 st2a (attr_eq_inv cfg0 st2 st2a st2_Inv st2a_attr).1
      (attr_eq_inv cfg0 st2 st2a st2_Inv st2a_attr).2 0x400000 PG_M (by decide)).2.2.2.2.2.2.2.2.2⟩

/-! ## Special mappings: the shadow tree and the main tree -/

theorem kimg_shadow_sep (va : Nat) : shadow_sep kimg va := by
  intro L t h1 h4 h
  have e : shadow_tab kimg va L = none := by
    have : L = 1 ∨ L = 2 ∨ L = 3 ∨ L = 4 := by omega
    rcases this with k | k | k | k <;> subst k <;> rfl
  rw [e] at h
  cases h

/-- C23, as stated, fails at the main leaf PTE of `va`: on a processor that
needs the mitigation, in the state `kimg` whose kernel tree maps `KERNBASE`
to the frame `0x800000`, `pmap_enter_special(KERNBASE, 0x800000, PROT_READ)`
changes the main leaf PTE of `KERNBASE` (entry 0 of the table `0x8000`) from
`0x800003` to `0x800103`: it sets `PG_G` there. -/
theorem enter_special_main_leaf_counterexample :
    cfgm.cpu_meltdown = true ∧
    ptab kimg.mem (root kimg 0) KERNBASE 1 = some 0x8000 ∧ slot KERNBASE 1 = 0 ∧
    kimg.mem 0x8000 0 = 0x800003 ∧
    ((pmap_enter_special cfgm kimg KERNBASE 0x800000 PROT_READ).map
      fun s1 => s1.mem 0x8000 0) = some 0x800103 ∧
    ((pmap_enter_special cfgm kimg KERNBASE 0x800000 PROT_READ).map
      fun s1 => decide (s1.mem 0x8000 0 = kimg.mem 0x8000 0)) = some false := by
  refine ⟨rfl, by decide, by decide, by decide, by decide, by decide⟩

/-- C23, amended: on a processor that does not need the mitigation
`pmap_enter_special` returns the state it was given.  On one that needs it,
for a kernel `va`, it returns with the mapping in the shadow tree of the
kernel pmap: the shadow walk of `va` ends in a leaf table that is no table
of the trees of the pmaps, with the leaf PTE `pa | protection_codes[prot] |
PG_V | PG_W`.  In the trees of the pmaps the only entry that can change is
the leaf PTE of `va` in the kernel tree: when it is valid and has the frame
of the new shadow PTE, `PG_G` is or-ed into it and into the shadow PTE;
every other entry of every table of these trees is as before, and so are
the walks. -/
theorem enter_special_frame (c : config) (s : kstate) (va pa prot : Nat) :
    (c.cpu_meltdown = false → pmap_enter_special c s va pa prot = some s) ∧
    (c.cpu_meltdown = true → Inv c s → VM_MIN_KERNEL_ADDRESS ≤ va → va < 2 ^ 64 →
      shadow_sep s va → 4 ≤ s.pdp_pool.length → (∀ f ∈ s.pdp_pool, PMAP_DIRECT_MAP f ≠ 0) →
      ∃ s1 pd1, pmap_enter_special c s va pa prot = some s1 ∧
        (∀ p va1 L t, dom s p va1 → 1 ≤ L → L ≤ 4 → ptab s.mem (root s p) va1 L = some t →
          ∀ j, s1.mem t j =
            if special_global c s va pa prot = true ∧ ptab s.mem (root s 0) va 1 = some t ∧
                j = slot va 1 then s.mem t j ||| PG_G else s.mem t j) ∧
        (∀ p va1 L, dom s p va1 → 1 ≤ L → L ≤ 4 →
          ptab s1.mem (root s1 p) va1 L = ptab s.mem (root s p) va1 L) ∧
        shadow_tab s1 va 1 = some pd1 ∧
        (∀ p va1 L, dom s p va1 → 1 ≤ L → L ≤ 4 → ptab s.mem (root s p) va1 L ≠ some pd1) ∧
        s1.mem pd1 (shadow_idx va 1) =
          (if special_global c s va pa prot = true then
            pa ||| protection_codes c prot ||| PG_V ||| PG_W ||| PG_G
          else pa ||| protection_codes c prot ||| PG_V ||| PG_W) ∧
        s1.pmaps = s.pmaps ∧ s1.pv_list = s.pv_list ∧ s1.pg_flags = s.pg_flags ∧
        s1.wire_count = s.wire_count ∧ s1.free_pages = s.free_pages ∧ s1.cr3 = s.cr3 ∧
        (∀ q, q ≠ 0 → s1.pm q = s.pm q) ∧
        s1.pm 0 = { s.pm 0 with pm_pdir_intel := (s1.pm 0).pm_pdir_intel }) := by
  constructor
  · intro h
    simp [pmap_enter_special, h]
  · intro hmd hI hva hva2 hsep hlen hdm
    obtain ⟨s3, pd1, e, h⟩ := special_spec c s hI va pa prot hmd hva hsep hlen hdm
    obtain ⟨a1, a2, a3, a4, a5⟩ := special_leaf_spec c s s3 hI va pa prot pd1 hva hva2 hsep h
    have hr := h.rest
    refine ⟨_, pd1, e, a1, a2, a3, shadow_page_sep c s hI va pd1 hsep h.pd_page, a4, ?_, ?_, ?_, ?_,
      ?_, ?_, ?_, ?_⟩
    · have k1 := congrArg kstate.pmaps a5
      have k2 := congrArg kstate.pmaps hr
      exact k1.trans k2
    · have k1 := congrArg kstate.pv_list a5
      have k2 := congrArg kstate.pv_list hr
      exact k1.trans k2
    · have k1 := congrArg kstate.pg_flags a5
      have k2 := congrArg kstate.pg_flags hr
      exact k1.trans k2
    · have k1 := congrArg kstate.wire_count a5
      have k2 := congrArg kstate.wire_count hr
      exact k1.trans k2
    · have k1 := congrArg kstate.free_pages a5
      have k2 := congrArg kstate.free_pages hr
      exact k1.trans k2
    · have k1 := congrArg kstate.cr3 a5
      have k2 := congrArg kstate.cr3 hr
      exact k1.trans k2
    · intro q hq
      have k1 := congrArg kstate.pm a5
      exact (congrFun k1 q).trans (h.pm_o q hq)
    · have k1 := congrArg kstate.pm a5
      have k2 : (pmap_enter_special_leaf c s3 va pa prot pd1 (shadow_idx va 1)).pm = s3.pm := k1
      rw [k2]
      exact h.pm_k

theorem enter_special_frame_witness :
    ∃ s1 pd1, pmap_enter_special cfgm kimg KERNBASE 0x800000 PROT_READ = some s1 ∧
      (∀ p va1 L t, dom kimg p va1 → 1 ≤ L → L ≤ 4 →
        ptab kimg.mem (root kimg p) va1 L = some t →
        ∀ j, s1.mem t j =
          if special_global cfgm kimg KERNBASE 0x800000 PROT_READ = true ∧
              ptab kimg.mem (root kimg 0) KERNBASE 1 = some t ∧ j = slot KERNBASE 1 then
            kimg.mem t j ||| PG_G else kimg.mem t j) ∧
      (∀ p va1 L, dom kimg p va1 → 1 ≤ L → L ≤ 4 →
        ptab s1.mem (root s1 p) va1 L = ptab kimg.mem (root kimg p) va1 L) ∧
      shadow_tab s1 KERNBASE 1 = some pd1 ∧
      (∀ p va1 L, dom kimg p va1 → 1 ≤ L → L ≤ 4 →
        ptab kimg.mem (root kimg p) va1 L ≠ some pd1) ∧
      s1.mem pd1 (shadow_idx KERNBASE 1) =
        (if special_global cfgm kimg KERNBASE 0x800000 PROT_READ = true then
          0x800000 ||| protection_codes cfgm PROT_READ ||| PG_V ||| PG_W ||| PG_G
        else 0x800000 ||| protection_codes cfgm PROT_READ ||| PG_V ||| PG_W) ∧
      s1.pmaps = kimg.pmaps ∧ s1.pv_list = kimg.pv_list ∧ s1.pg_flags = kimg.pg_flags ∧
      s1.wire_count = kimg.wire_count ∧ s1.free_pages = kimg.free_pages ∧ s1.cr3 = kimg.cr3 ∧
      (∀ q, q ≠ 0 → s1.pm q = kimg.pm q) ∧
      s1.pm 0 = { kimg.pm 0 with pm_pdir_intel := (s1.pm 0).pm_pdir_intel } :=
  (enter_special_frame cfgm kimg KERNBASE 0x800000 PROT_READ).2 rfl
    (kimg_Inv cfgm cfgm_ok (by decide)) (by decide) (by decide) (kimg_shadow_sep KERNBASE)
    (by decide) (by decide)

/-! ## The global bit -/

/-- C24, as stated, fails for `pmap_enter_special`: on a processor that
needs the mitigation (`cpu_meltdown` set, `pg_g_kern` 0), in the state
`kimg`, `pmap_enter_special(KERNBASE, 0x800000, PROT_READ)` writes the
shadow leaf PTE (entry 0 of the table `0x5000`) and modifies the main leaf
PTE of `KERNBASE` (entry 0 of the table `0x8000`), and both have `PG_G` set
after the call. -/
theorem enter_special_global_counterexample :
    cfgm.cpu_meltdown = true ∧ cfgm.pg_g_kern = 0 ∧ kimg.mem 0x8000 0 &&& PG_G = 0 ∧
    ((pmap_enter_special cfgm kimg KERNBASE 0x800000 PROT_READ).map
      fun s1 => (shadow_tab s1 KERNBASE 1, shadow_idx KERNBASE 1,
        s1.mem 0x5000 0 &&& PG_G, s1.mem 0x8000 0 &&& PG_G)) =
      some (some 0x5000, 0, PG_G, PG_G) := by
  refine ⟨rfl, rfl, by decide, by decide⟩

/-- C24, amended: the leaf PTE a successful `pmap_enter` writes has `PG_G`
exactly as `pg_g_kern` has it when the pmap is the kernel pmap, and clear
for a user pmap; the PTE `pmap_kenter_pa` writes has `PG_G` as `pg_g_kern`
has it at and above 2 MiB, and clear below: both have it clear when
`pg_g_kern` is 0.  `pmap_enter_special`, which acts on a processor that
needs the mitigation, writes the shadow leaf PTE with `PG_G` and or-s `PG_G`
into the main leaf PTE of `va` exactly when the kernel tree has a valid leaf
PTE for `va` with the frame of the shadow PTE; otherwise the shadow PTE has
`PG_G` clear and no entry of the trees of the pmaps changes. -/
theorem global_bit (c : config) (s : kstate) :
    (∀ p va pa prot flags s1, Inv c s → dom s p va → va % PAGE_SIZE = 0 → pa < 2 ^ 52 →
      (p = 0 → ptab s.mem (root s p) va 1 ≠ none) →
      pmap_enter c s p va pa prot flags = some (0, s1) →
      ∃ t, ptab s1.mem (root s1 p) va 1 = some t ∧
        s1.mem t (slot va 1) &&& PG_G = (if p = 0 then c.pg_g_kern else 0)) ∧
    (∀ LARGEPAGES va pa prot t, cfg_ok c → rec_table s va 1 = some t →
      ¬ (LARGEPAGES = true ∧ s.mem t (pl_i va 1 % 512) &&& PG_PS ≠ 0) →
      ∃ s1, pmap_kenter_pa c LARGEPAGES s va pa prot = some s1 ∧
        s1.mem = mem_set s.mem t (pl_i va 1 % 512) (s1.mem t (pl_i va 1 % 512)) ∧
        s1.mem t (pl_i va 1 % 512) &&& PG_G = (if va ≥ NBPD_L2 then c.pg_g_kern else 0)) ∧
    (∀ va pa prot, c.cpu_meltdown = true → Inv c s → VM_MIN_KERNEL_ADDRESS ≤ va → va < 2 ^ 64 →
      pa &&& PG_G = 0 → shadow_sep s va → 4 ≤ s.pdp_pool.length →
      (∀ f ∈ s.pdp_pool, PMAP_DIRECT_MAP f ≠ 0) →
      ∃ s1 pd1, pmap_enter_special c s va pa prot = some s1 ∧
        shadow_tab s1 va 1 = some pd1 ∧
        s1.mem pd1 (shadow_idx va 1) &&& PG_G =
          (if special_global c s va pa prot = true then PG_G else 0) ∧
        (∀ p va1 L t, dom s p va1 → 1 ≤ L → L ≤ 4 → ptab s.mem (root s p) va1 L = some t →
          ∀ j, s1.mem t j =
            if special_global c s va pa prot = true ∧ ptab s.mem (root s 0) va 1 = some t ∧
                j = slot va 1 then s.mem t j ||| PG_G else s.mem t j)) := by
  refine ⟨?_, ?_, ?_⟩
  · intro p va pa prot flags s1 hI hd ha hpa hk h
    obtain ⟨_, _, _, t, ht, hm, _⟩ := enter_live c s hI p va pa prot flags hd ha hpa hk s1 h
    refine ⟨t, ht, ?_⟩
    rw [hm]
    apply npte_global c hI.tree.cfg
    rw [Nat.and_assoc, show PMAP_PA_MASK &&& PG_G = 0 from rfl, Nat.and_zero]
  · intro LP va pa prot t hc ht hlp
    have e := kenter_spec c LP s va pa prot t ht hlp
    have hv : (set_mem s t (pl_i va 1 % 512) (pmap_kenter_npte c va pa prot)).mem t
        (pl_i va 1 % 512) = pmap_kenter_npte c va pa prot := mem_set_same _ _ _ _
    refine ⟨_, e, ?_, ?_⟩
    · rw [hv]
      rfl
    · rw [hv]
      exact (kenter_npte_global c hc va pa prot).1
  · intro va pa prot hmd hI hva hva2 hpa hsep hlen hdm
    obtain ⟨s3, pd1, e, h⟩ := special_spec c s hI va pa prot hmd hva hsep hlen hdm
    obtain ⟨a1, _, a3, a4, _⟩ := special_leaf_spec c s s3 hI va pa prot pd1 hva hva2 hsep h
    obtain ⟨g1, g2⟩ := special_pte_global c hI.tree.cfg pa prot hpa
    refine ⟨_, pd1, e, a3, ?_, a1⟩
    rw [a4]
    split
    · exact g2
    · exact g1

theorem global_bit_witness :
    (∃ t, ptab st2.mem (root st2 1) 0x1000 1 = some t ∧
      st2.mem t (slot 0x1000 1) &&& PG_G = (if (1 : Nat) = 0 then cfg0.pg_g_kern else 0)) ∧
    ∃ s1 pd1, pmap_enter_special cfgm kimg KERNBASE 0x800000 PROT_READ = some s1 ∧
      shadow_tab s1 KERNBASE 1 = some pd1 ∧
      s1.mem pd1 (shadow_idx KERNBASE 1) &&& PG_G =
        (if special_global cfgm kimg KERNBASE 0x800000 PROT_READ = true then PG_G else 0) ∧
      (∀ p va1 L t, dom kimg p va1 → 1 ≤ L → L ≤ 4 →
        ptab kimg.mem (root kimg p) va1 L = some t →
        ∀ j, s1.mem t j =
          if special_global cfgm kimg KERNBASE 0x800000 PROT_READ = true ∧
              ptab kimg.mem (root kimg 0) KERNBASE 1 = some t ∧ j = slot KERNBASE 1 then
            kimg.mem t j ||| PG_G else kimg.mem t j) :=
  ⟨(global_bit cfg0 st1).1 1 0x1000 0x400000 3 0 st2 st1_Inv (Or.inl ⟨by decide, by decide⟩)
      (by decide) (by decide) (fun h => absurd h (by decide)) rfl,
    (global_bit cfgm kimg).2.2 KERNBASE 0x800000 PROT_READ rfl
      (kimg_Inv cfgm cfgm_ok (by decide)) (by decide) (by decide) (by decide)
      (kimg_shadow_sep KERNBASE) (by decide) (by decide)⟩

theorem st10_Inv : Inv cfg0 st10 := after_Inv cfg0 st1 _ st1_Inv

/-- C27, counterexample: in the extended regime `pmap_remove` frees the
three table pages of the only mapping with `uvm_pagefree` on the spot; the
sequence of events of the call has these three frees and no
`pmap_tlb_shootwait`, and nothing was deferred. -/
theorem remove_ept_free_counterexample :
    (e2.pm 1).pm_type = PMAP_TYPE_EPT ∧
      e2.mem (e2.pm 1).pm_pdir 0 &&& PMAP_PA_MASK = 0x100000 ∧
      e2.mem 0x100000 0 &&& PMAP_PA_MASK = 0x101000 ∧
      e2.mem 0x101000 0 &&& PMAP_PA_MASK = 0x102000 ∧
      e2.free_pages = [0x103000, 0x104000, 0x105000, 0x106000, 0x107000] ∧
      (pmap_remove cfg0 e2 1 0x2000 0x3000).map (fun s1 => s1.free_pages) =
        some [0x100000, 0x101000, 0x102000, 0x103000, 0x104000, 0x105000, 0x106000,
          0x107000] ∧
      (pmap_remove_ev cfg0 e2 1 0x2000 0x3000).map (fun r => (r.1.free_pages, r.2)) =
        some ([0x100000, 0x101000, 0x102000, 0x103000, 0x104000, 0x105000, 0x106000,
          0x107000], [], [event.pagefree 0x102000, event.pagefree 0x101000,
          event.pagefree 0x100000]) :=
  ⟨by decide, by decide, by decide, by decide, by decide, by decide!, by decide!⟩

/-- C27 (amended): in a state that satisfies the invariant, for a pmap that
is not of the extended type the run of `pmap_remove` with the log is
`pmap_remove`, and when it returns the state `s1`, the deferred list `ptps`
and the log, the log is `pmap_tlb_shootwait` followed by the frees of the
deferred pages in the order of the list (or it is empty, nothing being
deferred), and every deferred page is in the free list of `s1`; for a user
pmap and a page-aligned range below the recursive slot the run returns; and
for every frame `pmap_page_remove` returns with a log of the same shape.  So
no free of a deferred page precedes the wait and every deferred page is
freed before the call returns. -/
theorem free_after_shootwait (c : config) (s : kstate) (hI : Inv c s) :
    (∀ p sva eva, (s.pm p).pm_type ≠ PMAP_TYPE_EPT →
      (pmap_remove_ev c s p sva eva).map (fun r => r.1) = pmap_remove c s p sva eva ∧
      ∀ s1 ptps log, pmap_remove_ev c s p sva eva = some (s1, ptps, log) →
        (log = event.shootwait :: ptps.map event.pagefree ∨ (ptps = [] ∧ log = [])) ∧
          ∀ q ∈ ptps, q ∈ s1.free_pages) ∧
    (∀ p sva eva, p ∈ s.pmaps → sva % 4096 = 0 → eva % 4096 = 0 → sva < eva →
      eva ≤ 0x7f8000000000 → ∃ r, pmap_remove_ev c s p sva eva = some r) ∧
    (∀ pg, ∃ s1 ptps, pmap_page_remove c s pg = some s1 ∧
      pmap_page_remove_ev c s pg =
        some (s1, ptps, event.shootwait :: ptps.map event.pagefree) ∧
      ∀ q ∈ ptps, q ∈ s1.free_pages) := by
  have hA : ∀ p sva eva, (s.pm p).pm_type ≠ PMAP_TYPE_EPT →
      (pmap_remove_ev c s p sva eva).map (fun r => r.1) = pmap_remove c s p sva eva ∧
      ∀ s1 ptps log, pmap_remove_ev c s p sva eva = some (s1, ptps, log) →
        (log = event.shootwait :: ptps.map event.pagefree ∨ (ptps = [] ∧ log = [])) ∧
          ∀ q ∈ ptps, q ∈ s1.free_pages := by
    intro p sva eva hp
    simp only [pmap_remove_ev, pmap_remove, if_neg hp]
    exact do_remove_ev_spec c s p sva eva PMAP_REMOVE_ALL
  refine ⟨hA, ?_, fun pg => page_remove_ev_spec c s hI pg⟩
  intro p sva eva hp ha hae hlt he
  obtain ⟨s1, h1, _⟩ := remove_spec c s hI p sva eva hp ha hae hlt he
  have hty : (s.pm p).pm_type ≠ PMAP_TYPE_EPT := by
    rw [hI.tree.normal p (Or.inr hp)]
    decide
  have h2 := (hA p sva eva hty).1
  rw [h1] at h2
  cases h : pmap_remove_ev c s p sva eva with
  | none =>
    rw [h] at h2
    cases h2
  | some r => exact ⟨r, rfl⟩

/-- C27, witness: a page entered at `0x200000` in a fresh pmap, then
`pmap_remove` of `[0x200000, 0x201000)`: the three table pages are deferred
and freed after the wait. -/
theorem free_after_shootwait_witness :
    Inv cfg0 st10 ∧
      (pmap_remove_ev cfg0 st10 1 0x200000 0x201000).map (fun r => r.2) =
        some ([0x102000, 0x101000, 0x100000],
          [event.shootwait, event.pagefree 0x102000, event.pagefree 0x101000,
            event.pagefree 0x100000]) ∧
      ((∀ p sva eva, (st10.pm p).pm_type ≠ PMAP_TYPE_EPT →
        (pmap_remove_ev cfg0 st10 p sva eva).map (fun r => r.1) =
          pmap_remove cfg0 st10 p sva eva ∧
        ∀ s1 ptps log, pmap_remove_ev cfg0 st10 p sva eva = some (s1, ptps, log) →
          (log = event.shootwait :: ptps.map event.pagefree ∨ (ptps = [] ∧ log = [])) ∧
            ∀ q ∈ ptps, q ∈ s1.free_pages) ∧
      (∀ p sva eva, p ∈ st10.pmaps → sva % 4096 = 0 → eva % 4096 = 0 → sva < eva →
        eva ≤ 0x7f8000000000 → ∃ r, pmap_remove_ev cfg0 st10 p sva eva = some r) ∧
      (∀ pg, ∃ s1 ptps, pmap_page_remove cfg0 st10 pg = some s1 ∧
        pmap_page_remove_ev cfg0 st10 pg =
          some (s1, ptps, event.shootwait :: ptps.map event.pagefree) ∧
        ∀ q ∈ ptps, q ∈ s1.free_pages)) :=
  ⟨st10_Inv, by decide!, free_after_shootwait cfg0 st10 st10_Inv⟩

theorem st20_Inv : Inv cfg0 st20 := after_Inv cfg0 boot0 _ boot0_Inv

theorem kgr1_Inv : Inv cfg0 kgr1 := after_Inv cfg0 kgr0 _ (kgr0_Inv cfg0 cfg0_ok)

theorem kgr2_Inv : Inv cfg0 kgr2 :=
  Inv_eqv cfg0 kgr1 kgr2 kgr1_Inv
    ⟨rfl, rfl, rfl, rfl, rfl, ⟨rfl, rfl, rfl, rfl, rfl, rfl, fun _ => ⟨rfl, rfl, rfl, rfl, rfl, rfl⟩⟩,
      fun _ => ⟨rfl, rfl, rfl, rfl⟩⟩
    ⟨1, Or.inr (by decide), by decide⟩

theorem kgr2_kva_ok : kva_ok grow0 kgr2 := by
  refine Or.inr ⟨le_refl _, by decide, ?_, by decide⟩
  intro i h1 h3
  have : i = 1 ∨ i = 2 ∨ i = 3 := by omega
  rcases this with e | e | e <;> subst e <;> decide

theorem st21_Inv : Inv cfg0 st21 :=
  Inv_eqv cfg0 st20 st21 st20_Inv
    ⟨rfl, rfl, rfl, rfl, rfl, ⟨rfl, rfl, rfl, rfl, rfl, rfl, fun _ => ⟨rfl, rfl, rfl, rfl, rfl, rfl⟩⟩,
      fun _ => ⟨rfl, rfl, rfl, rfl⟩⟩
    ⟨1, Or.inr (by decide), by decide⟩

/-- C22, as stated, fails at two targets above the maximum and within the
budgets as the code tests them.  In the state `st20` (two pmaps, nothing
allocated yet) the target `0xffffffffffffffff` is rounded up in 64 bits to
0: no budget is exceeded, nothing is allocated, the call returns 0 and 0
becomes the maximum.  In the state `st21`, which is `st20` with the root of
the user pmap 1 loaded, the target one byte above `VM_MIN_KERNEL_ADDRESS`
needs a top-level slot: `pmap_alloc_level` writes it to the root of the
kernel pmap and then reaches the levels below through the recursive mapping
of the loaded root, which does not have the slot yet, and the call does not
return. -/
theorem growkernel_counterexample :
    (Inv cfg0 st20 ∧ kva_ok grow0 st20 ∧ grow0.page_init_done = true ∧
      grow0.pmap_maxkvaddr < 0xffffffffffffffff ∧
      (∀ i ∈ [1, 2, 3],
        target_nptp (x86_round_pdr 0xffffffffffffffff) i ≤ grow0.nkptpmax i) ∧
      (pmap_growkernel cfg0 grow0 st20 0xffffffffffffffff).map
          (fun r => (r.1, r.2.1.pmap_maxkvaddr, [1, 2, 3].map r.2.2.nkptp)) =
        some (0, 0, [0, 0, 0])) ∧
    (Inv cfg0 st21 ∧ kva_ok grow0 st21 ∧ st21.pmaps = [2, 1] ∧ st21.cr3 = root st21 1 ∧
      grow0.pmap_maxkvaddr < VM_MIN_KERNEL_ADDRESS + 1 ∧
      VM_MIN_KERNEL_ADDRESS + 1 + 0x1fffff < 2 ^ 64 ∧
      (∀ i ∈ [1, 2, 3],
        target_nptp (x86_round_pdr (VM_MIN_KERNEL_ADDRESS + 1)) i ≤ grow0.nkptpmax i) ∧
      grow_pages st21 (x86_round_pdr (VM_MIN_KERNEL_ADDRESS + 1)) ≤ st21.free_pages.length ∧
      (pmap_growkernel cfg0 grow0 st21 (VM_MIN_KERNEL_ADDRESS + 1)).isNone = true) :=
  ⟨⟨st20_Inv, Or.inl ⟨rfl, by decide, by decide, by decide⟩, rfl, by decide, by decide,
      by decide!⟩,
    ⟨st21_Inv, Or.inl ⟨rfl, by decide, by decide, by decide⟩, by decide, by decide, by decide,
      by decide, by decide, by decide, by decide!⟩⟩

/-- C22, amended: in a state that satisfies the invariant, with the frame allocator
up, counters `nkptp[]` that fit the current maximum `pmap_maxkvaddr`, a target
above the current maximum whose rounding does not wrap, within the budgets
`nkptpmax[]`, enough free frames for the new tables, and the root of the
kernel pmap loaded when top-level slots are added: `pmap_growkernel` returns
the target rounded up to 2 MiB, which is the new maximum; the list of pmaps
is the same, every pmap on it has the top-level slots
`[PDIR_SLOT_KERN, PDIR_SLOT_KERN + nkptp[3])` of its root equal to those of
the root of the kernel pmap, and the counters fit the new maximum.  For a
target not above the current maximum, in any state, the call returns the
current maximum and the globals and the state are unchanged. -/
theorem growkernel_spec (c : config) (g : grow_globals) (s : kstate) (maxkvaddr : Nat)
    (hI : Inv c s) (hg : g.page_init_done = true) (hk : kva_ok g s)
    (hgt : g.pmap_maxkvaddr < maxkvaddr) (hmax : maxkvaddr + 0x1fffff < 2 ^ 64)
    (hbud : ∀ i, 1 ≤ i → i ≤ 3 → target_nptp (x86_round_pdr maxkvaddr) i ≤ g.nkptpmax i)
    (hfree : grow_pages s (x86_round_pdr maxkvaddr) ≤ s.free_pages.length)
    (hcr3 : s.cr3 = root s 0 ∨
      (s.nkptp 3 ≠ 0 ∧ pl_i (x86_round_pdr maxkvaddr) 4 = pl_i g.pmap_maxkvaddr 4)) :
    (∃ g1 s1, pmap_growkernel c g s maxkvaddr = some (x86_round_pdr maxkvaddr, g1, s1) ∧
      g1.pmap_maxkvaddr = x86_round_pdr maxkvaddr ∧ s1.pmaps = s.pmaps ∧
      (∀ p ∈ s1.pmaps, ∀ i, PDIR_SLOT_KERN ≤ i → i < PDIR_SLOT_KERN + s1.nkptp 3 →
        s1.mem (s1.pm p).pm_pdir i = s1.mem (s1.pm 0).pm_pdir i) ∧
      (∀ i, 1 ≤ i → i ≤ 3 →
        s1.nkptp i + pl_i VM_MIN_KERNEL_ADDRESS (i + 1) =
          pl_i (x86_round_pdr maxkvaddr) (i + 1) + 1)) ∧
    (∀ (g0 : grow_globals) (s0 : kstate) (va : Nat), va ≤ g0.pmap_maxkvaddr →
      pmap_growkernel c g0 s0 va = some (g0.pmap_maxkvaddr, g0, s0)) := by
  refine ⟨?_, fun g0 s0 va h => by simp only [pmap_growkernel, if_pos h]⟩
  obtain ⟨r1, r2⟩ := round_pdr_up maxkvaddr hmax
  have hS := hI.tree
  obtain ⟨s1, a1, a2, a3, a4, a5⟩ := grow_alloc c g s (x86_round_pdr maxkvaddr) hS hg hk
    (by omega) r2 hcr3 hfree
  have hmin : (0xffff800000000000 : Nat) = VM_MIN_KERNEL_ADDRESS := rfl
  have hkv : VM_MIN_KERNEL_ADDRESS ≤ g.pmap_maxkvaddr := by
    rcases hk with h | h
    · exact le_of_eq h.1.symm
    · exact h.1
  obtain ⟨i1, i2, _⟩ := kern_idx (x86_round_pdr maxkvaddr) (hmin ▸ (by omega)) r2
  obtain ⟨k1, _, _⟩ := kern_idx_min
  have n3 := a5 3 (by omega) (by omega)
  simp only [Nat.reduceAdd] at n3
  rw [k1] at n3
  have hold : s.nkptp 3 + 256 ≤ pl_i (x86_round_pdr maxkvaddr) 4 + 1 := by
    rcases hk with h | h
    · rw [h.2.2.2]
      omega
    · have := h.2.2.1 3 (by omega) (by omega)
      simp only [Nat.reduceAdd] at this
      rw [k1] at this
      have := (kern_idx_mono g.pmap_maxkvaddr (x86_round_pdr maxkvaddr) (hmin ▸ hkv) (by omega)
        r2).1
      omega
  have hnb : ¬ ∃ i ∈ [3, 2, 1], target_nptp (x86_round_pdr maxkvaddr) i > g.nkptpmax i := by
    rintro ⟨i, hi, h⟩
    simp only [List.mem_cons, List.mem_singleton, List.not_mem_nil, or_false] at hi
    have := hbud i (by omega) (by omega)
    omega
  have hnew : (((s1.nkptp 3 : Int) - (s.nkptp 3 : Int)) % 2 ^ 32).toNat =
      pl_i (x86_round_pdr maxkvaddr) 4 + 1 - (256 + s.nkptp 3) := by omega
  have hroots : ∀ r j, groots s r →
      ¬ (r = (s.pm 0).pm_pdir ∧ 256 + s.nkptp 3 ≤ j ∧
        j < 256 + s.nkptp 3 + (pl_i (x86_round_pdr maxkvaddr) 4 + 1 - (256 + s.nkptp 3))) →
      s1.mem r j = s.mem r j :=
    fun r j hr hw => a4 r j hr (fun k => hw ⟨k.1, k.2.1, by omega⟩)
  rw [pmap_growkernel, if_neg (not_le.mpr hgt)]
  simp only []
  rw [if_neg hnb, show PTP_LEVELS = 4 from rfl, a1]
  simp only [Nat.reduceSub]
  rw [hnew]
  simp only [PDIR_SLOT_KERN]
  by_cases hz : target_nptp (x86_round_pdr maxkvaddr) 3 - (s.nkptp 3 : Int) + 1 ≠ 0
  · rw [if_pos hz, if_pos (by omega)]
    obtain ⟨b1, b2, b3, b4⟩ := memcpy_all_spec (256 + s.nkptp 3)
      (pl_i (x86_round_pdr maxkvaddr) 4 + 1 - (256 + s.nkptp 3)) s1.pmaps s1
    obtain ⟨s2, e2⟩ : ∃ s2, s2 = List.foldl (fun s_1 pm =>
        memcpy_pdes s_1 (s_1.pm pm).pm_pdir (s_1.pm 0).pm_pdir (256 + s.nkptp 3)
          (pl_i (x86_round_pdr maxkvaddr) 4 + 1 - (256 + s.nkptp 3))) s1 s1.pmaps := ⟨_, rfl⟩
    rw [← e2] at b1 b2 b3 b4 ⊢
    refine ⟨_, s2, rfl, rfl, b2.trans a2, ?_, ?_⟩
    · exact grow_roots c s s1 s2 hS
        (pl_i (x86_round_pdr maxkvaddr) 4 + 1 - (256 + s.nkptp 3)) (by omega) (by omega) a2 a3
        hroots b1 b2 b3 b4
    · intro i hi1 hi3
      rw [b3]
      exact a5 i hi1 hi3
  · rw [if_neg hz]
    have hz0 : pl_i (x86_round_pdr maxkvaddr) 4 + 1 - (256 + s.nkptp 3) = 0 := by
      simp only [target_nptp, k1, Nat.reduceAdd, ne_eq, not_not] at hz
      omega
    clear hz
    refine ⟨_, s1, rfl, rfl, a2, ?_, a5⟩
    refine grow_roots c s s1 s1 hS 0 (by omega) (by omega) a2 a3 ?_ rfl rfl rfl ?_
    · intro r j hr hw
      exact hroots r j hr (fun k => hw ⟨k.1, k.2.1, by omega⟩)
    · intro r j
      split
      · rename_i k
        omega
      · rfl

/-- C22, witness: two live pmaps.  The first call, to one byte above
`VM_MIN_KERNEL_ADDRESS`, with the root of the kernel pmap loaded: the maximum
becomes `VM_MIN_KERNEL_ADDRESS + 2 MiB`, one top-level slot is added and
copied to both roots.  A later call with the root of a user pmap loaded, from
`VM_MIN_KERNEL_ADDRESS` to 4 MiB above it: two level-2 entries are added
through the recursive mapping, the top-level slots stay. -/
theorem growkernel_spec_witness :
    (Inv cfg0 st20 ∧ kva_ok grow0 st20 ∧ st20.pmaps = [2, 1] ∧
      (pmap_growkernel cfg0 grow0 st20 (VM_MIN_KERNEL_ADDRESS + 1)).map
          (fun r => (r.1, r.2.1.pmap_maxkvaddr, r.2.2.nkptp 3,
            [0x1000, 0x2000, 0x3000].map (fun t => r.2.2.mem t 256))) =
        some (0xffff800000200000, 0xffff800000200000, 1,
          [0x8000000000100003, 0x8000000000100003, 0x8000000000100003]) ∧
      ((∃ g1 s1, pmap_growkernel cfg0 grow0 st20 (VM_MIN_KERNEL_ADDRESS + 1) =
          some (x86_round_pdr (VM_MIN_KERNEL_ADDRESS + 1), g1, s1) ∧
        g1.pmap_maxkvaddr = x86_round_pdr (VM_MIN_KERNEL_ADDRESS + 1) ∧ s1.pmaps = st20.pmaps ∧
        (∀ p ∈ s1.pmaps, ∀ i, PDIR_SLOT_KERN ≤ i → i < PDIR_SLOT_KERN + s1.nkptp 3 →
          s1.mem (s1.pm p).pm_pdir i = s1.mem (s1.pm 0).pm_pdir i) ∧
        (∀ i, 1 ≤ i → i ≤ 3 →
          s1.nkptp i + pl_i VM_MIN_KERNEL_ADDRESS (i + 1) =
            pl_i (x86_round_pdr (VM_MIN_KERNEL_ADDRESS + 1)) (i + 1) + 1)) ∧
      (∀ (g0 : grow_globals) (s0 : kstate) (va : Nat), va ≤ g0.pmap_maxkvaddr →
        pmap_growkernel cfg0 g0 s0 va = some (g0.pmap_maxkvaddr, g0, s0)))) ∧
    (Inv cfg0 kgr2 ∧ kva_ok grow0 kgr2 ∧ kgr2.pmaps = [2, 1] ∧ kgr2.cr3 = root kgr2 1 ∧
      (pmap_growkernel cfg0 grow0 kgr2 (VM_MIN_KERNEL_ADDRESS + 0x200001)).map
          (fun r => (r.1, r.2.1.pmap_maxkvaddr, [1, 2, 3].map r.2.2.nkptp,
            [0x1000, 0x2000, 0x3000].map (fun t => r.2.2.mem t 256),
            [0, 1, 2, 3].map (r.2.2.mem 0x7000))) =
        some (0xffff800000400000, 0xffff800000400000, [3, 1, 1], [0x6003, 0x6003, 0x6003],
          [0x8003, 0x8000000000100003, 0x8000000000101003, 0]) ∧
      ∃ g1 s1, pmap_growkernel cfg0 grow0 kgr2 (VM_MIN_KERNEL_ADDRESS + 0x200001) =
          some (x86_round_pdr (VM_MIN_KERNEL_ADDRESS + 0x200001), g1, s1) ∧
        g1.pmap_maxkvaddr = x86_round_pdr (VM_MIN_KERNEL_ADDRESS + 0x200001) ∧
        s1.pmaps = kgr2.pmaps ∧
        (∀ p ∈ s1.pmaps, ∀ i, PDIR_SLOT_KERN ≤ i → i < PDIR_SLOT_KERN + s1.nkptp 3 →
          s1.mem (s1.pm p).pm_pdir i = s1.mem (s1.pm 0).pm_pdir i) ∧
        (∀ i, 1 ≤ i → i ≤ 3 →
          s1.nkptp i + pl_i VM_MIN_KERNEL_ADDRESS (i + 1) =
            pl_i (x86_round_pdr (VM_MIN_KERNEL_ADDRESS + 0x200001)) (i + 1) + 1)) :=
  ⟨⟨st20_Inv, Or.inl ⟨rfl, by decide, by decide, by decide⟩, by decide, by decide!,
    growkernel_spec cfg0 grow0 st20 (VM_MIN_KERNEL_ADDRESS + 1) st20_Inv rfl
      (Or.inl ⟨rfl, by decide, by decide, by decide⟩) (by decide) (by decide)
      (fun i h1 h3 => by
        have : i = 1 ∨ i = 2 ∨ i = 3 := by omega
        rcases this with e | e | e <;> subst e <;> decide)
      (by decide) (Or.inl (by decide))⟩,
   ⟨kgr2_Inv, kgr2_kva_ok, by decide, by decide, by decide!,
    (growkernel_spec cfg0 grow0 kgr2 (VM_MIN_KERNEL_ADDRESS + 0x200001) kgr2_Inv rfl
      kgr2_kva_ok (by decide) (by decide)
      (fun i h1 h3 => by
        have : i = 1 ∨ i = 2 ∨ i = 3 := by omega
        rcases this with e | e | e <;> subst e <;> decide)
      (by decide) (Or.inr ⟨by decide, by decide⟩)).1⟩⟩

/-! ## The chain of a frame -/

theorem pv_remove_first_spec (pmap va : Nat) (l : List pv_entry) :
    (∀ e, (pv_remove_first pmap va l).2 = some e →
      ∃ l1 l2, l = l1 ++ e :: l2 ∧ (∀ x ∈ l1, ¬ (x.pv_pmap = pmap ∧ x.pv_va = va)) ∧
        e.pv_pmap = pmap ∧ e.pv_va = va ∧ (pv_remove_first pmap va l).1 = l1 ++ l2) ∧
    ((pv_remove_first pmap va l).2 = none →
      (∀ x ∈ l, ¬ (x.pv_pmap = pmap ∧ x.pv_va = va)) ∧ (pv_remove_first pmap va l).1 = l) := by
  induction l with
  | nil =>
    refine ⟨fun e h => ?_, fun _ => ⟨fun x hx => (by cases hx), rfl⟩⟩
    simp [pv_remove_first] at h
  | cons a l ih =>
    by_cases hm : a.pv_pmap = pmap ∧ a.pv_va = va
    · simp only [pv_remove_first, if_pos hm]
      refine ⟨fun e h => ?_, fun h => by cases h⟩
      have : a = e := Option.some.inj h
      subst this
      exact ⟨[], l, rfl, fun x hx => (by cases hx), hm.1, hm.2, rfl⟩
    · simp only [pv_remove_first, if_neg hm]
      refine ⟨fun e h => ?_, fun h => ?_⟩
      · obtain ⟨l1, l2, a1, a2, a3, a4, a5⟩ := ih.1 e h
        refine ⟨a :: l1, l2, by rw [a1]; rfl, ?_, a3, a4, by rw [a5]; rfl⟩
        intro x hx
        rcases List.mem_cons.mp hx with e1 | e1
        · rw [e1]
          exact hm
        · exact a2 x e1
      · obtain ⟨b1, b2⟩ := ih.2 h
        refine ⟨?_, by rw [b2]⟩
        intro x hx
        rcases List.mem_cons.mp hx with e1 | e1
        · rw [e1]
          exact hm
        · exact b1 x e1

theorem upd_self {α : Type} (g : Nat → α) (k : Nat) : upd g k (g k) = g := by
  funext x
  simp only [upd]
  split
  · rename_i h
    rw [h]
  · rfl

theorem upd_upd_self {α : Type} (g : Nat → α) (k : Nat) (a : α) :
    upd (upd g k a) k (g k) = g := by
  funext x
  simp only [upd]
  split
  · rename_i h
    rw [h]
  · rfl

/-- C34: `pmap_remove_pv` returns the first entry of the chain of `pg` whose
pmap and address match, and the chain afterwards is the old one without that
entry, the others in their order; nothing else of the state changes.  When no
entry matches it returns `NULL` and the state is the one before.  Right after
`pmap_enter_pv` attached an entry for the same pmap and address, it returns
that entry and the state is the one before the attach. -/
theorem remove_pv_spec (s : kstate) (pg pmap va : Nat) :
    (pmap_remove_pv s pg pmap va).2 =
        { s with pv_list := (pmap_remove_pv s pg pmap va).2.pv_list } ∧
      (∀ g, g ≠ pg → (pmap_remove_pv s pg pmap va).2.pv_list g = s.pv_list g) ∧
      (∀ e, (pmap_remove_pv s pg pmap va).1 = some e →
        ∃ l1 l2, s.pv_list pg = l1 ++ e :: l2 ∧
          (∀ x ∈ l1, ¬ (x.pv_pmap = pmap ∧ x.pv_va = va)) ∧ e.pv_pmap = pmap ∧ e.pv_va = va ∧
          (pmap_remove_pv s pg pmap va).2.pv_list pg = l1 ++ l2) ∧
      ((pmap_remove_pv s pg pmap va).1 = none ↔
        ∀ x ∈ s.pv_list pg, ¬ (x.pv_pmap = pmap ∧ x.pv_va = va)) ∧
      ((pmap_remove_pv s pg pmap va).1 = none → (pmap_remove_pv s pg pmap va).2 = s) ∧
      ∀ ptp, pmap_remove_pv (pmap_enter_pv s pg pmap va ptp) pg pmap va =
        (some { pv_pmap := pmap, pv_va := va, pv_ptp := ptp }, s) := by
  obtain ⟨h1, h2⟩ := pv_remove_first_spec pmap va (s.pv_list pg)
  refine ⟨rfl, ?_, ?_, ⟨?_, ?_⟩, ?_, ?_⟩
  · intro g hg
    simp only [pmap_remove_pv, upd, if_neg hg]
  · intro e he
    obtain ⟨l1, l2, a1, a2, a3, a4, a5⟩ := h1 e he
    refine ⟨l1, l2, a1, a2, a3, a4, ?_⟩
    simp only [pmap_remove_pv, upd, if_true]
    exact a5
  · intro h
    exact (h2 h).1
  · intro h
    cases hr : (pmap_remove_pv s pg pmap va).1 with
    | none => rfl
    | some e =>
      obtain ⟨l1, l2, a1, _, a3, a4, _⟩ := h1 e hr
      exact absurd ⟨a3, a4⟩ (h e (by rw [a1]; simp))
  · intro h
    have e1 := (h2 h).2
    simp only [pmap_remove_pv, e1, upd_self]
  · intro ptp
    simp only [pmap_remove_pv, pmap_enter_pv, upd, if_true, pv_remove_first, and_self]
    rw [upd_upd_self]

/-- In the state `u2` the chain of the frame `0x400000` has the entry of the
pmap 2 before that of the pmap 1; removing (1, `0x1000`) returns the second
entry and leaves the first. -/
theorem remove_pv_spec_witness :
    (u2.pv_list 0x400000 =
        [{ pv_pmap := 2, pv_va := 0x2000, pv_ptp := some 0x105000 },
          { pv_pmap := 1, pv_va := 0x1000, pv_ptp := some 0x102000 }] ∧
      (pmap_remove_pv u2 0x400000 1 0x1000).1 =
        some { pv_pmap := 1, pv_va := 0x1000, pv_ptp := some 0x102000 } ∧
      (pmap_remove_pv u2 0x400000 1 0x1000).2.pv_list 0x400000 =
        [{ pv_pmap := 2, pv_va := 0x2000, pv_ptp := some 0x105000 }]) ∧
    ((pmap_remove_pv u2 0x400000 1 0x1000).2 =
        { u2 with pv_list := (pmap_remove_pv u2 0x400000 1 0x1000).2.pv_list } ∧
      (∀ g, g ≠ 0x400000 → (pmap_remove_pv u2 0x400000 1 0x1000).2.pv_list g = u2.pv_list g) ∧
      (∀ e, (pmap_remove_pv u2 0x400000 1 0x1000).1 = some e →
        ∃ l1 l2, u2.pv_list 0x400000 = l1 ++ e :: l2 ∧
          (∀ x ∈ l1, ¬ (x.pv_pmap = 1 ∧ x.pv_va = 0x1000)) ∧ e.pv_pmap = 1 ∧
          e.pv_va = 0x1000 ∧
          (pmap_remove_pv u2 0x400000 1 0x1000).2.pv_list 0x400000 = l1 ++ l2) ∧
      ((pmap_remove_pv u2 0x400000 1 0x1000).1 = none ↔
        ∀ x ∈ u2.pv_list 0x400000, ¬ (x.pv_pmap = 1 ∧ x.pv_va = 0x1000)) ∧
      ((pmap_remove_pv u2 0x400000 1 0x1000).1 = none →
        (pmap_remove_pv u2 0x400000 1 0x1000).2 = u2) ∧
      ∀ ptp, pmap_remove_pv (pmap_enter_pv u2 0x400000 1 0x1000 ptp) 0x400000 1 0x1000 =
        (some { pv_pmap := 1, pv_va := 0x1000, pv_ptp := ptp }, u2)) :=
  ⟨⟨by decide!, by decide!, by decide!⟩, remove_pv_spec u2 0x400000 1 0x1000⟩

/-! ## The hint of a level -/

/-- C40: when the index of the level holds, at the offset of `va`, the page
whose physical address is the frame of the parent entry `e` of `va`, then
`pmap_find_ptp` called with that frame returns the same page as the call with
`(paddr_t)-1`, which is the index lookup, whatever the hint is. -/
theorem find_ptp_hint (s : kstate) (pmap va pa level e : Nat) (hpa : pa = e &&& PG_FRAME)
    (hidx : uvm_pagelookup ((s.pm pmap).pm_obj (level - 1)) (ptp_va2o va level) =
      some (e &&& PG_FRAME)) :
    pmap_find_ptp s pmap va pa level = pmap_find_ptp s pmap va PADDR_NONE level ∧
      pmap_find_ptp s pmap va PADDR_NONE level =
        uvm_pagelookup ((s.pm pmap).pm_obj (level - 1)) (ptp_va2o va level) ∧
      pmap_find_ptp s pmap va pa level = some pa := by
  have h0 : pmap_find_ptp s pmap va PADDR_NONE level =
      uvm_pagelookup ((s.pm pmap).pm_obj (level - 1)) (ptp_va2o va level) := by
    simp only [pmap_find_ptp, ne_eq, not_true_eq_false, false_and, if_false]
  have h1 : pmap_find_ptp s pmap va pa level = some pa := by
    simp only [pmap_find_ptp]
    split
    · rename_i h
      exact h.2.2.symm
    · rw [hidx, hpa]
  exact ⟨by rw [h1, h0, hidx, hpa], h0, h1⟩

/-- In the state `st2` the hint of the leaf level is the leaf table of
`0x1000`, whose parent entry is `0x102007`: the hinted call and the plain
lookup agree. -/
theorem find_ptp_hint_witness :
    (st2.pm 1).pm_ptphint 0 = some 0x102000 ∧ st2.mem 0x101000 0 = 0x102007 ∧
      (pmap_find_ptp st2 1 0x1000 0x102000 1 = pmap_find_ptp st2 1 0x1000 PADDR_NONE 1 ∧
        pmap_find_ptp st2 1 0x1000 PADDR_NONE 1 =
          uvm_pagelookup ((st2.pm 1).pm_obj (1 - 1)) (ptp_va2o 0x1000 1) ∧
        pmap_find_ptp st2 1 0x1000 0x102000 1 = some 0x102000) :=
  ⟨by decide, by decide, find_ptp_hint st2 1 0x1000 0x102000 1 0x102007 (by decide) (by decide)⟩

/-- C38: in the state `st2` the leaf table `0x102000` is the only page of the
level-1 index of the pmap 1 and its hint.  After `pmap_freepage` of that page
the index is empty and the hint is still `0x102000`; after the whole
`pmap_remove(1, 0x1000, 0x2000)` the three hints still name the three tables,
which are back on the free list. -/
theorem freepage_stale_hint :
    (st2.pm 1).pm_obj 0 = [(ptp_va2o 0x1000 1, 0x102000)] ∧
      (st2.pm 1).pm_ptphint 0 = some 0x102000 ∧
      (pmap_freepage st2 1 0x102000 1 []).2 = [0x102000] ∧
      ((pmap_freepage st2 1 0x102000 1 []).1.pm 1).pm_obj 0 = [] ∧
      ((pmap_freepage st2 1 0x102000 1 []).1.pm 1).pm_ptphint 0 = some 0x102000 ∧
      (pmap_remove cfg0 st2 1 0x1000 0x2000).map
          (fun s => ([0, 1, 2].map (s.pm 1).pm_obj, [0, 1, 2].map (s.pm 1).pm_ptphint,
            s.free_pages.take 3)) =
        some ([[], [], []], [some 0x102000, some 0x101000, some 0x100000],
          [0x100000, 0x101000, 0x102000]) := by
  refine ⟨by decide, by decide, by decide, by decide, by decide, by decide!⟩

/-- C37: in the state `e3` the EPT pmap 1 maps the guest pages `0x2000` and
`0x3000` of one 2 MiB region, both entered with success.  After
`pmap_do_remove_ept(1, 0x2000)` the leaf entry of `0x3000` still holds
`0x401033`, but the leaf table `0x102000` that holds it is no longer installed
in its parent, has a `wire_count` of 0 and is on the free list, as are the two
tables above it. -/
theorem remove_ept_sibling_lost :
    (pmap_enter cfg0 e1 1 0x2000 0x400000 3 0).map Prod.fst = some 0 ∧
      (pmap_enter cfg0 e2 1 0x3000 0x401000 3 0).map Prod.fst = some 0 ∧
      (e3.mem 0x101000 0 = 0x102007 ∧ e3.mem 0x102000 2 = 0x400033 ∧
        e3.mem 0x102000 3 = 0x401033 ∧ e3.wire_count 0x102000 = 2) ∧
      (pmap_do_remove_ept cfg0 e3 1 0x2000).map
          (fun s => [s.mem 0x102000 3, s.mem 0x101000 0, s.mem 0x100000 0, s.mem 0x2000 0]) =
        some [0x401033, 0, 0, 0] ∧
      (pmap_do_remove_ept cfg0 e3 1 0x2000).map
          (fun s => (s.wire_count 0x102000, s.free_pages.take 3, (s.pm 1).pm_obj 0)) =
        some (0, [0x100000, 0x101000, 0x102000], []) := by
  refine ⟨by decide!, by decide!, ⟨by decide!, by decide!, by decide!, by decide!⟩, by decide!,
    by decide!⟩

/-! ## The range loop of `pmap_do_remove` -/

/-- C39, as stated: the range `[0x1ff000, 0x201000)` is page-aligned, two
pages long and straddles a 2 MiB boundary; the loop header cuts it into the
two blocks `[0x1ff000, 0x200000)` and `[0x200000, 0x201000)`, one more than
`(eva - sva) / 2 MiB + 1 = 1`. -/
theorem do_remove_blocks_counterexample :
    0x1ff000 % PAGE_SIZE = 0 ∧ 0x201000 % PAGE_SIZE = 0 ∧ 0x1ff000 < 0x201000 ∧
      0x201000 + NBPD_L2 ≤ 2 ^ 64 ∧
      (∀ n, 3 ≤ n → do_remove_blocks 0x201000 n 0x1ff000 =
        [(0x1ff000, 0x200000), (0x200000, 0x201000)]) ∧
      ¬ ((do_remove_blocks 0x201000 3 0x1ff000).length ≤
        (0x201000 - 0x1ff000) / NBPD_L2 + 1) := by
  refine ⟨by decide, by decide, by decide, by decide, fun n hn => ?_, by decide⟩
  rw [(blocks_gen 0x201000 (by norm_num) 3 0x1ff000 (fun _ => by norm_num)).2.2.2.2 n hn]
  decide

/-- C39, amended: for `sva < eva` with `eva` at least 2 MiB below the top of
the 64-bit address space, the range loop of `pmap_do_remove` is its body run
over the blocks `[va, blkendva)` of the loop header, and does not run out of
fuel.  The blocks satisfy `va < blkendva ≤ eva`, each lies inside one 2 MiB
region, the first starts at `sva`, consecutive blocks are adjacent, their
union is `[sva, eva)`, and their number, one per 2 MiB region that the range
meets, is at most `(eva - sva) / 2 MiB + 2`. -/
theorem do_remove_blocks_spec (sva eva : Nat) (hlt : sva < eva)
    (htop : eva + NBPD_L2 ≤ 2 ^ 64) :
    (∀ n, (eva - sva) / NBPD_L2 + 2 ≤ n →
        do_remove_blocks eva n sva = do_remove_blocks eva ((eva - sva) / NBPD_L2 + 2) sva) ∧
      (∀ c pmap flags s fp l,
        pmap_do_remove_loop c pmap eva flags (2 ^ 43 + 2) sva s fp l =
          do_remove_run c pmap flags (do_remove_blocks eva ((eva - sva) / NBPD_L2 + 2) sva)
            s fp l) ∧
      (do_remove_blocks eva ((eva - sva) / NBPD_L2 + 2) sva).length =
        (eva - 1) / NBPD_L2 - sva / NBPD_L2 + 1 ∧
      (do_remove_blocks eva ((eva - sva) / NBPD_L2 + 2) sva).length ≤
        (eva - sva) / NBPD_L2 + 2 ∧
      (∀ b ∈ do_remove_blocks eva ((eva - sva) / NBPD_L2 + 2) sva,
        b.1 < b.2 ∧ b.2 ≤ eva ∧ b.1 / NBPD_L2 = (b.2 - 1) / NBPD_L2) ∧
      ((do_remove_blocks eva ((eva - sva) / NBPD_L2 + 2) sva).head?.map Prod.fst = some sva) ∧
      List.Chain' (fun x y : Nat × Nat => x.2 = y.1)
        (do_remove_blocks eva ((eva - sva) / NBPD_L2 + 2) sva) ∧
      ∀ v, (sva ≤ v ∧ v < eva) ↔
        ∃ b ∈ do_remove_blocks eva ((eva - sva) / NBPD_L2 + 2) sva, b.1 ≤ v ∧ v < b.2 := by
  have e21 : NBPD_L2 = 2 ^ 21 := rfl
  rw [e21] at htop ⊢
  have hbound : (eva - 1) / 2 ^ 21 - sva / 2 ^ 21 + 1 ≤ (eva - sva) / 2 ^ 21 + 2 := by
    norm_num
    omega
  obtain ⟨g1, g2, g3, g4, g5⟩ := blocks_gen eva htop ((eva - sva) / 2 ^ 21 + 2) sva
    (fun _ => hbound)
  rw [if_pos hlt] at g1
  have hfuel : (eva - sva) / 2 ^ 21 + 2 < 2 ^ 43 + 2 := by
    norm_num at htop ⊢
    omega
  refine ⟨g5, ?_, g1, by rw [g1]; exact hbound, ?_, ?_, ?_, g4⟩
  · intro c pmap flags s fp l
    rw [← g5 (2 ^ 43 + 2) (le_of_lt hfuel)]
    apply do_remove_loop_run
    rw [g5 (2 ^ 43 + 2) (le_of_lt hfuel), g1]
    omega
  · intro b hb
    exact (g2 b hb).2
  · cases hn : (eva - sva) / 2 ^ 21 + 2 with
    | zero => omega
    | succ k => simp only [do_remove_blocks, if_pos hlt, List.head?_cons, Option.map_some']
  · have h0 : List.Chain' (fun x y : Nat × Nat => x.2 = y.1)
        ((0, sva) :: do_remove_blocks eva ((eva - sva) / 2 ^ 21 + 2) sva) := g3 0
    exact h0.tail

/-- The range `[0x1000, 0x401000)` is cut into the three blocks of its three
2 MiB regions. -/
theorem do_remove_blocks_spec_witness :
    do_remove_blocks 0x401000 ((0x401000 - 0x1000) / NBPD_L2 + 2) 0x1000 =
        [(0x1000, 0x200000), (0x200000, 0x400000), (0x400000, 0x401000)] ∧
      (∀ c pmap flags s fp l,
        pmap_do_remove_loop c pmap 0x401000 flags (2 ^ 43 + 2) 0x1000 s fp l =
          do_remove_run c pmap flags
            (do_remove_blocks 0x401000 ((0x401000 - 0x1000) / NBPD_L2 + 2) 0x1000) s fp l) :=
  ⟨by decide, (do_remove_blocks_spec 0x1000 0x401000 (by decide) (by decide)).2.1⟩

/-! ## The early halt of `pmap_remove_ptes` -/

theorem w4_Inv : Inv cfg0 w4 :=
  Inv_eqv cfg0 w1 w4 w1_Inv
    ⟨rfl, rfl, rfl, rfl, rfl, ⟨rfl, rfl, rfl, rfl, rfl, rfl, fun _ => ⟨rfl, rfl, rfl, rfl, rfl, rfl⟩⟩,
      fun _ => ⟨rfl, rfl, rfl, rfl⟩⟩
    ⟨1, Or.inr (by decide), by decide⟩

theorem st11_Inv : Inv cfg0 st11 :=
  Inv_eqv cfg0 st9 st11 st9_Inv
    ⟨rfl, rfl, rfl, rfl, rfl, ⟨rfl, rfl, rfl, rfl, rfl, rfl, fun _ => ⟨rfl, rfl, rfl, rfl, rfl, rfl⟩⟩,
      fun _ => ⟨rfl, rfl, rfl, rfl⟩⟩
    ⟨1, Or.inr (by decide), by decide⟩

/-- The pages of the first 2 MiB have the leaf table of the page `0x1000`. -/
theorem ptab_first_block (s : kstate) (r t : Nat) (h : ptab s.mem r 0x1000 1 = some t) (va : Nat)
    (hv : va < 0x200000) : ptab s.mem r va 1 = some t := by
  rw [ptab_pfx s.mem r 0x1000 va 1 (by omega) (by omega) ?_]
  · exact h
  · simp only [pfx]
    norm_num
    omega

/-- C36, as stated: in the state `w4` the leaf PTP `0x102000` of the pmap 1
has one valid leaf, the wired mapping of `0x1000`, and a `wire_count` of 2.
`pmap_remove_ptes` over the slice `[0x1000, 0x2000)` with
`PMAP_REMOVE_SKIPWIRED` returns with that valid leaf as it was, not zero. -/
theorem remove_ptes_skipwired_counterexample :
    Inv cfg0 w4 ∧ ptab w4.mem (root w4 1) 0x1000 1 = some 0x102000 ∧
      w4.wire_count 0x102000 = 1 + vcount w4.mem 0x102000 ∧
      pmap_valid_entry (w4.mem 0x102000 (slot 0x1000 1)) = true ∧
      (pmap_remove_ptes cfg0 w4 1 (some 0x102000) 0x1000 0x2000 PMAP_REMOVE_SKIPWIRED []).map
          (fun r => r.1.mem 0x102000 (slot 0x1000 1)) =
        some (w4.mem 0x102000 (slot 0x1000 1)) ∧
      w4.mem 0x102000 (slot 0x1000 1) ≠ 0 :=
  ⟨w4_Inv, by decide, w4_Inv.wire.wire 1 (by decide) 0x1000 1 0x102000 (by decide) (by decide)
    (by decide) (by decide), by decide, by decide!, by decide⟩

/-- C36, amended: in a state that satisfies the invariant, for a user pmap
whose root is loaded and a slice `[startva, endva)` of the leaf PTP `t`, with
`startva` page-aligned, the `wire_count` of `t` is one more than the number of
its valid leaves; `pmap_remove_ptes` returns at once when called with a
`wire_count` of at most 1; and for all flags it returns exactly the state and
the list of detached pv entries that the scan of every entry of the slice
returns.  Afterwards a leaf of the slice is zero when it was valid and not
skipped as wired under `PMAP_REMOVE_SKIPWIRED`, and is what it was otherwise;
without `PMAP_REMOVE_SKIPWIRED` every valid leaf of the slice ends up zero. -/
theorem remove_ptes_early_halt (c : config) (s : kstate) (hI : Inv c s)
    (p t startva endva flags : Nat) (fp : List pv_entry) (hp : p ∈ s.pmaps) (hmp : mapped s p)
    (ha : startva % PAGE_SIZE = 0) (he : endva ≤ 0x7f8000000000)
    (hb : ∀ va, startva ≤ va → va < endva → ptab s.mem (root s p) va 1 = some t) :
    (startva < endva → s.wire_count t = 1 + vcount s.mem t) ∧
      (∀ (s0 : kstate) (fp0 : List pv_entry), s0.wire_count t ≤ 1 →
        pmap_remove_ptes c s0 p (some t) startva endva flags fp0 = some (s0, fp0)) ∧
      ∃ s1 fp1,
        pmap_remove_ptes c s p (some t) startva endva flags fp = some (s1, fp1) ∧
        remove_ptes_scan c s p (some t) startva endva flags fp = some (s1, fp1) ∧
        (∀ va, startva ≤ va → va < endva →
          s1.mem t (slot va 1) = scanned flags (s.mem t (slot va 1))) ∧
        (flags &&& PMAP_REMOVE_SKIPWIRED = 0 → ∀ va, startva ≤ va → va < endva →
          pmap_valid_entry (s.mem t (slot va 1)) = true → s1.mem t (slot va 1) = 0) := by
  refine ⟨?_, ?_, ?_⟩
  · intro hlt
    exact hI.wire.wire p hp startva 1 t (by omega) (by omega) (by omega)
      (hb startva (le_refl _) hlt)
  · intro s0 fp0 hw
    simp only [pmap_remove_ptes]
    cases (endva - startva + (PAGE_SIZE - 1)) / PAGE_SIZE with
    | zero => rfl
    | succ n =>
      simp only [pmap_remove_ptes_loop]
      rw [if_neg]
      rintro ⟨_, h | ⟨q, hq, h⟩⟩
      · cases h
      · cases hq
        omega
  · obtain ⟨s1, fp1, e1, e2, _, _, _, hz, _, _⟩ :=
      remove_ptes_scan_spec c p t endva flags he
        ((endva - startva + (PAGE_SIZE - 1)) / PAGE_SIZE) s fp startva hI hp ha hmp hb
        (by simp only [PAGE_SIZE]; omega)
    refine ⟨s1, fp1, e1, e2, hz, ?_⟩
    intro hfl va h1 h2 hv
    rw [hz va h1 h2]
    simp only [scanned]
    rw [if_pos ⟨hv, fun h => h.1 hfl⟩]

/-- In the state `st11` the leaf PTP `0x102000` holds the leaves of `0x1000`
and `0x2000`; over the slice `[0x1000, 0x5000)` the loop halts after the second
page and returns what the scan of the four entries returns. -/
theorem remove_ptes_early_halt_witness :
    Inv cfg0 st11 ∧ 1 ∈ st11.pmaps ∧
      (0x1000 < 0x5000 → st11.wire_count 0x102000 = 1 + vcount st11.mem 0x102000) ∧
      (∀ (s0 : kstate) (fp0 : List pv_entry), s0.wire_count 0x102000 ≤ 1 →
        pmap_remove_ptes cfg0 s0 1 (some 0x102000) 0x1000 0x5000 0 fp0 = some (s0, fp0)) ∧
      ∃ s1 fp1,
        pmap_remove_ptes cfg0 st11 1 (some 0x102000) 0x1000 0x5000 0 [] = some (s1, fp1) ∧
        remove_ptes_scan cfg0 st11 1 (some 0x102000) 0x1000 0x5000 0 [] = some (s1, fp1) ∧
        (∀ va, 0x1000 ≤ va → va < 0x5000 →
          s1.mem 0x102000 (slot va 1) = scanned 0 (st11.mem 0x102000 (slot va 1))) ∧
        (0 &&& PMAP_REMOVE_SKIPWIRED = 0 → ∀ va, 0x1000 ≤ va → va < 0x5000 →
          pmap_valid_entry (st11.mem 0x102000 (slot va 1)) = true →
          s1.mem 0x102000 (slot va 1) = 0) :=
  ⟨st11_Inv, by decide,
    remove_ptes_early_halt cfg0 st11 st11_Inv 1 0x102000 0x1000 0x5000 0 [] (by decide)
      (Or.inl (by decide)) (by decide) (by decide)
      (fun va _ h2 => ptab_first_block st11 _ _ (by decide) va (by omega))⟩

/-! ## `pmap_enter` in the extended regime -/

/-- C35: for a pmap of the extended regime, a `pmap_enter` that returns 0
leaves the chains of all frames as they are.  When the tables on the path of
`gpa` and the free frames are all different and the free frames are page
frames other than frame 0, the path of `gpa` afterwards is the root and three
tables, the leaf of `gpa` in the last of them is
`hpa | EPT_WB | (EPT_R iff read) | (EPT_W iff write) | (EPT_X iff execute)`,
and each of the three upper entries is the entry that was there or, for a
table taken from the free frames, its address with the three permission
bits.  For a page-aligned `hpa` each permission bit of the leaf is set exactly
when `prot` has the corresponding protection bit, the cacheability field is
write-back, and the frame is that of `hpa`. -/
theorem ept_enter_leaf (c : config) (s : kstate) (p gpa hpa prot flags : Nat) (s1 : kstate)
    (hty : (s.pm p).pm_type = PMAP_TYPE_EPT)
    (h : pmap_enter c s p gpa hpa prot flags = some (0, s1)) :
    s1.pv_list = s.pv_list ∧
      ((ept_tables s p gpa ++ s.free_pages).Nodup →
        (∀ f ∈ s.free_pages, f &&& PMAP_PA_MASK = f ∧ f ≠ 0) →
        ∃ npa3 npa2 npa1,
          ept_tables s1 p gpa = [(s.pm p).pm_pdir, npa3, npa2, npa1] ∧
          s1.mem npa1 (ept_idx gpa L1_MASK L1_SHIFT) = ept_leaf hpa prot ∧
          (s1.mem (s.pm p).pm_pdir (ept_idx gpa L4_MASK L4_SHIFT) =
              s.mem (s.pm p).pm_pdir (ept_idx gpa L4_MASK L4_SHIFT) ∨
            (npa3 ∈ s.free_pages ∧
              s1.mem (s.pm p).pm_pdir (ept_idx gpa L4_MASK L4_SHIFT) =
                npa3 ||| EPT_R ||| EPT_W ||| EPT_X)) ∧
          (s1.mem npa3 (ept_idx gpa L3_MASK L3_SHIFT) =
              s.mem npa3 (ept_idx gpa L3_MASK L3_SHIFT) ∨
            (npa2 ∈ s.free_pages ∧
              s1.mem npa3 (ept_idx gpa L3_MASK L3_SHIFT) =
                npa2 ||| EPT_R ||| EPT_W ||| EPT_X)) ∧
          (s1.mem npa2 (ept_idx gpa L2_MASK L2_SHIFT) =
              s.mem npa2 (ept_idx gpa L2_MASK L2_SHIFT) ∨
            (npa1 ∈ s.free_pages ∧
              s1.mem npa2 (ept_idx gpa L2_MASK L2_SHIFT) =
                npa1 ||| EPT_R ||| EPT_W ||| EPT_X))) ∧
      (hpa % PAGE_SIZE = 0 →
        (ept_leaf hpa prot &&& EPT_R ≠ 0 ↔ prot &&& PROT_READ ≠ 0) ∧
        (ept_leaf hpa prot &&& EPT_W ≠ 0 ↔ prot &&& PROT_WRITE ≠ 0) ∧
        (ept_leaf hpa prot &&& EPT_X ≠ 0 ↔ prot &&& PROT_EXEC ≠ 0) ∧
        ept_leaf hpa prot &&& 0x38 = EPT_WB ∧
        ept_leaf hpa prot / PAGE_SIZE = hpa / PAGE_SIZE) := by
  have he : pmap_enter c s p gpa hpa prot flags = pmap_enter_ept c s p gpa hpa prot := by
    simp only [pmap_enter, hty, if_true]
  rw [he] at h
  exact ⟨enter_ept_pv c s p gpa hpa prot 0 s1 h,
    fun hnd hfr => (enter_ept_path c s p gpa hpa prot s1 hnd hfr h).2,
    fun ha => ept_leaf_bits hpa prot ha⟩

/-- The first mapping of the EPT pmap of `e1`: three tables are taken from
the free frames. -/
theorem ept_enter_leaf_witness :
    (e2.pv_list = e1.pv_list ∧
      ((ept_tables e1 1 0x2000 ++ e1.free_pages).Nodup →
        (∀ f ∈ e1.free_pages, f &&& PMAP_PA_MASK = f ∧ f ≠ 0) →
        ∃ npa3 npa2 npa1,
          ept_tables e2 1 0x2000 = [(e1.pm 1).pm_pdir, npa3, npa2, npa1] ∧
          e2.mem npa1 (ept_idx 0x2000 L1_MASK L1_SHIFT) = ept_leaf 0x400000 3 ∧
          (e2.mem (e1.pm 1).pm_pdir (ept_idx 0x2000 L4_MASK L4_SHIFT) =
              e1.mem (e1.pm 1).pm_pdir (ept_idx 0x2000 L4_MASK L4_SHIFT) ∨
            (npa3 ∈ e1.free_pages ∧
              e2.mem (e1.pm 1).pm_pdir (ept_idx 0x2000 L4_MASK L4_SHIFT) =
                npa3 ||| EPT_R ||| EPT_W ||| EPT_X)) ∧
          (e2.mem npa3 (ept_idx 0x2000 L3_MASK L3_SHIFT) =
              e1.mem npa3 (ept_idx 0x2000 L3_MASK L3_SHIFT) ∨
            (npa2 ∈ e1.free_pages ∧
              e2.mem npa3 (ept_idx 0x2000 L3_MASK L3_SHIFT) =
                npa2 ||| EPT_R ||| EPT_W ||| EPT_X)) ∧
          (e2.mem npa2 (ept_idx 0x2000 L2_MASK L2_SHIFT) =
              e1.mem npa2 (ept_idx 0x2000 L2_MASK L2_SHIFT) ∨
            (npa1 ∈ e1.free_pages ∧
              e2.mem npa2 (ept_idx 0x2000 L2_MASK L2_SHIFT) =
                npa1 ||| EPT_R ||| EPT_W ||| EPT_X))) ∧
      (0x400000 % PAGE_SIZE = 0 →
        (ept_leaf 0x400000 3 &&& EPT_R ≠ 0 ↔ 3 &&& PROT_READ ≠ 0) ∧
        (ept_leaf 0x400000 3 &&& EPT_W ≠ 0 ↔ 3 &&& PROT_WRITE ≠ 0) ∧
        (ept_leaf 0x400000 3 &&& EPT_X ≠ 0 ↔ 3 &&& PROT_EXEC ≠ 0) ∧
        ept_leaf 0x400000 3 &&& 0x38 = EPT_WB ∧
        ept_leaf 0x400000 3 / PAGE_SIZE = 0x400000 / PAGE_SIZE)) ∧
      (ept_tables e1 1 0x2000 ++ e1.free_pages).Nodup ∧
      (∀ f ∈ e1.free_pages, f &&& PMAP_PA_MASK = f ∧ f ≠ 0) ∧
      ept_tables e1 1 0x2000 = [0x2000] ∧
      ept_tables e2 1 0x2000 = [0x2000, 0x100000, 0x101000, 0x102000] ∧
      e2.mem 0x102000 (ept_idx 0x2000 L1_MASK L1_SHIFT) = 0x400033 :=
  ⟨ept_enter_leaf cfg0 e1 1 0x2000 0x400000 3 0 e2 rfl rfl, by decide, by decide, by decide,
    by decide, by decide⟩

/-! ## `pmap_get_ptp` -/

/-- C31: in a state that satisfies the invariant, for a user pmap whose root
is loaded and `va` below the recursive slot, `pmap_get_ptp` returns, with
`NULL` exactly when the free frames do not suffice.  When it returns a page:
the three upper entries on the path of `va` are valid, each the address of the
table below with exactly the valid, user and writable bits; the tables of the
three levels are in the index of their level under the offset of `va`; a
table of a level that was missing is a frame that was free, with a
`wire_count` of 1, or 2 when the table below is new too; a table that was
there has its `wire_count` raised by exactly 1 when the table below it is new
and unchanged otherwise; an entry that was valid is unchanged; the page
returned is the leaf table, whose address is the frame of the level-2 entry,
and it is the level-1 hint. -/
theorem get_ptp_path (c : config) (s : kstate) (hI : Inv c s) (p va : Nat)
    (hp : p ∈ s.pmaps) (hva : va < 0x7f8000000000) (hmp : mapped s p) :
    ∃ r s1, pmap_get_ptp c s p va = some (r, s1) ∧
      (r = none ↔ s.free_pages.length < need s p va) ∧
      ∀ ptp, r = some ptp →
        ∃ t3 t2,
          ptab s1.mem (root s1 p) va 3 = some t3 ∧ ptab s1.mem (root s1 p) va 2 = some t2 ∧
          ptab s1.mem (root s1 p) va 1 = some ptp ∧
          is_frame t3 ∧ is_frame t2 ∧ is_frame ptp ∧
          s1.mem (root s1 p) (slot va 4) = t3 ||| PG_u ||| PG_RW ||| PG_V ∧
          s1.mem t3 (slot va 3) = t2 ||| PG_u ||| PG_RW ||| PG_V ∧
          s1.mem t2 (slot va 2) = ptp ||| PG_u ||| PG_RW ||| PG_V ∧
          s1.mem t2 (slot va 2) &&& PG_FRAME = ptp ∧
          (s1.pm p).pm_ptphint 0 = some ptp ∧
          uvm_pagelookup ((s1.pm p).pm_obj 2) (ptp_va2o va 3) = some t3 ∧
          uvm_pagelookup ((s1.pm p).pm_obj 1) (ptp_va2o va 2) = some t2 ∧
          uvm_pagelookup ((s1.pm p).pm_obj 0) (ptp_va2o va 1) = some ptp ∧
          (∀ L y, 1 ≤ L → L ≤ 3 → ptab s1.mem (root s1 p) va L = some y →
            (ptab s.mem (root s p) va L = some y ∧
              s1.wire_count y = s.wire_count y +
                (if 2 ≤ L ∧ ptab s.mem (root s p) va (L - 1) = none then 1 else 0)) ∨
            (ptab s.mem (root s p) va L = none ∧ y ∈ s.free_pages ∧
              s1.wire_count y = if 2 ≤ L then 2 else 1)) ∧
          (∀ L x, 2 ≤ L → L ≤ 4 → ptab s.mem (root s p) va L = some x →
            pmap_valid_entry (s.mem x (slot va L)) = true →
            s1.mem x (slot va L) = s.mem x (slot va L)) := by
  obtain ⟨r, s1, e, hI1, hg, _, hr1, _, hr3⟩ := get_ptp_spec c s hI p va hp hva hmp
  refine ⟨r, s1, e, hr1, ?_⟩
  intro ptp hr
  subst hr
  have hS1 := hI1.tree
  have hp1 : p ∈ s1.pmaps := hg.pmaps ▸ hp
  have h1 := hr3 ptp rfl
  obtain ⟨t2, a1, a2, a3, a4, _⟩ := path_entry c s1 hS1 p va 1 ptp hp1 hva (by omega) (by omega) h1
  obtain ⟨t3, b1, b2, _, b4, _⟩ := path_entry c s1 hS1 p va 2 t2 hp1 hva (by omega) (by omega) a1
  obtain ⟨t4, c1, c2, _, c4, _⟩ := path_entry c s1 hS1 p va 3 t3 hp1 hva (by omega) (by omega) b1
  have e4 : t4 = root s1 p := by
    rw [ptab_4] at c1
    exact (Option.some.inj c1).symm
  rw [e4] at c2
  obtain ⟨w, hh⟩ := get_ptp_wire c s hI p va hp hva hmp ptp s1 e
  have hidx : ∀ L y, 1 ≤ L → L ≤ 3 → ptab s1.mem (root s1 p) va L = some y →
      uvm_pagelookup ((s1.pm p).pm_obj (L - 1)) (ptp_va2o va L) = some y := by
    intro L y l1 l3 hy
    rw [uvm_pagelookup, ptp_va2o_eq va L l1 l3, ← hS1.idx p hp1 va L hva l1 l3]
    exact hy
  refine ⟨t3, t2, b1, a1, h1, c4, b4, a4, c2, b2, a2, a3, hh, hidx 3 t3 (by omega) (by omega) b1,
    hidx 2 t2 (by omega) (by omega) a1, hidx 1 ptp (by omega) (by omega) h1, w.2.2, ?_⟩
  intro L x l2 l4 hx hv
  have hd := dom_user s p va hp hva
  have hsh := hI.tree.shape p hp va L x hva l2 l4 hx
  have hx' : ptab s.mem (root s p) va (L - 1 + 1) = some x := by
    rw [Nat.sub_add_cancel (by omega)]
    exact hx
  have hsl : slot va (L - 1 + 1) = slot va L := by rw [Nat.sub_add_cancel (by omega)]
  have hch := ptab_child s.mem (root s p) va (L - 1) x (by omega) (by omega) hx'
    (by rw [hsl]; exact shape_psv _ hsh hv)
  rw [hsl] at hch
  obtain ⟨u0, d1, d2, _⟩ := path_entry c s hI.tree p va (L - 1) _ hp hva (by omega) (by omega) hch
  obtain ⟨u1, f1, f2, _⟩ := path_entry c s1 hS1 p va (L - 1) _ hp1 hva (by omega) (by omega)
    (hg.old p va (L - 1) _ hd (by omega) (by omega) hch)
  rw [hx'] at d1
  have := hg.old p va L x hd (by omega) l4 hx
  rw [Nat.sub_add_cancel (by omega)] at f1
  rw [this] at f1
  have eu0 : x = u0 := Option.some.inj d1
  have eu1 : x = u1 := Option.some.inj f1
  subst eu0
  subst eu1
  rw [hsl] at d2 f2
  exact f2.trans d2.symm

/-- In the state `st11` the tables of the levels 3 and 2 of `0x200000` are
there and its leaf table is missing; `pmap_get_ptp` takes it from the free
frames. -/
theorem get_ptp_path_witness :
    Inv cfg0 st11 ∧ 1 ∈ st11.pmaps ∧ ptab st11.mem (root st11 1) 0x200000 2 = some 0x101000 ∧
      ptab st11.mem (root st11 1) 0x200000 1 = none ∧
      ∃ r s1, pmap_get_ptp cfg0 st11 1 0x200000 = some (r, s1) ∧
        (r = none ↔ st11.free_pages.length < need st11 1 0x200000) ∧
        ∀ ptp, r = some ptp →
          ∃ t3 t2,
            ptab s1.mem (root s1 1) 0x200000 3 = some t3 ∧
            ptab s1.mem (root s1 1) 0x200000 2 = some t2 ∧
            ptab s1.mem (root s1 1) 0x200000 1 = some ptp ∧
            is_frame t3 ∧ is_frame t2 ∧ is_frame ptp ∧
            s1.mem (root s1 1) (slot 0x200000 4) = t3 ||| PG_u ||| PG_RW ||| PG_V ∧
            s1.mem t3 (slot 0x200000 3) = t2 ||| PG_u ||| PG_RW ||| PG_V ∧
            s1.mem t2 (slot 0x200000 2) = ptp ||| PG_u ||| PG_RW ||| PG_V ∧
            s1.mem t2 (slot 0x200000 2) &&& PG_FRAME = ptp ∧
            (s1.pm 1).pm_ptphint 0 = some ptp ∧
            uvm_pagelookup ((s1.pm 1).pm_obj 2) (ptp_va2o 0x200000 3) = some t3 ∧
            uvm_pagelookup ((s1.pm 1).pm_obj 1) (ptp_va2o 0x200000 2) = some t2 ∧
            uvm_pagelookup ((s1.pm 1).pm_obj 0) (ptp_va2o 0x200000 1) = some ptp ∧
            (∀ L y, 1 ≤ L → L ≤ 3 → ptab s1.mem (root s1 1) 0x200000 L = some y →
              (ptab st11.mem (root st11 1) 0x200000 L = some y ∧
                s1.wire_count y = st11.wire_count y +
                  (if 2 ≤ L ∧ ptab st11.mem (root st11 1) 0x200000 (L - 1) = none then 1
                    else 0)) ∨
              (ptab st11.mem (root st11 1) 0x200000 L = none ∧ y ∈ st11.free_pages ∧
                s1.wire_count y = if 2 ≤ L then 2 else 1)) ∧
            (∀ L x, 2 ≤ L → L ≤ 4 → ptab st11.mem (root st11 1) 0x200000 L = some x →
              pmap_valid_entry (st11.mem x (slot 0x200000 L)) = true →
              s1.mem x (slot 0x200000 L) = st11.mem x (slot 0x200000 L)) :=
  ⟨st11_Inv, by decide, by decide, by decide,
    get_ptp_path cfg0 st11 st11_Inv 1 0x200000 (by decide) (by decide) (Or.inl (by decide))⟩

/-! ## `pmap_free_ptp` -/

/-- C32: in a state that satisfies the invariant, for a user pmap whose root
is loaded and the leaf PTP `q` of `va` with a `wire_count` of at most 1,
`pmap_free_ptp` returns after releasing `k` tables, `1 ≤ k ≤ 3`: the tables of
the levels `1..k` on the path of `va`, appended in that order to the deferred
list.  Each of them has the entry for it in its parent zeroed, is out of the
index of its level, has a `wire_count` of 0 and is not among the free frames,
which are as before; each released table above `q` had a `wire_count` of at
most 2, so that the decrement brought it to at most 1.  When `k < 3`, the
table of the level `k + 1` has its `wire_count` lowered by exactly 1 and still
above 1, keeps its entry in the table above it and stays in the tree and in
the index.  `resident_count` is lowered by `k`. -/
theorem free_ptp_released (c : config) (s : kstate) (hI : Inv c s) (p va q : Nat)
    (l : List Nat) (hp : p ∈ s.pmaps) (hva : va < 0x7f8000000000) (hmp : mapped s p)
    (hq : ptab s.mem (root s p) va 1 = some q) (hw : s.wire_count q ≤ 1) :
    ∃ s1 l1 k, pmap_free_ptp s p q va l = some (s1, l1) ∧ 1 ≤ k ∧ k ≤ 3 ∧
      l1 = l ++ (List.range k).filterMap (fun i => ptab s.mem (root s p) va (1 + i)) ∧
      s1.free_pages = s.free_pages ∧
      (s1.pm p).resident_count = (s.pm p).resident_count - k ∧
      (∀ j, 1 ≤ j → j ≤ k → ∃ T T', ptab s.mem (root s p) va j = some T ∧
        ptab s.mem (root s p) va (j + 1) = some T' ∧ s1.mem T' (slot va (j + 1)) = 0 ∧
        s1.wire_count T = 0 ∧ (∀ e ∈ (s1.pm p).pm_obj (j - 1), e.2 ≠ T) ∧
        T ∈ l1 ∧ T ∉ s1.free_pages ∧ (1 < j → s.wire_count T ≤ 2)) ∧
      (k ≤ 2 → ∃ A G, ptab s.mem (root s p) va (k + 1) = some A ∧
        ptab s.mem (root s p) va (k + 2) = some G ∧
        ptab s1.mem (root s1 p) va (k + 1) = some A ∧
        s1.wire_count A + 1 = s.wire_count A ∧ 1 < s1.wire_count A ∧
        s1.mem G (slot va (k + 2)) = s.mem G (slot va (k + 2)) ∧
        uvm_pagelookup ((s1.pm p).pm_obj k) (ptp_va2o va (k + 1)) = some A) := by
  have hS := hI.tree
  have hd := dom_user s p va hp hva
  have hempty : vcount s.mem q = 0 := by
    have := hI.wire.wire p hp va 1 q hva (by omega) (by omega) hq
    omega
  obtain ⟨s1, l1, k, e, hI1, R⟩ := free_ptp_loop_released c p va hva PTP_LEVELS s q 1 l hI hp
    hmp (by omega) (by omega) (by simp [PTP_LEVELS]) hq hempty
  have hk4 := R.k4
  have hp1 : p ∈ s1.pmaps := R.pmaps ▸ hp
  refine ⟨s1, l1, k, e, R.k1, by omega, R.list, R.free, R.res, ?_, ?_⟩
  · intro j h1 h2
    obtain ⟨T, T', a1, a2, a3, a4, a5, a6⟩ := R.path j h1 (by omega)
    refine ⟨T, T', a1, a2, a3, a4, a5, ?_, ?_, a6⟩
    · rw [R.list]
      apply List.mem_append_right
      rw [List.mem_filterMap]
      exact ⟨j - 1, List.mem_range.mpr (by omega), by rw [show 1 + (j - 1) = j by omega]; exact a1⟩
    · rw [R.free]
      intro hf
      exact hS.free_sep T hf p va j hd h1 (by omega) a1
  · intro hk2
    obtain ⟨A, a1, a2, a3, a4⟩ := R.stop (by omega)
    rw [show 1 + k = k + 1 by omega] at a1 a2
    obtain ⟨G, g1, _⟩ := ptab_parent s.mem (root s p) va (k + 1) A (by omega) (by omega) a1
    refine ⟨A, G, a1, g1, a2, a3, a4, ?_, ?_⟩
    · apply R.mem_o G
      · intro j h1 h2 ej
        have := path_level c s hS p va j (k + 1 + 1) G hp hva (by omega) (by omega) (by omega)
          (by omega) ej g1
        omega
      · intro h
        exact hS.shadow p hp h.1 p va (k + 1 + 1) hd (by omega) (by omega) (h.2 ▸ g1)
    · rw [uvm_pagelookup, ptp_va2o_eq va (k + 1) (by omega) (by omega)]
      have := hI1.tree.idx p hp1 va (k + 1) hva (by omega) (by omega)
      rw [Nat.add_sub_cancel] at this
      rw [← this]
      exact a2

theorem st13_Inv : Inv cfg0 st13 := by
  obtain ⟨r, s1, e, hI1, _⟩ := get_ptp_spec cfg0 st11 st11_Inv 1 0x200000 (by decide) (by decide)
    (Or.inl (by decide))
  have : st13 = s1 := by
    simp only [st13, e, Option.map_some', Option.getD_some]
  rw [this]
  exact hI1

/-- In the state `st13` the leaf table `0x103000` of `0x200000` is empty, and
the table above it has a second child: `pmap_free_ptp` releases one table. -/
theorem free_ptp_released_witness :
    Inv cfg0 st13 ∧ 1 ∈ st13.pmaps ∧ ptab st13.mem (root st13 1) 0x200000 1 = some 0x103000 ∧
      st13.wire_count 0x103000 ≤ 1 ∧
      (pmap_free_ptp st13 1 0x103000 0x200000 []).map Prod.snd = some [0x103000] ∧
      ∃ s1 l1 k, pmap_free_ptp st13 1 0x103000 0x200000 [] = some (s1, l1) ∧ 1 ≤ k ∧ k ≤ 3 ∧
        l1 = [] ++ (List.range k).filterMap
          (fun i => ptab st13.mem (root st13 1) 0x200000 (1 + i)) ∧
        s1.free_pages = st13.free_pages ∧
        (s1.pm 1).resident_count = (st13.pm 1).resident_count - k ∧
        (∀ j, 1 ≤ j → j ≤ k → ∃ T T', ptab st13.mem (root st13 1) 0x200000 j = some T ∧
          ptab st13.mem (root st13 1) 0x200000 (j + 1) = some T' ∧
          s1.mem T' (slot 0x200000 (j + 1)) = 0 ∧
          s1.wire_count T = 0 ∧ (∀ e ∈ (s1.pm 1).pm_obj (j - 1), e.2 ≠ T) ∧
          T ∈ l1 ∧ T ∉ s1.free_pages ∧ (1 < j → st13.wire_count T ≤ 2)) ∧
        (k ≤ 2 → ∃ A G, ptab st13.mem (root st13 1) 0x200000 (k + 1) = some A ∧
          ptab st13.mem (root st13 1) 0x200000 (k + 2) = some G ∧
          ptab s1.mem (root s1 1) 0x200000 (k + 1) = some A ∧
          s1.wire_count A + 1 = st13.wire_count A ∧ 1 < s1.wire_count A ∧
          s1.mem G (slot 0x200000 (k + 2)) = st13.mem G (slot 0x200000 (k + 2)) ∧
          uvm_pagelookup ((s1.pm 1).pm_obj k) (ptp_va2o 0x200000 (k + 1)) = some A) :=
  ⟨st13_Inv, by decide, by decide, by decide, by decide!,
    free_ptp_released cfg0 st13 st13_Inv 1 0x200000 0x103000 [] (by decide) (by decide)
      (Or.inl (by decide)) (by decide) (by decide)⟩

/-! ## The shadow root -/

/-- C33, as stated: in the state `m1` (the kernel pmap has the shadow root
`0x9000`) the pmap 1 has the root `0x2000` and the shadow root `0x3000`, a
copy of the kernel pmap's, which agree at every index below 255.  The index
254 covers user addresses, `0x7f0000000000` for one.  `pmap_get_ptp` for
`VM_MAXUSER_ADDRESS`, an address of the same index outside the user half,
installs a top-level entry at the index 254 of the root and leaves the shadow
root as it is: afterwards the two roots differ at the index 254. -/
theorem get_ptp_shadow_counterexample :
    Inv cfgm m1 ∧ (m1.pm 0).pm_pdir_intel = 0x9000 ∧
      (∀ i, i < 512 → m1.mem 0x3000 i = m1.mem 0x9000 i) ∧
      1 ∈ m1.pmaps ∧ root m1 1 = 0x2000 ∧ (m1.pm 1).pm_pdir_intel = 0x3000 ∧
      m1.cr3 = 0x2000 ∧ (∀ i, i < 255 → m1.mem 0x3000 i = m1.mem 0x2000 i) ∧
      0x7f0000000000 < VM_MAXUSER_ADDRESS ∧ slot 0x7f0000000000 4 = 254 ∧
      slot VM_MAXUSER_ADDRESS 4 = 254 ∧ VM_MAXUSER_ADDRESS < 0x7f8000000000 ∧
      (pmap_get_ptp cfgm m1 1 VM_MAXUSER_ADDRESS).map
          (fun r => (r.1, r.2.mem 0x2000 254, r.2.mem 0x3000 254)) =
        some (some 0x102000, 0x100007, 0) :=
  ⟨m1_Inv, by decide, by decide!, by decide, by decide, by decide, by decide, by decide!,
    by decide, by decide, by decide, by decide, by decide!⟩

/-- C33, amended: in a state that satisfies the invariant, for a user pmap
with a shadow root whose root is loaded and `va` below the recursive slot.
`pmap_get_ptp` returns with the same root and shadow root; for `va` below
`VM_MAXUSER_ADDRESS`, at every index at which the two roots agreed, or at
which the entry of the root was changed, the two roots agree afterwards; for
`va` from `VM_MAXUSER_ADDRESS` on, the shadow root is as it was.
`pmap_free_ptp` on the leaf PTP of `va` with a `wire_count` of at most 1
returns with the same root and shadow root, and at every index at which the
two roots agreed, or at which the entry of the root was changed, the two
roots agree afterwards. -/
theorem shadow_mirror (c : config) (s : kstate) (hI : Inv c s) (p va : Nat)
    (hp : p ∈ s.pmaps) (hva : va < 0x7f8000000000) (hmp : mapped s p)
    (hne : (s.pm p).pm_pdir_intel ≠ 0) :
    (∃ r s1, pmap_get_ptp c s p va = some (r, s1) ∧
      (s1.pm p).pm_pdir_intel = (s.pm p).pm_pdir_intel ∧ root s1 p = root s p ∧
      (va < VM_MAXUSER_ADDRESS → ∀ j,
        (s.mem (s.pm p).pm_pdir_intel j = s.mem (root s p) j ∨
          s1.mem (root s p) j ≠ s.mem (root s p) j) →
        s1.mem (s.pm p).pm_pdir_intel j = s1.mem (root s p) j) ∧
      (VM_MAXUSER_ADDRESS ≤ va → ∀ j,
        s1.mem (s.pm p).pm_pdir_intel j = s.mem (s.pm p).pm_pdir_intel j)) ∧
    ∀ q l, ptab s.mem (root s p) va 1 = some q → s.wire_count q ≤ 1 →
      ∃ s1 l1, pmap_free_ptp s p q va l = some (s1, l1) ∧
        (s1.pm p).pm_pdir_intel = (s.pm p).pm_pdir_intel ∧ root s1 p = root s p ∧
        ∀ j, (s.mem (s.pm p).pm_pdir_intel j = s.mem (root s p) j ∨
            s1.mem (root s p) j ≠ s.mem (root s p) j) →
          s1.mem (s.pm p).pm_pdir_intel j = s1.mem (root s p) j := by
  refine ⟨?_, ?_⟩
  · obtain ⟨r, s1, e, _⟩ := get_ptp_spec c s hI p va hp hva hmp
    exact ⟨r, s1, e, get_ptp_shadow c s hI p va hp hva hmp hne r s1 e⟩
  · intro q l hq hw
    have hempty : vcount s.mem q = 0 := by
      have := hI.wire.wire p hp va 1 q hva (by omega) (by omega) hq
      omega
    exact free_ptp_loop_shadow c p va hva PTP_LEVELS s q 1 l hI hp hmp (by omega) (by omega)
      (by simp [PTP_LEVELS]) hq hempty hne

/-- In the state `m1`, `pmap_get_ptp` for the user address `0x7f7fffffb000`
of the index 254 copies the new top-level entry to the shadow root.  In the
state `m2` that it leaves, the leaf PTP `0x102000` of that address is empty
(`wire_count` 1): `pmap_free_ptp` releases the three tables of the path and
clears the entry of the index 254 in the root and in the shadow root. -/
theorem shadow_mirror_witness :
    (Inv cfgm m1 ∧ 0x7f7fffffb000 < VM_MAXUSER_ADDRESS ∧
      (m1.pm 0).pm_pdir_intel = 0x9000 ∧ (m1.pm 1).pm_pdir_intel = 0x3000 ∧ root m1 1 = 0x2000 ∧
      (m1.mem 0x2000 254, m1.mem 0x3000 254) = (0, 0) ∧
      (pmap_get_ptp cfgm m1 1 0x7f7fffffb000).map
          (fun r => (r.1, r.2.mem 0x2000 254, r.2.mem 0x3000 254)) =
        some (some 0x102000, 0x100007, 0x100007) ∧
      ptab m2.mem (root m2 1) 0x7f7fffffb000 1 = some 0x102000 ∧ m2.wire_count 0x102000 = 1 ∧
      (m2.mem 0x2000 254, m2.mem 0x3000 254) = (0x100007, 0x100007) ∧
      (pmap_free_ptp m2 1 0x102000 0x7f7fffffb000 []).map
          (fun r => (r.1.mem 0x2000 254, r.1.mem 0x3000 254, r.2)) =
        some (0, 0, [0x102000, 0x101000, 0x100000])) ∧
    ((∃ r s1, pmap_get_ptp cfgm m1 1 0x7f7fffffb000 = some (r, s1) ∧
        (s1.pm 1).pm_pdir_intel = (m1.pm 1).pm_pdir_intel ∧ root s1 1 = root m1 1 ∧
        (0x7f7fffffb000 < VM_MAXUSER_ADDRESS → ∀ j,
          (m1.mem (m1.pm 1).pm_pdir_intel j = m1.mem (root m1 1) j ∨
            s1.mem (root m1 1) j ≠ m1.mem (root m1 1) j) →
          s1.mem (m1.pm 1).pm_pdir_intel j = s1.mem (root m1 1) j) ∧
        (VM_MAXUSER_ADDRESS ≤ 0x7f7fffffb000 → ∀ j,
          s1.mem (m1.pm 1).pm_pdir_intel j = m1.mem (m1.pm 1).pm_pdir_intel j)) ∧
      ∀ q l, ptab m1.mem (root m1 1) 0x7f7fffffb000 1 = some q → m1.wire_count q ≤ 1 →
        ∃ s1 l1, pmap_free_ptp m1 1 q 0x7f7fffffb000 l = some (s1, l1) ∧
          (s1.pm 1).pm_pdir_intel = (m1.pm 1).pm_pdir_intel ∧ root s1 1 = root m1 1 ∧
          ∀ j, (m1.mem (m1.pm 1).pm_pdir_intel j = m1.mem (root m1 1) j ∨
              s1.mem (root m1 1) j ≠ m1.mem (root m1 1) j) →
            s1.mem (m1.pm 1).pm_pdir_intel j = s1.mem (root m1 1) j) ∧
    ((∃ r s1, pmap_get_ptp cfgm m2 1 0x7f7fffffb000 = some (r, s1) ∧
        (s1.pm 1).pm_pdir_intel = (m2.pm 1).pm_pdir_intel ∧ root s1 1 = root m2 1 ∧
        (0x7f7fffffb000 < VM_MAXUSER_ADDRESS → ∀ j,
          (m2.mem (m2.pm 1).pm_pdir_intel j = m2.mem (root m2 1) j ∨
            s1.mem (root m2 1) j ≠ m2.mem (root m2 1) j) →
          s1.mem (m2.pm 1).pm_pdir_intel j = s1.mem (root m2 1) j) ∧
        (VM_MAXUSER_ADDRESS ≤ 0x7f7fffffb000 → ∀ j,
          s1.mem (m2.pm 1).pm_pdir_intel j = m2.mem (m2.pm 1).pm_pdir_intel j)) ∧
      ∀ q l, ptab m2.mem (root m2 1) 0x7f7fffffb000 1 = some q → m2.wire_count q ≤ 1 →
        ∃ s1 l1, pmap_free_ptp m2 1 q 0x7f7fffffb000 l = some (s1, l1) ∧
          (s1.pm 1).pm_pdir_intel = (m2.pm 1).pm_pdir_intel ∧ root s1 1 = root m2 1 ∧
          ∀ j, (m2.mem (m2.pm 1).pm_pdir_intel j = m2.mem (root m2 1) j ∨
              s1.mem (root m2 1) j ≠ m2.mem (root m2 1) j) →
            s1.mem (m2.pm 1).pm_pdir_intel j = s1.mem (root m2 1) j) :=
  ⟨⟨m1_Inv, by decide, by decide, by decide, by decide, by decide, by decide!, by decide!,
      by decide!, by decide!, by decide!⟩,
    shadow_mirror cfgm m1 m1_Inv 1 0x7f7fffffb000 (by decide) (by decide) (Or.inl (by decide))
      (by decide),
    shadow_mirror cfgm m2 m2_Inv 1 0x7f7fffffb000 (by decide!) (by decide) (Or.inl (by decide!))
      (by decide!)⟩

end Pmap
